import Mathlib

/-!
# The pglucose CDCL core (`core/Solver.cc`): shallow embedding

Vectors are lists, machine integers are `Nat`/`Int`, the sentinels `lit_Undef`,
`var_Undef` and `CRef_Undef` are `none`, and the C++ `double`s that steer the heuristics
are exact non-negative fractions.  A read outside a vector yields the default element and
a write outside a vector is dropped, unless stated otherwise at the definition.
-/

namespace Glucose

/-! ## Literals, truth values -/

/-! Variables, literals and clause handles are natural numbers: a variable is its index,
a literal is the number `2 * var + sign`, a clause handle (`CRef`) is a position in the
arena. -/

def mkLit (v : Nat) (sgn : Bool) : Nat := v + v + (if sgn then 1 else 0)

def sign (p : Nat) : Bool := p % 2 == 1

def var (p : Nat) : Nat := p / 2

/-- The complement `~p`, which flips bit 0 (`q.x = p.x ^ 1`). -/
def neg (p : Nat) : Nat := if p % 2 = 0 then p + 1 else p - 1

inductive lbool where
  | l_True
  | l_False
  | l_Undef
deriving DecidableEq, Repr, Inhabited

open lbool

/-- The conversion `lbool(bool)`. -/
def lbool.ofBool (b : Bool) : lbool := if b then l_True else l_False

/-- The operator `lbool ^ bool`: flips a defined value when the bit is set. -/
def lbool.xor (a : lbool) (b : Bool) : lbool :=
  match a, b with
  | l_True, true => l_False
  | l_False, true => l_True
  | a, _ => a

/-- The byte behind an `lbool`, `toInt`. -/
def toInt : lbool → Nat
  | l_True => 0
  | l_False => 1
  | l_Undef => 2

/-! ## Exact fractions for the `double` fields -/

structure Frac where
  num : Nat
  den : Nat
deriving Repr, Inhabited, DecidableEq

namespace Frac

def ofNat (n : Nat) : Frac := ⟨n, 1⟩

def lt (a b : Frac) : Bool := decide (a.num * b.den < b.num * a.den)

def le (a b : Frac) : Bool := decide (a.num * b.den ≤ b.num * a.den)

def add (a b : Frac) : Frac := ⟨a.num * b.den + b.num * a.den, a.den * b.den⟩

def mul (a b : Frac) : Frac := ⟨a.num * b.num, a.den * b.den⟩

def inv (a : Frac) : Frac := ⟨a.den, a.num⟩

end Frac

/-! ## Clauses and the clause arena -/

structure Clause where
  lits : List Nat
  learnt : Bool
  lbd : Nat
  activity : Frac
  mark : Nat
  canBeDel : Bool
  reloced : Bool
  relocation : Nat
deriving Repr, Inhabited, DecidableEq

def Clause.size (c : Clause) : Nat := c.lits.length

/-- The literal `c[i]`. -/
def Clause.lit (c : Clause) (i : Nat) : Nat := c.lits.getD i 0

/-- Modelled from the spec: the clause arena `ClauseAllocator` (declared in
`core/SolverTypes.h`, which is not among the sources).  A handle is the position of the
clause in `mem`; `sz` and `wasted_` count 32-bit words. -/
structure ClauseAllocator where
  mem : List Clause
  sz : Nat
  wasted_ : Nat
deriving Repr, Inhabited

/-- Modelled from the spec: the number of words of a stored clause, a header word, the
literals and one extra word for a learnt clause. -/
def clauseWord32Size (size : Nat) (has_extra : Bool) : Nat :=
  1 + size + (if has_extra then 1 else 0)

namespace ClauseAllocator

def empty : ClauseAllocator := ⟨[], 0, 0⟩

/-- The clause `ca[cr]`. -/
def get (ca : ClauseAllocator) (cr : Nat) : Clause := ca.mem.getD cr default

def modify (ca : ClauseAllocator) (cr : Nat) (f : Clause → Clause) : ClauseAllocator :=
  { ca with mem := ca.mem.set cr (f (ca.get cr)) }

/-- The allocation `ca.alloc(ps, learnt)`: header, then the literal sequence. -/
def alloc (ca : ClauseAllocator) (ps : List Nat) (learnt : Bool) : Nat × ClauseAllocator :=
  (ca.mem.length,
   { ca with
     mem := ca.mem ++ [{ lits := ps, learnt := learnt, lbd := 0, activity := ⟨0, 1⟩, mark := 0,
                         canBeDel := true, reloced := false, relocation := 0 }],
     sz := ca.sz + clauseWord32Size ps.length learnt })

/-- The release `ca.free(cr)`: nothing is reclaimed, the words are counted as wasted. -/
def free (ca : ClauseAllocator) (cr : Nat) : ClauseAllocator :=
  { ca with wasted_ := ca.wasted_ + clauseWord32Size (ca.get cr).size (ca.get cr).learnt }

end ClauseAllocator

/-! ## Watch lists -/

structure Watcher where
  cref : Nat
  blocker : Nat
deriving Repr, Inhabited, DecidableEq

/-- Modelled from the spec: the watch index `OccLists` (declared in `core/SolverTypes.h`),
one list of watchers per literal, with lazy deletion through `smudge` and `cleanAll`. -/
structure OccLists where
  occs : List (List Watcher)
  dirty : List Bool
  dirties : List Nat
deriving Repr, Inhabited

namespace OccLists

def empty : OccLists := ⟨[], [], []⟩

/-- The list `occs[idx]`. -/
def get (w : OccLists) (idx : Nat) : List Watcher := w.occs.getD idx []

def init (w : OccLists) (idx : Nat) : OccLists :=
  { w with
    occs := w.occs ++ List.replicate (idx + 1 - w.occs.length) [],
    dirty := w.dirty ++ List.replicate (idx + 1 - w.dirty.length) false }

def push (w : OccLists) (idx : Nat) (x : Watcher) : OccLists :=
  { w with occs := w.occs.set idx (w.get idx ++ [x]) }

def setList (w : OccLists) (idx : Nat) (xs : List Watcher) : OccLists :=
  { w with occs := w.occs.set idx xs }

def smudge (w : OccLists) (idx : Nat) : OccLists :=
  if w.dirty.getD idx false then w
  else { w with dirty := w.dirty.set idx true, dirties := w.dirties ++ [idx] }

/-- The predicate `WatcherDeleted`: the watched clause carries mark 1. -/
def deleted (ca : ClauseAllocator) (x : Watcher) : Bool := (ca.get x.cref).mark == 1

def clean (w : OccLists) (ca : ClauseAllocator) (idx : Nat) : OccLists :=
  { w with
    occs := w.occs.set idx ((w.get idx).filter (fun x => !deleted ca x)),
    dirty := w.dirty.set idx false }

def cleanAll (w : OccLists) (ca : ClauseAllocator) : OccLists :=
  let w1 := w.dirties.foldl (fun acc idx => if acc.dirty.getD idx false then acc.clean ca idx else acc) w
  { w1 with dirties := [] }

/-- The strict removal `remove(ws, Watcher(cr, _))`: the first watcher of that clause. -/
def removeFirst (cr : Nat) : List Watcher → List Watcher
  | [] => []
  | x :: xs => if x.cref == cr then xs else x :: removeFirst cr xs

end OccLists

/-! ## The order heap and the bounded queues -/

/-- Modelled from the spec: the activity-ordered heap `Heap<VarOrderLt>` (declared in
`mtl/Heap.h`).  `indices[v]` is the position of `v` in `heap`, or `-1`. -/
structure Heap where
  heap : List Nat
  indices : List Int
deriving Repr, Inhabited

/-- The comparison `VarOrderLt`: `x` comes before `y` when its activity is larger. -/
def varOrderLt (act : List Frac) (x y : Nat) : Bool :=
  Frac.lt (act.getD y ⟨0, 1⟩) (act.getD x ⟨0, 1⟩)

namespace Heap

def empty : Heap := ⟨[], []⟩

def size (h : Heap) : Nat := h.heap.length

def inHeap (h : Heap) (n : Nat) : Bool := decide (n < h.indices.length) && decide (0 ≤ h.indices.getD n (-1))

def setAt (h : Heap) (i : Nat) (x : Nat) : Heap :=
  { heap := h.heap.set i x, indices := h.indices.set x (i : Int) }

def percolateUpLoop (act : List Frac) (x : Nat) : Nat → Nat → Heap → Heap
  | 0, i, h => h.setAt i x
  | fuel + 1, i, h =>
    let p := (i - 1) / 2
    if i != 0 && varOrderLt act x (h.heap.getD p 0) then
      percolateUpLoop act x fuel p (h.setAt i (h.heap.getD p 0))
    else h.setAt i x

def percolateUp (act : List Frac) (h : Heap) (i : Nat) : Heap :=
  percolateUpLoop act (h.heap.getD i 0) h.heap.length i h

def percolateDownLoop (act : List Frac) (x : Nat) : Nat → Nat → Heap → Heap
  | 0, i, h => h.setAt i x
  | fuel + 1, i, h =>
    let l := i * 2 + 1
    let r := (i + 1) * 2
    if l < h.heap.length then
      let child :=
        if r < h.heap.length && varOrderLt act (h.heap.getD r 0) (h.heap.getD l 0) then r else l
      if varOrderLt act (h.heap.getD child 0) x then
        percolateDownLoop act x fuel child (h.setAt i (h.heap.getD child 0))
      else h.setAt i x
    else h.setAt i x

def percolateDown (act : List Frac) (h : Heap) (i : Nat) : Heap :=
  percolateDownLoop act (h.heap.getD i 0) h.heap.length i h

def decrease (act : List Frac) (h : Heap) (n : Nat) : Heap :=
  percolateUp act h (h.indices.getD n (-1)).toNat

def insert (act : List Frac) (h : Heap) (n : Nat) : Heap :=
  let ind := h.indices ++ List.replicate (n + 1 - h.indices.length) (-1)
  let h1 : Heap := { heap := h.heap ++ [n], indices := ind.set n (h.heap.length : Int) }
  percolateUp act h1 h.heap.length

/-- The extraction `removeMin`; the caller has checked that the heap is not empty. -/
def removeMin (act : List Frac) (h : Heap) : Nat × Heap :=
  let x := h.heap.getD 0 0
  let last := h.heap.getD (h.heap.length - 1) 0
  let h1 : Heap :=
    { heap := (h.heap.set 0 last).take (h.heap.length - 1),
      indices := (h.indices.set last 0).set x (-1) }
  (x, if 1 < h1.heap.length then percolateDown act h1 0 else h1)

def buildDown (act : List Frac) : Nat → Heap → Heap
  | 0, h => h
  | i + 1, h => buildDown act i (percolateDown act h i)

def build (act : List Frac) (h : Heap) (ns : List Nat) : Heap :=
  let ind0 := h.heap.foldl (fun (ind : List Int) v => ind.set v (-1)) h.indices
  let ind1 := (ns.enum).foldl (fun (ind : List Int) (iv : Nat × Nat) => ind.set iv.2 (iv.1 : Int)) ind0
  buildDown act (ns.length / 2) { heap := ns, indices := ind1 }

end Heap

/-- Modelled from the spec: the ring buffer `bqueue` behind `lbdQueue` and `trailQueue`
(declared in `core/BoundedQueue.h`). -/
structure BQueue where
  elems : List Nat
  first : Nat
  last : Nat
  sumofqueue : Nat
  maxsize : Nat
  queuesize : Nat
deriving Repr, Inhabited

namespace BQueue

def empty : BQueue := ⟨[], 0, 0, 0, 0, 0⟩

def initSize (q : BQueue) (size : Nat) : BQueue :=
  { q with elems := List.replicate size 0, first := 0, maxsize := size, queuesize := 0, last := 0 }

def push (q : BQueue) (x : Nat) : BQueue :=
  let q1 : BQueue :=
    if q.queuesize == q.maxsize then
      { q with sumofqueue := q.sumofqueue - q.elems.getD q.last 0,
               last := if q.last + 1 == q.maxsize then 0 else q.last + 1 }
    else { q with queuesize := q.queuesize + 1 }
  let q2 : BQueue := { q1 with sumofqueue := q1.sumofqueue + x, elems := q1.elems.set q1.first x }
  if q2.first + 1 == q2.maxsize then { q2 with first := 0, last := 0 }
  else { q2 with first := q2.first + 1 }

def isvalid (q : BQueue) : Bool := q.queuesize == q.maxsize

/-- The average `getavg()`, as an exact fraction. -/
def getavg (q : BQueue) : Frac := ⟨q.sumofqueue, q.queuesize⟩

def fastclear (q : BQueue) : BQueue :=
  { q with first := 0, last := 0, queuesize := 0, sumofqueue := 0 }

end BQueue

/-! ## The solver state -/

structure VarData where
  reason : Option Nat
  level : Nat
deriving Repr, Inhabited, DecidableEq

def mkVarData (cr : Option Nat) (l : Nat) : VarData := ⟨cr, l⟩

/-- The freeze record kept beside each learnt clause (`Freeze_params`). -/
structure Freeze_params where
  nb_abs_confl : Nat
  freeze : Bool
deriving Repr, Inhabited, DecidableEq

def mkFreeze (n : Nat) (b : Bool) : Freeze_params := ⟨n, b⟩

/-- The command-line options read by the constructor. -/
structure Options where
  K : Frac
  R : Frac
  sizeLBDQueue : Nat
  sizeTrailQueue : Nat
  firstReduceDB : Nat
  incReduceDB : Nat
  specialIncReduceDB : Nat
  lbLBDFrozenClause : Nat
  lbSizeMinimizingClause : Nat
  lbLBDMinimizingClause : Nat
  var_decay : Frac
  clause_decay : Frac
  random_var_freq : Frac
  random_seed : Nat
  ccmin_mode : Nat
  phase_saving : Nat
  rnd_init_act : Bool
  garbage_frac : Frac
deriving Repr, Inhabited

/-- The option defaults of `Solver.cc`. -/
def Options.defaults : Options :=
  { K := ⟨8, 10⟩, R := ⟨14, 10⟩, sizeLBDQueue := 50, sizeTrailQueue := 5000,
    firstReduceDB := 4000, incReduceDB := 300, specialIncReduceDB := 1000,
    lbLBDFrozenClause := 30, lbSizeMinimizingClause := 30, lbLBDMinimizingClause := 6,
    var_decay := ⟨95, 100⟩, clause_decay := ⟨999, 1000⟩, random_var_freq := ⟨0, 1⟩,
    random_seed := 91648253, ccmin_mode := 2, phase_saving := 2, rnd_init_act := false,
    garbage_frac := ⟨20, 100⟩ }

structure Solver where
  -- parameters
  K : Frac
  R : Frac
  sizeLBDQueue : Nat
  sizeTrailQueue : Nat
  firstReduceDB : Nat
  incReduceDB : Nat
  specialIncReduceDB : Nat
  lbLBDFrozenClause : Nat
  lbSizeMinimizingClause : Nat
  lbLBDMinimizingClause : Nat
  var_decay : Frac
  clause_decay : Frac
  random_var_freq : Frac
  random_seed : Nat
  ccmin_mode : Nat
  phase_saving : Nat
  rnd_pol : Bool
  rnd_init_act : Bool
  garbage_frac : Frac
  -- statistics
  nbRemovedClauses : Nat
  nbReducedClauses : Nat
  nbDL2 : Nat
  nbBin : Nat
  nbUn : Nat
  nbReduceDB : Nat
  solves : Nat
  starts : Nat
  decisions : Nat
  rnd_decisions : Nat
  propagations : Nat
  conflicts : Nat
  nbstopsrestarts : Nat
  nbstopsrestartssame : Nat
  lastblockatrestart : Nat
  dec_vars : Nat
  clauses_literals : Int
  learnts_literals : Int
  max_literals : Nat
  tot_literals : Nat
  curRestart : Nat
  nbclausesbeforereduce : Nat
  sumLBD : Nat
  avg_act : Frac
  avg_psm : Int
  MYFLAG : Nat
  -- solver state
  ok : Bool
  cla_inc : Frac
  var_inc : Frac
  model : List lbool
  conflict : List Nat
  assumptions : List Nat
  ca : ClauseAllocator
  clauses : List Nat
  learnts : List Nat
  frozen_clauses : List Freeze_params
  watches : OccLists
  watchesBin : OccLists
  activity : List Frac
  assigns : List lbool
  polarity : List Bool
  decision : List Bool
  trail : List Nat
  trail_lim : List Nat
  vardata : List VarData
  qhead : Nat
  simpDB_assigns : Int
  simpDB_props : Int
  order_heap : Heap
  remove_satisfied : Bool
  seen : List Bool
  permDiff : List Nat
  analyze_stack : List Nat
  analyze_toclear : List Nat
  lastDecisionLevel : List Nat
  lbdQueue : BQueue
  trailQueue : BQueue
  -- resource constraints
  conflict_budget : Int
  propagation_budget : Int
  asynch_interrupt : Bool
deriving Repr, Inhabited

/-- The constructor `Solver::Solver()`. -/
def Solver.new (o : Options) : Solver :=
  { K := o.K, R := o.R, sizeLBDQueue := o.sizeLBDQueue, sizeTrailQueue := o.sizeTrailQueue,
    firstReduceDB := o.firstReduceDB, incReduceDB := o.incReduceDB,
    specialIncReduceDB := o.specialIncReduceDB, lbLBDFrozenClause := o.lbLBDFrozenClause,
    lbSizeMinimizingClause := o.lbSizeMinimizingClause,
    lbLBDMinimizingClause := o.lbLBDMinimizingClause,
    var_decay := o.var_decay, clause_decay := o.clause_decay,
    random_var_freq := o.random_var_freq, random_seed := o.random_seed,
    ccmin_mode := o.ccmin_mode, phase_saving := o.phase_saving, rnd_pol := false,
    rnd_init_act := o.rnd_init_act, garbage_frac := o.garbage_frac,
    nbRemovedClauses := 0, nbReducedClauses := 0, nbDL2 := 0, nbBin := 0, nbUn := 0,
    nbReduceDB := 0, solves := 0, starts := 0, decisions := 0, rnd_decisions := 0,
    propagations := 0, conflicts := 0, nbstopsrestarts := 0, nbstopsrestartssame := 0,
    lastblockatrestart := 0, dec_vars := 0, clauses_literals := 0, learnts_literals := 0,
    max_literals := 0, tot_literals := 0, curRestart := 1, nbclausesbeforereduce := 0,
    sumLBD := 0, avg_act := ⟨0, 1⟩, avg_psm := 0, MYFLAG := 0,
    ok := true, cla_inc := ⟨1, 1⟩, var_inc := ⟨1, 1⟩, model := [], conflict := [],
    assumptions := [], ca := ClauseAllocator.empty, clauses := [], learnts := [],
    frozen_clauses := [], watches := OccLists.empty, watchesBin := OccLists.empty,
    activity := [], assigns := [], polarity := [], decision := [], trail := [],
    trail_lim := [], vardata := [], qhead := 0, simpDB_assigns := -1, simpDB_props := 0,
    order_heap := Heap.empty, remove_satisfied := true, seen := [], permDiff := [],
    analyze_stack := [], analyze_toclear := [], lastDecisionLevel := [],
    lbdQueue := BQueue.empty, trailQueue := BQueue.empty,
    conflict_budget := -1, propagation_budget := -1, asynch_interrupt := false }

namespace Solver

/-! ### Inline accessors (`core/Solver.h`) -/

def nVars (s : Solver) : Nat := s.vardata.length

def nAssigns (s : Solver) : Nat := s.trail.length

def decisionLevel (s : Solver) : Nat := s.trail_lim.length

/-- The value `value(Var)` of a variable. -/
def valueVar (s : Solver) (x : Nat) : lbool := s.assigns.getD x l_Undef

/-- The value `value(Lit)` of a literal, `assigns[var(p)] ^ sign(p)`. -/
def value (s : Solver) (p : Nat) : lbool := (s.assigns.getD (var p) l_Undef).xor (sign p)

def level (s : Solver) (x : Nat) : Nat := (s.vardata.getD x default).level

def reason (s : Solver) (x : Nat) : Option Nat := (s.vardata.getD x default).reason

def newDecisionLevel (s : Solver) : Solver := { s with trail_lim := s.trail_lim ++ [s.trail.length] }

def abstractLevel (s : Solver) (x : Nat) : Nat := 2 ^ (s.level x % 32)

/-- The generator `drand(seed)`: the new seed; the value drawn is `seed / 2147483647`. -/
def drandSeed (seed : Nat) : Nat := (seed * 1389796) % 2147483647

def insertVarOrder (s : Solver) (x : Nat) : Solver :=
  if !s.order_heap.inHeap x && s.decision.getD x false then
    { s with order_heap := s.order_heap.insert s.activity x }
  else s

def setDecisionVar (s : Solver) (v : Nat) (b : Bool) : Solver :=
  let d := s.decision.getD v false
  let s1 : Solver :=
    if b && !d then { s with dec_vars := s.dec_vars + 1 }
    else if !b && d then { s with dec_vars := s.dec_vars - 1 }
    else s
  insertVarOrder { s1 with decision := s1.decision.set v b } v

/-- The method `newVar(sign, dvar)`; the new variable is `nVars()` of the old state. -/
def newVar (s : Solver) (sgn : Bool) (dvar : Bool) : Solver :=
  let v := s.nVars
  let seed1 := if s.rnd_init_act then drandSeed s.random_seed else s.random_seed
  let act : Frac := if s.rnd_init_act then ⟨seed1, 2147483647 * 100000⟩ else ⟨0, 1⟩
  let s1 : Solver :=
    { s with
      watches := (s.watches.init (mkLit v false)).init (mkLit v true),
      watchesBin := (s.watchesBin.init (mkLit v false)).init (mkLit v true),
      assigns := s.assigns ++ [l_Undef],
      vardata := s.vardata ++ [mkVarData none 0],
      random_seed := seed1,
      activity := s.activity ++ [act],
      seen := s.seen ++ [false],
      permDiff := s.permDiff ++ [0],
      polarity := s.polarity ++ [sgn],
      decision := s.decision ++ [false] }
  setDecisionVar s1 v dvar

def uncheckedEnqueue (s : Solver) (p : Nat) (frm : Option Nat) : Solver :=
  { s with
    assigns := s.assigns.set (var p) (lbool.ofBool (!sign p)),
    vardata := s.vardata.set (var p) (mkVarData frm s.decisionLevel),
    trail := s.trail ++ [p] }

def attachClause (s : Solver) (cr : Nat) : Solver :=
  let c := s.ca.get cr
  let s1 : Solver :=
    if c.size == 2 then
      { s with watchesBin := (s.watchesBin.push (neg (c.lit 0)) ⟨cr, c.lit 1⟩).push
                               (neg (c.lit 1)) ⟨cr, c.lit 0⟩ }
    else
      { s with watches := (s.watches.push (neg (c.lit 0)) ⟨cr, c.lit 1⟩).push
                            (neg (c.lit 1)) ⟨cr, c.lit 0⟩ }
  if c.learnt then { s1 with learnts_literals := s1.learnts_literals + c.size }
  else { s1 with clauses_literals := s1.clauses_literals + c.size }

def detachClause (s : Solver) (cr : Nat) (strict : Bool) : Solver :=
  let c := s.ca.get cr
  let l0 := neg (c.lit 0)
  let l1 := neg (c.lit 1)
  let s1 : Solver :=
    if c.size == 2 then
      if strict then
        let w1 := s.watchesBin.setList l0 (OccLists.removeFirst cr (s.watchesBin.get l0))
        { s with watchesBin := w1.setList l1 (OccLists.removeFirst cr (w1.get l1)) }
      else { s with watchesBin := (s.watchesBin.smudge l0).smudge l1 }
    else
      if strict then
        let w1 := s.watches.setList l0 (OccLists.removeFirst cr (s.watches.get l0))
        { s with watches := w1.setList l1 (OccLists.removeFirst cr (w1.get l1)) }
      else { s with watches := (s.watches.smudge l0).smudge l1 }
  if c.learnt then { s1 with learnts_literals := s1.learnts_literals - c.size }
  else { s1 with clauses_literals := s1.clauses_literals - c.size }

/-- Modelled from the spec: the test `locked(c)` (declared in `core/Solver.h`, which is not
among the sources): the clause is the reason of some current assignment, that is, one of its
literals is true and the clause is the reason of the variable of that literal. -/
def locked (s : Solver) (cr : Nat) : Bool :=
  (s.ca.get cr).lits.any (fun l => s.value l == l_True && s.reason (var l) == some cr)

def removeClause (s : Solver) (cr : Nat) : Solver :=
  let s1 := detachClause s cr false
  let c := s1.ca.get cr
  let s2 : Solver :=
    if locked s1 cr then
      { s1 with vardata := s1.vardata.set (var (c.lit 0))
                  { (s1.vardata.getD (var (c.lit 0)) default) with reason := none } }
    else s1
  { s2 with ca := (s2.ca.modify cr (fun c => { c with mark := 1 })).free cr }

def satisfied (s : Solver) (c : Clause) : Bool := c.lits.any (fun l => s.value l == l_True)

/-- One round of the loop of `cancelUntil`, at trail position `cl.1` holding `cl.2`. -/
def cancelStep (last : Nat) (s : Solver) (cl : Nat × Nat) : Solver :=
  let x := var cl.2
  let s1 : Solver := { s with assigns := s.assigns.set x l_Undef }
  let s2 : Solver :=
    if decide (s1.phase_saving > 1) || (s1.phase_saving == 1 && decide (cl.1 > last)) then
      { s1 with polarity := s1.polarity.set x (sign cl.2) }
    else s1
  insertVarOrder s2 x

def cancelUntil (s : Solver) (lvl : Nat) : Solver :=
  if s.decisionLevel > lvl then
    let lim := s.trail_lim.getD lvl 0
    let last := s.trail_lim.getD (s.trail_lim.length - 1) 0
    let s1 := ((s.trail.enum.drop lim).reverse).foldl (cancelStep last) s
    { s1 with qhead := lim, trail := s1.trail.take lim, trail_lim := s1.trail_lim.take lvl }
  else s

/-! ### LBD and propagation -/

/-- One round of the LBD loops: count the level of `q` unless it carries the flag. -/
def lbdStep (acc : Nat × Solver) (q : Nat) : Nat × Solver :=
  let l := acc.2.level (var q)
  if acc.2.permDiff.getD l 0 != acc.2.MYFLAG then
    (acc.1 + 1, { acc.2 with permDiff := acc.2.permDiff.set l acc.2.MYFLAG })
  else acc

/-- The LBD measure: `MYFLAG++`, then the distinct levels are counted through `permDiff`. -/
def computeLBD (s : Solver) (lits : List Nat) : Nat × Solver :=
  lits.foldl lbdStep (0, { s with MYFLAG := (s.MYFLAG + 1) % 2 ^ 32 })

/-- The `DYNAMICNBLEVEL` block of `propagate`, for the clause that has just become unit. -/
def dynamicLBD (s : Solver) (cr : Nat) : Solver :=
  let c := s.ca.get cr
  if c.learnt && decide (c.lbd > 2) then
    let r := computeLBD s c.lits
    if r.1 + 1 < c.lbd then
      { r.2 with ca := r.2.ca.modify cr (fun c =>
          { c with canBeDel := if c.lbd ≤ r.2.lbLBDFrozenClause then false else c.canBeDel,
                   lbd := r.1 }) }
    else r.2
  else s

/-- The scan of the binary watches of `p`: a conflict clause, or the state after the
unassigned blockers have been enqueued. -/
def propBin : List Watcher → Solver → Option Nat × Solver
  | [], s => (none, s)
  | w :: ws, s =>
    if s.value w.blocker == l_False then (some w.cref, s)
    else if s.value w.blocker == l_Undef then
      propBin ws (uncheckedEnqueue s w.blocker (some w.cref))
    else propBin ws s

/-- The search `for (k = 2; ...)` for a literal that is not false, from position `k`. -/
def findNewWatch (s : Solver) : List Nat → Nat → Option Nat
  | [], _ => none
  | l :: ls, k => if s.value l != l_False then some k else findNewWatch s ls (k + 1)

/-- The scan of the long watches of `p`: the watchers kept in the list of `p`, the
conflict clause if any, and the new state. -/
def propLong (p : Nat) : List Watcher → List Watcher → Solver →
    List Watcher × Option Nat × Solver
  | [], acc, s => (acc, none, s)
  | w :: rest, acc, s =>
    if s.value w.blocker == l_True then propLong p rest (acc ++ [w]) s
    else
      let cr := w.cref
      let false_lit := neg p
      let s1 : Solver :=
        if (s.ca.get cr).lit 0 == false_lit then
          { s with ca := s.ca.modify cr (fun c =>
              { c with lits := (c.lits.set 0 (c.lit 1)).set 1 false_lit }) }
        else s
      let c := s1.ca.get cr
      let first := c.lit 0
      let w1 : Watcher := ⟨cr, first⟩
      if first != w.blocker && s1.value first == l_True then propLong p rest (acc ++ [w1]) s1
      else
        match findNewWatch s1 (c.lits.drop 2) 2 with
        | some k =>
          let ck := c.lit k
          propLong p rest acc
            { s1 with
              ca := s1.ca.modify cr (fun c => { c with lits := (c.lits.set 1 ck).set k false_lit }),
              watches := s1.watches.push (neg ck) w1 }
        | none =>
          if s1.value first == l_False then
            (acc ++ [w1] ++ rest, some cr, { s1 with qhead := s1.trail.length })
          else
            propLong p rest (acc ++ [w1]) (dynamicLBD (uncheckedEnqueue s1 first (some cr)) cr)

/-- The calls `watches.cleanAll(); watchesBin.cleanAll();`. -/
def cleanWatches (s : Solver) : Solver :=
  { s with watches := s.watches.cleanAll s.ca, watchesBin := s.watchesBin.cleanAll s.ca }

/-- The statistics written when `propagate` leaves through its last line. -/
def propagateDone (s : Solver) (num_props : Nat) : Solver :=
  { s with propagations := s.propagations + num_props,
           simpDB_props := s.simpDB_props - num_props }

/-- The `while (qhead < trail.size())` loop of `propagate`; `none` when the rounds
allowed by the first argument do not empty the queue. -/
def propagateLoop : Nat → Solver → Nat → Option (Option Nat × Solver)
  | 0, s, n => if s.qhead < s.trail.length then none else some (none, propagateDone s n)
  | fuel + 1, s, n =>
    if s.qhead < s.trail.length then
      let p := s.trail.getD s.qhead 0
      let s1 : Solver := { s with qhead := s.qhead + 1 }
      match propBin (s1.watchesBin.get p) s1 with
      | (some cr, s2) => some (some cr, s2)
      | (none, s2) =>
        match propLong p (s2.watches.get p) [] s2 with
        | (kept, some cr, s3) =>
          some (some cr, propagateDone { s3 with watches := s3.watches.setList p kept } (n + 1))
        | (kept, none, s3) =>
          propagateLoop fuel { s3 with watches := s3.watches.setList p kept } (n + 1)
    else some (none, propagateDone s n)

/-- The method `propagate()`: the conflict clause or `none` (`CRef_Undef`), and the new
state.  Every round of the loop either consumes a queued literal or was preceded by the
assignment of a variable, which bounds the number of rounds. -/
def propagate (s : Solver) : Option (Option Nat × Solver) :=
  propagateLoop (s.trail.length + s.assigns.length) (cleanWatches s) 0

/-! ### Adding clauses -/

/-- The sort of `mtl/Sort.h` on literals: the increasing rearrangement. -/
def sortLits (ps : List Nat) : List Nat := ps.insertionSort (fun a b => a ≤ b)

/-- The scan of `addClause_` over the sorted literals, `p` being the literal kept last:
`none` when the clause is satisfied or a tautology, else the literals kept. -/
def addClauseScan (s : Solver) : Option Nat → List Nat → Option (List Nat)
  | _, [] => some []
  | p, q :: rest =>
    if s.value q == l_True || some q == p.map neg then none
    else if s.value q != l_False && p != some q then
      (addClauseScan s (some q) rest).map (fun r => q :: r)
    else addClauseScan s p rest

/-- The method `addClause_(ps)`: the value returned and the new state; `none` only when
`propagate` does not come back. -/
def addClause_ (s : Solver) (ps : List Nat) : Option (Bool × Solver) :=
  if !s.ok then some (false, s)
  else
    match addClauseScan s none (sortLits ps) with
    | none => some (true, s)
    | some qs =>
      if qs.length == 0 then some (false, { s with ok := false })
      else if qs.length == 1 then
        match propagate (uncheckedEnqueue s (qs.getD 0 0) none) with
        | none => none
        | some (confl, s1) => some (confl == none, { s1 with ok := (confl == none) })
      else
        let a := s.ca.alloc qs false
        some (true, attachClause { s with ca := a.2, clauses := s.clauses ++ [a.1] } a.1)

/-! ### Activities -/

def varBumpActivity (s : Solver) (v : Nat) : Solver :=
  let a := (s.activity.getD v ⟨0, 1⟩).add s.var_inc
  let s1 : Solver := { s with activity := s.activity.set v a }
  let s2 : Solver :=
    if Frac.lt ⟨10 ^ 100, 1⟩ a then
      { s1 with activity := s1.activity.map (fun x => x.mul ⟨1, 10 ^ 100⟩),
                var_inc := s1.var_inc.mul ⟨1, 10 ^ 100⟩ }
    else s1
  if s2.order_heap.inHeap v then { s2 with order_heap := s2.order_heap.decrease s2.activity v }
  else s2

def varDecayActivity (s : Solver) : Solver := { s with var_inc := s.var_inc.mul s.var_decay.inv }

def claBumpActivity (s : Solver) (cr : Nat) : Solver :=
  let a := (s.ca.get cr).activity.add s.cla_inc
  let s1 : Solver := { s with ca := s.ca.modify cr (fun c => { c with activity := a }) }
  if Frac.lt ⟨10 ^ 20, 1⟩ a then
    { s1 with
      ca := s1.learnts.foldl (fun ca l =>
              ca.modify l (fun c => { c with activity := c.activity.mul ⟨1, 10 ^ 20⟩ })) s1.ca,
      cla_inc := s1.cla_inc.mul ⟨1, 10 ^ 20⟩ }
  else s1

def claDecayActivity (s : Solver) : Solver :=
  { s with cla_inc := s.cla_inc.mul s.clause_decay.inv }

/-! ### Conflict analysis -/

/-- The swap of `analyze`, `litRedundant`: a binary clause whose first literal is false
gets its two literals exchanged. -/
def swapBinary (s : Solver) (cr : Nat) : Solver :=
  let c := s.ca.get cr
  if c.size == 2 && s.value (c.lit 0) == l_False then
    { s with ca := s.ca.modify cr (fun c => { c with lits := [c.lit 1, c.lit 0] }) }
  else s

/-- The state carried by the resolution loop of `analyze`. -/
structure AnalyzeAcc where
  s : Solver
  pathC : Int
  out_learnt : List Nat

/-- The body of `for (j ...)` in `analyze`, for the literal `q` of the clause. -/
def analyzeLit (a : AnalyzeAcc) (q : Nat) : AnalyzeAcc :=
  if !a.s.seen.getD (var q) false && decide (a.s.level (var q) > 0) then
    let s1 := varBumpActivity a.s (var q)
    let s2 : Solver := { s1 with seen := s1.seen.set (var q) true }
    if s2.level (var q) ≥ s2.decisionLevel then
      let s3 : Solver :=
        match s2.reason (var q) with
        | some r =>
          if (s2.ca.get r).learnt then { s2 with lastDecisionLevel := s2.lastDecisionLevel ++ [q] }
          else s2
        | none => s2
      { s := s3, pathC := a.pathC + 1, out_learnt := a.out_learnt }
    else { s := s2, pathC := a.pathC, out_learnt := a.out_learnt ++ [q] }
  else a

/-- The scan `while (!seen[var(trail[index--])])`, `n` being `index + 1`: the position of
the seen literal found, `none` when the scan runs off the trail. -/
def scanSeen (s : Solver) : Nat → Option Nat
  | 0 => none
  | n + 1 => if s.seen.getD (var (s.trail.getD n 0)) false then some n else scanSeen s n

/-- The `do ... while (pathC > 0)` loop of `analyze`; `n` is `index + 1`. The result is
the last literal `p` and the accumulated state. -/
def analyzeLoop : Nat → Option Nat → Option Nat → Nat → AnalyzeAcc → Option (Nat × AnalyzeAcc)
  | 0, _, _, _, _ => none
  | fuel + 1, confl, p, n, a =>
    match confl with
    | none => none
    | some cr =>
      let s1 := if p.isSome then swapBinary a.s cr else a.s
      let s2 := if (s1.ca.get cr).learnt then claBumpActivity s1 cr else s1
      let c := s2.ca.get cr
      let a1 := (if p.isSome then c.lits.drop 1 else c.lits).foldl analyzeLit
                  { s := s2, pathC := a.pathC, out_learnt := a.out_learnt }
      match scanSeen a1.s n with
      | none => none
      | some i =>
        let q := a1.s.trail.getD i 0
        let a2 : AnalyzeAcc :=
          { s := { a1.s with seen := a1.s.seen.set (var q) false },
            pathC := a1.pathC - 1, out_learnt := a1.out_learnt }
        if a2.pathC > 0 then analyzeLoop fuel (a2.s.reason (var q)) (some q) i a2
        else some (q, a2)

/-- The inner `for` of `litRedundant` over the literals of one reason clause: `false` when
the walk is abandoned. -/
def litRedundantInner (abstract_levels : Nat) : List Nat → Solver → Bool × Solver
  | [], s => (true, s)
  | p :: rest, s =>
    if !s.seen.getD (var p) false && decide (s.level (var p) > 0) then
      if (s.reason (var p)).isSome && (s.abstractLevel (var p) &&& abstract_levels) != 0 then
        litRedundantInner abstract_levels rest
          { s with seen := s.seen.set (var p) true,
                   analyze_stack := s.analyze_stack ++ [p],
                   analyze_toclear := s.analyze_toclear ++ [p] }
      else (false, s)
    else litRedundantInner abstract_levels rest s

/-- The `while (analyze_stack.size() > 0)` loop of `litRedundant`. -/
def litRedundantLoop (abstract_levels : Nat) (top : Nat) : Nat → Solver → Option (Bool × Solver)
  | 0, _ => none
  | fuel + 1, s =>
    match s.analyze_stack.getLast? with
    | none => some (true, s)
    | some q =>
      match s.reason (var q) with
      | none => none
      | some cr =>
        let s1 := swapBinary { s with analyze_stack := s.analyze_stack.dropLast } cr
        match litRedundantInner abstract_levels ((s1.ca.get cr).lits.drop 1) s1 with
        | (true, s2) => litRedundantLoop abstract_levels top fuel s2
        | (false, s2) =>
          some (false,
            { s2 with
              seen := (s2.analyze_toclear.drop top).foldl (fun sn l => sn.set (var l) false) s2.seen,
              analyze_toclear := s2.analyze_toclear.take top })

/-- The method `litRedundant(p, abstract_levels)`.  Every round pops one literal and
every pushed literal marks an unseen variable, which bounds the number of rounds. -/
def litRedundant (s : Solver) (p : Nat) (abstract_levels : Nat) : Option (Bool × Solver) :=
  litRedundantLoop abstract_levels s.analyze_toclear.length (s.seen.length + 2)
    { s with analyze_stack := [p] }

/-- The deep minimisation (`ccmin_mode == 2`) over `out_learnt[1..]`. -/
def minimizeDeep (abstract_levels : Nat) : List Nat → Solver → Option (List Nat × Solver)
  | [], s => some ([], s)
  | q :: rest, s =>
    match s.reason (var q) with
    | none => (minimizeDeep abstract_levels rest s).map (fun r => (q :: r.1, r.2))
    | some _ =>
      match litRedundant s q abstract_levels with
      | none => none
      | some (true, s1) => minimizeDeep abstract_levels rest s1
      | some (false, s1) => (minimizeDeep abstract_levels rest s1).map (fun r => (q :: r.1, r.2))

/-- The test of the basic minimisation (`ccmin_mode == 1`): is `q` kept. -/
def keepBasic (s : Solver) (q : Nat) : Bool :=
  match s.reason (var q) with
  | none => true
  | some cr =>
    ((s.ca.get cr).lits.drop 1).any
      (fun l => !s.seen.getD (var l) false && decide (s.level (var l) > 0))

/-- The swap loop of the binary minimisation: positions `i < bound` whose variable lost
the flag are exchanged with position `l`, counted down from the end. -/
def binMinLoop (s : Solver) (bound : Nat) : Nat → Nat → Nat → List Nat → Option (List Nat)
  | 0, i, _, out => if i < bound then none else some out
  | fuel + 1, i, l, out =>
    if i < bound then
      if s.permDiff.getD (var (out.getD i 0)) 0 != s.MYFLAG then
        binMinLoop s bound fuel i (l - 1) ((out.set l (out.getD i 0)).set i (out.getD l 0))
      else binMinLoop s bound fuel (i + 1) l out
    else some out

/-- The count of the binary watchers of `p` whose blocker is true and flagged; each one
found loses the flag. -/
def binMinCount : List Watcher → Nat × Solver → Nat × Solver
  | [], a => a
  | w :: ws, a =>
    if a.2.permDiff.getD (var w.blocker) 0 == a.2.MYFLAG && a.2.value w.blocker == l_True then
      binMinCount ws
        (a.1 + 1, { a.2 with permDiff := a.2.permDiff.set (var w.blocker)
                                           ((a.2.MYFLAG + 2 ^ 32 - 1) % 2 ^ 32) })
    else binMinCount ws a

/-- The minimisation of the asserting clause with binary clauses; `p` is the first UIP. -/
def binaryMinimize (s : Solver) (p : Nat) (out : List Nat) : Option (List Nat × Solver) :=
  if out.length ≤ s.lbSizeMinimizingClause then
    let r := computeLBD s out
    if r.1 ≤ r.2.lbLBDMinimizingClause then
      let s1 : Solver := { r.2 with MYFLAG := (r.2.MYFLAG + 1) % 2 ^ 32 }
      let s2 : Solver :=
        { s1 with permDiff := (out.drop 1).foldl (fun pd q => pd.set (var q) s1.MYFLAG) s1.permDiff }
      let cnt := binMinCount (s2.watchesBin.get p) (0, s2)
      if cnt.1 > 0 then
        match binMinLoop cnt.2 (out.length - cnt.1) (2 * out.length) 1 (out.length - 1) out with
        | none => none
        | some out1 =>
          some (out1.take (out1.length - cnt.1),
                { cnt.2 with nbReducedClauses := cnt.2.nbReducedClauses + 1 })
      else some (out, cnt.2)
    else some (out, r.2)
  else some (out, s)

/-- The position of the literal of highest level among `out[2..]`, starting from 1. -/
def maxLevelIdx (s : Solver) (out : List Nat) : Nat :=
  (List.range out.length).foldl
    (fun m i => if 2 ≤ i ∧ s.level (var (out.getD i 0)) > s.level (var (out.getD m 0)) then i else m) 1

/-- The `UPDATEVARACTIVITY` block at the end of `analyze`. -/
def bumpLastDecisionLevel (s : Solver) (lbd : Nat) : Solver :=
  let s1 := s.lastDecisionLevel.foldl
    (fun (t : Solver) q =>
      let c : Clause := match t.reason (var q) with
        | some r => t.ca.get r
        | none => default
      if c.lbd < lbd then varBumpActivity t (var q) else t) s
  { s1 with lastDecisionLevel := [] }

/-- The method `analyze(confl, out_learnt, out_btlevel, lbd)`: the learnt clause, the
backtrack level, the LBD and the new state; `none` when a loop leaves the trail or meets
a missing reason. -/
def analyze (s : Solver) (confl : Nat) : Option (List Nat × Nat × Nat × Solver) :=
  match analyzeLoop (s.trail.length + 1) (some confl) none s.trail.length
          { s := s, pathC := 0, out_learnt := [0] } with
  | none => none
  | some (p, a) =>
    let out0 := a.out_learnt.set 0 (neg p)
    let s0 : Solver := { a.s with analyze_toclear := out0 }
    let mini : Option (List Nat × Solver) :=
      if s0.ccmin_mode == 2 then
        let abstract_level := (out0.drop 1).foldl (fun m q => m ||| s0.abstractLevel (var q)) 0
        (minimizeDeep abstract_level (out0.drop 1) s0).map (fun r => (neg p :: r.1, r.2))
      else if s0.ccmin_mode == 1 then
        some (neg p :: (out0.drop 1).filter (keepBasic s0), s0)
      else some (out0, s0)
    match mini with
    | none => none
    | some (out1, s1) =>
      let s2 : Solver :=
        { s1 with max_literals := s1.max_literals + out0.length,
                  tot_literals := s1.tot_literals + out1.length }
      match binaryMinimize s2 p out1 with
      | none => none
      | some (out2, s3) =>
        let m := maxLevelIdx s3 out2
        let out3 :=
          if out2.length == 1 then out2
          else (out2.set m (out2.getD 1 0)).set 1 (out2.getD m 0)
        let btlevel := if out2.length == 1 then 0 else s3.level (var (out2.getD m 0))
        let r := computeLBD s3 out3
        let s4 := bumpLastDecisionLevel r.2 r.1
        some (out3, btlevel, r.1,
              { s4 with seen := s4.analyze_toclear.foldl (fun sn l => sn.set (var l) false) s4.seen })

/-- One round of the loop of `analyzeFinal`, at the trail literal `t`. -/
def analyzeFinalStep (s : Solver) (t : Nat) : Solver :=
  let x := var t
  if s.seen.getD x false then
    let s1 : Solver :=
      match s.reason x with
      | none => { s with conflict := s.conflict ++ [neg t] }
      | some cr =>
        let c := s.ca.get cr
        { s with seen := (if c.size == 2 then c.lits else c.lits.drop 1).foldl
                   (fun sn l => if s.level (var l) > 0 then sn.set (var l) true else sn) s.seen }
    { s1 with seen := s1.seen.set x false }
  else s

/-- The method `analyzeFinal(p, conflict)`. -/
def analyzeFinal (s : Solver) (p : Nat) : Solver :=
  let s0 : Solver := { s with conflict := [p] }
  if s0.decisionLevel == 0 then s0
  else
    let s1 : Solver := { s0 with seen := s0.seen.set (var p) true }
    let s2 := ((s1.trail.drop (s1.trail_lim.getD 0 0)).reverse).foldl analyzeFinalStep s1
    { s2 with seen := s2.seen.set (var p) false }

/-! ### Decisions -/

/-- The `while` loop of `pickBranchLit`; every round but the last takes one variable out
of the heap. -/
def pickLoop : Nat → Option Nat → Solver → Option Nat × Solver
  | 0, next, s => (next, s)
  | fuel + 1, next, s =>
    let again :=
      match next with
      | none => true
      | some v => s.valueVar v != l_Undef || !s.decision.getD v false
    if again then
      if s.order_heap.heap.length == 0 then (none, s)
      else
        let r := s.order_heap.removeMin s.activity
        pickLoop fuel (some r.1) { s with order_heap := r.2 }
    else (next, s)

/-- The method `pickBranchLit()`: `none` stands for `lit_Undef`. -/
def pickBranchLit (s : Solver) : Option Nat × Solver :=
  let seed1 := drandSeed s.random_seed
  let s1 : Solver := { s with random_seed := seed1 }
  let r1 : Option Nat × Solver :=
    if Frac.lt ⟨seed1, 2147483647⟩ s1.random_var_freq && !(s1.order_heap.heap.length == 0) then
      let seed2 := drandSeed s1.random_seed
      let next := s1.order_heap.heap.getD (seed2 * s1.order_heap.heap.length / 2147483647) 0
      let s2 : Solver := { s1 with random_seed := seed2 }
      (some next,
       if s2.valueVar next == l_Undef && s2.decision.getD next false then
         { s2 with rnd_decisions := s2.rnd_decisions + 1 }
       else s2)
    else (none, s1)
  let r2 := pickLoop (r1.2.order_heap.heap.length + 1) r1.1 r1.2
  match r2.1 with
  | none => (none, r2.2)
  | some v =>
    if r2.2.rnd_pol then
      let seed3 := drandSeed r2.2.random_seed
      (some (mkLit v (decide (seed3 * 2 < 2147483647))), { r2.2 with random_seed := seed3 })
    else (some (mkLit v (r2.2.polarity.getD v false)), r2.2)

/-! ### Garbage collection -/

/-- Modelled from the spec: `ClauseAllocator::reloc(cr, to)`.  The first relocation of a
clause copies it to the new arena and leaves the new handle in the old clause; later ones
read that handle. -/
def relocOne (ca dst : ClauseAllocator) (cr : Nat) : Nat × ClauseAllocator × ClauseAllocator :=
  let c := ca.get cr
  if c.reloced then (c.relocation, ca, dst)
  else
    let a := dst.alloc c.lits c.learnt
    (a.1, ca.modify cr (fun o => { o with reloced := true, relocation := a.1 }),
     a.2.modify a.1 (fun n =>
       if n.learnt then { n with mark := c.mark, activity := c.activity, lbd := c.lbd,
                                 canBeDel := c.canBeDel }
       else { n with mark := c.mark }))

def relocList : List Nat → ClauseAllocator × ClauseAllocator →
    List Nat × ClauseAllocator × ClauseAllocator
  | [], a => ([], a)
  | cr :: rest, a =>
    let r := relocOne a.1 a.2 cr
    let t := relocList rest (r.2.1, r.2.2)
    (r.1 :: t.1, t.2)

def relocWatchers : List Watcher → ClauseAllocator × ClauseAllocator →
    List Watcher × ClauseAllocator × ClauseAllocator
  | [], a => ([], a)
  | w :: rest, a =>
    let r := relocOne a.1 a.2 w.cref
    let t := relocWatchers rest (r.2.1, r.2.2)
    ({ w with cref := r.1 } :: t.1, t.2)

/-- The loop of `relocAll` over the watch lists of the literals `idx`, both indices. -/
def relocWatches : List Nat → Solver × ClauseAllocator → Solver × ClauseAllocator
  | [], a => a
  | idx :: rest, a =>
    let r1 := relocWatchers (a.1.watches.get idx) (a.1.ca, a.2)
    let r2 := relocWatchers (a.1.watchesBin.get idx) r1.2
    relocWatches rest
      ({ a.1 with watches := a.1.watches.setList idx r1.1,
                  watchesBin := a.1.watchesBin.setList idx r2.1, ca := r2.2.1 }, r2.2.2)

/-- The loop of `relocAll` over the reasons of the trail variables. -/
def relocReasons : List Nat → Solver × ClauseAllocator → Solver × ClauseAllocator
  | [], a => a
  | t :: rest, a =>
    let v := var t
    match a.1.reason v with
    | none => relocReasons rest a
    | some r =>
      if (a.1.ca.get r).reloced || locked a.1 r then
        let q := relocOne a.1.ca a.2 r
        relocReasons rest
          ({ a.1 with vardata := a.1.vardata.set v { (a.1.vardata.getD v default) with reason := some q.1 },
                      ca := q.2.1 }, q.2.2)
      else relocReasons rest a

def relocAll (s : Solver) (dst : ClauseAllocator) : Solver × ClauseAllocator :=
  let s0 := cleanWatches s
  let a1 := relocWatches (List.range (2 * s0.nVars)) (s0, dst)
  let a2 := relocReasons a1.1.trail a1
  let l := relocList a2.1.learnts (a2.1.ca, a2.2)
  let c := relocList a2.1.clauses l.2
  ({ a2.1 with learnts := l.1, clauses := c.1, ca := c.2.1 }, c.2.2)

def garbageCollect (s : Solver) : Solver :=
  let r := relocAll s ClauseAllocator.empty
  { r.1 with ca := r.2 }

/-- The check `checkGarbage()` of `core/Solver.h`: collect when
`ca.wasted() > ca.size() * garbage_frac`. -/
def checkGarbage (s : Solver) : Solver :=
  if Frac.lt ((Frac.ofNat s.ca.sz).mul s.garbage_frac) (Frac.ofNat s.ca.wasted_) then
    garbageCollect s
  else s

/-! ### Simplification of the database -/

/-- The loop of `removeSatisfied(cs)`: the handles kept and the new state. -/
def removeSatisfiedLoop : List Nat → Solver → List Nat × Solver
  | [], s => ([], s)
  | cr :: rest, s =>
    let c := s.ca.get cr
    if decide (c.size ≥ 2) && satisfied s c then removeSatisfiedLoop rest (removeClause s cr)
    else
      let r := removeSatisfiedLoop rest s
      (cr :: r.1, r.2)

def removeSatisfiedLearnts (s : Solver) : Solver :=
  let r := removeSatisfiedLoop s.learnts s
  { r.2 with learnts := r.1 }

def removeSatisfiedClauses (s : Solver) : Solver :=
  let r := removeSatisfiedLoop s.clauses s
  { r.2 with clauses := r.1 }

def rebuildOrderHeap (s : Solver) : Solver :=
  let vs := (List.range s.nVars).filter
    (fun v => s.decision.getD v false && s.valueVar v == l_Undef)
  { s with order_heap := s.order_heap.build s.activity vs }

/-- The method `simplify()`: the value returned and the new state. -/
def simplify (s : Solver) : Option (Bool × Solver) :=
  if !s.ok then some (false, { s with ok := false })
  else
    match propagate s with
    | none => none
    | some (some _, s1) => some (false, { s1 with ok := false })
    | some (none, s1) =>
      if (s1.nAssigns : Int) == s1.simpDB_assigns || decide (s1.simpDB_props > 0) then
        some (true, s1)
      else
        let s2 := removeSatisfiedLearnts s1
        let s3 := if s2.remove_satisfied then removeSatisfiedClauses s2 else s2
        let s4 := rebuildOrderHeap (checkGarbage s3)
        some (true, { s4 with simpDB_assigns := (s4.nAssigns : Int),
                              simpDB_props := s4.clauses_literals + s4.learnts_literals })

/-! ### Freezing and reduction of the learnt database -/

def psm_calc (s : Solver) (cr : Nat) : Int :=
  (s.ca.get cr).lits.foldl
    (fun (psm : Int) p =>
      if (if s.polarity.getD (var p) false then 1 else 0) == toInt (s.assigns.getD (var p) l_Undef)
      then psm - 1 else psm) 0

def freeze_stats (s : Solver) (cr : Nat) : Solver :=
  { s with avg_act := s.avg_act.add (s.ca.get cr).activity }

def to_freeze (s : Solver) (cr : Nat) : Bool × Solver :=
  let psm := psm_calc s cr
  let s1 := freeze_stats s cr
  (decide (psm ≤ 3), { s1 with avg_psm := s1.avg_psm + psm })

/-- The loop of `freeze_analyse` from position `i`, for the number of rounds given first.
The local `j` is not given a value by the source before the loop: its content at the
entry is the argument `j` of the first round.  A write `learnts[j]` or
`frozen_clauses[j]` outside the vector yields `none`. -/
def freezeLoop : Nat → Nat → Int → Solver → Option (Int × Solver)
  | 0, _, j, s => some (j, s)
  | n + 1, i, j, s =>
    let cr := s.learnts.getD i 0
    let fc := s.frozen_clauses.getD i default
    let before := fc.freeze
    let r := to_freeze s cr
    let after := r.1
    let s2 : Solver := { r.2 with frozen_clauses := r.2.frozen_clauses.set i { fc with freeze := after } }
    let s3 : Solver :=
      if before != after then
        if after then detachClause s2 cr false
        else
          let t := attachClause s2 cr
          { t with frozen_clauses :=
              t.frozen_clauses.set i { (t.frozen_clauses.getD i default) with nb_abs_confl := 0 } }
      else s2
    let s4 : Solver :=
      if Frac.le ⟨100000, 1⟩ (s3.ca.get cr).activity
          && (s3.frozen_clauses.getD i default).freeze == false then
        { s3 with frozen_clauses :=
            s3.frozen_clauses.set i { (s3.frozen_clauses.getD i default) with nb_abs_confl := 0 } }
      else s3
    let fc5 := s4.frozen_clauses.getD i default
    let s5 : Solver :=
      { s4 with frozen_clauses := s4.frozen_clauses.set i { fc5 with nb_abs_confl := fc5.nb_abs_confl + 1 } }
    if decide (fc5.nb_abs_confl + 1 ≥ 3) && decide ((s5.ca.get cr).lbd ≥ 3)
        && (s5.ca.get cr).canBeDel && !locked s5 cr then
      let s6 := removeClause s5 cr
      freezeLoop n (i + 1) j { s6 with nbRemovedClauses := s6.nbRemovedClauses + 1 }
    else
      let s6 : Solver := { s5 with ca := s5.ca.modify cr (fun c => { c with canBeDel := true }) }
      if j < 0 ∨ (s6.learnts.length : Int) ≤ j ∨ (s6.frozen_clauses.length : Int) ≤ j then none
      else
        freezeLoop n (i + 1) (j + 1)
          { s6 with learnts := s6.learnts.set j.toNat cr,
                    frozen_clauses := s6.frozen_clauses.set j.toNat
                                        (s6.frozen_clauses.getD i default) }

/-- The method `freeze_analyse()`; `j0` is the content of the local `j` at the entry. -/
def freeze_analyse (j0 : Int) (s : Solver) : Option Solver :=
  match freezeLoop s.learnts.length 0 j0 s with
  | none => none
  | some (j, s1) =>
    if j < 0 then none
    else
      some (checkGarbage
        { s1 with learnts := s1.learnts.take (s1.learnts.length - (s.learnts.length - j.toNat)) })

def reduceDB (j0 : Int) (s : Solver) : Option Solver :=
  freeze_analyse j0 { s with nbReduceDB := s.nbReduceDB + 1, avg_act := ⟨0, 1⟩, avg_psm := 0 }

/-! ### Search -/

/-- The outcome of the loop over the assumptions in `search`. -/
inductive Assume where
  | conflict
  | next (p : Nat)
  | done
deriving Repr, DecidableEq

/-- The loop `while (decisionLevel() < assumptions.size())` of `search`, over the
assumptions from position `decisionLevel()` on. -/
def assumeLoop : List Nat → Solver → Assume × Solver
  | [], s => (Assume.done, s)
  | p :: rest, s =>
    if s.value p == l_True then assumeLoop rest (newDecisionLevel s)
    else if s.value p == l_False then (Assume.conflict, analyzeFinal s (neg p))
    else (Assume.next p, s)

/-- The recording of the learnt clause in `search`, after the backjump. -/
def recordLearnt (s : Solver) (learnt_clause : List Nat) (nblevels : Nat) : Solver :=
  if learnt_clause.length == 1 then
    let t := uncheckedEnqueue s (learnt_clause.getD 0 0) none
    { t with nbUn := t.nbUn + 1 }
  else
    let a := s.ca.alloc learnt_clause true
    let cr := a.1
    let s1 : Solver :=
      { s with ca := a.2.modify cr (fun c => { c with lbd := nblevels }),
               nbDL2 := if nblevels ≤ 2 then s.nbDL2 + 1 else s.nbDL2,
               nbBin := if learnt_clause.length == 2 then s.nbBin + 1 else s.nbBin,
               learnts := s.learnts ++ [cr] }
    let f := to_freeze s1 cr
    let s2 : Solver := { f.2 with frozen_clauses := f.2.frozen_clauses ++ [{ mkFreeze 0 false with freeze := f.1 }] }
    uncheckedEnqueue (claBumpActivity (attachClause s2 cr) cr) (learnt_clause.getD 0 0) (some cr)

/-- The block of `search` that blocks a restart after a conflict. -/
def blockRestart (s : Solver) (blocked : Bool) : Bool × Solver :=
  if decide (s.conflicts > 10000) && s.lbdQueue.isvalid
      && Frac.lt (s.R.mul s.trailQueue.getavg) (Frac.ofNat s.trail.length) then
    let s1 : Solver := { s with lbdQueue := s.lbdQueue.fastclear, nbstopsrestarts := s.nbstopsrestarts + 1 }
    if !blocked then
      (true, { s1 with lastblockatrestart := s1.starts, nbstopsrestartssame := s1.nbstopsrestartssame + 1 })
    else (blocked, s1)
  else (blocked, s)

/-- The database reduction step of `search`; `none` on the division by zero or when
`freeze_analyse` writes outside a vector. -/
def reduceStep (j0 : Int) (s : Solver) : Option Solver :=
  if s.conflicts ≥ s.curRestart * s.nbclausesbeforereduce then
    if s.nbclausesbeforereduce == 0 then none
    else
      match reduceDB j0 { s with curRestart := s.conflicts / s.nbclausesbeforereduce + 1 } with
      | none => none
      | some s1 => some { s1 with nbclausesbeforereduce := s1.nbclausesbeforereduce + s1.incReduceDB }
  else some s

/-- The test of the dynamic restart in `search`:
`lbdQueue.isvalid() && lbdQueue.getavg() * K > sumLBD / conflicts`. -/
def restartTest (s : Solver) : Bool :=
  s.lbdQueue.isvalid && Frac.lt ⟨s.sumLBD, s.conflicts⟩ (s.lbdQueue.getavg.mul s.K)

/-- What one round of the loop of `search` yields: the value returned by `search`, or the
state for the next round together with the local `blocked`. -/
inductive SearchStep where
  | ret (status : lbool) (s : Solver)
  | next (blocked : Bool) (s : Solver)

/-- The branch of a round of `search` taken after a conflict `confl`. -/
def searchConflict (blocked : Bool) (s1 : Solver) (confl : Nat) : Option SearchStep :=
  let s2 : Solver := { s1 with conflicts := s1.conflicts + 1 }
  if s2.decisionLevel == 0 then some (SearchStep.ret l_False s2)
  else
    let b := blockRestart { s2 with trailQueue := s2.trailQueue.push s2.trail.length } blocked
    match analyze b.2 confl with
    | none => none
    | some (learnt_clause, backtrack_level, nblevels, s5) =>
      let s6 : Solver :=
        { s5 with lbdQueue := s5.lbdQueue.push nblevels, sumLBD := s5.sumLBD + nblevels }
      let s8 := recordLearnt (cancelUntil s6 backtrack_level) learnt_clause nblevels
      some (SearchStep.next b.1 (claDecayActivity (varDecayActivity s8)))

/-- The end of a round of `search` without conflict: the assumptions, then a decision. -/
def searchDecide (blocked : Bool) (s3 : Solver) : SearchStep :=
  match assumeLoop (s3.assumptions.drop s3.decisionLevel) s3 with
  | (Assume.conflict, s4) => SearchStep.ret l_False s4
  | (Assume.next p, s4) => SearchStep.next blocked (uncheckedEnqueue (newDecisionLevel s4) p none)
  | (Assume.done, s4) =>
    match pickBranchLit { s4 with decisions := s4.decisions + 1 } with
    | (none, s6) => SearchStep.ret l_True s6
    | (some next, s6) => SearchStep.next blocked (uncheckedEnqueue (newDecisionLevel s6) next none)

/-- The branch of a round of `search` taken when `propagate` found no conflict. -/
def searchNoConflict (j0 : Int) (blocked : Bool) (s1 : Solver) : Option SearchStep :=
  if restartTest s1 then
    some (SearchStep.ret l_Undef (cancelUntil { s1 with lbdQueue := s1.lbdQueue.fastclear } 0))
  else
    match (if s1.decisionLevel == 0 then simplify s1 else some (true, s1)) with
    | none => none
    | some (false, s2) => some (SearchStep.ret l_False s2)
    | some (true, s2) =>
      match reduceStep j0 s2 with
      | none => none
      | some s3 => some (searchDecide blocked s3)

/-- One round of the `for (;;)` loop of `search`. -/
def searchRound (j0 : Int) (blocked : Bool) (s : Solver) : Option SearchStep :=
  match propagate s with
  | none => none
  | some (some confl, s1) => searchConflict blocked s1 confl
  | some (none, s1) => searchNoConflict j0 blocked s1

/-- The `for (;;)` loop of `search`; `none` when the rounds given first are used up or a
callee yields `none`. -/
def searchLoop (j0 : Int) : Nat → Bool → Solver → Option (lbool × Solver)
  | 0, _, _ => none
  | fuel + 1, blocked, s =>
    match searchRound j0 blocked s with
    | none => none
    | some (SearchStep.ret status t) => some (status, t)
    | some (SearchStep.next b t) => searchLoop j0 fuel b t

/-- The method `search(nof_conflicts)`, run for at most `fuel` rounds of its loop. -/
def search (j0 : Int) (fuel : Nat) (s : Solver) : Option (lbool × Solver) :=
  searchLoop j0 fuel false { s with starts := s.starts + 1 }

def withinBudget (s : Solver) : Bool :=
  !s.asynch_interrupt
    && (decide (s.conflict_budget < 0) || decide ((s.conflicts : Int) < s.conflict_budget))
    && (decide (s.propagation_budget < 0) || decide ((s.propagations : Int) < s.propagation_budget))

/-- The loop `while (status == l_Undef)` of `solve_`. -/
def solveLoop (j0 : Int) (fuel : Nat) : Nat → Solver → Option (lbool × Solver)
  | 0, _ => none
  | n + 1, s =>
    match search j0 fuel s with
    | none => none
    | some (status, s1) =>
      if !withinBudget s1 then some (status, s1)
      else if status == l_Undef then solveLoop j0 fuel n s1
      else some (status, s1)

/-- The end of `solve_` after the search loop: the model is copied on `l_True`, `ok` is
cleared on `l_False` with an empty `conflict`, and the trail is cancelled to level 0. -/
def solveFinish (status : lbool) (s2 : Solver) : Solver :=
  let s3 : Solver :=
    if status == l_True then
      { s2 with model := (List.range s2.nVars).map (fun i => s2.valueVar i) }
    else if status == l_False && s2.conflict.length == 0 then { s2 with ok := false }
    else s2
  cancelUntil s3 0

/-- The method `solve_()`, the assumptions being in the field `assumptions`.  `fuel`
bounds the number of restarts and the rounds of each `search`; `j0` is the content of the
uninitialised local of `freeze_analyse`. -/
def solve_ (j0 : Int) (fuel : Nat) (s : Solver) : Option (lbool × Solver) :=
  let s0 : Solver := { s with model := [], conflict := [] }
  if !s0.ok then some (l_False, s0)
  else
    let s1 : Solver :=
      { s0 with lbdQueue := s0.lbdQueue.initSize s0.sizeLBDQueue,
                trailQueue := s0.trailQueue.initSize s0.sizeTrailQueue,
                sumLBD := 0, solves := s0.solves + 1, nbclausesbeforereduce := s0.firstReduceDB }
    match solveLoop j0 fuel fuel s1 with
    | none => none
    | some (status, s2) => some (status, solveFinish status s2)

/-- The wrapper `solve(assumps)` of `core/Solver.h`. -/
def solve (j0 : Int) (fuel : Nat) (s : Solver) (assumps : List Nat) : Option (lbool × Solver) :=
  solve_ j0 fuel { s with assumptions := assumps }

/-! ## Invariants and relations used by the theorems -/

/-- What `propagate` leaves alone: the assigned variables keep value, level and reason, the
trail only grows, and the clause lists, the levels and `ok` are unchanged. -/
structure PropFrame (s t : Solver) : Prop where
  assigns_len : t.assigns.length = s.assigns.length
  vardata_len : t.vardata.length = s.vardata.length
  keep : ∀ x, s.assigns.getD x l_Undef ≠ l_Undef →
    t.assigns.getD x l_Undef = s.assigns.getD x l_Undef ∧
    t.vardata.getD x default = s.vardata.getD x default
  trail_ext : ∃ u, t.trail = s.trail ++ u
  clauses_eq : t.clauses = s.clauses
  learnts_eq : t.learnts = s.learnts
  trail_lim_eq : t.trail_lim = s.trail_lim
  ok_eq : t.ok = s.ok
  mem_len : t.ca.mem.length = s.ca.mem.length
  conflict_eq : t.conflict = s.conflict
  model_eq : t.model = s.model
  assumptions_eq : t.assumptions = s.assumptions

/-- The literals met by propagation name existing variables and the watchers of long
clauses name stored clauses. -/
structure RangeInv (s : Solver) : Prop where
  bin : ∀ ws ∈ s.watchesBin.occs, ∀ w ∈ ws, var w.blocker < s.assigns.length
  mem : ∀ c ∈ s.ca.mem, 2 ≤ c.lits.length ∧ ∀ l ∈ c.lits, var l < s.assigns.length
  long : ∀ ws ∈ s.watches.occs, ∀ w ∈ ws, w.cref < s.ca.mem.length
  trail : ∀ l ∈ s.trail, var l < s.assigns.length

/-- The measure of `propagate`: trail length plus number of unassigned variables. -/
def propMeasure (s : Solver) : Nat := s.trail.length + s.assigns.count l_Undef

/-- The fields that the LBD bookkeeping does not touch. -/
structure SameCore (s t : Solver) : Prop where
  ca_eq : t.ca = s.ca
  assigns_eq : t.assigns = s.assigns
  watches_eq : t.watches = s.watches
  watchesBin_eq : t.watchesBin = s.watchesBin
  trail_eq : t.trail = s.trail
  qhead_eq : t.qhead = s.qhead

/-- The clause `cr` is attached: its two watchers stand in the lists of the complements of
its first two literals, in `watchesBin` for a binary clause and in `watches` otherwise. -/
def attached (s : Solver) (cr : Nat) : Prop :=
  ((s.ca.get cr).size = 2 →
    (⟨cr, (s.ca.get cr).lit 1⟩ : Watcher) ∈ s.watchesBin.get (neg ((s.ca.get cr).lit 0)) ∧
    (⟨cr, (s.ca.get cr).lit 0⟩ : Watcher) ∈ s.watchesBin.get (neg ((s.ca.get cr).lit 1))) ∧
  ((s.ca.get cr).size ≠ 2 →
    (⟨cr, (s.ca.get cr).lit 1⟩ : Watcher) ∈ s.watches.get (neg ((s.ca.get cr).lit 0)) ∧
    (⟨cr, (s.ca.get cr).lit 0⟩ : Watcher) ∈ s.watches.get (neg ((s.ca.get cr).lit 1)))

/-- Consistency of trail, `trail_lim` and `assigns`: the fences are non-decreasing and
inside the trail, no variable is on the trail twice, every assigned variable is on the
trail, and the recorded level of a trail variable is the number of fences at or below its
position. -/
structure TrailWF (s : Solver) : Prop where
  lim_sorted : s.trail_lim.Sorted (fun a b => a ≤ b)
  lim_le : ∀ x ∈ s.trail_lim, x ≤ s.trail.length
  nodup : (s.trail.map var).Nodup
  assigned : ∀ x, x < s.assigns.length → s.assigns.getD x l_Undef ≠ l_Undef → x ∈ s.trail.map var
  level_ok : ∀ i, i < s.trail.length →
    s.level (var (s.trail.getD i 0)) = (s.trail_lim.filter (fun k => decide (k ≤ i))).length

/-- The literals of the reason clause `cr` that `analyzeFinal` walks through. -/
def finalScan (s : Solver) (cr : Nat) : List Nat :=
  if (s.ca.get cr).size == 2 then (s.ca.get cr).lits else (s.ca.get cr).lits.drop 1

/-- The variable `y` takes part in the derivation of the assignment of `x`: it is `x`, or it
occurs, at a level above 0, in the reason clause of a variable that does. -/
inductive DerivedFrom (s : Solver) (x : Nat) : Nat → Prop where
  | self : DerivedFrom s x x
  | step (y cr l : Nat) : DerivedFrom s x y → s.reason y = some cr → l ∈ finalScan s cr →
      0 < s.level (var l) → DerivedFrom s x (var l)

/-- A state without variables, clauses, assumptions, trail and conflicts, as `solve_`
hands it to `search` on a fresh solver. -/
structure EmptyProblem (s : Solver) : Prop where
  trail : s.trail = []
  vardata : s.vardata = []
  clauses : s.clauses = []
  learnts : s.learnts = []
  assumptions : s.assumptions = []
  heap : s.order_heap.heap = []
  ok : s.ok = true
  sumq : s.lbdQueue.sumofqueue = 0
  wasted : s.ca.wasted_ = 0
  trail_lim : s.trail_lim = []
  reduce : s.conflicts < s.curRestart * s.nbclausesbeforereduce
  interrupt : s.asynch_interrupt = false
  cbudget : s.conflict_budget < 0
  pbudget : s.propagation_budget < 0
  conflict : s.conflict = []

/-! ## Problems used as concrete inputs -/

/-- The calls `addClause_` for the clauses of a list, in order. -/
def addClauses : List (List Nat) → Solver → Option Solver
  | [], s => some s
  | c :: cs, s =>
    match addClause_ s c with
    | none => none
    | some (_, t) => addClauses cs t

/-- A solver with the given options, one decision variable for each saved phase of the
list, and the clauses of the list. -/
def problem (o : Options) (signs : List Bool) (cls : List (List Nat)) : Option Solver :=
  addClauses cls (signs.foldl (fun s b => newVar s b true) (Solver.new o))

/-- The literal `l` holds under the total assignment `m` of the variables. -/
def litHolds (m : List Bool) (l : Nat) : Bool := m.getD (var l) false != sign l

/-- Every clause of the list has a literal that holds under `m`. -/
def satisfiesAll (m : List Bool) (cls : List (List Nat)) : Bool :=
  cls.all (fun c => c.any (litHolds m))

/-- The clauses `(x1 ∨ x2) (¬x2 ∨ ¬x4 ∨ x3) (¬x2 ∨ ¬x4 ∨ ¬x3) (x4 ∨ x3) (x4 ∨ ¬x3)`. -/
def basicMinClauses : List (List Nat) := [[0, 2], [3, 7, 4], [3, 7, 5], [6, 4], [6, 5]]

/-- One variable, no clause. -/
def oneVar : Solver := newVar (Solver.new Options.defaults) true true

/-- Two variables, no clause. -/
def twoVars : Solver := newVar oneVar true true

/-- The state after `addClause_([x1])` on one variable. -/
def unitState : Solver := ((addClause_ oneVar [0]).map Prod.snd).getD oneVar

/-- The state after `addClause_([x1])` and `addClause_([¬x1])`. -/
def unsatState : Solver := ((addClause_ unitState [1]).map Prod.snd).getD unitState

/-- Two variables and the clause `(x1 ∨ x2)`. -/
def orProblem : Solver := ((addClause_ twoVars [0, 2]).map Prod.snd).getD twoVars

/-- The state of `search` on `orProblem` under the assumptions `¬x1, ¬x2` when it reaches the
loop over the assumptions for the second time: `¬x1` decided, `x2` propagated. -/
def orAtAssumptions : Solver :=
  ((propagate (uncheckedEnqueue (newDecisionLevel { orProblem with assumptions := [1, 3] }) 1 none)).map
    Prod.snd).getD orProblem

/-- The solver states met in a run: the fresh solver, and what `newVar`, `uncheckedEnqueue`,
`newDecisionLevel`, `propagate` and `cancelUntil` make of such a state; every other
operation of the solver changes `trail`, `trail_lim` and `qhead` through these only, which
is the last rule. -/
inductive Reachable : Solver → Prop where
  | init (o : Options) : Reachable (Solver.new o)
  | newVar {s : Solver} (sgn dvar : Bool) : Reachable s → Reachable (newVar s sgn dvar)
  | enqueue {s : Solver} (p : Nat) (frm : Option Nat) :
      Reachable s → Reachable (uncheckedEnqueue s p frm)
  | level {s : Solver} : Reachable s → Reachable (newDecisionLevel s)
  | propagate {s : Solver} {r : Option Nat × Solver} :
      Reachable s → propagate s = some r → Reachable r.2
  | cancel {s : Solver} (lvl : Nat) : Reachable s → Reachable (cancelUntil s lvl)
  | other {s t : Solver} : Reachable s → t.trail = s.trail → t.trail_lim = s.trail_lim →
      t.qhead = s.qhead → Reachable t

/-- The queue head is inside the trail; the fences are sorted and inside the trail. -/
def QueueOK (s : Solver) : Prop :=
  s.qhead ≤ s.trail.length ∧ s.trail_lim.Sorted (fun a b => a ≤ b) ∧
  ∀ x ∈ s.trail_lim, x ≤ s.trail.length

/-- Two variables, the clauses `(¬x1 ∨ x2)` and `(¬x1 ∨ ¬x2)`, and the decision `x1`
enqueued at level 1. -/
def binConflictState : Solver :=
  uncheckedEnqueue (newDecisionLevel ((addClauses [[1, 2], [1, 3]] twoVars).getD twoVars)) 0 none

/-- No entry of `permDiff` carries a stamp newer than `MYFLAG`: the stamps written so far
are `MYFLAG` values of the past. -/
def StampsFresh (s : Solver) : Prop := ∀ l, s.permDiff.getD l 0 ≤ s.MYFLAG

/-- What conflict analysis leaves alone outside the LBD loops: the levels and reasons, the
stamps and `MYFLAG`. -/
structure StampFrame (s t : Solver) : Prop where
  vardata_eq : t.vardata = s.vardata
  permDiff_eq : t.permDiff = s.permDiff
  flag_eq : t.MYFLAG = s.MYFLAG

/-- Three variables, no clause. -/
def threeVars : Solver := newVar twoVars true true

/-- Three variables, the clauses `(¬x1 ∨ ¬x2 ∨ x3)` and `(¬x1 ∨ ¬x2 ∨ ¬x3)`, the decision
`x1` propagated at level 1 and the decision `x2` enqueued at level 2. -/
def twoLevelState : Solver :=
  let s0 := (addClauses [[1, 3, 4], [1, 3, 5]] threeVars).getD threeVars
  let s1 := uncheckedEnqueue (newDecisionLevel s0) 0 none
  let s2 := ((propagate s1).map Prod.snd).getD s1
  uncheckedEnqueue (newDecisionLevel s2) 2 none

/-- The state in which `propagate` leaves `twoLevelState`: the clause 1 is in conflict. -/
def twoLevelConflict : Solver := ((propagate twoLevelState).map Prod.snd).getD twoLevelState

/-- The state in which the conflict branch of `search` calls `analyze`: `conflicts` is
incremented, the trail size pushed on `trailQueue`, and the restart possibly blocked. -/
def conflictState (blocked : Bool) (s1 : Solver) : Solver :=
  let s2 : Solver := { s1 with conflicts := s1.conflicts + 1 }
  (blockRestart { s2 with trailQueue := s2.trailQueue.push s2.trail.length } blocked).2

/-- What the bookkeeping of the clause database and conflict analysis leave alone: the
counters of the reduction schedule, the trail, its fences and the queue head. -/
structure RunFrame (s t : Solver) : Prop where
  conflicts_eq : t.conflicts = s.conflicts
  curRestart_eq : t.curRestart = s.curRestart
  before_eq : t.nbclausesbeforereduce = s.nbclausesbeforereduce
  inc_eq : t.incReduceDB = s.incReduceDB
  nbReduceDB_eq : t.nbReduceDB = s.nbReduceDB
  trail_eq : t.trail = s.trail
  trail_lim_eq : t.trail_lim = s.trail_lim
  qhead_eq : t.qhead = s.qhead

/-- What the loop of `freeze_analyse` leaves alone: the assignment, the levels and reasons,
the literals of every clause, the mark of every locked clause, and the watchers present
in the two watch indices. -/
structure KeepFrame (s t : Solver) : Prop where
  assigns_eq : t.assigns = s.assigns
  vardata_eq : t.vardata = s.vardata
  lits_eq : ∀ x, (t.ca.get x).lits = (s.ca.get x).lits
  mark_eq : ∀ x, locked s x = true → (t.ca.get x).mark = (s.ca.get x).mark
  watches_mono : ∀ l w, w ∈ s.watches.get l → w ∈ t.watches.get l
  bin_mono : ∀ l w, w ∈ s.watchesBin.get l → w ∈ t.watchesBin.get l

/-- The state of a relocation from the arena `ca0`: `p.1` is `ca0` with forwarding marks,
`p.2` is the new arena.  The clauses of `p.1` have the content they have in `ca0`, and a
clause marked as relocated has its copy in `p.2`, at the handle in its forwarding field,
with the same literals, the same learnt flag and, for a learnt clause, the same LBD (the
LBD of the copy of another clause is 0). -/
structure Fwd (ca0 : ClauseAllocator) (p : ClauseAllocator × ClauseAllocator) : Prop where
  len : p.1.mem.length = ca0.mem.length
  same : ∀ x, (p.1.get x).lits = (ca0.get x).lits ∧ (p.1.get x).learnt = (ca0.get x).learnt ∧
    (p.1.get x).lbd = (ca0.get x).lbd
  bound : ∀ x, (p.1.get x).reloced = true → (p.1.get x).relocation < p.2.mem.length
  fwd : ∀ x, (p.1.get x).reloced = true →
    (p.2.get (p.1.get x).relocation).lits = (ca0.get x).lits ∧
    (p.2.get (p.1.get x).relocation).learnt = (ca0.get x).learnt ∧
    (p.2.get (p.1.get x).relocation).lbd =
      (if (ca0.get x).learnt = true then (ca0.get x).lbd else 0)

/-- A forwarding mark, once written, stays. -/
def Ext (p q : ClauseAllocator × ClauseAllocator) : Prop :=
  ∀ x, (p.1.get x).reloced = true →
    (q.1.get x).reloced = true ∧ (q.1.get x).relocation = (p.1.get x).relocation

/-- The handle that `garbageCollect` gives to the clause at the handle `x`: the content of
the forwarding field of `x` in the old arena at the end of `relocAll`. -/
def gcMap (s : Solver) (x : Nat) : Nat :=
  ((relocAll s ClauseAllocator.empty).1.ca.get x).relocation

/-- The state of `relocAll` after the loop over the watch lists. -/
def gcWatched (s : Solver) : Solver × ClauseAllocator :=
  relocWatches (List.range (2 * (cleanWatches s).nVars)) (cleanWatches s, ClauseAllocator.empty)

/-- The state of `relocAll` after the loop over the reasons. -/
def gcReasons (s : Solver) : Solver × ClauseAllocator :=
  relocReasons (gcWatched s).1.trail (gcWatched s)

/-- The outcome of the loop of `relocAll` over the learnt clauses. -/
def gcLearnts (s : Solver) : List Nat × ClauseAllocator × ClauseAllocator :=
  relocList (gcReasons s).1.learnts ((gcReasons s).1.ca, (gcReasons s).2)

/-- The outcome of the loop of `relocAll` over the original clauses. -/
def gcClauses (s : Solver) : List Nat × ClauseAllocator × ClauseAllocator :=
  relocList (gcReasons s).1.clauses (gcLearnts s).2

/-- The clause `h` has a watcher, after the cleaning of the watch lists, in a list of a
literal of the solver. -/
def watchedAfterClean (s : Solver) (h : Nat) : Prop :=
  ∃ idx, idx < 2 * s.nVars ∧ ∃ w, (w ∈ (cleanWatches s).watches.get idx ∨
    w ∈ (cleanWatches s).watchesBin.get idx) ∧ w.cref = h

/-- The vectors indexed by variables and by literals have the size given by `nVars()`. -/
def SizesOK (s : Solver) : Prop :=
  s.vardata.length = s.assigns.length ∧ s.decision.length = s.assigns.length ∧
  s.seen.length = s.assigns.length ∧
  s.watches.occs.length = 2 * s.assigns.length ∧
  s.watchesBin.occs.length = 2 * s.assigns.length ∧
  s.watches.dirty.length = 2 * s.assigns.length ∧
  s.watchesBin.dirty.length = 2 * s.assigns.length

/-- The trail literals are true literals of existing variables, the queue head is inside
the trail and no fence lies beyond it. -/
def TrailOK (s : Solver) : Prop :=
  (∀ l ∈ s.trail, var l < s.assigns.length ∧ s.value l = l_True) ∧
  s.qhead ≤ s.trail.length ∧ (∀ x ∈ s.trail_lim, x ≤ s.qhead)

/-- A well-formed stored clause over `n` variables: two literals at least, no literal
twice, literals of existing variables. -/
def GoodClause (n : Nat) (c : Clause) : Prop :=
  2 ≤ c.lits.length ∧ c.lits.Nodup ∧ (∀ l ∈ c.lits, var l < n)

/-- Every clause of the arena is well formed or has no literal at all (the copy of a
handle outside the arena), and none is flagged as relocated. -/
def ArenaOK (s : Solver) : Prop :=
  ∀ c ∈ s.ca.mem, c.reloced = false ∧ (c.lits = [] ∨ GoodClause s.assigns.length c)

/-- What a watcher of the list of `p` says about its clause. -/
def LongWatcherOK (s : Solver) (p : Nat) (w : Watcher) : Prop :=
  w.cref < s.ca.mem.length ∧ 2 < (s.ca.get w.cref).lits.length ∧
  ((s.ca.get w.cref).lit 0 = neg p ∨ (s.ca.get w.cref).lit 1 = neg p) ∧
  w.blocker ∈ (s.ca.get w.cref).lits

def BinWatcherOK (s : Solver) (p : Nat) (w : Watcher) : Prop :=
  w.cref < s.ca.mem.length ∧ (s.ca.get w.cref).lits.length = 2 ∧
  neg p ∈ (s.ca.get w.cref).lits ∧ w.blocker ∈ (s.ca.get w.cref).lits ∧ w.blocker ≠ neg p

/-- The watch lists agree with the clauses they name. -/
def WatchOK (s : Solver) : Prop :=
  ∀ p < 2 * s.assigns.length,
    ((s.watches.get p).map Watcher.cref).Nodup ∧
    (∀ w ∈ s.watches.get p, LongWatcherOK s p w) ∧
    (∀ w ∈ s.watchesBin.get p, BinWatcherOK s p w)

/-- A watcher of a deleted clause stands in a list that is marked dirty. -/
def DirtyOK (s : Solver) : Prop :=
  (∀ p < 2 * s.assigns.length,
    (∀ w ∈ s.watches.get p, (s.ca.get w.cref).mark = 1 → s.watches.dirty.getD p false = true) ∧
    (∀ w ∈ s.watchesBin.get p, (s.ca.get w.cref).mark = 1 →
      s.watchesBin.dirty.getD p false = true) ∧
    (s.watches.dirty.getD p false = true → p ∈ s.watches.dirties) ∧
    (s.watchesBin.dirty.getD p false = true → p ∈ s.watchesBin.dirties))

/-- The clause `cr` has a watcher in the list of the complement of its literal `i`. -/
def hasWatch (s : Solver) (cr : Nat) (i : Nat) : Prop :=
  if (s.ca.get cr).lits.length = 2 then
    ∃ w ∈ s.watchesBin.get (neg ((s.ca.get cr).lit i)), w.cref = cr
  else ∃ w ∈ s.watches.get (neg ((s.ca.get cr).lit i)), w.cref = cr

/-- The clauses named by the list `clauses` are stored, not deleted and watched on their
first two literals. -/
def ClausesOK (s : Solver) : Prop :=
  ∀ cr ∈ s.clauses, cr < s.ca.mem.length ∧ 2 ≤ (s.ca.get cr).lits.length ∧
    (s.ca.get cr).mark ≠ 1 ∧ hasWatch s cr 0 ∧ hasWatch s cr 1

/-- The watched-literal invariant of the clause `cr`: a watched literal that is false and
has left the queue is accompanied by a true literal of no higher level. -/
def WatchedInv (s : Solver) (cr : Nat) : Prop :=
  ∀ i < 2, s.value ((s.ca.get cr).lit i) = l_False →
    neg ((s.ca.get cr).lit i) ∈ s.trail.take s.qhead →
    ∃ l ∈ (s.ca.get cr).lits, s.value l = l_True ∧
      s.level (var l) ≤ s.level (var ((s.ca.get cr).lit i))

def TwoWatched (s : Solver) : Prop := ∀ cr ∈ s.clauses, WatchedInv s cr

/-- The clause `cr` implies the trail literal at position `i`: the literal is the first of
the clause (or the second of a binary clause) and the complements of the others come
before it on the trail; a binary reason is not deleted and is watched. -/
def ReasonOKAt (s : Solver) (i : Nat) (cr : Nat) : Prop :=
  cr < s.ca.mem.length ∧ 2 ≤ (s.ca.get cr).lits.length ∧
  ((s.ca.get cr).lit 0 = s.trail.getD i 0 ∨
    ((s.ca.get cr).lits.length = 2 ∧ (s.ca.get cr).lit 1 = s.trail.getD i 0)) ∧
  (∀ l ∈ (s.ca.get cr).lits, l ≠ s.trail.getD i 0 → neg l ∈ s.trail.take i) ∧
  ((s.ca.get cr).lits.length = 2 → (s.ca.get cr).mark ≠ 1 ∧
    ∃ p ∈ List.range (2 * s.assigns.length), ∃ w ∈ s.watchesBin.get p, w.cref = cr)

/-- The reason of every trail literal above level 0 implies it. -/
def ReasonsOK (s : Solver) : Prop :=
  ∀ i < s.trail.length, 0 < s.level (var (s.trail.getD i 0)) →
    ∀ cr ∈ (s.reason (var (s.trail.getD i 0))).toList, ReasonOKAt s i cr

instance (s : Solver) : Decidable (SizesOK s) := by unfold SizesOK; infer_instance

instance (s : Solver) : Decidable (TrailOK s) := by unfold TrailOK; infer_instance

instance (n : Nat) (c : Clause) : Decidable (GoodClause n c) := by
  unfold GoodClause; infer_instance

instance (s : Solver) : Decidable (ArenaOK s) := by unfold ArenaOK; infer_instance

instance (s : Solver) (p : Nat) (w : Watcher) : Decidable (LongWatcherOK s p w) := by
  unfold LongWatcherOK; infer_instance

instance (s : Solver) (p : Nat) (w : Watcher) : Decidable (BinWatcherOK s p w) := by
  unfold BinWatcherOK; infer_instance

instance (s : Solver) : Decidable (WatchOK s) := by unfold WatchOK; infer_instance

instance (s : Solver) : Decidable (DirtyOK s) := by unfold DirtyOK; infer_instance

instance (s : Solver) (cr i : Nat) : Decidable (hasWatch s cr i) := by
  unfold hasWatch; infer_instance

instance (s : Solver) : Decidable (ClausesOK s) := by unfold ClausesOK; infer_instance

instance (s : Solver) (cr : Nat) : Decidable (WatchedInv s cr) := by
  unfold WatchedInv; infer_instance

instance (s : Solver) : Decidable (TwoWatched s) := by unfold TwoWatched; infer_instance

instance (s : Solver) (i cr : Nat) : Decidable (ReasonOKAt s i cr) := by
  unfold ReasonOKAt; infer_instance

instance (s : Solver) : Decidable (ReasonsOK s) := by unfold ReasonsOK; infer_instance

instance (s : Solver) : Decidable (TrailWF s) :=
  decidable_of_iff
    (s.trail_lim.Sorted (fun a b => a ≤ b) ∧ (∀ x ∈ s.trail_lim, x ≤ s.trail.length) ∧
      (s.trail.map var).Nodup ∧
      (∀ x, x < s.assigns.length → s.assigns.getD x l_Undef ≠ l_Undef → x ∈ s.trail.map var) ∧
      (∀ i, i < s.trail.length →
        s.level (var (s.trail.getD i 0)) = (s.trail_lim.filter (fun k => decide (k ≤ i))).length))
    ⟨fun h => ⟨h.1, h.2.1, h.2.2.1, h.2.2.2.1, h.2.2.2.2⟩,
     fun h => ⟨h.lim_sorted, h.lim_le, h.nodup, h.assigned, h.level_ok⟩⟩

/-- No watcher names a deleted clause. -/
def NoDeleted (s : Solver) : Prop :=
  ∀ p < 2 * s.assigns.length,
    (∀ w ∈ s.watches.get p, (s.ca.get w.cref).mark ≠ 1) ∧
    (∀ w ∈ s.watchesBin.get p, (s.ca.get w.cref).mark ≠ 1)

/-- The part of the invariant that holds all through `propagate`. -/
structure PropInv (s : Solver) : Prop where
  sizes : SizesOK s
  wf : TrailWF s
  trail : TrailOK s
  arena : ArenaOK s
  watch : WatchOK s
  nodel : NoDeleted s
  clauses : ClausesOK s
  reasons : ReasonsOK s

/-- The watched-literal invariant while the watchers `rb` (binary) and `rl` (long) of the
literal `p` have not been visited yet. -/
def Pending (s : Solver) (p : Nat) (rb rl : List Watcher) : Prop :=
  ∀ cr ∈ s.clauses, ∀ i < 2, s.value ((s.ca.get cr).lit i) = l_False →
    neg ((s.ca.get cr).lit i) ∈ s.trail.take s.qhead →
    (∃ l ∈ (s.ca.get cr).lits, s.value l = l_True ∧
      s.level (var l) ≤ s.level (var ((s.ca.get cr).lit i))) ∨
    ((s.ca.get cr).lit i = neg p ∧
      (((s.ca.get cr).lits.length = 2 ∧ ∃ w ∈ rb, w.cref = cr) ∨
       ((s.ca.get cr).lits.length ≠ 2 ∧ ∃ w ∈ rl, w.cref = cr)))

/-- The watched-literal invariant for the watches below the current decision level. -/
def LowWatched (s : Solver) : Prop :=
  ∀ cr ∈ s.clauses, ∀ i < 2, s.value ((s.ca.get cr).lit i) = l_False →
    s.level (var ((s.ca.get cr).lit i)) < s.decisionLevel →
    ∃ l ∈ (s.ca.get cr).lits, s.value l = l_True ∧
      s.level (var l) ≤ s.level (var ((s.ca.get cr).lit i))

/-- The clause `cr` is falsified and holds a literal of the current decision level. -/
def ConflictAt (s : Solver) (cr : Nat) : Prop :=
  cr < s.ca.mem.length ∧ 2 ≤ (s.ca.get cr).lits.length ∧
  (∀ l ∈ (s.ca.get cr).lits, s.value l = l_False) ∧
  ∃ l ∈ (s.ca.get cr).lits, s.level (var l) = s.decisionLevel

/-- What the reason given to `uncheckedEnqueue` for the literal `q` must satisfy. -/
def ReasonFor (s : Solver) (q : Nat) (r : Option Nat) : Prop :=
  ∀ cr ∈ r.toList, cr < s.ca.mem.length ∧ 2 ≤ (s.ca.get cr).lits.length ∧
    ((s.ca.get cr).lit 0 = q ∨ ((s.ca.get cr).lits.length = 2 ∧ (s.ca.get cr).lit 1 = q)) ∧
    (∀ l ∈ (s.ca.get cr).lits, l ≠ q → neg l ∈ s.trail) ∧
    ((s.ca.get cr).lits.length = 2 → (s.ca.get cr).mark ≠ 1 ∧
      ∃ p ∈ List.range (2 * s.assigns.length), ∃ w ∈ s.watchesBin.get p, w.cref = cr)

/-- The literal `p` is the one taken from the queue last. -/
def Current (s : Solver) (p : Nat) : Prop :=
  0 < s.qhead ∧ s.qhead ≤ s.trail.length ∧ s.trail.getD (s.qhead - 1) 0 = p ∧
  ∀ x ∈ s.trail_lim, x ≤ s.qhead - 1

/-- The state `s` with the long watch list of `p` replaced by `l`. -/
def virt (s : Solver) (p : Nat) (l : List Watcher) : Solver :=
  { s with watches := s.watches.setList p l }

/-- The exchange at the head of the visit of a long clause: the false literal goes to
position 1. -/
def swapFalse (p cr : Nat) (s : Solver) : Solver :=
  if (s.ca.get cr).lit 0 == neg p then
    { s with ca := s.ca.modify cr (fun c =>
        { c with lits := (c.lits.set 0 (c.lit 1)).set 1 (neg p) }) }
  else s

/-- The visit of one long watcher `w` of `p`: the watchers kept in the list of `p`, the
conflict clause if any, and the new state. -/
def longStep (p : Nat) (w : Watcher) (s : Solver) : List Watcher × Option Nat × Solver :=
  if s.value w.blocker == l_True then ([w], none, s)
  else
    let s1 := swapFalse p w.cref s
    let c := s1.ca.get w.cref
    let w1 : Watcher := ⟨w.cref, c.lit 0⟩
    if c.lit 0 != w.blocker && s1.value (c.lit 0) == l_True then ([w1], none, s1)
    else
      match findNewWatch s1 (c.lits.drop 2) 2 with
      | some k =>
        ([], none,
          { s1 with
            ca := s1.ca.modify w.cref (fun c => { c with lits := (c.lits.set 1 (c.lit k)).set k (neg p) }),
            watches := s1.watches.push (neg (c.lit k)) w1 })
      | none =>
        if s1.value (c.lit 0) == l_False then ([w1], some w.cref, { s1 with qhead := s1.trail.length })
        else ([w1], none, dynamicLBD (uncheckedEnqueue s1 (c.lit 0) (some w.cref)) w.cref)

/-- The invariant inside the scan of the long watchers of `p`: `acc` holds the watchers
kept so far and `rest` those still to visit. -/
structure LInv (p : Nat) (acc rest : List Watcher) (s : Solver) : Prop where
  inv : PropInv (virt s p (acc ++ rest))
  cur : Current s p
  hp : p < 2 * s.assigns.length
  pend : Pending s p [] rest

/-- The fields that the computation of an LBD leaves alone. -/
structure LbdFrame (s t : Solver) : Prop where
  ca : t.ca = s.ca
  assigns : t.assigns = s.assigns
  vardata : t.vardata = s.vardata
  trail : t.trail = s.trail
  trail_lim : t.trail_lim = s.trail_lim
  qhead : t.qhead = s.qhead
  watches : t.watches = s.watches
  watchesBin : t.watchesBin = s.watchesBin
  clauses : t.clauses = s.clauses
  learnts : t.learnts = s.learnts
  decision : t.decision = s.decision
  seen : t.seen = s.seen
  order_heap : t.order_heap = s.order_heap
  assumptions : t.assumptions = s.assumptions
  activity : t.activity = s.activity

/-- The literals of every clause are rearranged at most. -/
def LitsPerm (s t : Solver) : Prop := ∀ x, ((t.ca.get x).lits).Perm ((s.ca.get x).lits)

/-- The fields that the loop of `propagate` leaves alone. -/
structure PropKeep (s t : Solver) : Prop where
  seen : t.seen = s.seen
  order_heap : t.order_heap = s.order_heap
  decision : t.decision = s.decision
  watchesBin : t.watchesBin = s.watchesBin
  wdirty : t.watches.dirty = s.watches.dirty
  wdirties : t.watches.dirties = s.watches.dirties

/-- The watchers that `cleanAll` keeps. -/
def notDeleted (ca : ClauseAllocator) (x : Watcher) : Bool := !OccLists.deleted ca x

/-- The invariant of the solver at the entry of `propagate`, apart from the watched-literal
condition: the watch lists may hold watchers of deleted clauses, in lists marked dirty. -/
structure EntryInv (s : Solver) : Prop where
  sizes : SizesOK s
  wf : TrailWF s
  trail : TrailOK s
  arena : ArenaOK s
  watch : WatchOK s
  dirty : DirtyOK s
  clauses : ClausesOK s
  reasons : ReasonsOK s

/-- The state `s` with the list `clauses` replaced by `A`.  `propagate` never reads this
list, so that its run from `withClauses s A` is its run from `s`. -/
def withClauses (s : Solver) (A : List Nat) : Solver := { s with clauses := A }

/-- The state `s` is well formed at a call of `propagate`, `A` being the handles of the
attached clauses (those of `clauses` and those of `learnts` that are not detached): sizes
of the vectors, trail, queue and levels; every stored clause has two literals at least, no
literal twice and existing variables; every watcher stands in a list of the complement of
one of the first two literals of its clause, no list names a clause twice, the watchers of
deleted clauses stand in lists marked dirty; the clauses of `A` are stored, not deleted
and watched on their first two literals; the reasons imply their literals. -/
structure PropEntry (s : Solver) (A : List Nat) : Prop where
  sizes : SizesOK s
  wf : TrailWF s
  trail : TrailOK s
  arena : ∀ c ∈ s.ca.mem, c.reloced = false ∧ GoodClause s.assigns.length c
  watch : WatchOK s
  binOnce : ∀ p < 2 * s.assigns.length, ((s.watchesBin.get p).map Watcher.cref).Nodup
  dirty : DirtyOK s
  attached : ∀ cr ∈ A, cr < s.ca.mem.length ∧ 2 ≤ (s.ca.get cr).lits.length ∧
    (s.ca.get cr).mark ≠ 1 ∧ hasWatch s cr 0 ∧ hasWatch s cr 1
  reasons : ReasonsOK s

/-- Every literal of the clause `cr` is false. -/
def falsified (s : Solver) (cr : Nat) : Prop :=
  ∀ l ∈ (s.ca.get cr).lits, s.value l = l_False

/-- The clause `cr` is unit: one literal is unassigned and all the others are false. -/
def isUnit (s : Solver) (cr : Nat) : Prop :=
  ∃ u ∈ (s.ca.get cr).lits, s.value u = l_Undef ∧
    ∀ l ∈ (s.ca.get cr).lits, l ≠ u → s.value l = l_False

instance (s : Solver) (cr : Nat) : Decidable (falsified s cr) := by
  unfold falsified; infer_instance

instance (s : Solver) (cr : Nat) : Decidable (isUnit s cr) := by
  unfold isUnit; infer_instance

/-- The number of watchers of the clause `cr` in the list `l`. -/
def watchCount (l : List Watcher) (cr : Nat) : Nat := (l.map Watcher.cref).count cr

/-- The watch invariant of the clause `cr`: a watcher of `cr` occurs once in the list of the
complement of `c[0]`, once in the list of the complement of `c[1]` and in no other list,
in `watchesBin` when the clause has two literals and in `watches` otherwise, and the other
index holds no watcher of `cr`. -/
def WatchedOnce (s : Solver) (cr : Nat) : Prop :=
  ∀ p,
    watchCount ((if (s.ca.get cr).size = 2 then s.watchesBin else s.watches).get p) cr =
      (if p = neg ((s.ca.get cr).lit 0) ∨ p = neg ((s.ca.get cr).lit 1) then 1 else 0) ∧
    watchCount ((if (s.ca.get cr).size = 2 then s.watches else s.watchesBin).get p) cr = 0

/-- The clause `cr` is stored in `s` and can be attached: two literals at least, the first
two different and of existing variables, and no list holds a watcher of `cr` yet. -/
structure Attachable (s : Solver) (cr : Nat) : Prop where
  two : 2 ≤ (s.ca.get cr).size
  diff : (s.ca.get cr).lit 0 ≠ (s.ca.get cr).lit 1
  range0 : neg ((s.ca.get cr).lit 0) < s.watches.occs.length ∧
    neg ((s.ca.get cr).lit 0) < s.watchesBin.occs.length
  range1 : neg ((s.ca.get cr).lit 1) < s.watches.occs.length ∧
    neg ((s.ca.get cr).lit 1) < s.watchesBin.occs.length
  fresh : ∀ l ∈ s.watches.occs, watchCount l cr = 0
  freshBin : ∀ l ∈ s.watchesBin.occs, watchCount l cr = 0

/-- One variable, no clause, and the state in which `solve_` calls `search` for the
assumptions `x1, x1, x1`. -/
def tripleAssumed : Solver :=
  let s0 : Solver := { oneVar with assumptions := [0, 0, 0], model := [], conflict := [] }
  { s0 with lbdQueue := s0.lbdQueue.initSize s0.sizeLBDQueue,
            trailQueue := s0.trailQueue.initSize s0.sizeTrailQueue,
            sumLBD := 0, solves := s0.solves + 1, nbclausesbeforereduce := s0.firstReduceDB }

/-- The state after the conflict branch of `search` on `twoLevelConflict`: the learnt
clause `(¬x2 ∨ ¬x1)` is recorded, the trail is cancelled to level 1 and `¬x2` is
enqueued. -/
def learntRecorded : Solver :=
  match searchConflict false twoLevelConflict 1 with
  | some (SearchStep.next _ t) => t
  | _ => twoLevelConflict

/-- The state `learntRecorded` with 5 conflicts counted, `curRestart = 1` and
`nbclausesbeforereduce = 2`: a reduction of the database is due. -/
def reduceDue : Solver :=
  { learntRecorded with conflicts := 5, curRestart := 1, nbclausesbeforereduce := 2 }

/-- The clauses of `basicMinClauses` with `ccmin_mode = mode`, the decision `¬x1` propagated
at level 1, which gives `x2` by the binary clause `(x1 ∨ x2)`, and the decision `x4`
enqueued at level 2. -/
def basicMinDecided (mode : Nat) : Solver :=
  let s0 := (problem { Options.defaults with ccmin_mode := mode } [true, true, true, false]
    basicMinClauses).getD (Solver.new Options.defaults)
  let s1 := uncheckedEnqueue (newDecisionLevel s0) 1 none
  let s2 := ((propagate s1).map Prod.snd).getD s1
  uncheckedEnqueue (newDecisionLevel s2) 6 none

/-- The state in which `propagate` leaves `basicMinDecided`: a conflict in the clause 2. -/
def basicMinConflict (mode : Nat) : Solver :=
  ((propagate (basicMinDecided mode)).map Prod.snd).getD (basicMinDecided mode)

/-- The test of the loop of `psm_calc` for the literal `p`: the saved polarity of its
variable, as an `int`, equals `toInt` of its assignment. -/
def psmAgree (s : Solver) (p : Nat) : Bool :=
  (if s.polarity.getD (var p) false then 1 else 0) == toInt (s.assigns.getD (var p) l_Undef)

/-- A watcher of the list `ws` has a blocker of the variable of `q` that is true. -/
def hitBy (s : Solver) (ws : List Watcher) (q : Nat) : Bool :=
  ws.any (fun w => var w.blocker == var q && s.value w.blocker == l_True)

/-- The literal `q` is one that the binary minimisation with the first UIP `p` removes: the
binary watch list of `p` holds a true blocker of the variable of `q`. -/
def binRemovable (s : Solver) (p q : Nat) : Bool := hitBy s (s.watchesBin.get p) q

/-- The variable of `q` carries the flag `F` in `pd`. -/
def flagOn (pd : List Nat) (F : Nat) (q : Nat) : Bool := pd.getD (var q) 0 == F

/-- The write `permDiff[v] = MYFLAG - 1` of the binary minimisation. -/
def unflag (s : Solver) (v : Nat) : Solver :=
  { s with permDiff := s.permDiff.set v ((s.MYFLAG + 2 ^ 32 - 1) % 2 ^ 32) }

/-- The state of the binary minimisation after `MYFLAG++` and the loop that flags the
variables of `out[1..]`, `r` being the state left by the LBD loop. -/
@[reducible] def flagAll (r : Solver) (out : List Nat) : Solver :=
  { r with
    MYFLAG := (r.MYFLAG + 1) % 2 ^ 32,
    permDiff := (out.drop 1).foldl (fun pd q => pd.set (var q) ((r.MYFLAG + 1) % 2 ^ 32))
      r.permDiff }

/-- No variable is marked in `seen`. -/
def SeenClear (s : Solver) : Prop := ∀ b ∈ s.seen, b = false

instance (s : Solver) : Decidable (SeenClear s) := by unfold SeenClear; infer_instance

/-- A trail literal above level 0 that has no reason is a decision: no literal of its level
stands before it on the trail. -/
def DecisionFirst (s : Solver) : Prop :=
  ∀ i < s.trail.length, 0 < s.level (var (s.trail.getD i 0)) →
    s.reason (var (s.trail.getD i 0)) = none →
    ∀ j < i, s.level (var (s.trail.getD j 0)) < s.level (var (s.trail.getD i 0))

instance (s : Solver) : Decidable (DecisionFirst s) := by unfold DecisionFirst; infer_instance

/-- The clause `cr` as the reason of the trail literal at position `i`, the way conflict
analysis reads it: it names no literal twice and holds the literal, at position 0 unless the
clause is binary, and the complements of its other literals come before the literal on the
trail. -/
def ReasonAt (s : Solver) (i cr : Nat) : Prop :=
  (s.ca.get cr).lits.Nodup ∧ s.trail.getD i 0 ∈ (s.ca.get cr).lits ∧
  ((s.ca.get cr).lits.length ≠ 2 → (s.ca.get cr).lit 0 = s.trail.getD i 0) ∧
  ∀ l ∈ (s.ca.get cr).lits, l ≠ s.trail.getD i 0 → neg l ∈ s.trail.take i

instance (s : Solver) (i cr : Nat) : Decidable (ReasonAt s i cr) := by
  unfold ReasonAt; infer_instance

/-- The reason of every trail literal above level 0 is one that conflict analysis can
read. -/
def RInv (s : Solver) : Prop :=
  ∀ i < s.trail.length, 0 < s.level (var (s.trail.getD i 0)) →
    ∀ cr ∈ (s.reason (var (s.trail.getD i 0))).toList, ReasonAt s i cr

instance (s : Solver) : Decidable (RInv s) := by unfold RInv; infer_instance

/-- What conflict analysis relies on and never changes: trail, levels and reasons. -/
structure AStat (s : Solver) : Prop where
  wf : TrailWF s
  trail : TrailOK s
  seenLen : s.seen.length = s.assigns.length
  reasons : RInv s
  first : DecisionFirst s

/-- What the steps of conflict analysis leave alone: assignment, levels, reasons and trail;
the size of `seen`; and the literals of every clause, up to the exchange of the two
literals of a binary clause. -/
structure ASame (s t : Solver) : Prop where
  assigns : t.assigns = s.assigns
  vardata : t.vardata = s.vardata
  trail : t.trail = s.trail
  trail_lim : t.trail_lim = s.trail_lim
  qhead : t.qhead = s.qhead
  seenLen : t.seen.length = s.seen.length
  lits : ∀ cr, (t.ca.get cr).lits.Perm (s.ca.get cr).lits ∧
    ((s.ca.get cr).lits.length ≠ 2 → (t.ca.get cr).lits = (s.ca.get cr).lits)

/-- The trail literal at position `k`, below position `n`, is marked in `seen` and belongs
to the current decision level. -/
def curSeen (s : Solver) (n k : Nat) : Bool :=
  decide (k < n) && (s.seen.getD (var (s.trail.getD k 0)) false &&
    decide (s.decisionLevel ≤ s.level (var (s.trail.getD k 0))))

/-- The number of marked trail literals of the current decision level below position `n`:
what `pathC` counts. -/
def pathCount (s : Solver) (n : Nat) : Nat := (List.range s.trail.length).countP (curSeen s n)

/-- The invariant of the resolution loop of `analyze`, `n` being `index + 1`. -/
structure ALoop (a : AnalyzeAcc) (n : Nat) : Prop where
  stat : AStat a.s
  dpos : 0 < a.s.decisionLevel
  nle : n ≤ a.s.trail.length
  cnt : a.pathC = (pathCount a.s n : Int)
  low : ∀ q ∈ a.out_learnt.drop 1,
    neg q ∈ a.s.trail ∧ 0 < a.s.level (var q) ∧ a.s.level (var q) < a.s.decisionLevel ∧
    a.s.seen.getD (var q) false = true
  cover : ∀ v, a.s.seen.getD v false = true →
    (∃ k, k < n ∧ var (a.s.trail.getD k 0) = v ∧ a.s.decisionLevel ≤ a.s.level v) ∨
    v ∈ (a.out_learnt.drop 1).map var
  nodup : ((a.out_learnt.drop 1).map var).Nodup
  ne : 1 ≤ a.out_learnt.length

/-- What one round of the `for (j ...)` loop of `analyze`, on the literal `q`, does to the
state `a` of the resolution loop. -/
def LitStep (a : AnalyzeAcc) (n q : Nat) (b : AnalyzeAcc) : Prop :=
  ALoop b n ∧ ASame a.s b.s ∧ a.pathC ≤ b.pathC ∧
  (∀ v, a.s.seen.getD v false = true → b.s.seen.getD v false = true) ∧
  (0 < a.s.level (var q) → b.s.seen.getD (var q) false = true)

/-- The state in which the resolution loop of `analyze` reads the clause `cr`: after the
exchange in a binary reason and the activity bump of a learnt clause. -/
def analyzePrep (s : Solver) (cr : Nat) (p : Option Nat) : Solver :=
  let s1 := if p.isSome then swapBinary s cr else s
  if (s1.ca.get cr).learnt then claBumpActivity s1 cr else s1

/-- The literals of the clause `cr` that one round of the resolution loop goes through. -/
def analyzeLits (s : Solver) (cr : Nat) (p : Option Nat) : List Nat :=
  if p.isSome then ((analyzePrep s cr p).ca.get cr).lits.drop 1
  else ((analyzePrep s cr p).ca.get cr).lits

/-- What the resolution loop of `analyze` hands over: every mark left in `seen` belongs to a
literal of `out_learnt[1..]`, these literals are false, above level 0 and of different
variables. -/
structure ADone (a : AnalyzeAcc) : Prop where
  stat : AStat a.s
  low : ∀ q ∈ a.out_learnt.drop 1, neg q ∈ a.s.trail ∧ 0 < a.s.level (var q)
  cover : ∀ v, a.s.seen.getD v false = true → v ∈ (a.out_learnt.drop 1).map var
  nodup : ((a.out_learnt.drop 1).map var).Nodup
  ne : 1 ≤ a.out_learnt.length

/-- The end of one round of the resolution loop of `analyze`, behind the `for (j ...)`
loop: the scan for the next marked literal and the test of `pathC`. -/
def analyzeNext (fuel : Nat) (n : Nat) (a1 : AnalyzeAcc) : Option (Nat × AnalyzeAcc) :=
  match scanSeen a1.s n with
  | none => none
  | some i =>
    let q := a1.s.trail.getD i 0
    let a2 : AnalyzeAcc :=
      { s := { a1.s with seen := a1.s.seen.set (var q) false },
        pathC := a1.pathC - 1, out_learnt := a1.out_learnt }
    if a2.pathC > 0 then analyzeLoop fuel (a2.s.reason (var q)) (some q) i a2
    else some (q, a2)

/-- The marks of `litRedundant` in the state `u`, against the `seen` and `analyze_toclear`
of its call: the literals pushed onto `analyze_toclear` since then are those whose variable
got its mark since then, and none of them was marked at the call. -/
def MarkRel (seen0 : List Bool) (T0 : List Nat) (u : Solver) : Prop :=
  ∃ ext : List Nat, u.analyze_toclear = T0 ++ ext ∧
    u.seen = ext.foldl (fun sn l => sn.set (var l) true) seen0 ∧
    ∀ l ∈ ext, seen0.getD (var l) false = false

/-- The literals of `analyze_stack` are false literals above level 0 that have a reason. -/
def StackOK (u : Solver) : Prop :=
  ∀ p ∈ u.analyze_stack,
    neg p ∈ u.trail ∧ 0 < u.level (var p) ∧ (u.reason (var p)).isSome = true

/-- Every variable marked in `seen` is the variable of a literal of `analyze_toclear`. -/
def Covered (s : Solver) : Prop :=
  ∀ v, s.seen.getD v false = true → v ∈ s.analyze_toclear.map var

instance (s : Solver) (cr : Nat) : Decidable (ConflictAt s cr) := by
  unfold ConflictAt; infer_instance

end Solver

/-! ## The shared clause exchange (`core/SharedBase.cc`) -/

/-- Modelled from the spec: the node `elearn` declared in `core/SharedBase.h`, the
"ExchangeNode" of the spec with its literals, its lbd, the link `next` and the counter
`cref`, a 32-bit unsigned.  A link is the address of a node. -/
structure Elearn where
  learn : List Nat
  nblevels : Nat
  next : Option Nat
  cref : Nat
deriving Repr, DecidableEq, Inhabited

/-- Modelled from the spec: the record `ListLearn` declared in `core/SharedBase.h`: `head`,
`tail`, the cursors `sidx[i].ptr` of the threads (null before the first read) and the
counters set by the constructor. -/
structure ListLearn where
  head : Option Nat
  tail : Option Nat
  sidx : List (Option Nat)
  rmfrqc : Nat
  nba : Nat
  nbs : Nat
  nbptr : Nat
deriving Repr, DecidableEq, Inhabited

/-- The class `SharedBase`.  `nodes` holds the nodes made by `new` at their addresses; the
entry of a node is `none` once it is deleted. -/
structure SharedBase where
  threads : Nat
  Lists : List ListLearn
  nodes : List (Option Elearn)
  nb_updates : Nat
deriving Repr, DecidableEq

namespace SharedBase

/-- The constructor `SharedBase(threads_)`. -/
def new (threads_ : Nat) : SharedBase :=
  { threads := threads_,
    Lists := List.replicate threads_
      { head := none, tail := none, sidx := List.replicate threads_ none,
        rmfrqc := 0, nba := 0, nbs := 0, nbptr := 0 },
    nodes := [], nb_updates := 0 }

/-- The primitive `append(e, l)`; `none` when `tail` points to a deleted node. -/
def append (e : Nat) (l : ListLearn) (nodes : List (Option Elearn)) :
    Option (ListLearn × List (Option Elearn)) :=
  match l.tail with
  | some t =>
    match nodes.getD t none with
    | none => none
    | some n => some ({ l with tail := some e }, nodes.set t (some { n with next := some e }))
  | none => some ({ l with head := some e, tail := some e }, nodes)

/-- The loop `while (cur != 0 && cur->cref == 0)` of `clean`, for at most the number of
rounds given first: the node it stops at, the nodes and the counter `nbs`; `none` when it
reads a deleted node. -/
def cleanLoop : Nat → Option Nat → List (Option Elearn) → Nat →
    Option (Option Nat × List (Option Elearn) × Nat)
  | _, none, nodes, nbs => some (none, nodes, nbs)
  | 0, some _, _, _ => none
  | fuel + 1, some a, nodes, nbs =>
    match nodes.getD a none with
    | none => none
    | some n =>
      if n.cref == 0 then cleanLoop fuel n.next (nodes.set a none) (nbs + 1)
      else some (some a, nodes, nbs)

/-- The method `clean(l)`. -/
def clean (l : ListLearn) (nodes : List (Option Elearn)) :
    Option (ListLearn × List (Option Elearn)) :=
  match l.head with
  | none => some (l, nodes)
  | some _ =>
    match cleanLoop (nodes.length + 1) l.head nodes l.nbs with
    | none => none
    | some (cur, nodes1, nbs1) =>
      some ({ l with nbs := nbs1, tail := if cur.isNone then none else l.tail, head := cur },
            nodes1)

/-- The method `push(learn, nblev, solver)`; `id` is `solver->id`.  `none` when `id` is not
the index of a list or a deleted node is read. -/
def push (sb : SharedBase) (learn : List Nat) (nblev : Nat) (id : Nat) (solver : Solver) :
    Option SharedBase :=
  if id < sb.Lists.length then
    let l := sb.Lists.getD id default
    let e := sb.nodes.length
    let nodes1 := sb.nodes ++ [some ⟨learn, nblev, none, (sb.threads + 2 ^ 32 - 2) % 2 ^ 32⟩]
    match append e l nodes1 with
    | none => none
    | some (l1, nodes2) =>
      let l2 : ListLearn := { l1 with nba := l1.nba + 1 }
      if solver.conflicts ≥ solver.curRestart * solver.nbclausesbeforereduce then
        match clean l2 nodes2 with
        | none => none
        | some (l3, nodes3) => some { sb with Lists := sb.Lists.set id l3, nodes := nodes3 }
      else some { sb with Lists := sb.Lists.set id l2, nodes := nodes2 }
  else none

/-- The lines of `update` that store an imported clause: `ca.alloc(learn, true)`, `setLBD`,
`learnts.push(cr)`, `attachClause(cr)` and `claBumpActivity`. -/
def storeImported (solver : Solver) (learn : List Nat) (nblevels : Nat) : Solver :=
  let a := solver.ca.alloc learn true
  let cr := a.1
  let s2 : Solver :=
    { solver with ca := a.2.modify cr (fun c => { c with lbd := nblevels }),
                  learnts := solver.learnts ++ [cr] }
  Solver.claBumpActivity (Solver.attachClause s2 cr) cr

/-- The body of the loop `while (j)` of `update` on the side of the solver: a clause of one
literal is enqueued when the literal is unassigned, another clause is stored as a learnt
clause with its entry in `frozen_clauses`; then the activities decay. -/
def importNode (solver : Solver) (learn : List Nat) (nblevels : Nat) : Solver :=
  let s1 : Solver :=
    if learn.length == 1 then
      if solver.value (learn.getD 0 0) == l_Undef then
        Solver.uncheckedEnqueue solver (learn.getD 0 0) none
      else solver
    else
      let s3 := storeImported solver learn nblevels
      let f := Solver.to_freeze s3 (solver.ca.alloc learn true).1
      { f.2 with frozen_clauses := f.2.frozen_clauses ++ [mkFreeze 0 f.1] }
  Solver.claDecayActivity (Solver.varDecayActivity s1)

/-- The node with its counter decremented, as a 32-bit unsigned. -/
def decNode (n : Elearn) : Elearn := { n with cref := (n.cref + 2 ^ 32 - 1) % 2 ^ 32 }

/-- The atomic `__sync_sub_and_fetch(&cref, 1)` on the node at `a`. -/
def decCref (nodes : List (Option Elearn)) (a : Nat) : List (Option Elearn) :=
  match nodes.getD a none with
  | none => nodes
  | some n => nodes.set a (some (decNode n))

/-- The loop `while (j)` of `update` for the thread `id` on the list `l`, for at most the
number of rounds given first; `none` when it reads a deleted node. -/
def consumeLoop (id : Nat) : Nat → Option Nat → ListLearn → List (Option Elearn) → Solver →
    Option (ListLearn × List (Option Elearn) × Solver)
  | _, none, l, nodes, solver => some (l, nodes, solver)
  | 0, some _, _, _, _ => none
  | fuel + 1, some b, l, nodes, solver =>
    match nodes.getD b none with
    | none => none
    | some n =>
      let solver1 := importNode solver n.learn n.nblevels
      let l1 : ListLearn := { l with sidx := l.sidx.set id (some b) }
      let nodes1 := if n.next.isSome then decCref nodes b else nodes
      consumeLoop id fuel n.next l1 nodes1 solver1

/-- One round of the loop `for (i ...)` of `update`, on the list `i`. -/
def updateList (sb : SharedBase) (id : Nat) (i : Nat) (solver : Solver) :
    Option (SharedBase × Solver) :=
  if i < sb.Lists.length then
    let l := sb.Lists.getD i default
    if id < l.sidx.length then
      let start : Option (Option Nat × ListLearn × List (Option Elearn)) :=
        match l.sidx.getD id none with
        | none => some (l.head, { l with sidx := l.sidx.set id l.head }, sb.nodes)
        | some a =>
          match sb.nodes.getD a none with
          | none => none
          | some n => some (n.next, l, if n.next.isSome then decCref sb.nodes a else sb.nodes)
      match start with
      | none => none
      | some (j, l1, nodes1) =>
        match consumeLoop id (nodes1.length + 1) j l1 nodes1 solver with
        | none => none
        | some (l2, nodes2, solver1) =>
          some ({ sb with Lists := sb.Lists.set i l2, nodes := nodes2 }, solver1)
    else none
  else none

/-- The loop `for (int i = 1; i < threads; i++)` of `update` from `i` on, `n` rounds. -/
def updateFrom (id : Nat) : Nat → Nat → SharedBase → Solver → Option (SharedBase × Solver)
  | 0, _, sb, solver => some (sb, solver)
  | n + 1, i, sb, solver =>
    if id == i then updateFrom id n (i + 1) sb solver
    else
      match updateList sb id i solver with
      | none => none
      | some (sb1, solver1) => updateFrom id n (i + 1) sb1 solver1

/-- The method `update(solver)`; `id` is `solver->id`. -/
def update (sb : SharedBase) (id : Nat) (solver : Solver) : Option (SharedBase × Solver) :=
  updateFrom id (sb.threads - 1) 1 sb solver

/-- The nodes reached from the link `start` by `next`, up to the null link, are `xs`. -/
def isChain (nodes : List (Option Elearn)) : Option Nat → List Nat → Bool
  | start, [] => start == none
  | start, a :: xs =>
    start == some a &&
      match nodes.getD a none with
      | none => false
      | some n => isChain nodes n.next xs

/-- The list `l` holds the nodes `xs`, from `head` to `tail`. -/
def ListOK (nodes : List (Option Elearn)) (l : ListLearn) (xs : List Nat) : Prop :=
  isChain nodes l.head xs = true ∧ l.tail = xs.getLast? ∧ xs.Nodup

/-- The node at `a` has the counter 0. -/
def crefZero (nodes : List (Option Elearn)) (a : Nat) : Bool :=
  match nodes.getD a none with
  | none => false
  | some n => n.cref == 0

/-- The clauses of the nodes `ys` are imported by the solver one after the other. -/
def importAll (nodes : List (Option Elearn)) (ys : List Nat) (solver : Solver) : Solver :=
  ys.foldl (fun s a =>
    match nodes.getD a none with
    | none => s
    | some n => importNode s n.learn n.nblevels) solver

/-- The position in `xs` of the node a cursor points to, 0 for the null cursor. -/
def cursorIdx (xs : List Nat) (cur : Option Nat) : Nat :=
  match cur with
  | none => 0
  | some a => xs.indexOf a

/-- The nodes of `xs` that the thread with the cursor `cur` has not consumed yet. -/
def pending (xs : List Nat) (cur : Option Nat) : List Nat :=
  match cur with
  | none => xs
  | some a => xs.drop (xs.indexOf a + 1)

/-- The exchange is well formed: every list `i` holds the nodes `ch i`, the lists share no
node, and a cursor that is not null points to a node of its list. -/
structure ExOK (sb : SharedBase) (ch : Nat → List Nat) : Prop where
  lists_len : sb.Lists.length = sb.threads
  sidx_len : ∀ i < sb.threads, (sb.Lists.getD i default).sidx.length = sb.threads
  chain : ∀ i < sb.threads, ListOK sb.nodes (sb.Lists.getD i default) (ch i)
  disjoint : ∀ i < sb.threads, ∀ j < sb.threads, i ≠ j → ∀ a ∈ ch i, a ∉ ch j
  cursor : ∀ i < sb.threads, ∀ c < sb.threads, ∀ a,
    (sb.Lists.getD i default).sidx.getD c none = some a → a ∈ ch i

/-- The nodes whose counter the thread `id` decrements when it reads the list `j`: from the
node of its cursor to the last node but one. -/
def decList (sb : SharedBase) (ch : Nat → List Nat) (id j : Nat) : List Nat :=
  ((ch j).drop (cursorIdx (ch j) ((sb.Lists.getD j default).sidx.getD id none))).dropLast

/-- What the solver of the thread `id` imports in the rounds `i, i + 1, ...` of `update`,
`n` rounds in all: the nodes it has not consumed, list after list. -/
def importFrom (sb : SharedBase) (ch : Nat → List Nat) (id : Nat) : Nat → Nat → Solver → Solver
  | 0, _, solver => solver
  | n + 1, i, solver =>
    if id == i then importFrom sb ch id n (i + 1) solver
    else importFrom sb ch id n (i + 1)
      (importAll sb.nodes (pending (ch i) ((sb.Lists.getD i default).sidx.getD id none))
        solver)

/-- The two stores hold the same clauses and links at every address: they differ in the
counters only. -/
def CrefOnly (nodes nodes' : List (Option Elearn)) : Prop :=
  nodes'.length = nodes.length ∧
  ∀ b, (nodes'.getD b none).map (fun n => (n.learn, n.nblevels, n.next)) =
    (nodes.getD b none).map (fun n => (n.learn, n.nblevels, n.next))

/-- The solver holds the clause `learn` among its learnt clauses. -/
def Imported (solver : Solver) (learn : List Nat) : Prop :=
  ∃ cr ∈ solver.learnts, cr < solver.ca.mem.length ∧ (solver.ca.get cr).lits = learn

/-- The number of the threads of `S`, among the `N` threads, whose cursor in the list `xs`
has gone past the position `k`. -/
def pastCount (S : Nat → Bool) (N : Nat) (sidx : List (Option Nat)) (xs : List Nat)
    (k : Nat) : Nat :=
  ((List.range N).filter
    (fun c => S c && decide (k < cursorIdx xs (sidx.getD c none)))).length

/-- The counters agree with the cursors: `S i` being the threads that read the list `i`,
the counter of a node and the number of those threads that have gone past it add up to
`threads - 2`; the other threads have a null cursor in the list `i`. -/
structure Counted (S : Nat → Nat → Bool) (sb : SharedBase) (ch : Nat → List Nat) : Prop where
  count : ∀ i < sb.threads, ∀ k < (ch i).length, ∀ n,
    sb.nodes.getD ((ch i).getD k 0) none = some n →
    n.cref + pastCount (S i) sb.threads (sb.Lists.getD i default).sidx (ch i) k =
      sb.threads - 2
  idle : ∀ i < sb.threads, ∀ c < sb.threads, S i c = false →
    (sb.Lists.getD i default).sidx.getD c none = none

/-- The chains `ch` with the chain of the list `p` replaced by `ys`. -/
def setChain (ch : Nat → List Nat) (p : Nat) (ys : List Nat) : Nat → List Nat :=
  fun i => if i = p then ys else ch i

/-- The first lines of `push`: the node is made, linked behind the list `id` and counted
in `nba`. -/
def appendNode (sb : SharedBase) (learn : List Nat) (nblev : Nat) (id : Nat) :
    Option SharedBase :=
  if id < sb.Lists.length then
    match append sb.nodes.length (sb.Lists.getD id default)
        (sb.nodes ++ [some ⟨learn, nblev, none, (sb.threads + 2 ^ 32 - 2) % 2 ^ 32⟩]) with
    | none => none
    | some (l1, nodes2) =>
      some { sb with Lists := sb.Lists.set id { l1 with nba := l1.nba + 1 }, nodes := nodes2 }
  else none

/-- The call `clean(&Lists[id])` as a step of the exchange. -/
def cleanList (sb : SharedBase) (id : Nat) : Option SharedBase :=
  if id < sb.Lists.length then
    match clean (sb.Lists.getD id default) sb.nodes with
    | none => none
    | some (l, nodes1) => some { sb with Lists := sb.Lists.set id l, nodes := nodes1 }
  else none

/-- The nodes once `push` has made its node with `new`. -/
def pushed (sb : SharedBase) (learn : List Nat) (nblev : Nat) : List (Option Elearn) :=
  sb.nodes ++ [some ⟨learn, nblev, none, (sb.threads + 2 ^ 32 - 2) % 2 ^ 32⟩]

/-- What `push(learn, nblev)` of the thread `id` makes of the exchange `sb`, whose list
`Lists[id]` holds the nodes `xs`: one node is made and linked behind `xs`, `nba` grows by
one, and when the reduction of the learnt clauses is due, the leading nodes whose counter
is 0 are deleted and counted in `nbs`.  The other lists, every cursor and the nodes of the
other lists are left alone. -/
structure PushPost (sb : SharedBase) (learn : List Nat) (nblev id : Nat) (solver : Solver)
    (xs : List Nat) (sb' : SharedBase) : Prop where
  threads_eq : sb'.threads = sb.threads
  lists_len : sb'.Lists.length = sb.Lists.length
  others : ∀ i, i ≠ id → sb'.Lists.getD i default = sb.Lists.getD i default
  cursors : ∀ i, (sb'.Lists.getD i default).sidx = (sb.Lists.getD i default).sidx
  nba : (sb'.Lists.getD id default).nba = (sb.Lists.getD id default).nba + 1
  foreign : ∀ a, a ∉ xs → a ≠ sb.nodes.length → sb'.nodes.getD a none = sb.nodes.getD a none
  appended : ¬ solver.conflicts ≥ solver.curRestart * solver.nbclausesbeforereduce →
    ListOK sb'.nodes (sb'.Lists.getD id default) (xs ++ [sb.nodes.length]) ∧
    (sb'.Lists.getD id default).nbs = (sb.Lists.getD id default).nbs ∧
    sb'.nodes.getD sb.nodes.length none = some ⟨learn, nblev, none, sb.threads - 2⟩ ∧
    (∀ a n, sb.nodes.getD a none = some n →
      ∃ n', sb'.nodes.getD a none = some n' ∧ n'.learn = n.learn ∧
        n'.nblevels = n.nblevels ∧ n'.cref = n.cref)
  cleaned : solver.conflicts ≥ solver.curRestart * solver.nbclausesbeforereduce →
    (pushed sb learn nblev).getD sb.nodes.length none =
      some ⟨learn, nblev, none, sb.threads - 2⟩ ∧
    ListOK sb'.nodes (sb'.Lists.getD id default)
      ((xs ++ [sb.nodes.length]).dropWhile (crefZero (pushed sb learn nblev))) ∧
    (sb'.Lists.getD id default).nbs = (sb.Lists.getD id default).nbs +
      ((xs ++ [sb.nodes.length]).takeWhile (crefZero (pushed sb learn nblev))).length ∧
    (∀ a ∈ (xs ++ [sb.nodes.length]).takeWhile (crefZero (pushed sb learn nblev)),
      sb'.nodes.getD a none = none) ∧
    (∀ a n, a ∉ (xs ++ [sb.nodes.length]).takeWhile (crefZero (pushed sb learn nblev)) →
      (pushed sb learn nblev).getD a none = some n →
      ∃ n', sb'.nodes.getD a none = some n' ∧ n'.learn = n.learn ∧
        n'.nblevels = n.nblevels ∧ n'.cref = n.cref)

/-- Three threads; the thread 1 has pushed the clause `(x1 ∨ x2)`. -/
def pushedOnce : SharedBase :=
  (push (SharedBase.new 3) [0, 2] 2 1
    { Solver.twoVars with conflicts := 10, nbclausesbeforereduce := 4000 }).getD
    (SharedBase.new 3)

/-- The nodes of the lists of `pushedOnce`. -/
def pushedOnceChains (i : Nat) : List Nat := if i = 1 then [0] else []

/-- A solver in the search, before the first reduction of its learnt clauses is due. -/
def searchingSolver : Solver :=
  { Solver.twoVars with conflicts := 10, nbclausesbeforereduce := 4000 }

/-- A solver in the middle of a search: the first reduction of the learnt clauses is due. -/
def reducingSolver : Solver :=
  { Solver.twoVars with conflicts := 4000, nbclausesbeforereduce := 4000 }

/-- The thread `c` reads the list `i`: `update` of the thread `c` visits the lists
`1 .. threads - 1` other than its own. -/
def reads (i c : Nat) : Bool :=
  decide (1 ≤ c) && (c != i) && decide (1 ≤ i)

/-- The nodes whose clauses `update` of the thread `id` hands to its solver in the rounds
`i, i + 1, ...`, `n` rounds in all, in the order of the import. -/
def readFrom (sb : SharedBase) (ch : Nat → List Nat) (id : Nat) : Nat → Nat → List Nat
  | 0, _ => []
  | n + 1, i =>
    if id == i then readFrom sb ch id n (i + 1)
    else pending (ch i) ((sb.Lists.getD i default).sidx.getD id none) ++
      readFrom sb ch id n (i + 1)

/-- The nodes whose clauses one call of `update` of the thread `id` hands to its solver. -/
def readNodes (sb : SharedBase) (ch : Nat → List Nat) (id : Nat) : List Nat :=
  readFrom sb ch id (sb.threads - 1) 1

/-- The record `seen` of the nodes each worker has consumed covers the cursors: the worker
`c` has consumed every node of a list up to the node its cursor points to. -/
def SeenOK (sb : SharedBase) (ch : Nat → List Nat) (seen : Nat → List Nat) : Prop :=
  ∀ i c, 1 ≤ i → i < sb.threads → 1 ≤ c → c < sb.threads → c ≠ i →
    ∀ a, (sb.Lists.getD i default).sidx.getD c none = some a →
      ∀ b ∈ ch i, (ch i).indexOf b ≤ (ch i).indexOf a → b ∈ seen c

/-- The states of the exchange of `N` threads that the workers `1 .. N - 1` reach by
`push`, `clean` and `update`, one call after the other, each with the record `seen` of the
nodes every worker has consumed so far: `update` of the worker `c` adds the nodes it hands
to the solver of `c`. -/
inductive Reach (N : Nat) : SharedBase → (Nat → List Nat) → Prop
  | init : Reach N (SharedBase.new N) (fun _ => [])
  | push {sb sb1 : SharedBase} {seen : Nat → List Nat} (p : Nat) (learn : List Nat)
      (nblev : Nat) (solver : Solver) :
      Reach N sb seen → 1 ≤ p → p < N → push sb learn nblev p solver = some sb1 →
      Reach N sb1 seen
  | clean {sb sb1 : SharedBase} {seen : Nat → List Nat} (p : Nat) :
      Reach N sb seen → 1 ≤ p → p < N → cleanList sb p = some sb1 → Reach N sb1 seen
  | update {sb sb1 : SharedBase} {seen : Nat → List Nat} (c : Nat) (solver : Solver)
      (ch : Nat → List Nat) :
      Reach N sb seen → 1 ≤ c → c < N → ExOK sb ch →
      (update sb c solver).map Prod.fst = some sb1 →
      Reach N sb1 (setChain seen c (seen c ++ readNodes sb ch c))

/-- Two threads; the thread 1 has pushed the clause `(x1 ∨ x2)`. -/
def loneProducer : SharedBase :=
  (push (SharedBase.new 2) [0, 2] 2 1 searchingSolver).getD (SharedBase.new 2)

/-- Three threads; the thread 1 has pushed the clauses `(x1 ∨ x2)` and `(¬x1 ∨ ¬x2)`. -/
def pushedTwice : SharedBase :=
  (push pushedOnce [1, 3] 2 1 searchingSolver).getD pushedOnce

/-- The nodes of the lists of `pushedTwice`. -/
def pushedTwiceChains (i : Nat) : List Nat := if i = 1 then [0, 1] else []

/-- The exchange `pushedTwice` once the thread 2 has called `update`. -/
def readTwice : SharedBase :=
  ((update pushedTwice 2 Solver.twoVars).map Prod.fst).getD pushedTwice

/-- The nodes the workers have consumed in `readTwice`. -/
def readTwiceSeen (c : Nat) : List Nat := if c = 2 then [0, 1] else []

/-- Only the thread `c` reads the list `p`, and no thread reads another list. -/
def soleReader (p c i x : Nat) : Bool :=
  decide (i = p) && decide (x = c)

/-- The solver imports the clauses `cls`, each with its number of levels, one after the
other. -/
def importClauses (cls : List (List Nat × Nat)) (solver : Solver) : Solver :=
  cls.foldl (fun s cl => importNode s cl.1 cl.2) solver

/-- The states of the exchange of `N` threads reached when only the thread `p` calls
`push` and only the thread `c` calls `update`, with the clauses `pushed` so far, in the
order of the calls, and the number `k` of the clauses that had been pushed when `c` last
called `update`. -/
inductive Feeds (N p c : Nat) : SharedBase → List (List Nat × Nat) → Nat → Prop
  | init : Feeds N p c (SharedBase.new N) [] 0
  | push {sb sb1 : SharedBase} {pushed : List (List Nat × Nat)} {k : Nat} (learn : List Nat)
      (nblev : Nat) (solver : Solver) :
      Feeds N p c sb pushed k → push sb learn nblev p solver = some sb1 →
      Feeds N p c sb1 (pushed ++ [(learn, nblev)]) k
  | update {sb sb1 : SharedBase} {pushed : List (List Nat × Nat)} {k : Nat}
      (solver : Solver) :
      Feeds N p c sb pushed k → (update sb c solver).map Prod.fst = some sb1 →
      Feeds N p c sb1 pushed pushed.length

/-- Two threads; the thread 1 has pushed the clause `(x1 ∨ x2)` when the reduction of its
learnt clauses was due. -/
def drainedProducer : SharedBase :=
  (push (SharedBase.new 2) [0, 2] 2 1 reducingSolver).getD (SharedBase.new 2)

end SharedBase

namespace Solver

end Solver

namespace SharedBase

open Glucose.Solver

/-- The state of the exchange fed by the thread `p` and read by the thread `c`: the list
`p` holds the nodes `d, d + 1, ...` up to the last one pushed, the nodes before `d` are
deleted, every node holds the clause of its push, and the cursor of `c` points to the last
node pushed before its last `update`. -/
structure FedOK (N p c : Nat) (sb : SharedBase) (pushed : List (List Nat × Nat)) (k : Nat)
    (ch : Nat → List Nat) (d : Nat) : Prop where
  threads : sb.threads = N
  ex : ExOK sb ch
  cnt : Counted (soleReader p c) sb ch
  others : ∀ i, i ≠ p → ch i = []
  own : ch p = List.range' d (pushed.length - d)
  low : d ≤ k - 1
  upto : k ≤ pushed.length
  len : sb.nodes.length = pushed.length
  gone : ∀ j < d, sb.nodes.getD j none = none
  clause : ∀ j n, sb.nodes.getD j none = some n →
    (n.learn, n.nblevels) = pushed.getD j ([], 0)
  cursor : (sb.Lists.getD p default).sidx.getD c none = if k = 0 then none else some (k - 1)

end SharedBase

namespace Solver

end Solver

namespace Solver

/-- Three variables and the clause `(x1 ∨ x2 ∨ x3)` stored in the arena, before it is
attached. -/
def storedOnly : Solver := { threeVars with ca := (threeVars.ca.alloc [0, 2, 4] false).2 }

end Solver

namespace Solver

/-- Two variables and the unit clause `(x1)`: `x1` is true at level 0. -/
def twoVarsUnit : Solver := ((addClause_ twoVars [0]).map Prod.snd).getD twoVars

/-- The state `twoVarsUnit` after `update` has imported the clause `(x1 ∨ x2)`, which is
satisfied at level 0. -/
def satisfiedLearnt : Solver := SharedBase.importNode twoVarsUnit [0, 2] 2

/-- Three variables, and the two clauses `(x1 ∨ x2 ∨ x3)` with the LBD 3 and `(¬x1 ∨ ¬x2)`
with the LBD 2, imported by `update`. -/
def twoImports : Solver :=
  SharedBase.importNode (SharedBase.importNode threeVars [0, 2, 4] 3) [1, 3] 2

end Solver

namespace Solver

/-- Four variables, no clause. -/
def fourVars (o : Options) : Solver :=
  [true, true, true, true].foldl (fun s b => newVar s b true) (Solver.new o)

/-- Four variables, the clause `(¬x1 ∨ x2)` and the learnt clause `(¬x1 ∨ ¬x2 ∨ ¬x3 ∨ x4)`
imported by `update` with the LBD `k`; `x1` decided and propagated at level 1, the decision
`x3` enqueued at level 2.  The next `propagate` makes the learnt clause unit. -/
def unitLearntState (o : Options) (k : Nat) : Solver :=
  let s0 := (addClauses [[1, 2]] (fourVars o)).getD (fourVars o)
  let s1 := SharedBase.importNode s0 [1, 3, 5, 6] k
  let s2 := uncheckedEnqueue (newDecisionLevel s1) 0 none
  let s3 := ((propagate s2).map Prod.snd).getD s2
  uncheckedEnqueue (newDecisionLevel s3) 4 none

end Solver

namespace Solver

/-- Three variables, the clauses `(x1 ∨ x2 ∨ x3)`, `(¬x2)` and `(¬x3)`, after `propagate` at
level 0: `x1` is implied by the first clause, which is its reason. -/
def impliedAtZero : Solver :=
  let s0 := (addClauses [[0, 2, 4], [3], [5]] threeVars).getD threeVars
  ((propagate s0).map Prod.snd).getD s0

/-- The state `unitLearntState` with the LBD 3 after `propagate`: the learnt clause
`(¬x1 ∨ ¬x2 ∨ ¬x3 ∨ x4)` is the reason of `x4`; its entry of `frozen_clauses` has gone
through two analyses already. -/
def lockedLearnt : Solver :=
  let p := ((propagate (unitLearntState Options.defaults 3)).map Prod.snd).getD
    (unitLearntState Options.defaults 3)
  { p with frozen_clauses := p.frozen_clauses.map (fun f => { f with nb_abs_confl := 2 }) }

end Solver

namespace Solver

/-- Four variables, the clauses `(¬x1 ∨ x4)` and `(x1)`, the learnt clauses
`(x1 ∨ x2 ∨ x3)` and `(¬x2 ∨ ¬x3)` imported by `update`; `propagate` at level 0 implies
`x4`, and `removeSatisfied(learnts)` has removed the first learnt clause: the arena holds
a removed clause between two live ones. -/
def gcDue : Solver :=
  let s0 := (addClauses [[1, 6], [0]] (fourVars Options.defaults)).getD
    (fourVars Options.defaults)
  let s1 := SharedBase.importNode (SharedBase.importNode s0 [0, 2, 4] 3) [3, 5] 2
  let s2 := ((propagate s1).map Prod.snd).getD s1
  removeSatisfiedLearnts s2

end Solver

namespace Solver

/-- The state `twoImports` after two calls of `freeze_analyse` whose local `j` started at 0:
both learnt clauses are kept, the counter of each entry is 2. -/
def agedImports : Solver :=
  ((freeze_analyse 0 twoImports).bind (freeze_analyse 0)).getD twoImports

end Solver

namespace Solver

/-- Two variables, the clauses `(x1 ∨ x2)` and `(¬x1)`, after `propagate` at level 0: `x2`
is implied with the binary clause as its reason, the implied literal staying at position 1
of the clause. -/
def binaryImplied : Solver :=
  let s0 := (addClauses [[0, 2], [1]] twoVars).getD twoVars
  ((propagate s0).map Prod.snd).getD s0

end Solver

namespace Solver

/-- The state in which `solve(assumps)` enters the first round of its first `search`. -/
def searchEntry (s : Solver) (assumps : List Nat) : Solver :=
  let s0 : Solver := { s with assumptions := assumps, model := [], conflict := [] }
  { s0 with
    lbdQueue := s0.lbdQueue.initSize s0.sizeLBDQueue,
    trailQueue := s0.trailQueue.initSize s0.sizeTrailQueue,
    sumLBD := 0, solves := s0.solves + 1, nbclausesbeforereduce := s0.firstReduceDB,
    starts := s0.starts + 1 }

/-- The state that a round of `search` hands to the next round. -/
def roundNext (s : Solver) : Solver :=
  match searchRound 0 false s with
  | some (SearchStep.next _ t) => t
  | _ => s

/-- The state of a round of `search` at level 0 when it reaches the test
`conflicts >= curRestart * nbclausesbeforereduce`: after `propagate` and `simplify`. -/
def reduceTest (s : Solver) : Solver :=
  let u := ((propagate s).map Prod.snd).getD s
  ((simplify u).map Prod.snd).getD u

/-- Option `firstReduceDB = 1`, two variables and the clauses `(x1 ∨ x2)`, `(x1 ∨ ¬x2)`. -/
def unitLearntProblem : Solver :=
  (problem { Options.defaults with firstReduceDB := 1 } [true, true] [[0, 2], [0, 3]]).getD
    default

/-- The run of `search` on `unitLearntProblem` after two rounds: the decision `¬x1`, then
the conflict, whose learnt clause `(x1)` is enqueued at level 0 and not stored. -/
def unitLearntRun : Solver := roundNext (roundNext (searchEntry unitLearntProblem []))

/-- Option `firstReduceDB = 0` and one variable, no clause. -/
def zeroFirstReduce : Solver :=
  newVar (Solver.new { Options.defaults with firstReduceDB := 0 }) true true

end Solver

namespace Solver

/-- The state that the conflict branch of `search` passes to `analyze`, `s1` being the
state left by `propagate`. -/
def analyzeEntry (s1 : Solver) : Solver :=
  let s2 : Solver := { s1 with conflicts := s1.conflicts + 1 }
  (blockRestart { s2 with trailQueue := s2.trailQueue.push s2.trail.length } false).2

/-- The decision levels that the LBD loops use as indices of `permDiff` for the literals
`lits`. -/
def lbdIndices (s : Solver) (lits : List Nat) : List Nat := lits.map (fun q => s.level (var q))

/-- Three variables and the clauses `(¬x2 ∨ x3)`, `(¬x2 ∨ ¬x3)`. -/
def dummyLevelProblem : Solver :=
  (problem Options.defaults [true, true, true] [[3, 4], [3, 5]]).getD default

/-- The run of `solve` on `dummyLevelProblem` with the assumptions `x1, x1, x2` after two
rounds of `search`: `x1` assumed at level 1, a dummy level 2 for the second `x1`, and `x2`
assumed and enqueued at level 3. -/
def dummyLevelRun : Solver := roundNext (roundNext (searchEntry dummyLevelProblem [0, 0, 2]))

/-- The state left by `propagate` on `dummyLevelRun`: `x3` is implied at level 3 and the
clause `(¬x2 ∨ ¬x3)` is in conflict. -/
def dummyLevelConflict : Solver := ((propagate dummyLevelRun).map Prod.snd).getD dummyLevelRun

end Solver

namespace Solver

/-- Three variables, the clauses `(¬x2 ∨ x1)`, `(¬x2 ∨ ¬x1 ∨ x3)` and `(¬x2 ∨ ¬x1 ∨ ¬x3)`, the
decision `x1` propagated at level 1, the decision `x2` at level 2, and `propagate`, which
reports the third clause as conflict.  The first UIP is `x2`, and the clause learnt before
the binary minimisation is `(¬x2 ∨ ¬x1)`. -/
def binMinState : Solver :=
  let s0 := (addClauses [[3, 0], [3, 1, 4], [3, 1, 5]] threeVars).getD threeVars
  let s1 := uncheckedEnqueue (newDecisionLevel s0) 0 none
  let s2 := ((propagate s1).map Prod.snd).getD s1
  let s3 := uncheckedEnqueue (newDecisionLevel s2) 2 none
  ((propagate s3).map Prod.snd).getD s3

end Solver

namespace Solver

/-- Three variables, the clauses `(¬x1 ∨ x2)` and `(x3 ∨ ¬x2 ∨ ¬x1)`, the decision `x1` at
level 1 and `propagate`: `x2` is implied by the first clause and `x3` by the second. -/
def impliedChain : Solver :=
  let s0 := (addClauses [[1, 2], [4, 3, 1]] threeVars).getD threeVars
  let s1 := uncheckedEnqueue (newDecisionLevel s0) 0 none
  ((propagate s1).map Prod.snd).getD s1

end Solver

namespace Solver

/-! ## Literals and the scan of `addClause_` -/

theorem neg_neg (p : Nat) : neg (neg p) = p := by
  unfold neg; split <;> split <;> omega

theorem var_neg (p : Nat) : var (neg p) = var p := by
  unfold neg var; split <;> omega

theorem neg_ne (p : Nat) : neg p ≠ p := by
  unfold neg; split <;> omega

theorem sign_neg (p : Nat) : sign (neg p) = !sign p := by
  unfold neg sign
  split
  · have h1 : (p + 1) % 2 = 1 := by omega
    simp [*]
  · have h0 : p % 2 = 1 := by omega
    have h1 : (p - 1) % 2 = 0 := by omega
    simp [*]

theorem value_neg_true {s : Solver} {p : Nat} : s.value (neg p) = l_True ↔ s.value p = l_False := by
  unfold value
  rw [var_neg, sign_neg]
  cases s.assigns.getD (var p) l_Undef <;> cases sign p <;> simp [lbool.xor]

theorem value_neg_false {s : Solver} {p : Nat} : s.value (neg p) = l_False ↔ s.value p = l_True := by
  unfold value
  rw [var_neg, sign_neg]
  cases s.assigns.getD (var p) l_Undef <;> cases sign p <;> simp [lbool.xor]

theorem value_neg_undef {s : Solver} {p : Nat} : s.value (neg p) = l_Undef ↔ s.value p = l_Undef := by
  unfold value
  rw [var_neg, sign_neg]
  cases s.assigns.getD (var p) l_Undef <;> cases sign p <;> simp [lbool.xor]

theorem mem_sortLits {ps : List Nat} {l : Nat} : l ∈ sortLits ps ↔ l ∈ ps :=
  (List.perm_insertionSort _ ps).mem_iff

theorem sorted_sortLits (ps : List Nat) : (sortLits ps).Sorted (fun a b => a ≤ b) :=
  List.sorted_insertionSort _ ps

theorem addClauseScan_true (s : Solver) : ∀ (qs : List Nat) (p : Option Nat),
    (∃ l ∈ qs, s.value l = l_True) → addClauseScan s p qs = none
  | [], _, h => by simp at h
  | q :: rest, p, h => by
    unfold addClauseScan
    by_cases hq : s.value q = l_True
    · simp [hq]
    · have hr : ∃ l ∈ rest, s.value l = l_True := by
        obtain ⟨l, hl, hv⟩ := h
        rcases List.mem_cons.1 hl with rfl | hl
        · exact absurd hv hq
        · exact ⟨l, hl, hv⟩
      split
      · rfl
      · split
        · rw [addClauseScan_true s rest _ hr]; rfl
        · exact addClauseScan_true s rest _ hr

theorem addClauseScan_compl (s : Solver) (l : Nat) (hl : l % 2 = 0) (hv : s.value l = l_Undef) :
    ∀ (qs : List Nat) (p : Option Nat), qs.Sorted (fun a b => a ≤ b) → l + 1 ∈ qs →
      ((p = some l ∧ ∀ x ∈ qs, l ≤ x) ∨ l ∈ qs) → addClauseScan s p qs = none
  | [], _, _, h1, _ => by simp at h1
  | q :: rest, p, hs, h1, h2 => by
    have hs' : rest.Sorted (fun a b => a ≤ b) := hs.of_cons
    have hle : ∀ x ∈ rest, q ≤ x := fun x hx => List.rel_of_sorted_cons hs x hx
    have hneg : neg l = l + 1 := by unfold neg; simp [hl]
    unfold addClauseScan
    split
    · rfl
    · rename_i hc
      simp only [Bool.or_eq_true, beq_iff_eq, not_or] at hc
      obtain ⟨hc1, hc2⟩ := hc
      rcases h2 with ⟨rfl, hall⟩ | hmem
      · -- p = some l
        have hq1 : q ≠ l + 1 := by
          intro h; apply hc2; simp [h, hneg]
        have h1' : l + 1 ∈ rest := by
          rcases List.mem_cons.1 h1 with h | h
          · exact absurd h.symm hq1
          · exact h
        have hql : q = l := by
          have := hall q (List.mem_cons_self _ _)
          have := hle _ h1'
          omega
        subst hql
        have hrec := addClauseScan_compl s q hl hv rest (some q) hs' h1'
          (Or.inl ⟨rfl, fun x hx => hle x hx⟩)
        simp [hrec]
      · rcases List.mem_cons.1 hmem with rfl | hmem'
        · -- q = l
          have h1' : l + 1 ∈ rest := by
            rcases List.mem_cons.1 h1 with h | h
            · omega
            · exact h
          have hrec := addClauseScan_compl s l hl hv rest (some l) hs' h1'
            (Or.inl ⟨rfl, fun x hx => hle x hx⟩)
          split
          · rw [hrec]; rfl
          · rename_i hn
            have hp : p = some l := by
              simp only [hv, bne_iff_ne, ne_eq, Bool.and_eq_true, not_and, Bool.not_eq_true,
                bne_eq_false_iff_eq] at hn
              exact not_not.1 (hn (by simp))
            rw [hp]; exact hrec
        · have hq1 : q ≠ l + 1 := by
            have := hle _ hmem'
            omega
          have h1' : l + 1 ∈ rest := by
            rcases List.mem_cons.1 h1 with h | h
            · exact absurd h.symm hq1
            · exact h
          split
          · rw [addClauseScan_compl s l hl hv rest _ hs' h1' (Or.inr hmem')]; rfl
          · exact addClauseScan_compl s l hl hv rest _ hs' h1' (Or.inr hmem')

/-! ## What propagation leaves alone -/

theorem xor_undef {a : lbool} {b : Bool} : a.xor b = l_Undef ↔ a = l_Undef := by
  cases a <;> cases b <;> simp [lbool.xor]

theorem PropFrame.rfl' (s : Solver) : PropFrame s s :=
  ⟨rfl, rfl, fun _ _ => ⟨rfl, rfl⟩, ⟨[], by simp⟩, rfl, rfl, rfl, rfl, rfl, rfl, rfl, rfl⟩

theorem PropFrame.trans' {a b c : Solver} (h1 : PropFrame a b) (h2 : PropFrame b c) :
    PropFrame a c := by
  refine ⟨h2.assigns_len.trans h1.assigns_len, h2.vardata_len.trans h1.vardata_len, ?_, ?_,
    h2.clauses_eq.trans h1.clauses_eq, h2.learnts_eq.trans h1.learnts_eq,
    h2.trail_lim_eq.trans h1.trail_lim_eq, h2.ok_eq.trans h1.ok_eq,
    h2.mem_len.trans h1.mem_len, h2.conflict_eq.trans h1.conflict_eq,
    h2.model_eq.trans h1.model_eq, h2.assumptions_eq.trans h1.assumptions_eq⟩
  · intro x hx
    have k1 := h1.keep x hx
    have k2 := h2.keep x (by rw [k1.1]; exact hx)
    exact ⟨k2.1.trans k1.1, k2.2.trans k1.2⟩
  · obtain ⟨u, hu⟩ := h1.trail_ext
    obtain ⟨v, hv⟩ := h2.trail_ext
    exact ⟨u ++ v, by rw [hv, hu, List.append_assoc]⟩

theorem PropFrame.enqueue (s : Solver) (p : Nat) (r : Option Nat) (h : s.value p = l_Undef) :
    PropFrame s (uncheckedEnqueue s p r) := by
  have hu : s.assigns.getD (var p) l_Undef = l_Undef := xor_undef.1 h
  refine ⟨by simp [uncheckedEnqueue], by simp [uncheckedEnqueue], ?_, ⟨[p], rfl⟩,
    rfl, rfl, rfl, rfl, rfl, rfl, rfl, rfl⟩
  intro x hx
  have hne : var p ≠ x := by
    intro e; rw [e] at hu; exact hx hu
  simp [uncheckedEnqueue, List.getD_eq_getElem?_getD, List.getElem?_set_ne hne]

theorem ca_modify_len (ca : ClauseAllocator) (cr : Nat) (f : Clause → Clause) :
    (ca.modify cr f).mem.length = ca.mem.length := by
  simp [ClauseAllocator.modify]

theorem lbdStep_frame (a : Nat × Solver) (q : Nat) :
    PropFrame a.2 (lbdStep a q).2 := by
  unfold lbdStep
  dsimp only
  split
  · exact ⟨rfl, rfl, fun _ _ => ⟨rfl, rfl⟩, ⟨[], by simp⟩, rfl, rfl, rfl, rfl, rfl, rfl, rfl, rfl⟩
  · exact PropFrame.rfl' _

theorem foldl_lbdStep_frame : ∀ (lits : List Nat) (a : Nat × Solver),
    PropFrame a.2 (lits.foldl lbdStep a).2
  | [], a => PropFrame.rfl' _
  | q :: rest, a => by
    simp only [List.foldl_cons]
    exact (lbdStep_frame a q).trans' (foldl_lbdStep_frame rest _)

theorem computeLBD_frame (s : Solver) (lits : List Nat) : PropFrame s (computeLBD s lits).2 := by
  unfold computeLBD
  have h0 : PropFrame s { s with MYFLAG := (s.MYFLAG + 1) % 2 ^ 32 } :=
    ⟨rfl, rfl, fun _ _ => ⟨rfl, rfl⟩, ⟨[], by simp⟩, rfl, rfl, rfl, rfl, rfl, rfl, rfl, rfl⟩
  exact h0.trans' (foldl_lbdStep_frame lits (0, _))

theorem dynamicLBD_frame (s : Solver) (cr : Nat) : PropFrame s (dynamicLBD s cr) := by
  unfold dynamicLBD
  simp only
  split
  · split
    · have h := computeLBD_frame s (s.ca.get cr).lits
      refine h.trans' ?_
      exact ⟨rfl, rfl, fun _ _ => ⟨rfl, rfl⟩, ⟨[], by simp⟩, rfl, rfl, rfl, rfl,
        by simp [ca_modify_len], rfl, rfl, rfl⟩
    · exact computeLBD_frame s _
  · exact PropFrame.rfl' _

theorem propBin_frame : ∀ (ws : List Watcher) (s : Solver), PropFrame s (propBin ws s).2
  | [], s => PropFrame.rfl' _
  | w :: ws, s => by
    unfold propBin
    split
    · exact PropFrame.rfl' _
    · split
      · rename_i h
        exact (PropFrame.enqueue s w.blocker _ (by simpa using h)).trans' (propBin_frame ws _)
      · exact propBin_frame ws s

theorem PropFrame.of_ca (s : Solver) (ca : ClauseAllocator) (h : ca.mem.length = s.ca.mem.length) :
    PropFrame s { s with ca := ca } :=
  ⟨rfl, rfl, fun _ _ => ⟨rfl, rfl⟩, ⟨[], by simp⟩, rfl, rfl, rfl, rfl, h, rfl, rfl, rfl⟩

theorem lbool_cases (a : lbool) (h1 : a ≠ l_True) (h2 : a ≠ l_False) : a = l_Undef := by
  cases a <;> simp_all

theorem PropFrame.of_eq {s t : Solver} (h1 : t.assigns = s.assigns) (h2 : t.vardata = s.vardata)
    (h3 : t.trail = s.trail) (h4 : t.clauses = s.clauses) (h5 : t.learnts = s.learnts)
    (h6 : t.trail_lim = s.trail_lim) (h7 : t.ok = s.ok)
    (h8 : t.ca.mem.length = s.ca.mem.length) (h9 : t.conflict = s.conflict)
    (h10 : t.model = s.model) (h11 : t.assumptions = s.assumptions) : PropFrame s t :=
  ⟨by rw [h1], by rw [h2], fun _ _ => ⟨by rw [h1], by rw [h2]⟩, ⟨[], by simp [h3]⟩,
    h4, h5, h6, h7, h8, h9, h10, h11⟩

theorem PropFrame.step {a b c : Solver} (h2 : PropFrame b c) (h1 : PropFrame a b) :
    PropFrame a c := h1.trans' h2

theorem propLong_frame (p : Nat) : ∀ (ws acc : List Watcher) (s : Solver),
    PropFrame s (propLong p ws acc s).2.2
  | [], acc, s => PropFrame.rfl' _
  | w :: rest, acc, s => by
    unfold propLong
    split
    · exact propLong_frame p rest _ s
    · rename_i hb
      dsimp only
      have h1 : PropFrame s (if (s.ca.get w.cref).lit 0 == neg p then
          { s with ca := s.ca.modify w.cref (fun c =>
              { c with lits := (c.lits.set 0 (c.lit 1)).set 1 (neg p) }) } else s) ∧
          (if (s.ca.get w.cref).lit 0 == neg p then
          { s with ca := s.ca.modify w.cref (fun c =>
              { c with lits := (c.lits.set 0 (c.lit 1)).set 1 (neg p) }) } else s).assigns
            = s.assigns := by
        split
        · exact ⟨PropFrame.of_ca s _ (ca_modify_len _ _ _), rfl⟩
        · exact ⟨PropFrame.rfl' _, rfl⟩
      generalize (if (s.ca.get w.cref).lit 0 == neg p then
          { s with ca := s.ca.modify w.cref (fun c =>
              { c with lits := (c.lits.set 0 (c.lit 1)).set 1 (neg p) }) } else s) = s1 at h1 ⊢
      obtain ⟨h1, h1a⟩ := h1
      have hval : ∀ q, s1.value q = s.value q := by
        intro q; unfold value; rw [h1a]
      split
      · exact h1.trans' (propLong_frame p rest _ s1)
      · rename_i hf
        split
        · refine PropFrame.step (propLong_frame p rest _ _) (h1.trans' ?_)
          exact PropFrame.of_eq rfl rfl rfl rfl rfl rfl rfl (ca_modify_len _ _ _) rfl rfl rfl
        · split
          · exact h1.trans' (PropFrame.of_eq rfl rfl rfl rfl rfl rfl rfl rfl rfl rfl rfl)
          · rename_i hnf
            have hu : s1.value ((s1.ca.get w.cref).lit 0) = l_Undef := by
              apply lbool_cases
              · intro ht
                by_cases hbl : (s1.ca.get w.cref).lit 0 = w.blocker
                · rw [hbl, hval] at ht
                  exact hb (by simp [ht])
                · exact hf (by simp [ht, hbl])
              · intro hfalse
                exact hnf (by simp [hfalse])
            exact h1.trans' ((PropFrame.enqueue s1 _ _ hu).trans'
              ((dynamicLBD_frame _ _).trans' (propLong_frame p rest _ _)))

theorem propagateLoop_frame : ∀ (fuel : Nat) (s : Solver) (n : Nat) (r : Option Nat × Solver),
    propagateLoop fuel s n = some r → PropFrame s r.2
  | 0, s, n, r, h => by
    unfold propagateLoop at h
    split at h
    · simp at h
    · simp only [Option.some.injEq] at h
      subst h
      exact PropFrame.of_eq rfl rfl rfl rfl rfl rfl rfl rfl rfl rfl rfl
  | fuel + 1, s, n, r, h => by
    unfold propagateLoop at h
    split at h
    · dsimp only at h
      have hq : PropFrame s { s with qhead := s.qhead + 1 } :=
        PropFrame.of_eq rfl rfl rfl rfl rfl rfl rfl rfl rfl rfl rfl
      have hb := propBin_frame
        (({ s with qhead := s.qhead + 1 } : Solver).watchesBin.get (s.trail.getD s.qhead 0))
        { s with qhead := s.qhead + 1 }
      split at h
      · rename_i cr s2 heq
        simp only [Option.some.injEq] at h
        subst h
        rw [heq] at hb
        exact hq.trans' hb
      · rename_i s2 heq
        rw [heq] at hb
        have hl := propLong_frame (s.trail.getD s.qhead 0)
          (s2.watches.get (s.trail.getD s.qhead 0)) [] s2
        split at h
        · rename_i kept cr s3 heq2
          simp only [Option.some.injEq] at h
          subst h
          rw [heq2] at hl
          exact hq.trans' (hb.trans' (hl.trans'
            (PropFrame.of_eq rfl rfl rfl rfl rfl rfl rfl rfl rfl rfl rfl)))
        · rename_i kept s3 heq2
          rw [heq2] at hl
          refine PropFrame.step (propagateLoop_frame fuel _ _ r h) ?_
          exact hq.trans' (hb.trans' (hl.trans'
            (PropFrame.of_eq rfl rfl rfl rfl rfl rfl rfl rfl rfl rfl rfl)))
    · simp only [Option.some.injEq] at h
      subst h
      exact PropFrame.of_eq rfl rfl rfl rfl rfl rfl rfl rfl rfl rfl rfl

theorem propagate_frame (s : Solver) (r : Option Nat × Solver) (h : propagate s = some r) :
    PropFrame s r.2 := by
  unfold propagate at h
  refine PropFrame.step (propagateLoop_frame _ _ _ r h) ?_
  exact PropFrame.of_eq rfl rfl rfl rfl rfl rfl rfl rfl rfl rfl rfl

/-! ## Propagation comes back -/

theorem count_set_undef : ∀ (l : List lbool) (i : Nat) (v : lbool), i < l.length →
    l.getD i l_Undef = l_Undef → v ≠ l_Undef → (l.set i v).count l_Undef + 1 = l.count l_Undef
  | [], i, v, h, _, _ => by simp at h
  | a :: l, 0, v, _, h2, h3 => by
    simp at h2
    subst h2
    simp [List.count_cons, h3]
  | a :: l, i + 1, v, h, h2, h3 => by
    simp at h h2
    have := count_set_undef l i v h (by simpa using h2) h3
    simp only [List.set_cons_succ, List.count_cons]
    omega

theorem ofBool_ne_undef (b : Bool) : lbool.ofBool b ≠ l_Undef := by
  cases b <;> simp [lbool.ofBool]

theorem enqueue_range (s : Solver) (p : Nat) (r : Option Nat) (hr : RangeInv s)
    (hp : var p < s.assigns.length) (hv : s.value p = l_Undef) :
    RangeInv (uncheckedEnqueue s p r) ∧ propMeasure (uncheckedEnqueue s p r) = propMeasure s := by
  have hu : s.assigns.getD (var p) l_Undef = l_Undef := xor_undef.1 hv
  constructor
  · refine ⟨?_, ?_, ?_, ?_⟩
    · simpa [uncheckedEnqueue] using hr.bin
    · simpa [uncheckedEnqueue] using hr.mem
    · simpa [uncheckedEnqueue] using hr.long
    · intro l hl
      simp only [uncheckedEnqueue, List.mem_append, List.mem_singleton, List.length_set] at hl ⊢
      rcases hl with hl | rfl
      · exact hr.trail l hl
      · exact hp
  · have := count_set_undef s.assigns (var p) (lbool.ofBool (!sign p)) hp hu (ofBool_ne_undef _)
    simp only [propMeasure, uncheckedEnqueue, List.length_append, List.length_singleton]
    omega

theorem mem_set_imp {α : Type} {l : List α} {i : Nat} {a x : α} (h : x ∈ l.set i a) :
    x = a ∨ x ∈ l := by
  rcases List.mem_or_eq_of_mem_set h with h | h
  · exact Or.inr h
  · exact Or.inl h

theorem get_mem (ca : ClauseAllocator) (cr : Nat) (h : cr < ca.mem.length) : ca.get cr ∈ ca.mem := by
  unfold ClauseAllocator.get
  rw [List.getD_eq_getElem _ _ h]
  exact List.getElem_mem h

theorem mem_modify {ca : ClauseAllocator} {cr : Nat} {f : Clause → Clause} {c : Clause}
    (h : c ∈ (ca.modify cr f).mem) : c = f (ca.get cr) ∨ c ∈ ca.mem :=
  mem_set_imp h

/-- A change of stored clauses that keeps sizes and variable ranges keeps `RangeInv`. -/
theorem RangeInv.of_mem {s t : Solver} (hr : RangeInv s)
    (hmem : ∀ c ∈ t.ca.mem, 2 ≤ c.lits.length ∧ ∀ l ∈ c.lits, var l < s.assigns.length)
    (hlen : t.ca.mem.length = s.ca.mem.length)
    (h1 : t.assigns = s.assigns) (h2 : t.watchesBin = s.watchesBin)
    (h3 : ∀ ws ∈ t.watches.occs, ∀ w ∈ ws, w.cref < s.ca.mem.length) (h4 : t.trail = s.trail) :
    RangeInv t := by
  refine ⟨?_, ?_, ?_, ?_⟩
  · rw [h2, h1]; exact hr.bin
  · rw [h1]; exact hmem
  · rw [hlen]; exact h3
  · rw [h4, h1]; exact hr.trail

theorem RangeInv.of_fields {s t : Solver} (hr : RangeInv s) (h0 : t.ca.mem = s.ca.mem)
    (h1 : t.assigns = s.assigns) (h2 : t.watchesBin = s.watchesBin)
    (h3 : t.watches = s.watches) (h4 : t.trail = s.trail) : RangeInv t := by
  refine ⟨?_, ?_, ?_, ?_⟩
  · rw [h2, h1]; exact hr.bin
  · rw [h0, h1]; exact hr.mem
  · rw [h3, h0]; exact hr.long
  · rw [h4, h1]; exact hr.trail

theorem SameCore.comp {a b c : Solver} (h1 : SameCore a b) (h2 : SameCore b c) : SameCore a c :=
  ⟨h2.ca_eq.trans h1.ca_eq, h2.assigns_eq.trans h1.assigns_eq, h2.watches_eq.trans h1.watches_eq,
   h2.watchesBin_eq.trans h1.watchesBin_eq, h2.trail_eq.trans h1.trail_eq,
   h2.qhead_eq.trans h1.qhead_eq⟩

theorem lbdStep_core (a : Nat × Solver) (q : Nat) : SameCore a.2 (lbdStep a q).2 := by
  unfold lbdStep
  dsimp only
  split <;> exact ⟨rfl, rfl, rfl, rfl, rfl, rfl⟩

theorem foldl_lbdStep_core : ∀ (lits : List Nat) (a : Nat × Solver),
    SameCore a.2 (lits.foldl lbdStep a).2
  | [], _ => ⟨rfl, rfl, rfl, rfl, rfl, rfl⟩
  | q :: rest, a => by
    simp only [List.foldl_cons]
    exact (lbdStep_core a q).comp (foldl_lbdStep_core rest _)

theorem computeLBD_core (s : Solver) (lits : List Nat) : SameCore s (computeLBD s lits).2 := by
  unfold computeLBD
  have h0 : SameCore s { s with MYFLAG := (s.MYFLAG + 1) % 2 ^ 32 } := ⟨rfl, rfl, rfl, rfl, rfl, rfl⟩
  exact h0.comp (foldl_lbdStep_core lits (0, _))

theorem dynamicLBD_range (s : Solver) (cr : Nat) (hr : RangeInv s) :
    RangeInv (dynamicLBD s cr) ∧ propMeasure (dynamicLBD s cr) = propMeasure s ∧
    (dynamicLBD s cr).assigns = s.assigns ∧ (dynamicLBD s cr).qhead = s.qhead ∧
    (dynamicLBD s cr).ca.mem.length = s.ca.mem.length ∧ (dynamicLBD s cr).trail = s.trail := by
  unfold dynamicLBD
  dsimp only
  have hc := computeLBD_core s (s.ca.get cr).lits
  have hrc : RangeInv (computeLBD s (s.ca.get cr).lits).2 :=
    hr.of_fields (by rw [hc.ca_eq]) hc.assigns_eq hc.watchesBin_eq hc.watches_eq hc.trail_eq
  have hm : propMeasure (computeLBD s (s.ca.get cr).lits).2 = propMeasure s := by
    simp [propMeasure, hc.assigns_eq, hc.trail_eq]
  split
  · split
    · refine ⟨?_, ?_, hc.assigns_eq, hc.qhead_eq, ?_, hc.trail_eq⟩
      · by_cases hcr : cr < s.ca.mem.length
        · have hmem := hr.mem _ (get_mem s.ca cr hcr)
          refine hrc.of_mem ?_ (ca_modify_len _ _ _) rfl rfl hrc.long rfl
          intro c hc'
          rcases mem_modify hc' with rfl | hc'
          · rw [hc.ca_eq, hc.assigns_eq]; exact hmem
          · exact hrc.mem c hc'
        · refine hrc.of_fields ?_ rfl rfl rfl rfl
          simp only [ClauseAllocator.modify]
          rw [List.set_eq_of_length_le]
          rw [hc.ca_eq]; omega
      · simp [propMeasure, hc.assigns_eq, hc.trail_eq]
      · simp [ca_modify_len, hc.ca_eq]
    · exact ⟨hrc, hm, hc.assigns_eq, hc.qhead_eq, by rw [hc.ca_eq], hc.trail_eq⟩
  · exact ⟨hr, rfl, rfl, rfl, rfl, rfl⟩

theorem propBin_range : ∀ (ws : List Watcher) (s : Solver), RangeInv s →
    (∀ w ∈ ws, var w.blocker < s.assigns.length) →
    RangeInv (propBin ws s).2 ∧ propMeasure (propBin ws s).2 = propMeasure s ∧
    (propBin ws s).2.qhead = s.qhead ∧ (propBin ws s).2.assigns.length = s.assigns.length
  | [], s, hr, _ => ⟨hr, rfl, rfl, rfl⟩
  | w :: ws, s, hr, hw => by
    unfold propBin
    split
    · exact ⟨hr, rfl, rfl, rfl⟩
    · split
      · rename_i h
        have he := enqueue_range s w.blocker (some w.cref) hr (hw w (List.mem_cons_self _ _))
          (by simpa using h)
        have hl : (uncheckedEnqueue s w.blocker (some w.cref)).assigns.length = s.assigns.length := by
          simp [uncheckedEnqueue]
        have := propBin_range ws _ he.1 (fun x hx => by rw [hl]; exact hw x (List.mem_cons_of_mem _ hx))
        exact ⟨this.1, this.2.1.trans he.2, this.2.2.1, this.2.2.2.trans hl⟩
      · exact propBin_range ws s hr (fun x hx => hw x (List.mem_cons_of_mem _ hx))

theorem findNewWatch_bound (s : Solver) : ∀ (ls : List Nat) (k j : Nat),
    findNewWatch s ls k = some j → k ≤ j ∧ j < k + ls.length
  | [], _, _, h => by simp [findNewWatch] at h
  | l :: ls, k, j, h => by
    unfold findNewWatch at h
    split at h
    · simp only [Option.some.injEq] at h
      subst h
      simp
    · have := findNewWatch_bound s ls (k + 1) j h
      simp only [List.length_cons]
      omega

theorem lit_mem (c : Clause) (i : Nat) (h : i < c.lits.length) : c.lit i ∈ c.lits := by
  unfold Clause.lit
  rw [List.getD_eq_getElem _ _ h]
  exact List.getElem_mem h

theorem mem_push {w : OccLists} {idx : Nat} {x : Watcher} {ws : List Watcher}
    (h : ws ∈ (w.push idx x).occs) : ws = w.get idx ++ [x] ∨ ws ∈ w.occs :=
  mem_set_imp h

theorem mem_setList {w : OccLists} {idx : Nat} {xs ws : List Watcher}
    (h : ws ∈ (w.setList idx xs).occs) : ws = xs ∨ ws ∈ w.occs :=
  mem_set_imp h

theorem occs_get_mem (w : OccLists) (idx : Nat) (P : Watcher → Prop)
    (h : ∀ ws ∈ w.occs, ∀ x ∈ ws, P x) : ∀ x ∈ w.get idx, P x := by
  intro x hx
  unfold OccLists.get at hx
  by_cases hi : idx < w.occs.length
  · rw [List.getD_eq_getElem _ _ hi] at hx
    exact h _ (List.getElem_mem hi) x hx
  · rw [List.getD_eq_default _ _ (by omega)] at hx
    simp at hx

theorem propLong_range (p : Nat) : ∀ (ws acc : List Watcher) (s : Solver), RangeInv s →
    var p < s.assigns.length → (∀ w ∈ ws, w.cref < s.ca.mem.length) →
    (∀ w ∈ acc, w.cref < s.ca.mem.length) →
    RangeInv (propLong p ws acc s).2.2 ∧
    propMeasure (propLong p ws acc s).2.2 = propMeasure s ∧
    (propLong p ws acc s).2.2.assigns.length = s.assigns.length ∧
    (propLong p ws acc s).2.2.ca.mem.length = s.ca.mem.length ∧
    ((propLong p ws acc s).2.1 = none → (propLong p ws acc s).2.2.qhead = s.qhead) ∧
    (∀ w ∈ (propLong p ws acc s).1, w.cref < s.ca.mem.length)
  | [], acc, s, hr, _, _, hacc => by
    unfold propLong
    exact ⟨hr, rfl, rfl, rfl, fun _ => rfl, hacc⟩
  | w :: rest, acc, s, hr, hp, hws, hacc => by
    have hw : w.cref < s.ca.mem.length := hws w (List.mem_cons_self _ _)
    have hrest : ∀ x ∈ rest, x.cref < s.ca.mem.length := fun x hx => hws x (List.mem_cons_of_mem _ hx)
    unfold propLong
    split
    · refine propLong_range p rest _ s hr hp hrest ?_
      intro x hx
      rcases List.mem_append.1 hx with hx | hx
      · exact hacc x hx
      · simp at hx; subst hx; exact hw
    · rename_i hb
      dsimp only
      have hc := hr.mem _ (get_mem s.ca w.cref hw)
      have h1 : (RangeInv (if (s.ca.get w.cref).lit 0 == neg p then
          { s with ca := s.ca.modify w.cref (fun c =>
              { c with lits := (c.lits.set 0 (c.lit 1)).set 1 (neg p) }) } else s)) ∧
          (if (s.ca.get w.cref).lit 0 == neg p then
          { s with ca := s.ca.modify w.cref (fun c =>
              { c with lits := (c.lits.set 0 (c.lit 1)).set 1 (neg p) }) } else s).assigns
            = s.assigns ∧
          (if (s.ca.get w.cref).lit 0 == neg p then
          { s with ca := s.ca.modify w.cref (fun c =>
              { c with lits := (c.lits.set 0 (c.lit 1)).set 1 (neg p) }) } else s).trail
            = s.trail ∧
          (if (s.ca.get w.cref).lit 0 == neg p then
          { s with ca := s.ca.modify w.cref (fun c =>
              { c with lits := (c.lits.set 0 (c.lit 1)).set 1 (neg p) }) } else s).qhead
            = s.qhead ∧
          (if (s.ca.get w.cref).lit 0 == neg p then
          { s with ca := s.ca.modify w.cref (fun c =>
              { c with lits := (c.lits.set 0 (c.lit 1)).set 1 (neg p) }) } else s).ca.mem.length
            = s.ca.mem.length := by
        split
        · refine ⟨?_, rfl, rfl, rfl, ca_modify_len _ _ _⟩
          refine hr.of_mem ?_ (ca_modify_len _ _ _) rfl rfl hr.long rfl
          intro c hc'
          rcases mem_modify hc' with rfl | hc'
          · refine ⟨by simpa using hc.1, ?_⟩
            intro l hl
            rcases mem_set_imp hl with rfl | hl
            · rw [var_neg]; exact hp
            · rcases mem_set_imp hl with rfl | hl
              · exact hc.2 _ (lit_mem _ 1 (by omega))
              · exact hc.2 _ hl
          · exact hr.mem c hc'
        · exact ⟨hr, rfl, rfl, rfl, rfl⟩
      generalize (if (s.ca.get w.cref).lit 0 == neg p then
          { s with ca := s.ca.modify w.cref (fun c =>
              { c with lits := (c.lits.set 0 (c.lit 1)).set 1 (neg p) }) } else s) = s1 at h1 ⊢
      obtain ⟨hr1, h1a, h1t, h1q, h1m⟩ := h1
      have hm1 : propMeasure s1 = propMeasure s := by simp [propMeasure, h1a, h1t]
      have hw1 : w.cref < s1.ca.mem.length := by rw [h1m]; exact hw
      have hp1 : var p < s1.assigns.length := by rw [h1a]; exact hp
      have hrest1 : ∀ x ∈ rest, x.cref < s1.ca.mem.length := by rw [h1m]; exact hrest
      have hc1 := hr1.mem _ (get_mem s1.ca w.cref hw1)
      have hval : ∀ q, s1.value q = s.value q := by
        intro q; unfold value; rw [h1a]
      have hacc1 : ∀ x ∈ acc ++ [({ cref := w.cref, blocker := (s1.ca.get w.cref).lit 0 } : Watcher)],
          x.cref < s1.ca.mem.length := by
        intro x hx
        rcases List.mem_append.1 hx with hx | hx
        · rw [h1m]; exact hacc x hx
        · simp at hx; subst hx; exact hw1
      have fin : ∀ (acc' : List Watcher) (s2 : Solver), RangeInv s2 → propMeasure s2 = propMeasure s1 →
          s2.assigns.length = s1.assigns.length → s2.ca.mem.length = s1.ca.mem.length →
          s2.qhead = s1.qhead → (∀ x ∈ acc', x.cref < s1.ca.mem.length) →
          RangeInv (propLong p rest acc' s2).2.2 ∧
          propMeasure (propLong p rest acc' s2).2.2 = propMeasure s ∧
          (propLong p rest acc' s2).2.2.assigns.length = s.assigns.length ∧
          (propLong p rest acc' s2).2.2.ca.mem.length = s.ca.mem.length ∧
          ((propLong p rest acc' s2).2.1 = none → (propLong p rest acc' s2).2.2.qhead = s.qhead) ∧
          (∀ w ∈ (propLong p rest acc' s2).1, w.cref < s.ca.mem.length) := by
        intro acc' s2 hr2 hm2 ha2 hl2 hq2 hacc2
        have := propLong_range p rest acc' s2 hr2 (by rw [ha2]; exact hp1)
          (by rw [hl2]; exact hrest1) (by rw [hl2]; exact hacc2)
        refine ⟨this.1, this.2.1.trans (hm2.trans hm1), this.2.2.1.trans (ha2.trans (by rw [h1a])),
          this.2.2.2.1.trans (hl2.trans h1m), fun h => (this.2.2.2.2.1 h).trans (hq2.trans h1q), ?_⟩
        intro x hx
        have := this.2.2.2.2.2 x hx
        rw [hl2, h1m] at this
        exact this
      split
      · exact fin _ s1 hr1 rfl rfl rfl rfl hacc1
      · rename_i hf
        split
        · rename_i k hk
          have hkb := findNewWatch_bound s1 _ 2 k hk
          simp only [List.length_drop] at hkb
          refine fin _ _ ?_ ?_ rfl (ca_modify_len _ _ _) rfl ?_
          · refine hr1.of_mem ?_ (ca_modify_len _ _ _) rfl rfl ?_ rfl
            · intro c hc'
              rcases mem_modify hc' with rfl | hc'
              · refine ⟨by simpa using hc1.1, ?_⟩
                intro l hl
                rcases mem_set_imp hl with rfl | hl
                · rw [var_neg]; exact hp1
                · rcases mem_set_imp hl with rfl | hl
                  · exact hc1.2 _ (lit_mem _ k (by omega))
                  · exact hc1.2 _ hl
              · exact hr1.mem c hc'
            · intro ws' hws' x hx
              rcases mem_push hws' with rfl | hws'
              · rcases List.mem_append.1 hx with hx | hx
                · exact occs_get_mem _ _ (fun x => x.cref < s1.ca.mem.length) hr1.long x hx
                · simp at hx; subst hx; exact hw1
              · exact hr1.long ws' hws' x hx
          · simp [propMeasure]
          · intro x hx; rw [h1m]; exact hacc x hx
        · split
          · refine ⟨hr1.of_fields rfl rfl rfl rfl rfl, by simpa [propMeasure] using hm1, by simp [h1a],
              by simp [h1m], fun h => by simp at h, ?_⟩
            intro x hx
            rcases List.mem_append.1 hx with hx | hx
            · have := hacc1 x hx; rw [h1m] at this; exact this
            · exact hrest x hx
          · rename_i hnf
            have hu : s1.value ((s1.ca.get w.cref).lit 0) = l_Undef := by
              apply lbool_cases
              · intro ht
                by_cases hbl : (s1.ca.get w.cref).lit 0 = w.blocker
                · rw [hbl, hval] at ht
                  exact hb (by simp [ht])
                · exact hf (by simp [ht, hbl])
              · intro hfalse
                exact hnf (by simp [hfalse])
            have hin : var ((s1.ca.get w.cref).lit 0) < s1.assigns.length :=
              hc1.2 _ (lit_mem _ 0 (by omega))
            have he := enqueue_range s1 _ (some w.cref) hr1 hin hu
            have hd := dynamicLBD_range (uncheckedEnqueue s1 ((s1.ca.get w.cref).lit 0) (some w.cref))
              w.cref he.1
            refine fin _ _ hd.1 (hd.2.1.trans he.2) ?_ ?_ ?_ hacc1
            · rw [hd.2.2.1]; simp [uncheckedEnqueue]
            · rw [hd.2.2.2.2.1]; simp [uncheckedEnqueue]
            · rw [hd.2.2.2.1]; simp [uncheckedEnqueue]

theorem clean_all (P : Watcher → Prop) (ca : ClauseAllocator) (w : OccLists) (idx : Nat)
    (h : ∀ ws ∈ w.occs, ∀ x ∈ ws, P x) : ∀ ws ∈ (w.clean ca idx).occs, ∀ x ∈ ws, P x := by
  intro ws hws x hx
  rcases mem_set_imp hws with rfl | hws
  · exact occs_get_mem w idx P h x (List.mem_of_mem_filter hx)
  · exact h ws hws x hx

theorem cleanAll_fold (P : Watcher → Prop) (ca : ClauseAllocator) : ∀ (ds : List Nat) (w : OccLists),
    (∀ ws ∈ w.occs, ∀ x ∈ ws, P x) →
    ∀ ws ∈ (ds.foldl (fun acc idx => if acc.dirty.getD idx false then acc.clean ca idx else acc) w).occs,
      ∀ x ∈ ws, P x
  | [], _, h => h
  | d :: ds, w, h => by
    simp only [List.foldl_cons]
    apply cleanAll_fold P ca ds
    split
    · exact clean_all P ca w d h
    · exact h

theorem cleanAll_all (P : Watcher → Prop) (ca : ClauseAllocator) (w : OccLists)
    (h : ∀ ws ∈ w.occs, ∀ x ∈ ws, P x) : ∀ ws ∈ (w.cleanAll ca).occs, ∀ x ∈ ws, P x := by
  unfold OccLists.cleanAll
  exact cleanAll_fold P ca w.dirties w h

theorem propagateLoop_some : ∀ (fuel : Nat) (s : Solver) (n : Nat), RangeInv s →
    propMeasure s - s.qhead ≤ fuel → ∃ r, propagateLoop fuel s n = some r
  | 0, s, n, _, hm => by
    unfold propagateLoop
    split
    · rename_i hq
      simp only [propMeasure] at hm
      omega
    · exact ⟨_, rfl⟩
  | fuel + 1, s, n, hr, hm => by
    unfold propagateLoop
    split
    · rename_i hq
      dsimp only
      have hp : var (s.trail.getD s.qhead 0) < s.assigns.length := by
        apply hr.trail
        rw [List.getD_eq_getElem _ _ hq]
        exact List.getElem_mem hq
      have hr0 : RangeInv { s with qhead := s.qhead + 1 } := hr.of_fields rfl rfl rfl rfl rfl
      have hb := propBin_range
        (({ s with qhead := s.qhead + 1 } : Solver).watchesBin.get (s.trail.getD s.qhead 0))
        { s with qhead := s.qhead + 1 } hr0
        (occs_get_mem _ _ (fun x => var x.blocker < s.assigns.length) hr.bin)
      split
      · exact ⟨_, rfl⟩
      · rename_i s2 heq
        rw [heq] at hb
        obtain ⟨hr2, hm2, hq2, ha2⟩ := hb
        have hl := propLong_range (s.trail.getD s.qhead 0)
          (s2.watches.get (s.trail.getD s.qhead 0)) [] s2 hr2 (by rw [ha2]; exact hp)
          (occs_get_mem _ _ (fun x => x.cref < s2.ca.mem.length) hr2.long) (by simp)
        split
        · exact ⟨_, rfl⟩
        · rename_i kept s3 heq2
          rw [heq2] at hl
          obtain ⟨hr3, hm3, ha3, hl3, hq3, hk3⟩ := hl
          apply propagateLoop_some fuel
          · refine hr3.of_mem hr3.mem rfl rfl rfl ?_ rfl
            intro ws hws x hx
            rcases mem_setList hws with rfl | hws
            · rw [hl3]; exact hk3 x hx
            · exact hr3.long ws hws x hx
          · have e1 : s3.qhead = s.qhead + 1 := (hq3 rfl).trans hq2
            have e2 : propMeasure s3 = propMeasure s := hm3.trans hm2
            show propMeasure s3 - s3.qhead ≤ fuel
            rw [e1, e2]
            have hq' : s.qhead < s.trail.length := hq
            simp only [propMeasure] at hm ⊢
            omega
    · exact ⟨_, rfl⟩

theorem propagate_some (s : Solver) (hr : RangeInv s) : ∃ r, propagate s = some r := by
  unfold propagate
  apply propagateLoop_some
  · refine ⟨?_, hr.mem, ?_, hr.trail⟩
    · exact cleanAll_all (fun x => var x.blocker < s.assigns.length) s.ca s.watchesBin hr.bin
    · exact cleanAll_all (fun x => x.cref < s.ca.mem.length) s.ca s.watches hr.long
  · show propMeasure s - s.qhead ≤ _
    simp only [propMeasure]
    have := List.count_le_length l_Undef s.assigns
    omega

/-! ## The result of `addClause_` -/

/-- The scan of `addClause_` on a sorted input without true literal and without
complementary pair of unassigned literals: the literals kept are the non-false ones other
than `p`, in strictly increasing order. -/
theorem addClauseScan_some (s : Solver) : ∀ (qs : List Nat) (p : Option Nat),
    qs.Sorted (fun a b => a ≤ b) → (∀ x ∈ qs, s.value x ≠ l_True) →
    (∀ x ∈ qs, s.value x = l_Undef → neg x ∉ qs) →
    (∀ l, p = some l → (∀ x ∈ qs, l ≤ x) ∧ neg l ∉ qs) →
    ∃ r, addClauseScan s p qs = some r ∧ r.Sorted (fun a b => a < b) ∧
      (∀ x, x ∈ r ↔ x ∈ qs ∧ s.value x ≠ l_False ∧ p ≠ some x) ∧
      (∀ l, p = some l → ∀ x ∈ r, l < x)
  | [], p, _, _, _, _ => ⟨[], rfl, List.sorted_nil, by simp, by simp⟩
  | q :: rest, p, hs, hT, hC, hP => by
    have hs' : rest.Sorted (fun a b => a ≤ b) := hs.of_cons
    have hle : ∀ x ∈ rest, q ≤ x := fun x hx => List.rel_of_sorted_cons hs x hx
    have hT' : ∀ x ∈ rest, s.value x ≠ l_True := fun x hx => hT x (List.mem_cons_of_mem _ hx)
    have hC' : ∀ x ∈ rest, s.value x = l_Undef → neg x ∉ rest :=
      fun x hx hv hn => hC x (List.mem_cons_of_mem _ hx) hv (List.mem_cons_of_mem _ hn)
    have hqT := hT q (List.mem_cons_self _ _)
    unfold addClauseScan
    have hc1 : ¬ ((s.value q == l_True || some q == p.map neg) = true) := by
      simp only [Bool.or_eq_true, beq_iff_eq, not_or]
      refine ⟨hqT, ?_⟩
      intro h
      cases p with
      | none => simp at h
      | some l =>
        simp only [Option.map_some', Option.some.injEq] at h
        exact (hP l rfl).2 (by rw [← h]; exact List.mem_cons_self _ _)
    rw [if_neg hc1]
    split
    · rename_i hk
      simp only [bne_iff_ne, ne_eq, Bool.and_eq_true] at hk
      obtain ⟨hk1, hk2⟩ := hk
      have hqU : s.value q = l_Undef := lbool_cases _ hqT hk1
      obtain ⟨r, hr1, hr2, hr3, hr4⟩ := addClauseScan_some s rest (some q) hs' hT' hC'
        (by
          intro l hl
          simp only [Option.some.injEq] at hl
          subst hl
          exact ⟨hle, fun hn => hC q (List.mem_cons_self _ _) hqU (List.mem_cons_of_mem _ hn)⟩)
      refine ⟨q :: r, by rw [hr1]; rfl, ?_, ?_, ?_⟩
      · exact List.sorted_cons.2 ⟨fun x hx => hr4 q rfl x hx, hr2⟩
      · intro x
        simp only [List.mem_cons, hr3]
        constructor
        · rintro (rfl | ⟨h1, h2, h3⟩)
          · exact ⟨Or.inl rfl, hk1, hk2⟩
          · refine ⟨Or.inr h1, h2, ?_⟩
            intro hp
            have h4 := (hP x hp).1 q (List.mem_cons_self _ _)
            have h5 := hle x h1
            have : q = x := by omega
            exact h3 (by rw [this])
        · rintro ⟨h1 | h1, h2, h3⟩
          · exact Or.inl h1
          · by_cases hx : x = q
            · exact Or.inl hx
            · exact Or.inr ⟨h1, h2, fun h => hx (by simpa using h.symm)⟩
      · intro l hl x hx
        have h4 := (hP l hl).1 q (List.mem_cons_self _ _)
        have h5 : l ≠ q := by
          intro h; apply hk2; rw [hl, h]
        rcases List.mem_cons.1 hx with rfl | hx
        · omega
        · have := hr4 q rfl x hx
          omega
    · rename_i hk
      simp only [bne_iff_ne, ne_eq, Bool.and_eq_true, not_and, not_not] at hk
      obtain ⟨r, hr1, hr2, hr3, hr4⟩ := addClauseScan_some s rest p hs' hT' hC'
        (fun l hl => ⟨fun x hx => (hP l hl).1 x (List.mem_cons_of_mem _ hx),
          fun hn => (hP l hl).2 (List.mem_cons_of_mem _ hn)⟩)
      refine ⟨r, hr1, hr2, ?_, hr4⟩
      intro x
      rw [hr3]
      constructor
      · rintro ⟨h1, h2, h3⟩
        exact ⟨List.mem_cons_of_mem _ h1, h2, h3⟩
      · rintro ⟨h1, h2, h3⟩
        rcases List.mem_cons.1 h1 with rfl | h1
        · by_cases hv : s.value x = l_False
          · exact absurd hv h2
          · exact absurd (hk hv) h3
        · exact ⟨h1, h2, h3⟩

theorem sorted_singleton {r : List Nat} {l : Nat} (hs : r.Sorted (fun a b => a < b))
    (hm : ∀ x, x ∈ r ↔ x = l) : r = [l] := by
  cases r with
  | nil => exact absurd ((hm l).2 rfl) (by simp)
  | cons a t =>
    have ha : a = l := (hm a).1 (List.mem_cons_self _ _)
    cases t with
    | nil => rw [ha]
    | cons b u =>
      have hb : b = l := (hm b).1 (by simp)
      have := List.rel_of_sorted_cons hs b (List.mem_cons_self _ _)
      omega

theorem sorted_two {r : List Nat} {a b : Nat} (ha : a ∈ r) (hb : b ∈ r) (hab : a ≠ b) :
    2 ≤ r.length := by
  match r, ha, hb with
  | [], ha, _ => simp at ha
  | [x], ha, hb =>
    simp at ha hb
    omega
  | _ :: _ :: _, _, _ => simp

/-- The scan of `addClause_ s ps` when no input literal is true and no unassigned literal
comes with its complement. -/
theorem addClauseScan_input (s : Solver) (ps : List Nat) (hT : ∀ x ∈ ps, s.value x ≠ l_True)
    (hC : ∀ x ∈ ps, s.value x = l_Undef → neg x ∉ ps) :
    ∃ r, addClauseScan s none (sortLits ps) = some r ∧ r.Sorted (fun a b => a < b) ∧
      (∀ x, x ∈ r ↔ x ∈ ps ∧ s.value x ≠ l_False) := by
  obtain ⟨r, h1, h2, h3, _⟩ := addClauseScan_some s (sortLits ps) none (sorted_sortLits ps)
    (fun x hx => hT x (mem_sortLits.1 hx))
    (fun x hx hv hn => hC x (mem_sortLits.1 hx) hv (mem_sortLits.1 hn))
    (by simp)
  refine ⟨r, h1, h2, ?_⟩
  intro x
  rw [h3, mem_sortLits]
  simp

theorem addClause_of_scan_none (s : Solver) (ps : List Nat) (hok : s.ok = true)
    (h : addClauseScan s none (sortLits ps) = none) : addClause_ s ps = some (true, s) := by
  unfold addClause_
  simp [hok, h]

theorem addClause_tautology (s : Solver) (ps : List Nat) (hok : s.ok = true)
    (h : (∃ l ∈ ps, neg l ∈ ps) ∨ (∃ l ∈ ps, s.value l = l_True)) :
    addClause_ s ps = some (true, s) := by
  apply addClause_of_scan_none s ps hok
  by_cases hT : ∃ l ∈ sortLits ps, s.value l = l_True
  · exact addClauseScan_true s _ _ hT
  · have hT' : ∀ l ∈ ps, s.value l ≠ l_True := fun l hl hv => hT ⟨l, mem_sortLits.2 hl, hv⟩
    rcases h with ⟨l, hl, hn⟩ | ⟨l, hl, hv⟩
    · have hlU : s.value l = l_Undef :=
        lbool_cases _ (hT' l hl) (fun hf => hT' _ hn (value_neg_true.2 hf))
      by_cases he : l % 2 = 0
      · have hneg : neg l = l + 1 := by unfold neg; simp [he]
        rw [hneg] at hn
        exact addClauseScan_compl s l he hlU _ none (sorted_sortLits ps) (mem_sortLits.2 hn)
          (Or.inr (mem_sortLits.2 hl))
      · have hneg : neg l = l - 1 := by unfold neg; simp [he]
        have he' : (l - 1) % 2 = 0 := by omega
        have hl' : l - 1 + 1 = l := by omega
        rw [hneg] at hn
        exact addClauseScan_compl s (l - 1) he' (by rw [← hneg]; exact value_neg_undef.2 hlU) _ none
          (sorted_sortLits ps) (mem_sortLits.2 (by rw [hl']; exact hl))
          (Or.inr (mem_sortLits.2 hn))
    · exact absurd hv (hT' l hl)

theorem addClause_all_false (s : Solver) (ps : List Nat) (h : ∀ x ∈ ps, s.value x = l_False) :
    ∃ t, addClause_ s ps = some (false, t) ∧ t.ok = false := by
  by_cases hok : s.ok = true
  · obtain ⟨r, h1, _, h3⟩ := addClauseScan_input s ps (fun x hx => by rw [h x hx]; simp)
      (fun x hx hv => by rw [h x hx] at hv; simp at hv)
    have hr : r = [] := by
      apply List.eq_nil_iff_forall_not_mem.2
      intro x hx
      exact ((h3 x).1 hx).2 (h x ((h3 x).1 hx).1)
    subst hr
    refine ⟨{ s with ok := false }, ?_, rfl⟩
    unfold addClause_
    simp [hok, h1]
  · refine ⟨s, ?_, by simpa using hok⟩
    unfold addClause_
    simp [hok]

theorem value_enqueue (s : Solver) (l : Nat) (r : Option Nat) (h : var l < s.assigns.length) :
    (uncheckedEnqueue s l r).assigns.getD (var l) l_Undef = lbool.ofBool (!sign l) := by
  simp [uncheckedEnqueue, List.getD_eq_getElem?_getD, List.getElem?_set_self h]

theorem ofBool_xor (b : Bool) : (lbool.ofBool (!b)).xor b = l_True := by
  cases b <;> rfl

theorem addClause_unit_then_neg (s : Solver) (l : Nat) (s1 : Solver) (hok : s.ok = true)
    (hvar : var l < s.assigns.length) (hv : s.value l = l_Undef)
    (h : addClause_ s [l] = some (true, s1)) :
    s1.value l = l_True ∧ ∃ s2, addClause_ s1 [neg l] = some (false, s2) ∧ s2.ok = false := by
  have hscan : addClauseScan s none (sortLits [l]) = some [l] := by
    simp [sortLits, addClauseScan, hv]
  unfold addClause_ at h
  simp only [hok, hscan, Bool.not_true, Bool.false_eq_true, if_false, List.length_singleton] at h
  simp only [Nat.reduceBEq, Bool.false_eq_true, if_false, if_true, beq_self_eq_true, List.getD_cons_zero] at h
  split at h
  · simp at h
  · rename_i confl t heq
    simp only [Option.some.injEq, Prod.mk.injEq] at h
    obtain ⟨hc, ht⟩ := h
    have hfr := propagate_frame _ _ heq
    have hk := (hfr.keep (var l) (by rw [value_enqueue s l none hvar]; exact ofBool_ne_undef _)).1
    rw [value_enqueue s l none hvar] at hk
    have hval : s1.value l = l_True := by
      rw [← ht]
      show (t.assigns.getD (var l) l_Undef).xor (sign l) = l_True
      rw [hk]; exact ofBool_xor _
    refine ⟨hval, ?_⟩
    apply addClause_all_false
    intro x hx
    simp only [List.mem_singleton] at hx
    subst hx
    exact value_neg_false.2 hval

theorem addClause_unit_scan (s : Solver) (ps : List Nat) (l : Nat) (hl : l ∈ ps)
    (hlU : s.value l = l_Undef) (hF : ∀ x ∈ ps, x ≠ l → s.value x = l_False) :
    addClauseScan s none (sortLits ps) = some [l] := by
  have hT : ∀ x ∈ ps, s.value x ≠ l_True := by
    intro x hx
    by_cases h : x = l
    · rw [h, hlU]; simp
    · rw [hF x hx h]; simp
  obtain ⟨r, h1, h2, h3⟩ := addClauseScan_input s ps hT (by
    intro x hx hv hn
    have hxl : x = l := by
      by_contra h
      rw [hF x hx h] at hv
      simp at hv
    subst hxl
    have := hF _ hn (neg_ne x)
    rw [value_neg_false] at this
    rw [this] at hv
    simp at hv)
  have : r = [l] := by
    apply sorted_singleton h2
    intro x
    rw [h3]
    constructor
    · rintro ⟨hx, hv⟩
      by_contra h
      exact hv (hF x hx h)
    · rintro rfl
      exact ⟨hl, by rw [hlU]; simp⟩
  rw [h1, this]

theorem addClause_unit (s : Solver) (ps : List Nat) (l : Nat) (hok : s.ok = true) (hl : l ∈ ps)
    (hlU : s.value l = l_Undef) (hF : ∀ x ∈ ps, x ≠ l → s.value x = l_False) :
    addClause_ s ps =
      match propagate (uncheckedEnqueue s l none) with
      | none => none
      | some (confl, s1) => some (confl == none, { s1 with ok := (confl == none) }) := by
  unfold addClause_
  simp only [hok, addClause_unit_scan s ps l hl hlU hF, Bool.not_true, Bool.false_eq_true,
    if_false, List.length_singleton]
  rfl

theorem enqueue_rangeInv (s : Solver) (l : Nat) (hr : RangeInv s) (hvar : var l < s.assigns.length)
    (hlU : s.value l = l_Undef) : RangeInv (uncheckedEnqueue s l none) :=
  (enqueue_range s l none hr hvar hlU).1

theorem get_alloc (ca : ClauseAllocator) (qs : List Nat) (b : Bool) :
    (ca.alloc qs b).2.get ca.mem.length =
      { lits := qs, learnt := b, lbd := 0, activity := ⟨0, 1⟩, mark := 0, canBeDel := true,
        reloced := false, relocation := 0 } := by
  simp [ClauseAllocator.alloc, ClauseAllocator.get, List.getD_eq_getElem?_getD]

theorem push_get_self (w : OccLists) (idx : Nat) (x : Watcher) (h : idx < w.occs.length) :
    x ∈ (w.push idx x).get idx := by
  simp [OccLists.push, OccLists.get, List.getD_eq_getElem?_getD, List.getElem?_set_self h]

theorem push_get_mono (w : OccLists) (i j : Nat) (x y : Watcher) (h : y ∈ w.get i) :
    y ∈ (w.push j x).get i := by
  by_cases hij : j = i
  · subst hij
    by_cases hj : j < w.occs.length
    · simp only [OccLists.push, OccLists.get, List.getD_eq_getElem?_getD, List.getElem?_set_self hj,
        Option.getD_some, List.mem_append]
      left
      simpa [OccLists.get, List.getD_eq_getElem?_getD] using h
    · simp only [OccLists.get] at h
      rw [List.getD_eq_default _ _ (by omega)] at h
      simp at h
  · simpa [OccLists.push, OccLists.get, List.getD_eq_getElem?_getD, List.getElem?_set_ne hij]
      using h

theorem attachClause_attached (s : Solver) (cr : Nat)
    (h0 : neg ((s.ca.get cr).lit 0) < s.watches.occs.length ∧
          neg ((s.ca.get cr).lit 0) < s.watchesBin.occs.length)
    (h1 : neg ((s.ca.get cr).lit 1) < s.watches.occs.length ∧
          neg ((s.ca.get cr).lit 1) < s.watchesBin.occs.length) :
    attached (attachClause s cr) cr ∧ (attachClause s cr).ca = s.ca ∧
    (attachClause s cr).clauses = s.clauses ∧ (attachClause s cr).trail = s.trail ∧
    (attachClause s cr).assigns = s.assigns ∧ (attachClause s cr).ok = s.ok := by
  have hca : (attachClause s cr).ca = s.ca := by
    unfold attachClause; dsimp only; split <;> split <;> rfl
  refine ⟨?_, hca, ?_, ?_, ?_, ?_⟩
  · unfold attached
    rw [hca]
    constructor
    · intro h2
      have hw : (attachClause s cr).watchesBin =
          (s.watchesBin.push (neg ((s.ca.get cr).lit 0)) ⟨cr, (s.ca.get cr).lit 1⟩).push
            (neg ((s.ca.get cr).lit 1)) ⟨cr, (s.ca.get cr).lit 0⟩ := by
        unfold attachClause; dsimp only; simp only [h2, beq_self_eq_true, if_true]
        split <;> rfl
      rw [hw]
      refine ⟨push_get_mono _ _ _ _ _ (push_get_self _ _ _ h0.2), push_get_self _ _ _ ?_⟩
      simpa [OccLists.push] using h1.2
    · intro h2
      have hw : (attachClause s cr).watches =
          (s.watches.push (neg ((s.ca.get cr).lit 0)) ⟨cr, (s.ca.get cr).lit 1⟩).push
            (neg ((s.ca.get cr).lit 1)) ⟨cr, (s.ca.get cr).lit 0⟩ := by
        unfold attachClause; dsimp only
        have : ((s.ca.get cr).size == 2) = false := by simpa using h2
        simp only [this, Bool.false_eq_true, if_false]
        split <;> rfl
      rw [hw]
      refine ⟨push_get_mono _ _ _ _ _ (push_get_self _ _ _ h0.1), push_get_self _ _ _ ?_⟩
      simpa [OccLists.push] using h1.1
  all_goals (unfold attachClause; dsimp only; split <;> split <;> rfl)

theorem addClause_store (s : Solver) (ps : List Nat) (hok : s.ok = true)
    (hT : ∀ x ∈ ps, s.value x ≠ l_True) (hC : ∀ x ∈ ps, neg x ∉ ps)
    (h2 : ∃ a ∈ ps, ∃ b ∈ ps, a ≠ b ∧ s.value a ≠ l_False ∧ s.value b ≠ l_False) :
    ∃ qs : List Nat, qs.Sorted (fun a b => a < b) ∧ (∀ x, x ∈ qs ↔ x ∈ ps ∧ s.value x ≠ l_False) ∧
      2 ≤ qs.length ∧
      addClause_ s ps = some (true, attachClause
        { s with ca := (s.ca.alloc qs false).2, clauses := s.clauses ++ [s.ca.mem.length] }
        s.ca.mem.length) := by
  obtain ⟨r, h1, hs, hm⟩ := addClauseScan_input s ps hT (fun x hx _ => hC x hx)
  obtain ⟨a, ha, b, hb, hab, hva, hvb⟩ := h2
  have hlen : 2 ≤ r.length := sorted_two ((hm a).2 ⟨ha, hva⟩) ((hm b).2 ⟨hb, hvb⟩) hab
  refine ⟨r, hs, hm, hlen, ?_⟩
  unfold addClause_
  have e0 : (r.length == 0) = false := by
    rw [beq_eq_false_iff_ne]; omega
  have e1 : (r.length == 1) = false := by
    rw [beq_eq_false_iff_ne]; omega
  simp only [hok, h1, Bool.not_true, Bool.false_eq_true, if_false, e0, e1]
  rfl

/-! ## Backtracking -/

theorem insertVarOrder_fields (s : Solver) (x : Nat) :
    (insertVarOrder s x).assigns = s.assigns ∧ (insertVarOrder s x).vardata = s.vardata ∧
    (insertVarOrder s x).trail = s.trail ∧ (insertVarOrder s x).trail_lim = s.trail_lim := by
  unfold insertVarOrder
  split <;> exact ⟨rfl, rfl, rfl, rfl⟩

theorem cancelStep_fields (last : Nat) (s : Solver) (cl : Nat × Nat) :
    (cancelStep last s cl).assigns = s.assigns.set (var cl.2) l_Undef ∧
    (cancelStep last s cl).vardata = s.vardata ∧
    (cancelStep last s cl).trail = s.trail ∧ (cancelStep last s cl).trail_lim = s.trail_lim := by
  unfold cancelStep
  dsimp only
  split
  · obtain ⟨h1, h2, h3, h4⟩ := insertVarOrder_fields
      { s with assigns := s.assigns.set (var cl.2) l_Undef,
               polarity := s.polarity.set (var cl.2) (sign cl.2) } (var cl.2)
    exact ⟨h1, h2, h3, h4⟩
  · obtain ⟨h1, h2, h3, h4⟩ := insertVarOrder_fields
      { s with assigns := s.assigns.set (var cl.2) l_Undef } (var cl.2)
    exact ⟨h1, h2, h3, h4⟩

theorem cancelFold_fields (last : Nat) : ∀ (L : List (Nat × Nat)) (s : Solver),
    (L.foldl (cancelStep last) s).assigns =
      L.foldl (fun a cl => a.set (var cl.2) l_Undef) s.assigns ∧
    (L.foldl (cancelStep last) s).vardata = s.vardata ∧
    (L.foldl (cancelStep last) s).trail = s.trail ∧
    (L.foldl (cancelStep last) s).trail_lim = s.trail_lim
  | [], s => ⟨rfl, rfl, rfl, rfl⟩
  | cl :: L, s => by
    simp only [List.foldl_cons]
    obtain ⟨h1, h2, h3, h4⟩ := cancelFold_fields last L (cancelStep last s cl)
    obtain ⟨g1, g2, g3, g4⟩ := cancelStep_fields last s cl
    exact ⟨by rw [h1, g1], h2.trans g2, h3.trans g3, h4.trans g4⟩

theorem getD_unassign : ∀ (L : List (Nat × Nat)) (a : List lbool) (x : Nat),
    (L.foldl (fun a cl => a.set (var cl.2) l_Undef) a).getD x l_Undef =
      if x ∈ L.map (fun cl => var cl.2) then l_Undef else a.getD x l_Undef
  | [], a, x => by simp
  | cl :: L, a, x => by
    simp only [List.foldl_cons, List.map_cons, List.mem_cons]
    rw [getD_unassign L]
    by_cases h1 : x ∈ L.map (fun cl => var cl.2)
    · simp [h1]
    · simp only [h1, if_false, or_false]
      by_cases h2 : x = var cl.2
      · subst h2
        simp only [if_true, List.getD_eq_getElem?_getD]
        by_cases h3 : var cl.2 < a.length
        · simp [List.getElem?_set_self h3]
        · simp [List.getElem?_eq_none (show (a.set (var cl.2) l_Undef).length ≤ var cl.2 by simp; omega)]
      · simp only [h2, if_false, List.getD_eq_getElem?_getD]
        rw [List.getElem?_set_ne (Ne.symm h2)]

/-- On a non-decreasing list, the fences at or below `i` are at most `d` when fence `d`
is above `i`. -/
theorem count_le_of_lt : ∀ (l : List Nat) (d i : Nat), l.Sorted (fun a b => a ≤ b) →
    d < l.length → i < l.getD d 0 → (l.filter (fun k => decide (k ≤ i))).length ≤ d
  | [], d, i, _, h, _ => by simp at h
  | a :: l, 0, i, hs, _, hi => by
    simp only [List.getD_cons_zero] at hi
    have : ∀ x ∈ a :: l, ¬ (decide (x ≤ i) = true) := by
      intro x hx
      rcases List.mem_cons.1 hx with rfl | hx
      · simp; omega
      · have := List.rel_of_sorted_cons hs x hx
        simp; omega
    rw [List.filter_eq_nil_iff.2 this]
    simp
  | a :: l, d + 1, i, hs, h, hi => by
    simp only [List.getD_cons_succ] at hi
    simp only [List.length_cons] at h
    have := count_le_of_lt l d i hs.of_cons (by omega) hi
    rw [List.filter_cons]
    split
    · simp only [List.length_cons]; omega
    · omega

/-- On a non-decreasing list, more than `d` fences are at or below `i` when fence `d` is. -/
theorem count_gt_of_le : ∀ (l : List Nat) (d i : Nat), l.Sorted (fun a b => a ≤ b) →
    d < l.length → l.getD d 0 ≤ i → d < (l.filter (fun k => decide (k ≤ i))).length
  | [], d, i, _, h, _ => by simp at h
  | a :: l, 0, i, _, _, hi => by
    simp only [List.getD_cons_zero] at hi
    rw [List.filter_cons]
    simp [hi]
  | a :: l, d + 1, i, hs, h, hi => by
    simp only [List.getD_cons_succ] at hi
    simp only [List.length_cons] at h
    have h1 := count_gt_of_le l d i hs.of_cons (by omega) hi
    have ha : a ≤ i := by
      have hd : d < l.length := by omega
      have hmem : l.getD d 0 ∈ l := by
        rw [List.getD_eq_getElem _ _ hd]; exact List.getElem_mem hd
      have := List.rel_of_sorted_cons hs _ hmem
      omega
    rw [List.filter_cons]
    simp only [ha, decide_True, if_true, List.length_cons]
    omega

theorem cancelUntil_keep (s : Solver) (d : Nat) :
    (cancelUntil s d).ok = s.ok ∧ (cancelUntil s d).conflict = s.conflict ∧
    (cancelUntil s d).model = s.model := by
  have hi : ∀ (u : Solver) (x : Nat), (insertVarOrder u x).ok = u.ok ∧
      (insertVarOrder u x).conflict = u.conflict ∧ (insertVarOrder u x).model = u.model := by
    intro u x; unfold insertVarOrder; split <;> exact ⟨rfl, rfl, rfl⟩
  have hs : ∀ (last : Nat) (u : Solver) (cl : Nat × Nat), (cancelStep last u cl).ok = u.ok ∧
      (cancelStep last u cl).conflict = u.conflict ∧ (cancelStep last u cl).model = u.model := by
    intro last u cl
    unfold cancelStep
    dsimp only
    split
    · exact hi ({ u with assigns := u.assigns.set (var cl.2) l_Undef,
                          polarity := u.polarity.set (var cl.2) (sign cl.2) } : Solver) (var cl.2)
    · exact hi ({ u with assigns := u.assigns.set (var cl.2) l_Undef } : Solver) (var cl.2)
  have hf : ∀ (last : Nat) (L : List (Nat × Nat)) (u : Solver),
      (L.foldl (cancelStep last) u).ok = u.ok ∧ (L.foldl (cancelStep last) u).conflict = u.conflict ∧
      (L.foldl (cancelStep last) u).model = u.model := by
    intro last L
    induction L with
    | nil => intro u; exact ⟨rfl, rfl, rfl⟩
    | cons cl L ih =>
      intro u
      simp only [List.foldl_cons]
      obtain ⟨h1, h2, h3⟩ := ih (cancelStep last u cl)
      obtain ⟨g1, g2, g3⟩ := hs last u cl
      exact ⟨h1.trans g1, h2.trans g2, h3.trans g3⟩
  unfold cancelUntil
  split
  · obtain ⟨h1, h2, h3⟩ := hf (s.trail_lim.getD (s.trail_lim.length - 1) 0)
      ((s.trail.enum.drop (s.trail_lim.getD d 0)).reverse) s
    exact ⟨h1, h2, h3⟩
  · exact ⟨rfl, rfl, rfl⟩

theorem cancel_suffix_vars (trail : List Nat) (lim : Nat) :
    ((trail.enum.drop lim).reverse).map (fun cl => var cl.2) = ((trail.drop lim).map var).reverse := by
  rw [List.map_reverse]
  congr 1
  have : (fun cl : Nat × Nat => var cl.2) = var ∘ Prod.snd := rfl
  rw [this, ← List.map_map, List.map_drop, List.enum_map_snd]

theorem mem_map_var_take {trail : List Nat} {lim x : Nat} (h : x ∈ (trail.take lim).map var) :
    ∃ i, i < lim ∧ i < trail.length ∧ var (trail.getD i 0) = x := by
  obtain ⟨a, ha, rfl⟩ := List.mem_map.1 h
  obtain ⟨i, hi, hi2, rfl⟩ := List.mem_take_iff_getElem.1 ha
  refine ⟨i, by omega, by omega, ?_⟩
  rw [List.getD_eq_getElem _ _ (by omega)]

theorem mem_map_var_drop {trail : List Nat} {lim x : Nat} (h : x ∈ (trail.drop lim).map var) :
    ∃ i, lim ≤ i ∧ i < trail.length ∧ var (trail.getD i 0) = x := by
  obtain ⟨a, ha, rfl⟩ := List.mem_map.1 h
  obtain ⟨i, hi, rfl⟩ := List.mem_drop_iff_getElem.1 ha
  refine ⟨lim + i, by omega, by omega, ?_⟩
  rw [List.getD_eq_getElem _ _ (by omega)]

theorem valueVar_undef_of_ge (s : Solver) (x : Nat) (h : s.assigns.length ≤ x) :
    s.assigns.getD x l_Undef = l_Undef := List.getD_eq_default _ _ h

theorem cancelUntil_spec (s : Solver) (hwf : TrailWF s) (d : Nat) (hd : d ≤ s.decisionLevel) :
    (cancelUntil s d).decisionLevel = d ∧ (cancelUntil s d).trail_lim.length = d ∧
    (cancelUntil s d).vardata = s.vardata ∧
    (∀ x, d < (cancelUntil s d).level x → (cancelUntil s d).valueVar x = l_Undef) ∧
    (∀ x, s.valueVar x ≠ l_Undef → s.level x ≤ d → (cancelUntil s d).valueVar x = s.valueVar x) := by
  have hsplit : ∀ lim, s.trail.map var = (s.trail.take lim).map var ++ (s.trail.drop lim).map var := by
    intro lim; rw [← List.map_append, List.take_append_drop]
  have honTrail : ∀ x, s.assigns.getD x l_Undef ≠ l_Undef → x ∈ s.trail.map var := by
    intro x hx
    by_cases hlt : x < s.assigns.length
    · exact hwf.assigned x hlt hx
    · exact absurd (valueVar_undef_of_ge s x (by omega)) hx
  unfold decisionLevel at hd
  by_cases hlt : s.decisionLevel > d
  · have hdl : d < s.trail_lim.length := hlt
    obtain ⟨h1, h2, h3, h4⟩ := cancelFold_fields (s.trail_lim.getD (s.trail_lim.length - 1) 0)
      ((s.trail.enum.drop (s.trail_lim.getD d 0)).reverse) s
    have hA : ∀ x, (cancelUntil s d).assigns.getD x l_Undef =
        if x ∈ (s.trail.drop (s.trail_lim.getD d 0)).map var then l_Undef
        else s.assigns.getD x l_Undef := by
      intro x
      unfold cancelUntil
      simp only [hlt, if_true]
      show (List.foldl _ s _).assigns.getD x l_Undef = _
      rw [h1, getD_unassign, cancel_suffix_vars]
      simp only [List.mem_reverse]
    have hV : (cancelUntil s d).vardata = s.vardata := by
      unfold cancelUntil
      simp only [hlt, if_true]
      exact h2
    have hL : (cancelUntil s d).trail_lim = s.trail_lim.take d := by
      unfold cancelUntil
      simp only [hlt, if_true]
      show (List.foldl _ s _).trail_lim.take d = _
      rw [h4]
    have hlen : (cancelUntil s d).trail_lim.length = d := by
      rw [hL, List.length_take]; omega
    refine ⟨hlen, hlen, hV, ?_, ?_⟩
    · intro x hx
      by_contra hne
      have hne' : (cancelUntil s d).assigns.getD x l_Undef ≠ l_Undef := hne
      rw [hA] at hne'
      by_cases hmem : x ∈ (s.trail.drop (s.trail_lim.getD d 0)).map var
      · rw [if_pos hmem] at hne'
        exact hne' rfl
      · rw [if_neg hmem] at hne'
        have hon := honTrail x hne'
        rw [hsplit (s.trail_lim.getD d 0), List.mem_append] at hon
        rcases hon with hon | hon
        · obtain ⟨i, hi1, hi2, hi3⟩ := mem_map_var_take hon
          have hlv := hwf.level_ok i hi2
          rw [hi3] at hlv
          have hc := count_le_of_lt s.trail_lim d i hwf.lim_sorted hdl hi1
          have : (cancelUntil s d).level x = s.level x := by unfold level; rw [hV]
          omega
        · exact hmem hon
    · intro x hx hlv
      show (cancelUntil s d).assigns.getD x l_Undef = s.assigns.getD x l_Undef
      rw [hA]
      have hon := honTrail x hx
      rw [hsplit (s.trail_lim.getD d 0), List.mem_append] at hon
      have hnd := hwf.nodup
      rw [hsplit (s.trail_lim.getD d 0)] at hnd
      have hdisj := List.disjoint_of_nodup_append hnd
      rcases hon with hon | hon
      · have : x ∉ (s.trail.drop (s.trail_lim.getD d 0)).map var := fun h => hdisj hon h
        rw [if_neg this]
      · obtain ⟨i, hi1, hi2, hi3⟩ := mem_map_var_drop hon
        have hl2 := hwf.level_ok i hi2
        rw [hi3] at hl2
        have hc := count_gt_of_le s.trail_lim d i hwf.lim_sorted hdl hi1
        omega
  · have hdeq : d = s.trail_lim.length := by
      unfold decisionLevel at hlt; omega
    have hid : cancelUntil s d = s := by
      unfold cancelUntil
      simp [hlt]
    rw [hid]
    refine ⟨hdeq.symm, hdeq.symm, rfl, ?_, fun _ _ _ => rfl⟩
    intro x hx
    by_contra hne
    have hon := honTrail x hne
    rw [hsplit 0] at hon
    simp only [List.take_zero, List.map_nil, List.nil_append, List.drop_zero] at hon
    have hon' : x ∈ (s.trail.drop 0).map var := by simpa using hon
    obtain ⟨i, _, hi2, hi3⟩ := mem_map_var_drop hon'
    have hl2 := hwf.level_ok i hi2
    rw [hi3] at hl2
    have := List.length_filter_le (fun k => decide (k ≤ i)) s.trail_lim
    omega

/-! ## The final conflict -/

theorem assumeLoop_false (s : Solver) (h1 : s.decisionLevel < s.assumptions.length)
    (h2 : s.value (s.assumptions.getD s.decisionLevel 0) = l_False) :
    assumeLoop (s.assumptions.drop s.decisionLevel) s =
      (Assume.conflict, analyzeFinal s (neg (s.assumptions.getD s.decisionLevel 0))) := by
  have hd : s.assumptions.drop s.decisionLevel =
      s.assumptions.getD s.decisionLevel 0 :: s.assumptions.drop (s.decisionLevel + 1) := by
    rw [List.getD_eq_getElem _ _ h1]
    exact List.drop_eq_getElem_cons h1
  rw [hd]
  unfold assumeLoop
  rw [h2]
  rfl

theorem getD_set_true {sn : List Bool} {i x : Nat} (h : (sn.set i true).getD x false = true) :
    x = i ∨ sn.getD x false = true := by
  by_cases hx : x = i
  · exact Or.inl hx
  · right
    simpa [List.getD_eq_getElem?_getD, List.getElem?_set_ne (Ne.symm hx)] using h

theorem getD_set_false {sn : List Bool} {i x : Nat} (h : (sn.set i false).getD x false = true) :
    sn.getD x false = true := by
  by_cases hx : x = i
  · subst hx
    by_cases hl : x < sn.length
    · simp [List.getD_eq_getElem?_getD, List.getElem?_set_self hl] at h
    · rw [List.getD_eq_default _ _ (by simp; omega)] at h
      simp at h
  · simpa [List.getD_eq_getElem?_getD, List.getElem?_set_ne (Ne.symm hx)] using h

theorem markFold (s : Solver) : ∀ (L : List Nat) (sn : List Bool) (x : Nat),
    (L.foldl (fun sn l => if s.level (var l) > 0 then sn.set (var l) true else sn) sn).getD x false
      = true →
    sn.getD x false = true ∨ ∃ l ∈ L, var l = x ∧ 0 < s.level (var l)
  | [], sn, x, h => Or.inl h
  | l :: L, sn, x, h => by
    simp only [List.foldl_cons] at h
    rcases markFold s L _ x h with h1 | ⟨l', hl', h2, h3⟩
    · split at h1
      · rename_i hlv
        rcases getD_set_true h1 with rfl | h1
        · exact Or.inr ⟨l, List.mem_cons_self _ _, rfl, hlv⟩
        · exact Or.inl h1
      · exact Or.inl h1
    · exact Or.inr ⟨l', List.mem_cons_of_mem _ hl', h2, h3⟩

theorem analyzeFinalStep_derived (s u : Solver) (v t : Nat) (hv : u.vardata = s.vardata)
    (hca : u.ca = s.ca) (hinv : ∀ x, u.seen.getD x false = true → DerivedFrom s v x) :
    (analyzeFinalStep u t).vardata = s.vardata ∧ (analyzeFinalStep u t).ca = s.ca ∧
    (∀ x, (analyzeFinalStep u t).seen.getD x false = true → DerivedFrom s v x) ∧
    (analyzeFinalStep u t).ok = u.ok ∧ (analyzeFinalStep u t).trail = u.trail ∧
    (analyzeFinalStep u t).trail_lim = u.trail_lim ∧ (analyzeFinalStep u t).assigns = u.assigns ∧
    ((analyzeFinalStep u t).conflict = u.conflict ∨
      ((analyzeFinalStep u t).conflict = u.conflict ++ [neg t] ∧ s.reason (var t) = none ∧
        DerivedFrom s v (var t))) := by
  have hreason : ∀ x, u.reason x = s.reason x := by intro x; unfold reason; rw [hv]
  have hlevel : ∀ x, u.level x = s.level x := by intro x; unfold level; rw [hv]
  unfold analyzeFinalStep
  dsimp only
  split
  · rename_i hseen
    have hd := hinv _ hseen
    split
    · rename_i hr
      refine ⟨hv, hca, ?_, rfl, rfl, rfl, rfl, Or.inr ⟨rfl, by rw [← hreason]; exact hr, hd⟩⟩
      intro x hx
      exact hinv x (getD_set_false hx)
    · rename_i cr hr
      refine ⟨hv, hca, ?_, rfl, rfl, rfl, rfl, Or.inl rfl⟩
      intro x hx
      have hx' := getD_set_false hx
      have hx'' : ((finalScan s cr).foldl
          (fun sn l => if s.level (var l) > 0 then sn.set (var l) true else sn) u.seen).getD x false
          = true := by
        simp only [finalScan, ← hca, ← hlevel]
        exact hx'
      rcases markFold s _ _ x hx'' with h1 | ⟨l, hl, rfl, hlv⟩
      · exact hinv x h1
      · exact DerivedFrom.step _ cr l hd (by rw [← hreason]; exact hr) hl hlv
  · exact ⟨hv, hca, hinv, rfl, rfl, rfl, rfl, Or.inl rfl⟩

theorem analyzeFinalFold_derived (s : Solver) (v : Nat) (L : List Nat) : ∀ (u : Solver),
    u.vardata = s.vardata → u.ca = s.ca →
    (∀ x, u.seen.getD x false = true → DerivedFrom s v x) →
    (L.foldl analyzeFinalStep u).ok = u.ok ∧
    (L.foldl analyzeFinalStep u).trail = u.trail ∧
    (L.foldl analyzeFinalStep u).trail_lim = u.trail_lim ∧
    (L.foldl analyzeFinalStep u).assigns = u.assigns ∧
    (L.foldl analyzeFinalStep u).vardata = s.vardata ∧
    ∃ ds, (L.foldl analyzeFinalStep u).conflict = u.conflict ++ ds ∧
      ∀ q ∈ ds, ∃ t ∈ L, q = neg t ∧ s.reason (var t) = none ∧ DerivedFrom s v (var t) := by
  induction L with
  | nil => intro u hv _ _; exact ⟨rfl, rfl, rfl, rfl, hv, [], by simp, by simp⟩
  | cons t L ih =>
    intro u hv hca hinv
    simp only [List.foldl_cons]
    obtain ⟨g1, g2, g3, g4, g5, g6, g7, g8⟩ := analyzeFinalStep_derived s u v t hv hca hinv
    obtain ⟨h1, h2, h3, h4, h5, ds, h6, h7⟩ := ih (analyzeFinalStep u t) g1 g2 g3
    refine ⟨h1.trans g4, h2.trans g5, h3.trans g6, h4.trans g7, h5, ?_⟩
    rcases g8 with g8 | ⟨g8, g9, g10⟩
    · refine ⟨ds, by rw [h6, g8], ?_⟩
      intro q hq
      obtain ⟨w, hw, hq1⟩ := h7 q hq
      exact ⟨w, List.mem_cons_of_mem _ hw, hq1⟩
    · refine ⟨neg t :: ds, by rw [h6, g8]; simp, ?_⟩
      intro q hq
      rcases List.mem_cons.1 hq with rfl | hq
      · exact ⟨t, List.mem_cons_self _ _, rfl, g9, g10⟩
      · obtain ⟨w, hw, hq1⟩ := h7 q hq
        exact ⟨w, List.mem_cons_of_mem _ hw, hq1⟩

/-- The conflict written by `analyzeFinal(p)` when `seen` is clear at the call: `p` first,
then negations of reason-free literals that stand on the trail at or above the first fence
and take part in the derivation of `p`. -/
theorem analyzeFinal_derived (s : Solver) (p : Nat) (hseen : ∀ x, s.seen.getD x false = false) :
    (analyzeFinal s p).ok = s.ok ∧ (analyzeFinal s p).assigns = s.assigns ∧
    (analyzeFinal s p).trail = s.trail ∧ (analyzeFinal s p).trail_lim = s.trail_lim ∧
    (analyzeFinal s p).vardata = s.vardata ∧
    ∃ ds, (analyzeFinal s p).conflict = p :: ds ∧
      ∀ q ∈ ds, 0 < s.decisionLevel ∧
        ∃ t ∈ s.trail.drop (s.trail_lim.getD 0 0), q = neg t ∧ s.reason (var t) = none ∧
          DerivedFrom s (var p) (var t) := by
  unfold analyzeFinal
  dsimp only
  split
  · exact ⟨rfl, rfl, rfl, rfl, rfl, [], rfl, by simp⟩
  · rename_i hlvl
    have hpos : 0 < s.decisionLevel := by
      have : ¬ (s.decisionLevel = 0) := by simpa [decisionLevel] using hlvl
      omega
    obtain ⟨h1, h2, h3, h4, h5, ds, h6, h7⟩ := analyzeFinalFold_derived s (var p)
      ((s.trail.drop (s.trail_lim.getD 0 0)).reverse)
      { s with conflict := [p], seen := s.seen.set (var p) true } rfl rfl (by
        intro x hx
        rcases getD_set_true hx with rfl | hx
        · exact DerivedFrom.self
        · rw [hseen x] at hx; simp at hx)
    refine ⟨h1, h4, h2, h3, h5, ds, h6, ?_⟩
    intro q hq
    obtain ⟨t, ht, hq1, hq2, hq3⟩ := h7 q hq
    exact ⟨hpos, t, List.mem_reverse.1 ht, hq1, hq2, hq3⟩

/-- Under `TrailWF`, a literal on the trail at or above the first fence has a level above 0. -/
theorem level_pos_of_above_fence (s : Solver) (hwf : TrailWF s) (hpos : 0 < s.decisionLevel)
    (t : Nat) (ht : t ∈ s.trail.drop (s.trail_lim.getD 0 0)) :
    t ∈ s.trail ∧ 0 < s.level (var t) := by
  refine ⟨List.mem_of_mem_drop ht, ?_⟩
  obtain ⟨i, hi1, hi2, hi3⟩ := mem_map_var_drop (List.mem_map_of_mem var ht)
  have hl := hwf.level_ok i hi2
  rw [hi3] at hl
  have := count_gt_of_le s.trail_lim 0 i hwf.lim_sorted hpos hi1
  omega

/-! ## The empty problem -/

theorem propagateLoop_done (fuel : Nat) (s : Solver) (n : Nat) (h : ¬ s.qhead < s.trail.length) :
    propagateLoop fuel s n = some (none, propagateDone s n) := by
  cases fuel <;> simp [propagateLoop, h]

theorem propagate_done (s : Solver) (h : ¬ s.qhead < s.trail.length) :
    propagate s = some (none, propagateDone (cleanWatches s) 0) := by
  unfold propagate
  exact propagateLoop_done _ _ _ h

theorem checkGarbage_nowaste (s : Solver) (h : s.ca.wasted_ = 0) : checkGarbage s = s := by
  simp [checkGarbage, Frac.lt, Frac.ofNat, Frac.mul, h]

theorem EmptyProblem.propagated {s : Solver} (h : EmptyProblem s) :
    EmptyProblem (propagateDone (cleanWatches s) 0) :=
  ⟨h.trail, h.vardata, h.clauses, h.learnts, h.assumptions, h.heap, h.ok, h.sumq, h.wasted,
    h.trail_lim, h.reduce, h.interrupt, h.cbudget, h.pbudget, h.conflict⟩

theorem EmptyProblem.removeLearnts {s : Solver} (h : EmptyProblem s) :
    EmptyProblem (removeSatisfiedLearnts s) := by
  unfold removeSatisfiedLearnts
  rw [h.learnts]
  exact ⟨h.trail, h.vardata, h.clauses, rfl, h.assumptions, h.heap, h.ok, h.sumq, h.wasted,
    h.trail_lim, h.reduce, h.interrupt, h.cbudget, h.pbudget, h.conflict⟩

theorem EmptyProblem.removeClauses {s : Solver} (h : EmptyProblem s) :
    EmptyProblem (removeSatisfiedClauses s) := by
  unfold removeSatisfiedClauses
  rw [h.clauses]
  exact ⟨h.trail, h.vardata, rfl, h.learnts, h.assumptions, h.heap, h.ok, h.sumq, h.wasted,
    h.trail_lim, h.reduce, h.interrupt, h.cbudget, h.pbudget, h.conflict⟩

theorem EmptyProblem.rebuild {s : Solver} (h : EmptyProblem s) :
    EmptyProblem (rebuildOrderHeap s) := by
  refine ⟨h.trail, h.vardata, h.clauses, h.learnts, h.assumptions, ?_, h.ok, h.sumq, h.wasted,
    h.trail_lim, h.reduce, h.interrupt, h.cbudget, h.pbudget, h.conflict⟩
  simp [rebuildOrderHeap, nVars, h.vardata, Heap.build, Heap.buildDown]

theorem simplify_empty (s : Solver) (h : EmptyProblem s) :
    ∃ t, simplify s = some (true, t) ∧ EmptyProblem t := by
  have hq : ¬ s.qhead < s.trail.length := by simp [h.trail]
  have hp := h.propagated
  unfold simplify
  rw [propagate_done s hq]
  simp only [h.ok, Bool.not_true, Bool.false_eq_true, if_false]
  split
  · exact ⟨_, rfl, hp⟩
  · refine ⟨_, rfl, ?_⟩
    have h3 : EmptyProblem (if (removeSatisfiedLearnts (propagateDone (cleanWatches s) 0)).remove_satisfied
        then removeSatisfiedClauses (removeSatisfiedLearnts (propagateDone (cleanWatches s) 0))
        else removeSatisfiedLearnts (propagateDone (cleanWatches s) 0)) := by
      split
      · exact hp.removeLearnts.removeClauses
      · exact hp.removeLearnts
    have h4 := h3.rebuild
    rw [checkGarbage_nowaste _ h3.wasted]
    exact ⟨h4.trail, h4.vardata, h4.clauses, h4.learnts, h4.assumptions, h4.heap, h4.ok, h4.sumq,
      h4.wasted, h4.trail_lim, h4.reduce, h4.interrupt, h4.cbudget, h4.pbudget, h4.conflict⟩

theorem pickBranchLit_empty (s : Solver) (h : s.order_heap.heap = []) :
    pickBranchLit s = (none, { s with random_seed := drandSeed s.random_seed }) := by
  simp [pickBranchLit, pickLoop, h]

theorem searchDecide_empty (b : Bool) (s : Solver) (h : EmptyProblem s) :
    ∃ t, searchDecide b s = SearchStep.ret l_True t ∧ EmptyProblem t := by
  unfold searchDecide
  rw [h.assumptions]
  simp only [List.drop_nil, assumeLoop]
  rw [pickBranchLit_empty _ (show ({ s with decisions := s.decisions + 1 } : Solver).order_heap.heap = []
    from h.heap)]
  exact ⟨_, rfl, h.trail, h.vardata, h.clauses, h.learnts, h.assumptions, h.heap, h.ok, h.sumq,
    h.wasted, h.trail_lim, h.reduce, h.interrupt, h.cbudget, h.pbudget, h.conflict⟩

theorem searchRound_empty (j0 : Int) (b : Bool) (s : Solver) (h : EmptyProblem s) :
    ∃ t, searchRound j0 b s = some (SearchStep.ret l_True t) ∧ EmptyProblem t := by
  have hq : ¬ s.qhead < s.trail.length := by simp [h.trail]
  have hp := h.propagated
  unfold searchRound
  rw [propagate_done s hq]
  simp only
  unfold searchNoConflict
  have hr : restartTest (propagateDone (cleanWatches s) 0) = false := by
    simp [restartTest, Frac.lt, BQueue.getavg, Frac.mul, hp.sumq]
  have hl : ((propagateDone (cleanWatches s) 0).decisionLevel == 0) = true := by
    simp [decisionLevel, hp.trail_lim]
  obtain ⟨t, ht1, ht2⟩ := simplify_empty _ hp
  simp only [hr, hl, if_true, Bool.false_eq_true, if_false, ht1]
  have hred : reduceStep j0 t = some t := by
    have := ht2.reduce
    simp only [reduceStep]
    rw [if_neg (by omega)]
  rw [hred]
  obtain ⟨u, hu1, hu2⟩ := searchDecide_empty b t ht2
  exact ⟨u, by simp only [hu1], hu2⟩

/-- On a fresh solver whose reduction schedule starts above zero, `solve_` without
assumptions returns `l_True` with an empty model, whatever the other options are. -/
theorem solve_fresh (o : Options) (h : 0 < o.firstReduceDB) (j0 : Int) (fuel : Nat) (hf : 0 < fuel) :
    ∃ t, solve_ j0 fuel (Solver.new o) = some (l_True, t) ∧ t.model = [] ∧ t.ok = true ∧
      t.conflict = [] := by
  obtain ⟨n, rfl⟩ : ∃ n, fuel = n + 1 := ⟨fuel - 1, by omega⟩
  have he : EmptyProblem
      { ({ Solver.new o with model := [], conflict := [] } : Solver) with
        lbdQueue := (Solver.new o).lbdQueue.initSize (Solver.new o).sizeLBDQueue,
        trailQueue := (Solver.new o).trailQueue.initSize (Solver.new o).sizeTrailQueue,
        sumLBD := 0, solves := (Solver.new o).solves + 1,
        nbclausesbeforereduce := (Solver.new o).firstReduceDB,
        starts := (Solver.new o).starts + 1 } := by
    refine ⟨rfl, rfl, rfl, rfl, rfl, rfl, rfl, rfl, rfl, rfl, ?_, rfl, ?_, ?_, rfl⟩
    · show 0 < 1 * o.firstReduceDB
      omega
    · show (-1 : Int) < 0
      decide
    · show (-1 : Int) < 0
      decide
  obtain ⟨t, ht1, ht2⟩ := searchRound_empty j0 false _ he
  have hw : withinBudget t = true := by
    simp [withinBudget, ht2.interrupt, ht2.cbudget, ht2.pbudget]
  have hc : solveFinish l_True t = { t with model := [] } := by
    simp [solveFinish, cancelUntil, decisionLevel, ht2.trail_lim, nVars, ht2.vardata]
  refine ⟨{ t with model := [] }, ?_, rfl, ht2.ok, ht2.conflict⟩
  unfold solve_
  simp only [Solver.new, Bool.not_true, Bool.false_eq_true, if_false]
  unfold solveLoop search searchLoop
  simp only [Solver.new] at ht1
  rw [ht1]
  simp only [hw, Bool.not_true, Bool.false_eq_true, if_false]
  simp only [show (l_True == l_Undef) = false from rfl, Bool.false_eq_true, if_false]
  rw [hc]

/-! ## Lemmas for the final conflict and the search round -/

theorem seen_clear {s : Solver} (h : ∀ b ∈ s.seen, b = false) (x : Nat) :
    s.seen.getD x false = false := by
  by_cases hx : x < s.seen.length
  · rw [List.getD_eq_getElem _ _ hx]
    exact h _ (List.getElem_mem hx)
  · exact List.getD_eq_default _ _ (by omega)

theorem searchLoop_of_round (j0 : Int) (fuel : Nat) (b : Bool) (s0 s1 s2 s : Solver)
    (hp : propagate s0 = some (none, s1)) (hr : restartTest s1 = false)
    (hs : (if s1.decisionLevel == 0 then simplify s1 else some (true, s1)) = some (true, s2))
    (hd : reduceStep j0 s2 = some s) (t : Solver)
    (ht : searchDecide b s = SearchStep.ret l_False t) :
    searchLoop j0 (fuel + 1) b s0 = some (l_False, t) := by
  unfold searchLoop searchRound
  rw [hp]
  simp only
  unfold searchNoConflict
  simp only [hr, Bool.false_eq_true, if_false, hs, hd, ht]

theorem solveFinish_conflict (t : Solver) (h : t.conflict ≠ []) :
    (solveFinish l_False t).ok = t.ok ∧ (solveFinish l_False t).conflict = t.conflict := by
  have hlen : (t.conflict.length == 0) = false := by
    cases hc : t.conflict with
    | nil => exact absurd hc h
    | cons a l => rfl
  unfold solveFinish
  simp only [show (l_False == l_True) = false from rfl, Bool.false_eq_true, if_false, hlen,
    Bool.and_false]
  exact ⟨(cancelUntil_keep t 0).1, (cancelUntil_keep t 0).2.1⟩

theorem orAtAssumptions_wf : TrailWF orAtAssumptions :=
  ⟨by decide, by decide, by decide, by decide, by decide⟩

/-! ## Lists read and written by position -/

theorem getD_set_self' {α : Type} (l : List α) (i : Nat) (a d : α) (h : i < l.length) :
    (l.set i a).getD i d = a := by
  rw [List.getD_eq_getElem?_getD, List.getElem?_set_self h]; rfl

theorem getD_set_ne' {α : Type} (l : List α) {i j : Nat} (a d : α) (h : i ≠ j) :
    (l.set i a).getD j d = l.getD j d := by
  rw [List.getD_eq_getElem?_getD, List.getElem?_set_ne h, ← List.getD_eq_getElem?_getD]

theorem set_getD_same {α : Type} (d : α) : ∀ (l : List α) (i : Nat), i < l.length →
    l.set i (l.getD i d) = l
  | [], i, h => by simp at h
  | a :: l, 0, _ => rfl
  | a :: l, i + 1, h => by
    simp only [List.getD_cons_succ, List.set_cons_succ]
    rw [set_getD_same d l i (by simpa using h)]

theorem getD_append_left' {α : Type} (l1 l2 : List α) (d : α) {i : Nat} (h : i < l1.length) :
    (l1 ++ l2).getD i d = l1.getD i d := by
  rw [List.getD_eq_getElem?_getD, List.getElem?_append_left h, ← List.getD_eq_getElem?_getD]

theorem getD_append_length {α : Type} (l : List α) (a d : α) :
    (l ++ [a]).getD l.length d = a := by
  simp [List.getD_eq_getElem?_getD]

theorem getD_mem' {α : Type} (l : List α) (d : α) {i : Nat} (h : i < l.length) :
    l.getD i d ∈ l := by
  rw [List.getD_eq_getElem _ _ h]; exact List.getElem_mem h

theorem getD_none_of_le {α : Type} (l : List (Option α)) {i : Nat} (h : l.length ≤ i) :
    l.getD i none = none := List.getD_eq_default _ _ h

theorem lt_of_getD_some {α : Type} {l : List (Option α)} {i : Nat} {a : α}
    (h : l.getD i none = some a) : i < l.length := by
  by_contra hc
  rw [getD_none_of_le l (by omega)] at h
  exact Option.noConfusion h

theorem dropWhile_congr' {α : Type} {p q : α → Bool} : ∀ (l : List α),
    (∀ x ∈ l, p x = q x) → l.dropWhile p = l.dropWhile q
  | [], _ => rfl
  | a :: l, h => by
    rw [List.dropWhile_cons, List.dropWhile_cons, h a (List.mem_cons_self _ _)]
    split
    · exact dropWhile_congr' l (fun x hx => h x (List.mem_cons_of_mem _ hx))
    · rfl

theorem takeWhile_congr' {α : Type} {p q : α → Bool} : ∀ (l : List α),
    (∀ x ∈ l, p x = q x) → l.takeWhile p = l.takeWhile q
  | [], _ => rfl
  | a :: l, h => by
    rw [List.takeWhile_cons, List.takeWhile_cons, h a (List.mem_cons_self _ _)]
    split
    · rw [takeWhile_congr' l (fun x hx => h x (List.mem_cons_of_mem _ hx))]
    · rfl

theorem propBin_qhead : ∀ (ws : List Watcher) (s : Solver), (propBin ws s).2.qhead = s.qhead
  | [], _ => rfl
  | w :: ws, s => by
    unfold propBin
    split
    · rfl
    · split
      · rw [propBin_qhead ws]; rfl
      · exact propBin_qhead ws s

theorem dynamicLBD_queue (s : Solver) (cr : Nat) :
    (dynamicLBD s cr).qhead = s.qhead ∧ (dynamicLBD s cr).trail = s.trail := by
  unfold dynamicLBD
  dsimp only
  have hc := computeLBD_core s (s.ca.get cr).lits
  split
  · split
    · exact ⟨hc.qhead_eq, hc.trail_eq⟩
    · exact ⟨hc.qhead_eq, hc.trail_eq⟩
  · exact ⟨rfl, rfl⟩

theorem propLong_qhead (p : Nat) : ∀ (ws acc : List Watcher) (s : Solver),
    ((propLong p ws acc s).2.1 = none → (propLong p ws acc s).2.2.qhead = s.qhead) ∧
    (∀ cr, (propLong p ws acc s).2.1 = some cr →
      (propLong p ws acc s).2.2.qhead = (propLong p ws acc s).2.2.trail.length)
  | [], acc, s => ⟨fun _ => rfl, fun cr h => by simp [propLong] at h⟩
  | w :: rest, acc, s => by
    unfold propLong
    split
    · exact propLong_qhead p rest _ s
    · dsimp only
      have hq1 : (if ((s.ca.get w.cref).lit 0 == neg p) = true then
          { s with ca := s.ca.modify w.cref (fun c =>
              { c with lits := (c.lits.set 0 (c.lit 1)).set 1 (neg p) }) }
          else s).qhead = s.qhead := by
        split <;> rfl
      generalize (if ((s.ca.get w.cref).lit 0 == neg p) = true then
          { s with ca := s.ca.modify w.cref (fun c =>
              { c with lits := (c.lits.set 0 (c.lit 1)).set 1 (neg p) }) }
          else s) = s1 at hq1 ⊢
      split
      · obtain ⟨a, b⟩ := propLong_qhead p rest (acc ++ [⟨w.cref, (s1.ca.get w.cref).lit 0⟩]) s1
        exact ⟨fun h => (a h).trans hq1, b⟩
      · split
        · rename_i k hk
          obtain ⟨a, b⟩ := propLong_qhead p rest acc
            { s1 with
              ca := s1.ca.modify w.cref (fun c =>
                { c with lits := (c.lits.set 1 ((s1.ca.get w.cref).lit k)).set k (neg p) }),
              watches := s1.watches.push (neg ((s1.ca.get w.cref).lit k))
                ⟨w.cref, (s1.ca.get w.cref).lit 0⟩ }
          exact ⟨fun h => (a h).trans hq1, b⟩
        · split
          · exact ⟨fun h => by simp at h, fun _ _ => rfl⟩
          · obtain ⟨a, b⟩ := propLong_qhead p rest (acc ++ [⟨w.cref, (s1.ca.get w.cref).lit 0⟩])
              (dynamicLBD (uncheckedEnqueue s1 ((s1.ca.get w.cref).lit 0) (some w.cref)) w.cref)
            refine ⟨fun h => ?_, b⟩
            rw [a h, (dynamicLBD_queue _ _).1]
            exact hq1

theorem propagateLoop_qhead : ∀ (fuel : Nat) (s : Solver) (n : Nat) (r : Option Nat × Solver),
    propagateLoop fuel s n = some r → s.qhead ≤ s.trail.length →
    r.2.qhead ≤ r.2.trail.length ∧ (r.1 = none → r.2.qhead = r.2.trail.length)
  | 0, s, n, r, h, hq => by
    unfold propagateLoop at h
    split at h
    · simp at h
    · rename_i hlt
      simp only [Option.some.injEq] at h
      subst h
      simp only [propagateDone]
      exact ⟨hq, fun _ => by omega⟩
  | fuel + 1, s, n, r, h, hq => by
    unfold propagateLoop at h
    split at h
    · rename_i hlt
      dsimp only at h
      have hb := propBin_qhead (s.watchesBin.get (s.trail.getD s.qhead 0))
        { s with qhead := s.qhead + 1 }
      have hbf := propBin_frame (s.watchesBin.get (s.trail.getD s.qhead 0))
        { s with qhead := s.qhead + 1 }
      obtain ⟨u, hu⟩ := hbf.trail_ext
      split at h
      · rename_i cr s2 heq
        simp only [Option.some.injEq] at h
        subst h
        have e2 : s2 = (propBin (s.watchesBin.get (s.trail.getD s.qhead 0))
            { s with qhead := s.qhead + 1 }).2 := by rw [heq]
        refine ⟨?_, fun hn => by simp at hn⟩
        show s2.qhead ≤ s2.trail.length
        rw [e2, hb, hu]
        simp only [List.length_append]
        omega
      · rename_i s2 heq
        have e2 : s2 = (propBin (s.watchesBin.get (s.trail.getD s.qhead 0))
            { s with qhead := s.qhead + 1 }).2 := by rw [heq]
        have hq2 : s2.qhead ≤ s2.trail.length := by
          rw [e2, hb, hu]
          simp only [List.length_append]
          omega
        have hl := propLong_qhead (s.trail.getD s.qhead 0)
          (s2.watches.get (s.trail.getD s.qhead 0)) [] s2
        have hlf := propLong_frame (s.trail.getD s.qhead 0)
          (s2.watches.get (s.trail.getD s.qhead 0)) [] s2
        obtain ⟨u2, hu2⟩ := hlf.trail_ext
        split at h
        · rename_i kept cr s3 heq3
          simp only [Option.some.injEq] at h
          subst h
          have e3 : (propLong (s.trail.getD s.qhead 0)
              (s2.watches.get (s.trail.getD s.qhead 0)) [] s2).2.1 = some cr := by rw [heq3]
          have := hl.2 cr e3
          rw [heq3] at this
          simp only [propagateDone]
          refine ⟨?_, fun hn => by simp at hn⟩
          show s3.qhead ≤ s3.trail.length
          exact Nat.le_of_eq this
        · rename_i kept s3 heq3
          have e3 : (propLong (s.trail.getD s.qhead 0)
              (s2.watches.get (s.trail.getD s.qhead 0)) [] s2).2.1 = none := by rw [heq3]
          have hq3 := hl.1 e3
          rw [heq3] at hq3 hu2
          apply propagateLoop_qhead fuel _ (n + 1) r h
          show s3.qhead ≤ s3.trail.length
          dsimp only at hq3 hu2
          rw [hq3, hu2]
          simp only [List.length_append]
          omega
    · rename_i hlt
      simp only [Option.some.injEq] at h
      subst h
      simp only [propagateDone]
      exact ⟨hq, fun _ => by omega⟩

theorem propagate_qhead (s : Solver) (r : Option Nat × Solver) (h : propagate s = some r)
    (hq : s.qhead ≤ s.trail.length) :
    r.2.qhead ≤ r.2.trail.length ∧ (r.1 = none → r.2.qhead = r.2.trail.length) := by
  unfold propagate at h
  exact propagateLoop_qhead _ _ _ r h hq

theorem sorted_getD_le : ∀ (l : List Nat) (j d : Nat), l.Sorted (fun a b => a ≤ b) → j ≤ d →
    d < l.length → l.getD j 0 ≤ l.getD d 0
  | [], _, _, _, _, h => by simp at h
  | a :: l, 0, 0, _, _, _ => le_refl _
  | a :: l, 0, d + 1, hs, _, h => by
    simp only [List.getD_cons_zero, List.getD_cons_succ]
    simp only [List.length_cons] at h
    have hd : d < l.length := by omega
    rw [List.getD_eq_getElem _ _ hd]
    exact List.rel_of_sorted_cons hs _ (List.getElem_mem hd)
  | a :: l, j + 1, 0, _, h, _ => by omega
  | a :: l, j + 1, d + 1, hs, hj, h => by
    simp only [List.getD_cons_succ]
    simp only [List.length_cons] at h
    exact sorted_getD_le l j d hs.of_cons (by omega) (by omega)

theorem mem_take_getD {l : List Nat} {d x : Nat} (h : x ∈ l.take d) :
    ∃ j, j < d ∧ j < l.length ∧ l.getD j 0 = x := by
  obtain ⟨i, hi, hi2, rfl⟩ := List.mem_take_iff_getElem.1 h
  exact ⟨i, by omega, by omega, List.getD_eq_getElem _ _ (by omega)⟩

/-- The three fields of the propagation queue after `cancelUntil` to a lower level. -/
theorem cancelUntil_queue (s : Solver) (d : Nat) (hd : d < s.decisionLevel) :
    (cancelUntil s d).trail = s.trail.take (s.trail_lim.getD d 0) ∧
    (cancelUntil s d).trail_lim = s.trail_lim.take d ∧
    (cancelUntil s d).qhead = s.trail_lim.getD d 0 := by
  obtain ⟨_, _, h3, h4⟩ := cancelFold_fields (s.trail_lim.getD (s.trail_lim.length - 1) 0)
    ((s.trail.enum.drop (s.trail_lim.getD d 0)).reverse) s
  have hlt : s.decisionLevel > d := hd
  refine ⟨?_, ?_, ?_⟩
  · unfold cancelUntil
    simp only [hlt, if_true]
    show (List.foldl _ s _).trail.take _ = _
    rw [h3]
  · unfold cancelUntil
    simp only [hlt, if_true]
    show (List.foldl _ s _).trail_lim.take d = _
    rw [h4]
  · unfold cancelUntil
    simp only [hlt, if_true]

theorem queueOK_cancel {s : Solver} (h : QueueOK s) (d : Nat) : QueueOK (cancelUntil s d) := by
  by_cases hd : d < s.decisionLevel
  · obtain ⟨hT, hL, hQ⟩ := cancelUntil_queue s d hd
    obtain ⟨h1, h2, h3⟩ := h
    have hdl : d < s.trail_lim.length := hd
    have hlim : s.trail_lim.getD d 0 ≤ s.trail.length := by
      rw [List.getD_eq_getElem _ _ hdl]
      exact h3 _ (List.getElem_mem hdl)
    have hlen : (cancelUntil s d).trail.length = s.trail_lim.getD d 0 := by
      rw [hT, List.length_take]; omega
    refine ⟨by rw [hQ, hlen], ?_, ?_⟩
    · rw [hL]
      exact List.Pairwise.sublist (List.take_sublist _ _) h2
    · intro x hx
      rw [hL] at hx
      rw [hlen]
      obtain ⟨j, hj, hj2, rfl⟩ := mem_take_getD hx
      exact sorted_getD_le _ _ _ h2 (by omega) hdl
  · have : cancelUntil s d = s := by
      unfold cancelUntil
      have : ¬ s.decisionLevel > d := hd
      simp [this]
    rw [this]; exact h

theorem queueOK_level {s : Solver} (h : QueueOK s) : QueueOK (newDecisionLevel s) := by
  obtain ⟨h1, h2, h3⟩ := h
  refine ⟨h1, ?_, ?_⟩
  · show (s.trail_lim ++ [s.trail.length]).Sorted _
    unfold List.Sorted
    rw [List.pairwise_append]
    refine ⟨h2, List.pairwise_singleton _ _, ?_⟩
    intro a ha b hb
    rw [List.mem_singleton] at hb
    subst hb
    exact h3 a ha
  · intro x hx
    have hx' : x ∈ s.trail_lim ++ [s.trail.length] := hx
    rw [List.mem_append, List.mem_singleton] at hx'
    rcases hx' with hx' | hx'
    · exact h3 x hx'
    · subst hx'; exact le_refl _

theorem queueOK_enqueue {s : Solver} (h : QueueOK s) (p : Nat) (frm : Option Nat) :
    QueueOK (uncheckedEnqueue s p frm) := by
  obtain ⟨h1, h2, h3⟩ := h
  refine ⟨?_, h2, ?_⟩
  · show s.qhead ≤ (s.trail ++ [p]).length
    rw [List.length_append]; omega
  · intro x hx
    show x ≤ (s.trail ++ [p]).length
    rw [List.length_append]
    have := h3 x hx
    omega

theorem queueOK_propagate {s : Solver} (h : QueueOK s) {r : Option Nat × Solver}
    (hr : propagate s = some r) : QueueOK r.2 := by
  obtain ⟨h1, h2, h3⟩ := h
  have hf := propagate_frame s r hr
  obtain ⟨u, hu⟩ := hf.trail_ext
  refine ⟨(propagate_qhead s r hr h1).1, by rw [hf.trail_lim_eq]; exact h2, ?_⟩
  intro x hx
  rw [hf.trail_lim_eq] at hx
  rw [hu, List.length_append]
  have := h3 x hx
  omega

theorem insertVarOrder_queue (s : Solver) (x : Nat) :
    (insertVarOrder s x).trail = s.trail ∧ (insertVarOrder s x).trail_lim = s.trail_lim ∧
    (insertVarOrder s x).qhead = s.qhead := by
  unfold insertVarOrder
  split <;> exact ⟨rfl, rfl, rfl⟩

theorem setDecisionVar_queue (s : Solver) (v : Nat) (b : Bool) :
    (setDecisionVar s v b).trail = s.trail ∧ (setDecisionVar s v b).trail_lim = s.trail_lim ∧
    (setDecisionVar s v b).qhead = s.qhead := by
  unfold setDecisionVar
  dsimp only
  refine ⟨(insertVarOrder_queue _ _).1.trans ?_, (insertVarOrder_queue _ _).2.1.trans ?_,
    (insertVarOrder_queue _ _).2.2.trans ?_⟩
  · dsimp only
    split
    · rfl
    · split <;> rfl
  · dsimp only
    split
    · rfl
    · split <;> rfl
  · dsimp only
    split
    · rfl
    · split <;> rfl

theorem newVar_queue (s : Solver) (sgn dvar : Bool) :
    (newVar s sgn dvar).trail = s.trail ∧ (newVar s sgn dvar).trail_lim = s.trail_lim ∧
    (newVar s sgn dvar).qhead = s.qhead := by
  unfold newVar
  dsimp only
  exact ⟨(setDecisionVar_queue _ _ _).1, (setDecisionVar_queue _ _ _).2.1,
    (setDecisionVar_queue _ _ _).2.2⟩

theorem queueOK_of_fields {s t : Solver} (h : QueueOK s) (h1 : t.trail = s.trail)
    (h2 : t.trail_lim = s.trail_lim) (h3 : t.qhead = s.qhead) : QueueOK t := by
  unfold QueueOK at h ⊢
  rw [h1, h2, h3]; exact h

theorem reachable_queueOK {s : Solver} (h : Reachable s) : QueueOK s := by
  induction h with
  | init o => exact ⟨Nat.le_refl _, List.sorted_nil, fun x hx => by simp [Solver.new] at hx⟩
  | newVar sgn dvar _ ih =>
    exact queueOK_of_fields ih (newVar_queue _ _ _).1 (newVar_queue _ _ _).2.1 (newVar_queue _ _ _).2.2
  | enqueue p frm _ ih => exact queueOK_enqueue ih p frm
  | level _ ih => exact queueOK_level ih
  | propagate _ hr ih => exact queueOK_propagate ih hr
  | cancel lvl _ ih => exact queueOK_cancel ih lvl
  | other _ h1 h2 h3 ih => exact queueOK_of_fields ih h1 h2 h3

/-! ## The LBD loops count the distinct levels -/

theorem lbdStep_fields (a : Nat × Solver) (q : Nat) :
    (lbdStep a q).2.vardata = a.2.vardata ∧ (lbdStep a q).2.MYFLAG = a.2.MYFLAG ∧
    (lbdStep a q).2.permDiff.length = a.2.permDiff.length ∧
    (∀ l, (lbdStep a q).2.permDiff.getD l 0 = a.2.permDiff.getD l 0 ∨
      (lbdStep a q).2.permDiff.getD l 0 = a.2.MYFLAG) := by
  unfold lbdStep
  dsimp only
  split
  · refine ⟨rfl, rfl, List.length_set _ _ _, ?_⟩
    intro l
    dsimp only
    by_cases hl : a.2.level (var q) = l
    · by_cases hlt : a.2.level (var q) < a.2.permDiff.length
      · right
        rw [← hl]
        exact getD_set_self' _ _ _ _ hlt
      · left
        rw [List.set_eq_of_length_le (by omega)]
    · left
      exact getD_set_ne' _ _ _ hl
  · exact ⟨rfl, rfl, rfl, fun _ => Or.inl rfl⟩

theorem foldl_lbdStep_fields : ∀ (lits : List Nat) (a : Nat × Solver),
    (lits.foldl lbdStep a).2.vardata = a.2.vardata ∧
    (lits.foldl lbdStep a).2.MYFLAG = a.2.MYFLAG ∧
    (lits.foldl lbdStep a).2.permDiff.length = a.2.permDiff.length ∧
    (∀ l, (lits.foldl lbdStep a).2.permDiff.getD l 0 = a.2.permDiff.getD l 0 ∨
      (lits.foldl lbdStep a).2.permDiff.getD l 0 = a.2.MYFLAG)
  | [], _ => ⟨rfl, rfl, rfl, fun _ => Or.inl rfl⟩
  | q :: rest, a => by
    simp only [List.foldl_cons]
    obtain ⟨h1, h2, h3, h4⟩ := foldl_lbdStep_fields rest (lbdStep a q)
    obtain ⟨g1, g2, g3, g4⟩ := lbdStep_fields a q
    refine ⟨h1.trans g1, h2.trans g2, h3.trans g3, ?_⟩
    intro l
    rcases h4 l with h | h
    · rcases g4 l with g | g
      · exact Or.inl (h.trans g)
      · exact Or.inr (h.trans g)
    · exact Or.inr (h.trans g2)

/-- The loop counts the levels of the literals that do not carry the flag yet. -/
theorem foldl_lbdStep_count : ∀ (lits : List Nat) (a : Nat × Solver),
    (∀ x, a.2.level x < a.2.permDiff.length) →
    (lits.foldl lbdStep a).1 = a.1 +
      ((lits.map (fun q => a.2.level (var q))).toFinset.filter
        (fun l => a.2.permDiff.getD l 0 ≠ a.2.MYFLAG)).card
  | [], a, _ => by simp
  | q :: rest, a, hlev => by
    simp only [List.foldl_cons, List.map_cons, List.toFinset_cons]
    obtain ⟨g1, g2, g3, _⟩ := lbdStep_fields a q
    have hlevel : ∀ x, (lbdStep a q).2.level x = a.2.level x := by
      intro x
      unfold level
      rw [g1]
    have hlev' : ∀ x, (lbdStep a q).2.level x < (lbdStep a q).2.permDiff.length := by
      intro x
      rw [hlevel, g3]
      exact hlev x
    rw [foldl_lbdStep_count rest (lbdStep a q) hlev']
    simp only [hlevel]
    by_cases hflag : a.2.permDiff.getD (a.2.level (var q)) 0 = a.2.MYFLAG
    · have hstep : lbdStep a q = a := by
        unfold lbdStep
        dsimp only
        rw [if_neg (by simpa using hflag)]
      rw [hstep, Finset.filter_insert, if_neg (by simpa using hflag)]
    · have hstep : lbdStep a q = (a.1 + 1,
          { a.2 with permDiff := a.2.permDiff.set (a.2.level (var q)) a.2.MYFLAG }) := by
        unfold lbdStep
        dsimp only
        rw [if_pos (by simpa using hflag)]
      rw [hstep, Finset.filter_insert, if_pos hflag]
      dsimp only
      have herase : ((rest.map (fun q => a.2.level (var q))).toFinset.filter
          (fun l => (a.2.permDiff.set (a.2.level (var q)) a.2.MYFLAG).getD l 0 ≠ a.2.MYFLAG)) =
          ((rest.map (fun q => a.2.level (var q))).toFinset.filter
            (fun l => a.2.permDiff.getD l 0 ≠ a.2.MYFLAG)).erase (a.2.level (var q)) := by
        ext l
        simp only [Finset.mem_filter, Finset.mem_erase]
        by_cases hl : a.2.level (var q) = l
        · subst hl
          rw [getD_set_self' _ _ _ _ (hlev (var q))]
          simp
        · rw [getD_set_ne' _ _ _ hl]
          constructor
          · rintro ⟨h1, h2⟩
            exact ⟨Ne.symm hl, h1, h2⟩
          · rintro ⟨_, h1, h2⟩
            exact ⟨h1, h2⟩
      rw [herase]
      by_cases hmem : a.2.level (var q) ∈ (rest.map (fun q => a.2.level (var q))).toFinset.filter
          (fun l => a.2.permDiff.getD l 0 ≠ a.2.MYFLAG)
      · rw [Finset.insert_eq_of_mem hmem, ← Finset.card_erase_add_one hmem]
        omega
      · rw [Finset.card_insert_of_not_mem hmem, Finset.erase_eq_of_not_mem hmem]
        omega

/-- With fresh stamps and no wrap of `MYFLAG`, the LBD measure is the number of distinct
levels of the literals. -/
theorem computeLBD_levels (s : Solver) (lits : List Nat) (hfresh : StampsFresh s)
    (hwrap : s.MYFLAG + 1 < 2 ^ 32) (hlev : ∀ x, s.level x < s.permDiff.length) :
    (computeLBD s lits).1 = ((lits.map (fun q => s.level (var q))).dedup).length := by
  unfold computeLBD
  rw [foldl_lbdStep_count lits _ hlev, Nat.zero_add, ← List.card_toFinset]
  congr 1
  apply Finset.filter_true_of_mem
  intro l _
  show s.permDiff.getD l 0 ≠ (s.MYFLAG + 1) % 2 ^ 32
  rw [Nat.mod_eq_of_lt hwrap]
  have := hfresh l
  omega

/-- The LBD loops keep the levels and the stamps fresh; `MYFLAG` grows by one. -/
theorem computeLBD_stamps (s : Solver) (lits : List Nat) (hfresh : StampsFresh s)
    (hwrap : s.MYFLAG + 1 < 2 ^ 32) :
    (computeLBD s lits).2.vardata = s.vardata ∧
    (computeLBD s lits).2.MYFLAG = s.MYFLAG + 1 ∧
    (computeLBD s lits).2.permDiff.length = s.permDiff.length ∧
    StampsFresh (computeLBD s lits).2 := by
  unfold computeLBD
  obtain ⟨h1, h2, h3, h4⟩ :=
    foldl_lbdStep_fields lits (0, { s with MYFLAG := (s.MYFLAG + 1) % 2 ^ 32 })
  have hflag : (s.MYFLAG + 1) % 2 ^ 32 = s.MYFLAG + 1 := Nat.mod_eq_of_lt hwrap
  have hM := h2.trans hflag
  refine ⟨h1, hM, h3, ?_⟩
  intro l
  rcases h4 l with h | h
  · exact (le_of_eq h).trans ((hfresh l).trans (by rw [hM]; exact Nat.le_succ _))
  · exact (le_of_eq (h.trans hflag)).trans (le_of_eq hM.symm)

theorem dedup_length_pos {l : List Nat} (h : l ≠ []) : 1 ≤ l.dedup.length := by
  cases hd : l.dedup with
  | nil => exact absurd ((List.dedup_eq_nil l).1 hd) h
  | cons a t => simp

/-! ## What conflict analysis leaves alone -/

theorem stampFrame_refl (s : Solver) : StampFrame s s := ⟨rfl, rfl, rfl⟩

theorem stampFrame_trans {s t u : Solver} (h1 : StampFrame s t) (h2 : StampFrame t u) :
    StampFrame s u :=
  ⟨h2.vardata_eq.trans h1.vardata_eq, h2.permDiff_eq.trans h1.permDiff_eq,
    h2.flag_eq.trans h1.flag_eq⟩

theorem varBumpActivity_stamp (s : Solver) (v : Nat) : StampFrame s (varBumpActivity s v) := by
  unfold varBumpActivity
  dsimp only
  split <;> split <;> exact ⟨rfl, rfl, rfl⟩

theorem claBumpActivity_stamp (s : Solver) (cr : Nat) :
    StampFrame s (claBumpActivity s cr) := by
  unfold claBumpActivity
  dsimp only
  split <;> exact ⟨rfl, rfl, rfl⟩

theorem swapBinary_stamp (s : Solver) (cr : Nat) : StampFrame s (swapBinary s cr) := by
  unfold swapBinary
  dsimp only
  split <;> exact ⟨rfl, rfl, rfl⟩

theorem analyzeLit_stamp (a : AnalyzeAcc) (q : Nat) :
    StampFrame a.s (analyzeLit a q).s ∧
    a.out_learnt.length ≤ (analyzeLit a q).out_learnt.length := by
  unfold analyzeLit
  split
  · have hb := varBumpActivity_stamp a.s (var q)
    dsimp only
    split
    · refine ⟨?_, Nat.le_refl _⟩
      split
      · split
        · exact ⟨hb.vardata_eq, hb.permDiff_eq, hb.flag_eq⟩
        · exact ⟨hb.vardata_eq, hb.permDiff_eq, hb.flag_eq⟩
      · exact ⟨hb.vardata_eq, hb.permDiff_eq, hb.flag_eq⟩
    · refine ⟨⟨hb.vardata_eq, hb.permDiff_eq, hb.flag_eq⟩, ?_⟩
      dsimp only
      rw [List.length_append]
      exact Nat.le_add_right _ _
  · exact ⟨stampFrame_refl _, Nat.le_refl _⟩

theorem foldl_analyzeLit_stamp : ∀ (lits : List Nat) (a : AnalyzeAcc),
    StampFrame a.s (lits.foldl analyzeLit a).s ∧
    a.out_learnt.length ≤ (lits.foldl analyzeLit a).out_learnt.length
  | [], a => ⟨stampFrame_refl _, Nat.le_refl _⟩
  | q :: rest, a => by
    simp only [List.foldl_cons]
    obtain ⟨h1, h2⟩ := analyzeLit_stamp a q
    obtain ⟨h3, h4⟩ := foldl_analyzeLit_stamp rest (analyzeLit a q)
    exact ⟨stampFrame_trans h1 h3, h2.trans h4⟩

theorem analyzeLoop_stamp : ∀ (fuel : Nat) (confl p : Option Nat) (n : Nat) (a : AnalyzeAcc)
    (r : Nat × AnalyzeAcc), analyzeLoop fuel confl p n a = some r →
    StampFrame a.s r.2.s ∧ a.out_learnt.length ≤ r.2.out_learnt.length
  | 0, _, _, _, _, _, h => by simp [analyzeLoop] at h
  | fuel + 1, confl, p, n, a, r, h => by
    unfold analyzeLoop at h
    cases confl with
    | none => simp at h
    | some cr =>
      dsimp only at h
      have hs1 : StampFrame a.s (if p.isSome then swapBinary a.s cr else a.s) := by
        split
        · exact swapBinary_stamp _ _
        · exact stampFrame_refl _
      generalize (if p.isSome then swapBinary a.s cr else a.s) = s1 at h hs1
      have hs2 : StampFrame s1 (if (s1.ca.get cr).learnt then claBumpActivity s1 cr else s1) := by
        split
        · exact claBumpActivity_stamp _ _
        · exact stampFrame_refl _
      generalize (if (s1.ca.get cr).learnt then claBumpActivity s1 cr else s1) = s2 at h hs2
      obtain ⟨hf, hl⟩ := foldl_analyzeLit_stamp
        (if p.isSome then (s2.ca.get cr).lits.drop 1 else (s2.ca.get cr).lits)
        { s := s2, pathC := a.pathC, out_learnt := a.out_learnt }
      generalize (List.foldl analyzeLit { s := s2, pathC := a.pathC, out_learnt := a.out_learnt }
        (if p.isSome then (s2.ca.get cr).lits.drop 1 else (s2.ca.get cr).lits)) = a1 at h hf hl
      have hbase : StampFrame a.s a1.s := stampFrame_trans hs1 (stampFrame_trans hs2 hf)
      cases hscan : scanSeen a1.s n with
      | none => rw [hscan] at h; simp at h
      | some i =>
        rw [hscan] at h
        dsimp only at h
        have hclr : StampFrame a.s
            { a1.s with seen := a1.s.seen.set (var (a1.s.trail.getD i 0)) false } :=
          ⟨hbase.vardata_eq, hbase.permDiff_eq, hbase.flag_eq⟩
        split at h
        · obtain ⟨g1, g2⟩ := analyzeLoop_stamp fuel _ _ _ _ r h
          exact ⟨stampFrame_trans hclr g1, hl.trans g2⟩
        · have := Option.some.inj h
          subst this
          exact ⟨hclr, hl⟩

theorem litRedundantInner_stamp (al : Nat) : ∀ (lits : List Nat) (s : Solver),
    StampFrame s (litRedundantInner al lits s).2
  | [], s => stampFrame_refl s
  | p :: rest, s => by
    unfold litRedundantInner
    split
    · split
      · have g := litRedundantInner_stamp al rest
          { s with seen := s.seen.set (var p) true,
                   analyze_stack := s.analyze_stack ++ [p],
                   analyze_toclear := s.analyze_toclear ++ [p] }
        exact ⟨g.vardata_eq, g.permDiff_eq, g.flag_eq⟩
      · exact stampFrame_refl s
    · exact litRedundantInner_stamp al rest s

theorem litRedundantLoop_stamp (al top : Nat) : ∀ (fuel : Nat) (s : Solver)
    (r : Bool × Solver), litRedundantLoop al top fuel s = some r → StampFrame s r.2
  | 0, _, _, h => by simp [litRedundantLoop] at h
  | fuel + 1, s, r, h => by
    unfold litRedundantLoop at h
    cases hl : s.analyze_stack.getLast? with
    | none =>
      rw [hl] at h
      have := Option.some.inj h
      subst this
      exact stampFrame_refl s
    | some q =>
      rw [hl] at h
      dsimp only at h
      cases hr : s.reason (var q) with
      | none => rw [hr] at h; simp at h
      | some cr =>
        rw [hr] at h
        dsimp only at h
        have h1 : StampFrame s
            (swapBinary { s with analyze_stack := s.analyze_stack.dropLast } cr) := by
          have g := swapBinary_stamp { s with analyze_stack := s.analyze_stack.dropLast } cr
          exact ⟨g.vardata_eq, g.permDiff_eq, g.flag_eq⟩
        generalize swapBinary { s with analyze_stack := s.analyze_stack.dropLast } cr = s1
          at h h1
        have h2 := litRedundantInner_stamp al ((s1.ca.get cr).lits.drop 1) s1
        generalize litRedundantInner al ((s1.ca.get cr).lits.drop 1) s1 = res at h h2
        obtain ⟨b, s2⟩ := res
        cases b with
        | true =>
          dsimp only at h
          exact stampFrame_trans (stampFrame_trans h1 h2) (litRedundantLoop_stamp al top fuel s2 r h)
        | false =>
          dsimp only at h
          have := Option.some.inj h
          subst this
          exact stampFrame_trans (stampFrame_trans h1 h2) ⟨rfl, rfl, rfl⟩

theorem litRedundant_stamp (s : Solver) (p al : Nat) (r : Bool × Solver)
    (h : litRedundant s p al = some r) : StampFrame s r.2 := by
  unfold litRedundant at h
  have g := litRedundantLoop_stamp _ _ _ _ r h
  exact ⟨g.vardata_eq, g.permDiff_eq, g.flag_eq⟩

theorem minimizeDeep_stamp (al : Nat) : ∀ (lits : List Nat) (s : Solver)
    (r : List Nat × Solver), minimizeDeep al lits s = some r → StampFrame s r.2
  | [], s, r, h => by
    unfold minimizeDeep at h
    have := Option.some.inj h
    subst this
    exact stampFrame_refl s
  | q :: rest, s, r, h => by
    unfold minimizeDeep at h
    cases hr : s.reason (var q) with
    | none =>
      rw [hr] at h
      dsimp only at h
      cases hm : minimizeDeep al rest s with
      | none => rw [hm] at h; simp at h
      | some r1 =>
        rw [hm] at h
        have := Option.some.inj h
        subst this
        exact minimizeDeep_stamp al rest s r1 hm
    | some cr =>
      rw [hr] at h
      dsimp only at h
      cases hl : litRedundant s q al with
      | none => rw [hl] at h; simp at h
      | some res =>
        rw [hl] at h
        have h1 := litRedundant_stamp s q al res hl
        obtain ⟨b, s1⟩ := res
        cases b with
        | true =>
          dsimp only at h
          exact stampFrame_trans h1 (minimizeDeep_stamp al rest s1 r h)
        | false =>
          dsimp only at h
          cases hm : minimizeDeep al rest s1 with
          | none => rw [hm] at h; simp at h
          | some r1 =>
            rw [hm] at h
            have := Option.some.inj h
            subst this
            exact stampFrame_trans h1 (minimizeDeep_stamp al rest s1 r1 hm)

theorem bumpFold_stamp (lbd : Nat) : ∀ (qs : List Nat) (s : Solver),
    StampFrame s (qs.foldl
      (fun (t : Solver) q =>
        let c : Clause := match t.reason (var q) with
          | some r => t.ca.get r
          | none => default
        if c.lbd < lbd then varBumpActivity t (var q) else t) s)
  | [], s => stampFrame_refl s
  | q :: rest, s => by
    simp only [List.foldl_cons]
    refine stampFrame_trans ?_ (bumpFold_stamp lbd rest _)
    split
    · exact varBumpActivity_stamp _ _
    · exact stampFrame_refl s

theorem bumpLastDecisionLevel_stamp (s : Solver) (lbd : Nat) :
    StampFrame s (bumpLastDecisionLevel s lbd) := by
  unfold bumpLastDecisionLevel
  have := bumpFold_stamp lbd s.lastDecisionLevel s
  exact ⟨this.vardata_eq, this.permDiff_eq, this.flag_eq⟩

/-! ## The binary minimisation keeps a literal and the stamps fresh -/

theorem count_set_le (F a : Nat) : ∀ (l : List Nat) (i : Nat),
    (l.set i a).count F ≤ l.count F + 1
  | [], _ => by simp
  | x :: l, 0 => by
    rw [List.set_cons_zero, List.count_cons, List.count_cons]
    split <;> split <;> omega
  | x :: l, i + 1 => by
    rw [List.set_cons_succ, List.count_cons, List.count_cons]
    have := count_set_le F a l i
    omega

theorem count_set_dec (F G : Nat) (hG : G ≠ F) : ∀ (l : List Nat) (i : Nat),
    i < l.length → l.getD i 0 = F → (l.set i G).count F + 1 = l.count F
  | [], _, h, _ => by simp at h
  | x :: l, 0, _, hx => by
    rw [List.set_cons_zero, List.count_cons, List.count_cons]
    have hx' : x = F := hx
    rw [if_neg (by simpa using hG), if_pos (by simpa using hx')]
  | x :: l, i + 1, h, hx => by
    rw [List.set_cons_succ, List.count_cons, List.count_cons]
    have := count_set_dec F G hG l i (by simpa using h) (by simpa using hx)
    omega

theorem count_zero_of_lt (F : Nat) (l : List Nat) (h : ∀ i, l.getD i 0 < F) :
    l.count F = 0 := by
  rw [List.count_eq_zero]
  intro hmem
  obtain ⟨i, hi, e⟩ := List.mem_iff_getElem.1 hmem
  have := h i
  rw [List.getD_eq_getElem _ _ hi, e] at this
  exact Nat.lt_irrefl _ this

theorem flagFold_spec (F : Nat) : ∀ (qs : List Nat) (pd : List Nat),
    (qs.foldl (fun pd q => pd.set (var q) F) pd).length = pd.length ∧
    (qs.foldl (fun pd q => pd.set (var q) F) pd).count F ≤ pd.count F + qs.length ∧
    ∀ l, (qs.foldl (fun pd q => pd.set (var q) F) pd).getD l 0 = pd.getD l 0 ∨
      (qs.foldl (fun pd q => pd.set (var q) F) pd).getD l 0 = F
  | [], pd => ⟨rfl, Nat.le_refl _, fun _ => Or.inl rfl⟩
  | q :: rest, pd => by
    simp only [List.foldl_cons, List.length_cons]
    obtain ⟨h1, h2, h3⟩ := flagFold_spec F rest (pd.set (var q) F)
    refine ⟨by rw [h1, List.length_set], ?_, ?_⟩
    · have := count_set_le F F pd (var q)
      omega
    · intro l
      rcases h3 l with h | h
      · by_cases hl : var q = l
        · by_cases hlt : var q < pd.length
          · right
            rw [h, ← hl]
            exact getD_set_self' _ _ _ _ hlt
          · left
            rw [h, List.set_eq_of_length_le (by omega)]
        · left
          rw [h]
          exact getD_set_ne' _ _ _ hl
      · exact Or.inr h

theorem pred_flag {F : Nat} (h0 : 0 < F) (h1 : F < 2 ^ 32) :
    (F + 2 ^ 32 - 1) % 2 ^ 32 = F - 1 := by
  have : F + 2 ^ 32 - 1 = (F - 1) + 2 ^ 32 := by omega
  rw [this, Nat.add_mod_right, Nat.mod_eq_of_lt (by omega)]

/-- Every flagged blocker that is counted loses its flag: the count is bounded by the
number of flags. -/
theorem binMinCount_spec : ∀ (ws : List Watcher) (a : Nat × Solver),
    0 < a.2.MYFLAG → a.2.MYFLAG < 2 ^ 32 → (∀ l, a.2.permDiff.getD l 0 ≤ a.2.MYFLAG) →
    (binMinCount ws a).2.vardata = a.2.vardata ∧
    (binMinCount ws a).2.MYFLAG = a.2.MYFLAG ∧
    (binMinCount ws a).2.permDiff.length = a.2.permDiff.length ∧
    (∀ l, (binMinCount ws a).2.permDiff.getD l 0 ≤ a.2.MYFLAG) ∧
    (binMinCount ws a).1 + (binMinCount ws a).2.permDiff.count a.2.MYFLAG =
      a.1 + a.2.permDiff.count a.2.MYFLAG
  | [], a, _, _, h => ⟨rfl, rfl, rfl, h, rfl⟩
  | w :: ws, a, h0, h1, h => by
    unfold binMinCount
    split
    · rename_i hc
      have hflag : a.2.permDiff.getD (var w.blocker) 0 = a.2.MYFLAG := by
        simp only [Bool.and_eq_true, beq_iff_eq] at hc
        exact hc.1
      have hlt : var w.blocker < a.2.permDiff.length := by
        by_contra hge
        rw [List.getD_eq_default _ _ (by omega)] at hflag
        omega
      have hpred := pred_flag h0 h1
      have hle : ∀ l, (a.2.permDiff.set (var w.blocker)
          ((a.2.MYFLAG + 2 ^ 32 - 1) % 2 ^ 32)).getD l 0 ≤ a.2.MYFLAG := by
        intro l
        by_cases hl : var w.blocker = l
        · rw [← hl, getD_set_self' _ _ _ _ hlt, hpred]
          omega
        · rw [getD_set_ne' _ _ _ hl]
          exact h l
      obtain ⟨g1, g2, g3, g4, g5⟩ := binMinCount_spec ws
        (a.1 + 1, { a.2 with permDiff := a.2.permDiff.set (var w.blocker)
                                           ((a.2.MYFLAG + 2 ^ 32 - 1) % 2 ^ 32) }) h0 h1 hle
      refine ⟨g1, g2, g3.trans (List.length_set _ _ _), g4, ?_⟩
      have hdec := count_set_dec a.2.MYFLAG ((a.2.MYFLAG + 2 ^ 32 - 1) % 2 ^ 32)
        (by rw [hpred]; omega) a.2.permDiff (var w.blocker) hlt hflag
      refine g5.trans ?_
      show a.1 + 1 + (a.2.permDiff.set (var w.blocker)
        ((a.2.MYFLAG + 2 ^ 32 - 1) % 2 ^ 32)).count a.2.MYFLAG = _
      omega
    · exact binMinCount_spec ws a h0 h1 h

theorem binMinLoop_length (s : Solver) (bound : Nat) : ∀ (fuel i l : Nat) (out r : List Nat),
    binMinLoop s bound fuel i l out = some r → r.length = out.length
  | 0, i, l, out, r, h => by
    unfold binMinLoop at h
    split at h
    · simp at h
    · rw [← Option.some.inj h]
  | fuel + 1, i, l, out, r, h => by
    unfold binMinLoop at h
    split at h
    · split at h
      · rw [binMinLoop_length s bound fuel _ _ _ r h, List.length_set, List.length_set]
      · exact binMinLoop_length s bound fuel _ _ _ r h
    · rw [← Option.some.inj h]

/-- The binary minimisation keeps at least one literal, the levels and fresh stamps;
`MYFLAG` grows by two at most. -/
theorem binaryMinimize_stamps (s : Solver) (p : Nat) (out : List Nat) (r : List Nat × Solver)
    (h : binaryMinimize s p out = some r) (hfresh : StampsFresh s)
    (hwrap : s.MYFLAG + 2 < 2 ^ 32) (hne : 1 ≤ out.length) :
    r.2.vardata = s.vardata ∧ r.2.permDiff.length = s.permDiff.length ∧ StampsFresh r.2 ∧
    r.2.MYFLAG ≤ s.MYFLAG + 2 ∧ 1 ≤ r.1.length := by
  unfold binaryMinimize at h
  split at h
  · obtain ⟨c1, c2, c3, c4⟩ := computeLBD_stamps s out hfresh (by omega)
    dsimp only at h
    split at h
    · have hF : ((computeLBD s out).2.MYFLAG + 1) % 2 ^ 32 = s.MYFLAG + 2 := by
        rw [c2, Nat.mod_eq_of_lt (by omega)]
      obtain ⟨f1, f2, f3⟩ := flagFold_spec (((computeLBD s out).2.MYFLAG + 1) % 2 ^ 32)
        (out.drop 1) (computeLBD s out).2.permDiff
      have hzero : (computeLBD s out).2.permDiff.count
          (((computeLBD s out).2.MYFLAG + 1) % 2 ^ 32) = 0 := by
        apply count_zero_of_lt
        intro i
        have := c4 i
        rw [hF]
        rw [c2] at this
        omega
      have hle2 : ∀ l, ((out.drop 1).foldl
          (fun pd q => pd.set (var q) (((computeLBD s out).2.MYFLAG + 1) % 2 ^ 32))
          (computeLBD s out).2.permDiff).getD l 0 ≤
          ((computeLBD s out).2.MYFLAG + 1) % 2 ^ 32 := by
        intro l
        rcases f3 l with e | e
        · rw [e, hF]
          have := c4 l
          rw [c2] at this
          omega
        · rw [e]
      obtain ⟨b1, b2, b3, b4, b5⟩ := binMinCount_spec ((computeLBD s out).2.watchesBin.get p)
        (0, { (computeLBD s out).2 with
                MYFLAG := ((computeLBD s out).2.MYFLAG + 1) % 2 ^ 32,
                permDiff := (out.drop 1).foldl
                  (fun pd q => pd.set (var q) (((computeLBD s out).2.MYFLAG + 1) % 2 ^ 32))
                  (computeLBD s out).2.permDiff })
        (by show 0 < ((computeLBD s out).2.MYFLAG + 1) % 2 ^ 32; rw [hF]; omega)
        (by show ((computeLBD s out).2.MYFLAG + 1) % 2 ^ 32 < 2 ^ 32; rw [hF]; omega)
        hle2
      generalize binMinCount ((computeLBD s out).2.watchesBin.get p)
        (0, { (computeLBD s out).2 with
                MYFLAG := ((computeLBD s out).2.MYFLAG + 1) % 2 ^ 32,
                permDiff := (out.drop 1).foldl
                  (fun pd q => pd.set (var q) (((computeLBD s out).2.MYFLAG + 1) % 2 ^ 32))
                  (computeLBD s out).2.permDiff }) = cnt at h b1 b2 b3 b4 b5
      have hb2 : cnt.2.MYFLAG = s.MYFLAG + 2 := b2.trans hF
      have hfr : StampsFresh cnt.2 := by
        intro l
        rw [b2]
        exact b4 l
      have hcnt : cnt.1 ≤ out.length - 1 := by
        have e5 : cnt.1 + cnt.2.permDiff.count (((computeLBD s out).2.MYFLAG + 1) % 2 ^ 32) =
            0 + ((out.drop 1).foldl
              (fun pd q => pd.set (var q) (((computeLBD s out).2.MYFLAG + 1) % 2 ^ 32))
              (computeLBD s out).2.permDiff).count
                (((computeLBD s out).2.MYFLAG + 1) % 2 ^ 32) := b5
        rw [List.length_drop] at f2
        omega
      have hvd : cnt.2.vardata = s.vardata := b1.trans c1
      have hlen : cnt.2.permDiff.length = s.permDiff.length := (b3.trans f1).trans c3
      split at h
      · split at h
        · simp at h
        · rename_i out1 hloop
          have hl := binMinLoop_length _ _ _ _ _ _ _ hloop
          rw [← Option.some.inj h]
          refine ⟨hvd, hlen, hfr, le_of_eq hb2, ?_⟩
          show 1 ≤ (out1.take (out1.length - cnt.1)).length
          rw [List.length_take, hl]
          omega
      · rw [← Option.some.inj h]
        exact ⟨hvd, hlen, hfr, le_of_eq hb2, hne⟩
    · rw [← Option.some.inj h]
      exact ⟨c1, c3, c4, (le_of_eq c2).trans (by omega), hne⟩
  · rw [← Option.some.inj h]
    exact ⟨rfl, rfl, hfresh, Nat.le_add_right _ _, hne⟩

/-! ## The LBD returned by `analyze` -/

theorem analyze_lbd (s : Solver) (confl : Nat) (out : List Nat) (bt lbd : Nat) (s' : Solver)
    (h : analyze s confl = some (out, bt, lbd, s')) (hfresh : StampsFresh s)
    (hwrap : s.MYFLAG + 3 < 2 ^ 32) (hlev : ∀ x, s.level x < s.permDiff.length) :
    lbd = ((out.map (fun q => s.level (var q))).dedup).length ∧ 1 ≤ out.length ∧
    s'.vardata = s.vardata := by
  unfold analyze at h
  split at h
  · simp at h
  · rename_i p a hloop
    dsimp only at h
    obtain ⟨hA, hAl⟩ := analyzeLoop_stamp _ _ _ _ _ _ hloop
    have hAl' : 1 ≤ a.out_learnt.length := hAl
    split at h
    · simp at h
    · rename_i out1 s1 hmini
      have hm : StampFrame s s1 ∧ 1 ≤ out1.length := by
        split at hmini
        · rw [Option.map_eq_some'] at hmini
          obtain ⟨r, hr, e⟩ := hmini
          have g := minimizeDeep_stamp _ _ _ r hr
          simp only [Prod.mk.injEq] at e
          rw [← e.1, ← e.2]
          exact ⟨⟨g.vardata_eq.trans hA.vardata_eq, g.permDiff_eq.trans hA.permDiff_eq,
            g.flag_eq.trans hA.flag_eq⟩, by simp⟩
        · split at hmini
          · have e := Option.some.inj hmini
            simp only [Prod.mk.injEq] at e
            rw [← e.1, ← e.2]
            exact ⟨⟨hA.vardata_eq, hA.permDiff_eq, hA.flag_eq⟩, by simp⟩
          · have e := Option.some.inj hmini
            simp only [Prod.mk.injEq] at e
            rw [← e.1, ← e.2]
            exact ⟨⟨hA.vardata_eq, hA.permDiff_eq, hA.flag_eq⟩,
              by rw [List.length_set]; exact hAl'⟩
      obtain ⟨hf, hl1⟩ := hm
      split at h
      · simp at h
      · rename_i out2 s3 hbin
        obtain ⟨b1, b2, b3, b4, b5⟩ := binaryMinimize_stamps _ p out1 (out2, s3) hbin
          (by
            intro l
            show s1.permDiff.getD l 0 ≤ s1.MYFLAG
            rw [hf.permDiff_eq, hf.flag_eq]
            exact hfresh l)
          (by
            show s1.MYFLAG + 2 < 2 ^ 32
            rw [hf.flag_eq]
            omega) hl1
        have hvd : s3.vardata = s.vardata := b1.trans hf.vardata_eq
        have hlevel : ∀ x, s3.level x = s.level x := by
          intro x
          unfold level
          rw [hvd]
        have hflag3 : s3.MYFLAG + 1 < 2 ^ 32 := by
          have h1 : s3.MYFLAG ≤ s1.MYFLAG + 2 := b4
          rw [hf.flag_eq] at h1
          omega
        have hlev3 : ∀ x, s3.level x < s3.permDiff.length := by
          intro x
          have h1 : s3.permDiff.length = s1.permDiff.length := b2
          rw [hlevel, h1, hf.permDiff_eq]
          exact hlev x
        have hlen3 : ∀ m, 1 ≤ (if (out2.length == 1) = true then out2
            else (out2.set m (out2.getD 1 0)).set 1 (out2.getD m 0)).length := by
          intro m
          split
          · exact b5
          · rw [List.length_set, List.length_set]
            exact b5
        have e := Option.some.inj h
        simp only [Prod.mk.injEq] at e
        obtain ⟨e1, _, e3, e4⟩ := e
        rw [← e1, ← e3, ← e4]
        refine ⟨?_, hlen3 _, ?_⟩
        · rw [computeLBD_levels s3 _ b3 hflag3 hlev3]
          simp only [hlevel]
        · obtain ⟨c1, _⟩ := computeLBD_stamps s3
            (if (out2.length == 1) = true then out2
              else (out2.set (maxLevelIdx s3 out2) (out2.getD 1 0)).set 1
                (out2.getD (maxLevelIdx s3 out2) 0)) b3 hflag3
          exact ((bumpLastDecisionLevel_stamp _ _).vardata_eq.trans c1).trans hvd

/-! ## The learnt clause recorded by `search` -/

theorem modify_keep {α : Type} (g : Clause → α) (ca : ClauseAllocator) (cr : Nat)
    (f : Clause → Clause) (hf : ∀ c, g (f c) = g c) (x : Nat) :
    g ((ca.modify cr f).get x) = g (ca.get x) := by
  unfold ClauseAllocator.modify ClauseAllocator.get
  dsimp only
  by_cases hx : cr = x
  · subst hx
    by_cases hl : cr < ca.mem.length
    · rw [getD_set_self' _ _ _ _ hl]
      exact hf _
    · rw [List.set_eq_of_length_le (by omega)]
  · rw [getD_set_ne' _ _ _ hx]

theorem foldl_modify_keep {α : Type} (g : Clause → α) (f : Clause → Clause)
    (hf : ∀ c, g (f c) = g c) : ∀ (ls : List Nat) (ca : ClauseAllocator) (x : Nat),
    g ((ls.foldl (fun ca l => ca.modify l f) ca).get x) = g (ca.get x)
  | [], _, _ => rfl
  | l :: ls, ca, x => by
    simp only [List.foldl_cons]
    rw [foldl_modify_keep g f hf ls (ca.modify l f) x, modify_keep g ca l f hf]

theorem claBumpActivity_keep {α : Type} (g : Clause → α)
    (hg : ∀ (c : Clause) (a : Frac), g { c with activity := a } = g c) (s : Solver)
    (cr : Nat) :
    (claBumpActivity s cr).learnts = s.learnts ∧
    ∀ x, g ((claBumpActivity s cr).ca.get x) = g (s.ca.get x) := by
  unfold claBumpActivity
  dsimp only
  split
  · refine ⟨rfl, ?_⟩
    intro x
    dsimp only
    rw [foldl_modify_keep g (fun c => { c with activity := c.activity.mul ⟨1, 10 ^ 20⟩ })
      (fun c => hg c _) s.learnts _ x]
    exact modify_keep g s.ca cr _ (fun c => hg c _) x
  · exact ⟨rfl, fun x => modify_keep g s.ca cr _ (fun c => hg c _) x⟩

theorem attachClause_store (s : Solver) (cr : Nat) :
    (attachClause s cr).learnts = s.learnts ∧ (attachClause s cr).ca = s.ca := by
  unfold attachClause
  dsimp only
  split <;> split <;> exact ⟨rfl, rfl⟩

theorem to_freeze_store (s : Solver) (cr : Nat) :
    (to_freeze s cr).2.learnts = s.learnts ∧ (to_freeze s cr).2.ca = s.ca := by
  unfold to_freeze freeze_stats
  exact ⟨rfl, rfl⟩

theorem cancelUntil_store (s : Solver) (d : Nat) :
    (cancelUntil s d).learnts = s.learnts ∧ (cancelUntil s d).ca = s.ca := by
  have hi : ∀ (u : Solver) (x : Nat), (insertVarOrder u x).learnts = u.learnts ∧
      (insertVarOrder u x).ca = u.ca := by
    intro u x; unfold insertVarOrder; split <;> exact ⟨rfl, rfl⟩
  have hs : ∀ (last : Nat) (u : Solver) (cl : Nat × Nat),
      (cancelStep last u cl).learnts = u.learnts ∧ (cancelStep last u cl).ca = u.ca := by
    intro last u cl
    unfold cancelStep
    dsimp only
    split
    · exact hi ({ u with assigns := u.assigns.set (var cl.2) l_Undef,
                          polarity := u.polarity.set (var cl.2) (sign cl.2) } : Solver) (var cl.2)
    · exact hi ({ u with assigns := u.assigns.set (var cl.2) l_Undef } : Solver) (var cl.2)
  have hf : ∀ (last : Nat) (L : List (Nat × Nat)) (u : Solver),
      (L.foldl (cancelStep last) u).learnts = u.learnts ∧
      (L.foldl (cancelStep last) u).ca = u.ca := by
    intro last L
    induction L with
    | nil => intro u; exact ⟨rfl, rfl⟩
    | cons cl L ih =>
      intro u
      simp only [List.foldl_cons]
      exact ⟨(ih _).1.trans (hs last u cl).1, (ih _).2.trans (hs last u cl).2⟩
  unfold cancelUntil
  split
  · exact hf _ _ s
  · exact ⟨rfl, rfl⟩

/-- The lines of `search` that record a learnt clause of two literals or more: the clause
is the last of `learnts`, with its literals and the LBD given. -/
theorem recordLearnt_stored (s : Solver) (out : List Nat) (k : Nat) (h : out.length ≠ 1) :
    (recordLearnt s out k).learnts = s.learnts ++ [s.ca.mem.length] ∧
    ((recordLearnt s out k).ca.get s.ca.mem.length).lits = out ∧
    ((recordLearnt s out k).ca.get s.ca.mem.length).lbd = k := by
  unfold recordLearnt
  rw [if_neg (by simpa using h)]
  dsimp only
  have hstore : ∀ (t : Solver),
      t.ca = (s.ca.alloc out true).2.modify (s.ca.alloc out true).1
        (fun c => { c with lbd := k }) →
      (t.ca.get s.ca.mem.length).lits = out ∧ (t.ca.get s.ca.mem.length).lbd = k := by
    intro t ht
    rw [ht]
    have hcr : (s.ca.alloc out true).1 = s.ca.mem.length := rfl
    rw [hcr]
    unfold ClauseAllocator.modify
    unfold ClauseAllocator.get
    dsimp only
    rw [getD_set_self' _ _ _ _ (by simp [ClauseAllocator.alloc])]
    have := get_alloc s.ca out true
    unfold ClauseAllocator.get at this
    rw [this]
    exact ⟨rfl, rfl⟩
  obtain ⟨f1, f2⟩ := to_freeze_store
    { s with ca := (s.ca.alloc out true).2.modify (s.ca.alloc out true).1
                 (fun c => { c with lbd := k }),
             nbDL2 := if k ≤ 2 then s.nbDL2 + 1 else s.nbDL2,
             nbBin := if out.length == 2 then s.nbBin + 1 else s.nbBin,
             learnts := s.learnts ++ [(s.ca.alloc out true).1] } (s.ca.alloc out true).1
  generalize to_freeze
    { s with ca := (s.ca.alloc out true).2.modify (s.ca.alloc out true).1
                 (fun c => { c with lbd := k }),
             nbDL2 := if k ≤ 2 then s.nbDL2 + 1 else s.nbDL2,
             nbBin := if out.length == 2 then s.nbBin + 1 else s.nbBin,
             learnts := s.learnts ++ [(s.ca.alloc out true).1] } (s.ca.alloc out true).1 = fz
    at f1 f2
  obtain ⟨a1, a2⟩ := attachClause_store
    { fz.2 with frozen_clauses := fz.2.frozen_clauses ++
        [{ mkFreeze 0 false with freeze := fz.1 }] } (s.ca.alloc out true).1
  generalize attachClause
    { fz.2 with frozen_clauses := fz.2.frozen_clauses ++
        [{ mkFreeze 0 false with freeze := fz.1 }] } (s.ca.alloc out true).1 = t1 at a1 a2
  have hs1 := hstore t1 (a2.trans f2)
  obtain ⟨c1, c2⟩ := claBumpActivity_keep (fun c => (c.lits, c.lbd)) (fun _ _ => rfl) t1
    (s.ca.alloc out true).1
  have c3 := c2 s.ca.mem.length
  simp only [Prod.mk.injEq] at c3
  refine ⟨?_, ?_, ?_⟩
  · show (claBumpActivity t1 (s.ca.alloc out true).1).learnts = _
    rw [c1, a1]
    exact f1
  · show ((claBumpActivity t1 (s.ca.alloc out true).1).ca.get s.ca.mem.length).lits = out
    rw [c3.1]
    exact hs1.1
  · show ((claBumpActivity t1 (s.ca.alloc out true).1).ca.get s.ca.mem.length).lbd = k
    rw [c3.2]
    exact hs1.2

theorem blockRestart_stamp (s : Solver) (b : Bool) :
    (blockRestart s b).2.vardata = s.vardata ∧ (blockRestart s b).2.permDiff = s.permDiff ∧
    (blockRestart s b).2.MYFLAG = s.MYFLAG := by
  unfold blockRestart
  split
  · dsimp only
    split <;> exact ⟨rfl, rfl, rfl⟩
  · exact ⟨rfl, rfl, rfl⟩

theorem recordLearnt_unit (s : Solver) (out : List Nat) (k : Nat) (h : out.length = 1) :
    (recordLearnt s out k).learnts = s.learnts := by
  unfold recordLearnt
  rw [if_pos (by simpa using h)]
  unfold uncheckedEnqueue
  rfl

/-- The conflict branch of `search` above level 0: `analyze` is called in `conflictState`,
and its clause, when it has two literals or more, is recorded at the end of `learnts`
with the LBD returned, the number of the distinct levels of its literals. -/
theorem searchConflict_lbd (blocked : Bool) (s : Solver) (confl : Nat) (step : SearchStep)
    (h : searchConflict blocked s confl = some step) (hdl : s.decisionLevel ≠ 0)
    (hfresh : StampsFresh s) (hwrap : s.MYFLAG + 3 < 2 ^ 32)
    (hlev : ∀ x, s.level x < s.permDiff.length) :
    ∃ b t out bt lbd s', analyze (conflictState blocked s) confl = some (out, bt, lbd, s') ∧
      step = SearchStep.next b t ∧ 1 ≤ out.length ∧
      lbd = ((out.map (fun q => s.level (var q))).dedup).length ∧
      (out.length = 1 → t.learnts = s'.learnts) ∧
      (out.length ≠ 1 → t.learnts = s'.learnts ++ [s'.ca.mem.length] ∧
        (t.ca.get s'.ca.mem.length).lits = out ∧ (t.ca.get s'.ca.mem.length).lbd = lbd) := by
  unfold searchConflict at h
  dsimp only at h
  rw [if_neg (by
    show ¬ ((s.trail_lim.length == 0) = true)
    simpa [decisionLevel] using hdl)] at h
  obtain ⟨r1, r2, r3⟩ := blockRestart_stamp
    { s with conflicts := s.conflicts + 1, trailQueue := s.trailQueue.push s.trail.length }
    blocked
  have hcs : conflictState blocked s = (blockRestart
    { s with conflicts := s.conflicts + 1, trailQueue := s.trailQueue.push s.trail.length }
    blocked).2 := rfl
  rw [hcs]
  generalize blockRestart
    { s with conflicts := s.conflicts + 1, trailQueue := s.trailQueue.push s.trail.length }
    blocked = br at h r1 r2 r3 ⊢
  split at h
  · simp at h
  · rename_i out bt lbd s5 han
    have hlevel : ∀ x, br.2.level x = s.level x := by
      intro x
      unfold level
      rw [r1]
    obtain ⟨g1, g2, _⟩ := analyze_lbd br.2 confl out bt lbd s5 han
      (by
        intro l
        rw [r2, r3]
        exact hfresh l)
      (by rw [r3]; exact hwrap)
      (by
        intro x
        rw [hlevel, r2]
        exact hlev x)
    simp only [hlevel] at g1
    obtain ⟨cs1, cs2⟩ := cancelUntil_store
      { s5 with lbdQueue := s5.lbdQueue.push lbd, sumLBD := s5.sumLBD + lbd } bt
    have cs1b : (cancelUntil
        { s5 with lbdQueue := s5.lbdQueue.push lbd, sumLBD := s5.sumLBD + lbd } bt).learnts
        = s5.learnts := cs1
    have cs2b : (cancelUntil
        { s5 with lbdQueue := s5.lbdQueue.push lbd, sumLBD := s5.sumLBD + lbd } bt).ca
        = s5.ca := cs2
    have hk := recordLearnt_stored
      (cancelUntil { s5 with lbdQueue := s5.lbdQueue.push lbd, sumLBD := s5.sumLBD + lbd } bt)
      out lbd
    have hu := recordLearnt_unit
      (cancelUntil { s5 with lbdQueue := s5.lbdQueue.push lbd, sumLBD := s5.sumLBD + lbd } bt)
      out lbd
    rw [cs1b] at hu
    rw [cs1b, cs2b] at hk
    generalize recordLearnt
      (cancelUntil { s5 with lbdQueue := s5.lbdQueue.push lbd, sumLBD := s5.sumLBD + lbd } bt)
      out lbd = t0 at h hk hu
    have hstep := Option.some.inj h
    have d1 : (claDecayActivity (varDecayActivity t0)).learnts = t0.learnts := by
      unfold claDecayActivity varDecayActivity
      rfl
    have d2 : (claDecayActivity (varDecayActivity t0)).ca = t0.ca := by
      unfold claDecayActivity varDecayActivity
      rfl
    refine ⟨br.1, claDecayActivity (varDecayActivity t0), out, bt, lbd, s5, han, hstep.symm, g2,
      g1, ?_, ?_⟩
    · intro he
      rw [d1]
      exact hu he
    · intro hne
      obtain ⟨k1, k2, k3⟩ := hk hne
      rw [d1, d2]
      exact ⟨k1, k2, k3⟩

theorem twoLevelConflict_fresh : StampsFresh twoLevelConflict := by
  have e : twoLevelConflict.permDiff = [0, 0, 0] := by decide
  intro l
  rw [e]
  rcases l with _ | _ | _ | l <;> simp

theorem twoLevelConflict_levels : ∀ x, twoLevelConflict.level x < twoLevelConflict.permDiff.length := by
  have e : twoLevelConflict.permDiff.length = 3 := by decide
  have hl : twoLevelConflict.vardata.length = 3 := by decide
  intro x
  rw [e]
  rcases x with _ | _ | _ | x
  · decide
  · decide
  · decide
  · unfold level
    rw [List.getD_eq_default _ _ (by rw [hl]; omega)]
    decide

/-! ## The schedule and the trail through the bookkeeping -/

theorem runFrame_refl (s : Solver) : RunFrame s s := ⟨rfl, rfl, rfl, rfl, rfl, rfl, rfl, rfl⟩

theorem runFrame_trans {s t u : Solver} (h1 : RunFrame s t) (h2 : RunFrame t u) :
    RunFrame s u :=
  ⟨h2.conflicts_eq.trans h1.conflicts_eq, h2.curRestart_eq.trans h1.curRestart_eq,
   h2.before_eq.trans h1.before_eq, h2.inc_eq.trans h1.inc_eq,
   h2.nbReduceDB_eq.trans h1.nbReduceDB_eq, h2.trail_eq.trans h1.trail_eq,
   h2.trail_lim_eq.trans h1.trail_lim_eq, h2.qhead_eq.trans h1.qhead_eq⟩

/-- A frame from the state `t` carries over to a state `s` that agrees with `t` on the
framed fields. -/
theorem runFrame_of {s t u : Solver} (h : RunFrame t u) (e1 : t.conflicts = s.conflicts)
    (e2 : t.curRestart = s.curRestart) (e3 : t.nbclausesbeforereduce = s.nbclausesbeforereduce)
    (e4 : t.incReduceDB = s.incReduceDB) (e5 : t.nbReduceDB = s.nbReduceDB)
    (e6 : t.trail = s.trail) (e7 : t.trail_lim = s.trail_lim) (e8 : t.qhead = s.qhead) :
    RunFrame s u :=
  runFrame_trans ⟨e1, e2, e3, e4, e5, e6, e7, e8⟩ h

theorem varBumpActivity_run (s : Solver) (v : Nat) : RunFrame s (varBumpActivity s v) := by
  unfold varBumpActivity
  dsimp only
  split <;> split <;> exact ⟨rfl, rfl, rfl, rfl, rfl, rfl, rfl, rfl⟩

theorem claBumpActivity_run (s : Solver) (cr : Nat) : RunFrame s (claBumpActivity s cr) := by
  unfold claBumpActivity
  dsimp only
  split <;> exact ⟨rfl, rfl, rfl, rfl, rfl, rfl, rfl, rfl⟩

theorem swapBinary_run (s : Solver) (cr : Nat) : RunFrame s (swapBinary s cr) := by
  unfold swapBinary
  dsimp only
  split <;> exact ⟨rfl, rfl, rfl, rfl, rfl, rfl, rfl, rfl⟩

theorem analyzeLit_run (a : AnalyzeAcc) (q : Nat) : RunFrame a.s (analyzeLit a q).s := by
  unfold analyzeLit
  split
  · have hb := varBumpActivity_run a.s (var q)
    dsimp only
    split
    · split
      · split
        · exact runFrame_trans hb ⟨rfl, rfl, rfl, rfl, rfl, rfl, rfl, rfl⟩
        · exact runFrame_trans hb ⟨rfl, rfl, rfl, rfl, rfl, rfl, rfl, rfl⟩
      · exact runFrame_trans hb ⟨rfl, rfl, rfl, rfl, rfl, rfl, rfl, rfl⟩
    · exact runFrame_trans hb ⟨rfl, rfl, rfl, rfl, rfl, rfl, rfl, rfl⟩
  · exact runFrame_refl _

theorem foldl_analyzeLit_run : ∀ (lits : List Nat) (a : AnalyzeAcc),
    RunFrame a.s (lits.foldl analyzeLit a).s
  | [], a => runFrame_refl _
  | q :: rest, a => by
    simp only [List.foldl_cons]
    exact runFrame_trans (analyzeLit_run a q) (foldl_analyzeLit_run rest (analyzeLit a q))

theorem analyzeLoop_run : ∀ (fuel : Nat) (confl p : Option Nat) (n : Nat) (a : AnalyzeAcc)
    (r : Nat × AnalyzeAcc), analyzeLoop fuel confl p n a = some r → RunFrame a.s r.2.s
  | 0, _, _, _, _, _, h => by simp [analyzeLoop] at h
  | fuel + 1, confl, p, n, a, r, h => by
    unfold analyzeLoop at h
    cases confl with
    | none => simp at h
    | some cr =>
      dsimp only at h
      have hs1 : RunFrame a.s (if p.isSome then swapBinary a.s cr else a.s) := by
        split
        · exact swapBinary_run _ _
        · exact runFrame_refl _
      generalize (if p.isSome then swapBinary a.s cr else a.s) = s1 at h hs1
      have hs2 : RunFrame s1 (if (s1.ca.get cr).learnt then claBumpActivity s1 cr else s1) := by
        split
        · exact claBumpActivity_run _ _
        · exact runFrame_refl _
      generalize (if (s1.ca.get cr).learnt then claBumpActivity s1 cr else s1) = s2 at h hs2
      have hf := foldl_analyzeLit_run
        (if p.isSome then (s2.ca.get cr).lits.drop 1 else (s2.ca.get cr).lits)
        { s := s2, pathC := a.pathC, out_learnt := a.out_learnt }
      generalize (List.foldl analyzeLit { s := s2, pathC := a.pathC, out_learnt := a.out_learnt }
        (if p.isSome then (s2.ca.get cr).lits.drop 1 else (s2.ca.get cr).lits)) = a1 at h hf
      have hbase : RunFrame a.s a1.s := runFrame_trans hs1 (runFrame_trans hs2 hf)
      cases hscan : scanSeen a1.s n with
      | none => rw [hscan] at h; simp at h
      | some i =>
        rw [hscan] at h
        dsimp only at h
        have hclr : RunFrame a.s
            { a1.s with seen := a1.s.seen.set (var (a1.s.trail.getD i 0)) false } :=
          runFrame_trans hbase ⟨rfl, rfl, rfl, rfl, rfl, rfl, rfl, rfl⟩
        split at h
        · exact runFrame_trans hclr (analyzeLoop_run fuel _ _ _ _ r h)
        · have := Option.some.inj h
          subst this
          exact hclr

theorem litRedundantInner_run (al : Nat) : ∀ (lits : List Nat) (s : Solver),
    RunFrame s (litRedundantInner al lits s).2
  | [], s => runFrame_refl s
  | p :: rest, s => by
    unfold litRedundantInner
    split
    · split
      · have g := litRedundantInner_run al rest
          { s with seen := s.seen.set (var p) true,
                   analyze_stack := s.analyze_stack ++ [p],
                   analyze_toclear := s.analyze_toclear ++ [p] }
        exact runFrame_of g rfl rfl rfl rfl rfl rfl rfl rfl
      · exact runFrame_refl s
    · exact litRedundantInner_run al rest s

theorem litRedundantLoop_run (al top : Nat) : ∀ (fuel : Nat) (s : Solver)
    (r : Bool × Solver), litRedundantLoop al top fuel s = some r → RunFrame s r.2
  | 0, _, _, h => by simp [litRedundantLoop] at h
  | fuel + 1, s, r, h => by
    unfold litRedundantLoop at h
    cases hl : s.analyze_stack.getLast? with
    | none =>
      rw [hl] at h
      have := Option.some.inj h
      subst this
      exact runFrame_refl s
    | some q =>
      rw [hl] at h
      dsimp only at h
      cases hr : s.reason (var q) with
      | none => rw [hr] at h; simp at h
      | some cr =>
        rw [hr] at h
        dsimp only at h
        have h1 : RunFrame s
            (swapBinary { s with analyze_stack := s.analyze_stack.dropLast } cr) :=
          runFrame_of (swapBinary_run { s with analyze_stack := s.analyze_stack.dropLast } cr)
            rfl rfl rfl rfl rfl rfl rfl rfl
        generalize swapBinary { s with analyze_stack := s.analyze_stack.dropLast } cr = s1
          at h h1
        have h2 := litRedundantInner_run al ((s1.ca.get cr).lits.drop 1) s1
        generalize litRedundantInner al ((s1.ca.get cr).lits.drop 1) s1 = res at h h2
        obtain ⟨b, s2⟩ := res
        cases b with
        | true =>
          dsimp only at h
          exact runFrame_trans (runFrame_trans h1 h2) (litRedundantLoop_run al top fuel s2 r h)
        | false =>
          dsimp only at h
          have := Option.some.inj h
          subst this
          exact runFrame_trans (runFrame_trans h1 h2) ⟨rfl, rfl, rfl, rfl, rfl, rfl, rfl, rfl⟩

theorem litRedundant_run (s : Solver) (p al : Nat) (r : Bool × Solver)
    (h : litRedundant s p al = some r) : RunFrame s r.2 := by
  unfold litRedundant at h
  exact runFrame_of (litRedundantLoop_run _ _ _ _ r h) rfl rfl rfl rfl rfl rfl rfl rfl

theorem minimizeDeep_run (al : Nat) : ∀ (lits : List Nat) (s : Solver)
    (r : List Nat × Solver), minimizeDeep al lits s = some r → RunFrame s r.2
  | [], s, r, h => by
    unfold minimizeDeep at h
    have := Option.some.inj h
    subst this
    exact runFrame_refl s
  | q :: rest, s, r, h => by
    unfold minimizeDeep at h
    cases hr : s.reason (var q) with
    | none =>
      rw [hr] at h
      dsimp only at h
      cases hm : minimizeDeep al rest s with
      | none => rw [hm] at h; simp at h
      | some r1 =>
        rw [hm] at h
        have := Option.some.inj h
        subst this
        exact minimizeDeep_run al rest s r1 hm
    | some cr =>
      rw [hr] at h
      dsimp only at h
      cases hl : litRedundant s q al with
      | none => rw [hl] at h; simp at h
      | some res =>
        rw [hl] at h
        have h1 := litRedundant_run s q al res hl
        obtain ⟨b, s1⟩ := res
        cases b with
        | true =>
          dsimp only at h
          exact runFrame_trans h1 (minimizeDeep_run al rest s1 r h)
        | false =>
          dsimp only at h
          cases hm : minimizeDeep al rest s1 with
          | none => rw [hm] at h; simp at h
          | some r1 =>
            rw [hm] at h
            have := Option.some.inj h
            subst this
            exact runFrame_trans h1 (minimizeDeep_run al rest s1 r1 hm)

theorem lbdStep_run (a : Nat × Solver) (q : Nat) : RunFrame a.2 (lbdStep a q).2 := by
  unfold lbdStep
  dsimp only
  split <;> exact ⟨rfl, rfl, rfl, rfl, rfl, rfl, rfl, rfl⟩

theorem foldl_lbdStep_run : ∀ (lits : List Nat) (a : Nat × Solver),
    RunFrame a.2 (lits.foldl lbdStep a).2
  | [], _ => runFrame_refl _
  | q :: rest, a => by
    simp only [List.foldl_cons]
    exact runFrame_trans (lbdStep_run a q) (foldl_lbdStep_run rest _)

theorem computeLBD_run (s : Solver) (lits : List Nat) : RunFrame s (computeLBD s lits).2 := by
  unfold computeLBD
  exact runFrame_of (foldl_lbdStep_run lits (0, { s with MYFLAG := (s.MYFLAG + 1) % 2 ^ 32 }))
    rfl rfl rfl rfl rfl rfl rfl rfl

theorem binMinCount_run : ∀ (ws : List Watcher) (a : Nat × Solver),
    RunFrame a.2 (binMinCount ws a).2
  | [], _ => runFrame_refl _
  | w :: ws, a => by
    unfold binMinCount
    split
    · exact runFrame_of (binMinCount_run ws _) rfl rfl rfl rfl rfl rfl rfl rfl
    · exact binMinCount_run ws a

theorem binaryMinimize_run (s : Solver) (p : Nat) (out : List Nat) (r : List Nat × Solver)
    (h : binaryMinimize s p out = some r) : RunFrame s r.2 := by
  unfold binaryMinimize at h
  split at h
  · have c := computeLBD_run s out
    dsimp only at h
    split at h
    · have b := binMinCount_run ((computeLBD s out).2.watchesBin.get p)
        (0, { (computeLBD s out).2 with
                MYFLAG := ((computeLBD s out).2.MYFLAG + 1) % 2 ^ 32,
                permDiff := (out.drop 1).foldl
                  (fun pd q => pd.set (var q) (((computeLBD s out).2.MYFLAG + 1) % 2 ^ 32))
                  (computeLBD s out).2.permDiff })
      generalize binMinCount ((computeLBD s out).2.watchesBin.get p)
        (0, { (computeLBD s out).2 with
                MYFLAG := ((computeLBD s out).2.MYFLAG + 1) % 2 ^ 32,
                permDiff := (out.drop 1).foldl
                  (fun pd q => pd.set (var q) (((computeLBD s out).2.MYFLAG + 1) % 2 ^ 32))
                  (computeLBD s out).2.permDiff }) = cnt at h b
      have hb : RunFrame s cnt.2 :=
        runFrame_trans c (runFrame_of b rfl rfl rfl rfl rfl rfl rfl rfl)
      split at h
      · split at h
        · simp at h
        · rw [← Option.some.inj h]
          exact runFrame_trans hb ⟨rfl, rfl, rfl, rfl, rfl, rfl, rfl, rfl⟩
      · rw [← Option.some.inj h]
        exact hb
    · rw [← Option.some.inj h]
      exact c
  · rw [← Option.some.inj h]
    exact runFrame_refl s

theorem bumpFold_run (lbd : Nat) : ∀ (qs : List Nat) (s : Solver),
    RunFrame s (qs.foldl
      (fun (t : Solver) q =>
        let c : Clause := match t.reason (var q) with
          | some r => t.ca.get r
          | none => default
        if c.lbd < lbd then varBumpActivity t (var q) else t) s)
  | [], s => runFrame_refl s
  | q :: rest, s => by
    simp only [List.foldl_cons]
    refine runFrame_trans ?_ (bumpFold_run lbd rest _)
    split
    · exact varBumpActivity_run _ _
    · exact runFrame_refl s

theorem bumpLastDecisionLevel_run (s : Solver) (lbd : Nat) :
    RunFrame s (bumpLastDecisionLevel s lbd) := by
  unfold bumpLastDecisionLevel
  exact runFrame_trans (bumpFold_run lbd s.lastDecisionLevel s)
    ⟨rfl, rfl, rfl, rfl, rfl, rfl, rfl, rfl⟩

/-- Conflict analysis leaves the schedule, the trail and the queue head alone. -/
theorem analyze_run (s : Solver) (confl : Nat) (r : List Nat × Nat × Nat × Solver)
    (h : analyze s confl = some r) : RunFrame s r.2.2.2 := by
  unfold analyze at h
  split at h
  · simp at h
  · rename_i p a hloop
    dsimp only at h
    have hA := analyzeLoop_run _ _ _ _ _ _ hloop
    have hA' : RunFrame s a.s := hA
    split at h
    · simp at h
    · rename_i out1 s1 hmini
      have hm : RunFrame s s1 := by
        split at hmini
        · rw [Option.map_eq_some'] at hmini
          obtain ⟨r0, hr, e⟩ := hmini
          have g := minimizeDeep_run _ _ _ r0 hr
          simp only [Prod.mk.injEq] at e
          rw [← e.2]
          exact runFrame_trans hA' (runFrame_of g rfl rfl rfl rfl rfl rfl rfl rfl)
        · split at hmini
          · have e := Option.some.inj hmini
            simp only [Prod.mk.injEq] at e
            rw [← e.2]
            exact runFrame_trans hA' ⟨rfl, rfl, rfl, rfl, rfl, rfl, rfl, rfl⟩
          · have e := Option.some.inj hmini
            simp only [Prod.mk.injEq] at e
            rw [← e.2]
            exact runFrame_trans hA' ⟨rfl, rfl, rfl, rfl, rfl, rfl, rfl, rfl⟩
      split at h
      · simp at h
      · rename_i out2 s3 hbin
        have hb := binaryMinimize_run _ p out1 (out2, s3) hbin
        have hb' : RunFrame s s3 :=
          runFrame_trans hm (runFrame_of hb rfl rfl rfl rfl rfl rfl rfl rfl)
        rw [← Option.some.inj h]
        dsimp only
        exact runFrame_trans hb' (runFrame_trans (computeLBD_run s3 _)
          (runFrame_trans (bumpLastDecisionLevel_run _ _)
            ⟨rfl, rfl, rfl, rfl, rfl, rfl, rfl, rfl⟩))

theorem detachClause_run (s : Solver) (cr : Nat) (strict : Bool) :
    RunFrame s (detachClause s cr strict) := by
  unfold detachClause
  dsimp only
  split <;> split <;> split <;> exact ⟨rfl, rfl, rfl, rfl, rfl, rfl, rfl, rfl⟩

theorem attachClause_run (s : Solver) (cr : Nat) : RunFrame s (attachClause s cr) := by
  unfold attachClause
  dsimp only
  split <;> split <;> exact ⟨rfl, rfl, rfl, rfl, rfl, rfl, rfl, rfl⟩

theorem removeClause_run (s : Solver) (cr : Nat) : RunFrame s (removeClause s cr) := by
  unfold removeClause
  have hd := detachClause_run s cr false
  generalize detachClause s cr false = s1 at hd
  dsimp only
  split
  · exact runFrame_trans hd ⟨rfl, rfl, rfl, rfl, rfl, rfl, rfl, rfl⟩
  · exact runFrame_trans hd ⟨rfl, rfl, rfl, rfl, rfl, rfl, rfl, rfl⟩

theorem to_freeze_run (s : Solver) (cr : Nat) : RunFrame s (to_freeze s cr).2 := by
  unfold to_freeze freeze_stats
  exact ⟨rfl, rfl, rfl, rfl, rfl, rfl, rfl, rfl⟩

theorem runFrame_ite {s a b : Solver} (c : Prop) [Decidable c] (ha : RunFrame s a)
    (hb : RunFrame s b) : RunFrame s (if c then a else b) := by
  split
  · exact ha
  · exact hb

theorem freezeLoop_run : ∀ (n i : Nat) (j : Int) (s : Solver) (r : Int × Solver),
    freezeLoop n i j s = some r → RunFrame s r.2
  | 0, _, _, s, r, h => by
    unfold freezeLoop at h
    rw [← Option.some.inj h]
    exact runFrame_refl s
  | n + 1, i, j, s, r, h => by
    unfold freezeLoop at h
    lift_lets at h
    extract_lets cr fc before tf after srcA s2 t srcB s3 srcC s4 fc5 s5 s6a s6b at h
    have h1 : RunFrame s tf.2 := to_freeze_run s cr
    have h2 : RunFrame s s2 := runFrame_trans h1 ⟨rfl, rfl, rfl, rfl, rfl, rfl, rfl, rfl⟩
    have ht : RunFrame s t := runFrame_trans h2 (attachClause_run s2 cr)
    have h3 : RunFrame s s3 :=
      runFrame_ite _ (runFrame_ite _ (runFrame_trans h2 (detachClause_run s2 cr false))
        (runFrame_trans ht ⟨rfl, rfl, rfl, rfl, rfl, rfl, rfl, rfl⟩)) h2
    have h4 : RunFrame s s4 :=
      runFrame_ite _ (runFrame_trans h3 ⟨rfl, rfl, rfl, rfl, rfl, rfl, rfl, rfl⟩) h3
    have h5 : RunFrame s s5 := runFrame_trans h4 ⟨rfl, rfl, rfl, rfl, rfl, rfl, rfl, rfl⟩
    have h6a : RunFrame s s6a := runFrame_trans h5 (removeClause_run s5 cr)
    have h6b : RunFrame s s6b := runFrame_trans h5 ⟨rfl, rfl, rfl, rfl, rfl, rfl, rfl, rfl⟩
    clear_value s6a s6b s5 fc5 s4 s3 t s2 tf
    split at h
    · have g := freezeLoop_run n (i + 1) j _ r h
      exact runFrame_trans h6a (runFrame_of g rfl rfl rfl rfl rfl rfl rfl rfl)
    · split at h
      · simp at h
      · have g := freezeLoop_run n (i + 1) (j + 1) _ r h
        exact runFrame_trans h6b (runFrame_of g rfl rfl rfl rfl rfl rfl rfl rfl)

theorem cleanWatches_run (s : Solver) : RunFrame s (cleanWatches s) := by
  unfold cleanWatches
  exact ⟨rfl, rfl, rfl, rfl, rfl, rfl, rfl, rfl⟩

theorem relocWatches_run : ∀ (idxs : List Nat) (a : Solver × ClauseAllocator),
    RunFrame a.1 (relocWatches idxs a).1
  | [], a => runFrame_refl _
  | idx :: rest, a => by
    unfold relocWatches
    dsimp only
    exact runFrame_of (relocWatches_run rest _) rfl rfl rfl rfl rfl rfl rfl rfl

theorem relocReasons_run : ∀ (ts : List Nat) (a : Solver × ClauseAllocator),
    RunFrame a.1 (relocReasons ts a).1
  | [], a => runFrame_refl _
  | t :: rest, a => by
    unfold relocReasons
    dsimp only
    split
    · exact relocReasons_run rest a
    · split
      · exact runFrame_of (relocReasons_run rest _) rfl rfl rfl rfl rfl rfl rfl rfl
      · exact relocReasons_run rest a

theorem relocAll_run (s : Solver) (dst : ClauseAllocator) : RunFrame s (relocAll s dst).1 := by
  unfold relocAll
  dsimp only
  have h0 := cleanWatches_run s
  have h1 := relocWatches_run (List.range (2 * (cleanWatches s).nVars)) (cleanWatches s, dst)
  generalize relocWatches (List.range (2 * (cleanWatches s).nVars)) (cleanWatches s, dst) = a1
    at h1
  have h2 := relocReasons_run a1.1.trail a1
  generalize relocReasons a1.1.trail a1 = a2 at h2
  exact runFrame_trans h0 (runFrame_trans h1 (runFrame_trans h2
    ⟨rfl, rfl, rfl, rfl, rfl, rfl, rfl, rfl⟩))

theorem garbageCollect_run (s : Solver) : RunFrame s (garbageCollect s) := by
  unfold garbageCollect
  exact runFrame_trans (relocAll_run s ClauseAllocator.empty)
    ⟨rfl, rfl, rfl, rfl, rfl, rfl, rfl, rfl⟩

theorem checkGarbage_run (s : Solver) : RunFrame s (checkGarbage s) := by
  unfold checkGarbage
  split
  · exact garbageCollect_run s
  · exact runFrame_refl s

theorem freeze_analyse_run (j0 : Int) (s t : Solver) (h : freeze_analyse j0 s = some t) :
    RunFrame s t := by
  unfold freeze_analyse at h
  split at h
  · simp at h
  · rename_i j s1 hloop
    have hl := freezeLoop_run _ _ _ _ _ hloop
    split at h
    · simp at h
    · rw [← Option.some.inj h]
      exact runFrame_trans hl (runFrame_of (checkGarbage_run _) rfl rfl rfl rfl rfl rfl rfl rfl)

theorem removeSatisfiedLoop_run : ∀ (cs : List Nat) (s : Solver),
    RunFrame s (removeSatisfiedLoop cs s).2
  | [], s => runFrame_refl s
  | cr :: rest, s => by
    unfold removeSatisfiedLoop
    dsimp only
    split
    · exact runFrame_trans (removeClause_run s cr) (removeSatisfiedLoop_run rest _)
    · exact removeSatisfiedLoop_run rest s

theorem removeSatisfiedLearnts_run (s : Solver) : RunFrame s (removeSatisfiedLearnts s) := by
  unfold removeSatisfiedLearnts
  exact runFrame_trans (removeSatisfiedLoop_run s.learnts s)
    ⟨rfl, rfl, rfl, rfl, rfl, rfl, rfl, rfl⟩

theorem removeSatisfiedClauses_run (s : Solver) : RunFrame s (removeSatisfiedClauses s) := by
  unfold removeSatisfiedClauses
  exact runFrame_trans (removeSatisfiedLoop_run s.clauses s)
    ⟨rfl, rfl, rfl, rfl, rfl, rfl, rfl, rfl⟩

theorem rebuildOrderHeap_run (s : Solver) : RunFrame s (rebuildOrderHeap s) := by
  unfold rebuildOrderHeap
  exact ⟨rfl, rfl, rfl, rfl, rfl, rfl, rfl, rfl⟩

theorem analyzeFinalStep_run (s : Solver) (t : Nat) : RunFrame s (analyzeFinalStep s t) := by
  unfold analyzeFinalStep
  dsimp only
  split
  · split <;> exact ⟨rfl, rfl, rfl, rfl, rfl, rfl, rfl, rfl⟩
  · exact runFrame_refl s

theorem analyzeFinalFold_run : ∀ (ts : List Nat) (s : Solver),
    RunFrame s (ts.foldl analyzeFinalStep s)
  | [], s => runFrame_refl s
  | t :: rest, s => by
    simp only [List.foldl_cons]
    exact runFrame_trans (analyzeFinalStep_run s t) (analyzeFinalFold_run rest _)

theorem analyzeFinal_run (s : Solver) (p : Nat) : RunFrame s (analyzeFinal s p) := by
  unfold analyzeFinal
  dsimp only
  split
  · exact ⟨rfl, rfl, rfl, rfl, rfl, rfl, rfl, rfl⟩
  · have g := analyzeFinalFold_run
      ((s.trail.drop (s.trail_lim.getD 0 0)).reverse)
      { s with conflict := [p], seen := s.seen.set (var p) true }
    exact runFrame_trans (runFrame_of g rfl rfl rfl rfl rfl rfl rfl rfl)
      ⟨rfl, rfl, rfl, rfl, rfl, rfl, rfl, rfl⟩

theorem pickLoop_run : ∀ (fuel : Nat) (next : Option Nat) (s : Solver),
    RunFrame s (pickLoop fuel next s).2
  | 0, _, s => runFrame_refl s
  | fuel + 1, next, s => by
    unfold pickLoop
    dsimp only
    split
    · split
      · exact runFrame_refl s
      · exact runFrame_of (pickLoop_run fuel _ _) rfl rfl rfl rfl rfl rfl rfl rfl
    · exact runFrame_refl s

theorem pickBranchLit_run (s : Solver) : RunFrame s (pickBranchLit s).2 := by
  unfold pickBranchLit
  dsimp only
  have h1 : RunFrame s
      (if (Frac.lt ⟨drandSeed s.random_seed, 2147483647⟩ s.random_var_freq &&
            !(s.order_heap.heap.length == 0)) = true then
          ((some (s.order_heap.heap.getD
              (drandSeed (drandSeed s.random_seed) * s.order_heap.heap.length / 2147483647) 0),
            if (({ s with random_seed := drandSeed (drandSeed s.random_seed) } : Solver).valueVar
                  (s.order_heap.heap.getD
                    (drandSeed (drandSeed s.random_seed) * s.order_heap.heap.length /
                      2147483647) 0) == l_Undef &&
                s.decision.getD (s.order_heap.heap.getD
                  (drandSeed (drandSeed s.random_seed) * s.order_heap.heap.length /
                    2147483647) 0) false) = true then
              { s with random_seed := drandSeed (drandSeed s.random_seed),
                       rnd_decisions := s.rnd_decisions + 1 }
            else { s with random_seed := drandSeed (drandSeed s.random_seed) }) :
            Option Nat × Solver)
        else (none, { s with random_seed := drandSeed s.random_seed })).2 := by
    split
    · dsimp only
      split <;> exact ⟨rfl, rfl, rfl, rfl, rfl, rfl, rfl, rfl⟩
    · exact ⟨rfl, rfl, rfl, rfl, rfl, rfl, rfl, rfl⟩
  generalize (if (Frac.lt ⟨drandSeed s.random_seed, 2147483647⟩ s.random_var_freq &&
            !(s.order_heap.heap.length == 0)) = true then
          ((some (s.order_heap.heap.getD
              (drandSeed (drandSeed s.random_seed) * s.order_heap.heap.length / 2147483647) 0),
            if (({ s with random_seed := drandSeed (drandSeed s.random_seed) } : Solver).valueVar
                  (s.order_heap.heap.getD
                    (drandSeed (drandSeed s.random_seed) * s.order_heap.heap.length /
                      2147483647) 0) == l_Undef &&
                s.decision.getD (s.order_heap.heap.getD
                  (drandSeed (drandSeed s.random_seed) * s.order_heap.heap.length /
                    2147483647) 0) false) = true then
              { s with random_seed := drandSeed (drandSeed s.random_seed),
                       rnd_decisions := s.rnd_decisions + 1 }
            else { s with random_seed := drandSeed (drandSeed s.random_seed) }) :
            Option Nat × Solver)
        else (none, { s with random_seed := drandSeed s.random_seed })) = r1 at h1
  have h2 := pickLoop_run (r1.2.order_heap.heap.length + 1) r1.1 r1.2
  generalize pickLoop (r1.2.order_heap.heap.length + 1) r1.1 r1.2 = r2 at h2
  have h12 := runFrame_trans h1 h2
  split
  · exact h12
  · split
    · exact runFrame_trans h12 ⟨rfl, rfl, rfl, rfl, rfl, rfl, rfl, rfl⟩
    · exact h12

theorem blockRestart_run (s : Solver) (b : Bool) : RunFrame s (blockRestart s b).2 := by
  unfold blockRestart
  split
  · dsimp only
    split <;> exact ⟨rfl, rfl, rfl, rfl, rfl, rfl, rfl, rfl⟩
  · exact runFrame_refl s

theorem detachClause_len (s : Solver) (cr : Nat) (strict : Bool) :
    (detachClause s cr strict).learnts = s.learnts ∧
    (detachClause s cr strict).frozen_clauses = s.frozen_clauses := by
  unfold detachClause
  dsimp only
  split <;> split <;> split <;> exact ⟨rfl, rfl⟩

theorem attachClause_len (s : Solver) (cr : Nat) :
    (attachClause s cr).learnts = s.learnts ∧
    (attachClause s cr).frozen_clauses = s.frozen_clauses := by
  unfold attachClause
  dsimp only
  split <;> split <;> exact ⟨rfl, rfl⟩

theorem removeClause_len (s : Solver) (cr : Nat) :
    (removeClause s cr).learnts = s.learnts ∧
    (removeClause s cr).frozen_clauses = s.frozen_clauses := by
  unfold removeClause
  have hd := detachClause_len s cr false
  generalize detachClause s cr false = s1 at hd
  dsimp only
  split
  · exact hd
  · exact hd

theorem to_freeze_len (s : Solver) (cr : Nat) :
    (to_freeze s cr).2.learnts = s.learnts ∧
    (to_freeze s cr).2.frozen_clauses = s.frozen_clauses := by
  unfold to_freeze freeze_stats
  exact ⟨rfl, rfl⟩

theorem len_ite {p : Solver → Prop} (c : Prop) [Decidable c] {a b : Solver} (ha : p a)
    (hb : p b) : p (if c then a else b) := by
  split
  · exact ha
  · exact hb

/-- With the local `j` of `freeze_analyse` at a position not above `i` and a
`frozen_clauses` at least as long as `learnts`, the loop writes inside both vectors. -/
theorem freezeLoop_some : ∀ (n i : Nat) (j : Int) (s : Solver), 0 ≤ j → j ≤ (i : Int) →
    i + n ≤ s.learnts.length → s.learnts.length ≤ s.frozen_clauses.length →
    ∃ r, freezeLoop n i j s = some r ∧ 0 ≤ r.1
  | 0, _, j, s, hj, _, _, _ => by
    unfold freezeLoop
    exact ⟨(j, s), rfl, hj⟩
  | n + 1, i, j, s, hj, hji, hin, hlen => by
    unfold freezeLoop
    lift_lets
    extract_lets cr fc before tf after srcA s2 t srcB s3 srcC s4 fc5 s5 s6a s6b
    have h1 : tf.2.learnts.length = s.learnts.length ∧
        tf.2.frozen_clauses.length = s.frozen_clauses.length := by
      have := to_freeze_len s cr
      exact ⟨congrArg List.length this.1, congrArg List.length this.2⟩
    have h2 : s2.learnts.length = s.learnts.length ∧
        s2.frozen_clauses.length = s.frozen_clauses.length :=
      ⟨h1.1, (List.length_set _ _ _).trans h1.2⟩
    have ht : t.learnts.length = s.learnts.length ∧
        t.frozen_clauses.length = s.frozen_clauses.length := by
      have := attachClause_len s2 cr
      exact ⟨(congrArg List.length this.1).trans h2.1, (congrArg List.length this.2).trans h2.2⟩
    have hd : (detachClause s2 cr false).learnts.length = s.learnts.length ∧
        (detachClause s2 cr false).frozen_clauses.length = s.frozen_clauses.length := by
      have := detachClause_len s2 cr false
      exact ⟨(congrArg List.length this.1).trans h2.1, (congrArg List.length this.2).trans h2.2⟩
    have h3 : s3.learnts.length = s.learnts.length ∧
        s3.frozen_clauses.length = s.frozen_clauses.length :=
      @len_ite (fun x => x.learnts.length = s.learnts.length ∧
          x.frozen_clauses.length = s.frozen_clauses.length) _ _ _ _
        (@len_ite (fun x => x.learnts.length = s.learnts.length ∧
          x.frozen_clauses.length = s.frozen_clauses.length) _ _ _ _ hd
          ⟨ht.1, (List.length_set _ _ _).trans ht.2⟩) h2
    have h4 : s4.learnts.length = s.learnts.length ∧
        s4.frozen_clauses.length = s.frozen_clauses.length :=
      @len_ite (fun x => x.learnts.length = s.learnts.length ∧
          x.frozen_clauses.length = s.frozen_clauses.length) _ _ _ _
        ⟨h3.1, (List.length_set _ _ _).trans h3.2⟩ h3
    have h5 : s5.learnts.length = s.learnts.length ∧
        s5.frozen_clauses.length = s.frozen_clauses.length :=
      ⟨h4.1, (List.length_set _ _ _).trans h4.2⟩
    have h6a : s6a.learnts.length = s.learnts.length ∧
        s6a.frozen_clauses.length = s.frozen_clauses.length := by
      have := removeClause_len s5 cr
      exact ⟨(congrArg List.length this.1).trans h5.1, (congrArg List.length this.2).trans h5.2⟩
    have h6b : s6b.learnts.length = s.learnts.length ∧
        s6b.frozen_clauses.length = s.frozen_clauses.length := h5
    clear_value s6a s6b s5 fc5 s4 s3 t s2 tf
    split
    · exact freezeLoop_some n (i + 1) j _ hj (by push_cast; omega)
        (by show i + 1 + n ≤ s6a.learnts.length; omega)
        (by show s6a.learnts.length ≤ s6a.frozen_clauses.length; omega)
    · have hno : ¬ (j < 0 ∨ (s6b.learnts.length : Int) ≤ j ∨
          (s6b.frozen_clauses.length : Int) ≤ j) := by
        omega
      rw [if_neg hno]
      exact freezeLoop_some n (i + 1) (j + 1) _ (by omega) (by push_cast; omega)
        (by show i + 1 + n ≤ (s6b.learnts.set j.toNat cr).length
            rw [List.length_set]; omega)
        (by show (s6b.learnts.set j.toNat cr).length ≤
              (s6b.frozen_clauses.set j.toNat _).length
            rw [List.length_set, List.length_set]; omega)

theorem freeze_analyse_some (s : Solver) (hlen : s.learnts.length ≤ s.frozen_clauses.length) :
    ∃ t, freeze_analyse 0 s = some t := by
  obtain ⟨r, hr, hpos⟩ := freezeLoop_some s.learnts.length 0 0 s (le_refl _) (le_refl _)
    (by omega) hlen
  unfold freeze_analyse
  rw [hr]
  dsimp only
  rw [if_neg (by omega)]
  exact ⟨_, rfl⟩

theorem reach_of_run {s t : Solver} (g : RunFrame s t) (h : Reachable s) : Reachable t :=
  Reachable.other h g.trail_eq g.trail_lim_eq g.qhead_eq

theorem recordLearnt_reach (s : Solver) (out : List Nat) (lbd : Nat) (h : Reachable s) :
    Reachable (recordLearnt s out lbd) := by
  unfold recordLearnt
  split
  · exact Reachable.other (Reachable.enqueue _ none h) rfl rfl rfl
  · lift_lets
    extract_lets a cr s1 f srcB srcC s2
    have h1 : Reachable s1 := Reachable.other h rfl rfl rfl
    have hf : Reachable f.2 := reach_of_run (to_freeze_run s1 cr) h1
    have h2 : Reachable s2 := Reachable.other hf rfl rfl rfl
    clear_value s2 f s1
    exact Reachable.enqueue _ _
      (reach_of_run (claBumpActivity_run _ _) (reach_of_run (attachClause_run _ _) h2))

theorem decay_run (s : Solver) : RunFrame s (claDecayActivity (varDecayActivity s)) := by
  unfold claDecayActivity varDecayActivity
  exact ⟨rfl, rfl, rfl, rfl, rfl, rfl, rfl, rfl⟩

theorem searchConflict_reach (blocked : Bool) (s : Solver) (confl : Nat) (step : SearchStep)
    (h : Reachable s) (hs : searchConflict blocked s confl = some step) :
    (∀ st t, step = SearchStep.ret st t → Reachable t) ∧
    (∀ b t, step = SearchStep.next b t → Reachable t) := by
  unfold searchConflict at hs
  lift_lets at hs
  extract_lets s2 b at hs
  have h2 : Reachable s2 := Reachable.other h rfl rfl rfl
  have hb : Reachable b.2 :=
    reach_of_run (blockRestart_run _ blocked) (Reachable.other h2 rfl rfl rfl)
  clear_value b s2
  split at hs
  · rw [← Option.some.inj hs]
    constructor
    · intro st t e
      cases e
      exact h2
    · intro b t e
      cases e
  · split at hs
    · simp at hs
    · rename_i out bt lbd s5 han
      have h5 : Reachable s5 := reach_of_run (analyze_run _ _ _ han) hb
      rw [← Option.some.inj hs]
      constructor
      · intro st t e
        cases e
      · intro b0 t e
        cases e
        exact reach_of_run (decay_run _) (recordLearnt_reach _ out lbd
          (Reachable.cancel bt (Reachable.other h5 rfl rfl rfl)))

theorem assumeLoop_reach : ∀ (ps : List Nat) (s : Solver), Reachable s →
    Reachable (assumeLoop ps s).2
  | [], _, h => h
  | p :: rest, s, h => by
    unfold assumeLoop
    split
    · exact assumeLoop_reach rest _ (Reachable.level h)
    · split
      · exact reach_of_run (analyzeFinal_run s (neg p)) h
      · exact h

theorem searchDecide_reach (blocked : Bool) (s : Solver) (h : Reachable s) :
    (∀ st t, searchDecide blocked s = SearchStep.ret st t → Reachable t) ∧
    (∀ b t, searchDecide blocked s = SearchStep.next b t → Reachable t) := by
  unfold searchDecide
  have ha := assumeLoop_reach (s.assumptions.drop s.decisionLevel) s h
  generalize assumeLoop (s.assumptions.drop s.decisionLevel) s = r at ha
  obtain ⟨o, s4⟩ := r
  cases o with
  | conflict =>
    constructor
    · intro st t e
      cases e
      exact ha
    · intro b t e
      cases e
  | next p =>
    constructor
    · intro st t e
      cases e
    · intro b t e
      cases e
      exact Reachable.enqueue _ _ (Reachable.level ha)
  | done =>
    dsimp only
    have hp := pickBranchLit_run { s4 with decisions := s4.decisions + 1 }
    have hq : Reachable (pickBranchLit { s4 with decisions := s4.decisions + 1 }).2 :=
      reach_of_run hp (Reachable.other ha rfl rfl rfl)
    generalize pickBranchLit { s4 with decisions := s4.decisions + 1 } = q at hq
    obtain ⟨nx, s6⟩ := q
    cases nx with
    | none =>
      constructor
      · intro st t e
        cases e
        exact hq
      · intro b t e
        cases e
    | some next =>
      constructor
      · intro st t e
        cases e
      · intro b t e
        cases e
        exact Reachable.enqueue _ _ (Reachable.level hq)

theorem simplify_reach (s : Solver) (r : Bool × Solver) (h : Reachable s)
    (hs : simplify s = some r) : Reachable r.2 := by
  unfold simplify at hs
  split at hs
  · rw [← Option.some.inj hs]
    exact Reachable.other h rfl rfl rfl
  · split at hs
    · simp at hs
    · rename_i c s1 hp
      rw [← Option.some.inj hs]
      exact Reachable.other (Reachable.propagate h hp) rfl rfl rfl
    · rename_i s1 hp
      have h1 : Reachable s1 := Reachable.propagate h hp
      split at hs
      · rw [← Option.some.inj hs]
        exact h1
      · rw [← Option.some.inj hs]
        have h2 := reach_of_run (removeSatisfiedLearnts_run s1) h1
        have h3 : Reachable (if (removeSatisfiedLearnts s1).remove_satisfied then
            removeSatisfiedClauses (removeSatisfiedLearnts s1)
            else removeSatisfiedLearnts s1) := by
          split
          · exact reach_of_run (removeSatisfiedClauses_run _) h2
          · exact h2
        exact Reachable.other
          (reach_of_run (rebuildOrderHeap_run _) (reach_of_run (checkGarbage_run _) h3))
          rfl rfl rfl

theorem reduceStep_reach (j0 : Int) (s t : Solver) (h : Reachable s)
    (hs : reduceStep j0 s = some t) : Reachable t := by
  unfold reduceStep at hs
  split at hs
  · split at hs
    · simp at hs
    · split at hs
      · simp at hs
      · rename_i s1 hr
        rw [← Option.some.inj hs]
        unfold reduceDB at hr
        exact Reachable.other
          (reach_of_run (freeze_analyse_run j0 _ s1 hr) (Reachable.other h rfl rfl rfl))
          rfl rfl rfl
  · rw [← Option.some.inj hs]
    exact h

theorem searchNoConflict_reach (j0 : Int) (blocked : Bool) (s : Solver) (step : SearchStep)
    (h : Reachable s) (hs : searchNoConflict j0 blocked s = some step) :
    (∀ st t, step = SearchStep.ret st t → Reachable t) ∧
    (∀ b t, step = SearchStep.next b t → Reachable t) := by
  unfold searchNoConflict at hs
  split at hs
  · rw [← Option.some.inj hs]
    constructor
    · intro st t e
      cases e
      exact Reachable.cancel 0 (Reachable.other h rfl rfl rfl)
    · intro b t e
      cases e
  · have hsimp : ∀ r, (if (s.decisionLevel == 0) = true then simplify s else some (true, s))
        = some r → Reachable r.2 := by
      intro r hr
      split at hr
      · exact simplify_reach s r h hr
      · rw [← Option.some.inj hr]
        exact h
    split at hs
    · simp at hs
    · rename_i s2 e2
      rw [← Option.some.inj hs]
      constructor
      · intro st t e
        cases e
        exact hsimp _ e2
      · intro b t e
        cases e
    · rename_i s2 e2
      have h2 : Reachable s2 := hsimp _ e2
      split at hs
      · simp at hs
      · rename_i s3 e3
        rw [← Option.some.inj hs]
        exact searchDecide_reach blocked s3 (reduceStep_reach j0 s2 s3 h2 e3)

theorem searchRound_reach (j0 : Int) (blocked : Bool) (s : Solver) (step : SearchStep)
    (h : Reachable s) (hs : searchRound j0 blocked s = some step) :
    (∀ st t, step = SearchStep.ret st t → Reachable t) ∧
    (∀ b t, step = SearchStep.next b t → Reachable t) := by
  unfold searchRound at hs
  split at hs
  · simp at hs
  · rename_i confl s1 hp
    exact searchConflict_reach blocked s1 confl step (Reachable.propagate h hp) hs
  · rename_i s1 hp
    exact searchNoConflict_reach j0 blocked s1 step (Reachable.propagate h hp) hs

theorem searchLoop_reach (j0 : Int) : ∀ (fuel : Nat) (blocked : Bool) (s : Solver)
    (r : lbool × Solver), Reachable s → searchLoop j0 fuel blocked s = some r → Reachable r.2
  | 0, _, _, _, _, hs => by simp [searchLoop] at hs
  | fuel + 1, blocked, s, r, h, hs => by
    unfold searchLoop at hs
    split at hs
    · simp at hs
    · rename_i st t e
      rw [← Option.some.inj hs]
      exact (searchRound_reach j0 blocked s _ h e).1 st t rfl
    · rename_i b t e
      exact searchLoop_reach j0 fuel b t r ((searchRound_reach j0 blocked s _ h e).2 b t rfl) hs

theorem search_reach (j0 : Int) (fuel : Nat) (s : Solver) (r : lbool × Solver)
    (h : Reachable s) (hs : search j0 fuel s = some r) : Reachable r.2 := by
  unfold search at hs
  exact searchLoop_reach j0 fuel false { s with starts := s.starts + 1 } r
    (Reachable.other h rfl rfl rfl) hs

theorem psm_fold_le (s : Solver) : ∀ (lits : List Nat) (a : Int), a ≤ 0 →
    lits.foldl
      (fun (psm : Int) p =>
        if (if s.polarity.getD (var p) false then 1 else 0) ==
            toInt (s.assigns.getD (var p) l_Undef)
        then psm - 1 else psm) a ≤ 0
  | [], a, h => h
  | p :: rest, a, h => by
    simp only [List.foldl_cons]
    apply psm_fold_le s rest
    split <;> omega

/-- The value of `psm_calc` is never above 0: the loop only decrements. -/
theorem psm_calc_nonpos (s : Solver) (cr : Nat) : psm_calc s cr ≤ 0 := by
  unfold psm_calc
  exact psm_fold_le s _ 0 (le_refl _)

/-- The test `psm <= 3` of `to_freeze` holds for every clause. -/
theorem to_freeze_true (s : Solver) (cr : Nat) : (to_freeze s cr).1 = true := by
  unfold to_freeze
  have := psm_calc_nonpos s cr
  simp only [decide_eq_true_eq]
  omega

theorem to_freeze_watches (s : Solver) (cr : Nat) :
    (to_freeze s cr).2.watches = s.watches ∧ (to_freeze s cr).2.watchesBin = s.watchesBin ∧
    (to_freeze s cr).2.frozen_clauses = s.frozen_clauses ∧
    (to_freeze s cr).2.learnts = s.learnts ∧ (to_freeze s cr).2.ca = s.ca := by
  unfold to_freeze freeze_stats
  exact ⟨rfl, rfl, rfl, rfl, rfl⟩

theorem claBumpActivity_watches (s : Solver) (cr : Nat) :
    (claBumpActivity s cr).watches = s.watches ∧
    (claBumpActivity s cr).watchesBin = s.watchesBin ∧
    (claBumpActivity s cr).frozen_clauses = s.frozen_clauses := by
  unfold claBumpActivity
  dsimp only
  split <;> exact ⟨rfl, rfl, rfl⟩

theorem attachClause_frozen (s : Solver) (cr : Nat) :
    (attachClause s cr).frozen_clauses = s.frozen_clauses ∧
    (attachClause s cr).learnts = s.learnts := by
  unfold attachClause
  dsimp only
  split <;> split <;> exact ⟨rfl, rfl⟩

/-- Whether a clause is attached depends on its literals and on the two watch indices. -/
theorem attached_congr {s t : Solver} {cr : Nat} (h : attached s cr)
    (hl : (t.ca.get cr).lits = (s.ca.get cr).lits) (hw : t.watches = s.watches)
    (hb : t.watchesBin = s.watchesBin) : attached t cr := by
  unfold attached Clause.size Clause.lit at h ⊢
  rw [hl, hw, hb]
  exact h

/-- The lines `attachClause(cr); claBumpActivity(ca[cr]);` leave the clause `cr` attached and
change the activities only. -/
theorem attach_bump_spec (s : Solver) (cr : Nat)
    (h0 : neg ((s.ca.get cr).lit 0) < s.watches.occs.length ∧
          neg ((s.ca.get cr).lit 0) < s.watchesBin.occs.length)
    (h1 : neg ((s.ca.get cr).lit 1) < s.watches.occs.length ∧
          neg ((s.ca.get cr).lit 1) < s.watchesBin.occs.length) :
    attached (claBumpActivity (attachClause s cr) cr) cr ∧
    (claBumpActivity (attachClause s cr) cr).learnts = s.learnts ∧
    (claBumpActivity (attachClause s cr) cr).frozen_clauses = s.frozen_clauses ∧
    ∀ x, ((claBumpActivity (attachClause s cr) cr).ca.get x).lits = (s.ca.get x).lits ∧
      ((claBumpActivity (attachClause s cr) cr).ca.get x).learnt = (s.ca.get x).learnt ∧
      ((claBumpActivity (attachClause s cr) cr).ca.get x).lbd = (s.ca.get x).lbd := by
  obtain ⟨ha, hca, _⟩ := attachClause_attached s cr h0 h1
  obtain ⟨w1, w2, w3⟩ := claBumpActivity_watches (attachClause s cr) cr
  obtain ⟨k1, k2⟩ := claBumpActivity_keep (fun c => (c.lits, c.learnt, c.lbd))
    (fun _ _ => rfl) (attachClause s cr) cr
  obtain ⟨f1, f2⟩ := attachClause_frozen s cr
  have hk : ∀ x, ((claBumpActivity (attachClause s cr) cr).ca.get x).lits = (s.ca.get x).lits ∧
      ((claBumpActivity (attachClause s cr) cr).ca.get x).learnt = (s.ca.get x).learnt ∧
      ((claBumpActivity (attachClause s cr) cr).ca.get x).lbd = (s.ca.get x).lbd := by
    intro x
    have := k2 x
    rw [hca] at this
    simp only [Prod.mk.injEq] at this
    exact this
  refine ⟨attached_congr ha ?_ w1 w2, k1.trans f2, w3.trans f1, hk⟩
  rw [(hk cr).1, hca]

/-- The clause that `alloc` and `setLBD` store at the end of the arena. -/
theorem get_alloc_lbd (ca : ClauseAllocator) (qs : List Nat) (b : Bool) (k : Nat) :
    ((ca.alloc qs b).2.modify (ca.alloc qs b).1 (fun c => { c with lbd := k })).get
      ca.mem.length =
      { lits := qs, learnt := b, lbd := k, activity := ⟨0, 1⟩, mark := 0, canBeDel := true,
        reloced := false, relocation := 0 } := by
  simp [ClauseAllocator.alloc, ClauseAllocator.get, ClauseAllocator.modify,
    List.getD_eq_getElem?_getD]

/-- A clause allocated as learnt with the LBD `k`, then attached and bumped: it is stored
with these literals, flagged learnt, with the LBD `k`, and it is attached. -/
theorem store_spec (s s2 : Solver) (learn : List Nat) (k : Nat)
    (hca : s2.ca = (s.ca.alloc learn true).2.modify s.ca.mem.length
      (fun c => { c with lbd := k }))
    (hw : s2.watches = s.watches) (hb : s2.watchesBin = s.watchesBin)
    (h0 : neg (learn.getD 0 0) < s.watches.occs.length ∧
          neg (learn.getD 0 0) < s.watchesBin.occs.length)
    (h1 : neg (learn.getD 1 0) < s.watches.occs.length ∧
          neg (learn.getD 1 0) < s.watchesBin.occs.length) :
    attached (claBumpActivity (attachClause s2 s.ca.mem.length) s.ca.mem.length)
      s.ca.mem.length ∧
    (claBumpActivity (attachClause s2 s.ca.mem.length) s.ca.mem.length).learnts = s2.learnts ∧
    (claBumpActivity (attachClause s2 s.ca.mem.length) s.ca.mem.length).frozen_clauses =
      s2.frozen_clauses ∧
    ((claBumpActivity (attachClause s2 s.ca.mem.length) s.ca.mem.length).ca.get
      s.ca.mem.length).lits = learn ∧
    ((claBumpActivity (attachClause s2 s.ca.mem.length) s.ca.mem.length).ca.get
      s.ca.mem.length).learnt = true ∧
    ((claBumpActivity (attachClause s2 s.ca.mem.length) s.ca.mem.length).ca.get
      s.ca.mem.length).lbd = k := by
  have hg : s2.ca.get s.ca.mem.length =
      { lits := learn, learnt := true, lbd := k, activity := ⟨0, 1⟩, mark := 0,
        canBeDel := true, reloced := false, relocation := 0 } := by
    rw [hca]
    exact get_alloc_lbd s.ca learn true k
  obtain ⟨a1, a2, a3, a4⟩ := attach_bump_spec s2 s.ca.mem.length
    (by rw [hg, hw, hb]; exact h0) (by rw [hg, hw, hb]; exact h1)
  have hx := a4 s.ca.mem.length
  rw [hg] at hx
  exact ⟨a1, a2, a3, hx.1, hx.2.1, hx.2.2⟩

theorem locked_congr {s t : Solver} (ha : t.assigns = s.assigns) (hv : t.vardata = s.vardata)
    (x : Nat) (hl : (t.ca.get x).lits = (s.ca.get x).lits) : locked t x = locked s x := by
  unfold locked value reason
  rw [ha, hv, hl]

theorem keepFrame_refl (s : Solver) : KeepFrame s s :=
  ⟨rfl, rfl, fun _ => rfl, fun _ _ => rfl, fun _ _ h => h, fun _ _ h => h⟩

theorem keepFrame_of_fields {s t : Solver} (a : t.assigns = s.assigns)
    (v : t.vardata = s.vardata) (c : t.ca = s.ca) (w : t.watches = s.watches)
    (b : t.watchesBin = s.watchesBin) : KeepFrame s t :=
  ⟨a, v, fun _ => by rw [c], fun _ _ => by rw [c], fun _ _ h => by rw [w]; exact h,
   fun _ _ h => by rw [b]; exact h⟩

theorem keepFrame_locked {s t : Solver} (g : KeepFrame s t) (x : Nat) :
    locked t x = locked s x :=
  locked_congr g.assigns_eq g.vardata_eq x (g.lits_eq x)

theorem keepFrame_trans {s t u : Solver} (g1 : KeepFrame s t) (g2 : KeepFrame t u) :
    KeepFrame s u :=
  ⟨g2.assigns_eq.trans g1.assigns_eq, g2.vardata_eq.trans g1.vardata_eq,
   fun x => (g2.lits_eq x).trans (g1.lits_eq x),
   fun x h => (g2.mark_eq x ((keepFrame_locked g1 x).trans h)).trans (g1.mark_eq x h),
   fun l w h => g2.watches_mono l w (g1.watches_mono l w h),
   fun l w h => g2.bin_mono l w (g1.bin_mono l w h)⟩

theorem keepFrame_of {s t u : Solver} (g : KeepFrame t u) (a : t.assigns = s.assigns)
    (v : t.vardata = s.vardata) (c : t.ca = s.ca) (w : t.watches = s.watches)
    (b : t.watchesBin = s.watchesBin) : KeepFrame s u :=
  keepFrame_trans (keepFrame_of_fields a v c w b) g

theorem keepFrame_ite {s a b : Solver} (c : Prop) [Decidable c] (ha : KeepFrame s a)
    (hb : KeepFrame s b) : KeepFrame s (if c then a else b) := by
  split
  · exact ha
  · exact hb

theorem smudge_get (w : OccLists) (idx l : Nat) : (w.smudge idx).get l = w.get l := by
  unfold OccLists.smudge OccLists.get
  split <;> rfl

theorem to_freeze_keep (s : Solver) (cr : Nat) : KeepFrame s (to_freeze s cr).2 := by
  unfold to_freeze freeze_stats
  exact ⟨rfl, rfl, fun _ => rfl, fun _ _ => rfl, fun _ _ h => h, fun _ _ h => h⟩

theorem detachClause_lazy_fields (s : Solver) (cr : Nat) :
    (detachClause s cr false).assigns = s.assigns ∧
    (detachClause s cr false).vardata = s.vardata ∧
    (detachClause s cr false).ca = s.ca ∧
    (∀ l, (detachClause s cr false).watches.get l = s.watches.get l) ∧
    (∀ l, (detachClause s cr false).watchesBin.get l = s.watchesBin.get l) := by
  unfold detachClause
  dsimp only
  split <;> split <;>
    first
    | exact ⟨rfl, rfl, rfl, fun _ => rfl, fun l => by
        simp only [Bool.false_eq_true, if_false, smudge_get]⟩
    | exact ⟨rfl, rfl, rfl, fun l => by
        simp only [Bool.false_eq_true, if_false, smudge_get], fun _ => rfl⟩

theorem detachClause_lazy_keep (s : Solver) (cr : Nat) :
    KeepFrame s (detachClause s cr false) := by
  obtain ⟨a, v, c, w, b⟩ := detachClause_lazy_fields s cr
  exact ⟨a, v, fun x => by rw [c], fun x _ => by rw [c], fun l x h => by rw [w]; exact h,
    fun l x h => by rw [b]; exact h⟩

theorem attachClause_keep (s : Solver) (cr : Nat) : KeepFrame s (attachClause s cr) := by
  unfold attachClause
  dsimp only
  split <;> split <;>
    first
    | exact ⟨rfl, rfl, fun _ => rfl, fun _ _ => rfl, fun _ _ h => h,
        fun l w h => push_get_mono _ _ _ _ _ (push_get_mono _ _ _ _ _ h)⟩
    | exact ⟨rfl, rfl, fun _ => rfl, fun _ _ => rfl,
        fun l w h => push_get_mono _ _ _ _ _ (push_get_mono _ _ _ _ _ h), fun _ _ h => h⟩

theorem modify_get_ne (ca : ClauseAllocator) (cr x : Nat) (f : Clause → Clause)
    (h : cr ≠ x) : (ca.modify cr f).get x = ca.get x := by
  unfold ClauseAllocator.modify ClauseAllocator.get
  dsimp only
  rw [getD_set_ne' _ _ _ h]

/-- The call `removeClause(cr)` for a clause that is not locked leaves the reasons alone and
marks no other clause. -/
theorem removeClause_unlocked_keep (s : Solver) (cr : Nat) (h : locked s cr = false) :
    KeepFrame s (removeClause s cr) := by
  obtain ⟨a, v, c, w, b⟩ := detachClause_lazy_fields s cr
  have hl : locked (detachClause s cr false) cr = false := by
    rw [locked_congr a v cr (by rw [c])]
    exact h
  unfold removeClause
  dsimp only
  rw [hl]
  simp only [Bool.false_eq_true, if_false]
  refine ⟨a, v, ?_, ?_, fun l x hx => by rw [w]; exact hx, fun l x hx => by rw [b]; exact hx⟩
  · intro x
    exact (modify_keep (fun c => c.lits) (detachClause s cr false).ca cr
      (fun c => { c with mark := 1 }) (fun _ => rfl) x).trans (by rw [c])
  · intro x hx
    have hne : cr ≠ x := by
      intro e
      rw [e] at h
      rw [h] at hx
      exact absurd hx (by decide)
    exact (congrArg Clause.mark (modify_get_ne (detachClause s cr false).ca cr x
      (fun c => { c with mark := 1 }) hne)).trans (by rw [c])

theorem setCanBeDel_keep (s : Solver) (cr : Nat) :
    KeepFrame s { s with ca := s.ca.modify cr (fun c => { c with canBeDel := true }) } :=
  ⟨rfl, rfl,
   fun x => modify_keep (fun c => c.lits) s.ca cr (fun c => { c with canBeDel := true })
     (fun _ => rfl) x,
   fun x _ => modify_keep (fun c => c.mark) s.ca cr (fun c => { c with canBeDel := true })
     (fun _ => rfl) x,
   fun _ _ hx => hx, fun _ _ hx => hx⟩

theorem freezeLoop_keep : ∀ (n i : Nat) (j : Int) (s : Solver) (r : Int × Solver),
    freezeLoop n i j s = some r → KeepFrame s r.2
  | 0, _, _, s, r, h => by
    unfold freezeLoop at h
    rw [← Option.some.inj h]
    exact keepFrame_refl s
  | n + 1, i, j, s, r, h => by
    unfold freezeLoop at h
    lift_lets at h
    extract_lets cr fc before tf after srcA s2 t srcB s3 srcC s4 fc5 s5 s6a s6b at h
    have h1 : KeepFrame s tf.2 := to_freeze_keep s cr
    have h2 : KeepFrame s s2 := keepFrame_trans h1 (keepFrame_of_fields rfl rfl rfl rfl rfl)
    have ht : KeepFrame s t := keepFrame_trans h2 (attachClause_keep s2 cr)
    have h3 : KeepFrame s s3 :=
      keepFrame_ite _ (keepFrame_ite _ (keepFrame_trans h2 (detachClause_lazy_keep s2 cr))
        (keepFrame_trans ht (keepFrame_of_fields rfl rfl rfl rfl rfl))) h2
    have h4 : KeepFrame s s4 := keepFrame_ite _ (keepFrame_trans h3 (keepFrame_of_fields rfl rfl rfl rfl rfl)) h3
    have h5 : KeepFrame s s5 := keepFrame_trans h4 (keepFrame_of_fields rfl rfl rfl rfl rfl)
    have h6a : locked s5 cr = false → KeepFrame s s6a := fun hl =>
      keepFrame_trans h5 (removeClause_unlocked_keep s5 cr hl)
    have h6b : KeepFrame s s6b := keepFrame_trans h5 (setCanBeDel_keep s5 cr)
    clear_value s6a s6b s5 fc5 s4 s3 t s2 tf
    split at h
    · rename_i hcond
      have hl : locked s5 cr = false := by
        simp only [Bool.and_eq_true, Bool.not_eq_true', decide_eq_true_eq] at hcond
        exact hcond.2
      have g := freezeLoop_keep n (i + 1) j _ r h
      exact keepFrame_trans (h6a hl) (keepFrame_of g rfl rfl rfl rfl rfl)
    · split at h
      · simp at h
      · have g := freezeLoop_keep n (i + 1) (j + 1) _ r h
        exact keepFrame_trans h6b (keepFrame_of g rfl rfl rfl rfl rfl)

/-- The call `removeClause(cr)` for a locked clause clears the reason of the variable of the
first literal of the clause and marks the clause as removed. -/
theorem removeClause_locked (s : Solver) (cr : Nat) (hcr : cr < s.ca.mem.length)
    (hv : var ((s.ca.get cr).lit 0) < s.vardata.length) (h : locked s cr = true) :
    ((removeClause s cr).ca.get cr).mark = 1 ∧
    (removeClause s cr).reason (var ((s.ca.get cr).lit 0)) = none := by
  obtain ⟨a, v, c, w, b⟩ := detachClause_lazy_fields s cr
  have hl : locked (detachClause s cr false) cr = true := by
    rw [locked_congr a v cr (by rw [c])]
    exact h
  unfold removeClause
  dsimp only
  rw [hl]
  simp only [if_true]
  constructor
  · show (((detachClause s cr false).ca.modify cr (fun c => { c with mark := 1 })).get cr).mark
      = 1
    unfold ClauseAllocator.modify ClauseAllocator.get
    dsimp only
    rw [getD_set_self' _ _ _ _ (by rw [c]; exact hcr)]
  · unfold reason
    dsimp only
    rw [c, v, getD_set_self' _ _ _ _ hv]

theorem ext_refl (p : ClauseAllocator × ClauseAllocator) : Ext p p := fun _ h => ⟨h, rfl⟩

theorem ext_trans {p q r : ClauseAllocator × ClauseAllocator} (h1 : Ext p q) (h2 : Ext q r) :
    Ext p r := fun x h =>
  ⟨(h2 x (h1 x h).1).1, ((h2 x (h1 x h).1).2).trans (h1 x h).2⟩

theorem fwd_init (ca0 : ClauseAllocator) (h : ∀ x, (ca0.get x).reloced = false) :
    Fwd ca0 (ca0, ClauseAllocator.empty) :=
  ⟨rfl, fun _ => ⟨rfl, rfl, rfl⟩,
   fun x hx => by rw [h x] at hx; exact absurd hx (by decide),
   fun x hx => by rw [h x] at hx; exact absurd hx (by decide)⟩

theorem get_modify_self (ca : ClauseAllocator) (cr : Nat) (f : Clause → Clause)
    (h : cr < ca.mem.length) : (ca.modify cr f).get cr = f (ca.get cr) := by
  unfold ClauseAllocator.modify ClauseAllocator.get
  dsimp only
  rw [getD_set_self' _ _ _ _ h]

theorem get_alloc_old (ca : ClauseAllocator) (qs : List Nat) (b : Bool) (x : Nat)
    (h : x < ca.mem.length) : (ca.alloc qs b).2.get x = ca.get x := by
  unfold ClauseAllocator.alloc ClauseAllocator.get
  dsimp only
  rw [getD_append_left' _ _ _ h]

theorem alloc_length (ca : ClauseAllocator) (qs : List Nat) (b : Bool) :
    (ca.alloc qs b).2.mem.length = ca.mem.length + 1 := by
  simp [ClauseAllocator.alloc]

/-- One call `ca.reloc(cr, to)` for a handle of the arena. -/
theorem relocOne_spec (ca0 : ClauseAllocator) (p : ClauseAllocator × ClauseAllocator)
    (x : Nat) (hF : Fwd ca0 p) (hx : x < ca0.mem.length) :
    Fwd ca0 (relocOne p.1 p.2 x).2 ∧ Ext p (relocOne p.1 p.2 x).2 ∧
    ((relocOne p.1 p.2 x).2.1.get x).reloced = true ∧
    ((relocOne p.1 p.2 x).2.1.get x).relocation = (relocOne p.1 p.2 x).1 := by
  unfold relocOne
  dsimp only
  by_cases hr : (p.1.get x).reloced = true
  · rw [if_pos hr]
    exact ⟨hF, ext_refl p, hr, rfl⟩
  · rw [if_neg hr]
    have hxp : x < p.1.mem.length := by rw [hF.len]; exact hx
    have hnew : ((p.2.alloc (p.1.get x).lits (p.1.get x).learnt).2.modify
        (p.2.alloc (p.1.get x).lits (p.1.get x).learnt).1
        (fun n =>
          if n.learnt then { n with mark := (p.1.get x).mark, activity := (p.1.get x).activity,
                                    lbd := (p.1.get x).lbd, canBeDel := (p.1.get x).canBeDel }
          else { n with mark := (p.1.get x).mark })).get p.2.mem.length =
        (if (p.1.get x).learnt then
          ({ lits := (p.1.get x).lits, learnt := (p.1.get x).learnt, lbd := (p.1.get x).lbd,
             activity := (p.1.get x).activity, mark := (p.1.get x).mark,
             canBeDel := (p.1.get x).canBeDel, reloced := false, relocation := 0 } : Clause)
         else
          { lits := (p.1.get x).lits, learnt := (p.1.get x).learnt, lbd := 0,
            activity := ⟨0, 1⟩, mark := (p.1.get x).mark, canBeDel := true, reloced := false,
            relocation := 0 }) := by
      have h1 : (p.2.alloc (p.1.get x).lits (p.1.get x).learnt).1 = p.2.mem.length := rfl
      rw [h1, get_modify_self _ _ _ (by rw [alloc_length]; omega), get_alloc]
    have hold : ∀ y, y < p.2.mem.length →
        ((p.2.alloc (p.1.get x).lits (p.1.get x).learnt).2.modify
          (p.2.alloc (p.1.get x).lits (p.1.get x).learnt).1
          (fun n =>
            if n.learnt then { n with mark := (p.1.get x).mark, activity := (p.1.get x).activity,
                                      lbd := (p.1.get x).lbd, canBeDel := (p.1.get x).canBeDel }
            else { n with mark := (p.1.get x).mark })).get y = p.2.get y := by
      intro y hy
      have h1 : (p.2.alloc (p.1.get x).lits (p.1.get x).learnt).1 = p.2.mem.length := rfl
      rw [h1, modify_get_ne _ _ _ _ (by omega), get_alloc_old _ _ _ _ hy]
    have hself : (p.1.modify x (fun o => { o with reloced := true, relocation :=
        (p.2.alloc (p.1.get x).lits (p.1.get x).learnt).1 })).get x =
        { p.1.get x with reloced := true, relocation := p.2.mem.length } :=
      get_modify_self _ _ _ hxp
    have hother : ∀ y, y ≠ x → (p.1.modify x (fun o => { o with reloced := true, relocation :=
        (p.2.alloc (p.1.get x).lits (p.1.get x).learnt).1 })).get y = p.1.get y :=
      fun y hy => modify_get_ne _ _ _ _ (Ne.symm hy)
    refine ⟨⟨?_, ?_, ?_, ?_⟩, ?_, ?_, ?_⟩
    · show (p.1.modify x _).mem.length = _
      rw [ca_modify_len]
      exact hF.len
    · intro y
      by_cases hy : y = x
      · subst hy
        show ((p.1.modify y _).get y).lits = _ ∧ ((p.1.modify y _).get y).learnt = _ ∧
          ((p.1.modify y _).get y).lbd = _
        rw [hself]
        exact hF.same y
      · show ((p.1.modify x _).get y).lits = _ ∧ ((p.1.modify x _).get y).learnt = _ ∧
          ((p.1.modify x _).get y).lbd = _
        rw [hother y hy]
        exact hF.same y
    · intro y hy
      show ((p.1.modify x _).get y).relocation < (ClauseAllocator.modify _ _ _).mem.length
      rw [ca_modify_len, alloc_length]
      by_cases hyx : y = x
      · subst hyx
        rw [hself]
        exact Nat.lt_succ_self _
      · rw [hother y hyx]
        have hy2 : (p.1.get y).reloced = true := by
          have : ((p.1.modify x _).get y).reloced = true := hy
          rw [hother y hyx] at this
          exact this
        exact Nat.lt_succ_of_lt (hF.bound y hy2)
    · intro y hy
      by_cases hyx : y = x
      · subst hyx
        show (ClauseAllocator.get _ ((p.1.modify y _).get y).relocation).lits = _ ∧
          (ClauseAllocator.get _ ((p.1.modify y _).get y).relocation).learnt = _ ∧
          (ClauseAllocator.get _ ((p.1.modify y _).get y).relocation).lbd = _
        rw [hself]
        show (ClauseAllocator.get _ p.2.mem.length).lits = _ ∧
          (ClauseAllocator.get _ p.2.mem.length).learnt = _ ∧
          (ClauseAllocator.get _ p.2.mem.length).lbd = _
        rw [hnew]
        obtain ⟨s1, s2, s3⟩ := hF.same y
        by_cases hl : (p.1.get y).learnt = true
        · rw [if_pos hl, if_pos (s2 ▸ hl)]
          exact ⟨s1, s2, s3⟩
        · rw [if_neg hl, if_neg (s2 ▸ hl)]
          exact ⟨s1, s2, rfl⟩
      · have hy2 : (p.1.get y).reloced = true := by
          have : ((p.1.modify x _).get y).reloced = true := hy
          rw [hother y hyx] at this
          exact this
        show (ClauseAllocator.get _ ((p.1.modify x _).get y).relocation).lits = _ ∧
          (ClauseAllocator.get _ ((p.1.modify x _).get y).relocation).learnt = _ ∧
          (ClauseAllocator.get _ ((p.1.modify x _).get y).relocation).lbd = _
        rw [hother y hyx, hold _ (hF.bound y hy2)]
        exact hF.fwd y hy2
    · intro y hy
      have hyx : y ≠ x := by
        intro e
        rw [e] at hy
        exact hr hy
      show ((p.1.modify x _).get y).reloced = true ∧
        ((p.1.modify x _).get y).relocation = (p.1.get y).relocation
      rw [hother y hyx]
      exact ⟨hy, rfl⟩
    · show ((p.1.modify x _).get x).reloced = true
      rw [hself]
    · show ((p.1.modify x _).get x).relocation = _
      rw [hself]
      rfl

/-- The loop `for (i ...) ca.reloc(cs[i], to)` over a vector of handles. -/
theorem relocList_spec (ca0 : ClauseAllocator) : ∀ (xs : List Nat)
    (p : ClauseAllocator × ClauseAllocator), Fwd ca0 p → (∀ x ∈ xs, x < ca0.mem.length) →
    Fwd ca0 (relocList xs p).2 ∧ Ext p (relocList xs p).2 ∧
    (relocList xs p).1 = xs.map (fun x => ((relocList xs p).2.1.get x).relocation) ∧
    ∀ x ∈ xs, ((relocList xs p).2.1.get x).reloced = true
  | [], p, hF, _ => ⟨hF, ext_refl p, rfl, fun _ h => by simp at h⟩
  | x :: rest, p, hF, hr => by
    obtain ⟨f1, e1, r1, r2⟩ := relocOne_spec ca0 p x hF (hr x (List.mem_cons_self _ _))
    obtain ⟨f2, e2, m2, a2⟩ := relocList_spec ca0 rest (relocOne p.1 p.2 x).2 f1
      (fun y hy => hr y (List.mem_cons_of_mem _ hy))
    have hdef : relocList (x :: rest) p =
        ((relocOne p.1 p.2 x).1 :: (relocList rest (relocOne p.1 p.2 x).2).1,
          (relocList rest (relocOne p.1 p.2 x).2).2) := rfl
    rw [hdef]
    refine ⟨f2, ext_trans e1 e2, ?_, ?_⟩
    · show _ :: _ = _
      rw [List.map_cons, ← m2, (e2 x r1).2, r2]
    · intro y hy
      rcases List.mem_cons.mp hy with rfl | hy
      · exact (e2 y r1).1
      · exact a2 y hy

/-- The loop `for (j ...) ca.reloc(ws[j].cref, to)` over a watch list. -/
theorem relocWatchers_spec (ca0 : ClauseAllocator) : ∀ (ws : List Watcher)
    (p : ClauseAllocator × ClauseAllocator), Fwd ca0 p →
    (∀ w ∈ ws, w.cref < ca0.mem.length) →
    Fwd ca0 (relocWatchers ws p).2 ∧ Ext p (relocWatchers ws p).2 ∧
    (relocWatchers ws p).1 =
      ws.map (fun w => { w with cref := ((relocWatchers ws p).2.1.get w.cref).relocation }) ∧
    ∀ w ∈ ws, ((relocWatchers ws p).2.1.get w.cref).reloced = true
  | [], p, hF, _ => ⟨hF, ext_refl p, rfl, fun _ h => by simp at h⟩
  | w :: rest, p, hF, hr => by
    obtain ⟨f1, e1, r1, r2⟩ := relocOne_spec ca0 p w.cref hF (hr w (List.mem_cons_self _ _))
    obtain ⟨f2, e2, m2, a2⟩ := relocWatchers_spec ca0 rest (relocOne p.1 p.2 w.cref).2 f1
      (fun y hy => hr y (List.mem_cons_of_mem _ hy))
    have hdef : relocWatchers (w :: rest) p =
        ({ w with cref := (relocOne p.1 p.2 w.cref).1 } ::
            (relocWatchers rest (relocOne p.1 p.2 w.cref).2).1,
          (relocWatchers rest (relocOne p.1 p.2 w.cref).2).2) := rfl
    rw [hdef]
    refine ⟨f2, ext_trans e1 e2, ?_, ?_⟩
    · show _ :: _ = _
      rw [List.map_cons, ← m2, (e2 w.cref r1).2, r2]
    · intro y hy
      rcases List.mem_cons.mp hy with rfl | hy
      · exact (e2 y.cref r1).1
      · exact a2 y hy

theorem setList_get_self (w : OccLists) (idx : Nat) (xs : List Watcher)
    (h : idx < w.occs.length ∨ xs = []) : (w.setList idx xs).get idx = xs := by
  unfold OccLists.setList OccLists.get
  dsimp only
  by_cases hi : idx < w.occs.length
  · rw [getD_set_self' _ _ _ _ hi]
  · rcases h with h | h
    · exact absurd h hi
    · rw [List.set_eq_of_length_le (by omega), List.getD_eq_default _ _ (by omega), h]

theorem setList_get_ne (w : OccLists) (idx l : Nat) (xs : List Watcher) (h : idx ≠ l) :
    (w.setList idx xs).get l = w.get l := by
  unfold OccLists.setList OccLists.get
  dsimp only
  rw [getD_set_ne' _ _ _ h]

theorem get_nil_of_ge (w : OccLists) (idx : Nat) (h : ¬ idx < w.occs.length) :
    w.get idx = [] := by
  unfold OccLists.get
  rw [List.getD_eq_default _ _ (by omega)]

theorem map_congr_ext {ws : List Watcher} {p q : ClauseAllocator × ClauseAllocator}
    (he : Ext p q) (h : ∀ w ∈ ws, (p.1.get w.cref).reloced = true) :
    ws.map (fun w => { w with cref := (p.1.get w.cref).relocation }) =
    ws.map (fun w => { w with cref := (q.1.get w.cref).relocation }) := by
  apply List.map_congr_left
  intro w hw
  rw [(he w.cref (h w hw)).2]

theorem relocWatchers_nil_fst (p : ClauseAllocator × ClauseAllocator) :
    (relocWatchers [] p).1 = [] := rfl

/-- One round of the loop of `relocAll` over the literals: the two watch lists of `idx`. -/
theorem relocWatches_step (ca0 : ClauseAllocator) (a : Solver × ClauseAllocator) (idx : Nat)
    (hF : Fwd ca0 (a.1.ca, a.2))
    (hw : ∀ w ∈ a.1.watches.get idx, w.cref < ca0.mem.length)
    (hb : ∀ w ∈ a.1.watchesBin.get idx, w.cref < ca0.mem.length) :
    ∃ a' : Solver × ClauseAllocator, relocWatches [idx] a = a' ∧
      (∀ rest, relocWatches (idx :: rest) a = relocWatches rest a') ∧
      Fwd ca0 (a'.1.ca, a'.2) ∧ Ext (a.1.ca, a.2) (a'.1.ca, a'.2) ∧
      a'.1.watches.get idx =
        (a.1.watches.get idx).map (fun w => { w with cref := (a'.1.ca.get w.cref).relocation }) ∧
      (∀ w ∈ a.1.watches.get idx, (a'.1.ca.get w.cref).reloced = true) ∧
      a'.1.watchesBin.get idx =
        (a.1.watchesBin.get idx).map
          (fun w => { w with cref := (a'.1.ca.get w.cref).relocation }) ∧
      (∀ w ∈ a.1.watchesBin.get idx, (a'.1.ca.get w.cref).reloced = true) ∧
      (∀ l, l ≠ idx → a'.1.watches.get l = a.1.watches.get l ∧
        a'.1.watchesBin.get l = a.1.watchesBin.get l) ∧
      a'.1.learnts = a.1.learnts ∧ a'.1.clauses = a.1.clauses ∧ a'.1.trail = a.1.trail ∧
      a'.1.vardata = a.1.vardata ∧ a'.1.assigns = a.1.assigns := by
  obtain ⟨f1, e1, m1, r1⟩ := relocWatchers_spec ca0 (a.1.watches.get idx) (a.1.ca, a.2) hF hw
  obtain ⟨f2, e2, m2, r2⟩ := relocWatchers_spec ca0 (a.1.watchesBin.get idx)
    (relocWatchers (a.1.watches.get idx) (a.1.ca, a.2)).2 f1 hb
  have hnil1 : idx < a.1.watches.occs.length ∨
      (relocWatchers (a.1.watches.get idx) (a.1.ca, a.2)).1 = [] := by
    by_cases h : idx < a.1.watches.occs.length
    · exact Or.inl h
    · right
      rw [get_nil_of_ge _ _ h]
      rfl
  have hnil2 : idx < a.1.watchesBin.occs.length ∨
      (relocWatchers (a.1.watchesBin.get idx)
        (relocWatchers (a.1.watches.get idx) (a.1.ca, a.2)).2).1 = [] := by
    by_cases h : idx < a.1.watchesBin.occs.length
    · exact Or.inl h
    · right
      rw [get_nil_of_ge _ _ h]
      rfl
  refine ⟨_, rfl, fun rest => rfl, f2, ext_trans e1 e2, ?_, ?_, ?_, r2, ?_, rfl, rfl, rfl,
    rfl, rfl⟩
  · show (a.1.watches.setList idx _).get idx = _
    rw [setList_get_self _ _ _ hnil1, m1]
    exact map_congr_ext e2 r1
  · intro w hw'
    exact (e2 w.cref (r1 w hw')).1
  · show (a.1.watchesBin.setList idx _).get idx = _
    rw [setList_get_self _ _ _ hnil2]
    exact m2
  · intro l hl
    exact ⟨setList_get_ne _ _ _ _ (Ne.symm hl), setList_get_ne _ _ _ _ (Ne.symm hl)⟩

/-- The loop of `relocAll` over the watch lists of the literals `idxs`. -/
theorem relocWatches_spec (ca0 : ClauseAllocator) : ∀ (idxs : List Nat)
    (a : Solver × ClauseAllocator), idxs.Nodup → Fwd ca0 (a.1.ca, a.2) →
    (∀ idx ∈ idxs, ∀ w ∈ a.1.watches.get idx, w.cref < ca0.mem.length) →
    (∀ idx ∈ idxs, ∀ w ∈ a.1.watchesBin.get idx, w.cref < ca0.mem.length) →
    Fwd ca0 ((relocWatches idxs a).1.ca, (relocWatches idxs a).2) ∧
    Ext (a.1.ca, a.2) ((relocWatches idxs a).1.ca, (relocWatches idxs a).2) ∧
    (∀ idx ∈ idxs,
      (relocWatches idxs a).1.watches.get idx =
        (a.1.watches.get idx).map
          (fun w => { w with cref := ((relocWatches idxs a).1.ca.get w.cref).relocation }) ∧
      (∀ w ∈ a.1.watches.get idx, ((relocWatches idxs a).1.ca.get w.cref).reloced = true) ∧
      (relocWatches idxs a).1.watchesBin.get idx =
        (a.1.watchesBin.get idx).map
          (fun w => { w with cref := ((relocWatches idxs a).1.ca.get w.cref).relocation }) ∧
      (∀ w ∈ a.1.watchesBin.get idx,
        ((relocWatches idxs a).1.ca.get w.cref).reloced = true)) ∧
    (∀ l, l ∉ idxs → (relocWatches idxs a).1.watches.get l = a.1.watches.get l ∧
      (relocWatches idxs a).1.watchesBin.get l = a.1.watchesBin.get l) ∧
    (relocWatches idxs a).1.learnts = a.1.learnts ∧
    (relocWatches idxs a).1.clauses = a.1.clauses ∧
    (relocWatches idxs a).1.trail = a.1.trail ∧
    (relocWatches idxs a).1.vardata = a.1.vardata ∧
    (relocWatches idxs a).1.assigns = a.1.assigns
  | [], a, _, hF, _, _ =>
    ⟨hF, ext_refl _, fun _ h => by simp at h, fun _ _ => ⟨rfl, rfl⟩, rfl, rfl, rfl, rfl, rfl⟩
  | idx :: rest, a, hnd, hF, hw, hb => by
    obtain ⟨a', _, hstep, f1, e1, w1, r1, b1, rb1, o1, k1, k2, k3, k4, k5⟩ :=
      relocWatches_step ca0 a idx hF (hw idx (List.mem_cons_self _ _))
        (hb idx (List.mem_cons_self _ _))
    have hnd' := (List.nodup_cons.mp hnd)
    have hw' : ∀ i ∈ rest, ∀ w ∈ a'.1.watches.get i, w.cref < ca0.mem.length := by
      intro i hi w hwi
      have hne : i ≠ idx := fun e => hnd'.1 (e ▸ hi)
      rw [(o1 i hne).1] at hwi
      exact hw i (List.mem_cons_of_mem _ hi) w hwi
    have hb' : ∀ i ∈ rest, ∀ w ∈ a'.1.watchesBin.get i, w.cref < ca0.mem.length := by
      intro i hi w hwi
      have hne : i ≠ idx := fun e => hnd'.1 (e ▸ hi)
      rw [(o1 i hne).2] at hwi
      exact hb i (List.mem_cons_of_mem _ hi) w hwi
    obtain ⟨f2, e2, m2, o2, j1, j2, j3, j4, j5⟩ :=
      relocWatches_spec ca0 rest a' hnd'.2 f1 hw' hb'
    rw [hstep rest]
    refine ⟨f2, ext_trans e1 e2, ?_, ?_, j1.trans k1, j2.trans k2, j3.trans k3, j4.trans k4,
      j5.trans k5⟩
    · intro i hi
      rcases List.mem_cons.mp hi with rfl | hi
      · obtain ⟨oa, ob⟩ := o2 i hnd'.1
        refine ⟨?_, fun w hw0 => (e2 w.cref (r1 w hw0)).1, ?_,
          fun w hw0 => (e2 w.cref (rb1 w hw0)).1⟩
        · rw [oa, w1]
          exact map_congr_ext e2 r1
        · rw [ob, b1]
          exact map_congr_ext e2 rb1
      · have hne : i ≠ idx := fun e => hnd'.1 (e ▸ hi)
        obtain ⟨ma, mb, mc, md⟩ := m2 i hi
        rw [(o1 i hne).1] at ma mb
        rw [(o1 i hne).2] at mc md
        exact ⟨ma, mb, mc, md⟩
    · intro l hl
      have hl1 : l ≠ idx := fun e => hl (e ▸ List.mem_cons_self _ _)
      have hl2 : l ∉ rest := fun e => hl (List.mem_cons_of_mem _ e)
      obtain ⟨oa, ob⟩ := o2 l hl2
      exact ⟨oa.trans (o1 l hl1).1, ob.trans (o1 l hl1).2⟩

theorem reason_some_lt (s : Solver) (v r : Nat) (h : s.reason v = some r) :
    v < s.vardata.length := by
  by_contra hv
  unfold reason at h
  rw [List.getD_eq_default _ _ (by omega)] at h
  have hd : (default : VarData).reason = none := rfl
  rw [hd] at h
  exact Option.noConfusion h

/-- One round of the loop of `relocAll` over the trail: the reason of one variable. -/
theorem relocReasons_step (ca0 : ClauseAllocator) (a : Solver × ClauseAllocator) (t0 : Nat)
    (hF : Fwd ca0 (a.1.ca, a.2))
    (hr : ∀ r, a.1.reason (var t0) = some r → r < ca0.mem.length) :
    ∃ a' : Solver × ClauseAllocator,
      (∀ rest, relocReasons (t0 :: rest) a = relocReasons rest a') ∧
      Fwd ca0 (a'.1.ca, a'.2) ∧ Ext (a.1.ca, a.2) (a'.1.ca, a'.2) ∧
      (∀ v, v ≠ var t0 → a'.1.vardata.getD v default = a.1.vardata.getD v default) ∧
      (∀ r, a.1.reason (var t0) = some r →
        ((a.1.ca.get r).reloced = true ∨ locked a.1 r = true) →
        a'.1.reason (var t0) = some (a'.1.ca.get r).relocation ∧
        (a'.1.ca.get r).reloced = true) ∧
      a'.1.assigns = a.1.assigns ∧ a'.1.learnts = a.1.learnts ∧
      a'.1.clauses = a.1.clauses ∧ a'.1.trail = a.1.trail ∧
      a'.1.watches = a.1.watches ∧ a'.1.watchesBin = a.1.watchesBin := by
  cases hre : a.1.reason (var t0) with
  | none =>
    refine ⟨a, ?_, hF, ext_refl _, fun _ _ => rfl, ?_, rfl, rfl, rfl, rfl, rfl, rfl⟩
    · intro rest
      show (match a.1.reason (var t0) with
        | none => relocReasons rest a
        | some r => _) = _
      rw [hre]
    · intro r h
      exact absurd h (by simp)
  | some r0 =>
    by_cases hc : ((a.1.ca.get r0).reloced || locked a.1 r0) = true
    · obtain ⟨f1, e1, q1, q2⟩ := relocOne_spec ca0 (a.1.ca, a.2) r0 hF (hr r0 hre)
      have hv := reason_some_lt a.1 (var t0) r0 hre
      refine ⟨({ a.1 with
          vardata := a.1.vardata.set (var t0)
            { (a.1.vardata.getD (var t0) default) with
              reason := some (relocOne a.1.ca a.2 r0).1 },
          ca := (relocOne a.1.ca a.2 r0).2.1 }, (relocOne a.1.ca a.2 r0).2.2),
        ?_, f1, e1, ?_, ?_, rfl, rfl, rfl, rfl, rfl, rfl⟩
      · intro rest
        show (match a.1.reason (var t0) with
          | none => relocReasons rest a
          | some r => if ((a.1.ca.get r).reloced || locked a.1 r) = true then _ else _) = _
        rw [hre]
        dsimp only
        rw [if_pos hc]
      · intro v hv0
        show (a.1.vardata.set (var t0) _).getD v default = _
        rw [getD_set_ne' _ _ _ (Ne.symm hv0)]
      · intro r h _
        have hrr : r0 = r := Option.some.inj h
        subst hrr
        refine ⟨?_, q1⟩
        show ((a.1.vardata.set (var t0) _).getD (var t0) default).reason = _
        rw [getD_set_self' _ _ _ _ hv]
        show some _ = some _
        rw [q2]
    · refine ⟨a, ?_, hF, ext_refl _, fun _ _ => rfl, ?_, rfl, rfl, rfl, rfl, rfl, rfl⟩
      · intro rest
        show (match a.1.reason (var t0) with
          | none => relocReasons rest a
          | some r => if ((a.1.ca.get r).reloced || locked a.1 r) = true then _ else _) = _
        rw [hre]
        dsimp only
        rw [if_neg hc]
      · intro r h hp
        have hrr : r0 = r := Option.some.inj h
        subst hrr
        exfalso
        apply hc
        rcases hp with hp | hp
        · rw [hp]; rfl
        · rw [hp]; simp

theorem fwd_lits {ca0 : ClauseAllocator} {p q : ClauseAllocator × ClauseAllocator}
    (hp : Fwd ca0 p) (hq : Fwd ca0 q) (x : Nat) : (q.1.get x).lits = (p.1.get x).lits :=
  (hq.same x).1.trans (hp.same x).1.symm

/-- The loop of `relocAll` over the reasons of the trail variables: the reason of a trail
variable is forwarded when its clause is already relocated or is locked. -/
theorem relocReasons_spec (ca0 : ClauseAllocator) : ∀ (ts : List Nat)
    (a : Solver × ClauseAllocator), (ts.map var).Nodup → Fwd ca0 (a.1.ca, a.2) →
    (∀ t ∈ ts, ∀ r, a.1.reason (var t) = some r → r < ca0.mem.length) →
    Fwd ca0 ((relocReasons ts a).1.ca, (relocReasons ts a).2) ∧
    Ext (a.1.ca, a.2) ((relocReasons ts a).1.ca, (relocReasons ts a).2) ∧
    (∀ t ∈ ts, ∀ r, a.1.reason (var t) = some r →
      ((a.1.ca.get r).reloced = true ∨ locked a.1 r = true) →
      (relocReasons ts a).1.reason (var t) =
        some ((relocReasons ts a).1.ca.get r).relocation ∧
      ((relocReasons ts a).1.ca.get r).reloced = true) ∧
    (∀ v, v ∉ ts.map var →
      (relocReasons ts a).1.vardata.getD v default = a.1.vardata.getD v default) ∧
    (relocReasons ts a).1.assigns = a.1.assigns ∧
    (relocReasons ts a).1.learnts = a.1.learnts ∧
    (relocReasons ts a).1.clauses = a.1.clauses ∧
    (relocReasons ts a).1.trail = a.1.trail ∧
    (relocReasons ts a).1.watches = a.1.watches ∧
    (relocReasons ts a).1.watchesBin = a.1.watchesBin
  | [], a, _, hF, _ =>
    ⟨hF, ext_refl _, fun _ h => by simp at h, fun _ _ => rfl, rfl, rfl, rfl, rfl, rfl, rfl⟩
  | t0 :: rest, a, hnd, hF, hr => by
    obtain ⟨a', hstep, f1, e1, v1, p1, k1, k2, k3, k4, k5, k6⟩ :=
      relocReasons_step ca0 a t0 hF (hr t0 (List.mem_cons_self _ _))
    have hnd' : var t0 ∉ rest.map var ∧ (rest.map var).Nodup := by
      simpa [List.map_cons, List.nodup_cons] using hnd
    have hne : ∀ t ∈ rest, var t ≠ var t0 := fun t ht e =>
      hnd'.1 (e ▸ List.mem_map_of_mem var ht)
    have hreason : ∀ t ∈ rest, a'.1.reason (var t) = a.1.reason (var t) := by
      intro t ht
      unfold reason
      rw [v1 _ (hne t ht)]
    have hr' : ∀ t ∈ rest, ∀ r, a'.1.reason (var t) = some r → r < ca0.mem.length := by
      intro t ht r h
      rw [hreason t ht] at h
      exact hr t (List.mem_cons_of_mem _ ht) r h
    obtain ⟨f2, e2, p2, v2, j1, j2, j3, j4, j5, j6⟩ :=
      relocReasons_spec ca0 rest a' hnd'.2 f1 hr'
    rw [hstep rest]
    refine ⟨f2, ext_trans e1 e2, ?_, ?_, j1.trans k1, j2.trans k2, j3.trans k3, j4.trans k4,
      j5.trans k5, j6.trans k6⟩
    · intro t ht r h hP
      rcases List.mem_cons.mp ht with rfl | ht
      · obtain ⟨q1, q2⟩ := p1 r h hP
        refine ⟨?_, (e2 r q2).1⟩
        unfold reason at q1 ⊢
        rw [v2 _ hnd'.1, q1, (e2 r q2).2]
      · have h' : a'.1.reason (var t) = some r := by rw [hreason t ht]; exact h
        apply p2 t ht r h'
        rcases hP with hP | hP
        · exact Or.inl (e1 r hP).1
        · have hl := hP
          unfold locked at hl
          rw [List.any_eq_true] at hl
          obtain ⟨l, hlm, hlc⟩ := hl
          simp only [Bool.and_eq_true, beq_iff_eq] at hlc
          by_cases hw : var l = var t0
          · left
            have hr0 : a.1.reason (var t0) = some r := by
              rw [← hw]
              exact hlc.2
            exact (p1 r hr0 (Or.inr hP)).2
          · right
            unfold locked
            rw [List.any_eq_true]
            refine ⟨l, ?_, ?_⟩
            · rw [fwd_lits hF f1 r]
              exact hlm
            · simp only [Bool.and_eq_true, beq_iff_eq]
              refine ⟨?_, ?_⟩
              · have h1 := hlc.1
                unfold value at h1 ⊢
                rw [k1]
                exact h1
              · have h2 := hlc.2
                unfold reason at h2 ⊢
                rw [v1 _ hw]
                exact h2
    · intro v hv
      have hv1 : v ≠ var t0 := fun e => hv (by
        rw [List.map_cons, e]
        exact List.mem_cons_self _ _)
      have hv2 : v ∉ rest.map var := fun e => hv (by
        rw [List.map_cons]
        exact List.mem_cons_of_mem _ e)
      rw [v2 v hv2, v1 v hv1]

theorem map_nat_congr_ext {xs : List Nat} {p q : ClauseAllocator × ClauseAllocator}
    (he : Ext p q) (h : ∀ x ∈ xs, (p.1.get x).reloced = true) :
    xs.map (fun x => (p.1.get x).relocation) = xs.map (fun x => (q.1.get x).relocation) := by
  apply List.map_congr_left
  intro x hx
  rw [(he x (h x hx)).2]

/-- The part of `relocAll` after the watch lists: reasons, learnt clauses, original
clauses. -/
theorem relocTail_spec (ca0 : ClauseAllocator) (a1 : Solver × ClauseAllocator)
    (hF : Fwd ca0 (a1.1.ca, a1.2)) (hnd : (a1.1.trail.map var).Nodup)
    (hr : ∀ t ∈ a1.1.trail, ∀ r, a1.1.reason (var t) = some r → r < ca0.mem.length)
    (hl : ∀ x ∈ a1.1.learnts, x < ca0.mem.length)
    (hc : ∀ x ∈ a1.1.clauses, x < ca0.mem.length) :
    Fwd ca0 (relocList (relocReasons a1.1.trail a1).1.clauses
      (relocList (relocReasons a1.1.trail a1).1.learnts
        ((relocReasons a1.1.trail a1).1.ca, (relocReasons a1.1.trail a1).2)).2).2 ∧
    Ext (a1.1.ca, a1.2) (relocList (relocReasons a1.1.trail a1).1.clauses
      (relocList (relocReasons a1.1.trail a1).1.learnts
        ((relocReasons a1.1.trail a1).1.ca, (relocReasons a1.1.trail a1).2)).2).2 ∧
    (relocList (relocReasons a1.1.trail a1).1.learnts
        ((relocReasons a1.1.trail a1).1.ca, (relocReasons a1.1.trail a1).2)).1 =
      a1.1.learnts.map (fun x => ((relocList (relocReasons a1.1.trail a1).1.clauses
        (relocList (relocReasons a1.1.trail a1).1.learnts
          ((relocReasons a1.1.trail a1).1.ca, (relocReasons a1.1.trail a1).2)).2).2.1.get
            x).relocation) ∧
    (relocList (relocReasons a1.1.trail a1).1.clauses
      (relocList (relocReasons a1.1.trail a1).1.learnts
        ((relocReasons a1.1.trail a1).1.ca, (relocReasons a1.1.trail a1).2)).2).1 =
      a1.1.clauses.map (fun x => ((relocList (relocReasons a1.1.trail a1).1.clauses
        (relocList (relocReasons a1.1.trail a1).1.learnts
          ((relocReasons a1.1.trail a1).1.ca, (relocReasons a1.1.trail a1).2)).2).2.1.get
            x).relocation) ∧
    (∀ x, x ∈ a1.1.learnts ∨ x ∈ a1.1.clauses →
      ((relocList (relocReasons a1.1.trail a1).1.clauses
        (relocList (relocReasons a1.1.trail a1).1.learnts
          ((relocReasons a1.1.trail a1).1.ca, (relocReasons a1.1.trail a1).2)).2).2.1.get
            x).reloced = true) ∧
    (∀ t ∈ a1.1.trail, ∀ r, a1.1.reason (var t) = some r →
      ((a1.1.ca.get r).reloced = true ∨ locked a1.1 r = true) →
      (relocReasons a1.1.trail a1).1.reason (var t) =
        some ((relocList (relocReasons a1.1.trail a1).1.clauses
          (relocList (relocReasons a1.1.trail a1).1.learnts
            ((relocReasons a1.1.trail a1).1.ca, (relocReasons a1.1.trail a1).2)).2).2.1.get
              r).relocation ∧
      ((relocList (relocReasons a1.1.trail a1).1.clauses
        (relocList (relocReasons a1.1.trail a1).1.learnts
          ((relocReasons a1.1.trail a1).1.ca, (relocReasons a1.1.trail a1).2)).2).2.1.get
            r).reloced = true) ∧
    (relocReasons a1.1.trail a1).1.watches = a1.1.watches ∧
    (relocReasons a1.1.trail a1).1.watchesBin = a1.1.watchesBin := by
  obtain ⟨f2, e2, p2, _, _, j2, j3, _, j5, j6⟩ := relocReasons_spec ca0 a1.1.trail a1 hnd hF hr
  generalize relocReasons a1.1.trail a1 = a2 at f2 e2 p2 j2 j3 j5 j6 ⊢
  obtain ⟨f3, e3, m3, r3⟩ := relocList_spec ca0 a2.1.learnts (a2.1.ca, a2.2) f2
    (by rw [j2]; exact hl)
  generalize relocList a2.1.learnts (a2.1.ca, a2.2) = l at f3 e3 m3 r3 ⊢
  obtain ⟨f4, e4, m4, r4⟩ := relocList_spec ca0 a2.1.clauses l.2 f3 (by rw [j3]; exact hc)
  generalize relocList a2.1.clauses l.2 = c at f4 e4 m4 r4 ⊢
  refine ⟨f4, ext_trans e2 (ext_trans e3 e4), ?_, ?_, ?_, ?_, j5, j6⟩
  · rw [m3, ← j2]
    exact map_nat_congr_ext e4 r3
  · rw [m4, ← j3]
  · intro x hx
    rcases hx with hx | hx
    · exact (e4 x (r3 x (by rw [j2]; exact hx))).1
    · exact r4 x (by rw [j3]; exact hx)
  · intro t ht r h hP
    obtain ⟨q1, q2⟩ := p2 t ht r h hP
    have q3 := ext_trans e3 e4 r q2
    exact ⟨by rw [q1, q3.2], q3.1⟩

theorem relocAll_stages (s : Solver) :
    relocAll s ClauseAllocator.empty =
      ({ (gcReasons s).1 with learnts := (gcLearnts s).1, clauses := (gcClauses s).1,
                               ca := (gcClauses s).2.1 }, (gcClauses s).2.2) := by
  unfold relocAll gcClauses gcLearnts gcReasons gcWatched
  rfl

theorem gcMap_eq (s : Solver) (x : Nat) :
    gcMap s x = ((gcClauses s).2.1.get x).relocation := by
  unfold gcMap
  rw [relocAll_stages]

theorem gc_fields (s : Solver) :
    (garbageCollect s).learnts = (gcLearnts s).1 ∧
    (garbageCollect s).clauses = (gcClauses s).1 ∧
    (garbageCollect s).ca = (gcClauses s).2.2 ∧
    (garbageCollect s).watches = (gcReasons s).1.watches ∧
    (garbageCollect s).watchesBin = (gcReasons s).1.watchesBin ∧
    (garbageCollect s).vardata = (gcReasons s).1.vardata := by
  unfold garbageCollect
  rw [relocAll_stages]
  exact ⟨rfl, rfl, rfl, rfl, rfl, rfl⟩

theorem get_of_mem_all (ca : ClauseAllocator) (P : Clause → Prop) (hd : P default)
    (h : ∀ c ∈ ca.mem, P c) (x : Nat) : P (ca.get x) := by
  unfold ClauseAllocator.get
  by_cases hx : x < ca.mem.length
  · rw [List.getD_eq_getElem _ _ hx]
    exact h _ (List.getElem_mem hx)
  · rw [List.getD_eq_default _ _ (by omega)]
    exact hd

/-- The whole of `relocAll`, from a state whose clauses carry no forwarding mark, whose
trail names each variable once, and whose handles lie in the arena. -/
theorem relocAll_spec (s : Solver) (hfresh : ∀ c ∈ s.ca.mem, c.reloced = false)
    (hnd : (s.trail.map var).Nodup)
    (hw : ∀ ws ∈ (cleanWatches s).watches.occs, ∀ w ∈ ws, w.cref < s.ca.mem.length)
    (hb : ∀ ws ∈ (cleanWatches s).watchesBin.occs, ∀ w ∈ ws, w.cref < s.ca.mem.length)
    (hl : ∀ x ∈ s.learnts, x < s.ca.mem.length) (hc : ∀ x ∈ s.clauses, x < s.ca.mem.length)
    (hr : ∀ t ∈ s.trail, ∀ r, s.reason (var t) = some r → r < s.ca.mem.length) :
    Fwd s.ca (gcClauses s).2 ∧
    (gcLearnts s).1 = s.learnts.map (gcMap s) ∧
    (gcClauses s).1 = s.clauses.map (gcMap s) ∧
    (∀ idx, idx < 2 * s.nVars →
      (gcReasons s).1.watches.get idx =
        ((cleanWatches s).watches.get idx).map (fun w => { w with cref := gcMap s w.cref }) ∧
      (gcReasons s).1.watchesBin.get idx =
        ((cleanWatches s).watchesBin.get idx).map
          (fun w => { w with cref := gcMap s w.cref })) ∧
    (∀ t ∈ s.trail, ∀ r, s.reason (var t) = some r →
      (locked s r = true ∨ watchedAfterClean s r) →
      (gcReasons s).1.reason (var t) = some (gcMap s r)) ∧
    (∀ h, (h ∈ s.learnts ∨ h ∈ s.clauses ∨ watchedAfterClean s h ∨
        (locked s h = true ∧ ∃ t ∈ s.trail, s.reason (var t) = some h)) →
      ((gcClauses s).2.1.get h).reloced = true) := by
  have hfresh' : ∀ x, (s.ca.get x).reloced = false :=
    get_of_mem_all s.ca (fun c => c.reloced = false) rfl hfresh
  have F0 : Fwd s.ca ((cleanWatches s).ca, ClauseAllocator.empty) := fwd_init s.ca hfresh'
  have hw' : ∀ idx ∈ List.range (2 * (cleanWatches s).nVars),
      ∀ w ∈ (cleanWatches s).watches.get idx, w.cref < s.ca.mem.length :=
    fun idx _ w hwi => occs_get_mem _ idx _ hw w hwi
  have hb' : ∀ idx ∈ List.range (2 * (cleanWatches s).nVars),
      ∀ w ∈ (cleanWatches s).watchesBin.get idx, w.cref < s.ca.mem.length :=
    fun idx _ w hwi => occs_get_mem _ idx _ hb w hwi
  obtain ⟨f1, e1, m1, _, k1, k2, k3, k4, k5⟩ := relocWatches_spec s.ca
    (List.range (2 * (cleanWatches s).nVars)) (cleanWatches s, ClauseAllocator.empty)
    (List.nodup_range _) F0 hw' hb'
  have hk1 : (gcWatched s).1.learnts = s.learnts := k1
  have hk2 : (gcWatched s).1.clauses = s.clauses := k2
  have hk3 : (gcWatched s).1.trail = s.trail := k3
  have hk4 : (gcWatched s).1.vardata = s.vardata := k4
  have hk5 : (gcWatched s).1.assigns = s.assigns := k5
  have f1' : Fwd s.ca ((gcWatched s).1.ca, (gcWatched s).2) := f1
  have hreason : ∀ v, (gcWatched s).1.reason v = s.reason v := by
    intro v
    unfold reason
    rw [hk4]
  have hlits : ∀ x, ((gcWatched s).1.ca.get x).lits = (s.ca.get x).lits :=
    fun x => (f1'.same x).1
  have hlocked : ∀ r, locked (gcWatched s).1 r = locked s r :=
    fun r => locked_congr hk5 hk4 r (hlits r)
  obtain ⟨f4, e4, m3, m4, r34, p2, j5, j6⟩ := relocTail_spec s.ca (gcWatched s) f1'
    (by rw [hk3]; exact hnd)
    (by
      intro t ht r h
      rw [hk3] at ht
      rw [hreason] at h
      exact hr t ht r h)
    (by rw [hk1]; exact hl) (by rw [hk2]; exact hc)
  have f4' : Fwd s.ca (gcClauses s).2 := f4
  have e4' : Ext ((gcWatched s).1.ca, (gcWatched s).2) (gcClauses s).2 := e4
  have hwatched : ∀ h, watchedAfterClean s h → ((gcWatched s).1.ca.get h).reloced = true := by
    rintro h ⟨idx, hidx, w, hwm, rfl⟩
    have hmem : idx ∈ List.range (2 * (cleanWatches s).nVars) := List.mem_range.mpr hidx
    obtain ⟨_, ma, _, mb⟩ := m1 idx hmem
    rcases hwm with hwm | hwm
    · exact ma w hwm
    · exact mb w hwm
  refine ⟨f4', ?_, ?_, ?_, ?_, ?_⟩
  · have : (gcLearnts s).1 = (gcWatched s).1.learnts.map
        (fun x => ((gcClauses s).2.1.get x).relocation) := m3
    rw [this, hk1]
    exact List.map_congr_left (fun x _ => (gcMap_eq s x).symm)
  · have : (gcClauses s).1 = (gcWatched s).1.clauses.map
        (fun x => ((gcClauses s).2.1.get x).relocation) := m4
    rw [this, hk2]
    exact List.map_congr_left (fun x _ => (gcMap_eq s x).symm)
  · intro idx hidx
    have hmem : idx ∈ List.range (2 * (cleanWatches s).nVars) := List.mem_range.mpr hidx
    obtain ⟨wa, ma, wb, mb⟩ := m1 idx hmem
    have j5' : (gcReasons s).1.watches = (gcWatched s).1.watches := j5
    have j6' : (gcReasons s).1.watchesBin = (gcWatched s).1.watchesBin := j6
    constructor
    · rw [j5']
      exact wa.trans (map_congr_ext e4' ma)
    · rw [j6']
      exact wb.trans (map_congr_ext e4' mb)
  · intro t ht r h hP
    have hP' : ((gcWatched s).1.ca.get r).reloced = true ∨ locked (gcWatched s).1 r = true := by
      rcases hP with hP | hP
      · right
        rw [hlocked]
        exact hP
      · exact Or.inl (hwatched r hP)
    exact (p2 t (by rw [hk3]; exact ht) r (by rw [hreason]; exact h) hP').1
  · intro h hh
    rcases hh with hh | hh | hh | ⟨hlk, t, ht, hre⟩
    · exact r34 h (Or.inl (by rw [hk1]; exact hh))
    · exact r34 h (Or.inr (by rw [hk2]; exact hh))
    · exact (e4' h (hwatched h hh)).1
    · exact (p2 t (by rw [hk3]; exact ht) h (by rw [hreason]; exact hre)
        (Or.inr (by rw [hlocked]; exact hlk))).2

theorem var_eq_cases {a b : Nat} (h : var a = var b) : a = b ∨ a = neg b := by
  unfold var at h; unfold neg; split <;> omega

theorem value_congr {s t : Solver} (h : t.assigns = s.assigns) (q : Nat) : t.value q = s.value q := by
  unfold value; rw [h]

theorem level_congr {s t : Solver} (h : t.vardata = s.vardata) (x : Nat) : t.level x = s.level x := by
  unfold level; rw [h]

theorem reason_congr {s t : Solver} (h : t.vardata = s.vardata) (x : Nat) :
    t.reason x = s.reason x := by
  unfold reason; rw [h]

theorem value_defined_lt {s : Solver} {q : Nat} (h : s.value q ≠ l_Undef) :
    var q < s.assigns.length := by
  by_contra hn
  apply h
  unfold value
  rw [List.getD_eq_default _ _ (by omega)]
  cases sign q <;> rfl

theorem value_defined_assigns {s : Solver} {q : Nat} (h : s.value q ≠ l_Undef) :
    s.assigns.getD (var q) l_Undef ≠ l_Undef := fun h1 => h (xor_undef.2 h1)

theorem value_same_var {s : Solver} {a b : Nat} (h : var a = var b) (ha : s.value a = l_True)
    (hb : s.value b = l_True) : a = b := by
  rcases var_eq_cases h with h1 | h1
  · exact h1
  · rw [h1, value_neg_true] at ha
    rw [ha] at hb
    cases hb

theorem true_mem_trail {s : Solver} (hwf : TrailWF s) (ht : TrailOK s) {l : Nat}
    (h : s.value l = l_True) : l ∈ s.trail := by
  have hd : s.value l ≠ l_Undef := by rw [h]; simp
  have hx := hwf.assigned (var l) (value_defined_lt hd) (value_defined_assigns hd)
  obtain ⟨t, htm, htv⟩ := List.mem_map.1 hx
  have := value_same_var htv (ht.1 t htm).2 h
  rw [← this]; exact htm

theorem false_mem_trail {s : Solver} (hwf : TrailWF s) (ht : TrailOK s) {l : Nat}
    (h : s.value l = l_False) : neg l ∈ s.trail :=
  true_mem_trail hwf ht (value_neg_true.2 h)

theorem mem_trail_pos {s : Solver} {l : Nat} (h : l ∈ s.trail) :
    ∃ i, i < s.trail.length ∧ s.trail.getD i 0 = l := by
  obtain ⟨i, hi, rfl⟩ := List.getElem_of_mem h
  exact ⟨i, hi, List.getD_eq_getElem _ _ hi⟩

theorem level_le_decisionLevel {s : Solver} (hwf : TrailWF s) {l : Nat} (h : l ∈ s.trail) :
    s.level (var l) ≤ s.decisionLevel := by
  obtain ⟨i, hi, rfl⟩ := mem_trail_pos h
  rw [hwf.level_ok i hi]
  exact List.length_filter_le _ _

theorem level_eq_of_fences_le {s : Solver} (hwf : TrailWF s) {i : Nat} (hi : i < s.trail.length)
    (h : ∀ x ∈ s.trail_lim, x ≤ i) : s.level (var (s.trail.getD i 0)) = s.decisionLevel := by
  rw [hwf.level_ok i hi]
  unfold decisionLevel
  rw [List.filter_eq_self.2]
  intro x hx
  simpa using h x hx

theorem level_mono {s : Solver} (hwf : TrailWF s) {i j : Nat} (hij : i ≤ j)
    (hj : j < s.trail.length) :
    s.level (var (s.trail.getD i 0)) ≤ s.level (var (s.trail.getD j 0)) := by
  rw [hwf.level_ok i (by omega), hwf.level_ok j hj]
  apply List.Sublist.length_le
  apply List.monotone_filter_right
  intro x hx
  simp only [decide_eq_true_eq] at hx ⊢
  omega

/-! ### `uncheckedEnqueue` -/

theorem enqueue_value_other (s : Solver) (p : Nat) (r : Option Nat) {q : Nat}
    (h : var q ≠ var p) : (uncheckedEnqueue s p r).value q = s.value q := by
  unfold value uncheckedEnqueue
  simp only
  rw [List.getD_eq_getElem?_getD, List.getElem?_set_ne (Ne.symm h), ← List.getD_eq_getElem?_getD]

theorem enqueue_value_self (s : Solver) (p : Nat) (r : Option Nat)
    (h : var p < s.assigns.length) : (uncheckedEnqueue s p r).value p = l_True := by
  unfold value
  rw [value_enqueue s p r h]
  exact ofBool_xor _

theorem enqueue_value_keep (s : Solver) (p : Nat) (r : Option Nat) (hp : s.value p = l_Undef)
    {q : Nat} (hq : s.value q ≠ l_Undef) : (uncheckedEnqueue s p r).value q = s.value q := by
  apply enqueue_value_other
  intro h
  apply hq
  unfold value at hp ⊢
  rw [h]
  exact xor_undef.2 (xor_undef.1 hp)

theorem enqueue_vardata_other (s : Solver) (p : Nat) (r : Option Nat) {x : Nat}
    (h : x ≠ var p) : (uncheckedEnqueue s p r).vardata.getD x default = s.vardata.getD x default := by
  unfold uncheckedEnqueue
  simp only
  rw [List.getD_eq_getElem?_getD, List.getElem?_set_ne (Ne.symm h), ← List.getD_eq_getElem?_getD]

theorem enqueue_level_other (s : Solver) (p : Nat) (r : Option Nat) {x : Nat}
    (h : x ≠ var p) : (uncheckedEnqueue s p r).level x = s.level x := by
  unfold level; rw [enqueue_vardata_other s p r h]

theorem enqueue_reason_other (s : Solver) (p : Nat) (r : Option Nat) {x : Nat}
    (h : x ≠ var p) : (uncheckedEnqueue s p r).reason x = s.reason x := by
  unfold reason; rw [enqueue_vardata_other s p r h]

theorem enqueue_vardata_self (s : Solver) (p : Nat) (r : Option Nat)
    (h : var p < s.vardata.length) :
    (uncheckedEnqueue s p r).vardata.getD (var p) default = mkVarData r s.decisionLevel := by
  simp [uncheckedEnqueue, List.getD_eq_getElem?_getD, List.getElem?_set_self h]

theorem enqueue_level_self (s : Solver) (p : Nat) (r : Option Nat)
    (h : var p < s.vardata.length) : (uncheckedEnqueue s p r).level (var p) = s.decisionLevel := by
  unfold level; rw [enqueue_vardata_self s p r h]; rfl

theorem enqueue_reason_self (s : Solver) (p : Nat) (r : Option Nat)
    (h : var p < s.vardata.length) : (uncheckedEnqueue s p r).reason (var p) = r := by
  unfold reason; rw [enqueue_vardata_self s p r h]; rfl

/-- An unassigned literal has no variable on the trail. -/
theorem undef_not_on_trail {s : Solver} (ht : TrailOK s) {p : Nat} (hp : s.value p = l_Undef)
    {t : Nat} (h : t ∈ s.trail) : var t ≠ var p := by
  intro hv
  have h1 := (ht.1 t h).2
  unfold value at h1 hp
  rw [hv, xor_undef.1 hp] at h1
  cases hs : sign t <;> rw [hs] at h1 <;> cases h1

theorem TrailWF.enqueue_trailWF {s : Solver} (hwf : TrailWF s) (ht : TrailOK s) (p : Nat)
    (r : Option Nat) (hvd : var p < s.vardata.length) (hv : s.value p = l_Undef) :
    TrailWF (uncheckedEnqueue s p r) := by
  refine ⟨hwf.lim_sorted, ?_, ?_, ?_, ?_⟩
  · intro x hx
    have := hwf.lim_le x hx
    simp only [uncheckedEnqueue, List.length_append, List.length_singleton]
    omega
  · show ((s.trail ++ [p]).map var).Nodup
    rw [List.map_append, List.nodup_append]
    refine ⟨hwf.nodup, by simp, ?_⟩
    intro a ha hb
    simp only [List.map_cons, List.map_nil, List.mem_singleton] at hb
    obtain ⟨t, htm, rfl⟩ := List.mem_map.1 ha
    exact undef_not_on_trail ht hv htm hb
  · intro x hx hne
    show x ∈ (s.trail ++ [p]).map var
    rw [List.map_append, List.mem_append]
    by_cases hxp : x = var p
    · right; simp [hxp]
    · left
      apply hwf.assigned x (by simpa [uncheckedEnqueue] using hx)
      have : (uncheckedEnqueue s p r).assigns.getD x l_Undef = s.assigns.getD x l_Undef := by
        unfold uncheckedEnqueue
        simp only
        rw [List.getD_eq_getElem?_getD, List.getElem?_set_ne (Ne.symm hxp),
          ← List.getD_eq_getElem?_getD]
      rw [← this]; exact hne
  · intro i hi
    have hlen : (uncheckedEnqueue s p r).trail.length = s.trail.length + 1 := by
      simp [uncheckedEnqueue]
    rw [hlen] at hi
    show (uncheckedEnqueue s p r).level (var ((s.trail ++ [p]).getD i 0)) =
      (s.trail_lim.filter (fun k => decide (k ≤ i))).length
    by_cases hi2 : i < s.trail.length
    · have hg : (s.trail ++ [p]).getD i 0 = s.trail.getD i 0 := by
        rw [List.getD_eq_getElem?_getD, List.getElem?_append_left hi2, ← List.getD_eq_getElem?_getD]
      rw [hg]
      have hm : s.trail.getD i 0 ∈ s.trail := by
        rw [List.getD_eq_getElem _ _ hi2]; exact List.getElem_mem hi2
      rw [enqueue_level_other s p r (undef_not_on_trail ht hv hm)]
      exact hwf.level_ok i hi2
    · have hi3 : i = s.trail.length := by omega
      have hg : (s.trail ++ [p]).getD i 0 = p := by
        rw [hi3, List.getD_eq_getElem?_getD, List.getElem?_append_right (le_refl _)]
        simp
      rw [hg, enqueue_level_self s p r hvd]
      unfold decisionLevel
      rw [List.filter_eq_self.2]
      intro x hx
      have := hwf.lim_le x hx
      simp only [decide_eq_true_eq]
      omega

theorem TrailOK.enqueue_trailOK {s : Solver} (ht : TrailOK s) (p : Nat) (r : Option Nat)
    (hp : var p < s.assigns.length) (hv : s.value p = l_Undef) :
    TrailOK (uncheckedEnqueue s p r) := by
  refine ⟨?_, ?_, ht.2.2⟩
  · intro l hl
    have hl' : l ∈ s.trail ++ [p] := hl
    rw [List.mem_append, List.mem_singleton] at hl'
    have hlen : (uncheckedEnqueue s p r).assigns.length = s.assigns.length := by
      simp [uncheckedEnqueue]
    rw [hlen]
    rcases hl' with h | rfl
    · refine ⟨(ht.1 l h).1, ?_⟩
      rw [enqueue_value_other s p r (undef_not_on_trail ht hv h)]
      exact (ht.1 l h).2
    · exact ⟨hp, enqueue_value_self s l r hp⟩
  · have := ht.2.1
    simp only [uncheckedEnqueue, List.length_append, List.length_singleton]
    omega

theorem twoWatched_iff_pending (s : Solver) (p : Nat) : TwoWatched s ↔ Pending s p [] [] := by
  unfold TwoWatched WatchedInv Pending
  constructor
  · intro h cr hcr i hi hv hm
    exact Or.inl (h cr hcr i hi hv hm)
  · intro h cr hcr i hi hv hm
    rcases h cr hcr i hi hv hm with h1 | ⟨_, h1 | h1⟩
    · exact h1
    · simp at h1
    · simp at h1

/-! ### Dependence of the components on the fields -/

theorem SizesOK.congr_sizesOK {s t : Solver} (h : SizesOK s) (h1 : t.assigns.length = s.assigns.length)
    (h2 : t.vardata.length = s.vardata.length) (h3 : t.decision = s.decision)
    (h4 : t.seen.length = s.seen.length)
    (h5 : t.watches.occs.length = s.watches.occs.length)
    (h6 : t.watchesBin.occs.length = s.watchesBin.occs.length)
    (h7 : t.watches.dirty.length = s.watches.dirty.length)
    (h8 : t.watchesBin.dirty.length = s.watchesBin.dirty.length) : SizesOK t := by
  unfold SizesOK at h ⊢
  rw [h1, h2, h3, h4, h5, h6, h7, h8]
  exact h

theorem TrailWF.congr_trailWF {s t : Solver} (h : TrailWF s) (h1 : t.trail = s.trail)
    (h2 : t.trail_lim = s.trail_lim) (h3 : t.assigns = s.assigns) (h4 : t.vardata = s.vardata) :
    TrailWF t := by
  refine ⟨?_, ?_, ?_, ?_, ?_⟩
  · rw [h2]; exact h.lim_sorted
  · rw [h2, h1]; exact h.lim_le
  · rw [h1]; exact h.nodup
  · rw [h3, h1]; exact h.assigned
  · intro i hi
    rw [h1] at hi ⊢
    rw [h2, level_congr h4]
    exact h.level_ok i hi

theorem TrailOK.congr_trailOK {s t : Solver} (h : TrailOK s) (h1 : t.trail = s.trail)
    (h2 : t.trail_lim = s.trail_lim) (h3 : t.assigns = s.assigns) (h4 : t.qhead = s.qhead) :
    TrailOK t := by
  unfold TrailOK at h ⊢
  simp only [h1, h2, h3, h4, value_congr h3]
  exact h

theorem ArenaOK.congr_arenaOK {s t : Solver} (h : ArenaOK s) (h1 : t.ca.mem = s.ca.mem)
    (h2 : t.assigns.length = s.assigns.length) : ArenaOK t := by
  unfold ArenaOK at h ⊢
  rw [h1, h2]; exact h

theorem get_congr {a b : ClauseAllocator} (h : a.mem = b.mem) (cr : Nat) : a.get cr = b.get cr := by
  unfold ClauseAllocator.get; rw [h]

theorem LongWatcherOK.congr_longWatcherOK {s t : Solver} {p : Nat} {w : Watcher} (h : LongWatcherOK s p w)
    (h1 : t.ca.mem.length = s.ca.mem.length) (h2 : t.ca.get w.cref = s.ca.get w.cref) :
    LongWatcherOK t p w := by
  unfold LongWatcherOK at h ⊢
  rw [h1, h2]; exact h

theorem BinWatcherOK.congr_binWatcherOK {s t : Solver} {p : Nat} {w : Watcher} (h : BinWatcherOK s p w)
    (h1 : t.ca.mem.length = s.ca.mem.length) (h2 : t.ca.get w.cref = s.ca.get w.cref) :
    BinWatcherOK t p w := by
  unfold BinWatcherOK at h ⊢
  rw [h1, h2]; exact h

theorem WatchOK.congr_watchOK {s t : Solver} (h : WatchOK s) (h1 : t.ca.mem = s.ca.mem)
    (h2 : t.assigns.length = s.assigns.length) (h3 : t.watches.occs = s.watches.occs)
    (h4 : t.watchesBin.occs = s.watchesBin.occs) : WatchOK t := by
  intro p hp
  rw [h2] at hp
  have hg : ∀ q, t.watches.get q = s.watches.get q := fun q => by unfold OccLists.get; rw [h3]
  have hb : ∀ q, t.watchesBin.get q = s.watchesBin.get q := fun q => by
    unfold OccLists.get; rw [h4]
  obtain ⟨a, b, c⟩ := h p hp
  rw [hg, hb]
  exact ⟨a, fun w hw => (b w hw).congr_longWatcherOK (by rw [h1]) (get_congr h1 _),
    fun w hw => (c w hw).congr_binWatcherOK (by rw [h1]) (get_congr h1 _)⟩

theorem NoDeleted.congr_noDeleted {s t : Solver} (h : NoDeleted s) (h1 : t.ca.mem = s.ca.mem)
    (h2 : t.assigns.length = s.assigns.length) (h3 : t.watches.occs = s.watches.occs)
    (h4 : t.watchesBin.occs = s.watchesBin.occs) : NoDeleted t := by
  intro p hp
  rw [h2] at hp
  have hg : t.watches.get p = s.watches.get p := by unfold OccLists.get; rw [h3]
  have hb : t.watchesBin.get p = s.watchesBin.get p := by unfold OccLists.get; rw [h4]
  rw [hg, hb]
  simp only [get_congr h1]
  exact h p hp

theorem hasWatch.congr_hasWatch {s t : Solver} {cr i : Nat} (h : hasWatch s cr i)
    (h1 : t.ca.get cr = s.ca.get cr) (h3 : t.watches.occs = s.watches.occs)
    (h4 : t.watchesBin.occs = s.watchesBin.occs) : hasWatch t cr i := by
  unfold hasWatch at h ⊢
  have hg : ∀ q, t.watches.get q = s.watches.get q := fun q => by unfold OccLists.get; rw [h3]
  have hb : ∀ q, t.watchesBin.get q = s.watchesBin.get q := fun q => by
    unfold OccLists.get; rw [h4]
  rw [h1, hg, hb]; exact h

theorem ClausesOK.congr_clausesOK {s t : Solver} (h : ClausesOK s) (h1 : t.ca.mem = s.ca.mem)
    (h2 : t.clauses = s.clauses) (h3 : t.watches.occs = s.watches.occs)
    (h4 : t.watchesBin.occs = s.watchesBin.occs) (_h5 : t.learnts = s.learnts) :
    ClausesOK t := by
  unfold ClausesOK at h ⊢
  rw [h2]
  simp only [get_congr h1]
  intro cr hcr
  obtain ⟨a, b, d, e, f⟩ := h cr hcr
  exact ⟨by rw [h1]; exact a, b, d, e.congr_hasWatch (get_congr h1 _) h3 h4,
    f.congr_hasWatch (get_congr h1 _) h3 h4⟩

theorem ReasonsOK.congr_reasonsOK {s t : Solver} (h : ReasonsOK s) (h1 : t.ca.mem = s.ca.mem)
    (h2 : t.trail = s.trail) (h3 : t.vardata = s.vardata)
    (h4 : t.watchesBin.occs = s.watchesBin.occs) (h5 : t.assigns.length = s.assigns.length) :
    ReasonsOK t := by
  unfold ReasonsOK ReasonOKAt at h ⊢
  have hb : ∀ q, t.watchesBin.get q = s.watchesBin.get q := fun q => by
    unfold OccLists.get; rw [h4]
  simp only [h1, h2, h5, get_congr h1, level_congr h3, reason_congr h3, hb]
  exact h

theorem PropInv.congr_propInv {s t : Solver} (h : PropInv s) (h1 : t.ca.mem = s.ca.mem)
    (h2 : t.assigns = s.assigns) (h3 : t.vardata = s.vardata) (h4 : t.trail = s.trail)
    (h5 : t.trail_lim = s.trail_lim) (h6 : t.qhead = s.qhead)
    (h7 : t.watches.occs = s.watches.occs) (h8 : t.watchesBin.occs = s.watchesBin.occs)
    (h9 : t.clauses = s.clauses) (h10 : t.learnts = s.learnts) (h11 : t.decision = s.decision)
    (h12 : t.seen.length = s.seen.length) (h13 : t.watches.dirty.length = s.watches.dirty.length)
    (h14 : t.watchesBin.dirty.length = s.watchesBin.dirty.length) : PropInv t :=
  ⟨h.sizes.congr_sizesOK (by rw [h2]) (by rw [h3]) h11 h12 (by rw [h7]) (by rw [h8]) h13 h14,
   h.wf.congr_trailWF h4 h5 h2 h3, h.trail.congr_trailOK h4 h5 h2 h6, h.arena.congr_arenaOK h1 (by rw [h2]),
   h.watch.congr_watchOK h1 (by rw [h2]) h7 h8, h.nodel.congr_noDeleted h1 (by rw [h2]) h7 h8,
   h.clauses.congr_clausesOK h1 h9 h7 h8 h10, h.reasons.congr_reasonsOK h1 h4 h3 h8 (by rw [h2])⟩

theorem Pending.congr_pending {s t : Solver} {p : Nat} {rb rl : List Watcher} (h : Pending s p rb rl)
    (h1 : t.ca.mem = s.ca.mem) (h2 : t.assigns = s.assigns) (h3 : t.vardata = s.vardata)
    (h4 : t.trail = s.trail) (h6 : t.qhead = s.qhead) (h9 : t.clauses = s.clauses) :
    Pending t p rb rl := by
  unfold Pending at h ⊢
  simp only [h4, h6, h9, get_congr h1, level_congr h3, value_congr h2]
  exact h

theorem mem_pair {l : List Nat} (hlen : l.length = 2) {a b x : Nat} (ha : a ∈ l) (hb : b ∈ l)
    (hab : a ≠ b) (hx : x ∈ l) : x = a ∨ x = b := by
  rcases l with _ | ⟨u, _ | ⟨v, _ | _⟩⟩ <;> simp at hlen
  simp only [List.mem_cons, List.mem_singleton, List.not_mem_nil, or_false] at ha hb hx
  rcases ha with rfl | rfl <;> rcases hb with rfl | rfl <;> rcases hx with rfl | rfl <;> simp_all

theorem mem_len2 {l : List Nat} (hlen : l.length = 2) {x : Nat} (hx : x ∈ l) :
    l.getD 0 0 = x ∨ l.getD 1 0 = x := by
  rcases l with _ | ⟨u, _ | ⟨v, _ | _⟩⟩ <;> simp at hlen
  simp only [List.mem_cons, List.mem_singleton, List.not_mem_nil, or_false] at hx
  rcases hx with rfl | rfl <;> simp

theorem ReasonsOK.enqueue_reasonsOK {s : Solver} (h : ReasonsOK s) (ht : TrailOK s) (q : Nat)
    (r : Option Nat) (hvd : var q < s.vardata.length) (hv : s.value q = l_Undef)
    (hr : ReasonFor s q r) : ReasonsOK (uncheckedEnqueue s q r) := by
  intro i hi hlev cr hcr
  have hlen : (uncheckedEnqueue s q r).trail.length = s.trail.length + 1 := by
    simp [uncheckedEnqueue]
  rw [hlen] at hi
  have htr : (uncheckedEnqueue s q r).trail = s.trail ++ [q] := rfl
  by_cases hi2 : i < s.trail.length
  · have hg : (uncheckedEnqueue s q r).trail.getD i 0 = s.trail.getD i 0 := by
      rw [htr]; exact getD_append_left' _ _ _ hi2
    have hne := undef_not_on_trail ht hv (getD_mem' s.trail 0 hi2)
    rw [hg] at hlev hcr
    rw [enqueue_level_other s q r hne] at hlev
    rw [enqueue_reason_other s q r hne] at hcr
    have h0 := h i hi2 hlev cr hcr
    have hal : (uncheckedEnqueue s q r).assigns.length = s.assigns.length := by
      simp [uncheckedEnqueue]
    unfold ReasonOKAt at h0 ⊢
    rw [hg, htr, List.take_append_of_le_length (by omega), hal]
    exact h0
  · have hi3 : i = s.trail.length := by omega
    have hg : (uncheckedEnqueue s q r).trail.getD i 0 = q := by
      rw [htr, hi3, List.getD_eq_getElem?_getD, List.getElem?_append_right (le_refl _)]
      simp
    rw [hg] at hcr
    rw [enqueue_reason_self s q r hvd] at hcr
    obtain ⟨a, b, c, d, e⟩ := hr cr hcr
    have hal : (uncheckedEnqueue s q r).assigns.length = s.assigns.length := by
      simp [uncheckedEnqueue]
    unfold ReasonOKAt
    rw [hg, htr, hi3, List.take_left', hal]
    · exact ⟨a, b, c, d, e⟩
    · rfl

theorem PropInv.enqueue_propInv {s : Solver} (h : PropInv s) (q : Nat) (r : Option Nat)
    (hq : var q < s.assigns.length) (hv : s.value q = l_Undef) (hr : ReasonFor s q r) :
    PropInv (uncheckedEnqueue s q r) := by
  have hvd : var q < s.vardata.length := by rw [h.sizes.1]; exact hq
  have hal : (uncheckedEnqueue s q r).assigns.length = s.assigns.length := by
    simp [uncheckedEnqueue]
  exact ⟨h.sizes.congr_sizesOK hal (by simp [uncheckedEnqueue]) rfl rfl rfl rfl rfl rfl,
    h.wf.enqueue_trailWF h.trail q r hvd hv, h.trail.enqueue_trailOK q r hq hv, h.arena.congr_arenaOK rfl hal,
    h.watch.congr_watchOK rfl hal rfl rfl, h.nodel.congr_noDeleted rfl hal rfl rfl,
    h.clauses.congr_clausesOK rfl rfl rfl rfl rfl, h.reasons.enqueue_reasonsOK h.trail q r hvd hv hr⟩

theorem Pending.enqueue_pending {s : Solver} {p : Nat} {rb rl : List Watcher} (hp : Pending s p rb rl)
    (h : PropInv s) (q : Nat) (r : Option Nat) (hv : s.value q = l_Undef) :
    Pending (uncheckedEnqueue s q r) p rb rl := by
  intro cr hcr i hi hval hm
  have htr : (uncheckedEnqueue s q r).trail = s.trail ++ [q] := rfl
  have hqh : (uncheckedEnqueue s q r).qhead = s.qhead := rfl
  have hca : (uncheckedEnqueue s q r).ca = s.ca := rfl
  rw [htr, hqh, hca, List.take_append_of_le_length h.trail.2.1] at hm
  rw [hca] at hval ⊢
  have hmt : neg ((s.ca.get cr).lit i) ∈ s.trail := List.mem_of_mem_take hm
  have hne : var ((s.ca.get cr).lit i) ≠ var q := by
    have := undef_not_on_trail h.trail hv hmt
    rwa [var_neg] at this
  rw [enqueue_value_other s q r hne] at hval
  rw [enqueue_level_other s q r hne]
  rcases hp cr hcr i hi hval hm with ⟨l, hl, hlt, hll⟩ | h2
  · left
    refine ⟨l, hl, ?_, ?_⟩
    · rw [enqueue_value_keep s q r hv (by rw [hlt]; simp)]; exact hlt
    · have : var l ≠ var q := undef_not_on_trail h.trail hv (true_mem_trail h.wf h.trail hlt)
      rw [enqueue_level_other s q r this]; exact hll
  · right; exact h2

theorem Current.level_current {s : Solver} {p : Nat} (hc : Current s p) (hwf : TrailWF s) :
    s.level (var p) = s.decisionLevel := by
  obtain ⟨h1, h2, h3, h4⟩ := hc
  rw [← h3]
  exact level_eq_of_fences_le hwf (by omega) h4

theorem Current.mem_current {s : Solver} {p : Nat} (hc : Current s p) : p ∈ s.trail := by
  obtain ⟨h1, h2, h3, _⟩ := hc
  rw [← h3]; exact getD_mem' _ _ (by omega)

theorem Current.enqueue_current {s : Solver} {p : Nat} (hc : Current s p) (q : Nat) (r : Option Nat) :
    Current (uncheckedEnqueue s q r) p := by
  obtain ⟨h1, h2, h3, h4⟩ := hc
  refine ⟨h1, ?_, ?_, h4⟩
  · show s.qhead ≤ (s.trail ++ [q]).length
    simp; omega
  · show (s.trail ++ [q]).getD (s.qhead - 1) 0 = p
    rw [getD_append_left' _ _ _ (by omega)]; exact h3

/-- A true literal of the clause resolves the pending watch. -/
theorem level_le_current {s : Solver} {p : Nat} (hc : Current s p) (h : PropInv s) {l : Nat}
    (hl : s.value l = l_True) : s.level (var l) ≤ s.level (var p) := by
  rw [hc.level_current h.wf]
  exact level_le_decisionLevel h.wf (true_mem_trail h.wf h.trail hl)

theorem Pending.lowWatched_pending {s : Solver} {p : Nat} {rb rl : List Watcher}
    (hp : Pending s p rb rl) (h : PropInv s) (hc : Current s p) : LowWatched s := by
  intro cr hcr i hi hv hlev
  have hm := false_mem_trail h.wf h.trail hv
  obtain ⟨j, hj, hjg⟩ := mem_trail_pos hm
  have hjq : j < s.qhead := by
    by_contra hn
    have : s.level (var (s.trail.getD j 0)) = s.decisionLevel := by
      apply level_eq_of_fences_le h.wf hj
      intro x hx
      have := hc.2.2.2 x hx
      omega
    rw [hjg, var_neg] at this
    omega
  have hmt : neg ((s.ca.get cr).lit i) ∈ s.trail.take s.qhead := by
    rw [← hjg, List.getD_eq_getElem _ _ hj]
    exact List.mem_take_iff_getElem.2 ⟨j, by omega, rfl⟩
  rcases hp cr hcr i hi hv hmt with h1 | ⟨h1, _⟩
  · exact h1
  · rw [h1, var_neg, hc.level_current h.wf] at hlev
    omega

theorem propBin_inv (p : Nat) (rl : List Watcher) : ∀ (ws : List Watcher) (s : Solver),
    PropInv s → Current s p → p < 2 * s.assigns.length →
    (∀ w ∈ ws, w ∈ s.watchesBin.get p) → Pending s p ws rl →
    PropInv (propBin ws s).2 ∧ Current (propBin ws s).2 p ∧
    (propBin ws s).2.watches = s.watches ∧ (propBin ws s).2.qhead = s.qhead ∧
    ((propBin ws s).1 = none → Pending (propBin ws s).2 p [] rl) ∧
    (∀ cr, (propBin ws s).1 = some cr →
      LowWatched (propBin ws s).2 ∧ ConflictAt (propBin ws s).2 cr) ∧
    (propBin ws s).2.ca = s.ca
  | [], s, h, hc, _, _, hp => by
    unfold propBin
    exact ⟨h, hc, rfl, rfl, fun _ => hp, fun cr hcr => by simp at hcr, rfl⟩
  | w :: ws, s, h, hc, hp2, hws, hp => by
    have hw := hws w (List.mem_cons_self _ _)
    obtain ⟨hw1, hw2, hw3, hw4, hw5⟩ := (h.watch p hp2).2.2 w hw
    have hnd := (h.nodel p hp2).2 w hw
    have hpt : s.value p = l_True := (h.trail.1 p hc.mem_current).2
    have hlits : ∀ l ∈ (s.ca.get w.cref).lits, l = neg p ∨ l = w.blocker :=
      fun l hl => mem_pair hw2 hw3 hw4 (Ne.symm hw5) hl
    have hrest : ∀ x ∈ ws, x ∈ s.watchesBin.get p := fun x hx => hws x (List.mem_cons_of_mem _ hx)
    -- once the blocker is true the clause of `w` is no longer pending
    have hres : ∀ (t : Solver), t.ca = s.ca → t.clauses = s.clauses → PropInv t → Current t p →
        t.value w.blocker = l_True → Pending t p (w :: ws) rl → Pending t p ws rl := by
      intro t htca htcl ht htc hbt hpt2 cr hcr i hi hv hm
      rcases hpt2 cr hcr i hi hv hm with h1 | ⟨h1, h2 | h2⟩
      · exact Or.inl h1
      · obtain ⟨h2a, x, hx, hxc⟩ := h2
        rcases List.mem_cons.1 hx with rfl | hx
        · left
          refine ⟨x.blocker, ?_, hbt, ?_⟩
          · rw [htca, ← hxc]; exact hw4
          · rw [h1, var_neg]; exact level_le_current htc ht hbt
        · exact Or.inr ⟨h1, Or.inl ⟨h2a, x, hx, hxc⟩⟩
      · exact Or.inr ⟨h1, Or.inr h2⟩
    unfold propBin
    split
    · rename_i hf
      have hf' : s.value w.blocker = l_False := by simpa using hf
      dsimp only
      refine ⟨h, hc, rfl, rfl, fun hn => by simp at hn, ?_, rfl⟩
      intro cr hcr
      simp only [Option.some.injEq] at hcr
      subst hcr
      refine ⟨hp.lowWatched_pending h hc, hw1, by omega, ?_, neg p, hw3, ?_⟩
      · intro l hl
        rcases hlits l hl with rfl | rfl
        · exact value_neg_false.2 hpt
        · exact hf'
      · rw [var_neg]; exact hc.level_current h.wf
    · split
      · rename_i hf hu
        have hu' : s.value w.blocker = l_Undef := by simpa using hu
        have hbn : var w.blocker < s.assigns.length := by
          have hgood := (h.arena _ (get_mem s.ca w.cref hw1)).2
          rcases hgood with hg | hg
          · rw [hg] at hw2; simp at hw2
          · exact hg.2.2 _ hw4
        have hrf : ReasonFor s w.blocker (some w.cref) := by
          intro cr hcr
          simp only [Option.toList_some, List.mem_singleton] at hcr
          subst hcr
          refine ⟨hw1, by omega, ?_, ?_, fun _ => ⟨hnd, p, List.mem_range.2 hp2, w, hw, rfl⟩⟩
          · rcases mem_len2 hw2 hw4 with h0 | h0
            · exact Or.inl h0
            · exact Or.inr ⟨hw2, h0⟩
          · intro l hl hne
            rcases hlits l hl with rfl | rfl
            · rw [neg_neg]; exact hc.mem_current
            · exact absurd rfl hne
        have h' := h.enqueue_propInv w.blocker (some w.cref) hbn hu' hrf
        have hc' := hc.enqueue_current w.blocker (some w.cref)
        have hp' := hp.enqueue_pending h w.blocker (some w.cref) hu'
        have hp'' := hres (uncheckedEnqueue s w.blocker (some w.cref)) rfl rfl h' hc'
          (enqueue_value_self s w.blocker _ hbn) hp'
        have ih := propBin_inv p rl ws _ h' hc' (by simpa [uncheckedEnqueue] using hp2)
          (fun x hx => hrest x hx) hp''
        exact ⟨ih.1, ih.2.1, ih.2.2.1, ih.2.2.2.1, ih.2.2.2.2.1, ih.2.2.2.2.2.1,
          ih.2.2.2.2.2.2⟩
      · rename_i hf hu
        have ht : s.value w.blocker = l_True := by
          cases hval : s.value w.blocker
          · rfl
          · rw [hval] at hf; simp at hf
          · rw [hval] at hu; simp at hu
        exact propBin_inv p rl ws s h hc hp2 hrest (hres s rfl rfl h hc ht hp)

/-- Exchanging the literal at position `j` of `t` with `b`. -/
theorem perm_set_cons : ∀ (t : List Nat) (j b : Nat), j < t.length →
    (t.getD j 0 :: t.set j b).Perm (b :: t)
  | [], j, b, h => by simp at h
  | a :: t, 0, b, _ => by
    simp only [List.getD_cons_zero, List.set_cons_zero]
    exact List.Perm.swap _ _ _
  | a :: t, j + 1, b, h => by
    simp only [List.getD_cons_succ, List.set_cons_succ]
    have ih := perm_set_cons t j b (by simpa using h)
    exact ((List.Perm.swap _ _ _).trans (List.Perm.cons a ih)).trans (List.Perm.swap _ _ _)

theorem swap01_perm (l : List Nat) (h : 2 ≤ l.length) :
    ((l.set 0 (l.getD 1 0)).set 1 (l.getD 0 0)).Perm l := by
  rcases l with _ | ⟨a, _ | ⟨b, t⟩⟩
  · simp at h
  · simp at h
  · simp only [List.set_cons_zero, List.getD_cons_succ, List.getD_cons_zero, List.set_cons_succ]
    exact List.Perm.swap _ _ _

theorem swap1k_perm (l : List Nat) (k : Nat) (h2 : 2 ≤ k) (hk : k < l.length) :
    ((l.set 1 (l.getD k 0)).set k (l.getD 1 0)).Perm l := by
  rcases l with _ | ⟨a, _ | ⟨b, t⟩⟩
  · simp at hk
  · simp at hk; omega
  · obtain ⟨j, rfl⟩ : ∃ j, k = j + 2 := ⟨k - 2, by omega⟩
    simp only [List.set_cons_succ, List.set_cons_zero, List.getD_cons_succ, List.getD_cons_zero]
    exact List.Perm.cons a (perm_set_cons t j b (by simpa using hk))

theorem mem_lits_cases (l : List Nat) (h : 2 ≤ l.length) {x : Nat} (hx : x ∈ l) :
    x = l.getD 0 0 ∨ x = l.getD 1 0 ∨ x ∈ l.drop 2 := by
  rcases l with _ | ⟨a, _ | ⟨b, t⟩⟩
  · simp at h
  · simp at h
  · simp only [List.mem_cons] at hx
    simp only [List.getD_cons_zero, List.getD_cons_succ, List.drop_succ_cons, List.drop_zero]
    tauto

theorem nodup_getD_ne {l : List Nat} (h : l.Nodup) {i j : Nat} (hi : i < l.length)
    (hj : j < l.length) (hij : i ≠ j) : l.getD i 0 ≠ l.getD j 0 := by
  rw [List.getD_eq_getElem _ _ hi, List.getD_eq_getElem _ _ hj]
  intro e
  exact hij ((List.Nodup.getElem_inj_iff h).1 e)

theorem neg_inj {a b : Nat} (h : neg a = neg b) : a = b := by
  have := congrArg neg h
  rwa [neg_neg, neg_neg] at this

theorem findNewWatch_value (s : Solver) : ∀ (ls : List Nat) (k j : Nat),
    findNewWatch s ls k = some j → s.value (ls.getD (j - k) 0) ≠ l_False
  | [], _, _, h => by simp [findNewWatch] at h
  | l :: ls, k, j, h => by
    unfold findNewWatch at h
    split at h
    · rename_i hv
      simp only [Option.some.injEq] at h
      subst h
      simpa using hv
    · have hb := findNewWatch_bound s ls (k + 1) j h
      have := findNewWatch_value s ls (k + 1) j h
      have e : j - k = (j - (k + 1)) + 1 := by omega
      rw [e, List.getD_cons_succ]
      exact this

theorem findNewWatch_none (s : Solver) : ∀ (ls : List Nat) (k : Nat),
    findNewWatch s ls k = none → ∀ l ∈ ls, s.value l = l_False
  | [], _, _ => by simp
  | l :: ls, k, h => by
    unfold findNewWatch at h
    split at h
    · cases h
    · rename_i hv
      intro x hx
      rcases List.mem_cons.1 hx with rfl | hx
      · simpa using hv
      · exact findNewWatch_none s ls (k + 1) h x hx

/-! ### The arena after one clause is replaced -/

theorem get_of_mem_set {a b : ClauseAllocator} {cr : Nat} {c : Clause}
    (h : b.mem = a.mem.set cr c) (hcr : cr < a.mem.length) : b.get cr = c := by
  unfold ClauseAllocator.get
  rw [h]; exact getD_set_self' _ _ _ _ hcr

theorem get_of_mem_set_ne {a b : ClauseAllocator} {cr x : Nat} {c : Clause}
    (h : b.mem = a.mem.set cr c) (hx : x ≠ cr) : b.get x = a.get x := by
  unfold ClauseAllocator.get
  rw [h]; exact getD_set_ne' _ _ _ (Ne.symm hx)

theorem GoodClause.perm_goodClause {n : Nat} {c c' : Clause} (h : GoodClause n c)
    (hp : c'.lits.Perm c.lits) : GoodClause n c' := by
  obtain ⟨h1, h2, h3⟩ := h
  exact ⟨by rw [hp.length_eq]; exact h1, hp.nodup_iff.2 h2, fun l hl' => h3 l (hp.mem_iff.1 hl')⟩

/-- The invariant of `propagate` after the clause `cr`, a long one, had its literals
rearranged and its watchers moved accordingly. -/
theorem PropInv.update_propInv {V V' : Solver} (h : PropInv V) (cr : Nat) (c' : Clause)
    (hcr : cr < V.ca.mem.length) (hlong : 2 < (V.ca.get cr).lits.length)
    (hmark : (V.ca.get cr).mark ≠ 1)
    (hperm : c'.lits.Perm (V.ca.get cr).lits) (hlearnt : c'.learnt = (V.ca.get cr).learnt)
    (hmk : c'.mark = (V.ca.get cr).mark) (hrl : c'.reloced = (V.ca.get cr).reloced)
    (hmem : V'.ca.mem = V.ca.mem.set cr c')
    (h2 : V'.assigns = V.assigns) (h3 : V'.vardata = V.vardata) (h4 : V'.trail = V.trail)
    (h5 : V'.trail_lim = V.trail_lim) (h6 : V'.qhead = V.qhead)
    (h8 : V'.watchesBin.occs = V.watchesBin.occs) (h9 : V'.clauses = V.clauses)
    (h10 : V'.learnts = V.learnts) (h11 : V'.decision = V.decision)
    (h12 : V'.seen.length = V.seen.length)
    (h13 : V'.watches.dirty.length = V.watches.dirty.length)
    (h14 : V'.watchesBin.dirty.length = V.watchesBin.dirty.length)
    (hocc : V'.watches.occs.length = V.watches.occs.length)
    (hw : ∀ q < 2 * V.assigns.length, ((V'.watches.get q).map Watcher.cref).Nodup ∧
      ∀ w ∈ V'.watches.get q, (w.cref ≠ cr ∧ w ∈ V.watches.get q) ∨
        (w.cref = cr ∧ (c'.lit 0 = neg q ∨ c'.lit 1 = neg q) ∧ w.blocker ∈ c'.lits))
    (hkeep : ∀ q, ∀ w ∈ V.watches.get q, w.cref ≠ cr → w ∈ V'.watches.get q)
    (hhas : cr ∈ V.clauses → (∃ w ∈ V'.watches.get (neg (c'.lit 0)), w.cref = cr) ∧
      (∃ w ∈ V'.watches.get (neg (c'.lit 1)), w.cref = cr))
    (hreason : ∀ i < V.trail.length, 0 < V.level (var (V.trail.getD i 0)) →
      V.reason (var (V.trail.getD i 0)) = some cr → c'.lit 0 = V.trail.getD i 0) :
    PropInv V' := by
  have hgs : V'.ca.get cr = c' := get_of_mem_set hmem hcr
  have hgo : ∀ x, x ≠ cr → V'.ca.get x = V.ca.get x := fun x hx => get_of_mem_set_ne hmem hx
  have hlen : V'.ca.mem.length = V.ca.mem.length := by rw [hmem]; simp
  have hal : V'.assigns.length = V.assigns.length := by rw [h2]
  have hbin : ∀ q, V'.watchesBin.get q = V.watchesBin.get q := fun q => by
    unfold OccLists.get; rw [h8]
  have hbne : ∀ q < 2 * V.assigns.length, ∀ w ∈ V.watchesBin.get q, w.cref ≠ cr := by
    intro q hq w hw' e
    have := ((h.watch q hq).2.2 w hw').2.1
    rw [e] at this; omega
  refine ⟨h.sizes.congr_sizesOK hal (by rw [h3]) h11 h12 hocc (by rw [h8]) h13 h14,
    h.wf.congr_trailWF h4 h5 h2 h3, h.trail.congr_trailOK h4 h5 h2 h6, ?_, ?_, ?_, ?_, ?_⟩
  · -- arena
    intro c hc
    rw [hmem] at hc
    rw [hal]
    rcases mem_set_imp hc with rfl | hc
    · have hold := h.arena _ (get_mem V.ca cr hcr)
      refine ⟨by rw [hrl]; exact hold.1, Or.inr ?_⟩
      rcases hold.2 with hj | hg
      · rw [hj] at hlong; simp at hlong
      · exact hg.perm_goodClause hperm
    · exact h.arena c hc
  · -- watch
    intro q hq
    rw [hal] at hq
    obtain ⟨hn, hws⟩ := hw q hq
    refine ⟨hn, ?_, ?_⟩
    · intro w hw'
      rcases hws w hw' with ⟨hne, hold⟩ | ⟨he, hl, hb⟩
      · exact ((h.watch q hq).2.1 w hold).congr_longWatcherOK hlen (hgo _ hne)
      · unfold LongWatcherOK
        rw [he, hgs, hlen]
        exact ⟨hcr, by rw [hperm.length_eq]; exact hlong, hl, hb⟩
    · intro w hw'
      rw [hbin] at hw'
      exact ((h.watch q hq).2.2 w hw').congr_binWatcherOK hlen (hgo _ (hbne q hq w hw'))
  · -- no deleted watcher
    intro q hq
    rw [hal] at hq
    refine ⟨?_, ?_⟩
    · intro w hw'
      rcases (hw q hq).2 w hw' with ⟨hne, hold⟩ | ⟨he, _, _⟩
      · rw [hgo _ hne]; exact (h.nodel q hq).1 w hold
      · rw [he, hgs, hmk]; exact hmark
    · intro w hw'
      rw [hbin] at hw'
      rw [hgo _ (hbne q hq w hw')]
      exact (h.nodel q hq).2 w hw'
  · -- clauses
    intro x hx
    rw [h9] at hx
    obtain ⟨a, b, d, e, f⟩ := h.clauses x hx
    by_cases hxc : x = cr
    · subst hxc
      rw [hgs, hlen]
      refine ⟨a, by rw [hperm.length_eq]; exact b, by rw [hmk]; exact d, ?_, ?_⟩
      · unfold hasWatch
        rw [hgs, if_neg (by rw [hperm.length_eq]; omega)]
        exact (hhas hx).1
      · unfold hasWatch
        rw [hgs, if_neg (by rw [hperm.length_eq]; omega)]
        exact (hhas hx).2
    · rw [hgo _ hxc, hlen]
      refine ⟨a, b, d, ?_, ?_⟩
      · unfold hasWatch at e ⊢
        rw [hgo _ hxc, hbin]
        split
        · rename_i h2l; rw [if_pos h2l] at e; exact e
        · rename_i h2l; rw [if_neg h2l] at e
          obtain ⟨w, hw1, hw2⟩ := e
          exact ⟨w, hkeep _ w hw1 (by rw [hw2]; exact hxc), hw2⟩
      · unfold hasWatch at f ⊢
        rw [hgo _ hxc, hbin]
        split
        · rename_i h2l; rw [if_pos h2l] at f; exact f
        · rename_i h2l; rw [if_neg h2l] at f
          obtain ⟨w, hw1, hw2⟩ := f
          exact ⟨w, hkeep _ w hw1 (by rw [hw2]; exact hxc), hw2⟩
  · -- reasons
    intro i hi hlev x hx
    rw [h4] at hi hlev hx
    rw [level_congr h3] at hlev
    rw [reason_congr h3] at hx
    have hold := h.reasons i hi hlev x hx
    unfold ReasonOKAt at hold ⊢
    rw [h4, hlen, hal]
    simp only [hbin]
    by_cases hxc : x = cr
    · subst hxc
      rw [hgs]
      obtain ⟨a, b, c, d, e⟩ := hold
      refine ⟨a, by rw [hperm.length_eq]; exact b, Or.inl ?_, ?_, ?_⟩
      · apply hreason i hi hlev
        simpa using hx
      · intro l hl hne
        exact d l (hperm.mem_iff.1 hl) hne
      · intro e2
        rw [hperm.length_eq] at e2; omega
    · rw [hgo _ hxc]; exact hold

/-- The pending watches after the clause `cr` was rearranged. -/
theorem Pending.update_pending {V V' : Solver} {p : Nat} {rb rl rl' : List Watcher}
    (hp : Pending V p rb rl) (cr : Nat) (c' : Clause) (hcr : cr < V.ca.mem.length)
    (hmem : V'.ca.mem = V.ca.mem.set cr c')
    (h2 : V'.assigns = V.assigns) (h3 : V'.vardata = V.vardata) (h4 : V'.trail = V.trail)
    (h6 : V'.qhead = V.qhead) (h9 : V'.clauses = V.clauses)
    (hrl : ∀ w ∈ rl, w.cref ≠ cr → w ∈ rl')
    (hnew : cr ∈ V.clauses → ∀ i < 2, V.value (c'.lit i) = l_False →
      neg (c'.lit i) ∈ V.trail.take V.qhead →
      (∃ l ∈ c'.lits, V.value l = l_True ∧ V.level (var l) ≤ V.level (var (c'.lit i))) ∨
      (c'.lit i = neg p ∧
        ((c'.lits.length = 2 ∧ ∃ w ∈ rb, w.cref = cr) ∨
         (c'.lits.length ≠ 2 ∧ ∃ w ∈ rl', w.cref = cr)))) :
    Pending V' p rb rl' := by
  intro x hx i hi hv hm
  rw [h9] at hx
  rw [h4, h6] at hm
  rw [value_congr h2] at hv
  simp only [value_congr h2, level_congr h3]
  by_cases hxc : x = cr
  · subst hxc
    rw [get_of_mem_set hmem hcr] at hv hm ⊢
    exact hnew hx i hi hv hm
  · rw [get_of_mem_set_ne hmem hxc] at hv hm ⊢
    rcases hp x hx i hi hv hm with h1 | ⟨h1, h2' | ⟨h2a, w, hw1, hw2⟩⟩
    · exact Or.inl h1
    · exact Or.inr ⟨h1, Or.inl h2'⟩
    · exact Or.inr ⟨h1, Or.inr ⟨h2a, w, hrl w hw1 (by rw [hw2]; exact hxc), hw2⟩⟩

theorem propLong_cons (p : Nat) (w : Watcher) (rest acc : List Watcher) (s : Solver) :
    propLong p (w :: rest) acc s =
      match longStep p w s with
      | (k, some cr, t) => (acc ++ k ++ rest, some cr, t)
      | (k, none, t) => propLong p rest (acc ++ k) t := by
  rw [propLong]
  unfold longStep
  by_cases hB : (s.value w.blocker == l_True) = true
  · rw [if_pos hB, if_pos hB]
  · rw [if_neg hB, if_neg hB]
    dsimp only
    have hs : (if (s.ca.get w.cref).lit 0 == neg p then
        ({ s with ca := s.ca.modify w.cref (fun c =>
            { c with lits := (c.lits.set 0 (c.lit 1)).set 1 (neg p) }) } : Solver)
        else s) = swapFalse p w.cref s := rfl
    rw [hs]
    generalize swapFalse p w.cref s = s1
    by_cases hC : ((s1.ca.get w.cref).lit 0 != w.blocker &&
        s1.value ((s1.ca.get w.cref).lit 0) == l_True) = true
    · rw [if_pos hC, if_pos hC]
    · rw [if_neg hC, if_neg hC]
      rcases hF : findNewWatch s1 ((s1.ca.get w.cref).lits.drop 2) 2 with _ | k
      · dsimp only
        by_cases hD : (s1.value ((s1.ca.get w.cref).lit 0) == l_False) = true
        · rw [if_pos hD, if_pos hD]
        · rw [if_neg hD, if_neg hD]
      · dsimp only
        rw [List.append_nil]
        rfl

theorem virt_get_self (s : Solver) (p : Nat) (l : List Watcher) (h : p < s.watches.occs.length) :
    (virt s p l).watches.get p = l := by
  simp [virt, OccLists.setList, OccLists.get, List.getD_eq_getElem?_getD,
    List.getElem?_set_self h]

theorem virt_get_ne (s : Solver) (p : Nat) (l : List Watcher) {q : Nat} (h : q ≠ p) :
    (virt s p l).watches.get q = s.watches.get q := by
  simp [virt, OccLists.setList, OccLists.get, List.getD_eq_getElem?_getD,
    List.getElem?_set_ne (Ne.symm h)]

theorem push_get_self' (w : OccLists) (a : Nat) (x : Watcher) (h : a < w.occs.length) :
    (w.push a x).get a = w.get a ++ [x] := by
  simp [OccLists.push, OccLists.get, List.getD_eq_getElem?_getD, List.getElem?_set_self h]

theorem push_get_ne (w : OccLists) (a : Nat) (x : Watcher) {q : Nat} (h : q ≠ a) :
    (w.push a x).get q = w.get q := by
  simp [OccLists.push, OccLists.get, List.getD_eq_getElem?_getD,
    List.getElem?_set_ne (Ne.symm h)]

theorem LInv.wf_lInv {p : Nat} {acc rest : List Watcher} {s : Solver} (h : LInv p acc rest s) :
    TrailWF s := h.inv.wf.congr_trailWF rfl rfl rfl rfl

theorem LInv.trail_lInv {p : Nat} {acc rest : List Watcher} {s : Solver} (h : LInv p acc rest s) :
    TrailOK s := h.inv.trail.congr_trailOK rfl rfl rfl rfl

theorem LInv.occ_lInv {p : Nat} {acc rest : List Watcher} {s : Solver} (h : LInv p acc rest s) :
    p < s.watches.occs.length := by
  have h1 := h.inv.sizes.2.2.2.1
  have h2 : (virt s p (acc ++ rest)).watches.occs.length = s.watches.occs.length := by
    simp [virt, OccLists.setList]
  have h3 : (virt s p (acc ++ rest)).assigns.length = s.assigns.length := rfl
  have := h.hp
  omega

theorem LInv.list_lInv {p : Nat} {acc rest : List Watcher} {s : Solver} (h : LInv p acc rest s) :
    (virt s p (acc ++ rest)).watches.get p = acc ++ rest := virt_get_self s p _ h.occ_lInv

theorem LInv.value_p_lInv {p : Nat} {acc rest : List Watcher} {s : Solver} (h : LInv p acc rest s) :
    s.value p = l_True := (h.trail_lInv.1 p h.cur.mem_current).2

/-- What the invariant says about the watcher at the head of `rest`. -/
theorem LInv.head_lInv {p : Nat} {acc rest : List Watcher} {w : Watcher} {s : Solver}
    (h : LInv p acc (w :: rest) s) :
    LongWatcherOK s p w ∧ (s.ca.get w.cref).mark ≠ 1 ∧
    ((acc ++ w :: rest).map Watcher.cref).Nodup ∧
    GoodClause s.assigns.length (s.ca.get w.cref) := by
  have hw := h.inv.watch p h.hp
  rw [h.list_lInv] at hw
  have hm : w ∈ acc ++ w :: rest := by simp
  have h1 : LongWatcherOK s p w := hw.2.1 w hm
  have h2 := (h.inv.nodel p h.hp).1
  rw [h.list_lInv] at h2
  refine ⟨h1, h2 w hm, hw.1, ?_⟩
  have := (h.inv.arena _ (get_mem s.ca w.cref h1.1)).2
  rcases this with hj | hg
  · have := h1.2.1
    rw [hj] at this; simp at this
  · exact hg

theorem level_le_current' {s : Solver} {p : Nat} (hc : Current s p) (hwf : TrailWF s)
    (ht : TrailOK s) {l : Nat} (hl : s.value l = l_True) : s.level (var l) ≤ s.level (var p) := by
  rw [hc.level_current hwf]
  exact level_le_decisionLevel hwf (true_mem_trail hwf ht hl)

theorem Pending.resolve_pending {s : Solver} {p : Nat} {rb rest : List Watcher} {w : Watcher}
    (hp : Pending s p rb (w :: rest)) (hwf : TrailWF s) (ht : TrailOK s) (hc : Current s p)
    {l : Nat} (hl : l ∈ (s.ca.get w.cref).lits) (hv : s.value l = l_True) :
    Pending s p rb rest := by
  intro cr hcr i hi hval hm
  rcases hp cr hcr i hi hval hm with h1 | ⟨h1, h2 | ⟨h2a, x, hx, hxc⟩⟩
  · exact Or.inl h1
  · exact Or.inr ⟨h1, Or.inl h2⟩
  · rcases List.mem_cons.1 hx with rfl | hx
    · left
      refine ⟨l, by rw [← hxc]; exact hl, hv, ?_⟩
      rw [h1, var_neg]; exact level_le_current' hc hwf ht hv
    · exact Or.inr ⟨h1, Or.inr ⟨h2a, x, hx, hxc⟩⟩

/-- Case of a true blocker: the watcher is kept as it is. -/
theorem LInv.keep_lInv {p : Nat} {acc rest : List Watcher} {w : Watcher} {s : Solver}
    (h : LInv p acc (w :: rest) s) (hb : s.value w.blocker = l_True) :
    LInv p (acc ++ [w]) rest s := by
  refine ⟨?_, h.cur, h.hp, h.pend.resolve_pending h.wf_lInv h.trail_lInv h.cur h.head_lInv.1.2.2.2 hb⟩
  have : acc ++ [w] ++ rest = acc ++ w :: rest := by simp
  rw [this]; exact h.inv

theorem reason_first {V : Solver} (h : PropInv V) {cr i : Nat}
    (hlong : 2 < (V.ca.get cr).lits.length) (hi : i < V.trail.length)
    (hlev : 0 < V.level (var (V.trail.getD i 0)))
    (hr : V.reason (var (V.trail.getD i 0)) = some cr) :
    (V.ca.get cr).lit 0 = V.trail.getD i 0 := by
  have := h.reasons i hi hlev cr (by rw [hr]; simp)
  rcases this.2.2.1 with h1 | ⟨h1, _⟩
  · exact h1
  · omega

theorem ca_get_modify_self (ca : ClauseAllocator) (cr : Nat) (f : Clause → Clause)
    (h : cr < ca.mem.length) : (ca.modify cr f).get cr = f (ca.get cr) :=
  get_of_mem_set (a := ca) rfl h

theorem get_modify_ne (ca : ClauseAllocator) (cr : Nat) (f : Clause → Clause) {x : Nat}
    (h : x ≠ cr) : (ca.modify cr f).get x = ca.get x :=
  get_of_mem_set_ne (a := ca) rfl h

theorem lit_swap0 (l : List Nat) (a b : Nat) (h : 2 ≤ l.length) :
    ((l.set 0 a).set 1 b).getD 0 0 = a := by
  rw [getD_set_ne' _ _ _ (by omega), getD_set_self' _ _ _ _ (by omega)]

theorem lit_swap1 (l : List Nat) (a b : Nat) (h : 2 ≤ l.length) :
    ((l.set 0 a).set 1 b).getD 1 0 = b := by
  rw [getD_set_self' _ _ _ _ (by simp; omega)]

/-- The exchange of the first two literals keeps the invariant of the scan and leaves the
false literal at position 1. -/
theorem LInv.swap_lInv {p : Nat} {acc rest : List Watcher} {w : Watcher} {s : Solver}
    (h : LInv p acc (w :: rest) s) :
    LInv p acc (w :: rest) (swapFalse p w.cref s) ∧
    ((swapFalse p w.cref s).ca.get w.cref).lit 1 = neg p := by
  obtain ⟨⟨hw1, hw2, hw3, hw4⟩, hmark, hnd, hgood⟩ := h.head_lInv
  unfold swapFalse
  split
  · rename_i he
    have he' : (s.ca.get w.cref).lit 0 = neg p := by simpa using he
    have key : ∃ c' : Clause, c' = { (s.ca.get w.cref) with
          lits := ((s.ca.get w.cref).lits.set 0 ((s.ca.get w.cref).lit 1)).set 1 (neg p) } ∧
        c'.lit 0 = (s.ca.get w.cref).lit 1 ∧ c'.lit 1 = (s.ca.get w.cref).lit 0 ∧
        c'.lits.Perm (s.ca.get w.cref).lits := by
      refine ⟨_, rfl, lit_swap0 _ _ _ (by omega), ?_, ?_⟩
      · rw [he']; exact lit_swap1 _ _ _ (by omega)
      · show (((s.ca.get w.cref).lits.set 0 ((s.ca.get w.cref).lit 1)).set 1 (neg p)).Perm _
        rw [← he']
        exact swap01_perm _ (by omega)
    obtain ⟨c', hc', hl0, hl1, hperm⟩ := key
    have hgs : (s.ca.modify w.cref (fun c =>
        { c with lits := (c.lits.set 0 (c.lit 1)).set 1 (neg p) })).get w.cref = c' := by
      rw [ca_get_modify_self _ _ _ hw1, hc']
    refine ⟨⟨?_, h.cur, h.hp, ?_⟩, ?_⟩
    · refine h.inv.update_propInv w.cref c' hw1 hw2 hmark hperm (by rw [hc']; rfl) (by rw [hc']; rfl)
        (by rw [hc']; rfl) (by rw [hc']; rfl) rfl rfl rfl rfl rfl rfl rfl rfl rfl rfl rfl rfl rfl
        ?_ (fun q x hx _ => hx) ?_ ?_
      · intro q hq
        refine ⟨(h.inv.watch q hq).1, ?_⟩
        intro x hx
        by_cases e : x.cref = w.cref
        · right
          obtain ⟨_, _, x3, x4⟩ := (h.inv.watch q hq).2.1 x hx
          have x3' : (s.ca.get w.cref).lit 0 = neg q ∨ (s.ca.get w.cref).lit 1 = neg q := by
            rw [← e]; exact x3
          have x4' : x.blocker ∈ (s.ca.get w.cref).lits := by rw [← e]; exact x4
          refine ⟨e, ?_, hperm.mem_iff.2 x4'⟩
          rw [hl0, hl1]
          exact x3'.symm
        · exact Or.inl ⟨e, hx⟩
      · intro hc
        obtain ⟨_, _, _, e0, e1⟩ := h.inv.clauses w.cref hc
        unfold hasWatch at e0 e1
        rw [if_neg (by show ¬ (s.ca.get w.cref).lits.length = 2; omega)] at e0 e1
        rw [hl0, hl1]
        exact ⟨e1, e0⟩
      · intro i hi hlev hr
        exfalso
        have hf := @reason_first _ h.inv w.cref _ hw2 hi hlev hr
        have ht := (h.trail_lInv.1 _ (getD_mem' s.trail 0 hi)).2
        have hf' : (s.ca.get w.cref).lit 0 = s.trail.getD i 0 := hf
        rw [← hf', he', value_neg_true, h.value_p_lInv] at ht
        cases ht
    · refine h.pend.update_pending w.cref c' hw1 (by rw [hc']; rfl) rfl rfl rfl rfl rfl
        (fun x hx _ => hx) ?_
      intro hc i hi
      rw [hperm.length_eq]
      have key : ∀ j < 2, s.value ((s.ca.get w.cref).lit j) = l_False →
          neg ((s.ca.get w.cref).lit j) ∈ s.trail.take s.qhead →
          (∃ l ∈ c'.lits,
            s.value l = l_True ∧ s.level (var l) ≤ s.level (var ((s.ca.get w.cref).lit j))) ∨
          ((s.ca.get w.cref).lit j = neg p ∧
            (((s.ca.get w.cref).lits.length = 2 ∧ ∃ x ∈ ([] : List Watcher), x.cref = w.cref) ∨
             ((s.ca.get w.cref).lits.length ≠ 2 ∧ ∃ x ∈ w :: rest, x.cref = w.cref))) := by
        intro j hj hv hm
        rcases h.pend w.cref hc j hj hv hm with ⟨l, hl, hlv⟩ | h2
        · exact Or.inl ⟨l, hperm.mem_iff.2 hl, hlv⟩
        · exact Or.inr h2
      have hi' : i = 0 ∨ i = 1 := by omega
      rcases hi' with rfl | rfl
      · rw [hl0]; exact key 1 (by omega)
      · rw [hl1]; exact key 0 (by omega)
    · dsimp only
      rw [hgs, hl1, he']
  · rename_i he
    refine ⟨h, ?_⟩
    rcases hw3 with h0 | h1
    · rw [h0] at he; simp at he
    · exact h1

theorem nodup_mid {l1 l2 : List Watcher} {a : Watcher}
    (h : ((l1 ++ a :: l2).map Watcher.cref).Nodup) :
    ∀ x ∈ l1 ++ l2, x.cref ≠ a.cref := by
  intro x hx e
  rw [List.map_append, List.map_cons] at h
  have h1 := List.nodup_append.1 h
  rcases List.mem_append.1 hx with hx | hx
  · exact h1.2.2 (List.mem_map_of_mem _ hx) (by rw [e]; simp)
  · have := (List.nodup_cons.1 h1.2.1).1
    apply this
    rw [← e]; exact List.mem_map_of_mem _ hx

theorem nodup_mid_remove {l1 l2 : List Watcher} {a : Watcher}
    (h : ((l1 ++ a :: l2).map Watcher.cref).Nodup) : ((l1 ++ l2).map Watcher.cref).Nodup := by
  rw [List.map_append, List.map_cons] at h
  rw [List.map_append]
  have h1 := List.nodup_append.1 h
  refine List.nodup_append.2 ⟨h1.1, (List.nodup_cons.1 h1.2.1).2, ?_⟩
  intro x hx hy
  exact h1.2.2 hx (List.mem_cons_of_mem _ hy)

theorem mem_mid {l1 l2 : List Watcher} {a x : Watcher} (h : x ∈ l1 ++ a :: l2) :
    x = a ∨ x ∈ l1 ++ l2 := by
  simp only [List.mem_append, List.mem_cons] at h ⊢
  tauto

theorem mem_mid_of {l1 l2 : List Watcher} {a x : Watcher} (h : x ∈ l1 ++ l2) :
    x ∈ l1 ++ a :: l2 := by
  simp only [List.mem_append, List.mem_cons] at h ⊢
  tauto

/-- The watcher at the head of `rest` may be replaced by one of the same clause whose
blocker is the first literal. -/
theorem LInv.replace_lInv {p : Nat} {acc rest : List Watcher} {w : Watcher} {s : Solver}
    (h : LInv p acc (w :: rest) s) (h1 : (s.ca.get w.cref).lit 1 = neg p) :
    PropInv (virt s p (acc ++ (⟨w.cref, (s.ca.get w.cref).lit 0⟩ : Watcher) :: rest)) := by
  obtain ⟨⟨hw1, hw2, hw3, hw4⟩, hmark, hnd, hgood⟩ := h.head_lInv
  have hocc := h.occ_lInv
  have hl0 : (s.ca.get w.cref).lit 0 ∈ (s.ca.get w.cref).lits := lit_mem _ 0 (by omega)
  refine h.inv.update_propInv w.cref (s.ca.get w.cref) hw1 hw2 hmark (List.Perm.refl _) rfl rfl rfl
    ?_ rfl rfl rfl rfl rfl rfl rfl rfl rfl rfl rfl rfl ?_ ?_ ?_ ?_ ?_
  · show s.ca.mem = s.ca.mem.set w.cref (s.ca.get w.cref)
    exact (set_getD_same default s.ca.mem w.cref hw1).symm
  · simp [virt, OccLists.setList]
  · intro q hq
    by_cases hqp : q = p
    · subst hqp
      rw [virt_get_self _ _ _ hocc, virt_get_self _ _ _ hocc]
      refine ⟨by simpa using hnd, ?_⟩
      intro x hx
      rcases mem_mid hx with rfl | hx
      · exact Or.inr ⟨rfl, Or.inr h1, hl0⟩
      · exact Or.inl ⟨nodup_mid hnd x hx, mem_mid_of hx⟩
    · rw [virt_get_ne _ _ _ hqp, virt_get_ne _ _ _ hqp]
      have hold := h.inv.watch q hq
      rw [virt_get_ne _ _ _ hqp] at hold
      refine ⟨hold.1, ?_⟩
      intro x hx
      by_cases e : x.cref = w.cref
      · obtain ⟨_, _, x3, x4⟩ := hold.2.1 x hx
        right
        refine ⟨e, ?_, ?_⟩
        · rw [← e]; exact x3
        · rw [← e]; exact x4
      · exact Or.inl ⟨e, hx⟩
  · intro q x hx hne
    by_cases hqp : q = p
    · subst hqp
      rw [virt_get_self _ _ _ hocc] at hx ⊢
      rcases mem_mid hx with rfl | hx
      · exact absurd rfl hne
      · exact mem_mid_of hx
    · rw [virt_get_ne _ _ _ hqp] at hx ⊢
      exact hx
  · intro hc
    obtain ⟨_, _, _, e0, _⟩ := h.inv.clauses w.cref hc
    unfold hasWatch at e0
    rw [if_neg (by show ¬ (s.ca.get w.cref).lits.length = 2; omega)] at e0
    have hlast : ∃ x ∈ (virt s p (acc ++ (⟨w.cref, (s.ca.get w.cref).lit 0⟩ : Watcher) :: rest)).watches.get p,
        x.cref = w.cref := by
      rw [virt_get_self _ _ _ hocc]
      exact ⟨⟨w.cref, (s.ca.get w.cref).lit 0⟩, by simp, rfl⟩
    refine ⟨?_, ?_⟩
    · by_cases hqp : neg ((s.ca.get w.cref).lit 0) = p
      · rw [hqp]; exact hlast
      · obtain ⟨x, hx, hxc⟩ := e0
        have hx' : x ∈ (virt s p (acc ++ w :: rest)).watches.get (neg ((s.ca.get w.cref).lit 0)) := hx
        rw [virt_get_ne _ _ _ hqp] at hx' ⊢
        exact ⟨x, hx', hxc⟩
    · rw [h1, neg_neg]; exact hlast
  · intro i hi hlev hr
    exact @reason_first _ h.inv w.cref _ hw2 hi hlev hr

/-- Case of a true first literal: the watcher is kept with the first literal as blocker. -/
theorem LInv.keepFirst_lInv {p : Nat} {acc rest : List Watcher} {w : Watcher} {s : Solver}
    (h : LInv p acc (w :: rest) s) (h1 : (s.ca.get w.cref).lit 1 = neg p)
    (hv : s.value ((s.ca.get w.cref).lit 0) = l_True) :
    LInv p (acc ++ [(⟨w.cref, (s.ca.get w.cref).lit 0⟩ : Watcher)]) rest s := by
  refine ⟨?_, h.cur, h.hp,
    h.pend.resolve_pending h.wf_lInv h.trail_lInv h.cur (lit_mem _ 0 (by have := h.head_lInv.1.2.1; omega)) hv⟩
  have : acc ++ [(⟨w.cref, (s.ca.get w.cref).lit 0⟩ : Watcher)] ++ rest
      = acc ++ (⟨w.cref, (s.ca.get w.cref).lit 0⟩ : Watcher) :: rest := by simp
  rw [this]; exact h.replace_lInv h1

theorem Pending.lowWatched2_pending {s : Solver} {p : Nat} {rb rl : List Watcher}
    (hp : Pending s p rb rl) (hwf : TrailWF s) (ht : TrailOK s) (hc : Current s p) :
    LowWatched s := by
  intro cr hcr i hi hv hlev
  have hm := false_mem_trail hwf ht hv
  obtain ⟨j, hj, hjg⟩ := mem_trail_pos hm
  have hjq : j < s.qhead := by
    by_contra hn
    have : s.level (var (s.trail.getD j 0)) = s.decisionLevel := by
      apply level_eq_of_fences_le hwf hj
      intro x hx
      have := hc.2.2.2 x hx
      omega
    rw [hjg, var_neg] at this
    omega
  have hmt : neg ((s.ca.get cr).lit i) ∈ s.trail.take s.qhead := by
    rw [← hjg, List.getD_eq_getElem _ _ hj]
    exact List.mem_take_iff_getElem.2 ⟨j, by omega, rfl⟩
  rcases hp cr hcr i hi hv hmt with h1 | ⟨h1, _⟩
  · exact h1
  · rw [h1, var_neg, hc.level_current hwf] at hlev
    omega

theorem PropInv.set_qhead_propInv {V : Solver} (h : PropInv V) :
    PropInv { V with qhead := V.trail.length } :=
  ⟨h.sizes.congr_sizesOK rfl rfl rfl rfl rfl rfl rfl rfl, h.wf.congr_trailWF rfl rfl rfl rfl,
   ⟨h.trail.1, le_refl _, h.wf.lim_le⟩, h.arena.congr_arenaOK rfl rfl, h.watch.congr_watchOK rfl rfl rfl rfl,
   h.nodel.congr_noDeleted rfl rfl rfl rfl, h.clauses.congr_clausesOK rfl rfl rfl rfl rfl,
   h.reasons.congr_reasonsOK rfl rfl rfl rfl rfl⟩

/-- Case of a conflict: every literal of the clause is false. -/
theorem LInv.conflict_lInv {p : Nat} {acc rest : List Watcher} {w : Watcher} {s : Solver}
    (h : LInv p acc (w :: rest) s) (h1 : (s.ca.get w.cref).lit 1 = neg p)
    (hv : s.value ((s.ca.get w.cref).lit 0) = l_False)
    (hf : findNewWatch s ((s.ca.get w.cref).lits.drop 2) 2 = none) :
    PropInv (virt { s with qhead := s.trail.length } p
      (acc ++ [(⟨w.cref, (s.ca.get w.cref).lit 0⟩ : Watcher)] ++ rest)) ∧
    LowWatched { s with qhead := s.trail.length } ∧
    ConflictAt { s with qhead := s.trail.length } w.cref := by
  obtain ⟨⟨hw1, hw2, hw3, hw4⟩, hmark, hnd, hgood⟩ := h.head_lInv
  refine ⟨?_, ?_, ?_⟩
  · have e : acc ++ [(⟨w.cref, (s.ca.get w.cref).lit 0⟩ : Watcher)] ++ rest
        = acc ++ (⟨w.cref, (s.ca.get w.cref).lit 0⟩ : Watcher) :: rest := by simp
    rw [e]
    exact (h.replace_lInv h1).set_qhead_propInv
  · exact h.pend.lowWatched2_pending h.wf_lInv h.trail_lInv h.cur
  · have hw2' : 2 ≤ (s.ca.get w.cref).lits.length := by omega
    refine ⟨hw1, hw2', ?_, neg p, ?_, ?_⟩
    · intro l hl
      show s.value l = l_False
      rcases mem_lits_cases _ hw2' hl with rfl | rfl | hl
      · exact hv
      · have : (s.ca.get w.cref).lits.getD 1 0 = neg p := h1
        rw [this]; exact value_neg_false.2 h.value_p_lInv
      · exact findNewWatch_none s _ 2 hf l hl
    · rw [← h1]; exact lit_mem _ 1 hw2'
    · show s.level (var (neg p)) = s.decisionLevel
      rw [var_neg]; exact h.cur.level_current h.wf_lInv

theorem neg_lt {l n : Nat} (h : var l < n) : neg l < 2 * n := by
  unfold var at h; unfold neg; split <;> omega

theorem getD_drop' (l : List Nat) (i j : Nat) : (l.drop i).getD j 0 = l.getD (i + j) 0 := by
  rw [List.getD_eq_getElem?_getD, List.getD_eq_getElem?_getD, List.getElem?_drop]

theorem lit_move0 (l : List Nat) (a b k : Nat) (hk : 2 ≤ k) :
    ((l.set 1 a).set k b).getD 0 0 = l.getD 0 0 := by
  rw [getD_set_ne' _ _ _ (by omega), getD_set_ne' _ _ _ (by omega)]

theorem lit_move1 (l : List Nat) (a b k : Nat) (hk : 2 ≤ k) (h : 2 ≤ l.length) :
    ((l.set 1 a).set k b).getD 1 0 = a := by
  rw [getD_set_ne' _ _ _ (by omega), getD_set_self' _ _ _ _ (by omega)]

/-- Case of a new watch: the watcher moves to the list of the complement of the literal
found. -/
theorem LInv.move_lInv {p : Nat} {acc rest : List Watcher} {w : Watcher} {s : Solver} {k : Nat}
    (h : LInv p acc (w :: rest) s) (h1 : (s.ca.get w.cref).lit 1 = neg p)
    (hf : findNewWatch s ((s.ca.get w.cref).lits.drop 2) 2 = some k) :
    LInv p acc rest
      { s with
        ca := s.ca.modify w.cref (fun c =>
          { c with lits := (c.lits.set 1 (c.lit k)).set k (neg p) }),
        watches := s.watches.push (neg ((s.ca.get w.cref).lit k))
          ⟨w.cref, (s.ca.get w.cref).lit 0⟩ } := by
  obtain ⟨⟨hw1, hw2, hw3, hw4⟩, hmark, hnd, hgood⟩ := h.head_lInv
  have hocc := h.occ_lInv
  have hb := findNewWatch_bound s _ 2 k hf
  have hk2 : 2 ≤ k := hb.1
  have hkl : k < (s.ca.get w.cref).lits.length := by
    have := hb.2
    simp only [List.length_drop] at this
    omega
  have hvk : s.value ((s.ca.get w.cref).lit k) ≠ l_False := by
    have := findNewWatch_value s _ 2 k hf
    rw [getD_drop'] at this
    have e : 2 + (k - 2) = k := by omega
    rw [e] at this
    exact this
  have hl2 : 2 ≤ (s.ca.get w.cref).lits.length := by omega
  have hk0 : (s.ca.get w.cref).lit k ≠ (s.ca.get w.cref).lit 0 :=
    nodup_getD_ne hgood.2.1 hkl (by omega) (by omega)
  have hk1 : (s.ca.get w.cref).lit k ≠ (s.ca.get w.cref).lit 1 :=
    nodup_getD_ne hgood.2.1 hkl (by omega) (by omega)
  have h01 : (s.ca.get w.cref).lit 0 ≠ (s.ca.get w.cref).lit 1 :=
    nodup_getD_ne hgood.2.1 (by omega) (by omega) (by omega)
  have hkp : neg ((s.ca.get w.cref).lit k) ≠ p := by
    intro e
    apply hk1
    rw [h1, ← e, neg_neg]
  have h0p : neg ((s.ca.get w.cref).lit 0) ≠ p := by
    intro e
    apply h01
    rw [h1, ← e, neg_neg]
  have h0k : neg ((s.ca.get w.cref).lit 0) ≠ neg ((s.ca.get w.cref).lit k) :=
    fun e => hk0 (neg_inj e).symm
  have hkn : neg ((s.ca.get w.cref).lit k) < s.watches.occs.length := by
    have h4 := h.inv.sizes.2.2.2.1
    have e : (virt s p (acc ++ w :: rest)).watches.occs.length = s.watches.occs.length := by
      simp [virt, OccLists.setList]
    rw [e] at h4
    rw [h4]
    exact neg_lt (hgood.2.2 _ (lit_mem _ k hkl))
  have key : ∃ c' : Clause, c' = { (s.ca.get w.cref) with
        lits := ((s.ca.get w.cref).lits.set 1 ((s.ca.get w.cref).lit k)).set k (neg p) } ∧
      c'.lit 0 = (s.ca.get w.cref).lit 0 ∧ c'.lit 1 = (s.ca.get w.cref).lit k ∧
      c'.lits.Perm (s.ca.get w.cref).lits := by
    refine ⟨_, rfl, lit_move0 _ _ _ _ hk2, lit_move1 _ _ _ _ hk2 hl2, ?_⟩
    show (((s.ca.get w.cref).lits.set 1 ((s.ca.get w.cref).lit k)).set k (neg p)).Perm _
    rw [← h1]
    exact swap1k_perm _ k hk2 hkl
  obtain ⟨c', hc', hl0, hl1, hperm⟩ := key
  -- the watch lists of the new virtual state
  have gp : ∀ (L : List Watcher),
      (virt { s with
        ca := s.ca.modify w.cref (fun c =>
          { c with lits := (c.lits.set 1 (c.lit k)).set k (neg p) }),
        watches := s.watches.push (neg ((s.ca.get w.cref).lit k))
          ⟨w.cref, (s.ca.get w.cref).lit 0⟩ } p L).watches.get p = L := by
    intro L
    apply virt_get_self
    simp [OccLists.push]; exact hocc
  have gk : ∀ (L : List Watcher),
      (virt { s with
        ca := s.ca.modify w.cref (fun c =>
          { c with lits := (c.lits.set 1 (c.lit k)).set k (neg p) }),
        watches := s.watches.push (neg ((s.ca.get w.cref).lit k))
          ⟨w.cref, (s.ca.get w.cref).lit 0⟩ } p L).watches.get (neg ((s.ca.get w.cref).lit k))
        = s.watches.get (neg ((s.ca.get w.cref).lit k)) ++
            [(⟨w.cref, (s.ca.get w.cref).lit 0⟩ : Watcher)] := by
    intro L
    rw [virt_get_ne _ _ _ hkp]
    exact push_get_self' _ _ _ hkn
  have go : ∀ (L : List Watcher) (q : Nat), q ≠ p → q ≠ neg ((s.ca.get w.cref).lit k) →
      (virt { s with
        ca := s.ca.modify w.cref (fun c =>
          { c with lits := (c.lits.set 1 (c.lit k)).set k (neg p) }),
        watches := s.watches.push (neg ((s.ca.get w.cref).lit k))
          ⟨w.cref, (s.ca.get w.cref).lit 0⟩ } p L).watches.get q = s.watches.get q := by
    intro L q hq1 hq2
    rw [virt_get_ne _ _ _ hq1]
    exact push_get_ne _ _ _ hq2
  have hself : ∀ q, q ≠ p → ∀ x ∈ s.watches.get q, x.cref = w.cref → q < 2 * s.assigns.length →
      (s.ca.get w.cref).lit 0 = neg q ∧ x.blocker ∈ (s.ca.get w.cref).lits := by
    intro q hq x hx e hq2
    have hold := (h.inv.watch q hq2).2.1 x (by rw [virt_get_ne _ _ _ hq]; exact hx)
    obtain ⟨_, _, x3, x4⟩ := hold
    have x3' : (s.ca.get w.cref).lit 0 = neg q ∨ (s.ca.get w.cref).lit 1 = neg q := by
      rw [← e]; exact x3
    refine ⟨?_, by rw [← e]; exact x4⟩
    rcases x3' with x3' | x3'
    · exact x3'
    · exfalso
      rw [h1] at x3'
      exact hq (neg_inj x3').symm
  refine ⟨?_, h.cur, h.hp, ?_⟩
  · refine h.inv.update_propInv w.cref c' hw1 hw2 hmark hperm (by rw [hc']; rfl) (by rw [hc']; rfl)
      (by rw [hc']; rfl) (by rw [hc']; rfl) rfl rfl rfl rfl rfl rfl rfl rfl rfl rfl rfl rfl
      ?_ ?_ ?_ ?_ ?_
    · simp [virt, OccLists.setList, OccLists.push]
    · intro q hq
      by_cases hqp : q = p
      · subst hqp
        rw [gp, virt_get_self _ _ _ hocc]
        refine ⟨nodup_mid_remove hnd, ?_⟩
        intro x hx
        exact Or.inl ⟨nodup_mid hnd x hx, mem_mid_of hx⟩
      · by_cases hqk : q = neg ((s.ca.get w.cref).lit k)
        · subst hqk
          rw [gk, virt_get_ne _ _ _ hqp]
          have hold := h.inv.watch _ hq
          rw [virt_get_ne _ _ _ hqp] at hold
          have hne : ∀ x ∈ s.watches.get (neg ((s.ca.get w.cref).lit k)), x.cref ≠ w.cref := by
            intro x hx e
            have := (hself _ hqp x hx e hq).1
            rw [neg_neg] at this
            exact hk0 this.symm
          refine ⟨?_, ?_⟩
          · rw [List.map_append, List.nodup_append]
            refine ⟨hold.1, by simp, ?_⟩
            intro a ha hb
            simp only [List.map_cons, List.map_nil, List.mem_singleton] at hb
            obtain ⟨x, hx, rfl⟩ := List.mem_map.1 ha
            exact hne x hx hb
          · intro x hx
            rcases List.mem_append.1 hx with hx | hx
            · exact Or.inl ⟨hne x hx, hx⟩
            · simp only [List.mem_singleton] at hx
              subst hx
              refine Or.inr ⟨rfl, Or.inr ?_, ?_⟩
              · rw [hl1, neg_neg]
              · exact hperm.mem_iff.2 (lit_mem _ 0 (by omega))
        · rw [go _ q hqp hqk, virt_get_ne _ _ _ hqp]
          have hold := h.inv.watch q hq
          rw [virt_get_ne _ _ _ hqp] at hold
          refine ⟨hold.1, ?_⟩
          intro x hx
          by_cases e : x.cref = w.cref
          · have := hself q hqp x hx e hq
            exact Or.inr ⟨e, Or.inl (by rw [hl0]; exact this.1), hperm.mem_iff.2 this.2⟩
          · exact Or.inl ⟨e, hx⟩
    · intro q x hx hne
      by_cases hqp : q = p
      · subst hqp
        rw [virt_get_self _ _ _ hocc] at hx
        rw [gp]
        rcases mem_mid hx with rfl | hx
        · exact absurd rfl hne
        · exact hx
      · rw [virt_get_ne _ _ _ hqp] at hx
        by_cases hqk : q = neg ((s.ca.get w.cref).lit k)
        · subst hqk
          rw [gk]
          exact List.mem_append_left _ hx
        · rw [go _ q hqp hqk]; exact hx
    · intro hc
      obtain ⟨_, _, _, e0, _⟩ := h.inv.clauses w.cref hc
      unfold hasWatch at e0
      rw [if_neg (by show ¬ (s.ca.get w.cref).lits.length = 2; omega)] at e0
      rw [hl0, hl1]
      refine ⟨?_, ?_⟩
      · obtain ⟨x, hx, hxc⟩ := e0
        have hx' : x ∈ (virt s p (acc ++ w :: rest)).watches.get (neg ((s.ca.get w.cref).lit 0)) := hx
        rw [virt_get_ne _ _ _ h0p] at hx'
        rw [go _ _ h0p h0k]
        exact ⟨x, hx', hxc⟩
      · rw [gk]
        exact ⟨⟨w.cref, (s.ca.get w.cref).lit 0⟩, by simp, rfl⟩
    · intro i hi hlev hr
      rw [hl0]
      exact @reason_first _ h.inv w.cref _ hw2 hi hlev hr
  · refine h.pend.update_pending w.cref c' hw1 (by rw [hc']; rfl) rfl rfl rfl rfl rfl ?_ ?_
    · intro x hx hne
      rcases List.mem_cons.1 hx with rfl | hx
      · exact absurd rfl hne
      · exact hx
    · intro hc i hi hv hm
      have hi' : i = 0 ∨ i = 1 := by omega
      rcases hi' with rfl | rfl
      · rw [hl0] at hv hm ⊢
        rcases h.pend w.cref hc 0 (by omega) hv hm with ⟨l, hl, hlv⟩ | ⟨h2, _⟩
        · exact Or.inl ⟨l, hperm.mem_iff.2 hl, hlv⟩
        · exact absurd h2 (by rw [← h1]; exact h01)
      · rw [hl1] at hv
        exact absurd hv hvk

theorem LbdFrame.comp_lbdFrame {a b c : Solver} (h1 : LbdFrame a b) (h2 : LbdFrame b c) : LbdFrame a c :=
  ⟨h2.ca.trans h1.ca, h2.assigns.trans h1.assigns, h2.vardata.trans h1.vardata,
   h2.trail.trans h1.trail, h2.trail_lim.trans h1.trail_lim, h2.qhead.trans h1.qhead,
   h2.watches.trans h1.watches, h2.watchesBin.trans h1.watchesBin,
   h2.clauses.trans h1.clauses, h2.learnts.trans h1.learnts, h2.decision.trans h1.decision,
   h2.seen.trans h1.seen, h2.order_heap.trans h1.order_heap,
   h2.assumptions.trans h1.assumptions, h2.activity.trans h1.activity⟩

theorem lbdStep_lbdFrame (a : Nat × Solver) (q : Nat) : LbdFrame a.2 (lbdStep a q).2 := by
  unfold lbdStep
  dsimp only
  split <;> exact ⟨rfl, rfl, rfl, rfl, rfl, rfl, rfl, rfl, rfl, rfl, rfl, rfl, rfl, rfl, rfl⟩

theorem foldl_lbdStep_lbdFrame : ∀ (lits : List Nat) (a : Nat × Solver),
    LbdFrame a.2 (lits.foldl lbdStep a).2
  | [], _ => ⟨rfl, rfl, rfl, rfl, rfl, rfl, rfl, rfl, rfl, rfl, rfl, rfl, rfl, rfl, rfl⟩
  | q :: rest, a => by
    simp only [List.foldl_cons]
    exact (lbdStep_lbdFrame a q).comp_lbdFrame (foldl_lbdStep_lbdFrame rest _)

theorem computeLBD_lbdFrame (s : Solver) (lits : List Nat) :
    LbdFrame s (computeLBD s lits).2 := by
  unfold computeLBD
  have h0 : LbdFrame s { s with MYFLAG := (s.MYFLAG + 1) % 2 ^ 32 } :=
    ⟨rfl, rfl, rfl, rfl, rfl, rfl, rfl, rfl, rfl, rfl, rfl, rfl, rfl, rfl, rfl⟩
  exact h0.comp_lbdFrame (foldl_lbdStep_lbdFrame lits (0, _))

/-- The fields of `dynamicLBD`: one clause may get another LBD, all the rest of the core
stays. -/
theorem dynamicLBD_fields (s : Solver) (cr : Nat) (hcr : cr < s.ca.mem.length) :
    ∃ c' : Clause, (dynamicLBD s cr).ca.mem = s.ca.mem.set cr c' ∧
      c'.lits = (s.ca.get cr).lits ∧ c'.learnt = (s.ca.get cr).learnt ∧
      c'.mark = (s.ca.get cr).mark ∧ c'.reloced = (s.ca.get cr).reloced ∧
      c'.lbd ≤ (s.ca.get cr).lbd ∧
      (dynamicLBD s cr).assigns = s.assigns ∧ (dynamicLBD s cr).vardata = s.vardata ∧
      (dynamicLBD s cr).trail = s.trail ∧ (dynamicLBD s cr).trail_lim = s.trail_lim ∧
      (dynamicLBD s cr).qhead = s.qhead ∧ (dynamicLBD s cr).watches = s.watches ∧
      (dynamicLBD s cr).watchesBin = s.watchesBin ∧ (dynamicLBD s cr).clauses = s.clauses ∧
      (dynamicLBD s cr).learnts = s.learnts ∧ (dynamicLBD s cr).decision = s.decision ∧
      (dynamicLBD s cr).seen = s.seen ∧ (dynamicLBD s cr).order_heap = s.order_heap ∧
      (dynamicLBD s cr).assumptions = s.assumptions := by
  have hf := computeLBD_lbdFrame s (s.ca.get cr).lits
  have hsame : s.ca.mem = s.ca.mem.set cr (s.ca.get cr) :=
    (set_getD_same default s.ca.mem cr hcr).symm
  unfold dynamicLBD
  dsimp only
  split
  · split
    · rename_i h1 h2
      refine ⟨{ (s.ca.get cr) with
          canBeDel := if (s.ca.get cr).lbd ≤ (computeLBD s (s.ca.get cr).lits).2.lbLBDFrozenClause
            then false else (s.ca.get cr).canBeDel,
          lbd := (computeLBD s (s.ca.get cr).lits).1 }, ?_, rfl, rfl, rfl, rfl, ?_,
        hf.assigns, hf.vardata, hf.trail, hf.trail_lim, hf.qhead, hf.watches, hf.watchesBin,
        hf.clauses, hf.learnts, hf.decision, hf.seen, hf.order_heap, hf.assumptions⟩
      · show ((computeLBD s (s.ca.get cr).lits).2.ca.modify cr _).mem = _
        unfold ClauseAllocator.modify
        dsimp only
        rw [hf.ca]
      · show (computeLBD s (s.ca.get cr).lits).1 ≤ (s.ca.get cr).lbd
        omega
    · exact ⟨s.ca.get cr, by rw [hf.ca]; exact hsame, rfl, rfl, rfl, rfl, le_refl _,
        hf.assigns, hf.vardata, hf.trail, hf.trail_lim, hf.qhead, hf.watches, hf.watchesBin,
        hf.clauses, hf.learnts, hf.decision, hf.seen, hf.order_heap, hf.assumptions⟩
  · exact ⟨s.ca.get cr, hsame, rfl, rfl, rfl, rfl, le_refl _, rfl, rfl, rfl, rfl, rfl, rfl,
      rfl, rfl, rfl, rfl, rfl, rfl, rfl⟩

/-- A change of the LBD of a long clause keeps the invariant of `propagate`. -/
theorem PropInv.meta_propInv {V V' : Solver} (h : PropInv V) (cr : Nat) (c' : Clause)
    (hcr : cr < V.ca.mem.length) (hlong : 2 < (V.ca.get cr).lits.length)
    (hmark : (V.ca.get cr).mark ≠ 1)
    (hlits : c'.lits = (V.ca.get cr).lits) (hlearnt : c'.learnt = (V.ca.get cr).learnt)
    (hmk : c'.mark = (V.ca.get cr).mark) (hrl : c'.reloced = (V.ca.get cr).reloced)
    (hmem : V'.ca.mem = V.ca.mem.set cr c')
    (h2 : V'.assigns = V.assigns) (h3 : V'.vardata = V.vardata) (h4 : V'.trail = V.trail)
    (h5 : V'.trail_lim = V.trail_lim) (h6 : V'.qhead = V.qhead)
    (h7 : V'.watches = V.watches) (h8 : V'.watchesBin = V.watchesBin)
    (h9 : V'.clauses = V.clauses) (h10 : V'.learnts = V.learnts)
    (h11 : V'.decision = V.decision) (h12 : V'.seen = V.seen) : PropInv V' := by
  have hl : ∀ i, c'.lit i = (V.ca.get cr).lit i := fun i => by unfold Clause.lit; rw [hlits]
  refine h.update_propInv cr c' hcr hlong hmark (by rw [hlits]) hlearnt hmk hrl hmem h2 h3 h4 h5 h6
    (by rw [h8]) h9 h10 h11 (by rw [h12]) (by rw [h7]) (by rw [h8]) (by rw [h7]) ?_ ?_ ?_ ?_
  · intro q hq
    rw [h7]
    refine ⟨(h.watch q hq).1, ?_⟩
    intro x hx
    by_cases e : x.cref = cr
    · obtain ⟨_, _, x3, x4⟩ := (h.watch q hq).2.1 x hx
      refine Or.inr ⟨e, ?_, ?_⟩
      · rw [hl, hl, ← e]; exact x3
      · rw [hlits, ← e]; exact x4
    · exact Or.inl ⟨e, hx⟩
  · intro q x hx _
    rw [h7]; exact hx
  · intro hc
    obtain ⟨_, _, _, e0, e1⟩ := h.clauses cr hc
    unfold hasWatch at e0 e1
    rw [if_neg (by omega)] at e0 e1
    rw [hl, hl, h7]
    exact ⟨e0, e1⟩
  · intro i hi hlev hr
    rw [hl]
    exact reason_first h hlong hi hlev hr

theorem Pending.congr_lits_pending {s t : Solver} {p : Nat} {rb rl : List Watcher}
    (h : Pending s p rb rl) (h1 : ∀ x, (t.ca.get x).lits = (s.ca.get x).lits)
    (h2 : t.assigns = s.assigns) (h3 : t.vardata = s.vardata)
    (h4 : t.trail = s.trail) (h6 : t.qhead = s.qhead) (h9 : t.clauses = s.clauses) :
    Pending t p rb rl := by
  unfold Pending at h ⊢
  have hl : ∀ x i, (t.ca.get x).lit i = (s.ca.get x).lit i := fun x i => by
    unfold Clause.lit; rw [h1]
  simp only [h4, h6, h9, h1, hl, level_congr h3, value_congr h2]
  exact h

theorem lits_of_mem_set {a b : ClauseAllocator} {cr : Nat} {c' : Clause}
    (h : b.mem = a.mem.set cr c') (hl : c'.lits = (a.get cr).lits) (x : Nat) :
    (b.get x).lits = (a.get x).lits := by
  by_cases hx : x = cr
  · subst hx
    by_cases hlt : x < a.mem.length
    · rw [get_of_mem_set h hlt, hl]
    · unfold ClauseAllocator.get
      rw [h, List.set_eq_of_length_le (by omega)]
  · rw [get_of_mem_set_ne h hx]

/-- Case of a unit clause: the first literal is enqueued with the clause as reason. -/
theorem LInv.unit_lInv {p : Nat} {acc rest : List Watcher} {w : Watcher} {s : Solver}
    (h : LInv p acc (w :: rest) s) (h1 : (s.ca.get w.cref).lit 1 = neg p)
    (hv : s.value ((s.ca.get w.cref).lit 0) = l_Undef)
    (hf : findNewWatch s ((s.ca.get w.cref).lits.drop 2) 2 = none) :
    LInv p (acc ++ [(⟨w.cref, (s.ca.get w.cref).lit 0⟩ : Watcher)]) rest
      (dynamicLBD (uncheckedEnqueue s ((s.ca.get w.cref).lit 0) (some w.cref)) w.cref) := by
  obtain ⟨⟨hw1, hw2, hw3, hw4⟩, hmark, hnd, hgood⟩ := h.head_lInv
  have hw2' : 2 ≤ (s.ca.get w.cref).lits.length := by omega
  have e : acc ++ [(⟨w.cref, (s.ca.get w.cref).lit 0⟩ : Watcher)] ++ rest
      = acc ++ (⟨w.cref, (s.ca.get w.cref).lit 0⟩ : Watcher) :: rest := by simp
  have hV1 := h.replace_lInv h1
  have hq : var ((s.ca.get w.cref).lit 0) < s.assigns.length :=
    hgood.2.2 _ (lit_mem _ 0 (by omega))
  have hrf : ReasonFor (virt s p (acc ++ (⟨w.cref, (s.ca.get w.cref).lit 0⟩ : Watcher) :: rest))
      ((s.ca.get w.cref).lit 0) (some w.cref) := by
    intro cr hcr
    simp only [Option.toList_some, List.mem_singleton] at hcr
    subst hcr
    refine ⟨hw1, hw2', Or.inl rfl, ?_, ?_⟩
    · intro l hl hne
      show neg l ∈ s.trail
      rcases mem_lits_cases _ hw2' hl with rfl | rfl | hl
      · exact absurd rfl hne
      · have : (s.ca.get w.cref).lits.getD 1 0 = neg p := h1
        rw [this, neg_neg]; exact h.cur.mem_current
      · exact false_mem_trail h.wf_lInv h.trail_lInv (findNewWatch_none s _ 2 hf l hl)
    · intro e2
      have : (s.ca.get w.cref).lits.length = 2 := e2
      omega
  have hV2 := hV1.enqueue_propInv ((s.ca.get w.cref).lit 0) (some w.cref) hq hv hrf
  have hcur2 := h.cur.enqueue_current ((s.ca.get w.cref).lit 0) (some w.cref)
  have hwf2 : TrailWF (uncheckedEnqueue s ((s.ca.get w.cref).lit 0) (some w.cref)) :=
    hV2.wf.congr_trailWF rfl rfl rfl rfl
  have ht2 : TrailOK (uncheckedEnqueue s ((s.ca.get w.cref).lit 0) (some w.cref)) :=
    hV2.trail.congr_trailOK rfl rfl rfl rfl
  have hp1 : Pending (virt s p (acc ++ (⟨w.cref, (s.ca.get w.cref).lit 0⟩ : Watcher) :: rest)) p []
      (w :: rest) := h.pend.congr_pending rfl rfl rfl rfl rfl rfl
  have hp2 : Pending (uncheckedEnqueue s ((s.ca.get w.cref).lit 0) (some w.cref)) p []
      (w :: rest) :=
    (hp1.enqueue_pending hV1 ((s.ca.get w.cref).lit 0) (some w.cref) hv).congr_pending rfl rfl rfl rfl rfl rfl
  have hp3 : Pending (uncheckedEnqueue s ((s.ca.get w.cref).lit 0) (some w.cref)) p [] rest :=
    hp2.resolve_pending hwf2 ht2 hcur2 (l := (s.ca.get w.cref).lit 0)
      (lit_mem (s.ca.get w.cref) 0 (by omega))
      (enqueue_value_self s _ _ hq)
  obtain ⟨c', hmem, hlits, hlearnt, hmk, hrl, _, f1, f2, f3, f4, f5, f6, f7, f8, f9, f10, f11,
    _, _⟩ := dynamicLBD_fields (uncheckedEnqueue s ((s.ca.get w.cref).lit 0) (some w.cref))
      w.cref hw1
  refine ⟨?_, ?_, ?_, ?_⟩
  · rw [e]
    refine hV2.meta_propInv w.cref c' hw1 hw2 hmark hlits hlearnt hmk hrl hmem f1 f2 f3 f4 f5 ?_ f7 f8 f9
      f10 f11
    show (virt _ p _).watches = (virt _ p _).watches
    unfold virt
    dsimp only
    rw [f6]
    rfl
  · obtain ⟨c1, c2, c3, c4⟩ := hcur2
    exact ⟨by rw [f5]; exact c1, by rw [f5, f3]; exact c2, by rw [f5, f3]; exact c3,
      by rw [f4, f5]; exact c4⟩
  · rw [f1]
    have := h.hp
    simpa [uncheckedEnqueue] using this
  · exact hp3.congr_lits_pending (lits_of_mem_set hmem hlits) f1 f2 f3 f5 f8

theorem swapFalse_assigns (p cr : Nat) (s : Solver) : (swapFalse p cr s).assigns = s.assigns := by
  unfold swapFalse; split <;> rfl

theorem lbool_cases3 (a : lbool) : a = l_True ∨ a = l_False ∨ a = l_Undef := by
  cases a <;> simp

/-- The visit of one long watcher keeps the invariant of the scan, or ends in a conflict
state. -/
theorem longStep_inv {p : Nat} {acc rest : List Watcher} {w : Watcher} {s : Solver}
    (h : LInv p acc (w :: rest) s) :
    ((longStep p w s).2.1 = none → LInv p (acc ++ (longStep p w s).1) rest (longStep p w s).2.2) ∧
    (∀ cr, (longStep p w s).2.1 = some cr →
      PropInv (virt (longStep p w s).2.2 p (acc ++ (longStep p w s).1 ++ rest)) ∧
      LowWatched (longStep p w s).2.2 ∧ ConflictAt (longStep p w s).2.2 cr) := by
  unfold longStep
  by_cases hB : (s.value w.blocker == l_True) = true
  · rw [if_pos hB]
    exact ⟨fun _ => h.keep_lInv (by simpa using hB), fun cr hcr => by simp at hcr⟩
  · rw [if_neg hB]
    dsimp only
    obtain ⟨h', h1⟩ := h.swap_lInv
    have hB1 : (swapFalse p w.cref s).value w.blocker ≠ l_True := by
      rw [value_congr (swapFalse_assigns p w.cref s)]
      simpa using hB
    generalize swapFalse p w.cref s = s1 at h' h1 hB1 ⊢
    by_cases hC : ((s1.ca.get w.cref).lit 0 != w.blocker &&
        s1.value ((s1.ca.get w.cref).lit 0) == l_True) = true
    · rw [if_pos hC]
      simp only [Bool.and_eq_true, beq_iff_eq] at hC
      exact ⟨fun _ => h'.keepFirst_lInv h1 hC.2, fun cr hcr => by simp at hcr⟩
    · rw [if_neg hC]
      have hnt : s1.value ((s1.ca.get w.cref).lit 0) ≠ l_True := by
        intro ht
        apply hC
        simp only [Bool.and_eq_true, beq_iff_eq, bne_iff_ne, ne_eq]
        refine ⟨?_, ht⟩
        intro e
        rw [e] at ht
        exact hB1 ht
      rcases hF : findNewWatch s1 ((s1.ca.get w.cref).lits.drop 2) 2 with _ | k
      · dsimp only
        by_cases hD : (s1.value ((s1.ca.get w.cref).lit 0) == l_False) = true
        · rw [if_pos hD]
          have hD' : s1.value ((s1.ca.get w.cref).lit 0) = l_False := by simpa using hD
          refine ⟨fun hn => by simp at hn, ?_⟩
          intro cr hcr
          simp only [Option.some.injEq] at hcr
          subst hcr
          exact h'.conflict_lInv h1 hD' hF
        · rw [if_neg hD]
          have hU : s1.value ((s1.ca.get w.cref).lit 0) = l_Undef := by
            rcases lbool_cases3 (s1.value ((s1.ca.get w.cref).lit 0)) with e | e | e
            · exact absurd e hnt
            · rw [e] at hD; simp at hD
            · exact e
          exact ⟨fun _ => h'.unit_lInv h1 hU hF, fun cr hcr => by simp at hcr⟩
      · dsimp only
        refine ⟨fun _ => ?_, fun cr hcr => by simp at hcr⟩
        rw [List.append_nil]
        exact h'.move_lInv h1 hF

theorem LitsPerm.rfl_litsPerm (s : Solver) : LitsPerm s s := fun _ => List.Perm.refl _

theorem LitsPerm.comp_litsPerm {a b c : Solver} (h1 : LitsPerm a b) (h2 : LitsPerm b c) : LitsPerm a c :=
  fun x => (h2 x).trans (h1 x)

theorem LitsPerm.of_ca_litsPerm {s t : Solver} (h : t.ca = s.ca) : LitsPerm s t := fun x => by rw [h]

theorem swapFalse_perm {p : Nat} {acc rest : List Watcher} {w : Watcher} {s : Solver}
    (h : LInv p acc (w :: rest) s) : LitsPerm s (swapFalse p w.cref s) := by
  obtain ⟨⟨hw1, hw2, hw3, hw4⟩, hmark, hnd, hgood⟩ := h.head_lInv
  unfold swapFalse
  split
  · rename_i he
    have he' : (s.ca.get w.cref).lit 0 = neg p := by simpa using he
    intro x
    by_cases hx : x = w.cref
    · subst hx
      dsimp only
      rw [ca_get_modify_self _ _ _ hw1]
      show (((s.ca.get w.cref).lits.set 0 ((s.ca.get w.cref).lit 1)).set 1 (neg p)).Perm _
      rw [← he']
      exact swap01_perm _ (by omega)
    · dsimp only
      rw [get_modify_ne _ _ _ hx]
  · exact LitsPerm.rfl_litsPerm s

theorem longStep_perm {p : Nat} {acc rest : List Watcher} {w : Watcher} {s : Solver}
    (h : LInv p acc (w :: rest) s) : LitsPerm s (longStep p w s).2.2 := by
  unfold longStep
  by_cases hB : (s.value w.blocker == l_True) = true
  · rw [if_pos hB]
    exact LitsPerm.rfl_litsPerm s
  · rw [if_neg hB]
    dsimp only
    have hs := swapFalse_perm h
    obtain ⟨h', h1⟩ := h.swap_lInv
    generalize swapFalse p w.cref s = s1 at h' h1 hs ⊢
    obtain ⟨⟨hw1, hw2, hw3, hw4⟩, hmark, hnd, hgood⟩ := h'.head_lInv
    by_cases hC : ((s1.ca.get w.cref).lit 0 != w.blocker &&
        s1.value ((s1.ca.get w.cref).lit 0) == l_True) = true
    · rw [if_pos hC]
      exact hs
    · rw [if_neg hC]
      rcases hF : findNewWatch s1 ((s1.ca.get w.cref).lits.drop 2) 2 with _ | k
      · dsimp only
        by_cases hD : (s1.value ((s1.ca.get w.cref).lit 0) == l_False) = true
        · rw [if_pos hD]
          exact fun x => hs x
        · rw [if_neg hD]
          dsimp only
          obtain ⟨c', hmem, hlits, _⟩ := dynamicLBD_fields
            (uncheckedEnqueue s1 ((s1.ca.get w.cref).lit 0) (some w.cref)) w.cref hw1
          intro x
          rw [lits_of_mem_set hmem hlits x]
          exact hs x
      · dsimp only
        have hb := findNewWatch_bound s1 _ 2 k hF
        have hkl : k < (s1.ca.get w.cref).lits.length := by
          have := hb.2
          simp only [List.length_drop] at this
          omega
        intro x
        refine List.Perm.trans ?_ (hs x)
        by_cases hx : x = w.cref
        · subst hx
          rw [ca_get_modify_self _ _ _ hw1]
          show (((s1.ca.get w.cref).lits.set 1 ((s1.ca.get w.cref).lit k)).set k (neg p)).Perm _
          rw [← h1]
          exact swap1k_perm _ k hb.1 hkl
        · rw [get_modify_ne _ _ _ hx]

/-- The scan of the long watchers of `p`. -/
theorem propLong_inv (p : Nat) : ∀ (rest acc : List Watcher) (s : Solver), LInv p acc rest s →
    LitsPerm s (propLong p rest acc s).2.2 ∧
    ((propLong p rest acc s).2.1 = none →
      LInv p (propLong p rest acc s).1 [] (propLong p rest acc s).2.2) ∧
    (∀ cr, (propLong p rest acc s).2.1 = some cr →
      PropInv (virt (propLong p rest acc s).2.2 p (propLong p rest acc s).1) ∧
      LowWatched (propLong p rest acc s).2.2 ∧ ConflictAt (propLong p rest acc s).2.2 cr)
  | [], acc, s, h => by
    rw [propLong]
    exact ⟨LitsPerm.rfl_litsPerm s, fun _ => h, fun cr hcr => by simp at hcr⟩
  | w :: rest, acc, s, h => by
    rw [propLong_cons]
    have hs := longStep_inv h
    have hpm := longStep_perm h
    rcases hL : longStep p w s with ⟨k, c, t⟩
    rw [hL] at hs hpm
    cases c with
    | none =>
      dsimp only
      have ih := propLong_inv p rest (acc ++ k) t (hs.1 rfl)
      exact ⟨hpm.comp_litsPerm ih.1, ih.2⟩
    | some cr =>
      dsimp only
      refine ⟨hpm, fun hn => by simp at hn, ?_⟩
      intro cr' hcr'
      simp only [Option.some.injEq] at hcr'
      subst hcr'
      exact hs.2 cr rfl

theorem lit_lt {l n : Nat} (h : var l < n) : l < 2 * n := by
  unfold var at h; omega

theorem LowWatched.congr_lowWatched {s t : Solver} (h : LowWatched s) (h1 : t.ca.mem = s.ca.mem)
    (h2 : t.assigns = s.assigns) (h3 : t.vardata = s.vardata)
    (h5 : t.trail_lim = s.trail_lim) (h9 : t.clauses = s.clauses) : LowWatched t := by
  unfold LowWatched at h ⊢
  have hd : t.decisionLevel = s.decisionLevel := by unfold decisionLevel; rw [h5]
  simp only [h9, hd, get_congr h1, level_congr h3, value_congr h2]
  exact h

theorem ConflictAt.congr_conflictAt {s t : Solver} {cr : Nat} (h : ConflictAt s cr)
    (h1 : t.ca.mem = s.ca.mem) (h2 : t.assigns = s.assigns) (h3 : t.vardata = s.vardata)
    (h5 : t.trail_lim = s.trail_lim) : ConflictAt t cr := by
  unfold ConflictAt at h ⊢
  have hd : t.decisionLevel = s.decisionLevel := by unfold decisionLevel; rw [h5]
  simp only [h1, hd, get_congr h1, level_congr h3, value_congr h2]
  exact h

theorem TwoWatched.congr_twoWatched {s t : Solver} (h : TwoWatched s) (h1 : t.ca.mem = s.ca.mem)
    (h2 : t.assigns = s.assigns) (h3 : t.vardata = s.vardata) (h4 : t.trail = s.trail)
    (h6 : t.qhead = s.qhead) (h9 : t.clauses = s.clauses) : TwoWatched t := by
  unfold TwoWatched WatchedInv at h ⊢
  simp only [h4, h6, h9, get_congr h1, level_congr h3, value_congr h2]
  exact h

/-- Taking the next literal from the queue. -/
theorem PropInv.advance_propInv {s : Solver} (h : PropInv s) (hq : s.qhead < s.trail.length) :
    PropInv { s with qhead := s.qhead + 1 } :=
  ⟨h.sizes.congr_sizesOK rfl rfl rfl rfl rfl rfl rfl rfl, h.wf.congr_trailWF rfl rfl rfl rfl,
   ⟨h.trail.1, hq, fun x hx => Nat.le_succ_of_le (h.trail.2.2 x hx)⟩, h.arena.congr_arenaOK rfl rfl,
   h.watch.congr_watchOK rfl rfl rfl rfl, h.nodel.congr_noDeleted rfl rfl rfl rfl,
   h.clauses.congr_clausesOK rfl rfl rfl rfl rfl, h.reasons.congr_reasonsOK rfl rfl rfl rfl rfl⟩

theorem Current.advance_current {s : Solver} (h : PropInv s) (hq : s.qhead < s.trail.length) :
    Current { s with qhead := s.qhead + 1 } (s.trail.getD s.qhead 0) :=
  ⟨Nat.succ_pos _, hq, rfl, fun x hx => h.trail.2.2 x hx⟩

theorem Pending.start_pending {s : Solver} (h : PropInv s) (ht : TwoWatched s)
    (hq : s.qhead < s.trail.length) :
    Pending { s with qhead := s.qhead + 1 } (s.trail.getD s.qhead 0)
      (s.watchesBin.get (s.trail.getD s.qhead 0)) (s.watches.get (s.trail.getD s.qhead 0)) := by
  intro cr hcr i hi hv hm
  have hm' : neg ((s.ca.get cr).lit i) ∈ s.trail.take (s.qhead + 1) := hm
  rw [List.take_succ, List.mem_append] at hm'
  rcases hm' with hm' | hm'
  · exact Or.inl (ht cr hcr i hi hv hm')
  · right
    have e : neg ((s.ca.get cr).lit i) = s.trail.getD s.qhead 0 := by
      rw [List.getElem?_eq_getElem hq] at hm'
      simp only [Option.toList_some, List.mem_singleton] at hm'
      rw [hm', List.getD_eq_getElem _ _ hq]
    have e2 : (s.ca.get cr).lit i = neg (s.trail.getD s.qhead 0) := by
      rw [← e, neg_neg]
    refine ⟨e2, ?_⟩
    obtain ⟨_, _, _, w0, w1⟩ := h.clauses cr hcr
    have hw : hasWatch s cr i := by
      have hi' : i = 0 ∨ i = 1 := by omega
      rcases hi' with rfl | rfl
      · exact w0
      · exact w1
    unfold hasWatch at hw
    rw [e] at hw
    by_cases hl : (s.ca.get cr).lits.length = 2
    · rw [if_pos hl] at hw; exact Or.inl ⟨hl, hw⟩
    · rw [if_neg hl] at hw; exact Or.inr ⟨hl, hw⟩

theorem virt_self_occs (s : Solver) (p : Nat) :
    (virt s p (s.watches.get p)).watches.occs = s.watches.occs := by
  unfold virt OccLists.setList OccLists.get
  dsimp only
  by_cases hp : p < s.watches.occs.length
  · exact set_getD_same [] s.watches.occs p hp
  · exact List.set_eq_of_length_le (by omega)

theorem propagateLoop_inv : ∀ (fuel : Nat) (s : Solver) (n : Nat) (r : Option Nat × Solver),
    PropInv s → TwoWatched s → propagateLoop fuel s n = some r →
    LitsPerm s r.2 ∧
    PropInv r.2 ∧ (r.1 = none → TwoWatched r.2 ∧ r.2.qhead = r.2.trail.length) ∧
    (∀ cr, r.1 = some cr → LowWatched r.2 ∧ ConflictAt r.2 cr)
  | 0, s, n, r, h, ht, hr => by
    unfold propagateLoop at hr
    split at hr
    · cases hr
    · rename_i hq
      simp only [Option.some.injEq] at hr
      subst hr
      refine ⟨LitsPerm.rfl_litsPerm s, h.congr_propInv rfl rfl rfl rfl rfl rfl rfl rfl rfl rfl rfl rfl rfl rfl,
        fun _ => ⟨?_, ?_⟩, fun cr hcr => by simp at hcr⟩
      · exact ht.congr_twoWatched rfl rfl rfl rfl rfl rfl
      · have := h.trail.2.1
        show s.qhead = s.trail.length
        omega
  | fuel + 1, s, n, r, h, ht, hr => by
    unfold propagateLoop at hr
    split at hr
    · rename_i hq
      dsimp only at hr
      have hp : s.trail.getD s.qhead 0 < 2 * s.assigns.length :=
        lit_lt (h.trail.1 _ (getD_mem' _ _ hq)).1
      have hb := propBin_inv (s.trail.getD s.qhead 0) (s.watches.get (s.trail.getD s.qhead 0))
        (s.watchesBin.get (s.trail.getD s.qhead 0)) { s with qhead := s.qhead + 1 }
        (h.advance_propInv hq) (Current.advance_current h hq) hp (fun w hw => hw) (Pending.start_pending h ht hq)
      rcases hB : propBin (s.watchesBin.get (s.trail.getD s.qhead 0))
        { s with qhead := s.qhead + 1 } with ⟨c, s2⟩
      rw [hB] at hb hr
      obtain ⟨b1, b2, b3, b4, b5, b6, b7⟩ := hb
      cases c with
      | some cr =>
        dsimp only at hr
        simp only [Option.some.injEq] at hr
        subst hr
        exact ⟨fun x => by rw [b7], b1, fun hn => by simp at hn, fun cr' hcr' => by
          simp only [Option.some.injEq] at hcr'
          subst hcr'
          exact b6 cr rfl⟩
      | none =>
        dsimp only at hr b1 b2 b3 b4 b5 b7
        have hpb : LitsPerm s s2 := fun x => by rw [b7]
        have hw2 : s2.watches.get (s.trail.getD s.qhead 0) = s.watches.get (s.trail.getD s.qhead 0) := by
          rw [b3]
        have hp2 : s.trail.getD s.qhead 0 < 2 * s2.assigns.length := by
          have e1 := b1.sizes.2.2.2.1
          have e2 := h.sizes.2.2.2.1
          rw [b3] at e1
          have e3 : s.watches.occs.length = 2 * s2.assigns.length := e1
          omega
        have hL : LInv (s.trail.getD s.qhead 0) [] (s2.watches.get (s.trail.getD s.qhead 0)) s2 := by
          refine ⟨?_, b2, hp2, ?_⟩
          · rw [List.nil_append]
            exact b1.congr_propInv rfl rfl rfl rfl rfl rfl (virt_self_occs _ _) rfl rfl rfl rfl rfl
              rfl rfl
          · rw [hw2]; exact b5 rfl
        have hl := propLong_inv (s.trail.getD s.qhead 0) _ [] s2 hL
        rcases hP : propLong (s.trail.getD s.qhead 0) (s2.watches.get (s.trail.getD s.qhead 0))
          [] s2 with ⟨kept, c, s3⟩
        rw [hP] at hl hr
        cases c with
        | none =>
          dsimp only at hr hl
          have hl1 := hl.2.1 rfl
          have hinv : PropInv { s3 with watches := s3.watches.setList (s.trail.getD s.qhead 0) kept } := by
            have := hl1.inv
            rw [List.append_nil] at this
            exact this
          have htw : TwoWatched { s3 with watches := s3.watches.setList (s.trail.getD s.qhead 0) kept } :=
            ((twoWatched_iff_pending s3 _).2 hl1.pend).congr_twoWatched rfl rfl rfl rfl rfl rfl
          have ih := propagateLoop_inv fuel _ (n + 1) r hinv htw hr
          exact ⟨(hpb.comp_litsPerm hl.1).comp_litsPerm ih.1, ih.2⟩
        | some cr =>
          dsimp only at hr hl
          simp only [Option.some.injEq] at hr
          subst hr
          obtain ⟨c1, c2, c3⟩ := hl.2.2 cr rfl
          refine ⟨hpb.comp_litsPerm hl.1, c1.congr_propInv rfl rfl rfl rfl rfl rfl rfl rfl rfl rfl rfl rfl rfl rfl,
            fun hn => by simp at hn, ?_⟩
          intro cr' hcr'
          simp only [Option.some.injEq] at hcr'
          subst hcr'
          exact ⟨c2.congr_lowWatched rfl rfl rfl rfl rfl, c3.congr_conflictAt rfl rfl rfl rfl⟩
    · rename_i hq
      simp only [Option.some.injEq] at hr
      subst hr
      refine ⟨LitsPerm.rfl_litsPerm s, h.congr_propInv rfl rfl rfl rfl rfl rfl rfl rfl rfl rfl rfl rfl rfl rfl,
        fun _ => ⟨?_, ?_⟩, fun cr hcr => by simp at hcr⟩
      · exact ht.congr_twoWatched rfl rfl rfl rfl rfl rfl
      · have := h.trail.2.1
        show s.qhead = s.trail.length
        omega

theorem PropKeep.rfl_propKeep (s : Solver) : PropKeep s s := ⟨rfl, rfl, rfl, rfl, rfl, rfl⟩

theorem PropKeep.comp_propKeep {a b c : Solver} (h1 : PropKeep a b) (h2 : PropKeep b c) : PropKeep a c :=
  ⟨h2.seen.trans h1.seen, h2.order_heap.trans h1.order_heap, h2.decision.trans h1.decision,
   h2.watchesBin.trans h1.watchesBin, h2.wdirty.trans h1.wdirty, h2.wdirties.trans h1.wdirties⟩

theorem dynamicLBD_keep (s : Solver) (cr : Nat) : PropKeep s (dynamicLBD s cr) := by
  have hf := computeLBD_lbdFrame s (s.ca.get cr).lits
  unfold dynamicLBD
  dsimp only
  split
  · split
    · exact ⟨hf.seen, hf.order_heap, hf.decision, hf.watchesBin, by rw [hf.watches],
        by rw [hf.watches]⟩
    · exact ⟨hf.seen, hf.order_heap, hf.decision, hf.watchesBin, by rw [hf.watches],
        by rw [hf.watches]⟩
  · exact PropKeep.rfl_propKeep s

theorem swapFalse_keep (p cr : Nat) (s : Solver) : PropKeep s (swapFalse p cr s) := by
  unfold swapFalse
  split
  · exact ⟨rfl, rfl, rfl, rfl, rfl, rfl⟩
  · exact PropKeep.rfl_propKeep s

theorem longStep_keep (p : Nat) (w : Watcher) (s : Solver) : PropKeep s (longStep p w s).2.2 := by
  unfold longStep
  by_cases hB : (s.value w.blocker == l_True) = true
  · rw [if_pos hB]
    exact PropKeep.rfl_propKeep s
  · rw [if_neg hB]
    dsimp only
    have hs := swapFalse_keep p w.cref s
    generalize swapFalse p w.cref s = s1 at hs ⊢
    by_cases hC : ((s1.ca.get w.cref).lit 0 != w.blocker &&
        s1.value ((s1.ca.get w.cref).lit 0) == l_True) = true
    · rw [if_pos hC]
      exact hs
    · rw [if_neg hC]
      rcases hF : findNewWatch s1 ((s1.ca.get w.cref).lits.drop 2) 2 with _ | k
      · dsimp only
        by_cases hD : (s1.value ((s1.ca.get w.cref).lit 0) == l_False) = true
        · rw [if_pos hD]
          exact hs.comp_propKeep ⟨rfl, rfl, rfl, rfl, rfl, rfl⟩
        · rw [if_neg hD]
          exact (hs.comp_propKeep (⟨rfl, rfl, rfl, rfl, rfl, rfl⟩ :
            PropKeep s1 (uncheckedEnqueue s1 ((s1.ca.get w.cref).lit 0) (some w.cref)))).comp_propKeep
            (dynamicLBD_keep _ _)
      · dsimp only
        exact hs.comp_propKeep ⟨rfl, rfl, rfl, rfl, rfl, rfl⟩

theorem propLong_keep (p : Nat) : ∀ (rest acc : List Watcher) (s : Solver),
    PropKeep s (propLong p rest acc s).2.2
  | [], acc, s => by
    rw [propLong]
    exact PropKeep.rfl_propKeep s
  | w :: rest, acc, s => by
    rw [propLong_cons]
    have hs := longStep_keep p w s
    rcases hL : longStep p w s with ⟨k, c, t⟩
    rw [hL] at hs
    cases c with
    | none =>
      dsimp only
      exact hs.comp_propKeep (propLong_keep p rest (acc ++ k) t)
    | some cr =>
      dsimp only
      exact hs

theorem propBin_keep : ∀ (ws : List Watcher) (s : Solver), PropKeep s (propBin ws s).2
  | [], s => PropKeep.rfl_propKeep s
  | w :: ws, s => by
    unfold propBin
    split
    · exact PropKeep.rfl_propKeep s
    · split
      · exact (⟨rfl, rfl, rfl, rfl, rfl, rfl⟩ :
          PropKeep s (uncheckedEnqueue s w.blocker (some w.cref))).comp_propKeep (propBin_keep ws _)
      · exact propBin_keep ws s

theorem propagateLoop_keep : ∀ (fuel : Nat) (s : Solver) (n : Nat) (r : Option Nat × Solver),
    propagateLoop fuel s n = some r → PropKeep s r.2
  | 0, s, n, r, h => by
    unfold propagateLoop at h
    split at h
    · simp at h
    · simp only [Option.some.injEq] at h
      subst h
      exact ⟨rfl, rfl, rfl, rfl, rfl, rfl⟩
  | fuel + 1, s, n, r, h => by
    unfold propagateLoop at h
    split at h
    · dsimp only at h
      have hb := propBin_keep
        (({ s with qhead := s.qhead + 1 } : Solver).watchesBin.get (s.trail.getD s.qhead 0))
        { s with qhead := s.qhead + 1 }
      have hq : PropKeep s { s with qhead := s.qhead + 1 } := ⟨rfl, rfl, rfl, rfl, rfl, rfl⟩
      rcases hB : propBin (s.watchesBin.get (s.trail.getD s.qhead 0))
        { s with qhead := s.qhead + 1 } with ⟨c, s2⟩
      rw [hB] at h
      have hb' : PropKeep { s with qhead := s.qhead + 1 } s2 := by
        have := hb
        rw [show (({ s with qhead := s.qhead + 1 } : Solver).watchesBin.get
          (s.trail.getD s.qhead 0)) = s.watchesBin.get (s.trail.getD s.qhead 0) from rfl, hB] at this
        exact this
      cases c with
      | some cr =>
        dsimp only at h
        simp only [Option.some.injEq] at h
        subst h
        exact hq.comp_propKeep hb'
      | none =>
        dsimp only at h
        have hl := propLong_keep (s.trail.getD s.qhead 0)
          (s2.watches.get (s.trail.getD s.qhead 0)) [] s2
        rcases hP : propLong (s.trail.getD s.qhead 0) (s2.watches.get (s.trail.getD s.qhead 0))
          [] s2 with ⟨kept, c, s3⟩
        rw [hP] at hl h
        cases c with
        | none =>
          dsimp only at h hl
          have ih := propagateLoop_keep fuel _ (n + 1) r h
          exact ((hq.comp_propKeep hb').comp_propKeep hl).comp_propKeep
            ((⟨rfl, rfl, rfl, rfl, rfl, rfl⟩ : PropKeep s3
              { s3 with watches := s3.watches.setList (s.trail.getD s.qhead 0) kept }).comp_propKeep ih)
        | some cr =>
          dsimp only at h hl
          simp only [Option.some.injEq] at h
          subst h
          exact ((hq.comp_propKeep hb').comp_propKeep hl).comp_propKeep ⟨rfl, rfl, rfl, rfl, rfl, rfl⟩
    · simp only [Option.some.injEq] at h
      subst h
      exact ⟨rfl, rfl, rfl, rfl, rfl, rfl⟩

theorem clean_get (w : OccLists) (ca : ClauseAllocator) (idx p : Nat) :
    (w.clean ca idx).get p = if p = idx then (w.get p).filter (notDeleted ca) else w.get p := by
  unfold OccLists.clean OccLists.get
  dsimp only
  by_cases hp : p = idx
  · subst hp
    rw [if_pos rfl]
    by_cases hl : p < w.occs.length
    · rw [getD_set_self' _ _ _ _ hl]; rfl
    · rw [List.set_eq_of_length_le (by omega), List.getD_eq_default _ _ (by omega)]
      rfl
  · rw [if_neg hp, getD_set_ne' _ _ _ (Ne.symm hp)]

theorem clean_dirty (w : OccLists) (ca : ClauseAllocator) (idx p : Nat) :
    (w.clean ca idx).dirty.getD p false = if p = idx then false else w.dirty.getD p false := by
  unfold OccLists.clean
  dsimp only
  by_cases hp : p = idx
  · subst hp
    rw [if_pos rfl]
    by_cases hl : p < w.dirty.length
    · rw [getD_set_self' _ _ _ _ hl]
    · rw [List.set_eq_of_length_le (by omega), List.getD_eq_default _ _ (by omega)]
  · rw [if_neg hp, getD_set_ne' _ _ _ (Ne.symm hp)]

theorem cleanFold_spec (ca : ClauseAllocator) : ∀ (ds : List Nat) (w : OccLists),
    (ds.foldl (fun acc idx => if acc.dirty.getD idx false then acc.clean ca idx else acc) w).occs.length
      = w.occs.length ∧
    (ds.foldl (fun acc idx => if acc.dirty.getD idx false then acc.clean ca idx else acc) w).dirty.length
      = w.dirty.length ∧
    ∀ p,
      ((ds.foldl (fun acc idx => if acc.dirty.getD idx false then acc.clean ca idx else acc) w).get p
          = w.get p ∨
        (ds.foldl (fun acc idx => if acc.dirty.getD idx false then acc.clean ca idx else acc) w).get p
          = (w.get p).filter (notDeleted ca)) ∧
      (w.dirty.getD p false = true → p ∈ ds →
        (ds.foldl (fun acc idx => if acc.dirty.getD idx false then acc.clean ca idx else acc) w).get p
          = (w.get p).filter (notDeleted ca)) ∧
      ((ds.foldl (fun acc idx => if acc.dirty.getD idx false then acc.clean ca idx else acc) w).dirty.getD
          p false = true → w.dirty.getD p false = true ∧ p ∉ ds)
  | [], w => ⟨rfl, rfl, fun p => ⟨Or.inl rfl, fun _ hp => by simp at hp, fun h => ⟨h, by simp⟩⟩⟩
  | d :: ds, w => by
    simp only [List.foldl_cons]
    by_cases hd : w.dirty.getD d false = true
    · rw [if_pos hd]
      obtain ⟨i1, i2, i3⟩ := cleanFold_spec ca ds (w.clean ca d)
      refine ⟨by rw [i1]; simp [OccLists.clean], by rw [i2]; simp [OccLists.clean], ?_⟩
      intro p
      obtain ⟨j1, j2, j3⟩ := i3 p
      rw [clean_get] at j1 j2
      rw [clean_dirty] at j2 j3
      by_cases hp : p = d
      · subst hp
        simp only [if_pos] at j1 j2 j3
        rw [List.filter_filter] at j1
        simp only [Bool.and_self] at j1
        have hj : (ds.foldl (fun acc idx => if acc.dirty.getD idx false then acc.clean ca idx
            else acc) (w.clean ca p)).get p = (w.get p).filter (notDeleted ca) := by
          rcases j1 with j1 | j1 <;> exact j1
        refine ⟨Or.inr hj, fun _ _ => hj, ?_⟩
        intro h
        exact absurd (j3 h).1 (by simp)
      · simp only [if_neg hp] at j1 j2 j3
        refine ⟨j1, ?_, ?_⟩
        · intro h1 h2
          rcases List.mem_cons.1 h2 with h2 | h2
          · exact absurd h2 hp
          · exact j2 h1 h2
        · intro h
          obtain ⟨a, b⟩ := j3 h
          exact ⟨a, by simp [hp, b]⟩
    · rw [if_neg hd]
      obtain ⟨i1, i2, i3⟩ := cleanFold_spec ca ds w
      refine ⟨i1, i2, ?_⟩
      intro p
      obtain ⟨j1, j2, j3⟩ := i3 p
      refine ⟨j1, ?_, ?_⟩
      · intro h1 h2
        rcases List.mem_cons.1 h2 with h2 | h2
        · subst h2; exact absurd h1 hd
        · exact j2 h1 h2
      · intro h
        obtain ⟨a, b⟩ := j3 h
        refine ⟨a, ?_⟩
        intro hm
        rcases List.mem_cons.1 hm with hm | hm
        · subst hm; exact hd a
        · exact b hm

/-- What `cleanAll` does to the list of `p`, in a watch index whose dirty lists are all
recorded in `dirties`. -/
theorem cleanAll_spec (ca : ClauseAllocator) (w : OccLists)
    (hd : ∀ p, w.dirty.getD p false = true → p ∈ w.dirties) :
    (w.cleanAll ca).occs.length = w.occs.length ∧
    (w.cleanAll ca).dirty.length = w.dirty.length ∧
    (w.cleanAll ca).dirties = [] ∧
    ∀ p, (w.cleanAll ca).dirty.getD p false = false ∧
      ((w.cleanAll ca).get p = w.get p ∨
        (w.cleanAll ca).get p = (w.get p).filter (notDeleted ca)) ∧
      (w.dirty.getD p false = true →
        (w.cleanAll ca).get p = (w.get p).filter (notDeleted ca)) := by
  obtain ⟨i1, i2, i3⟩ := cleanFold_spec ca w.dirties w
  unfold OccLists.cleanAll
  refine ⟨i1, i2, rfl, ?_⟩
  intro p
  obtain ⟨j1, j2, j3⟩ := i3 p
  refine ⟨?_, j1, fun h => j2 h (hd p h)⟩
  by_contra hn
  have ht : (w.dirties.foldl (fun acc idx => if acc.dirty.getD idx false then acc.clean ca idx
      else acc) w).dirty.getD p false = true := by
    simpa using hn
  obtain ⟨a, b⟩ := j3 ht
  exact b (hd p a)

theorem filter_or_same_mem {l l2 : List Watcher} {ca : ClauseAllocator}
    (h : l2 = l ∨ l2 = l.filter (notDeleted ca)) {x : Watcher} (hx : x ∈ l2) : x ∈ l := by
  rcases h with h | h
  · rw [h] at hx; exact hx
  · rw [h] at hx; exact List.mem_of_mem_filter hx

theorem filter_or_same_keep {l l2 : List Watcher} {ca : ClauseAllocator}
    (h : l2 = l ∨ l2 = l.filter (notDeleted ca)) {x : Watcher} (hx : x ∈ l)
    (hm : (ca.get x.cref).mark ≠ 1) : x ∈ l2 := by
  rcases h with h | h
  · rw [h]; exact hx
  · rw [h]
    apply List.mem_filter.2
    refine ⟨hx, ?_⟩
    simp [notDeleted, OccLists.deleted, hm]

theorem filter_or_same_nodup {l l2 : List Watcher} {ca : ClauseAllocator}
    (h : l2 = l ∨ l2 = l.filter (notDeleted ca)) (hn : (l.map Watcher.cref).Nodup) :
    (l2.map Watcher.cref).Nodup := by
  rcases h with h | h
  · rw [h]; exact hn
  · rw [h]
    exact List.Nodup.sublist (List.Sublist.map _ (List.filter_sublist _)) hn

theorem mem_filter_notDeleted {l : List Watcher} {ca : ClauseAllocator} {x : Watcher}
    (hx : x ∈ l.filter (notDeleted ca)) : (ca.get x.cref).mark ≠ 1 := by
  have := (List.mem_filter.1 hx).2
  simpa [notDeleted, OccLists.deleted] using this

theorem dirty_all {w : OccLists} {n : Nat} (hl : w.dirty.length = n)
    (h : ∀ p < n, w.dirty.getD p false = true → p ∈ w.dirties) :
    ∀ p, w.dirty.getD p false = true → p ∈ w.dirties := by
  intro p hp
  by_cases hlt : p < n
  · exact h p hlt hp
  · rw [List.getD_eq_default _ _ (by omega)] at hp
    cases hp

/-- What `cleanAll` does to the lists, under the invariant of the entry. -/
theorem cleanWatches_lists {s : Solver} (h : EntryInv s) :
    (∀ p, (cleanWatches s).watches.get p = s.watches.get p ∨
      (cleanWatches s).watches.get p = (s.watches.get p).filter (notDeleted s.ca)) ∧
    (∀ p, (cleanWatches s).watchesBin.get p = s.watchesBin.get p ∨
      (cleanWatches s).watchesBin.get p = (s.watchesBin.get p).filter (notDeleted s.ca)) := by
  have hdw := dirty_all h.sizes.2.2.2.2.2.1 (fun p hp => (h.dirty p hp).2.2.1)
  have hdb := dirty_all h.sizes.2.2.2.2.2.2 (fun p hp => (h.dirty p hp).2.2.2)
  obtain ⟨_, _, _, a4⟩ := cleanAll_spec s.ca s.watches hdw
  obtain ⟨_, _, _, b4⟩ := cleanAll_spec s.ca s.watchesBin hdb
  exact ⟨fun p => (a4 p).2.1, fun p => (b4 p).2.1⟩

/-- After `cleanAll` the invariant of `propagate` holds and no list is dirty. -/
theorem cleanWatches_inv {s : Solver} (h : EntryInv s) :
    PropInv (cleanWatches s) ∧
    (∀ p, (cleanWatches s).watches.dirty.getD p false = false) ∧
    (∀ p, (cleanWatches s).watchesBin.dirty.getD p false = false) := by
  have hdw := dirty_all h.sizes.2.2.2.2.2.1 (fun p hp => (h.dirty p hp).2.2.1)
  have hdb := dirty_all h.sizes.2.2.2.2.2.2 (fun p hp => (h.dirty p hp).2.2.2)
  obtain ⟨a1, a2, a3, a4⟩ := cleanAll_spec s.ca s.watches hdw
  obtain ⟨b1, b2, b3, b4⟩ := cleanAll_spec s.ca s.watchesBin hdb
  have gw : ∀ p, (cleanWatches s).watches.get p = s.watches.get p ∨
      (cleanWatches s).watches.get p = (s.watches.get p).filter (notDeleted s.ca) :=
    fun p => (a4 p).2.1
  have gb : ∀ p, (cleanWatches s).watchesBin.get p = s.watchesBin.get p ∨
      (cleanWatches s).watchesBin.get p = (s.watchesBin.get p).filter (notDeleted s.ca) :=
    fun p => (b4 p).2.1
  refine ⟨⟨?_, h.wf.congr_trailWF rfl rfl rfl rfl, h.trail.congr_trailOK rfl rfl rfl rfl,
    h.arena.congr_arenaOK rfl rfl, ?_, ?_, ?_, ?_⟩, fun p => (a4 p).1, fun p => (b4 p).1⟩
  · exact h.sizes.congr_sizesOK rfl rfl rfl rfl a1 b1 a2 b2
  · intro p hp
    obtain ⟨w1, w2, w3⟩ := h.watch p hp
    refine ⟨filter_or_same_nodup (gw p) w1, ?_, ?_⟩
    · intro w hw
      exact (w2 w (filter_or_same_mem (gw p) hw)).congr_longWatcherOK rfl rfl
    · intro w hw
      exact (w3 w (filter_or_same_mem (gb p) hw)).congr_binWatcherOK rfl rfl
  · intro p hp
    refine ⟨?_, ?_⟩
    · intro w hw
      show (s.ca.get w.cref).mark ≠ 1
      by_cases hd : s.watches.dirty.getD p false = true
      · have := (a4 p).2.2 hd
        have hw2 : w ∈ (s.watches.get p).filter (notDeleted s.ca) := by rw [← this]; exact hw
        exact mem_filter_notDeleted hw2
      · intro hm
        exact hd ((h.dirty p hp).1 w (filter_or_same_mem (gw p) hw) hm)
    · intro w hw
      show (s.ca.get w.cref).mark ≠ 1
      by_cases hd : s.watchesBin.dirty.getD p false = true
      · have := (b4 p).2.2 hd
        have hw2 : w ∈ (s.watchesBin.get p).filter (notDeleted s.ca) := by rw [← this]; exact hw
        exact mem_filter_notDeleted hw2
      · intro hm
        exact hd ((h.dirty p hp).2.1 w (filter_or_same_mem (gb p) hw) hm)
  · intro cr hcr
    obtain ⟨c1, c2, c4, c5, c6⟩ := h.clauses cr hcr
    refine ⟨c1, c2, c4, ?_, ?_⟩
    · unfold hasWatch at c5 ⊢
      show if (s.ca.get cr).lits.length = 2 then _ else _
      split
      · rename_i hl
        rw [if_pos hl] at c5
        obtain ⟨w, hw, hwc⟩ := c5
        exact ⟨w, filter_or_same_keep (gb _) hw (by rw [hwc]; exact c4), hwc⟩
      · rename_i hl
        rw [if_neg hl] at c5
        obtain ⟨w, hw, hwc⟩ := c5
        exact ⟨w, filter_or_same_keep (gw _) hw (by rw [hwc]; exact c4), hwc⟩
    · unfold hasWatch at c6 ⊢
      show if (s.ca.get cr).lits.length = 2 then _ else _
      split
      · rename_i hl
        rw [if_pos hl] at c6
        obtain ⟨w, hw, hwc⟩ := c6
        exact ⟨w, filter_or_same_keep (gb _) hw (by rw [hwc]; exact c4), hwc⟩
      · rename_i hl
        rw [if_neg hl] at c6
        obtain ⟨w, hw, hwc⟩ := c6
        exact ⟨w, filter_or_same_keep (gw _) hw (by rw [hwc]; exact c4), hwc⟩
  · intro i hi hlev cr hcr
    obtain ⟨r1, r2, r3, r4, r5⟩ := h.reasons i hi hlev cr hcr
    refine ⟨r1, r2, r3, r4, ?_⟩
    intro hl
    obtain ⟨m1, p, hp, w, hw, hwc⟩ := r5 hl
    exact ⟨m1, p, hp, w, filter_or_same_keep (gb p) hw (by rw [hwc]; exact m1), hwc⟩

/-- The state after `propagate`: the invariant of the entry holds again; with an empty
queue and the watched-literal condition when no conflict is reported, with a falsified
clause otherwise.  The binary lists are those of the entry, cleaned. -/
theorem propagate_inv {s : Solver} (h : EntryInv s) (h2 : TwoWatched s)
    (r : Option Nat × Solver) (hr : propagate s = some r) :
    LitsPerm s r.2 ∧ EntryInv r.2 ∧
    (r.1 = none → TwoWatched r.2 ∧ r.2.qhead = r.2.trail.length) ∧
    (∀ cr, r.1 = some cr → LowWatched r.2 ∧ ConflictAt r.2 cr) ∧
    (∀ p, r.2.watchesBin.get p = s.watchesBin.get p ∨
      r.2.watchesBin.get p = (s.watchesBin.get p).filter (notDeleted s.ca)) := by
  unfold propagate at hr
  obtain ⟨hc, hdw, hdb⟩ := cleanWatches_inv h
  have htw : TwoWatched (cleanWatches s) := h2.congr_twoWatched rfl rfl rfl rfl rfl rfl
  obtain ⟨hperm, hinv, hnone, hconf⟩ := propagateLoop_inv _ _ _ r hc htw hr
  have hk := propagateLoop_keep _ _ _ r hr
  have hbase : EntryInv r.2 := by
    refine ⟨hinv.sizes, hinv.wf, hinv.trail, hinv.arena, hinv.watch, ?_, hinv.clauses,
      hinv.reasons⟩
    intro p hp
    refine ⟨fun w hw hm => absurd hm ((hinv.nodel p hp).1 w hw),
      fun w hw hm => absurd hm ((hinv.nodel p hp).2 w hw), ?_, ?_⟩
    · intro hd
      rw [hk.wdirty, hdw p] at hd
      cases hd
    · intro hd
      rw [hk.watchesBin, hdb p] at hd
      cases hd
  refine ⟨fun x => hperm x, hbase, hnone, hconf, ?_⟩
  intro p
  rw [hk.watchesBin]
  exact (cleanWatches_lists h).2 p

theorem value_wc (s : Solver) (A : List Nat) (p : Nat) : (withClauses s A).value p = s.value p :=
  rfl

theorem enqueue_wc (s : Solver) (A : List Nat) (p : Nat) (r : Option Nat) :
    uncheckedEnqueue (withClauses s A) p r = withClauses (uncheckedEnqueue s p r) A := rfl

theorem propBin_wc (A : List Nat) : ∀ (ws : List Watcher) (s : Solver),
    propBin ws (withClauses s A) = ((propBin ws s).1, withClauses (propBin ws s).2 A)
  | [], _ => rfl
  | w :: ws, s => by
    unfold propBin
    rw [value_wc]
    split
    · rfl
    · split
      · rw [enqueue_wc]
        exact propBin_wc A ws _
      · exact propBin_wc A ws s

theorem findNewWatch_wc (s : Solver) (A : List Nat) : ∀ (ls : List Nat) (k : Nat),
    findNewWatch (withClauses s A) ls k = findNewWatch s ls k
  | [], _ => rfl
  | l :: ls, k => by
    unfold findNewWatch
    rw [value_wc, findNewWatch_wc s A ls (k + 1)]

theorem lbdStep_wc (A : List Nat) (a : Nat × Solver) (q : Nat) :
    lbdStep (a.1, withClauses a.2 A) q = ((lbdStep a q).1, withClauses (lbdStep a q).2 A) := by
  by_cases h : (a.2.permDiff.getD (a.2.level (var q)) 0 != a.2.MYFLAG) = true
  · have e1 : lbdStep a q = (a.1 + 1,
        { a.2 with permDiff := a.2.permDiff.set (a.2.level (var q)) a.2.MYFLAG }) := by
      unfold lbdStep
      exact if_pos h
    have e2 : lbdStep (a.1, withClauses a.2 A) q = (a.1 + 1,
        { withClauses a.2 A with
          permDiff := a.2.permDiff.set (a.2.level (var q)) a.2.MYFLAG }) := by
      unfold lbdStep
      exact if_pos h
    rw [e1, e2]
    rfl
  · have e1 : lbdStep a q = a := by
      unfold lbdStep
      exact if_neg h
    have e2 : lbdStep (a.1, withClauses a.2 A) q = (a.1, withClauses a.2 A) := by
      unfold lbdStep
      exact if_neg h
    rw [e1, e2]

theorem foldl_lbdStep_wc (A : List Nat) : ∀ (lits : List Nat) (a : Nat × Solver),
    lits.foldl lbdStep (a.1, withClauses a.2 A) =
      ((lits.foldl lbdStep a).1, withClauses (lits.foldl lbdStep a).2 A)
  | [], _ => rfl
  | q :: rest, a => by
    simp only [List.foldl_cons]
    rw [lbdStep_wc]
    exact foldl_lbdStep_wc A rest (lbdStep a q)

theorem computeLBD_wc (s : Solver) (A : List Nat) (lits : List Nat) :
    computeLBD (withClauses s A) lits =
      ((computeLBD s lits).1, withClauses (computeLBD s lits).2 A) := by
  unfold computeLBD
  exact foldl_lbdStep_wc A lits (0, { s with MYFLAG := (s.MYFLAG + 1) % 2 ^ 32 })

theorem dynamicLBD_wc (s : Solver) (A : List Nat) (cr : Nat) :
    dynamicLBD (withClauses s A) cr = withClauses (dynamicLBD s cr) A := by
  by_cases h : ((s.ca.get cr).learnt && decide ((s.ca.get cr).lbd > 2)) = true
  · by_cases g : (computeLBD s (s.ca.get cr).lits).1 + 1 < (s.ca.get cr).lbd
    · have e1 : dynamicLBD s cr =
          { (computeLBD s (s.ca.get cr).lits).2 with
            ca := (computeLBD s (s.ca.get cr).lits).2.ca.modify cr (fun c =>
              { c with
                canBeDel := if c.lbd ≤ (computeLBD s (s.ca.get cr).lits).2.lbLBDFrozenClause
                  then false else c.canBeDel,
                lbd := (computeLBD s (s.ca.get cr).lits).1 }) } := by
        unfold dynamicLBD
        exact (if_pos h).trans (if_pos g)
      have e2 : dynamicLBD (withClauses s A) cr =
          { (computeLBD (withClauses s A) (s.ca.get cr).lits).2 with
            ca := (computeLBD (withClauses s A) (s.ca.get cr).lits).2.ca.modify cr (fun c =>
              { c with
                canBeDel := if c.lbd ≤
                    (computeLBD (withClauses s A) (s.ca.get cr).lits).2.lbLBDFrozenClause
                  then false else c.canBeDel,
                lbd := (computeLBD (withClauses s A) (s.ca.get cr).lits).1 }) } := by
        unfold dynamicLBD
        refine (if_pos h).trans (if_pos ?_)
        rw [computeLBD_wc]
        exact g
      rw [e1, e2, computeLBD_wc]
      rfl
    · have e1 : dynamicLBD s cr = (computeLBD s (s.ca.get cr).lits).2 := by
        unfold dynamicLBD
        exact (if_pos h).trans (if_neg g)
      have e2 : dynamicLBD (withClauses s A) cr =
          (computeLBD (withClauses s A) (s.ca.get cr).lits).2 := by
        unfold dynamicLBD
        refine (if_pos h).trans (if_neg ?_)
        rw [computeLBD_wc]
        exact g
      rw [e1, e2, computeLBD_wc]
  · have e1 : dynamicLBD s cr = s := by
      unfold dynamicLBD
      exact if_neg h
    have e2 : dynamicLBD (withClauses s A) cr = withClauses s A := by
      unfold dynamicLBD
      exact if_neg h
    rw [e1, e2]

theorem wc_ca (s : Solver) (A : List Nat) : (withClauses s A).ca = s.ca := rfl

theorem wc_trail (s : Solver) (A : List Nat) : (withClauses s A).trail = s.trail := rfl

theorem wc_qhead (s : Solver) (A : List Nat) : (withClauses s A).qhead = s.qhead := rfl

theorem wc_watches (s : Solver) (A : List Nat) : (withClauses s A).watches = s.watches := rfl

theorem wc_watchesBin (s : Solver) (A : List Nat) :
    (withClauses s A).watchesBin = s.watchesBin := rfl

theorem swapFalse_wc (p cr : Nat) (s : Solver) (A : List Nat) :
    swapFalse p cr (withClauses s A) = withClauses (swapFalse p cr s) A := by
  unfold swapFalse
  rw [wc_ca]
  split <;> rfl

theorem longStep_wc (p : Nat) (w : Watcher) (s : Solver) (A : List Nat) :
    longStep p w (withClauses s A) =
      ((longStep p w s).1, (longStep p w s).2.1, withClauses (longStep p w s).2.2 A) := by
  unfold longStep
  rw [value_wc, swapFalse_wc]
  generalize swapFalse p w.cref s = s1
  by_cases hB : (s.value w.blocker == l_True) = true
  · rw [if_pos hB, if_pos hB]
  · rw [if_neg hB, if_neg hB]
    dsimp only
    rw [wc_ca, value_wc, findNewWatch_wc]
    by_cases hC : ((s1.ca.get w.cref).lit 0 != w.blocker &&
        s1.value ((s1.ca.get w.cref).lit 0) == l_True) = true
    · rw [if_pos hC, if_pos hC]
    · rw [if_neg hC, if_neg hC]
      rcases hF : findNewWatch s1 ((s1.ca.get w.cref).lits.drop 2) 2 with _ | k
      · dsimp only
        by_cases hD : (s1.value ((s1.ca.get w.cref).lit 0) == l_False) = true
        · rw [if_pos hD, if_pos hD]
          rfl
        · rw [if_neg hD, if_neg hD, enqueue_wc, dynamicLBD_wc]
      · rfl

theorem propLong_wc (p : Nat) (A : List Nat) : ∀ (rest acc : List Watcher) (s : Solver),
    propLong p rest acc (withClauses s A) =
      ((propLong p rest acc s).1, (propLong p rest acc s).2.1,
        withClauses (propLong p rest acc s).2.2 A)
  | [], _, _ => rfl
  | w :: rest, acc, s => by
    rw [propLong_cons, propLong_cons, longStep_wc]
    rcases hL : longStep p w s with ⟨k, _ | cr, t⟩
    · dsimp only
      exact propLong_wc p A rest (acc ++ k) t
    · rfl

theorem cleanWatches_wc (s : Solver) (A : List Nat) :
    cleanWatches (withClauses s A) = withClauses (cleanWatches s) A := rfl

theorem propagateDone_wc (s : Solver) (A : List Nat) (n : Nat) :
    propagateDone (withClauses s A) n = withClauses (propagateDone s n) A := rfl

theorem propagateLoop_wc (A : List Nat) : ∀ (fuel : Nat) (s : Solver) (n : Nat),
    propagateLoop fuel (withClauses s A) n =
      (propagateLoop fuel s n).map (fun r => (r.1, withClauses r.2 A))
  | 0, s, n => by
    unfold propagateLoop
    rw [wc_qhead, wc_trail]
    split
    · rfl
    · rfl
  | fuel + 1, s, n => by
    unfold propagateLoop
    by_cases hq : s.qhead < s.trail.length
    · have hq2 : (withClauses s A).qhead < (withClauses s A).trail.length := hq
      rw [if_pos hq, if_pos hq2]
      have e : ∀ t : Solver, t = withClauses s A →
          ({ t with qhead := t.qhead + 1 } : Solver) =
            withClauses { s with qhead := s.qhead + 1 } A := by
        intro t ht
        subst ht
        rfl
      dsimp only
      rw [e (withClauses s A) rfl, wc_watchesBin, wc_trail, wc_qhead, propBin_wc]
      rcases hb : propBin (s.watchesBin.get (s.trail.getD s.qhead 0))
          { s with qhead := s.qhead + 1 } with ⟨_ | cr, s2⟩
      · dsimp only
        rw [wc_watches, propLong_wc]
        rcases hl : propLong (s.trail.getD s.qhead 0)
            (s2.watches.get (s.trail.getD s.qhead 0)) [] s2 with ⟨kept, _ | cr, s3⟩
        · exact propagateLoop_wc A fuel { s3 with watches := s3.watches.setList _ kept } (n + 1)
        · rfl
      · rfl
    · have hq2 : ¬ (withClauses s A).qhead < (withClauses s A).trail.length := hq
      rw [if_neg hq, if_neg hq2]
      rfl

/-- The list `clauses` plays no part in `propagate`. -/
theorem propagate_wc (s : Solver) (A : List Nat) :
    propagate (withClauses s A) = (propagate s).map (fun r => (r.1, withClauses r.2 A)) := by
  unfold propagate
  rw [cleanWatches_wc]
  exact propagateLoop_wc A _ (cleanWatches s) 0

theorem PropEntry.entryInv {s : Solver} {A : List Nat} (h : PropEntry s A) :
    EntryInv (withClauses s A) :=
  ⟨h.sizes, ⟨h.wf.lim_sorted, h.wf.lim_le, h.wf.nodup, h.wf.assigned, h.wf.level_ok⟩, h.trail,
    fun c hc => ⟨(h.arena c hc).1, Or.inr (h.arena c hc).2⟩, h.watch, h.dirty, h.attached,
    h.reasons⟩

theorem PropEntry.rangeInv {s : Solver} {A : List Nat} (h : PropEntry s A) : RangeInv s := by
  refine ⟨?_, fun c hc => ⟨(h.arena c hc).2.1, (h.arena c hc).2.2.2⟩, ?_, fun l hl => (h.trail.1 l hl).1⟩
  · intro ws hws w hw
    obtain ⟨p, hp, rfl⟩ := List.getElem_of_mem hws
    have hp2 : p < 2 * s.assigns.length := by rw [← h.sizes.2.2.2.2.1]; exact hp
    have hg : s.watchesBin.get p = s.watchesBin.occs[p] := by
      simp [OccLists.get, List.getD_eq_getElem?_getD, List.getElem?_eq_getElem hp]
    have hb := (h.watch p hp2).2.2 w (by rw [hg]; exact hw)
    exact (h.arena _ (get_mem s.ca w.cref hb.1)).2.2.2 _ hb.2.2.2.1
  · intro ws hws w hw
    obtain ⟨p, hp, rfl⟩ := List.getElem_of_mem hws
    have hp2 : p < 2 * s.assigns.length := by rw [← h.sizes.2.2.2.1]; exact hp
    have hg : s.watches.get p = s.watches.occs[p] := by
      simp [OccLists.get, List.getD_eq_getElem?_getD, List.getElem?_eq_getElem hp]
    exact ((h.watch p hp2).2.1 w (by rw [hg]; exact hw)).1

/-- With an empty queue, a clause under the watched-literal invariant is neither falsified
nor unit. -/
theorem watched_not_unit {s : Solver} (hwf : TrailWF s) (ht : TrailOK s) (hq : s.qhead = s.trail.length)
    {cr : Nat} (h2 : 2 ≤ (s.ca.get cr).lits.length) (hn : (s.ca.get cr).lits.Nodup)
    (hw : WatchedInv s cr) : ¬ falsified s cr ∧ ¬ isUnit s cr := by
  have key : ∀ i < 2, s.value ((s.ca.get cr).lit i) = l_False →
      ∃ l ∈ (s.ca.get cr).lits, s.value l = l_True := by
    intro i hi hv
    have hm := false_mem_trail hwf ht hv
    obtain ⟨l, hl, hlv, _⟩ := hw i hi hv (by rw [hq, List.take_length]; exact hm)
    exact ⟨l, hl, hlv⟩
  have m0 : (s.ca.get cr).lit 0 ∈ (s.ca.get cr).lits := lit_mem _ 0 (by omega)
  have m1 : (s.ca.get cr).lit 1 ∈ (s.ca.get cr).lits := lit_mem _ 1 (by omega)
  have hne : (s.ca.get cr).lit 0 ≠ (s.ca.get cr).lit 1 := by
    unfold Clause.lit
    rw [List.getD_eq_getElem _ _ (by omega : 0 < (s.ca.get cr).lits.length),
      List.getD_eq_getElem _ _ (by omega : 1 < (s.ca.get cr).lits.length)]
    intro he
    have := (List.Nodup.getElem_inj_iff hn).1 he
    omega
  constructor
  · intro hf
    obtain ⟨l, hl, hlv⟩ := key 0 (by omega) (hf _ m0)
    rw [hf l hl] at hlv
    cases hlv
  · rintro ⟨u, _, huv, hrest⟩
    have fin : ∀ i < 2, (s.ca.get cr).lit i ∈ (s.ca.get cr).lits → (s.ca.get cr).lit i ≠ u →
        False := by
      intro i hi hm hd
      obtain ⟨l, hl, hlv⟩ := key i hi (hrest _ hm hd)
      by_cases hlu : l = u
      · rw [hlu, huv] at hlv
        cases hlv
      · rw [hrest l hl hlu] at hlv
        cases hlv
    by_cases h0 : (s.ca.get cr).lit 0 = u
    · exact fin 1 (by omega) m1 (fun h1 => hne (h0.trans h1.symm))
    · exact fin 0 (by omega) m0 h0

/-- The run of `propagate` from a well-formed state under the watched-literal invariant:
it comes back, and what the invariant gives for the state with the attached clauses `A`. -/
theorem propagate_entry {s : Solver} {A : List Nat} (h : PropEntry s A)
    (h2 : ∀ cr ∈ A, WatchedInv s cr) :
    ∃ r, propagate s = some r ∧ LitsPerm s r.2 ∧ EntryInv (withClauses r.2 A) ∧
      (r.1 = none → TwoWatched (withClauses r.2 A) ∧ r.2.qhead = r.2.trail.length) ∧
      (∀ p, r.2.watchesBin.get p = s.watchesBin.get p ∨
        r.2.watchesBin.get p = (s.watchesBin.get p).filter (notDeleted s.ca)) := by
  obtain ⟨r, hr⟩ := propagate_some s h.rangeInv
  have hr2 : propagate (withClauses s A) = some (r.1, withClauses r.2 A) := by
    rw [propagate_wc, hr]
    rfl
  obtain ⟨a, b, c, _, e⟩ := propagate_inv h.entryInv h2 _ hr2
  exact ⟨r, hr, a, b, c, e⟩

theorem watchCount_nil (cr : Nat) : watchCount [] cr = 0 := rfl

theorem watchCount_append_self (l : List Watcher) (cr b : Nat) :
    watchCount (l ++ [⟨cr, b⟩]) cr = watchCount l cr + 1 := by
  simp [watchCount]

theorem watchCount_eq_zero {l : List Watcher} {cr : Nat} (h : ∀ w ∈ l, w.cref ≠ cr) :
    watchCount l cr = 0 := by
  unfold watchCount
  apply List.count_eq_zero_of_not_mem
  intro hm
  obtain ⟨w, hw, he⟩ := List.mem_map.1 hm
  exact h w hw he

theorem watchCount_eq_one {l : List Watcher} {cr : Nat} (hn : (l.map Watcher.cref).Nodup)
    (h : ∃ w ∈ l, w.cref = cr) : watchCount l cr = 1 := by
  unfold watchCount
  obtain ⟨w, hw, he⟩ := h
  exact List.count_eq_one_of_mem hn (List.mem_map.2 ⟨w, hw, he⟩)

theorem occs_get_count {w : OccLists} {cr : Nat} (h : ∀ l ∈ w.occs, watchCount l cr = 0)
    (p : Nat) : watchCount (w.get p) cr = 0 := by
  by_cases hp : p < w.occs.length
  · have hg : w.get p = w.occs[p] := by
      simp [OccLists.get, List.getD_eq_getElem?_getD, List.getElem?_eq_getElem hp]
    rw [hg]
    exact h _ (List.getElem_mem hp)
  · have hg : w.get p = [] := by
      simp [OccLists.get, List.getD_eq_getElem?_getD, List.getElem?_eq_none (by omega : w.occs.length ≤ p)]
    rw [hg]
    rfl

theorem get_nil_of_le (w : OccLists) {p : Nat} (h : w.occs.length ≤ p) : w.get p = [] := by
  simp [OccLists.get, List.getD_eq_getElem?_getD, List.getElem?_eq_none h]

theorem push_length (w : OccLists) (a : Nat) (x : Watcher) :
    (w.push a x).occs.length = w.occs.length := by
  simp [OccLists.push]

/-- The lists after the two `push` of `attachClause`. -/
theorem push2_count (w : OccLists) (cr a b x y : Nat) (hab : a ≠ b) (ha : a < w.occs.length)
    (hb : b < w.occs.length) (hf : ∀ l ∈ w.occs, watchCount l cr = 0) (p : Nat) :
    watchCount (((w.push a ⟨cr, x⟩).push b ⟨cr, y⟩).get p) cr =
      if p = a ∨ p = b then 1 else 0 := by
  by_cases hpb : p = b
  · subst hpb
    rw [push_get_self' _ _ _ (by rw [push_length]; exact hb), push_get_ne _ _ _ (Ne.symm hab),
      watchCount_append_self, occs_get_count hf, if_pos (Or.inr rfl)]
  · rw [push_get_ne _ _ _ hpb]
    by_cases hpa : p = a
    · subst hpa
      rw [push_get_self' _ _ _ ha, watchCount_append_self, occs_get_count hf, if_pos (Or.inl rfl)]
    · rw [push_get_ne _ _ _ hpa, occs_get_count hf, if_neg (by tauto)]

theorem attachClause_ca (s : Solver) (cr : Nat) : (attachClause s cr).ca = s.ca := by
  unfold attachClause
  dsimp only
  split <;> split <;> rfl

theorem attachClause_bin (s : Solver) (cr : Nat) (h : (s.ca.get cr).size = 2) :
    (attachClause s cr).watchesBin =
      (s.watchesBin.push (neg ((s.ca.get cr).lit 0)) ⟨cr, (s.ca.get cr).lit 1⟩).push
        (neg ((s.ca.get cr).lit 1)) ⟨cr, (s.ca.get cr).lit 0⟩ ∧
    (attachClause s cr).watches = s.watches := by
  have hb : ((s.ca.get cr).size == 2) = true := by rw [h]; rfl
  unfold attachClause
  dsimp only
  rw [if_pos hb]
  split <;> exact ⟨rfl, rfl⟩

theorem attachClause_long (s : Solver) (cr : Nat) (h : (s.ca.get cr).size ≠ 2) :
    (attachClause s cr).watches =
      (s.watches.push (neg ((s.ca.get cr).lit 0)) ⟨cr, (s.ca.get cr).lit 1⟩).push
        (neg ((s.ca.get cr).lit 1)) ⟨cr, (s.ca.get cr).lit 0⟩ ∧
    (attachClause s cr).watchesBin = s.watchesBin := by
  have hb : ¬ ((s.ca.get cr).size == 2) = true := by
    intro hc
    exact h (by simpa using hc)
  unfold attachClause
  dsimp only
  rw [if_neg hb]
  split <;> exact ⟨rfl, rfl⟩

theorem attachClause_once (s : Solver) (cr : Nat) (h : Attachable s cr) :
    WatchedOnce (attachClause s cr) cr := by
  have hab : neg ((s.ca.get cr).lit 0) ≠ neg ((s.ca.get cr).lit 1) :=
    fun e => h.diff (neg_inj e)
  intro p
  rw [attachClause_ca]
  by_cases hs : (s.ca.get cr).size = 2
  · rw [if_pos hs, if_pos hs, (attachClause_bin s cr hs).1, (attachClause_bin s cr hs).2]
    exact ⟨push2_count _ _ _ _ _ _ hab h.range0.2 h.range1.2 h.freshBin p,
      occs_get_count h.fresh p⟩
  · rw [if_neg hs, if_neg hs, (attachClause_long s cr hs).1, (attachClause_long s cr hs).2]
    exact ⟨push2_count _ _ _ _ _ _ hab h.range0.1 h.range1.1 h.fresh p,
      occs_get_count h.freshBin p⟩

theorem mem_of_length_two {c : Clause} (h : c.lits.length = 2) {l : Nat} (hl : l ∈ c.lits) :
    l = c.lit 0 ∨ l = c.lit 1 := by
  unfold Clause.lit
  match hc : c.lits, h, hl with
  | [a, b], _, hl =>
    simp at hl
    simpa using hl

/-- The watch lists of a well-formed state hold the watchers of an attached clause once in
the lists of the complements of its first two literals and nowhere else. -/
theorem watchedOnce_of {t : Solver} (hs : SizesOK t) (hw : WatchOK t)
    (hb : ∀ p < 2 * t.assigns.length, ((t.watchesBin.get p).map Watcher.cref).Nodup)
    {cr : Nat} (h0 : hasWatch t cr 0) (h1 : hasWatch t cr 1) : WatchedOnce t cr := by
  intro p
  unfold hasWatch at h0 h1
  have longNil : ¬ p < 2 * t.assigns.length → t.watches.get p = [] := fun hp =>
    get_nil_of_le t.watches (by rw [hs.2.2.2.1]; omega)
  have binNil : ¬ p < 2 * t.assigns.length → t.watchesBin.get p = [] := fun hp =>
    get_nil_of_le t.watchesBin (by rw [hs.2.2.2.2.1]; omega)
  by_cases h2 : (t.ca.get cr).size = 2
  · have h2l : (t.ca.get cr).lits.length = 2 := h2
    rw [if_pos h2l] at h0 h1
    rw [if_pos h2, if_pos h2]
    constructor
    · by_cases hp : p < 2 * t.assigns.length
      · by_cases hc : p = neg ((t.ca.get cr).lit 0) ∨ p = neg ((t.ca.get cr).lit 1)
        · rw [if_pos hc]
          apply watchCount_eq_one (hb p hp)
          rcases hc with hc | hc
          · rw [hc]; exact h0
          · rw [hc]; exact h1
        · rw [if_neg hc]
          apply watchCount_eq_zero
          intro w hwm he
          have hbw := (hw p hp).2.2 w hwm
          unfold BinWatcherOK at hbw
          rw [he] at hbw
          rcases mem_of_length_two h2l hbw.2.2.1 with e | e
          · exact hc (Or.inl (by rw [← e, neg_neg]))
          · exact hc (Or.inr (by rw [← e, neg_neg]))
      · have hg := binNil hp
        rw [hg, watchCount_nil]
        have n0 : p ≠ neg ((t.ca.get cr).lit 0) := by
          intro e
          obtain ⟨w, hwm, _⟩ := h0
          rw [← e, hg] at hwm
          cases hwm
        have n1 : p ≠ neg ((t.ca.get cr).lit 1) := by
          intro e
          obtain ⟨w, hwm, _⟩ := h1
          rw [← e, hg] at hwm
          cases hwm
        rw [if_neg (by tauto)]
    · by_cases hp : p < 2 * t.assigns.length
      · apply watchCount_eq_zero
        intro w hwm he
        have hl := (hw p hp).2.1 w hwm
        unfold LongWatcherOK at hl
        rw [he] at hl
        have := hl.2.1
        omega
      · rw [longNil hp]
        rfl
  · have h2l : ¬ (t.ca.get cr).lits.length = 2 := h2
    rw [if_neg h2l] at h0 h1
    rw [if_neg h2, if_neg h2]
    constructor
    · by_cases hp : p < 2 * t.assigns.length
      · by_cases hc : p = neg ((t.ca.get cr).lit 0) ∨ p = neg ((t.ca.get cr).lit 1)
        · rw [if_pos hc]
          apply watchCount_eq_one (hw p hp).1
          rcases hc with hc | hc
          · rw [hc]; exact h0
          · rw [hc]; exact h1
        · rw [if_neg hc]
          apply watchCount_eq_zero
          intro w hwm he
          have hl := (hw p hp).2.1 w hwm
          unfold LongWatcherOK at hl
          rw [he] at hl
          rcases hl.2.2.1 with e | e
          · exact hc (Or.inl (by rw [e, neg_neg]))
          · exact hc (Or.inr (by rw [e, neg_neg]))
      · have hg := longNil hp
        rw [hg, watchCount_nil]
        have n0 : p ≠ neg ((t.ca.get cr).lit 0) := by
          intro e
          obtain ⟨w, hwm, _⟩ := h0
          rw [← e, hg] at hwm
          cases hwm
        have n1 : p ≠ neg ((t.ca.get cr).lit 1) := by
          intro e
          obtain ⟨w, hwm, _⟩ := h1
          rw [← e, hg] at hwm
          cases hwm
        rw [if_neg (by tauto)]
    · by_cases hp : p < 2 * t.assigns.length
      · apply watchCount_eq_zero
        intro w hwm he
        have hbw := (hw p hp).2.2 w hwm
        unfold BinWatcherOK at hbw
        rw [he] at hbw
        exact h2l hbw.2.1
      · rw [binNil hp]
        rfl

/-! ## The dynamic LBD of `propagate` -/

theorem computeLBD_threshold (s : Solver) (lits : List Nat) :
    (computeLBD s lits).2.lbLBDFrozenClause = s.lbLBDFrozenClause := by
  have hstep : ∀ (a : Nat × Solver) (q : Nat),
      (lbdStep a q).2.lbLBDFrozenClause = a.2.lbLBDFrozenClause := by
    intro a q
    unfold lbdStep
    dsimp only
    split <;> rfl
  have hfold : ∀ (l : List Nat) (a : Nat × Solver),
      (l.foldl lbdStep a).2.lbLBDFrozenClause = a.2.lbLBDFrozenClause := by
    intro l
    induction l with
    | nil => intro a; rfl
    | cons q l ih =>
      intro a
      simp only [List.foldl_cons]
      rw [ih, hstep]
  unfold computeLBD
  rw [hfold]

theorem modify_get_self (ca : ClauseAllocator) (cr : Nat) (f : Clause → Clause)
    (h : cr < ca.mem.length) : (ca.modify cr f).get cr = f (ca.get cr) := by
  unfold ClauseAllocator.modify ClauseAllocator.get
  dsimp only
  rw [getD_set_self' _ _ _ _ h]

theorem modify_get_other (ca : ClauseAllocator) (cr x : Nat) (f : Clause → Clause)
    (h : x ≠ cr) : (ca.modify cr f).get x = ca.get x := by
  unfold ClauseAllocator.modify ClauseAllocator.get
  dsimp only
  rw [getD_set_ne' _ _ _ (Ne.symm h)]

theorem unitLearnt_fresh : StampsFresh (unitLearntState Options.defaults 5) := by
  have e : (unitLearntState Options.defaults 5).permDiff = [0, 0, 0, 0] := by decide
  intro l
  rw [e]
  rcases l with _ | _ | _ | _ | l <;> simp

theorem unitLearnt_levels : ∀ x, (unitLearntState Options.defaults 5).level x <
    (unitLearntState Options.defaults 5).permDiff.length := by
  have e : (unitLearntState Options.defaults 5).permDiff.length = 4 := by decide
  have hl : (unitLearntState Options.defaults 5).vardata.length = 4 := by decide
  intro x
  rw [e]
  rcases x with _ | _ | _ | _ | x
  · decide
  · decide
  · decide
  · decide
  · unfold level
    rw [List.getD_eq_default _ _ (by rw [hl]; omega)]
    decide

theorem clean_keep (w : OccLists) (ca : ClauseAllocator) (idx l : Nat) (x : Watcher)
    (hx : x ∈ w.get l) (hd : OccLists.deleted ca x = false) : x ∈ (w.clean ca idx).get l := by
  unfold OccLists.clean
  by_cases hl : idx = l
  · subst hl
    by_cases hi : idx < w.occs.length
    · show x ∈ (w.occs.set idx _).getD idx []
      rw [getD_set_self' _ _ _ _ hi]
      exact List.mem_filter.mpr ⟨hx, by simp [hd]⟩
    · show x ∈ (w.occs.set idx _).getD idx []
      rw [List.set_eq_of_length_le (by omega)]
      exact hx
  · show x ∈ (w.occs.set idx _).getD l []
    rw [getD_set_ne' _ _ _ hl]
    exact hx

theorem cleanAll_fold_keep (ca : ClauseAllocator) (l : Nat) (x : Watcher)
    (hd : OccLists.deleted ca x = false) : ∀ (ds : List Nat) (w : OccLists), x ∈ w.get l →
    x ∈ (ds.foldl (fun acc idx => if acc.dirty.getD idx false then acc.clean ca idx else acc)
      w).get l
  | [], _, h => h
  | d :: ds, w, h => by
    simp only [List.foldl_cons]
    apply cleanAll_fold_keep ca l x hd ds
    split
    · exact clean_keep w ca d l x h hd
    · exact h

/-- The cleaning of a watch index keeps every watcher whose clause is not marked as
removed. -/
theorem cleanAll_keep (w : OccLists) (ca : ClauseAllocator) (l : Nat) (x : Watcher)
    (hx : x ∈ w.get l) (hd : (ca.get x.cref).mark ≠ 1) : x ∈ (w.cleanAll ca).get l := by
  unfold OccLists.cleanAll
  exact cleanAll_fold_keep ca l x (by simpa [OccLists.deleted] using hd) w.dirties w hx

theorem locked_of_mem {s : Solver} {t r : Nat} (hm : t ∈ (s.ca.get r).lits)
    (hv : s.value t = l_True) (hr : s.reason (var t) = some r) : locked s r = true := by
  unfold locked
  rw [List.any_eq_true]
  refine ⟨t, hm, ?_⟩
  rw [hv, hr]
  simp

theorem div_succ_mul_gt (c n k : Nat) (hn : 0 < n) : c < (c / n + 1) * (n + k) := by
  have h1 : c < (c / n + 1) * n := by
    have := Nat.div_add_mod c n
    have := Nat.mod_lt c hn
    rw [Nat.add_mul, Nat.one_mul, Nat.mul_comm]
    omega
  exact lt_of_lt_of_le h1 (Nat.mul_le_mul_left _ (Nat.le_add_right n k))

theorem reduceStep_eq (j0 : Int) (s : Solver)
    (hc : s.curRestart * s.nbclausesbeforereduce ≤ s.conflicts)
    (hn : 0 < s.nbclausesbeforereduce) :
    reduceStep j0 s =
      (reduceDB j0 { s with curRestart := s.conflicts / s.nbclausesbeforereduce + 1 }).map
        (fun s1 => { s1 with nbclausesbeforereduce := s1.nbclausesbeforereduce + s1.incReduceDB }) := by
  unfold reduceStep
  rw [if_pos hc, if_neg (by simp; omega)]
  cases reduceDB j0 { s with curRestart := s.conflicts / s.nbclausesbeforereduce + 1 } <;> rfl

theorem psm_fold_count (s : Solver) : ∀ (lits : List Nat) (a : Int),
    lits.foldl
      (fun (psm : Int) p =>
        if (if s.polarity.getD (var p) false then 1 else 0) ==
            toInt (s.assigns.getD (var p) l_Undef)
        then psm - 1 else psm) a = a - ((lits.filter (psmAgree s)).length : Int)
  | [], a => by simp
  | p :: rest, a => by
    simp only [List.foldl_cons]
    rw [psm_fold_count s rest]
    by_cases h : psmAgree s p = true
    · have h2 := h
      unfold psmAgree at h2
      rw [if_pos h2, List.filter_cons_of_pos h]
      simp only [List.length_cons]
      push_cast
      omega
    · have h2 := h
      unfold psmAgree at h2
      rw [if_neg h2, List.filter_cons_of_neg h]

/-! ## The binary minimisation removes the literals hit by a binary clause -/

theorem swap_perm (t : List Nat) (i l : Nat) (hi : i < t.length) (hl : l < t.length) :
    ((t.set l (t.getD i 0)).set i (t.getD l 0)).Perm t := by
  by_cases e : i = l
  · subst e
    rw [set_getD_same 0 t i hi, set_getD_same 0 t i hi]
  · have h1 := perm_set_cons t l (t.getD i 0) hl
    have h2 := perm_set_cons (t.set l (t.getD i 0)) i (t.getD l 0) (by rw [List.length_set]; exact hi)
    rw [getD_set_ne' _ _ _ (Ne.symm e)] at h2
    exact (h2.trans h1).cons_inv

/-- Two tests that agree outside one variable, which the first accepts and the second
rejects: the first keeps one literal more of a list that names the variable once. -/
theorem filter_one_more (A B : Nat → Bool) (v : Nat) : ∀ (qs : List Nat),
    (qs.map var).Nodup → v ∈ qs.map var →
    (∀ q ∈ qs, var q = v → A q = true ∧ B q = false) →
    (∀ q ∈ qs, var q ≠ v → A q = B q) →
    (qs.filter A).length = (qs.filter B).length + 1
  | [], _, hv, _, _ => by simp at hv
  | q :: rest, hn, hv, h1, h2 => by
    rw [List.map_cons, List.nodup_cons] at hn
    by_cases e : var q = v
    · have hrest : ∀ q2 ∈ rest, A q2 = B q2 := by
        intro q2 hq2
        apply h2 q2 (List.mem_cons_of_mem _ hq2)
        intro e2
        exact hn.1 (by rw [e, ← e2]; exact List.mem_map_of_mem _ hq2)
      have hA := (h1 q (List.mem_cons_self _ _) e).1
      have hB := (h1 q (List.mem_cons_self _ _) e).2
      rw [List.filter_cons_of_pos hA, List.filter_cons_of_neg (by rw [hB]; simp),
        List.filter_congr hrest]
      rfl
    · have hv2 : v ∈ rest.map var := by
        rw [List.map_cons, List.mem_cons] at hv
        rcases hv with hv | hv
        · exact absurd hv.symm e
        · exact hv
      have ih := filter_one_more A B v rest hn.2 hv2
        (fun q2 hq2 => h1 q2 (List.mem_cons_of_mem _ hq2))
        (fun q2 hq2 => h2 q2 (List.mem_cons_of_mem _ hq2))
      have hq := h2 q (List.mem_cons_self _ _) e
      by_cases hA : A q = true
      · rw [List.filter_cons_of_pos hA, List.filter_cons_of_pos (by rw [← hq]; exact hA)]
        simp only [List.length_cons]
        omega
      · rw [List.filter_cons_of_neg hA, List.filter_cons_of_neg (by rw [← hq]; exact hA)]
        exact ih

theorem hitBy_cons (s : Solver) (w : Watcher) (ws : List Watcher) (q : Nat) :
    hitBy s (w :: ws) q =
      ((var w.blocker == var q && s.value w.blocker == l_True) || hitBy s ws q) := by
  simp [hitBy]

theorem hitBy_congr {s t : Solver} (h : t.assigns = s.assigns) (ws : List Watcher) (q : Nat) :
    hitBy t ws q = hitBy s ws q := by
  unfold hitBy
  congr 1
  funext w
  rw [value_congr h]

theorem binMinCount_cons (w : Watcher) (ws : List Watcher) (a : Nat × Solver) :
    binMinCount (w :: ws) a =
      if a.2.permDiff.getD (var w.blocker) 0 == a.2.MYFLAG && a.2.value w.blocker == l_True then
        binMinCount ws (a.1 + 1, unflag a.2 (var w.blocker))
      else binMinCount ws a := by
  rw [binMinCount]
  rfl

/-- The count of `binMinCount`: the flagged blockers that are true lose their flag, and when
the flagged variables are those of a list `qs` that names no variable twice, the number
counted is the number of literals of `qs` that are hit. -/
theorem binMinCount_count (qs : List Nat) (hn : (qs.map var).Nodup) :
    ∀ (ws : List Watcher) (a : Nat × Solver),
    0 < a.2.MYFLAG → a.2.MYFLAG < 2 ^ 32 →
    (∀ l, a.2.permDiff.getD l 0 = a.2.MYFLAG → l ∈ qs.map var) →
    (binMinCount ws a).2.assigns = a.2.assigns ∧
    (binMinCount ws a).2.MYFLAG = a.2.MYFLAG ∧
    (∀ q, flagOn (binMinCount ws a).2.permDiff a.2.MYFLAG q =
      (flagOn a.2.permDiff a.2.MYFLAG q && !hitBy a.2 ws q)) ∧
    (binMinCount ws a).1 = a.1 +
      (qs.filter (fun q => flagOn a.2.permDiff a.2.MYFLAG q && hitBy a.2 ws q)).length
  | [], a, _, _, _ => by
    refine ⟨rfl, rfl, fun q => by simp [binMinCount, hitBy], ?_⟩
    simp [binMinCount, hitBy]
  | w :: ws, a, h0, h1, hsub => by
    rw [binMinCount_cons]
    split
    · rename_i hc
      simp only [Bool.and_eq_true, beq_iff_eq] at hc
      have hflag : a.2.permDiff.getD (var w.blocker) 0 = a.2.MYFLAG := hc.1
      have hval : a.2.value w.blocker = l_True := hc.2
      have hlt : var w.blocker < a.2.permDiff.length := by
        by_contra hge
        rw [List.getD_eq_default _ _ (by omega)] at hflag
        omega
      have hpred := pred_flag h0 h1
      have hset : ∀ l, (unflag a.2 (var w.blocker)).permDiff.getD l 0 =
          if l = var w.blocker then a.2.MYFLAG - 1 else a.2.permDiff.getD l 0 := by
        intro l
        show (a.2.permDiff.set (var w.blocker) ((a.2.MYFLAG + 2 ^ 32 - 1) % 2 ^ 32)).getD l 0 = _
        by_cases hl : l = var w.blocker
        · rw [if_pos hl, hl, getD_set_self' _ _ _ _ hlt, hpred]
        · rw [if_neg hl, getD_set_ne' _ _ _ (Ne.symm hl)]
      obtain ⟨g1, g2, g3, g4⟩ := binMinCount_count qs hn ws
        (a.1 + 1, unflag a.2 (var w.blocker)) h0 h1
        (by
          intro l hl
          have hl2 : (unflag a.2 (var w.blocker)).permDiff.getD l 0 = a.2.MYFLAG := hl
          rw [hset l] at hl2
          split at hl2
          · omega
          · exact hsub l hl2)
      have g1b : (binMinCount ws (a.1 + 1, unflag a.2 (var w.blocker))).2.assigns =
          a.2.assigns := g1
      have g2b : (binMinCount ws (a.1 + 1, unflag a.2 (var w.blocker))).2.MYFLAG =
          a.2.MYFLAG := g2
      have hfl : ∀ q, flagOn (unflag a.2 (var w.blocker)).permDiff a.2.MYFLAG q =
          (flagOn a.2.permDiff a.2.MYFLAG q && !(var w.blocker == var q)) := by
        intro q
        unfold flagOn
        rw [hset (var q)]
        by_cases e : var q = var w.blocker
        · rw [if_pos e, e]
          have : (a.2.MYFLAG - 1 == a.2.MYFLAG) = false := by
            simp only [beq_eq_false_iff_ne, ne_eq]
            omega
          simp [this]
        · rw [if_neg e]
          have : (var w.blocker == var q) = false := by
            simp only [beq_eq_false_iff_ne, ne_eq]
            exact fun h => e h.symm
          simp [this]
      have hhit : ∀ q, hitBy (unflag a.2 (var w.blocker)) ws q = hitBy a.2 ws q :=
        fun q => hitBy_congr rfl ws q
      have g3b : ∀ q, flagOn (binMinCount ws (a.1 + 1, unflag a.2 (var w.blocker))).2.permDiff
          a.2.MYFLAG q = (flagOn (unflag a.2 (var w.blocker)).permDiff a.2.MYFLAG q &&
            !hitBy a.2 ws q) := by
        intro q
        have := g3 q
        rw [hhit q] at this
        exact this
      have g4b : (binMinCount ws (a.1 + 1, unflag a.2 (var w.blocker))).1 = a.1 + 1 +
          (qs.filter (fun q => flagOn (unflag a.2 (var w.blocker)).permDiff a.2.MYFLAG q &&
            hitBy a.2 ws q)).length := by
        rw [g4]
        rfl
      refine ⟨g1b, g2b, ?_, ?_⟩
      · intro q
        rw [g3b q, hitBy_cons, hval, hfl q]
        cases flagOn a.2.permDiff a.2.MYFLAG q <;> cases (var w.blocker == var q) <;>
          cases hitBy a.2 ws q <;> rfl
      · rw [g4b]
        have hone := filter_one_more
          (fun q => flagOn a.2.permDiff a.2.MYFLAG q && hitBy a.2 (w :: ws) q)
          (fun q => flagOn (unflag a.2 (var w.blocker)).permDiff a.2.MYFLAG q && hitBy a.2 ws q)
          (var w.blocker) qs hn (hsub _ hflag)
          (by
            intro q _ e
            constructor
            · show (flagOn a.2.permDiff a.2.MYFLAG q && hitBy a.2 (w :: ws) q) = true
              rw [hitBy_cons, hval]
              unfold flagOn
              rw [e, hflag]
              simp [e]
            · show (flagOn _ a.2.MYFLAG q && hitBy a.2 ws q) = false
              rw [hfl q]
              simp [e])
          (by
            intro q _ e
            show (flagOn a.2.permDiff a.2.MYFLAG q && hitBy a.2 (w :: ws) q) =
              (flagOn _ a.2.MYFLAG q && hitBy a.2 ws q)
            rw [hfl q, hitBy_cons]
            have : (var w.blocker == var q) = false := by
              simp only [beq_eq_false_iff_ne, ne_eq]
              exact fun h => e h.symm
            simp [this])
        rw [hone]
        omega
    · rename_i hc
      obtain ⟨g1, g2, g3, g4⟩ := binMinCount_count qs hn ws a h0 h1 hsub
      have hno : ∀ q, (flagOn a.2.permDiff a.2.MYFLAG q &&
          (var w.blocker == var q && a.2.value w.blocker == l_True)) = false := by
        intro q
        by_contra hq
        simp only [Bool.not_eq_false, Bool.and_eq_true, beq_iff_eq] at hq
        apply hc
        simp only [Bool.and_eq_true, beq_iff_eq]
        refine ⟨?_, hq.2.2⟩
        have := hq.1
        unfold flagOn at this
        rw [hq.2.1]
        simpa using this
      refine ⟨g1, g2, ?_, ?_⟩
      · intro q
        rw [g3 q, hitBy_cons]
        have := hno q
        cases hf : flagOn a.2.permDiff a.2.MYFLAG q <;>
          cases hw : (var w.blocker == var q && a.2.value w.blocker == l_True) <;>
          cases hitBy a.2 ws q <;> simp_all
      · rw [g4]
        congr 2
        apply List.filter_congr
        intro q _
        rw [hitBy_cons]
        have := hno q
        cases hf : flagOn a.2.permDiff a.2.MYFLAG q <;>
          cases hw : (var w.blocker == var q && a.2.value w.blocker == l_True) <;>
          cases hitBy a.2 ws q <;> simp_all

theorem flagFold_flag (F : Nat) : ∀ (qs : List Nat) (pd : List Nat),
    (∀ q ∈ qs, var q < pd.length) →
    ∀ l, (qs.foldl (fun pd q => pd.set (var q) F) pd).getD l 0 = F ↔
      (pd.getD l 0 = F ∨ l ∈ qs.map var)
  | [], pd, _, l => by simp
  | q :: rest, pd, hr, l => by
    simp only [List.foldl_cons, List.map_cons, List.mem_cons]
    rw [flagFold_flag F rest (pd.set (var q) F)
      (fun q2 hq2 => by rw [List.length_set]; exact hr q2 (List.mem_cons_of_mem _ hq2)) l]
    have hq : var q < pd.length := hr q (List.mem_cons_self _ _)
    by_cases e : l = var q
    · rw [e, getD_set_self' _ _ _ _ hq]
      simp
    · rw [getD_set_ne' _ _ _ (Ne.symm e)]
      simp [e]

theorem binMinLoop_succ (s : Solver) (bound fuel i l : Nat) (out : List Nat) :
    binMinLoop s bound (fuel + 1) i l out =
      if i < bound then
        if !flagOn s.permDiff s.MYFLAG (out.getD i 0) then
          binMinLoop s bound fuel i (l - 1) ((out.set l (out.getD i 0)).set i (out.getD l 0))
        else binMinLoop s bound fuel (i + 1) l out
      else some out := by
  rw [binMinLoop]
  unfold flagOn
  simp only [bne, Bool.not_eq_true']

/-- The swap loop of the binary minimisation: with `cnt` unflagged literals behind
position 0 it comes to its end, exchanges positions from 1 on only, and leaves flagged
literals at the positions from 1 to the bound. -/
theorem binMinLoop_spec (s : Solver) (out0 : List Nat) (cnt : Nat)
    (hcnt : ((out0.drop 1).filter (fun q => !flagOn s.permDiff s.MYFLAG q)).length = cnt) :
    ∀ (fuel i l : Nat) (cur : List Nat),
    cur.length = out0.length → cur.Perm out0 → cur.getD 0 0 = out0.getD 0 0 →
    1 ≤ i → i ≤ out0.length - cnt → l < out0.length →
    (∀ k, 1 ≤ k → k < i → flagOn s.permDiff s.MYFLAG (cur.getD k 0) = true) →
    (∀ k, l < k → k < out0.length → flagOn s.permDiff s.MYFLAG (cur.getD k 0) = false) →
    (out0.length - cnt - i) + (l + 1 - i) ≤ fuel →
    ∃ r, binMinLoop s (out0.length - cnt) fuel i l cur = some r ∧ r.length = out0.length ∧
      r.Perm out0 ∧ r.getD 0 0 = out0.getD 0 0 ∧
      ∀ k, 1 ≤ k → k < out0.length - cnt → flagOn s.permDiff s.MYFLAG (r.getD k 0) = true
  | 0, i, l, cur, hlen, hperm, h0, hi1, hib, _, hpre, _, hm => by
    have hi : i = out0.length - cnt := by omega
    refine ⟨cur, ?_, hlen, hperm, h0, ?_⟩
    · unfold binMinLoop
      rw [if_neg (by omega)]
    · intro k hk1 hk2
      exact hpre k hk1 (by omega)
  | fuel + 1, i, l, cur, hlen, hperm, h0, hi1, hib, hl, hpre, hsuf, hm => by
    rw [binMinLoop_succ]
    by_cases hlt : i < out0.length - cnt
    · rw [if_pos hlt]
      -- the positions behind `l` are unflagged: there are at most `cnt` of them
      have hcount : out0.length - (l + 1) ≤ cnt := by
        have hall : (cur.drop (l + 1)).filter (fun q => !flagOn s.permDiff s.MYFLAG q) =
            cur.drop (l + 1) := by
          rw [List.filter_eq_self]
          intro q hq
          obtain ⟨k, hk, rfl⟩ := List.getElem_of_mem hq
          rw [List.length_drop] at hk
          have := hsuf (l + 1 + k) (by omega) (by omega)
          rw [List.getElem_drop]
          rw [List.getD_eq_getElem _ _ (by omega)] at this
          rw [this]
          rfl
        have hsub : (cur.drop (l + 1)).Sublist (cur.drop 1) := by
          have : cur.drop (l + 1) = (cur.drop 1).drop l := by
            rw [List.drop_drop]
            congr 1
            omega
          rw [this]
          exact List.drop_sublist _ _
        have h1 := (hsub.filter (fun q => !flagOn s.permDiff s.MYFLAG q)).length_le
        rw [hall, List.length_drop] at h1
        have hp1 : (cur.drop 1).Perm (out0.drop 1) := by
          rcases cur with _ | ⟨c, ct⟩
          · rcases out0 with _ | ⟨o, ot⟩
            · exact List.Perm.refl _
            · simp at hlen
          · rcases out0 with _ | ⟨o, ot⟩
            · simp at hlen
            · have e : c = o := h0
              subst e
              exact hperm.cons_inv
        have h2 := (hp1.filter (fun q => !flagOn s.permDiff s.MYFLAG q)).length_eq
        rw [hcnt] at h2
        omega
      have hil : i ≤ l := by omega
      by_cases hf : flagOn s.permDiff s.MYFLAG (cur.getD i 0) = true
      · rw [if_neg (by rw [hf]; simp)]
        apply binMinLoop_spec s out0 cnt hcnt fuel (i + 1) l cur hlen hperm h0 (by omega)
          (by omega) hl ?_ hsuf (by omega)
        intro k hk1 hk2
        by_cases e : k = i
        · rw [e]; exact hf
        · exact hpre k hk1 (by omega)
      · rw [if_pos (by simpa using hf)]
        have hf2 : flagOn s.permDiff s.MYFLAG (cur.getD i 0) = false := by simpa using hf
        have hget : ∀ k, ((cur.set l (cur.getD i 0)).set i (cur.getD l 0)).getD k 0 =
            if k = i then cur.getD l 0 else if k = l then cur.getD i 0 else cur.getD k 0 := by
          intro k
          by_cases e1 : k = i
          · rw [if_pos e1, e1, getD_set_self' _ _ _ _ (by rw [List.length_set]; omega)]
          · rw [if_neg e1, getD_set_ne' _ _ _ (Ne.symm e1)]
            by_cases e2 : k = l
            · rw [if_pos e2, e2, getD_set_self' _ _ _ _ (by omega)]
            · rw [if_neg e2, getD_set_ne' _ _ _ (Ne.symm e2)]
        apply binMinLoop_spec s out0 cnt hcnt fuel i (l - 1) _
          (by rw [List.length_set, List.length_set]; exact hlen)
          ((swap_perm cur i l (by omega) (by omega)).trans hperm)
          (by rw [hget 0, if_neg (by omega), if_neg (by omega)]; exact h0)
          hi1 hib (by omega) ?_ ?_ (by omega)
        · intro k hk1 hk2
          rw [hget k, if_neg (by omega), if_neg (by omega)]
          exact hpre k hk1 hk2
        · intro k hk1 hk2
          rw [hget k]
          by_cases e1 : k = i
          · rw [if_pos e1]
            have : i = l := by omega
            rw [← this]
            exact hf2
          · rw [if_neg e1]
            by_cases e2 : k = l
            · rw [if_pos e2]
              exact hf2
            · rw [if_neg e2]
              exact hsuf k (by omega) hk2
    · rw [if_neg hlt]
      have hi : i = out0.length - cnt := by omega
      refine ⟨cur, rfl, hlen, hperm, h0, ?_⟩
      intro k hk1 hk2
      exact hpre k hk1 (by omega)

theorem lbdStep_only (a : Nat × Solver) (q : Nat) :
    (lbdStep a q).2 = { a.2 with permDiff := (lbdStep a q).2.permDiff } := by
  unfold lbdStep
  dsimp only
  split <;> rfl

theorem foldl_lbdStep_only : ∀ (lits : List Nat) (a : Nat × Solver),
    (lits.foldl lbdStep a).2 = { a.2 with permDiff := (lits.foldl lbdStep a).2.permDiff }
  | [], _ => rfl
  | q :: rest, a => by
    simp only [List.foldl_cons]
    have h1 := foldl_lbdStep_only rest (lbdStep a q)
    have h2 := lbdStep_only a q
    rw [h2] at h1
    exact h1

/-- The LBD loop writes `permDiff` and `MYFLAG` only. -/
theorem computeLBD_only (s : Solver) (lits : List Nat) :
    (computeLBD s lits).2 =
      { s with permDiff := (computeLBD s lits).2.permDiff,
               MYFLAG := (computeLBD s lits).2.MYFLAG } := by
  have h := foldl_lbdStep_only lits (0, { s with MYFLAG := (s.MYFLAG + 1) % 2 ^ 32 })
  have hM := (foldl_lbdStep_fields lits (0, { s with MYFLAG := (s.MYFLAG + 1) % 2 ^ 32 })).2.1
  unfold computeLBD
  rw [hM]
  exact h

theorem binMinCount_only : ∀ (ws : List Watcher) (a : Nat × Solver),
    (binMinCount ws a).2 = { a.2 with permDiff := (binMinCount ws a).2.permDiff }
  | [], _ => rfl
  | w :: ws, a => by
    rw [binMinCount_cons]
    split
    · have h := binMinCount_only ws (a.1 + 1, unflag a.2 (var w.blocker))
      exact h
    · exact binMinCount_only ws a

/-- The binary minimisation, when the size and the LBD of the clause let it run. -/
theorem binaryMinimize_active (s : Solver) (p : Nat) (out : List Nat)
    (h1 : out.length ≤ s.lbSizeMinimizingClause)
    (h2 : (computeLBD s out).1 ≤ s.lbLBDMinimizingClause) :
    binaryMinimize s p out =
      if (binMinCount (s.watchesBin.get p) (0, flagAll (computeLBD s out).2 out)).1 > 0 then
        (binMinLoop (binMinCount (s.watchesBin.get p) (0, flagAll (computeLBD s out).2 out)).2
          (out.length - (binMinCount (s.watchesBin.get p)
            (0, flagAll (computeLBD s out).2 out)).1)
          (2 * out.length) 1 (out.length - 1) out).map
          (fun out1 => (out1.take (out1.length - (binMinCount (s.watchesBin.get p)
              (0, flagAll (computeLBD s out).2 out)).1),
            { (binMinCount (s.watchesBin.get p) (0, flagAll (computeLBD s out).2 out)).2 with
              nbReducedClauses := (binMinCount (s.watchesBin.get p)
                (0, flagAll (computeLBD s out).2 out)).2.nbReducedClauses + 1 }))
      else some (out, (binMinCount (s.watchesBin.get p)
        (0, flagAll (computeLBD s out).2 out)).2) := by
  have hw : (computeLBD s out).2.watchesBin = s.watchesBin := by
    rw [computeLBD_only]
  have hl : (computeLBD s out).2.lbLBDMinimizingClause = s.lbLBDMinimizingClause := by
    rw [computeLBD_only]
  unfold binaryMinimize
  rw [if_pos h1]
  dsimp only
  rw [if_pos (by rw [hl]; exact h2), ← hw]
  generalize binMinCount ((computeLBD s out).2.watchesBin.get p)
    (0, flagAll (computeLBD s out).2 out) = cnt
  by_cases hpos : cnt.1 > 0
  · rw [if_pos hpos, if_pos hpos]
    cases binMinLoop cnt.2 (out.length - cnt.1) (2 * out.length) 1 (out.length - 1) out <;> rfl
  · rw [if_neg hpos, if_neg hpos]

theorem drop_one_perm {a b : List Nat} (hl : a.length = b.length) (hp : a.Perm b)
    (h0 : a.getD 0 0 = b.getD 0 0) : (a.drop 1).Perm (b.drop 1) := by
  rcases a with _ | ⟨c, ct⟩
  · rcases b with _ | ⟨o, ot⟩
    · exact List.Perm.refl _
    · simp at hl
  · rcases b with _ | ⟨o, ot⟩
    · simp at hl
    · have e : c = o := h0
      subst e
      exact hp.cons_inv

theorem take_drop_one (l : List Nat) (b : Nat) (hb : 1 ≤ b) :
    l.drop 1 = (l.take b).drop 1 ++ l.drop b := by
  rcases l with _ | ⟨c, ct⟩
  · simp
  · obtain ⟨k, rfl⟩ : ∃ k, b = k + 1 := ⟨b - 1, by omega⟩
    simp

/-- The binary minimisation, when it runs on a clause whose literals behind the first have
different variables, all of them indices of `permDiff`, with fresh stamps: it comes to its
end, keeps the first literal in place, keeps behind it the literals that no true blocker of
the binary watch list of `p` hits, and removes the others. -/
theorem binaryMinimize_spec (s : Solver) (p : Nat) (out : List Nat) (hfresh : StampsFresh s)
    (hwrap : s.MYFLAG + 2 < 2 ^ 32) (hne : 1 ≤ out.length)
    (hnd : ((out.drop 1).map var).Nodup)
    (hrange : ∀ q ∈ out.drop 1, var q < s.permDiff.length)
    (h1 : out.length ≤ s.lbSizeMinimizingClause)
    (h2 : (computeLBD s out).1 ≤ s.lbLBDMinimizingClause) :
    ∃ r, binaryMinimize s p out = some r ∧ r.1.getD 0 0 = out.getD 0 0 ∧
      (r.1.drop 1).Perm ((out.drop 1).filter (fun q => !binRemovable s p q)) ∧
      r.1.length + ((out.drop 1).filter (binRemovable s p)).length = out.length := by
  obtain ⟨_, c2, c3, c4⟩ := computeLBD_stamps s out hfresh (by omega)
  have hF : ((computeLBD s out).2.MYFLAG + 1) % 2 ^ 32 = s.MYFLAG + 2 := by
    rw [c2, Nat.mod_eq_of_lt (by omega)]
  have hassign : (flagAll (computeLBD s out).2 out).assigns = s.assigns := by
    show (computeLBD s out).2.assigns = s.assigns
    rw [computeLBD_only]
  have hflag2 : ∀ l, (flagAll (computeLBD s out).2 out).permDiff.getD l 0 =
      (flagAll (computeLBD s out).2 out).MYFLAG ↔ l ∈ (out.drop 1).map var := by
    intro l
    show ((out.drop 1).foldl (fun pd q => pd.set (var q)
      (((computeLBD s out).2.MYFLAG + 1) % 2 ^ 32)) (computeLBD s out).2.permDiff).getD l 0 =
      ((computeLBD s out).2.MYFLAG + 1) % 2 ^ 32 ↔ _
    rw [flagFold_flag _ _ _ (fun q hq => by rw [c3]; exact hrange q hq) l]
    constructor
    · rintro (h | h)
      · have := c4 l
        rw [hF] at h
        rw [c2] at this
        omega
      · exact h
    · exact Or.inr
  have hFl : (flagAll (computeLBD s out).2 out).MYFLAG = s.MYFLAG + 2 := hF
  obtain ⟨g1, g2, g3, g4⟩ := binMinCount_count (out.drop 1) hnd (s.watchesBin.get p)
    (0, flagAll (computeLBD s out).2 out) (by rw [hFl]; omega) (by rw [hFl]; omega)
    (fun l hl => (hflag2 l).1 hl)
  rw [binaryMinimize_active s p out h1 h2]
  generalize binMinCount (s.watchesBin.get p) (0, flagAll (computeLBD s out).2 out) = cnt
    at g1 g2 g3 g4
  have g2b : cnt.2.MYFLAG = (flagAll (computeLBD s out).2 out).MYFLAG := g2
  have hmem : ∀ q ∈ out.drop 1,
      flagOn cnt.2.permDiff cnt.2.MYFLAG q = !binRemovable s p q := by
    intro q hq
    rw [g2b]
    have h3 := g3 q
    have h4 : flagOn (flagAll (computeLBD s out).2 out).permDiff
        (flagAll (computeLBD s out).2 out).MYFLAG q = true := by
      unfold flagOn
      rw [(hflag2 (var q)).2 (List.mem_map_of_mem _ hq)]
      simp
    have h5 : hitBy (flagAll (computeLBD s out).2 out) (s.watchesBin.get p) q =
        binRemovable s p q := hitBy_congr hassign _ q
    rw [h4, h5] at h3
    simpa using h3
  have hcntR : cnt.1 = ((out.drop 1).filter (binRemovable s p)).length := by
    have h4 : cnt.1 = 0 + ((out.drop 1).filter (fun q =>
        flagOn (flagAll (computeLBD s out).2 out).permDiff
          (flagAll (computeLBD s out).2 out).MYFLAG q &&
        hitBy (flagAll (computeLBD s out).2 out) (s.watchesBin.get p) q)).length := g4
    rw [h4, Nat.zero_add]
    congr 1
    apply List.filter_congr
    intro q hq
    have h5 : hitBy (flagAll (computeLBD s out).2 out) (s.watchesBin.get p) q =
        binRemovable s p q := hitBy_congr hassign _ q
    have h6 : flagOn (flagAll (computeLBD s out).2 out).permDiff
        (flagAll (computeLBD s out).2 out).MYFLAG q = true := by
      unfold flagOn
      rw [(hflag2 (var q)).2 (List.mem_map_of_mem _ hq)]
      simp
    rw [h5, h6]
    simp
  have hunfl : ((out.drop 1).filter (fun q => !flagOn cnt.2.permDiff cnt.2.MYFLAG q)).length =
      cnt.1 := by
    rw [hcntR]
    congr 1
    apply List.filter_congr
    intro q hq
    rw [hmem q hq]
    simp
  have hkeep : (out.drop 1).filter (fun q => flagOn cnt.2.permDiff cnt.2.MYFLAG q) =
      (out.drop 1).filter (fun q => !binRemovable s p q) := by
    apply List.filter_congr
    intro q hq
    exact hmem q hq
  have hle : cnt.1 + 1 ≤ out.length := by
    have := List.length_filter_le (binRemovable s p) (out.drop 1)
    rw [List.length_drop] at this
    omega
  by_cases hpos : cnt.1 > 0
  · rw [if_pos hpos]
    obtain ⟨out1, e1, e2, e3, e4, e5⟩ := binMinLoop_spec cnt.2 out cnt.1 hunfl (2 * out.length) 1
      (out.length - 1) out rfl (List.Perm.refl _) rfl (le_refl _) (by omega) (by omega)
      (fun k hk1 hk2 => by omega) (fun k hk1 hk2 => by omega) (by omega)
    rw [e1]
    refine ⟨_, rfl, ?_, ?_, ?_⟩
    · show (out1.take (out1.length - cnt.1)).getD 0 0 = out.getD 0 0
      rw [← e4, List.getD_eq_getElem?_getD, List.getD_eq_getElem?_getD,
        List.getElem?_take_of_lt (by omega)]
    · show ((out1.take (out1.length - cnt.1)).drop 1).Perm _
      rw [← hkeep, e2]
      have hp1 := drop_one_perm e2 e3 e4
      have hsplit := take_drop_one out1 (out.length - cnt.1) (by omega)
      -- the positions from 1 to the bound are flagged
      have hpre : ((out1.take (out.length - cnt.1)).drop 1).filter
          (fun q => flagOn cnt.2.permDiff cnt.2.MYFLAG q) =
          (out1.take (out.length - cnt.1)).drop 1 := by
        rw [List.filter_eq_self]
        intro q hq
        obtain ⟨k, hk, rfl⟩ := List.getElem_of_mem hq
        rw [List.length_drop, List.length_take] at hk
        have := e5 (1 + k) (by omega) (by omega)
        rw [List.getD_eq_getElem _ _ (by omega)] at this
        rw [List.getElem_drop, List.getElem_take]
        exact this
      -- hence the unflagged literals are the ones behind the bound
      have hcount := (hp1.filter (fun q => !flagOn cnt.2.permDiff cnt.2.MYFLAG q)).length_eq
      rw [hunfl, hsplit, List.filter_append, List.length_append] at hcount
      have hpre0 : ((out1.take (out.length - cnt.1)).drop 1).filter
          (fun q => !flagOn cnt.2.permDiff cnt.2.MYFLAG q) = [] := by
        rw [List.filter_eq_nil_iff]
        intro q hq
        have := (List.filter_eq_self.1 hpre) q hq
        simp [this]
      rw [hpre0, List.length_nil, Nat.zero_add] at hcount
      have hsuf : (out1.drop (out.length - cnt.1)).filter
          (fun q => flagOn cnt.2.permDiff cnt.2.MYFLAG q) = [] := by
        rw [List.filter_eq_nil_iff]
        intro q hq
        have hall : ((out1.drop (out.length - cnt.1)).filter
            (fun q => !flagOn cnt.2.permDiff cnt.2.MYFLAG q)).length =
            (out1.drop (out.length - cnt.1)).length := by
          rw [hcount, List.length_drop]
          omega
        have := (List.filter_length_eq_length.1 hall) q hq
        simpa using this
      have hfil := hp1.filter (fun q => flagOn cnt.2.permDiff cnt.2.MYFLAG q)
      rw [hsplit, List.filter_append, hpre, hsuf, List.append_nil] at hfil
      exact hfil
    · show (out1.take (out1.length - cnt.1)).length + _ = _
      rw [List.length_take, e2, ← hcntR]
      omega
  · rw [if_neg hpos]
    have hz : cnt.1 = 0 := by omega
    refine ⟨_, rfl, rfl, ?_, ?_⟩
    · show (out.drop 1).Perm _
      have : (out.drop 1).filter (fun q => !binRemovable s p q) = out.drop 1 := by
        rw [List.filter_eq_self]
        intro q hq
        have hnil : (out.drop 1).filter (binRemovable s p) = [] := by
          apply List.eq_nil_of_length_eq_zero
          rw [← hcntR]
          exact hz
        have := (List.filter_eq_nil_iff.1 hnil) q hq
        simpa using this
      rw [this]
    · show out.length + _ = _
      rw [← hcntR, hz, Nat.add_zero]

/-! ## Conflict analysis clears `seen` -/

theorem aSame_refl (s : Solver) : ASame s s :=
  ⟨rfl, rfl, rfl, rfl, rfl, rfl, fun _ => ⟨List.Perm.refl _, fun _ => rfl⟩⟩

theorem aSame_trans {a b c : Solver} (h1 : ASame a b) (h2 : ASame b c) : ASame a c := by
  refine ⟨h2.assigns.trans h1.assigns, h2.vardata.trans h1.vardata, h2.trail.trans h1.trail,
    h2.trail_lim.trans h1.trail_lim, h2.qhead.trans h1.qhead, h2.seenLen.trans h1.seenLen, ?_⟩
  intro cr
  refine ⟨(h2.lits cr).1.trans (h1.lits cr).1, ?_⟩
  intro hl
  have e1 := (h1.lits cr).2 hl
  have hl2 : (b.ca.get cr).lits.length ≠ 2 := by rw [e1]; exact hl
  exact ((h2.lits cr).2 hl2).trans e1

theorem aSame_of_fields {s t : Solver} (h1 : t.assigns = s.assigns) (h2 : t.vardata = s.vardata)
    (h3 : t.trail = s.trail) (h4 : t.trail_lim = s.trail_lim) (h5 : t.qhead = s.qhead)
    (h6 : t.seen.length = s.seen.length) (h7 : t.ca = s.ca) : ASame s t :=
  ⟨h1, h2, h3, h4, h5, h6, fun cr => by rw [h7]; exact ⟨List.Perm.refl _, fun _ => rfl⟩⟩

theorem aSame_value {s t : Solver} (h : ASame s t) (q : Nat) : t.value q = s.value q :=
  value_congr h.assigns q

theorem aSame_level {s t : Solver} (h : ASame s t) (x : Nat) : t.level x = s.level x :=
  level_congr h.vardata x

theorem aSame_reason {s t : Solver} (h : ASame s t) (x : Nat) : t.reason x = s.reason x :=
  reason_congr h.vardata x

theorem aSame_decisionLevel {s t : Solver} (h : ASame s t) :
    t.decisionLevel = s.decisionLevel := by
  unfold decisionLevel
  rw [h.trail_lim]

theorem lit_zero_of_perm {a b : List Nat} (h : b.length ≠ 2 → a = b) (hp : a.Perm b)
    {x : Nat} (hx : b.length ≠ 2 → b.getD 0 0 = x) : a.length ≠ 2 → a.getD 0 0 = x := by
  intro ha
  have hb : b.length ≠ 2 := by rw [← hp.length_eq]; exact ha
  rw [h hb]
  exact hx hb

theorem rInv_same {s t : Solver} (h : RInv s) (hs : ASame s t) : RInv t := by
  intro i hi hlev cr hr
  unfold ReasonAt
  rw [hs.trail] at hi hlev hr ⊢
  rw [aSame_level hs] at hlev
  rw [aSame_reason hs] at hr
  obtain ⟨r1, r2, r3, r4⟩ := h i hi hlev cr hr
  obtain ⟨p1, p2⟩ := hs.lits cr
  refine ⟨p1.nodup_iff.2 r1, p1.mem_iff.2 r2, ?_, ?_⟩
  · exact lit_zero_of_perm p2 p1 r3
  · intro l hl hne
    exact r4 l (p1.mem_iff.1 hl) hne

theorem aStat_same {s t : Solver} (h : AStat s) (hs : ASame s t) : AStat t := by
  refine ⟨h.wf.congr_trailWF hs.trail hs.trail_lim hs.assigns hs.vardata,
    h.trail.congr_trailOK hs.trail hs.trail_lim hs.assigns hs.qhead, ?_, rInv_same h.reasons hs, ?_⟩
  · rw [hs.seenLen, hs.assigns]
    exact h.seenLen
  · intro i hi hlev hr j hj
    rw [hs.trail] at hi hlev hr ⊢
    rw [aSame_level hs] at hlev ⊢
    rw [aSame_reason hs] at hr
    rw [aSame_level hs]
    exact h.first i hi hlev hr j hj

theorem varBumpActivity_only (s : Solver) (v : Nat) :
    varBumpActivity s v =
      { s with activity := (varBumpActivity s v).activity,
               var_inc := (varBumpActivity s v).var_inc,
               order_heap := (varBumpActivity s v).order_heap } := by
  unfold varBumpActivity
  dsimp only
  split <;> split <;> rfl

theorem claBumpActivity_only (s : Solver) (cr : Nat) :
    claBumpActivity s cr =
      { s with ca := (claBumpActivity s cr).ca, cla_inc := (claBumpActivity s cr).cla_inc } := by
  unfold claBumpActivity
  dsimp only
  split <;> rfl

theorem swapBinary_only (s : Solver) (cr : Nat) :
    swapBinary s cr = { s with ca := (swapBinary s cr).ca } := by
  unfold swapBinary
  dsimp only
  split <;> rfl

theorem varBumpActivity_same (s : Solver) (v : Nat) : ASame s (varBumpActivity s v) := by
  have h := varBumpActivity_only s v
  apply aSame_of_fields <;> rw [h]

theorem caModify_lits (ca : ClauseAllocator) (cr : Nat) (f : Clause → Clause)
    (hf : ∀ c, (f c).lits = c.lits) (x : Nat) :
    ((ca.modify cr f).get x).lits = (ca.get x).lits := by
  unfold ClauseAllocator.modify ClauseAllocator.get
  dsimp only
  by_cases hx : cr = x
  · subst hx
    by_cases hl : cr < ca.mem.length
    · rw [getD_set_self' _ _ _ _ hl]
      exact hf _
    · rw [List.set_eq_of_length_le (by omega)]
  · rw [getD_set_ne' _ _ _ hx]

theorem caFold_lits (f : Clause → Clause) (hf : ∀ c, (f c).lits = c.lits) :
    ∀ (ls : List Nat) (ca : ClauseAllocator) (x : Nat),
    ((ls.foldl (fun ca l => ca.modify l f) ca).get x).lits = (ca.get x).lits
  | [], _, _ => rfl
  | l :: ls, ca, x => by
    simp only [List.foldl_cons]
    rw [caFold_lits f hf ls (ca.modify l f) x, caModify_lits ca l f hf]

theorem claBump_lits (s : Solver) (cr x : Nat) :
    ((claBumpActivity s cr).ca.get x).lits = (s.ca.get x).lits := by
  unfold claBumpActivity
  dsimp only
  split
  · dsimp only
    rw [caFold_lits (fun c => { c with activity := c.activity.mul ⟨1, 10 ^ 20⟩ }) (fun _ => rfl)]
    apply caModify_lits
    intro _
    rfl
  · apply caModify_lits
    intro _
    rfl

theorem claBumpActivity_same (s : Solver) (cr : Nat) : ASame s (claBumpActivity s cr) := by
  have h := claBumpActivity_only s cr
  refine ⟨by rw [h], by rw [h], by rw [h], by rw [h], by rw [h], by rw [h], ?_⟩
  intro x
  rw [claBump_lits s cr x]
  exact ⟨List.Perm.refl _, fun _ => rfl⟩

theorem swapBinary_lits (s : Solver) (cr x : Nat) :
    ((swapBinary s cr).ca.get x).lits = (s.ca.get x).lits ∨
    (x = cr ∧ cr < s.ca.mem.length ∧ (s.ca.get cr).lits.length = 2 ∧
      s.value ((s.ca.get cr).lit 0) = l_False ∧
      ((swapBinary s cr).ca.get x).lits = [(s.ca.get cr).lit 1, (s.ca.get cr).lit 0]) := by
  unfold swapBinary
  dsimp only
  split
  · rename_i hc
    simp only [Bool.and_eq_true, beq_iff_eq] at hc
    by_cases hx : x = cr
    · by_cases hlt : cr < s.ca.mem.length
      · right
        refine ⟨hx, hlt, hc.1, hc.2, ?_⟩
        rw [hx]
        show ((s.ca.modify cr _).get cr).lits = _
        rw [ca_get_modify_self _ _ _ hlt]
      · left
        rw [hx]
        show ((s.ca.modify cr _).get cr).lits = _
        unfold ClauseAllocator.modify ClauseAllocator.get
        dsimp only
        rw [List.set_eq_of_length_le (by omega)]
    · left
      show ((s.ca.modify cr _).get x).lits = _
      rw [get_modify_ne _ _ _ hx]
  · left
    rfl

theorem swapBinary_same (s : Solver) (cr : Nat) : ASame s (swapBinary s cr) := by
  have h := swapBinary_only s cr
  refine ⟨by rw [h], by rw [h], by rw [h], by rw [h], by rw [h], by rw [h], ?_⟩
  intro x
  rcases swapBinary_lits s cr x with e | ⟨hx, _, h2, _, e⟩
  · rw [e]
    exact ⟨List.Perm.refl _, fun _ => rfl⟩
  · rw [e, hx]
    refine ⟨?_, fun hne => absurd h2 hne⟩
    have hl : (s.ca.get cr).lits = [(s.ca.get cr).lit 0, (s.ca.get cr).lit 1] := by
      unfold Clause.lit
      match hc : (s.ca.get cr).lits, h2 with
      | [a, b], _ => rfl
    rw [hl]
    unfold Clause.lit
    rw [hl]
    exact List.Perm.swap _ _ _

theorem countP_flip {p p' : Nat → Bool} {k0 : Nat} : ∀ {l : List Nat}, l.Nodup → k0 ∈ l →
    p k0 = false → p' k0 = true → (∀ k ∈ l, k ≠ k0 → p' k = p k) →
    l.countP p' = l.countP p + 1
  | [], _, hk, _, _, _ => by simp at hk
  | x :: l, hnd, hk, h0, h1, hag => by
    have hx : x ∉ l := (List.nodup_cons.1 hnd).1
    have hl : l.Nodup := (List.nodup_cons.1 hnd).2
    by_cases hxk : x = k0
    · subst hxk
      rw [List.countP_cons_of_pos _ _ h1, List.countP_cons_of_neg _ _ (by rw [h0]; simp)]
      have e : l.countP p' = l.countP p := by
        apply List.countP_congr
        intro k hkl
        have hne : k ≠ x := fun e => hx (e ▸ hkl)
        rw [hag k (List.mem_cons_of_mem _ hkl) hne]
      rw [e]
    · have hk2 : k0 ∈ l := by
        rcases List.mem_cons.1 hk with e | e
        · exact absurd e.symm hxk
        · exact e
      have ih := countP_flip hl hk2 h0 h1
        (fun k hkl hne => hag k (List.mem_cons_of_mem _ hkl) hne)
      have ex := hag x (List.mem_cons_self _ _) hxk
      rw [List.countP_cons, List.countP_cons, ih, ex]
      omega

theorem trail_var_inj {s : Solver} (hwf : TrailWF s) {i j : Nat} (hi : i < s.trail.length)
    (hj : j < s.trail.length) (e : var (s.trail.getD i 0) = var (s.trail.getD j 0)) : i = j := by
  rw [List.getD_eq_getElem _ _ hi, List.getD_eq_getElem _ _ hj] at e
  have hi2 : i < (s.trail.map var).length := by rw [List.length_map]; exact hi
  have hj2 : j < (s.trail.map var).length := by rw [List.length_map]; exact hj
  have e2 : (s.trail.map var)[i] = (s.trail.map var)[j] := by
    rw [List.getElem_map, List.getElem_map]; exact e
  exact (List.Nodup.getElem_inj_iff hwf.nodup).1 e2

theorem pathCount_pos {s : Solver} {n k : Nat} (hk : k < n) (hl : k < s.trail.length)
    (hs : s.seen.getD (var (s.trail.getD k 0)) false = true)
    (hd : s.decisionLevel ≤ s.level (var (s.trail.getD k 0))) : 0 < pathCount s n := by
  unfold pathCount
  rw [List.countP_pos]
  refine ⟨k, List.mem_range.2 hl, ?_⟩
  unfold curSeen
  rw [hs, decide_eq_true hk, decide_eq_true hd]
  rfl

theorem pathCount_zero {s : Solver} {n k : Nat} (h : pathCount s n = 0) (hk : k < n)
    (hl : k < s.trail.length) (hs : s.seen.getD (var (s.trail.getD k 0)) false = true) :
    s.level (var (s.trail.getD k 0)) < s.decisionLevel := by
  by_contra hn
  have := pathCount_pos hk hl hs (by omega)
  omega

theorem pathCount_exists {s : Solver} {n : Nat} (h : 0 < pathCount s n) :
    ∃ k, k < n ∧ k < s.trail.length ∧ s.seen.getD (var (s.trail.getD k 0)) false = true ∧
      s.decisionLevel ≤ s.level (var (s.trail.getD k 0)) := by
  unfold pathCount at h
  rw [List.countP_pos] at h
  obtain ⟨k, hk, hc⟩ := h
  unfold curSeen at hc
  simp only [Bool.and_eq_true, decide_eq_true_eq] at hc
  exact ⟨k, hc.1, List.mem_range.1 hk, hc.2.1, hc.2.2⟩

theorem drop_one_append (out : List Nat) (q : Nat) (h : 1 ≤ out.length) :
    (out ++ [q]).drop 1 = out.drop 1 ++ [q] := by
  cases out with
  | nil => simp at h
  | cons x xs => rfl

/-- Marking the variable of a false literal `q` whose complement stands below position `n`
on the trail: the two ways `analyze` records it. -/
theorem mark_inv {a : AnalyzeAcc} {n q : Nat} {t : Solver} (h : ALoop a n)
    (hq : neg q ∈ a.s.trail.take n) (hs : ASame a.s t)
    (hseen : t.seen = a.s.seen.set (var q) true)
    (hu : a.s.seen.getD (var q) false = false) (hl : 0 < a.s.level (var q)) :
    (a.s.decisionLevel ≤ a.s.level (var q) →
      ALoop { s := t, pathC := a.pathC + 1, out_learnt := a.out_learnt } n) ∧
    (a.s.level (var q) < a.s.decisionLevel →
      ALoop { s := t, pathC := a.pathC, out_learnt := a.out_learnt ++ [q] } n) := by
  obtain ⟨k0, hk0n, hk0l, hk0⟩ := mem_take_getD hq
  have hqt : neg q ∈ a.s.trail := List.mem_of_mem_take hq
  have hvq : var (a.s.trail.getD k0 0) = var q := by rw [hk0, var_neg]
  have hrange : var q < a.s.seen.length := by
    rw [h.stat.seenLen]
    have := (h.stat.trail.1 (neg q) hqt).1
    rwa [var_neg] at this
  have hget : ∀ v, t.seen.getD v false = if v = var q then true else a.s.seen.getD v false := by
    intro v
    rw [hseen]
    by_cases hv : v = var q
    · rw [if_pos hv, hv, getD_set_self' _ _ _ _ hrange]
    · rw [if_neg hv, getD_set_ne' _ _ _ (Ne.symm hv)]
  have hmono : ∀ v, a.s.seen.getD v false = true → t.seen.getD v false = true := by
    intro v hv
    rw [hget]
    split
    · rfl
    · exact hv
  have hst : AStat t := aStat_same h.stat hs
  have hD : t.decisionLevel = a.s.decisionLevel := aSame_decisionLevel hs
  have hcur : ∀ k ∈ List.range a.s.trail.length, k ≠ k0 → curSeen t n k = curSeen a.s n k := by
    intro k hk hne
    unfold curSeen
    rw [hs.trail, aSame_level hs, hD, hget, if_neg]
    intro e
    exact hne (trail_var_inj h.stat.wf (List.mem_range.1 hk) hk0l (e.trans hvq.symm))
  have hcur0 : curSeen a.s n k0 = false := by
    unfold curSeen
    rw [hvq, hu]
    simp
  have hcurk : curSeen t n k0 = decide (a.s.decisionLevel ≤ a.s.level (var q)) := by
    unfold curSeen
    rw [hs.trail, aSame_level hs, hD, hget, hvq, if_pos rfl]
    simp [hk0n]
  have hlowT : ∀ q2 ∈ a.out_learnt.drop 1,
      neg q2 ∈ t.trail ∧ 0 < t.level (var q2) ∧ t.level (var q2) < t.decisionLevel ∧
      t.seen.getD (var q2) false = true := by
    intro q2 hq2
    obtain ⟨l1, l2, l3, l4⟩ := h.low q2 hq2
    rw [hs.trail, aSame_level hs, hD]
    exact ⟨l1, l2, l3, hmono _ l4⟩
  have hqT : a.s.level (var q) < a.s.decisionLevel →
      neg q ∈ t.trail ∧ 0 < t.level (var q) ∧ t.level (var q) < t.decisionLevel ∧
      t.seen.getD (var q) false = true := by
    intro hd
    rw [hs.trail, aSame_level hs, hD, hget, if_pos rfl]
    exact ⟨hqt, hl, hd, rfl⟩
  refine ⟨fun hd => ?_, fun hd => ?_⟩
  · refine ⟨hst, by rw [hD]; exact h.dpos, by rw [hs.trail]; exact h.nle, ?_, hlowT, ?_,
      h.nodup, h.ne⟩
    · show a.pathC + 1 = (pathCount t n : Int)
      have e : pathCount t n = pathCount a.s n + 1 := by
        unfold pathCount
        rw [hs.trail]
        exact countP_flip (List.nodup_range _) (List.mem_range.2 hk0l) hcur0
          (by rw [hcurk]; simpa using hd) hcur
      rw [e, h.cnt]
      push_cast
      rfl
    · intro v hv
      show (∃ k, k < n ∧ var (t.trail.getD k 0) = v ∧ t.decisionLevel ≤ t.level v) ∨
        v ∈ (a.out_learnt.drop 1).map var
      rw [hs.trail, aSame_level hs, hD]
      rw [hget] at hv
      by_cases hvq2 : v = var q
      · left
        exact ⟨k0, hk0n, hvq.trans hvq2.symm, by rw [hvq2]; exact hd⟩
      · rw [if_neg hvq2] at hv
        exact h.cover v hv
  · refine ⟨hst, by rw [hD]; exact h.dpos, by rw [hs.trail]; exact h.nle, ?_, ?_, ?_, ?_, ?_⟩
    · show a.pathC = (pathCount t n : Int)
      have e : pathCount t n = pathCount a.s n := by
        unfold pathCount
        rw [hs.trail]
        apply List.countP_congr
        intro k hk
        by_cases hkk : k = k0
        · rw [hkk, hcurk, hcur0]
          simp
          omega
        · rw [hcur k hk hkk]
      rw [e, h.cnt]
    · intro q2 hq2
      change q2 ∈ (a.out_learnt ++ [q]).drop 1 at hq2
      rw [drop_one_append _ _ h.ne, List.mem_append, List.mem_singleton] at hq2
      rcases hq2 with hq2 | hq2
      · exact hlowT q2 hq2
      · rw [hq2]
        exact hqT hd
    · intro v hv
      show (∃ k, k < n ∧ var (t.trail.getD k 0) = v ∧ t.decisionLevel ≤ t.level v) ∨
        v ∈ ((a.out_learnt ++ [q]).drop 1).map var
      rw [hs.trail, aSame_level hs, hD, drop_one_append _ _ h.ne, List.map_append,
        List.mem_append]
      rw [hget] at hv
      by_cases hvq2 : v = var q
      · right
        right
        rw [hvq2]
        simp
      · rw [if_neg hvq2] at hv
        rcases h.cover v hv with c | c
        · exact Or.inl c
        · exact Or.inr (Or.inl c)
    · show (((a.out_learnt ++ [q]).drop 1).map var).Nodup
      rw [drop_one_append _ _ h.ne, List.map_append, List.nodup_append]
      refine ⟨h.nodup, List.nodup_singleton _, ?_⟩
      intro v hv1 hv2
      rw [List.map_singleton, List.mem_singleton] at hv2
      obtain ⟨q2, hq2, e⟩ := List.mem_map.1 hv1
      have := (h.low q2 hq2).2.2.2
      rw [e, hv2, hu] at this
      exact Bool.false_ne_true this
    · show 1 ≤ (a.out_learnt ++ [q]).length
      rw [List.length_append]
      have := h.ne
      omega

theorem mark_step {a : AnalyzeAcc} {n q : Nat} {t : Solver} (h : ALoop a n)
    (hq : neg q ∈ a.s.trail.take n) (hs : ASame a.s t)
    (hseen : t.seen = a.s.seen.set (var q) true)
    (hu : a.s.seen.getD (var q) false = false) (hl : 0 < a.s.level (var q)) :
    (a.s.decisionLevel ≤ a.s.level (var q) →
      LitStep a n q { s := t, pathC := a.pathC + 1, out_learnt := a.out_learnt }) ∧
    (a.s.level (var q) < a.s.decisionLevel →
      LitStep a n q { s := t, pathC := a.pathC, out_learnt := a.out_learnt ++ [q] }) := by
  obtain ⟨m1, m2⟩ := mark_inv h hq hs hseen hu hl
  have hrange : var q < a.s.seen.length := by
    rw [h.stat.seenLen]
    have := (h.stat.trail.1 (neg q) (List.mem_of_mem_take hq)).1
    rwa [var_neg] at this
  have hmono : ∀ v, a.s.seen.getD v false = true → t.seen.getD v false = true := by
    intro v hv
    rw [hseen]
    by_cases hvq : v = var q
    · rw [hvq, getD_set_self' _ _ _ _ hrange]
    · rw [getD_set_ne' _ _ _ (Ne.symm hvq)]
      exact hv
  have hself : t.seen.getD (var q) false = true := by
    rw [hseen, getD_set_self' _ _ _ _ hrange]
  refine ⟨fun hd => ⟨m1 hd, hs, ?_, hmono, fun _ => hself⟩,
    fun hd => ⟨m2 hd, hs, Int.le_refl _, hmono, fun _ => hself⟩⟩
  show a.pathC ≤ a.pathC + 1
  omega

theorem analyzeLit_inv {a : AnalyzeAcc} {n q : Nat} (h : ALoop a n)
    (hq : neg q ∈ a.s.trail.take n) : LitStep a n q (analyzeLit a q) := by
  have hvb := varBumpActivity_same a.s (var q)
  have hvo : (varBumpActivity a.s (var q)).seen = a.s.seen := by
    rw [varBumpActivity_only a.s (var q)]
  have hs2 : ASame a.s { varBumpActivity a.s (var q) with
      seen := (varBumpActivity a.s (var q)).seen.set (var q) true } :=
    ⟨hvb.assigns, hvb.vardata, hvb.trail, hvb.trail_lim, hvb.qhead,
      by rw [← hvb.seenLen]; exact List.length_set _ _ _, hvb.lits⟩
  unfold analyzeLit
  split
  · rename_i hc
    simp only [Bool.and_eq_true, Bool.not_eq_true', decide_eq_true_eq] at hc
    obtain ⟨hu, hl⟩ := hc
    dsimp only
    split
    · rename_i hd
      have hd2 : a.s.decisionLevel ≤ a.s.level (var q) := by
        rw [← aSame_level hs2, ← aSame_decisionLevel hs2]
        exact hd
      split
      · split
        · refine (mark_step h hq ?_ ?_ hu hl).1 hd2
          · exact ⟨hvb.assigns, hvb.vardata, hvb.trail, hvb.trail_lim, hvb.qhead,
              by rw [← hvb.seenLen]; exact List.length_set _ _ _, hvb.lits⟩
          · show (varBumpActivity a.s (var q)).seen.set (var q) true = _
            rw [hvo]
        · refine (mark_step h hq hs2 ?_ hu hl).1 hd2
          show (varBumpActivity a.s (var q)).seen.set (var q) true = _
          rw [hvo]
      · refine (mark_step h hq hs2 ?_ hu hl).1 hd2
        show (varBumpActivity a.s (var q)).seen.set (var q) true = _
        rw [hvo]
    · rename_i hd
      have hd2 : a.s.level (var q) < a.s.decisionLevel := by
        rw [← aSame_level hs2, ← aSame_decisionLevel hs2]
        exact Nat.lt_of_not_le hd
      refine (mark_step h hq hs2 ?_ hu hl).2 hd2
      show (varBumpActivity a.s (var q)).seen.set (var q) true = _
      rw [hvo]
  · rename_i hc
    refine ⟨h, aSame_refl _, Int.le_refl _, fun _ hv => hv, ?_⟩
    intro hl
    simp only [Bool.and_eq_true, Bool.not_eq_true', decide_eq_true_eq, not_and] at hc
    by_contra hn
    exact hc (by simpa using hn) hl

theorem foldl_analyzeLit_inv {n : Nat} : ∀ (L : List Nat) (a : AnalyzeAcc), ALoop a n →
    (∀ q ∈ L, neg q ∈ a.s.trail.take n) →
    ALoop (L.foldl analyzeLit a) n ∧ ASame a.s (L.foldl analyzeLit a).s ∧
    a.pathC ≤ (L.foldl analyzeLit a).pathC ∧
    (∀ v, a.s.seen.getD v false = true → (L.foldl analyzeLit a).s.seen.getD v false = true) ∧
    (∀ q ∈ L, 0 < a.s.level (var q) → (L.foldl analyzeLit a).s.seen.getD (var q) false = true)
  | [], a, h, _ => ⟨h, aSame_refl _, Int.le_refl _, fun _ hv => hv, fun _ hq => by simp at hq⟩
  | q :: rest, a, h, hq => by
    simp only [List.foldl_cons]
    obtain ⟨b1, b2, b3, b4, b5⟩ := analyzeLit_inv h (hq q (List.mem_cons_self _ _))
    obtain ⟨c1, c2, c3, c4, c5⟩ := foldl_analyzeLit_inv rest (analyzeLit a q) b1
      (fun q2 hq2 => by rw [b2.trail]; exact hq q2 (List.mem_cons_of_mem _ hq2))
    refine ⟨c1, aSame_trans b2 c2, Int.le_trans b3 c3, fun v hv => c4 v (b4 v hv), ?_⟩
    intro q2 hq2 hl
    rcases List.mem_cons.1 hq2 with e | e
    · rw [e]
      exact c4 _ (b5 (by rw [← e]; exact hl))
    · exact c5 q2 e (by rw [aSame_level b2]; exact hl)

theorem scanSeen_spec (s : Solver) : ∀ (n : Nat),
    (∃ k, k < n ∧ s.seen.getD (var (s.trail.getD k 0)) false = true) →
    ∃ i, scanSeen s n = some i ∧ i < n ∧ s.seen.getD (var (s.trail.getD i 0)) false = true ∧
      ∀ k, i < k → k < n → s.seen.getD (var (s.trail.getD k 0)) false = false
  | 0, h => by
    obtain ⟨k, hk, _⟩ := h
    omega
  | n + 1, h => by
    unfold scanSeen
    by_cases hn : s.seen.getD (var (s.trail.getD n 0)) false = true
    · rw [if_pos hn]
      exact ⟨n, rfl, Nat.lt_succ_self n, hn, fun k h1 h2 => by omega⟩
    · rw [if_neg hn]
      obtain ⟨k, hk, hs⟩ := h
      have hkn : k ≠ n := fun e => hn (e ▸ hs)
      obtain ⟨i, h1, h2, h3, h4⟩ := scanSeen_spec s n ⟨k, by omega, hs⟩
      refine ⟨i, h1, by omega, h3, ?_⟩
      intro k2 hk2 hk3
      by_cases e : k2 = n
      · rw [e]
        simpa using hn
      · exact h4 k2 hk2 (by omega)

theorem aLoop_same {a : AnalyzeAcc} {n : Nat} {t : Solver} (h : ALoop a n) (hs : ASame a.s t)
    (hseen : t.seen = a.s.seen) :
    ALoop { s := t, pathC := a.pathC, out_learnt := a.out_learnt } n := by
  have hD : t.decisionLevel = a.s.decisionLevel := aSame_decisionLevel hs
  refine ⟨aStat_same h.stat hs, by rw [hD]; exact h.dpos, by rw [hs.trail]; exact h.nle, ?_, ?_,
    ?_, h.nodup, h.ne⟩
  · show a.pathC = (pathCount t n : Int)
    have e : pathCount t n = pathCount a.s n := by
      unfold pathCount
      rw [hs.trail]
      apply List.countP_congr
      intro k _
      unfold curSeen
      rw [hs.trail, aSame_level hs, hD, hseen]
    rw [e, h.cnt]
  · intro q hq
    show neg q ∈ t.trail ∧ 0 < t.level (var q) ∧ t.level (var q) < t.decisionLevel ∧
      t.seen.getD (var q) false = true
    rw [hs.trail, aSame_level hs, hD, hseen]
    exact h.low q hq
  · intro v hv
    show (∃ k, k < n ∧ var (t.trail.getD k 0) = v ∧ t.decisionLevel ≤ t.level v) ∨
      v ∈ (a.out_learnt.drop 1).map var
    rw [hs.trail, aSame_level hs, hD]
    rw [hseen] at hv
    exact h.cover v hv

theorem analyzePrep_same (s : Solver) (cr : Nat) (p : Option Nat) :
    ASame s (analyzePrep s cr p) ∧ (analyzePrep s cr p).seen = s.seen := by
  unfold analyzePrep
  dsimp only
  by_cases hp : p.isSome = true
  · rw [if_pos hp]
    split
    · refine ⟨aSame_trans (swapBinary_same s cr) (claBumpActivity_same _ cr), ?_⟩
      rw [claBumpActivity_only _ cr]
      show (swapBinary s cr).seen = s.seen
      rw [swapBinary_only s cr]
    · exact ⟨swapBinary_same s cr, by rw [swapBinary_only s cr]⟩
  · rw [if_neg hp]
    split
    · refine ⟨claBumpActivity_same _ cr, ?_⟩
      rw [claBumpActivity_only _ cr]
    · exact ⟨aSame_refl s, rfl⟩

theorem analyzePrep_lits (s : Solver) (cr : Nat) (p : Option Nat) :
    ((analyzePrep s cr p).ca.get cr).lits =
      ((if p.isSome then swapBinary s cr else s).ca.get cr).lits := by
  unfold analyzePrep
  dsimp only
  by_cases hp : p.isSome = true
  · rw [if_pos hp]
    split
    · exact claBump_lits (swapBinary s cr) cr cr
    · rfl
  · rw [if_neg hp]
    split
    · exact claBump_lits s cr cr
    · rfl

/-- The literals behind the first of the reason of the trail literal at position `i`, read
after the exchange in a binary clause: their complements stand before position `i`. -/
theorem reason_scan {s : Solver} (h : AStat s) {i cr : Nat} (hi : i < s.trail.length)
    (hlev : 0 < s.level (var (s.trail.getD i 0)))
    (hr : s.reason (var (s.trail.getD i 0)) = some cr) :
    ∀ l ∈ ((swapBinary s cr).ca.get cr).lits.drop 1, neg l ∈ s.trail.take i := by
  obtain ⟨r1, r2, r3, r4⟩ := h.reasons i hi hlev cr (by rw [hr]; simp)
  have htrue : s.value (s.trail.getD i 0) = l_True :=
    (h.trail.1 _ (getD_mem' _ _ hi)).2
  have hfalse : ∀ l ∈ (s.ca.get cr).lits, l ≠ s.trail.getD i 0 → s.value l = l_False := by
    intro l hl hne
    have := (h.trail.1 _ (List.mem_of_mem_take (r4 l hl hne))).2
    exact value_neg_true.1 this
  have hpos : 0 < (s.ca.get cr).lits.length := List.length_pos_of_mem r2
  have hfirst : (s.ca.get cr).lit 0 ∈ (s.ca.get cr).lits := getD_mem' _ _ hpos
  have hlt : cr < s.ca.mem.length := by
    by_contra hn
    have e : s.ca.get cr = default := by
      unfold ClauseAllocator.get
      exact List.getD_eq_default _ _ (by omega)
    rw [e] at r2
    exact List.not_mem_nil _ r2
  unfold swapBinary
  dsimp only
  split
  · rename_i hc
    simp only [Bool.and_eq_true, beq_iff_eq] at hc
    show ∀ l ∈ ((s.ca.modify cr _).get cr).lits.drop 1, _
    rw [ca_get_modify_self _ _ _ hlt]
    intro l hl
    have e : l = (s.ca.get cr).lit 0 := by simpa using hl
    rw [e]
    apply r4 _ hfirst
    intro e2
    rw [e2, htrue] at hc
    exact absurd hc.2 (by decide)
  · rename_i hc
    have h0 : (s.ca.get cr).lit 0 = s.trail.getD i 0 := by
      by_cases h2 : (s.ca.get cr).lits.length = 2
      · by_contra hne
        apply hc
        simp only [Bool.and_eq_true, beq_iff_eq]
        exact ⟨h2, hfalse _ hfirst hne⟩
      · exact r3 h2
    intro l hl
    have hsplit : (s.ca.get cr).lits = (s.ca.get cr).lit 0 :: (s.ca.get cr).lits.drop 1 := by
      unfold Clause.lit
      cases hL : (s.ca.get cr).lits with
      | nil => rw [hL] at hpos; simp at hpos
      | cons x xs => rfl
    have hnd := r1
    rw [hsplit] at hnd
    have hne : l ≠ s.trail.getD i 0 := by
      intro e
      rw [← h0] at e
      rw [e] at hl
      exact (List.nodup_cons.1 hnd).1 hl
    exact r4 l (List.mem_of_mem_drop hl) hne

theorem analyzeLoop_succ (fuel cr : Nat) (p : Option Nat) (n : Nat) (a : AnalyzeAcc) :
    analyzeLoop (fuel + 1) (some cr) p n a =
      analyzeNext fuel n ((analyzeLits a.s cr p).foldl analyzeLit
        { s := analyzePrep a.s cr p, pathC := a.pathC, out_learnt := a.out_learnt }) := rfl

/-- The step `seen[var(p)] = 0; pathC--` on the marked literal found by the scan. -/
theorem clear_inv {a : AnalyzeAcc} {n i : Nat} (h : ALoop a n) (hi : i < n)
    (hs : a.s.seen.getD (var (a.s.trail.getD i 0)) false = true)
    (hno : ∀ k, i < k → k < n → a.s.seen.getD (var (a.s.trail.getD k 0)) false = false)
    (hd : a.s.decisionLevel ≤ a.s.level (var (a.s.trail.getD i 0))) :
    ALoop { s := { a.s with seen := a.s.seen.set (var (a.s.trail.getD i 0)) false },
            pathC := a.pathC - 1, out_learnt := a.out_learnt } i := by
  have hil : i < a.s.trail.length := Nat.lt_of_lt_of_le hi h.nle
  have hsame : ASame a.s { a.s with seen := a.s.seen.set (var (a.s.trail.getD i 0)) false } :=
    ⟨rfl, rfl, rfl, rfl, rfl, List.length_set _ _ _, fun _ => ⟨List.Perm.refl _, fun _ => rfl⟩⟩
  have hget : ∀ v, (a.s.seen.set (var (a.s.trail.getD i 0)) false).getD v false =
      if v = var (a.s.trail.getD i 0) then false else a.s.seen.getD v false := by
    intro v
    by_cases hv : v = var (a.s.trail.getD i 0)
    · rw [if_pos hv, hv]
      by_cases hr : var (a.s.trail.getD i 0) < a.s.seen.length
      · rw [getD_set_self' _ _ _ _ hr]
      · rw [List.getD_eq_default _ _ (by rw [List.length_set]; omega)]
    · rw [if_neg hv, getD_set_ne' _ _ _ (Ne.symm hv)]
  have hcnt : pathCount a.s n =
      pathCount { a.s with seen := a.s.seen.set (var (a.s.trail.getD i 0)) false } i + 1 := by
    unfold pathCount
    show (List.range a.s.trail.length).countP (curSeen a.s n) = _
    apply countP_flip (List.nodup_range _) (List.mem_range.2 hil)
    · unfold curSeen
      rw [decide_eq_false (Nat.lt_irrefl i)]
      rfl
    · unfold curSeen
      rw [hs, decide_eq_true hi, decide_eq_true hd]
      rfl
    · intro k hk hne
      unfold curSeen
      show (decide (k < n) && (a.s.seen.getD (var (a.s.trail.getD k 0)) false &&
          decide (a.s.decisionLevel ≤ a.s.level (var (a.s.trail.getD k 0))))) =
        (decide (k < i) && ((a.s.seen.set (var (a.s.trail.getD i 0)) false).getD
          (var (a.s.trail.getD k 0)) false &&
          decide (a.s.decisionLevel ≤ a.s.level (var (a.s.trail.getD k 0)))))
      by_cases hki : k < i
      · rw [decide_eq_true hki, decide_eq_true (show k < n by omega), hget, if_neg]
        intro e
        exact hne (trail_var_inj h.stat.wf (List.mem_range.1 hk) hil e)
      · rw [decide_eq_false hki, Bool.false_and]
        by_cases hkn : k < n
        · rw [hno k (by omega) hkn, Bool.false_and, Bool.and_false]
        · rw [decide_eq_false hkn, Bool.false_and]
  refine ⟨aStat_same h.stat hsame, h.dpos, Nat.le_of_lt hil, ?_, ?_, ?_, h.nodup, h.ne⟩
  · show a.pathC - 1 = (pathCount _ i : Int)
    rw [h.cnt, hcnt]
    push_cast
    omega
  · intro q hq
    obtain ⟨l1, l2, l3, l4⟩ := h.low q hq
    refine ⟨l1, l2, l3, ?_⟩
    show (a.s.seen.set (var (a.s.trail.getD i 0)) false).getD (var q) false = true
    rw [hget, if_neg]
    · exact l4
    · intro e
      rw [e] at l3
      omega
  · intro v hv
    have hv2 : (a.s.seen.set (var (a.s.trail.getD i 0)) false).getD v false = true := hv
    rw [hget] at hv2
    by_cases hvi : v = var (a.s.trail.getD i 0)
    · rw [if_pos hvi] at hv2
      exact absurd hv2 (by decide)
    · rw [if_neg hvi] at hv2
      rcases h.cover v hv2 with ⟨k, hk, e, d⟩ | c
      · left
        refine ⟨k, ?_, e, d⟩
        by_contra hki
        have hne : k ≠ i := by
          intro e2
          rw [e2] at e
          exact hvi e.symm
        have := hno k (by omega) hk
        rw [e, hv2] at this
        exact absurd this (by decide)
      · exact Or.inr c

/-- The resolution loop of `analyze` comes to its end, and leaves no mark in `seen` but
those of the literals of `out_learnt[1..]`. -/
theorem analyzeLoop_total : ∀ (fuel cr : Nat) (p : Option Nat) (n : Nat) (a : AnalyzeAcc),
    ALoop a n → n + 1 ≤ fuel →
    (∀ l ∈ analyzeLits a.s cr p, neg l ∈ a.s.trail.take n) →
    (0 < a.pathC ∨ ∃ l ∈ analyzeLits a.s cr p, a.s.decisionLevel ≤ a.s.level (var l)) →
    ∃ r, analyzeLoop fuel (some cr) p n a = some r ∧ ADone r.2
  | 0, _, _, _, _, _, hf, _, _ => by omega
  | fuel + 1, cr, p, n, a, h, hf, hl, hp => by
    rw [analyzeLoop_succ]
    obtain ⟨hps, hpseen⟩ := analyzePrep_same a.s cr p
    have h0 : ALoop { s := analyzePrep a.s cr p, pathC := a.pathC, out_learnt := a.out_learnt } n :=
      aLoop_same h hps hpseen
    obtain ⟨c1, c2, c3, c4, c5⟩ := foldl_analyzeLit_inv (analyzeLits a.s cr p) _ h0
      (fun q hq => by
        show neg q ∈ (analyzePrep a.s cr p).trail.take n
        rw [hps.trail]
        exact hl q hq)
    generalize (analyzeLits a.s cr p).foldl analyzeLit
      { s := analyzePrep a.s cr p, pathC := a.pathC, out_learnt := a.out_learnt } = a1
      at c1 c2 c3 c4 c5 ⊢
    have hs1 : ASame a.s a1.s := aSame_trans hps c2
    have hpc : 0 < pathCount a1.s n := by
      rcases hp with hp | ⟨l, hl1, hl2⟩
      · have e := c1.cnt
        have c3b : a.pathC ≤ a1.pathC := c3
        omega
      · have hdp := h.dpos
        have hlev : 0 < (analyzePrep a.s cr p).level (var l) := by
          rw [aSame_level hps]
          omega
        have hseenl := c5 l hl1 hlev
        obtain ⟨k, hk, hkl, hke⟩ := mem_take_getD (hl l hl1)
        exact pathCount_pos (k := k) hk (by rw [hs1.trail]; exact hkl)
          (by rw [hs1.trail, hke, var_neg]; exact hseenl)
          (by rw [hs1.trail, hke, var_neg, aSame_level hs1, aSame_decisionLevel hs1]; exact hl2)
    obtain ⟨k, hk, hkl, hks, hkd⟩ := pathCount_exists hpc
    obtain ⟨i, hsc, hin, his, hno⟩ := scanSeen_spec a1.s n ⟨k, hk, hks⟩
    have hki : k ≤ i := by
      by_contra hh
      have := hno k (by omega) hk
      rw [hks] at this
      exact absurd this (by decide)
    have hil : i < a1.s.trail.length := Nat.lt_of_lt_of_le hin c1.nle
    have hid : a1.s.decisionLevel ≤ a1.s.level (var (a1.s.trail.getD i 0)) :=
      Nat.le_trans hkd (level_mono c1.stat.wf hki hil)
    have hdp1 := c1.dpos
    have hlevpos : 0 < a1.s.level (var (a1.s.trail.getD i 0)) := by omega
    have h2 := clear_inv c1 hin his hno hid
    unfold analyzeNext
    rw [hsc]
    dsimp only
    split
    · rename_i hgt
      have hcnt2 := h2.cnt
      have hgt2 : 0 < a1.pathC - 1 := hgt
      have hpc2 : 0 < pathCount
          { a1.s with seen := a1.s.seen.set (var (a1.s.trail.getD i 0)) false } i := by
        have e : a1.pathC - 1 = (pathCount
          { a1.s with seen := a1.s.seen.set (var (a1.s.trail.getD i 0)) false } i : Int) := hcnt2
        omega
      obtain ⟨k2, hk2, hk2l, hk2s, hk2d⟩ := pathCount_exists hpc2
      have hk2d2 : a1.s.decisionLevel ≤ a1.s.level (var (a1.s.trail.getD k2 0)) := hk2d
      have hle := level_le_decisionLevel c1.stat.wf (getD_mem' a1.s.trail 0 hil)
      have hrs : ∃ cr2, a1.s.reason (var (a1.s.trail.getD i 0)) = some cr2 := by
        cases hr : a1.s.reason (var (a1.s.trail.getD i 0)) with
        | some c => exact ⟨c, rfl⟩
        | none =>
          exfalso
          have := c1.stat.first i hil hlevpos hr k2 hk2
          omega
      obtain ⟨cr2, hr2⟩ := hrs
      have hr3 : ({ a1.s with seen := a1.s.seen.set (var (a1.s.trail.getD i 0)) false } :
          Solver).reason (var (a1.s.trail.getD i 0)) = some cr2 := hr2
      rw [hr3]
      apply analyzeLoop_total fuel cr2 (some (a1.s.trail.getD i 0)) i _ h2 (by omega)
      · intro l hl2
        have hsome : (some (a1.s.trail.getD i 0)).isSome = true := rfl
        unfold analyzeLits at hl2
        rw [if_pos hsome, analyzePrep_lits, if_pos hsome] at hl2
        exact reason_scan h2.stat (i := i) hil hlevpos hr2 l hl2
      · left
        exact hgt
    · rename_i hle
      refine ⟨_, rfl, ?_⟩
      refine ⟨h2.stat, fun q hq => ⟨(h2.low q hq).1, (h2.low q hq).2.1⟩, ?_, h2.nodup, h2.ne⟩
      intro v hv
      rcases h2.cover v hv with ⟨k3, hk3, e3, d3⟩ | c
      · exfalso
        have hp3 : 0 < pathCount
            { a1.s with seen := a1.s.seen.set (var (a1.s.trail.getD i 0)) false } i :=
          pathCount_pos (k := k3) hk3 (Nat.lt_of_lt_of_le hk3 h2.nle)
            (by rw [e3]; exact hv) (by rw [e3]; exact d3)
        have e := h2.cnt
        have hle2 : ¬ (0 < a1.pathC - 1) := hle
        have e2 : a1.pathC - 1 = (pathCount
          { a1.s with seen := a1.s.seen.set (var (a1.s.trail.getD i 0)) false } i : Int) := e
        omega
      · exact c

theorem length_foldl_set (b : Bool) : ∀ (ext : List Nat) (sn : List Bool),
    (ext.foldl (fun sn l => sn.set (var l) b) sn).length = sn.length
  | [], _ => rfl
  | l :: ext, sn => by
    simp only [List.foldl_cons]
    rw [length_foldl_set b ext, List.length_set]

theorem getD_foldl_set (b : Bool) : ∀ (ext : List Nat) (sn : List Bool) (v : Nat),
    (ext.foldl (fun sn l => sn.set (var l) b) sn).getD v false =
      if v ∈ ext.map var ∧ v < sn.length then b else sn.getD v false
  | [], sn, v => by
    rw [if_neg]
    · rfl
    · intro h
      exact List.not_mem_nil _ h.1
  | l :: ext, sn, v => by
    simp only [List.foldl_cons, List.map_cons, List.mem_cons]
    rw [getD_foldl_set b ext (sn.set (var l) b) v, List.length_set]
    by_cases hv : v = var l
    · by_cases hlen : v < sn.length
      · have hR : (v = var l ∨ v ∈ ext.map var) ∧ v < sn.length := ⟨Or.inl hv, hlen⟩
        rw [if_pos hR]
        by_cases hm : v ∈ ext.map var ∧ v < sn.length
        · rw [if_pos hm]
        · rw [if_neg hm, hv, getD_set_self' _ _ _ _ (by rw [← hv]; exact hlen)]
      · have hR : ¬ ((v = var l ∨ v ∈ ext.map var) ∧ v < sn.length) := fun h => hlen h.2
        have hm : ¬ (v ∈ ext.map var ∧ v < sn.length) := fun h => hlen h.2
        rw [if_neg hR, if_neg hm,
          List.getD_eq_default _ _ (by rw [List.length_set]; omega),
          List.getD_eq_default _ _ (by omega)]
    · rw [getD_set_ne' _ _ _ (Ne.symm hv)]
      by_cases hm : v ∈ ext.map var ∧ v < sn.length
      · have hR : (v = var l ∨ v ∈ ext.map var) ∧ v < sn.length := ⟨Or.inr hm.1, hm.2⟩
        rw [if_pos hm, if_pos hR]
      · have hR : ¬ ((v = var l ∨ v ∈ ext.map var) ∧ v < sn.length) := by
          rintro ⟨h1 | h1, h2⟩
          · exact hv h1
          · exact hm ⟨h1, h2⟩
        rw [if_neg hm, if_neg hR]

theorem foldl_true_false {ext : List Nat} {sn : List Bool} {x : Nat}
    (h : (ext.foldl (fun sn l => sn.set (var l) true) sn).getD x false = false) :
    sn.getD x false = false := by
  rw [getD_foldl_set] at h
  by_cases hm : x ∈ ext.map var ∧ x < sn.length
  · rw [if_pos hm] at h
    exact absurd h (by decide)
  · rw [if_neg hm] at h
    exact h

/-- Clearing the marks of the literals pushed since the call gives back the `seen` of the
call. -/
theorem restore_marks (seen0 : List Bool) (ext : List Nat)
    (h : ∀ l ∈ ext, seen0.getD (var l) false = false) :
    ext.foldl (fun sn l => sn.set (var l) false)
      (ext.foldl (fun sn l => sn.set (var l) true) seen0) = seen0 := by
  have hlen : (ext.foldl (fun sn l => sn.set (var l) false)
      (ext.foldl (fun sn l => sn.set (var l) true) seen0)).length = seen0.length := by
    rw [length_foldl_set, length_foldl_set]
  apply List.ext_getElem?
  intro v
  have hg : (ext.foldl (fun sn l => sn.set (var l) false)
      (ext.foldl (fun sn l => sn.set (var l) true) seen0)).getD v false =
      seen0.getD v false := by
    rw [getD_foldl_set, getD_foldl_set, length_foldl_set]
    by_cases hm : v ∈ ext.map var ∧ v < seen0.length
    · rw [if_pos hm]
      obtain ⟨l, hl, e⟩ := List.mem_map.1 hm.1
      rw [← e]
      exact (h l hl).symm
    · rw [if_neg hm, if_neg hm]
  by_cases hv : v < seen0.length
  · rw [List.getD_eq_getElem _ _ (by rw [hlen]; exact hv), List.getD_eq_getElem _ _ hv] at hg
    rw [List.getElem?_eq_getElem (by rw [hlen]; exact hv), List.getElem?_eq_getElem hv, hg]
  · rw [List.getElem?_eq_none (by omega), List.getElem?_eq_none (by omega)]

theorem count_false_set_true : ∀ (l : List Bool) (i : Nat), i < l.length →
    l.getD i false = false → (l.set i true).count false + 1 = l.count false
  | [], _, h, _ => by simp at h
  | x :: l, 0, _, hx => by
    have hx2 : x = false := hx
    rw [List.set_cons_zero, hx2, List.count_cons_of_ne (by decide), List.count_cons_self]
  | x :: l, i + 1, h, hx => by
    rw [List.set_cons_succ, List.count_cons, List.count_cons]
    have := count_false_set_true l i (by simpa using h) hx
    omega

theorem markRel_covered {seen0 : List Bool} {T0 : List Nat} {u : Solver}
    (h : MarkRel seen0 T0 u) (hc : ∀ v, seen0.getD v false = true → v ∈ T0.map var) :
    Covered u := by
  obtain ⟨ext, e1, e2, _⟩ := h
  intro v hv
  rw [e2, getD_foldl_set] at hv
  rw [e1, List.map_append, List.mem_append]
  by_cases hm : v ∈ ext.map var ∧ v < seen0.length
  · exact Or.inr hm.1
  · rw [if_neg hm] at hv
    exact Or.inl (hc v hv)

theorem litRedundantInner_rel (al : Nat) : ∀ (L : List Nat) (s : Solver),
    ∃ ext : List Nat,
      (litRedundantInner al L s).2.analyze_toclear = s.analyze_toclear ++ ext ∧
      (litRedundantInner al L s).2.seen = ext.foldl (fun sn l => sn.set (var l) true) s.seen ∧
      ∀ l ∈ ext, s.seen.getD (var l) false = false
  | [], s => ⟨[], (List.append_nil _).symm, rfl, fun _ h => absurd h (List.not_mem_nil _)⟩
  | p :: rest, s => by
    unfold litRedundantInner
    split
    · rename_i hc
      simp only [Bool.and_eq_true, Bool.not_eq_true', decide_eq_true_eq] at hc
      split
      · obtain ⟨ext, e1, e2, e3⟩ := litRedundantInner_rel al rest
          { s with seen := s.seen.set (var p) true,
                   analyze_stack := s.analyze_stack ++ [p],
                   analyze_toclear := s.analyze_toclear ++ [p] }
        refine ⟨p :: ext, ?_, ?_, ?_⟩
        · rw [e1]
          show s.analyze_toclear ++ [p] ++ ext = s.analyze_toclear ++ p :: ext
          rw [List.append_assoc]
          rfl
        · rw [e2]
          rfl
        · intro l hl
          rcases List.mem_cons.1 hl with e | e
          · rw [e]
            exact hc.1
          · have h3 : (s.seen.set (var p) true).getD (var l) false = false := e3 l e
            exact @foldl_true_false [p] _ _ h3
      · exact ⟨[], (List.append_nil _).symm, rfl, fun _ h => absurd h (List.not_mem_nil _)⟩
    · exact litRedundantInner_rel al rest s

theorem markRel_inner {seen0 : List Bool} {T0 : List Nat} {u : Solver} (al : Nat)
    (L : List Nat) (h : MarkRel seen0 T0 u) : MarkRel seen0 T0 (litRedundantInner al L u).2 := by
  obtain ⟨ext1, a1, a2, a3⟩ := h
  obtain ⟨ext2, b1, b2, b3⟩ := litRedundantInner_rel al L u
  refine ⟨ext1 ++ ext2, ?_, ?_, ?_⟩
  · rw [b1, a1, List.append_assoc]
  · rw [b2, a2, List.foldl_append]
  · intro l hl
    rcases List.mem_append.1 hl with e | e
    · exact a3 l e
    · have := b3 l e
      rw [a2] at this
      exact foldl_true_false this

/-- What `litRedundant` leaves in `seen` and `analyze_toclear`: on `false` those of its call,
on `true` the marks of the literals it pushed in addition. -/
theorem litRedundantLoop_rel (al : Nat) (seen0 : List Bool) (T0 : List Nat) :
    ∀ (fuel : Nat) (u : Solver) (b : Bool) (r : Solver), MarkRel seen0 T0 u →
    litRedundantLoop al T0.length fuel u = some (b, r) →
    (b = false → r.seen = seen0 ∧ r.analyze_toclear = T0) ∧ (b = true → MarkRel seen0 T0 r)
  | 0, _, _, _, _, h => by simp [litRedundantLoop] at h
  | fuel + 1, u, b, r, hm, h => by
    unfold litRedundantLoop at h
    split at h
    · have e := Option.some.inj h
      have eb : true = b := congrArg Prod.fst e
      have er : u = r := congrArg Prod.snd e
      rw [← eb, ← er]
      exact ⟨fun hb => absurd hb (by decide), fun _ => hm⟩
    · rename_i q hq
      split at h
      · exact absurd h (by simp)
      · rename_i cr hcr
        dsimp only at h
        have hm1 : MarkRel seen0 T0 (swapBinary { u with analyze_stack := u.analyze_stack.dropLast } cr) := by
          obtain ⟨ext, a1, a2, a3⟩ := hm
          refine ⟨ext, ?_, ?_, a3⟩
          · rw [swapBinary_only]
            exact a1
          · rw [swapBinary_only]
            exact a2
        have hm2 := markRel_inner al
          (((swapBinary { u with analyze_stack := u.analyze_stack.dropLast } cr).ca.get cr).lits.drop 1)
          hm1
        split at h
        · rename_i s2 heq
          rw [heq] at hm2
          exact litRedundantLoop_rel al seen0 T0 fuel s2 b r hm2 h
        · rename_i s2 heq
          rw [heq] at hm2
          have e := Option.some.inj h
          have eb : false = b := congrArg Prod.fst e
          have er := congrArg Prod.snd e
          dsimp only at er
          obtain ⟨ext, a1, a2, a3⟩ := hm2
          have a1b : s2.analyze_toclear = T0 ++ ext := a1
          have a2b : s2.seen = ext.foldl (fun sn l => sn.set (var l) true) seen0 := a2
          refine ⟨fun _ => ?_, fun hb => ?_⟩
          · rw [← er]
            refine ⟨?_, ?_⟩
            · show (s2.analyze_toclear.drop T0.length).foldl
                (fun sn l => sn.set (var l) false) s2.seen = seen0
              rw [a1b, List.drop_left, a2b]
              exact restore_marks seen0 ext a3
            · show s2.analyze_toclear.take T0.length = T0
              rw [a1b, List.take_left]
          · rw [← eb] at hb
            exact absurd hb (by decide)

theorem litRedundant_restore (s : Solver) (p al : Nat) (b : Bool) (r : Solver)
    (h : litRedundant s p al = some (b, r)) :
    (b = false → r.seen = s.seen ∧ r.analyze_toclear = s.analyze_toclear) ∧
    (b = true → MarkRel s.seen s.analyze_toclear r) := by
  unfold litRedundant at h
  have hm : MarkRel s.seen s.analyze_toclear { s with analyze_stack := [p] } :=
    ⟨[], (List.append_nil _).symm, rfl, fun _ hl => absurd hl (List.not_mem_nil _)⟩
  exact litRedundantLoop_rel al s.seen s.analyze_toclear (s.seen.length + 2)
    { s with analyze_stack := [p] } b r hm h

theorem stackOK_same {s t : Solver} (h : StackOK s) (hs : ASame s t)
    (hst : t.analyze_stack = s.analyze_stack) : StackOK t := by
  intro p hp
  rw [hst] at hp
  rw [hs.trail, aSame_level hs, aSame_reason hs]
  exact h p hp

theorem litRedundantInner_stack (al : Nat) : ∀ (L : List Nat) (s : Solver),
    (∀ l ∈ L, neg l ∈ s.trail ∧ var l < s.seen.length) →
    ASame s (litRedundantInner al L s).2 ∧
    (∀ p ∈ (litRedundantInner al L s).2.analyze_stack, p ∈ s.analyze_stack ∨
      (neg p ∈ s.trail ∧ 0 < s.level (var p) ∧ (s.reason (var p)).isSome = true)) ∧
    (litRedundantInner al L s).2.analyze_stack.length +
        (litRedundantInner al L s).2.seen.count false
      ≤ s.analyze_stack.length + s.seen.count false
  | [], s, _ => ⟨aSame_refl s, fun _ hp => Or.inl hp, Nat.le_refl _⟩
  | p :: rest, s, hL => by
    have hp := hL p (List.mem_cons_self _ _)
    have hrest : ∀ l ∈ rest, neg l ∈ s.trail ∧ var l < s.seen.length :=
      fun l hl => hL l (List.mem_cons_of_mem _ hl)
    unfold litRedundantInner
    split
    · rename_i hc
      simp only [Bool.and_eq_true, Bool.not_eq_true', decide_eq_true_eq] at hc
      split
      · rename_i hc2
        simp only [Bool.and_eq_true] at hc2
        obtain ⟨i1, i2, i3⟩ := litRedundantInner_stack al rest
          { s with seen := s.seen.set (var p) true,
                   analyze_stack := s.analyze_stack ++ [p],
                   analyze_toclear := s.analyze_toclear ++ [p] }
          (fun l hl => ⟨(hrest l hl).1, by
            show var l < (s.seen.set (var p) true).length
            rw [List.length_set]
            exact (hrest l hl).2⟩)
        have hs1 : ASame s
            { s with seen := s.seen.set (var p) true,
                     analyze_stack := s.analyze_stack ++ [p],
                     analyze_toclear := s.analyze_toclear ++ [p] } :=
          ⟨rfl, rfl, rfl, rfl, rfl, List.length_set _ _ _,
            fun _ => ⟨List.Perm.refl _, fun _ => rfl⟩⟩
        refine ⟨aSame_trans hs1 i1, ?_, ?_⟩
        · intro p2 hp2
          rcases i2 p2 hp2 with e | e
          · have e2 : p2 ∈ s.analyze_stack ++ [p] := e
            rcases List.mem_append.1 e2 with e3 | e3
            · exact Or.inl e3
            · rw [List.mem_singleton] at e3
              rw [e3]
              exact Or.inr ⟨hp.1, hc.2, hc2.1⟩
          · exact Or.inr e
        · have hcnt := count_false_set_true s.seen (var p) hp.2 hc.1
          refine Nat.le_trans i3 ?_
          show (s.analyze_stack ++ [p]).length + (s.seen.set (var p) true).count false ≤
            s.analyze_stack.length + s.seen.count false
          rw [List.length_append]
          have hone : ([p] : List Nat).length = 1 := rfl
          omega
      · exact ⟨aSame_refl s, fun _ hp2 => Or.inl hp2, Nat.le_refl _⟩
    · exact litRedundantInner_stack al rest s hrest

/-- The loop of `litRedundant` comes to its end: every round pops a literal, and every
literal pushed takes one of the unmarked variables. -/
theorem litRedundantLoop_total (al top : Nat) : ∀ (fuel : Nat) (u : Solver), AStat u →
    StackOK u → u.analyze_stack.length + u.seen.count false + 1 ≤ fuel →
    ∃ r, litRedundantLoop al top fuel u = some r ∧ ASame u r.2
  | 0, _, _, _, hf => by omega
  | fuel + 1, u, hst, hso, hf => by
    unfold litRedundantLoop
    split
    · exact ⟨(true, u), rfl, aSame_refl u⟩
    · rename_i q hq
      have hsplit : u.analyze_stack.dropLast ++ [q] = u.analyze_stack :=
        List.dropLast_append_getLast? q (Option.mem_def.2 hq)
      have hqm : q ∈ u.analyze_stack := by
        rw [← hsplit]
        exact List.mem_append_right _ (List.mem_singleton_self q)
      have hlen : u.analyze_stack.length = u.analyze_stack.dropLast.length + 1 := by
        conv_lhs => rw [← hsplit]
        rw [List.length_append]
        rfl
      obtain ⟨q1, q2, q3⟩ := hso q hqm
      split
      · rename_i hnone
        rw [hnone] at q3
        exact absurd q3 (by decide)
      · rename_i cr hcr
        dsimp only
        have hs0 : ASame u { u with analyze_stack := u.analyze_stack.dropLast } :=
          ⟨rfl, rfl, rfl, rfl, rfl, rfl, fun _ => ⟨List.Perm.refl _, fun _ => rfl⟩⟩
        have hst0 : AStat { u with analyze_stack := u.analyze_stack.dropLast } :=
          aStat_same hst hs0
        have hs1 := swapBinary_same { u with analyze_stack := u.analyze_stack.dropLast } cr
        have hso1 := swapBinary_only { u with analyze_stack := u.analyze_stack.dropLast } cr
        have hst1 := aStat_same hst0 hs1
        have hseen1 : (swapBinary { u with analyze_stack := u.analyze_stack.dropLast } cr).seen
            = u.seen := by rw [hso1]
        have hstack1 : (swapBinary { u with analyze_stack := u.analyze_stack.dropLast }
            cr).analyze_stack = u.analyze_stack.dropLast := by rw [hso1]
        obtain ⟨i, hi, hie⟩ := mem_trail_pos q1
        have hvi : var (u.trail.getD i 0) = var q := by rw [hie, var_neg]
        have hscan := @reason_scan _ hst0 i cr hi
          (by show 0 < u.level (var (u.trail.getD i 0)); rw [hvi]; exact q2)
          (by show u.reason (var (u.trail.getD i 0)) = some cr; rw [hvi]; exact hcr)
        have hL : ∀ l ∈ ((swapBinary { u with analyze_stack := u.analyze_stack.dropLast }
            cr).ca.get cr).lits.drop 1,
            neg l ∈ (swapBinary { u with analyze_stack := u.analyze_stack.dropLast } cr).trail ∧
            var l < (swapBinary { u with analyze_stack := u.analyze_stack.dropLast }
              cr).seen.length := by
          intro l hl
          have hmem : neg l ∈ u.trail := List.mem_of_mem_take (hscan l hl)
          refine ⟨by rw [hs1.trail]; exact hmem, ?_⟩
          rw [hseen1, hst.seenLen]
          have := (hst.trail.1 (neg l) hmem).1
          rwa [var_neg] at this
        obtain ⟨j1, j2, j3⟩ := litRedundantInner_stack al _ _ hL
        rw [hseen1, hstack1] at j3
        have hsu : ASame u (litRedundantInner al
            (((swapBinary { u with analyze_stack := u.analyze_stack.dropLast } cr).ca.get
              cr).lits.drop 1)
            (swapBinary { u with analyze_stack := u.analyze_stack.dropLast } cr)).2 :=
          aSame_trans (aSame_trans hs0 hs1) j1
        split
        · rename_i s2 heq
          rw [heq] at j2 j3 hsu
          have hso2 : StackOK s2 := by
            intro p hp
            rw [hsu.trail, aSame_level hsu, aSame_reason hsu]
            rcases j2 p hp with e | e
            · rw [hstack1] at e
              exact hso p (List.dropLast_subset _ e)
            · rw [hs1.trail, aSame_level hs1, aSame_reason hs1] at e
              exact e
          have j3b : s2.analyze_stack.length + s2.seen.count false ≤
              u.analyze_stack.dropLast.length + u.seen.count false := j3
          obtain ⟨r, hr1, hr2⟩ := litRedundantLoop_total al top fuel s2 (aStat_same hst hsu) hso2
            (by omega)
          exact ⟨r, hr1, aSame_trans hsu hr2⟩
        · rename_i s2 heq
          rw [heq] at hsu
          refine ⟨_, rfl, ?_⟩
          refine aSame_trans hsu ?_
          exact ⟨rfl, rfl, rfl, rfl, rfl, length_foldl_set _ _ _,
            fun _ => ⟨List.Perm.refl _, fun _ => rfl⟩⟩

/-- The method `litRedundant` on a false literal above level 0 that has a reason: it comes
back, and every mark it leaves belongs to a literal of `analyze_toclear`. -/
theorem litRedundant_spec {s : Solver} (hst : AStat s) (hc : Covered s) {p : Nat} (al : Nat)
    (hp : neg p ∈ s.trail) (hl : 0 < s.level (var p))
    (hr : (s.reason (var p)).isSome = true) :
    ∃ b r, litRedundant s p al = some (b, r) ∧ ASame s r ∧ Covered r ∧ AStat r := by
  have hs0 : ASame s { s with analyze_stack := [p] } :=
    ⟨rfl, rfl, rfl, rfl, rfl, rfl, fun _ => ⟨List.Perm.refl _, fun _ => rfl⟩⟩
  have hcl : s.seen.count false ≤ s.seen.length := List.count_le_length _ _
  obtain ⟨r, hr1, hr2⟩ := litRedundantLoop_total al s.analyze_toclear.length
    (s.seen.length + 2) { s with analyze_stack := [p] } (aStat_same hst hs0)
    (by
      intro p2 hp2
      have e : p2 = p := List.mem_singleton.1 hp2
      rw [e]
      exact ⟨hp, hl, hr⟩)
    (by
      show ([p] : List Nat).length + s.seen.count false + 1 ≤ s.seen.length + 2
      have hone : ([p] : List Nat).length = 1 := rfl
      omega)
  have hrun : litRedundant s p al = some (r.1, r.2) := hr1
  have hsame : ASame s r.2 := aSame_trans hs0 hr2
  obtain ⟨k1, k2⟩ := litRedundant_restore s p al r.1 r.2 hrun
  refine ⟨r.1, r.2, hrun, hsame, ?_, aStat_same hst hsame⟩
  cases hb : r.1 with
  | false =>
    obtain ⟨e1, e2⟩ := k1 hb
    intro v hv
    rw [e1] at hv
    rw [e2]
    exact hc v hv
  | true => exact markRel_covered (k2 hb) hc

/-- The deep minimisation comes to its end and keeps a part of the literals, in their
order. -/
theorem minimizeDeep_total (al : Nat) : ∀ (L : List Nat) (s : Solver), AStat s → Covered s →
    (∀ q ∈ L, neg q ∈ s.trail ∧ 0 < s.level (var q)) →
    ∃ r, minimizeDeep al L s = some r ∧ ASame s r.2 ∧ Covered r.2 ∧ r.1.Sublist L
  | [], s, _, hc, _ => ⟨([], s), rfl, aSame_refl s, hc, List.Sublist.refl _⟩
  | q :: rest, s, hst, hc, hL => by
    obtain ⟨hq1, hq2⟩ := hL q (List.mem_cons_self _ _)
    have hrest : ∀ q2 ∈ rest, neg q2 ∈ s.trail ∧ 0 < s.level (var q2) :=
      fun q2 h2 => hL q2 (List.mem_cons_of_mem _ h2)
    unfold minimizeDeep
    split
    · obtain ⟨r, h1, h2, h3, h4⟩ := minimizeDeep_total al rest s hst hc hrest
      rw [h1]
      exact ⟨(q :: r.1, r.2), rfl, h2, h3, List.Sublist.cons₂ q h4⟩
    · rename_i cr hcr
      obtain ⟨b, t, g1, g2, g3, g4⟩ := litRedundant_spec hst hc al hq1 hq2
        (by rw [hcr]; rfl)
      have hrest2 : ∀ q2 ∈ rest, neg q2 ∈ t.trail ∧ 0 < t.level (var q2) := by
        intro q2 h2
        rw [g2.trail, aSame_level g2]
        exact hrest q2 h2
      obtain ⟨r, h1, h2, h3, h4⟩ := minimizeDeep_total al rest t g4 g3 hrest2
      rw [g1]
      cases b with
      | true =>
        dsimp only
        rw [h1]
        exact ⟨r, rfl, aSame_trans g2 h2, h3, List.Sublist.cons q h4⟩
      | false =>
        dsimp only
        rw [h1]
        exact ⟨(q :: r.1, r.2), rfl, aSame_trans g2 h2, h3, List.Sublist.cons₂ q h4⟩

theorem drop_one_set0 (l : List Nat) (x : Nat) : (l.set 0 x).drop 1 = l.drop 1 := by
  cases l <;> rfl

/-- The last loop of `analyze`: when every mark belongs to a literal of `analyze_toclear`,
clearing the marks of these literals leaves no mark. -/
theorem clear_covered {s : Solver} (hc : Covered s) :
    ∀ b ∈ s.analyze_toclear.foldl (fun sn l => sn.set (var l) false) s.seen, b = false := by
  intro b hb
  obtain ⟨i, hi, e⟩ := List.mem_iff_getElem.1 hb
  have hg := getD_foldl_set false s.analyze_toclear s.seen i
  rw [List.getD_eq_getElem _ _ hi, e] at hg
  rw [hg]
  by_cases hm : i ∈ s.analyze_toclear.map var ∧ i < s.seen.length
  · rw [if_pos hm]
  · rw [if_neg hm]
    by_contra hne
    have ht : s.seen.getD i false = true := by simpa using hne
    rw [length_foldl_set] at hi
    exact hm ⟨hc i ht, hi⟩

theorem binaryMinimize_total (s : Solver) (p : Nat) (out : List Nat) (hfresh : StampsFresh s)
    (hwrap : s.MYFLAG + 2 < 2 ^ 32) (hne : 1 ≤ out.length)
    (hnd : ((out.drop 1).map var).Nodup)
    (hrange : ∀ q ∈ out.drop 1, var q < s.permDiff.length) :
    ∃ r, binaryMinimize s p out = some r := by
  by_cases h1 : out.length ≤ s.lbSizeMinimizingClause
  · by_cases h2 : (computeLBD s out).1 ≤ s.lbLBDMinimizingClause
    · obtain ⟨r, hr, _⟩ := binaryMinimize_spec s p out hfresh hwrap hne hnd hrange h1 h2
      exact ⟨r, hr⟩
    · have hl : (computeLBD s out).2.lbLBDMinimizingClause = s.lbLBDMinimizingClause := by
        rw [computeLBD_only]
      unfold binaryMinimize
      rw [if_pos h1]
      dsimp only
      rw [if_neg (by rw [hl]; exact h2)]
      exact ⟨_, rfl⟩
  · unfold binaryMinimize
    rw [if_neg h1]
    exact ⟨_, rfl⟩

theorem binaryMinimize_seen (s : Solver) (p : Nat) (out : List Nat) (r : List Nat × Solver)
    (h : binaryMinimize s p out = some r) :
    r.2.seen = s.seen ∧ r.2.analyze_toclear = s.analyze_toclear := by
  have hc : (computeLBD s out).2.seen = s.seen ∧
      (computeLBD s out).2.analyze_toclear = s.analyze_toclear := by
    constructor <;> rw [computeLBD_only]
  have hcnt : ∀ (ws : List Watcher) (t : Solver),
      (binMinCount ws (0, t)).2.seen = t.seen ∧
      (binMinCount ws (0, t)).2.analyze_toclear = t.analyze_toclear := by
    intro ws t
    constructor <;> rw [binMinCount_only]
  unfold binaryMinimize at h
  split at h
  · dsimp only at h
    split at h
    · split at h
      · split at h
        · exact absurd h (by simp)
        · rw [← Option.some.inj h]
          exact ⟨(hcnt _ _).1.trans hc.1, (hcnt _ _).2.trans hc.2⟩
      · rw [← Option.some.inj h]
        exact ⟨(hcnt _ _).1.trans hc.1, (hcnt _ _).2.trans hc.2⟩
    · rw [← Option.some.inj h]
      exact hc
  · rw [← Option.some.inj h]
    exact ⟨rfl, rfl⟩

theorem bumpFold_seen (lbd : Nat) : ∀ (qs : List Nat) (s : Solver),
    (qs.foldl
      (fun (t : Solver) q =>
        let c : Clause := match t.reason (var q) with
          | some r => t.ca.get r
          | none => default
        if c.lbd < lbd then varBumpActivity t (var q) else t) s).seen = s.seen ∧
    (qs.foldl
      (fun (t : Solver) q =>
        let c : Clause := match t.reason (var q) with
          | some r => t.ca.get r
          | none => default
        if c.lbd < lbd then varBumpActivity t (var q) else t) s).analyze_toclear =
      s.analyze_toclear
  | [], _ => ⟨rfl, rfl⟩
  | q :: rest, s => by
    simp only [List.foldl_cons]
    obtain ⟨i1, i2⟩ := bumpFold_seen lbd rest
      (if (match s.reason (var q) with
          | some r => s.ca.get r
          | none => default).lbd < lbd then varBumpActivity s (var q) else s)
    rw [i1, i2]
    split
    · constructor <;> rw [varBumpActivity_only]
    · exact ⟨rfl, rfl⟩

theorem bumpLastDecisionLevel_seen (s : Solver) (lbd : Nat) :
    (bumpLastDecisionLevel s lbd).seen = s.seen ∧
    (bumpLastDecisionLevel s lbd).analyze_toclear = s.analyze_toclear := by
  unfold bumpLastDecisionLevel
  exact bumpFold_seen lbd s.lastDecisionLevel s

theorem aLoop_init {s : Solver} (hst : AStat s) (hclear : SeenClear s)
    (hD : 0 < s.decisionLevel) :
    ALoop { s := s, pathC := 0, out_learnt := [0] } s.trail.length := by
  have hz : pathCount s s.trail.length = 0 := by
    unfold pathCount
    rw [List.countP_eq_zero]
    intro k _
    unfold curSeen
    rw [seen_clear hclear]
    simp
  refine ⟨hst, hD, Nat.le_refl _, ?_, ?_, ?_, List.nodup_nil, Nat.le_refl _⟩
  · show (0 : Int) = (pathCount s s.trail.length : Int)
    rw [hz]
    rfl
  · intro q hq
    exact absurd hq (List.not_mem_nil _)
  · intro v hv
    have hv2 : s.seen.getD v false = true := hv
    rw [seen_clear hclear] at hv2
    exact absurd hv2 (by decide)

/-- The whole of `analyze`, from a state with no mark in `seen`, for a clause in conflict at
a decision level above 0: every stage comes to its end, and the last loop leaves no mark in
`seen`. -/
theorem analyze_stages (s : Solver) (confl : Nat) (hst : AStat s) (hclear : SeenClear s)
    (hconf : ConflictAt s confl) (hD : 0 < s.decisionLevel) (hfresh : StampsFresh s)
    (hwrap : s.MYFLAG + 2 < 2 ^ 32) (hperm : s.assigns.length ≤ s.permDiff.length)
    (o : Option (List Nat × Nat × Nat × Solver)) (h : analyze s confl = o) :
    ∃ r, o = some r ∧ SeenClear r.2.2.2 := by
  have h0 := aLoop_init hst hclear hD
  have hnone : ¬ ((none : Option Nat).isSome = true) := by simp
  have hlits : analyzeLits s confl none = (s.ca.get confl).lits := by
    unfold analyzeLits
    rw [if_neg hnone, analyzePrep_lits, if_neg hnone]
  obtain ⟨r0, hr0, hdone⟩ := analyzeLoop_total (s.trail.length + 1) confl none s.trail.length
    { s := s, pathC := 0, out_learnt := [0] } h0 (Nat.le_refl _)
    (by
      intro l hl
      show neg l ∈ s.trail.take s.trail.length
      rw [List.take_length]
      have hl2 : l ∈ analyzeLits s confl none := hl
      rw [hlits] at hl2
      exact false_mem_trail hst.wf hst.trail (hconf.2.2.1 l hl2))
    (Or.inr (by
      obtain ⟨l, hl, e⟩ := hconf.2.2.2
      refine ⟨l, ?_, ?_⟩
      · show l ∈ analyzeLits s confl none
        rw [hlits]
        exact hl
      · show s.decisionLevel ≤ s.level (var l)
        rw [e]))
  unfold analyze at h
  split at h
  · rename_i hn
    rw [hr0] at hn
    exact absurd hn (by simp)
  · rename_i p a hloop
    have hA := (analyzeLoop_stamp _ _ _ _ _ _ hloop).1
    have hR := analyzeLoop_run _ _ _ _ _ _ hloop
    have hA2 : StampFrame s a.s := hA
    have hR2 : RunFrame s a.s := hR
    rw [hr0] at hloop
    have e0 : r0 = (p, a) := Option.some.inj hloop
    rw [e0] at hdone
    have hd : ADone a := hdone
    dsimp only at h
    have hs0 : ASame a.s { a.s with analyze_toclear := a.out_learnt.set 0 (neg p) } :=
      ⟨rfl, rfl, rfl, rfl, rfl, rfl, fun _ => ⟨List.Perm.refl _, fun _ => rfl⟩⟩
    have hst0 : AStat { a.s with analyze_toclear := a.out_learnt.set 0 (neg p) } :=
      aStat_same hd.stat hs0
    have hdrop : (a.out_learnt.set 0 (neg p)).drop 1 = a.out_learnt.drop 1 :=
      drop_one_set0 _ _
    have hcov0 : Covered { a.s with analyze_toclear := a.out_learnt.set 0 (neg p) } := by
      intro v hv
      have hv2 := hd.cover v hv
      rw [← hdrop] at hv2
      obtain ⟨q, hq, e⟩ := List.mem_map.1 hv2
      exact List.mem_map.2 ⟨q, List.mem_of_mem_drop hq, e⟩
    have hlow0 : ∀ q ∈ (a.out_learnt.set 0 (neg p)).drop 1,
        neg q ∈ ({ a.s with analyze_toclear := a.out_learnt.set 0 (neg p) } : Solver).trail ∧
        0 < ({ a.s with analyze_toclear := a.out_learnt.set 0 (neg p) } : Solver).level
          (var q) := by
      rw [hdrop]
      exact hd.low
    have hnd0 : (((a.out_learnt.set 0 (neg p)).drop 1).map var).Nodup := by
      rw [hdrop]
      exact hd.nodup
    have hlen0 : 1 ≤ (a.out_learnt.set 0 (neg p)).length := by
      rw [List.length_set]
      exact hd.ne
    split at h
    · rename_i hmini
      exfalso
      split at hmini
      · rw [Option.map_eq_none'] at hmini
        obtain ⟨r, hr, _⟩ := minimizeDeep_total _ _ _ hst0 hcov0 hlow0
        rw [hr] at hmini
        exact absurd hmini (by simp)
      · split at hmini
        · exact absurd hmini (by simp)
        · exact absurd hmini (by simp)
    · rename_i out1 s1 hmini
      have hm : Covered s1 ∧ 1 ≤ out1.length ∧
          (out1.drop 1).Sublist ((a.out_learnt.set 0 (neg p)).drop 1) ∧ StampFrame s s1 := by
        split at hmini
        · rw [Option.map_eq_some'] at hmini
          obtain ⟨r, hr, e⟩ := hmini
          obtain ⟨r2, hr2, _, m2, m3⟩ := minimizeDeep_total _ _ _ hst0 hcov0 hlow0
          rw [hr] at hr2
          have er : r = r2 := Option.some.inj hr2
          rw [← er] at m2 m3
          have g := minimizeDeep_stamp _ _ _ r hr
          simp only [Prod.mk.injEq] at e
          rw [← e.1, ← e.2]
          exact ⟨m2, by simp, m3,
            ⟨g.vardata_eq.trans hA2.vardata_eq, g.permDiff_eq.trans hA2.permDiff_eq,
              g.flag_eq.trans hA2.flag_eq⟩⟩
        · split at hmini
          · have e := Option.some.inj hmini
            simp only [Prod.mk.injEq] at e
            rw [← e.1, ← e.2]
            exact ⟨hcov0, by simp, List.filter_sublist _,
              ⟨hA2.vardata_eq, hA2.permDiff_eq, hA2.flag_eq⟩⟩
          · have e := Option.some.inj hmini
            simp only [Prod.mk.injEq] at e
            rw [← e.1, ← e.2]
            exact ⟨hcov0, hlen0, List.Sublist.refl _,
              ⟨hA2.vardata_eq, hA2.permDiff_eq, hA2.flag_eq⟩⟩
      obtain ⟨m2, m3, m4, m5⟩ := hm
      have hbt := binaryMinimize_total
        { s1 with max_literals := s1.max_literals + (a.out_learnt.set 0 (neg p)).length,
                  tot_literals := s1.tot_literals + out1.length } p out1
        (by
          intro l
          show s1.permDiff.getD l 0 ≤ s1.MYFLAG
          rw [m5.permDiff_eq, m5.flag_eq]
          exact hfresh l)
        (by
          show s1.MYFLAG + 2 < 2 ^ 32
          rw [m5.flag_eq]
          exact hwrap)
        m3 (List.Nodup.sublist (m4.map var) hnd0)
        (by
          intro q hq
          show var q < s1.permDiff.length
          rw [m5.permDiff_eq]
          have hq0 := (hlow0 q (m4.subset hq)).1
          have hq1 : neg q ∈ a.s.trail := hq0
          rw [hR2.trail_eq] at hq1
          have := (hst.trail.1 (neg q) hq1).1
          rw [var_neg] at this
          omega)
      split at h
      · rename_i hbin
        obtain ⟨r, hr⟩ := hbt
        rw [hr] at hbin
        exact absurd hbin (by simp)
      · rename_i out2 s3 hbin
        obtain ⟨b1, b2⟩ := binaryMinimize_seen _ p out1 (out2, s3) hbin
        have b1b : s3.seen = s1.seen := b1
        have b2b : s3.analyze_toclear = s1.analyze_toclear := b2
        rw [← h]
        refine ⟨_, rfl, ?_⟩
        apply clear_covered
        intro v hv
        rw [(bumpLastDecisionLevel_seen _ _).1] at hv
        rw [(bumpLastDecisionLevel_seen _ _).2]
        have hc1 : ∀ (t : Solver) (lits : List Nat),
            (computeLBD t lits).2.seen = t.seen ∧
            (computeLBD t lits).2.analyze_toclear = t.analyze_toclear := by
          intro t lits
          constructor <;> rw [computeLBD_only]
        rw [(hc1 _ _).1, b1b] at hv
        rw [(hc1 _ _).2, b2b]
        exact m2 v hv

/-! ## The clause returned by conflict analysis -/

/-- The literal handed over by the resolution loop of `analyze` stands on the trail at the
current decision level, and every literal of `out_learnt[1..]` is of a lower level; the loop
changes neither the assignment nor the trail. -/
theorem analyzeLoop_uip : ∀ (fuel cr : Nat) (p : Option Nat) (n : Nat) (a : AnalyzeAcc),
    ALoop a n →
    (∀ l ∈ analyzeLits a.s cr p, neg l ∈ a.s.trail.take n) →
    (0 < a.pathC ∨ ∃ l ∈ analyzeLits a.s cr p, a.s.decisionLevel ≤ a.s.level (var l)) →
    ∀ r, analyzeLoop fuel (some cr) p n a = some r →
      ASame a.s r.2.s ∧ r.1 ∈ r.2.s.trail ∧ r.2.s.decisionLevel ≤ r.2.s.level (var r.1) ∧
      ∀ q ∈ r.2.out_learnt.drop 1, r.2.s.level (var q) < r.2.s.decisionLevel
  | 0, _, _, _, _, _, _, _, r, hr => by
    exact absurd hr (by simp [analyzeLoop])
  | fuel + 1, cr, p, n, a, h, hl, hp, r, hr => by
    rw [analyzeLoop_succ] at hr
    obtain ⟨hps, hpseen⟩ := analyzePrep_same a.s cr p
    have h0 : ALoop { s := analyzePrep a.s cr p, pathC := a.pathC, out_learnt := a.out_learnt } n :=
      aLoop_same h hps hpseen
    obtain ⟨c1, c2, c3, c4, c5⟩ := foldl_analyzeLit_inv (analyzeLits a.s cr p) _ h0
      (fun q hq => by
        show neg q ∈ (analyzePrep a.s cr p).trail.take n
        rw [hps.trail]
        exact hl q hq)
    generalize (analyzeLits a.s cr p).foldl analyzeLit
      { s := analyzePrep a.s cr p, pathC := a.pathC, out_learnt := a.out_learnt } = a1
      at c1 c2 c3 c4 c5 hr
    have hs1 : ASame a.s a1.s := aSame_trans hps c2
    have hpc : 0 < pathCount a1.s n := by
      rcases hp with hp | ⟨l, hl1, hl2⟩
      · have e := c1.cnt
        have c3b : a.pathC ≤ a1.pathC := c3
        omega
      · have hdp := h.dpos
        have hlev : 0 < (analyzePrep a.s cr p).level (var l) := by
          rw [aSame_level hps]
          omega
        have hseenl := c5 l hl1 hlev
        obtain ⟨k, hk, hkl, hke⟩ := mem_take_getD (hl l hl1)
        exact pathCount_pos (k := k) hk (by rw [hs1.trail]; exact hkl)
          (by rw [hs1.trail, hke, var_neg]; exact hseenl)
          (by rw [hs1.trail, hke, var_neg, aSame_level hs1, aSame_decisionLevel hs1]; exact hl2)
    obtain ⟨k, hk, hkl, hks, hkd⟩ := pathCount_exists hpc
    obtain ⟨i, hsc, hin, his, hno⟩ := scanSeen_spec a1.s n ⟨k, hk, hks⟩
    have hki : k ≤ i := by
      by_contra hh
      have := hno k (by omega) hk
      rw [hks] at this
      exact absurd this (by decide)
    have hil : i < a1.s.trail.length := Nat.lt_of_lt_of_le hin c1.nle
    have hid : a1.s.decisionLevel ≤ a1.s.level (var (a1.s.trail.getD i 0)) :=
      Nat.le_trans hkd (level_mono c1.stat.wf hki hil)
    have hdp1 := c1.dpos
    have hlevpos : 0 < a1.s.level (var (a1.s.trail.getD i 0)) := by omega
    have h2 := clear_inv c1 hin his hno hid
    have hs2 : ASame a1.s { a1.s with seen := a1.s.seen.set (var (a1.s.trail.getD i 0)) false } :=
      ⟨rfl, rfl, rfl, rfl, rfl, List.length_set _ _ _, fun _ => ⟨List.Perm.refl _, fun _ => rfl⟩⟩
    unfold analyzeNext at hr
    rw [hsc] at hr
    dsimp only at hr
    split at hr
    · rename_i hgt
      have hcnt2 := h2.cnt
      have hgt2 : 0 < a1.pathC - 1 := hgt
      have hpc2 : 0 < pathCount
          { a1.s with seen := a1.s.seen.set (var (a1.s.trail.getD i 0)) false } i := by
        have e : a1.pathC - 1 = (pathCount
          { a1.s with seen := a1.s.seen.set (var (a1.s.trail.getD i 0)) false } i : Int) := hcnt2
        omega
      obtain ⟨k2, hk2, hk2l, hk2s, hk2d⟩ := pathCount_exists hpc2
      have hk2d2 : a1.s.decisionLevel ≤ a1.s.level (var (a1.s.trail.getD k2 0)) := hk2d
      have hle := level_le_decisionLevel c1.stat.wf (getD_mem' a1.s.trail 0 hil)
      have hrs : ∃ cr2, a1.s.reason (var (a1.s.trail.getD i 0)) = some cr2 := by
        cases hr0 : a1.s.reason (var (a1.s.trail.getD i 0)) with
        | some c => exact ⟨c, rfl⟩
        | none =>
          exfalso
          have := c1.stat.first i hil hlevpos hr0 k2 hk2
          omega
      obtain ⟨cr2, hr2⟩ := hrs
      have hr3 : ({ a1.s with seen := a1.s.seen.set (var (a1.s.trail.getD i 0)) false } :
          Solver).reason (var (a1.s.trail.getD i 0)) = some cr2 := hr2
      rw [hr3] at hr
      obtain ⟨u1, u2, u3, u4⟩ := analyzeLoop_uip fuel cr2 (some (a1.s.trail.getD i 0)) i _ h2
        (by
          intro l hl2
          have hsome : (some (a1.s.trail.getD i 0)).isSome = true := rfl
          unfold analyzeLits at hl2
          rw [if_pos hsome, analyzePrep_lits, if_pos hsome] at hl2
          exact reason_scan h2.stat (i := i) hil hlevpos hr2 l hl2)
        (Or.inl hgt) r hr
      exact ⟨aSame_trans hs1 (aSame_trans hs2 u1), u2, u3, u4⟩
    · have e := Option.some.inj hr
      rw [← e]
      refine ⟨aSame_trans hs1 hs2, ?_, hid, ?_⟩
      · exact getD_mem' a1.s.trail 0 hil
      · intro q hq
        exact (h2.low q hq).2.2.1

theorem mem_drop_one_iff (l : List Nat) (q : Nat) :
    q ∈ l.drop 1 ↔ ∃ i, 1 ≤ i ∧ i < l.length ∧ l.getD i 0 = q := by
  cases l with
  | nil => simp
  | cons x t =>
    show q ∈ t ↔ _
    constructor
    · intro hq
      obtain ⟨k, hk, e⟩ := List.mem_iff_getElem.1 hq
      refine ⟨k + 1, by omega, by simp; omega, ?_⟩
      rw [List.getD_cons_succ, List.getD_eq_getElem _ _ hk]
      exact e
    · rintro ⟨i, h1, h2, e⟩
      obtain ⟨k, rfl⟩ : ∃ k, i = k + 1 := ⟨i - 1, by omega⟩
      rw [List.getD_cons_succ] at e
      have hk : k < t.length := by simpa using h2
      rw [List.getD_eq_getElem _ _ hk] at e
      rw [← e]
      exact List.getElem_mem _

/-- The scan for the literal of highest level: the position found lies behind the first
literal, and no literal behind the first is of a higher level. -/
theorem maxLevelIdx_fold (s : Solver) (out : List Nat) : ∀ (k : Nat),
    ((List.range k).foldl
      (fun m i => if 2 ≤ i ∧ s.level (var (out.getD i 0)) > s.level (var (out.getD m 0))
        then i else m) 1 = 1 ∨
     (2 ≤ (List.range k).foldl
      (fun m i => if 2 ≤ i ∧ s.level (var (out.getD i 0)) > s.level (var (out.getD m 0))
        then i else m) 1 ∧
      (List.range k).foldl
      (fun m i => if 2 ≤ i ∧ s.level (var (out.getD i 0)) > s.level (var (out.getD m 0))
        then i else m) 1 < k)) ∧
    ∀ i, 1 ≤ i → (i = 1 ∨ i < k) →
      s.level (var (out.getD i 0)) ≤ s.level (var (out.getD ((List.range k).foldl
      (fun m i => if 2 ≤ i ∧ s.level (var (out.getD i 0)) > s.level (var (out.getD m 0))
        then i else m) 1) 0))
  | 0 => by
    refine ⟨Or.inl rfl, ?_⟩
    intro i h1 h2
    rcases h2 with e | e
    · rw [e]
      exact Nat.le_refl _
    · omega
  | k + 1 => by
    obtain ⟨i1, i2⟩ := maxLevelIdx_fold s out k
    rw [List.range_succ, List.foldl_append]
    simp only [List.foldl_cons, List.foldl_nil]
    generalize (List.range k).foldl
      (fun m i => if 2 ≤ i ∧ s.level (var (out.getD i 0)) > s.level (var (out.getD m 0))
        then i else m) 1 = m at i1 i2
    by_cases hc : 2 ≤ k ∧ s.level (var (out.getD k 0)) > s.level (var (out.getD m 0))
    · rw [if_pos hc]
      refine ⟨Or.inr ⟨hc.1, Nat.lt_succ_self _⟩, ?_⟩
      intro i h1 h2
      by_cases hik : i = k
      · rw [hik]
      · have := i2 i h1 (by omega)
        omega
    · rw [if_neg hc]
      refine ⟨?_, ?_⟩
      · rcases i1 with e | ⟨e1, e2⟩
        · exact Or.inl e
        · exact Or.inr ⟨e1, by omega⟩
      · intro i h1 h2
        by_cases hik : i = k
        · by_cases hk1 : k = 1
          · exact i2 i h1 (Or.inl (hik.trans hk1))
          · have hk2 : 2 ≤ k := by omega
            rw [hik]
            by_contra hlt
            exact hc ⟨hk2, by omega⟩
        · exact i2 i h1 (by omega)

theorem maxLevelIdx_spec (s : Solver) (out : List Nat) (h : 2 ≤ out.length) :
    1 ≤ maxLevelIdx s out ∧ maxLevelIdx s out < out.length ∧
    ∀ i, 1 ≤ i → i < out.length →
      s.level (var (out.getD i 0)) ≤ s.level (var (out.getD (maxLevelIdx s out) 0)) := by
  obtain ⟨i1, i2⟩ := maxLevelIdx_fold s out out.length
  unfold maxLevelIdx
  refine ⟨?_, ?_, fun i h1 h2 => i2 i h1 (Or.inr h2)⟩
  · rcases i1 with e | ⟨e1, _⟩
    · rw [e]
    · omega
  · rcases i1 with e | ⟨_, e2⟩
    · rw [e]
      omega
    · exact e2

/-- The exchange of `out[1]` with `out[m]`: every position of the result holds a literal of
the clause, a position behind the first one a literal from behind the first. -/
theorem swap_one_getD (out : List Nat) (m : Nat) (h1 : 1 ≤ m) (hm : m < out.length) (i : Nat) :
    ((out.set m (out.getD 1 0)).set 1 (out.getD m 0)).getD i 0 =
      if i = 1 then out.getD m 0 else if i = m then out.getD 1 0 else out.getD i 0 := by
  by_cases hi1 : i = 1
  · rw [if_pos hi1, hi1, getD_set_self' _ _ _ _ (by rw [List.length_set]; omega)]
  · rw [if_neg hi1, getD_set_ne' _ _ _ (Ne.symm hi1)]
    by_cases him : i = m
    · rw [if_pos him, him, getD_set_self' _ _ _ _ hm]
    · rw [if_neg him, getD_set_ne' _ _ _ (Ne.symm him)]

theorem binaryMinimize_assigns (s : Solver) (p : Nat) (out : List Nat) (r : List Nat × Solver)
    (h : binaryMinimize s p out = some r) :
    r.2.assigns = s.assigns ∧ r.2.vardata = s.vardata := by
  have hc : (computeLBD s out).2.assigns = s.assigns ∧
      (computeLBD s out).2.vardata = s.vardata := by
    constructor <;> rw [computeLBD_only]
  have hcnt : ∀ (ws : List Watcher) (t : Solver),
      (binMinCount ws (0, t)).2.assigns = t.assigns ∧
      (binMinCount ws (0, t)).2.vardata = t.vardata := by
    intro ws t
    constructor <;> rw [binMinCount_only]
  unfold binaryMinimize at h
  split at h
  · dsimp only at h
    split at h
    · split at h
      · split at h
        · exact absurd h (by simp)
        · rw [← Option.some.inj h]
          exact ⟨(hcnt _ _).1.trans hc.1, (hcnt _ _).2.trans hc.2⟩
      · rw [← Option.some.inj h]
        exact ⟨(hcnt _ _).1.trans hc.1, (hcnt _ _).2.trans hc.2⟩
    · rw [← Option.some.inj h]
      exact hc
  · rw [← Option.some.inj h]
    exact ⟨rfl, rfl⟩

theorem bumpFold_assigns (lbd : Nat) : ∀ (qs : List Nat) (s : Solver),
    (qs.foldl
      (fun (t : Solver) q =>
        let c : Clause := match t.reason (var q) with
          | some r => t.ca.get r
          | none => default
        if c.lbd < lbd then varBumpActivity t (var q) else t) s).assigns = s.assigns ∧
    (qs.foldl
      (fun (t : Solver) q =>
        let c : Clause := match t.reason (var q) with
          | some r => t.ca.get r
          | none => default
        if c.lbd < lbd then varBumpActivity t (var q) else t) s).vardata = s.vardata
  | [], _ => ⟨rfl, rfl⟩
  | q :: rest, s => by
    simp only [List.foldl_cons]
    obtain ⟨i1, i2⟩ := bumpFold_assigns lbd rest
      (if (match s.reason (var q) with
          | some r => s.ca.get r
          | none => default).lbd < lbd then varBumpActivity s (var q) else s)
    rw [i1, i2]
    split
    · constructor <;> rw [varBumpActivity_only]
    · exact ⟨rfl, rfl⟩

theorem bumpLastDecisionLevel_assigns (s : Solver) (lbd : Nat) :
    (bumpLastDecisionLevel s lbd).assigns = s.assigns ∧
    (bumpLastDecisionLevel s lbd).vardata = s.vardata := by
  unfold bumpLastDecisionLevel
  exact bumpFold_assigns lbd s.lastDecisionLevel s

/-- The binary minimisation keeps the first literal in place and keeps behind it literals
from behind it only. -/
theorem binaryMinimize_sub (s : Solver) (p : Nat) (out : List Nat) (hfresh : StampsFresh s)
    (hwrap : s.MYFLAG + 2 < 2 ^ 32) (hne : 1 ≤ out.length)
    (hnd : ((out.drop 1).map var).Nodup)
    (hrange : ∀ q ∈ out.drop 1, var q < s.permDiff.length)
    (r : List Nat × Solver) (h : binaryMinimize s p out = some r) :
    r.1.getD 0 0 = out.getD 0 0 ∧ 1 ≤ r.1.length ∧ ∀ q ∈ r.1.drop 1, q ∈ out.drop 1 := by
  by_cases h1 : out.length ≤ s.lbSizeMinimizingClause
  · by_cases h2 : (computeLBD s out).1 ≤ s.lbLBDMinimizingClause
    · obtain ⟨r2, hr, k1, k2, k3⟩ := binaryMinimize_spec s p out hfresh hwrap hne hnd hrange h1 h2
      rw [hr] at h
      have e : r2 = r := Option.some.inj h
      rw [← e]
      refine ⟨k1, ?_, ?_⟩
      · have hle : ((out.drop 1).filter (binRemovable s p)).length ≤ (out.drop 1).length :=
          List.length_filter_le _ _
        rw [List.length_drop] at hle
        omega
      · intro q hq
        exact List.mem_of_mem_filter (k2.subset hq)
    · have hl : (computeLBD s out).2.lbLBDMinimizingClause = s.lbLBDMinimizingClause := by
        rw [computeLBD_only]
      unfold binaryMinimize at h
      rw [if_pos h1] at h
      dsimp only at h
      rw [if_neg (by rw [hl]; exact h2)] at h
      rw [← Option.some.inj h]
      exact ⟨rfl, hne, fun _ hq => hq⟩
  · unfold binaryMinimize at h
    rw [if_neg h1] at h
    rw [← Option.some.inj h]
    exact ⟨rfl, hne, fun _ hq => hq⟩

/-- The last step of `analyze` on the clause `out`: the literal of highest level among
`out[1..]` is brought to position 1 and its level is the backtrack level. -/
theorem finish_spec (s : Solver) (out : List Nat) (h1 : 1 ≤ out.length) :
    (if out.length == 1 then out
      else (out.set (maxLevelIdx s out) (out.getD 1 0)).set 1
        (out.getD (maxLevelIdx s out) 0)).length = out.length ∧
    (if out.length == 1 then out
      else (out.set (maxLevelIdx s out) (out.getD 1 0)).set 1
        (out.getD (maxLevelIdx s out) 0)).getD 0 0 = out.getD 0 0 ∧
    (∀ q ∈ (if out.length == 1 then out
      else (out.set (maxLevelIdx s out) (out.getD 1 0)).set 1
        (out.getD (maxLevelIdx s out) 0)).drop 1, q ∈ out.drop 1) ∧
    (out.length = 1 →
      (if out.length == 1 then 0 else s.level (var (out.getD (maxLevelIdx s out) 0))) = 0) ∧
    (out.length ≠ 1 →
      (∀ i, 1 ≤ i → i < out.length →
        s.level (var ((if out.length == 1 then out
          else (out.set (maxLevelIdx s out) (out.getD 1 0)).set 1
            (out.getD (maxLevelIdx s out) 0)).getD i 0)) ≤
        s.level (var ((if out.length == 1 then out
          else (out.set (maxLevelIdx s out) (out.getD 1 0)).set 1
            (out.getD (maxLevelIdx s out) 0)).getD 1 0))) ∧
      (if out.length == 1 then 0 else s.level (var (out.getD (maxLevelIdx s out) 0))) =
        s.level (var ((if out.length == 1 then out
          else (out.set (maxLevelIdx s out) (out.getD 1 0)).set 1
            (out.getD (maxLevelIdx s out) 0)).getD 1 0))) := by
  by_cases hl : out.length = 1
  · have hb : (out.length == 1) = true := by rw [hl]; rfl
    rw [if_pos hb, if_pos hb]
    exact ⟨rfl, rfl, fun _ hq => hq, fun _ => rfl, fun hn => absurd hl hn⟩
  · have hb : ¬ ((out.length == 1) = true) := by simpa using hl
    rw [if_neg hb, if_neg hb]
    obtain ⟨m1, m2, m3⟩ := maxLevelIdx_spec s out (by omega)
    generalize maxLevelIdx s out = m at m1 m2 m3
    have hg := swap_one_getD out m m1 m2
    refine ⟨by rw [List.length_set, List.length_set], ?_, ?_, fun h => absurd h hl, fun _ => ⟨?_, ?_⟩⟩
    · rw [hg 0, if_neg (by omega), if_neg (by omega)]
    · intro q hq
      obtain ⟨i, i1, i2, e⟩ := (mem_drop_one_iff _ q).1 hq
      rw [List.length_set, List.length_set] at i2
      rw [hg i] at e
      apply (mem_drop_one_iff out q).2
      by_cases hi1 : i = 1
      · rw [if_pos hi1] at e
        exact ⟨m, m1, m2, e⟩
      · rw [if_neg hi1] at e
        by_cases him : i = m
        · rw [if_pos him] at e
          exact ⟨1, Nat.le_refl _, by omega, e⟩
        · rw [if_neg him] at e
          exact ⟨i, i1, i2, e⟩
    · intro i i1 i2
      rw [hg i, hg 1, if_pos rfl]
      by_cases hi1 : i = 1
      · rw [if_pos hi1]
      · rw [if_neg hi1]
        by_cases him : i = m
        · rw [if_pos him]
          exact m3 1 (Nat.le_refl _) (by omega)
        · rw [if_neg him]
          exact m3 i i1 i2
    · rw [hg 1, if_pos rfl]

/-- The clause and the backtrack level returned by `analyze`, from a state with no mark in
`seen`, for a clause in conflict at a decision level above 0: the first literal is the
complement of a trail literal of the current level, the others are false literals of lower
levels, the second one of the highest level among them, which is the backtrack level. -/
theorem analyze_post (s : Solver) (confl : Nat) (hst : AStat s) (hclear : SeenClear s)
    (hconf : ConflictAt s confl) (hD : 0 < s.decisionLevel) (hfresh : StampsFresh s)
    (hwrap : s.MYFLAG + 2 < 2 ^ 32) (hperm : s.assigns.length ≤ s.permDiff.length)
    (r : List Nat × Nat × Nat × Solver) (h : analyze s confl = some r) :
    r.2.2.2.assigns = s.assigns ∧ r.2.2.2.vardata = s.vardata ∧
    1 ≤ r.1.length ∧
    neg (r.1.getD 0 0) ∈ s.trail ∧ s.decisionLevel ≤ s.level (var (r.1.getD 0 0)) ∧
    (∀ q ∈ r.1.drop 1, neg q ∈ s.trail ∧ s.level (var q) < s.decisionLevel) ∧
    (r.1.length = 1 → r.2.1 = 0) ∧
    (r.1.length ≠ 1 →
      (∀ i, 1 ≤ i → i < r.1.length →
        s.level (var (r.1.getD i 0)) ≤ s.level (var (r.1.getD 1 0))) ∧
      r.2.1 = s.level (var (r.1.getD 1 0))) := by
  have h0 := aLoop_init hst hclear hD
  have hnone : ¬ ((none : Option Nat).isSome = true) := by simp
  have hlits : analyzeLits s confl none = (s.ca.get confl).lits := by
    unfold analyzeLits
    rw [if_neg hnone, analyzePrep_lits, if_neg hnone]
  have hA1 : ∀ l ∈ analyzeLits s confl none, neg l ∈ s.trail.take s.trail.length := by
    intro l hl
    rw [List.take_length]
    rw [hlits] at hl
    exact false_mem_trail hst.wf hst.trail (hconf.2.2.1 l hl)
  have hA2 : (0 : Int) < 0 ∨ ∃ l ∈ analyzeLits s confl none, s.decisionLevel ≤ s.level (var l) := by
    right
    obtain ⟨l, hl, e⟩ := hconf.2.2.2
    refine ⟨l, ?_, ?_⟩
    · rw [hlits]
      exact hl
    · rw [e]
  obtain ⟨r0, hr0, hdone⟩ := analyzeLoop_total (s.trail.length + 1) confl none s.trail.length
    { s := s, pathC := 0, out_learnt := [0] } h0 (Nat.le_refl _) hA1 hA2
  unfold analyze at h
  split at h
  · exact absurd h (by simp)
  · rename_i p a hloop
    have hA := (analyzeLoop_stamp _ _ _ _ _ _ hloop).1
    have hA2s : StampFrame s a.s := hA
    obtain ⟨u1, u2, u3, u4⟩ := analyzeLoop_uip (s.trail.length + 1) confl none s.trail.length
      { s := s, pathC := 0, out_learnt := [0] } h0 hA1 hA2 (p, a) hloop
    have v1 : ASame s a.s := u1
    have v2 : p ∈ a.s.trail := u2
    have v3 : a.s.decisionLevel ≤ a.s.level (var p) := u3
    have v4 : ∀ q ∈ a.out_learnt.drop 1, a.s.level (var q) < a.s.decisionLevel := u4
    rw [hr0] at hloop
    have e0 : r0 = (p, a) := Option.some.inj hloop
    rw [e0] at hdone
    have hd : ADone a := hdone
    dsimp only at h
    have hs0 : ASame a.s { a.s with analyze_toclear := a.out_learnt.set 0 (neg p) } :=
      ⟨rfl, rfl, rfl, rfl, rfl, rfl, fun _ => ⟨List.Perm.refl _, fun _ => rfl⟩⟩
    have hst0 : AStat { a.s with analyze_toclear := a.out_learnt.set 0 (neg p) } :=
      aStat_same hd.stat hs0
    have hdrop : (a.out_learnt.set 0 (neg p)).drop 1 = a.out_learnt.drop 1 :=
      drop_one_set0 _ _
    have hcov0 : Covered { a.s with analyze_toclear := a.out_learnt.set 0 (neg p) } := by
      intro v hv
      have hv2 := hd.cover v hv
      rw [← hdrop] at hv2
      obtain ⟨q, hq, e⟩ := List.mem_map.1 hv2
      exact List.mem_map.2 ⟨q, List.mem_of_mem_drop hq, e⟩
    have hlow0 : ∀ q ∈ (a.out_learnt.set 0 (neg p)).drop 1,
        neg q ∈ ({ a.s with analyze_toclear := a.out_learnt.set 0 (neg p) } : Solver).trail ∧
        0 < ({ a.s with analyze_toclear := a.out_learnt.set 0 (neg p) } : Solver).level
          (var q) := by
      rw [hdrop]
      exact hd.low
    have hnd0 : (((a.out_learnt.set 0 (neg p)).drop 1).map var).Nodup := by
      rw [hdrop]
      exact hd.nodup
    have hlen0 : 1 ≤ (a.out_learnt.set 0 (neg p)).length := by
      rw [List.length_set]
      exact hd.ne
    split at h
    · exact absurd h (by simp)
    · rename_i out1 s1 hmini
      have hm : out1.getD 0 0 = neg p ∧ 1 ≤ out1.length ∧
          (out1.drop 1).Sublist ((a.out_learnt.set 0 (neg p)).drop 1) ∧ StampFrame s s1 ∧
          s1.assigns = a.s.assigns := by
        split at hmini
        · rw [Option.map_eq_some'] at hmini
          obtain ⟨r1, hr, e⟩ := hmini
          obtain ⟨r2, hr2, m1, _, m3⟩ := minimizeDeep_total _ _ _ hst0 hcov0 hlow0
          rw [hr] at hr2
          have er : r1 = r2 := Option.some.inj hr2
          rw [← er] at m1 m3
          have g := minimizeDeep_stamp _ _ _ r1 hr
          simp only [Prod.mk.injEq] at e
          rw [← e.1, ← e.2]
          exact ⟨rfl, by simp, m3,
            ⟨g.vardata_eq.trans hA2s.vardata_eq, g.permDiff_eq.trans hA2s.permDiff_eq,
              g.flag_eq.trans hA2s.flag_eq⟩, m1.assigns⟩
        · split at hmini
          · have e := Option.some.inj hmini
            simp only [Prod.mk.injEq] at e
            rw [← e.1, ← e.2]
            exact ⟨rfl, by simp, List.filter_sublist _,
              ⟨hA2s.vardata_eq, hA2s.permDiff_eq, hA2s.flag_eq⟩, rfl⟩
          · have e := Option.some.inj hmini
            simp only [Prod.mk.injEq] at e
            rw [← e.1, ← e.2]
            exact ⟨getD_set_self' _ _ _ _ (by have := hd.ne; omega), hlen0, List.Sublist.refl _,
              ⟨hA2s.vardata_eq, hA2s.permDiff_eq, hA2s.flag_eq⟩, rfl⟩
      obtain ⟨m2, m3, m4, m5, m6⟩ := hm
      split at h
      · exact absurd h (by simp)
      · rename_i out2 s3 hbin
        obtain ⟨b1, b2, b3⟩ := binaryMinimize_sub
          { s1 with max_literals := s1.max_literals + (a.out_learnt.set 0 (neg p)).length,
                    tot_literals := s1.tot_literals + out1.length } p out1
          (by
            intro l
            show s1.permDiff.getD l 0 ≤ s1.MYFLAG
            rw [m5.permDiff_eq, m5.flag_eq]
            exact hfresh l)
          (by
            show s1.MYFLAG + 2 < 2 ^ 32
            rw [m5.flag_eq]
            exact hwrap)
          m3 (List.Nodup.sublist (m4.map var) hnd0)
          (by
            intro q hq
            show var q < s1.permDiff.length
            rw [m5.permDiff_eq]
            have hq0 := (hlow0 q (m4.subset hq)).1
            have hq1 : neg q ∈ a.s.trail := hq0
            rw [v1.trail] at hq1
            have := (hst.trail.1 (neg q) hq1).1
            rw [var_neg] at this
            omega)
          (out2, s3) hbin
        obtain ⟨b4, b5⟩ := binaryMinimize_assigns _ p out1 (out2, s3) hbin
        have b1b : out2.getD 0 0 = out1.getD 0 0 := b1
        have b2b : 1 ≤ out2.length := b2
        have b3b : ∀ q ∈ out2.drop 1, q ∈ out1.drop 1 := b3
        have b4b : s3.assigns = s1.assigns := b4
        have b5b : s3.vardata = s1.vardata := b5
        have hvd : s3.vardata = s.vardata := b5b.trans m5.vardata_eq
        have hfun : s3.level = s.level := funext (level_congr hvd)
        obtain ⟨f1, f2, f3, f4, f5⟩ := finish_spec s3 out2 b2b
        have e := Option.some.inj h
        rw [← e]
        have hc1 : ∀ (t : Solver) (lits : List Nat),
            (computeLBD t lits).2.assigns = t.assigns ∧
            (computeLBD t lits).2.vardata = t.vardata := by
          intro t lits
          constructor <;> rw [computeLBD_only]
        refine ⟨?_, ?_, ?_, ?_, ?_, ?_, ?_, ?_⟩
        · show (bumpLastDecisionLevel _ _).assigns = s.assigns
          rw [(bumpLastDecisionLevel_assigns _ _).1, (hc1 _ _).1, b4b, m6, v1.assigns]
        · show (bumpLastDecisionLevel _ _).vardata = s.vardata
          rw [(bumpLastDecisionLevel_assigns _ _).2, (hc1 _ _).2, hvd]
        · show 1 ≤ (if out2.length == 1 then out2
            else (out2.set (maxLevelIdx s3 out2) (out2.getD 1 0)).set 1
              (out2.getD (maxLevelIdx s3 out2) 0)).length
          rw [f1]
          exact b2b
        · show neg ((if out2.length == 1 then out2
            else (out2.set (maxLevelIdx s3 out2) (out2.getD 1 0)).set 1
              (out2.getD (maxLevelIdx s3 out2) 0)).getD 0 0) ∈ s.trail
          rw [f2, b1b, m2, neg_neg, ← v1.trail]
          exact v2
        · show s.decisionLevel ≤ s.level (var ((if out2.length == 1 then out2
            else (out2.set (maxLevelIdx s3 out2) (out2.getD 1 0)).set 1
              (out2.getD (maxLevelIdx s3 out2) 0)).getD 0 0))
          rw [f2, b1b, m2, var_neg, ← aSame_level v1, ← aSame_decisionLevel v1]
          exact v3
        · intro q hq
          have hq1 := b3b q (f3 q hq)
          have hq2 := m4.subset hq1
          rw [hdrop] at hq2
          refine ⟨?_, ?_⟩
          · rw [← v1.trail]
            exact (hd.low q hq2).1
          · rw [← aSame_level v1, ← aSame_decisionLevel v1]
            exact v4 q hq2
        · intro hl
          have hl2 : (if out2.length == 1 then out2
            else (out2.set (maxLevelIdx s3 out2) (out2.getD 1 0)).set 1
              (out2.getD (maxLevelIdx s3 out2) 0)).length = 1 := hl
          rw [f1] at hl2
          exact f4 hl2
        · intro hl
          have hl2 : (if out2.length == 1 then out2
            else (out2.set (maxLevelIdx s3 out2) (out2.getD 1 0)).set 1
              (out2.getD (maxLevelIdx s3 out2) 0)).length ≠ 1 := hl
          rw [f1] at hl2
          obtain ⟨g1, g2⟩ := f5 hl2
          refine ⟨?_, g2.trans (congrFun hfun _)⟩
          intro i i1 i2
          have i3 : i < (if out2.length == 1 then out2
            else (out2.set (maxLevelIdx s3 out2) (out2.getD 1 0)).set 1
              (out2.getD (maxLevelIdx s3 out2) 0)).length := i2
          rw [f1] at i3
          have g3 := g1 i i1 i3
          rw [hfun] at g3
          exact g3

/-- The reasons as `propagate` keeps them are reasons that conflict analysis can read. -/
theorem rInv_of_reasons {s : Solver} (hr : ReasonsOK s) (ha : ArenaOK s) : RInv s := by
  intro i hi hlev cr hcr
  obtain ⟨r1, r2, r3, r4, _⟩ := hr i hi hlev cr hcr
  have hgood := (ha _ (get_mem s.ca cr r1)).2
  have hnd : (s.ca.get cr).lits.Nodup := by
    rcases hgood with h0 | hg
    · rw [h0] at r2
      simp at r2
    · exact hg.2.1
  refine ⟨hnd, ?_, ?_, r4⟩
  · rcases r3 with e | ⟨_, e⟩
    · rw [← e]
      exact lit_mem _ 0 (by omega)
    · rw [← e]
      exact lit_mem _ 1 (by omega)
  · intro hne
    rcases r3 with e | ⟨e2, _⟩
    · exact e
    · exact absurd e2 hne

/-- A conflict reported by `propagate`, from a well-formed state under the watched-literal
invariant: the state it leaves is one that conflict analysis can read, and the clause
reported is falsified and holds a literal of the current decision level. -/
theorem propagate_conflict {s : Solver} {A : List Nat} (h : PropEntry s A)
    (h2 : ∀ cr ∈ A, WatchedInv s cr) {confl : Nat} {t : Solver}
    (hp : propagate s = some (some confl, t)) :
    TrailWF t ∧ TrailOK t ∧ t.seen.length = t.assigns.length ∧ RInv t ∧ ConflictAt t confl := by
  have hr2 : propagate (withClauses s A) = some (some confl, withClauses t A) := by
    rw [propagate_wc, hp]
    rfl
  obtain ⟨_, b, _, d, _⟩ := propagate_inv h.entryInv h2 _ hr2
  have hc : ConflictAt (withClauses t A) confl := (d confl rfl).2
  have hro : ReasonsOK t := b.reasons
  have hao : ArenaOK t := b.arena
  exact ⟨⟨b.wf.lim_sorted, b.wf.lim_le, b.wf.nodup, b.wf.assigned, b.wf.level_ok⟩, b.trail,
    b.sizes.2.2.1, rInv_of_reasons hro hao, hc⟩

end Solver

namespace SharedBase

open Glucose.Solver

/-! ## The lists of the exchange -/

theorem isChain_nil (nodes : List (Option Elearn)) (start : Option Nat) :
    isChain nodes start [] = true ↔ start = none := by
  unfold isChain
  simp

theorem isChain_cons (nodes : List (Option Elearn)) (start : Option Nat) (a : Nat)
    (xs : List Nat) :
    isChain nodes start (a :: xs) = true ↔
      start = some a ∧ ∃ n, nodes.getD a none = some n ∧ isChain nodes n.next xs = true := by
  rw [isChain]
  cases h : nodes.getD a none with
  | none => simp
  | some n => simp

/-- A chain depends on the links of its own nodes only. -/
theorem isChain_congr {nodes nodes' : List (Option Elearn)} : ∀ (xs : List Nat)
    (start : Option Nat),
    (∀ a ∈ xs, (nodes'.getD a none).map Elearn.next = (nodes.getD a none).map Elearn.next) →
    isChain nodes start xs = true → isChain nodes' start xs = true
  | [], start, _, h => by
    rw [isChain_nil] at h ⊢; exact h
  | a :: xs, start, hc, h => by
    rw [isChain_cons] at h ⊢
    obtain ⟨h1, n, hn, h2⟩ := h
    have := hc a (List.mem_cons_self _ _)
    rw [hn] at this
    cases hn' : nodes'.getD a none with
    | none => rw [hn'] at this; simp at this
    | some n' =>
      rw [hn'] at this
      simp only [Option.map_some', Option.some.injEq] at this
      refine ⟨h1, n', rfl, ?_⟩
      rw [this]
      exact isChain_congr xs _ (fun b hb => hc b (List.mem_cons_of_mem _ hb)) h2

theorem isChain_live {nodes : List (Option Elearn)} : ∀ {xs : List Nat} {start : Option Nat},
    isChain nodes start xs = true → ∀ a ∈ xs, ∃ n, nodes.getD a none = some n
  | [], _, _, a, ha => by simp at ha
  | b :: xs, start, h, a, ha => by
    rw [isChain_cons] at h
    obtain ⟨_, n, hn, h2⟩ := h
    rcases List.mem_cons.1 ha with rfl | ha
    · exact ⟨n, hn⟩
    · exact isChain_live h2 a ha

theorem isChain_lt {nodes : List (Option Elearn)} {xs : List Nat} {start : Option Nat}
    (h : isChain nodes start xs = true) {a : Nat} (ha : a ∈ xs) : a < nodes.length := by
  obtain ⟨n, hn⟩ := isChain_live h a ha
  exact lt_of_getD_some hn

theorem isChain_head {nodes : List (Option Elearn)} {xs : List Nat} {start : Option Nat}
    (h : isChain nodes start xs = true) : start = xs.head? := by
  cases xs with
  | nil => rw [isChain_nil] at h; rw [h]; rfl
  | cons a xs => rw [isChain_cons] at h; rw [h.1]; rfl

/-- The chain grows by the node `e` when the link of its last node is set to `e`. -/
theorem isChain_snoc {nodes : List (Option Elearn)} {e : Nat} {m : Elearn}
    (he : nodes.getD e none = some m) (hm : m.next = none) :
    ∀ (xs : List Nat) (start : Option Nat) (t : Nat) (n : Elearn),
    isChain nodes start (xs ++ [t]) = true → (xs ++ [t]).Nodup → e ∉ xs ++ [t] →
    nodes.getD t none = some n →
    isChain (nodes.set t (some { n with next := some e })) start ((xs ++ [t]) ++ [e]) = true
  | [], start, t, n, h, _, hne, hn => by
    simp only [List.nil_append, List.singleton_append] at h hne ⊢
    rw [isChain_cons] at h ⊢
    obtain ⟨h1, _, _, _⟩ := h
    have hte : t ≠ e := fun c => hne (by rw [c]; simp)
    refine ⟨h1, { n with next := some e }, ?_, ?_⟩
    · exact getD_set_self' _ _ _ _ (lt_of_getD_some hn)
    · rw [isChain_cons]
      refine ⟨rfl, m, ?_, ?_⟩
      · rw [getD_set_ne' _ _ _ hte]; exact he
      · rw [isChain_nil]; exact hm
  | a :: xs, start, t, n, h, hnd, hne, hn => by
    simp only [List.cons_append] at h hnd hne ⊢
    rw [isChain_cons] at h ⊢
    obtain ⟨h1, na, hna, h2⟩ := h
    have hat : t ≠ a := by
      intro c
      have := (List.nodup_cons.1 hnd).1
      apply this
      rw [← c]; simp
    refine ⟨h1, na, ?_, ?_⟩
    · rw [getD_set_ne' _ _ _ hat]; exact hna
    · exact isChain_snoc he hm xs _ t n h2 (List.nodup_cons.1 hnd).2
        (fun c => hne (List.mem_cons_of_mem _ c)) hn

theorem append_spec {nodes : List (Option Elearn)} {l : ListLearn} {xs : List Nat} {e : Nat}
    {m : Elearn} (hok : ListOK nodes l xs) (he : nodes.getD e none = some m)
    (hm : m.next = none) (hne : e ∉ xs) :
    ∃ l' nodes', append e l nodes = some (l', nodes') ∧ ListOK nodes' l' (xs ++ [e]) ∧
      l'.sidx = l.sidx ∧ l'.nba = l.nba ∧ l'.nbs = l.nbs ∧ l'.rmfrqc = l.rmfrqc ∧
      l'.nbptr = l.nbptr ∧ nodes'.length = nodes.length ∧
      (∀ a, a ∉ xs → nodes'.getD a none = nodes.getD a none) ∧
      (∀ a n, nodes.getD a none = some n →
        ∃ n', nodes'.getD a none = some n' ∧ n'.learn = n.learn ∧ n'.nblevels = n.nblevels ∧
          n'.cref = n.cref) := by
  obtain ⟨h1, h2, h3⟩ := hok
  rcases List.eq_nil_or_concat xs with rfl | ⟨ys, t, rfl⟩
  · rw [isChain_nil] at h1
    simp only [List.getLast?_nil] at h2
    refine ⟨{ l with head := some e, tail := some e }, nodes, ?_, ⟨?_, ?_, ?_⟩, rfl, rfl, rfl,
      rfl, rfl, rfl, fun _ _ => rfl, fun a n hn => ⟨n, hn, rfl, rfl, rfl⟩⟩
    · unfold append
      rw [h2]
    · simp only [List.nil_append]
      rw [isChain_cons]
      exact ⟨rfl, m, he, by rw [isChain_nil]; exact hm⟩
    · simp
    · simp
  · simp only [List.concat_eq_append] at h1 h2 h3 hne ⊢
    have ht : l.tail = some t := by rw [h2]; simp
    obtain ⟨n, hn⟩ := isChain_live h1 t (by simp)
    refine ⟨{ l with tail := some e }, nodes.set t (some { n with next := some e }), ?_,
      ⟨?_, ?_, ?_⟩, rfl, rfl, rfl, rfl, rfl, by simp, ?_, ?_⟩
    · unfold append
      rw [ht]
      simp only [hn]
    · exact isChain_snoc he hm ys _ t n h1 h3 hne hn
    · simp
    · rw [List.nodup_append]
      refine ⟨h3, List.nodup_singleton _, ?_⟩
      intro a ha hb
      rw [List.mem_singleton] at hb
      subst hb
      exact hne ha
    · intro a ha
      have : t ≠ a := fun c => ha (by rw [← c]; simp)
      exact getD_set_ne' _ _ _ this
    · intro a n' hn'
      by_cases hat : t = a
      · subst hat
        rw [hn] at hn'
        simp only [Option.some.injEq] at hn'
        subst hn'
        exact ⟨_, getD_set_self' _ _ _ _ (lt_of_getD_some hn), rfl, rfl, rfl⟩
      · exact ⟨n', by rw [getD_set_ne' _ _ _ hat]; exact hn', rfl, rfl, rfl⟩

theorem crefZero_congr {nodes nodes' : List (Option Elearn)} {a : Nat}
    (h : (nodes'.getD a none).map Elearn.cref = (nodes.getD a none).map Elearn.cref) :
    crefZero nodes' a = crefZero nodes a := by
  unfold crefZero
  cases h1 : nodes.getD a none <;> cases h2 : nodes'.getD a none <;> rw [h1, h2] at h <;>
    simp at h ⊢
  rw [h]

/-- The loop of `clean` on a chain: it deletes the leading nodes whose counter is 0 and
stops at the first other node. -/
theorem cleanLoop_spec : ∀ (ys : List Nat) (cur : Option Nat) (nodes : List (Option Elearn))
    (nbs fuel : Nat), isChain nodes cur ys = true → ys.Nodup → ys.length < fuel →
    ∃ nodes', cleanLoop fuel cur nodes nbs =
        some ((ys.dropWhile (crefZero nodes)).head?, nodes',
          nbs + (ys.takeWhile (crefZero nodes)).length) ∧
      isChain nodes' (ys.dropWhile (crefZero nodes)).head? (ys.dropWhile (crefZero nodes)) = true ∧
      (∀ a ∈ ys.takeWhile (crefZero nodes), nodes'.getD a none = none) ∧
      (∀ a, a ∉ ys.takeWhile (crefZero nodes) → nodes'.getD a none = nodes.getD a none) ∧
      nodes'.length = nodes.length
  | [], cur, nodes, nbs, fuel, h, _, _ => by
    rw [isChain_nil] at h
    subst h
    refine ⟨nodes, ?_, ?_, ?_, fun _ _ => rfl, rfl⟩
    · cases fuel <;> simp [cleanLoop]
    · simp [isChain]
    · simp
  | a :: ys, cur, nodes, nbs, 0, _, _, hf => by simp at hf
  | a :: ys, cur, nodes, nbs, fuel + 1, h, hnd, hf => by
    rw [isChain_cons] at h
    obtain ⟨h1, n, hn, h2⟩ := h
    subst h1
    have hnd' := List.nodup_cons.1 hnd
    by_cases hz : n.cref = 0
    · have hcz : crefZero nodes a = true := by
        unfold crefZero; rw [hn]; simp [hz]
      have hsame : ∀ x ∈ ys, crefZero (nodes.set a none) x = crefZero nodes x := by
        intro x hx
        apply crefZero_congr
        have : a ≠ x := fun c => hnd'.1 (c ▸ hx)
        rw [getD_set_ne' _ _ _ this]
      have hch : isChain (nodes.set a none) n.next ys = true := by
        refine isChain_congr ys _ ?_ h2
        intro x hx
        have : a ≠ x := fun c => hnd'.1 (c ▸ hx)
        rw [getD_set_ne' _ _ _ this]
      obtain ⟨nodes', e1, e2, e3, e4, e5⟩ := cleanLoop_spec ys n.next (nodes.set a none)
        (nbs + 1) fuel hch hnd'.2 (by simp at hf; omega)
      rw [dropWhile_congr' ys hsame, takeWhile_congr' ys hsame] at e1
      rw [dropWhile_congr' ys hsame] at e2
      rw [takeWhile_congr' ys hsame] at e3 e4
      refine ⟨nodes', ?_, ?_, ?_, ?_, ?_⟩
      · rw [cleanLoop]
        simp only [hn, hz, beq_self_eq_true, if_true]
        rw [e1, List.dropWhile_cons, List.takeWhile_cons, hcz]
        simp only [if_true, List.length_cons]
        congr 3
        omega
      · rw [List.dropWhile_cons, hcz]
        exact e2
      · intro x hx
        rw [List.takeWhile_cons, hcz] at hx
        simp only [if_true] at hx
        rcases List.mem_cons.1 hx with rfl | hx
        · have hnot : x ∉ ys.takeWhile (crefZero nodes) :=
            fun c => hnd'.1 ((List.takeWhile_sublist _).subset c)
          rw [e4 x hnot]
          exact getD_set_self' _ _ _ _ (lt_of_getD_some hn)
        · exact e3 x hx
      · intro x hx
        rw [List.takeWhile_cons, hcz] at hx
        simp only [if_true, List.mem_cons, not_or] at hx
        rw [e4 x hx.2, getD_set_ne' _ _ _ (Ne.symm hx.1)]
      · rw [e5]; simp
    · have hcz : crefZero nodes a = false := by
        unfold crefZero; rw [hn]; simp [hz]
      refine ⟨nodes, ?_, ?_, ?_, fun _ _ => rfl, rfl⟩
      · rw [cleanLoop]
        simp only [hn]
        rw [if_neg (by simpa using hz), List.dropWhile_cons, List.takeWhile_cons, hcz]
        simp
      · rw [List.dropWhile_cons, hcz]
        simp only [Bool.false_eq_true, if_false, List.head?_cons]
        rw [isChain_cons]
        exact ⟨rfl, n, hn, h2⟩
      · rw [List.takeWhile_cons, hcz]
        simp

theorem nodup_length_le : ∀ (n : Nat) (xs : List Nat), xs.Nodup → (∀ a ∈ xs, a < n) →
    xs.length ≤ n := by
  intro n xs hnd hlt
  have h1 : xs.toFinset ⊆ Finset.range n := by
    intro a ha
    rw [List.mem_toFinset] at ha
    exact Finset.mem_range.2 (hlt a ha)
  have h2 := Finset.card_le_card h1
  rw [List.toFinset_card_of_nodup hnd, Finset.card_range] at h2
  exact h2

theorem ListOK.length_le {nodes : List (Option Elearn)} {l : ListLearn} {xs : List Nat}
    (h : ListOK nodes l xs) : xs.length ≤ nodes.length :=
  nodup_length_le _ _ h.2.2 (fun _ ha => isChain_lt h.1 ha)

theorem getLast?_dropWhile {p : Nat → Bool} {xs : List Nat} (h : xs.dropWhile p ≠ []) :
    (xs.dropWhile p).getLast? = xs.getLast? := by
  conv_rhs => rw [← List.takeWhile_append_dropWhile p xs]
  rw [List.getLast?_append_of_ne_nil _ h]

/-- The method `clean` on a list that holds the nodes `xs`: the leading nodes whose counter
is 0 are deleted and counted, the other nodes stay. -/
theorem clean_spec {nodes : List (Option Elearn)} {l : ListLearn} {xs : List Nat}
    (hok : ListOK nodes l xs) :
    ∃ l' nodes', clean l nodes = some (l', nodes') ∧
      ListOK nodes' l' (xs.dropWhile (crefZero nodes)) ∧
      l'.sidx = l.sidx ∧ l'.nba = l.nba ∧
      l'.nbs = l.nbs + (xs.takeWhile (crefZero nodes)).length ∧
      (∀ a ∈ xs.takeWhile (crefZero nodes), nodes'.getD a none = none) ∧
      (∀ a, a ∉ xs.takeWhile (crefZero nodes) → nodes'.getD a none = nodes.getD a none) ∧
      nodes'.length = nodes.length := by
  obtain ⟨h1, h2, h3⟩ := hok
  cases hh : l.head with
  | none =>
    have hx : xs = [] := by
      have := isChain_head h1
      rw [hh] at this
      cases xs with
      | nil => rfl
      | cons a xs => simp at this
    subst hx
    refine ⟨l, nodes, ?_, ⟨?_, ?_, ?_⟩, rfl, rfl, by simp, by simp, fun _ _ => rfl, rfl⟩
    · unfold clean; rw [hh]
    · simpa using h1
    · simpa using h2
    · simp
  | some b =>
    obtain ⟨nodes', e1, e2, e3, e4, e5⟩ := cleanLoop_spec xs l.head nodes l.nbs
      (nodes.length + 1) h1 h3
      (Nat.lt_succ_of_le (ListOK.length_le ⟨h1, h2, h3⟩))
    refine ⟨{ l with nbs := l.nbs + (xs.takeWhile (crefZero nodes)).length,
                     tail := if (xs.dropWhile (crefZero nodes)).head?.isNone then none
                       else l.tail,
                     head := (xs.dropWhile (crefZero nodes)).head? },
      nodes', ?_, ⟨?_, ?_, ?_⟩, ?_, ?_, ?_, e3, e4, e5⟩
    · unfold clean
      rw [hh]
      dsimp only
      rw [← hh, e1]
    · exact e2
    · dsimp only
      cases hd : xs.dropWhile (crefZero nodes) with
      | nil => simp
      | cons c cs =>
        simp only [List.head?_cons, Option.isNone_some, Bool.false_eq_true, if_false]
        rw [h2, ← hd, getLast?_dropWhile (by rw [hd]; simp)]
    · exact List.Nodup.sublist (List.dropWhile_sublist _) h3
    · rfl
    · rfl
    · rfl

theorem getD_set_lists (L : List ListLearn) (id : Nat) (l : ListLearn) (h : id < L.length) :
    (L.set id l).getD id default = l ∧
    ∀ i, i ≠ id → (L.set id l).getD i default = L.getD i default :=
  ⟨getD_set_self' _ _ _ _ h, fun _ hi => getD_set_ne' _ _ _ (Ne.symm hi)⟩

/-- The effect of `push` on a well-formed list: the new node is linked behind the nodes
`xs`; when the reduction of the learnt clauses is due, `clean` then deletes the leading
nodes whose counter is 0. -/
theorem push_spec (sb : SharedBase) (learn : List Nat) (nblev id : Nat) (solver : Solver)
    (xs : List Nat) (hid : id < sb.Lists.length)
    (hok : ListOK sb.nodes (sb.Lists.getD id default) xs) :
    ∃ sb', push sb learn nblev id solver = some sb' ∧
      sb'.threads = sb.threads ∧ sb'.Lists.length = sb.Lists.length ∧
      sb'.nodes.length = sb.nodes.length + 1 ∧
      (∀ i, i ≠ id → sb'.Lists.getD i default = sb.Lists.getD i default) ∧
      (sb'.Lists.getD id default).sidx = (sb.Lists.getD id default).sidx ∧
      (sb'.Lists.getD id default).nba = (sb.Lists.getD id default).nba + 1 ∧
      (∀ a, a ∉ xs → a ≠ sb.nodes.length → sb'.nodes.getD a none = sb.nodes.getD a none) ∧
      (¬ solver.conflicts ≥ solver.curRestart * solver.nbclausesbeforereduce →
        ListOK sb'.nodes (sb'.Lists.getD id default) (xs ++ [sb.nodes.length]) ∧
        (sb'.Lists.getD id default).nbs = (sb.Lists.getD id default).nbs ∧
        sb'.nodes.getD sb.nodes.length none =
          some ⟨learn, nblev, none, (sb.threads + 2 ^ 32 - 2) % 2 ^ 32⟩ ∧
        (∀ a n, sb.nodes.getD a none = some n →
          ∃ n', sb'.nodes.getD a none = some n' ∧ n'.learn = n.learn ∧
            n'.nblevels = n.nblevels ∧ n'.cref = n.cref)) ∧
      (solver.conflicts ≥ solver.curRestart * solver.nbclausesbeforereduce →
        ListOK sb'.nodes (sb'.Lists.getD id default)
          ((xs ++ [sb.nodes.length]).dropWhile (crefZero (pushed sb learn nblev))) ∧
        (sb'.Lists.getD id default).nbs = (sb.Lists.getD id default).nbs +
          ((xs ++ [sb.nodes.length]).takeWhile (crefZero (pushed sb learn nblev))).length ∧
        (∀ a ∈ (xs ++ [sb.nodes.length]).takeWhile (crefZero (pushed sb learn nblev)),
          sb'.nodes.getD a none = none) ∧
        (∀ a n, a ∉ (xs ++ [sb.nodes.length]).takeWhile (crefZero (pushed sb learn nblev)) →
          (pushed sb learn nblev).getD a none = some n →
          ∃ n', sb'.nodes.getD a none = some n' ∧ n'.learn = n.learn ∧
            n'.nblevels = n.nblevels ∧ n'.cref = n.cref)) := by
  have hnew : (pushed sb learn nblev).getD sb.nodes.length none =
      some ⟨learn, nblev, none, (sb.threads + 2 ^ 32 - 2) % 2 ^ 32⟩ :=
    getD_append_length _ _ _
  have hold : ∀ a, a < sb.nodes.length →
      (pushed sb learn nblev).getD a none = sb.nodes.getD a none :=
    fun a ha => getD_append_left' _ _ _ ha
  have hne : sb.nodes.length ∉ xs := fun c => Nat.lt_irrefl _ (isChain_lt hok.1 c)
  have hok1 : ListOK (pushed sb learn nblev) (sb.Lists.getD id default) xs := by
    refine ⟨isChain_congr xs _ ?_ hok.1, hok.2.1, hok.2.2⟩
    intro a ha
    rw [hold a (isChain_lt hok.1 ha)]
  obtain ⟨l1, nodes2, e1, e2, e3, e4, e5, _, _, e6, e7, e8⟩ := append_spec hok1 hnew rfl hne
  have e1' : append sb.nodes.length (sb.Lists.getD id default)
      (sb.nodes ++ [some ⟨learn, nblev, none, (sb.threads + 2 ^ 32 - 2) % 2 ^ 32⟩]) =
      some (l1, nodes2) := e1
  have hlen2 : nodes2.length = sb.nodes.length + 1 := by
    rw [e6]; simp [pushed]
  by_cases hc : solver.conflicts ≥ solver.curRestart * solver.nbclausesbeforereduce
  · have hok2 : ListOK nodes2 { l1 with nba := l1.nba + 1 } (xs ++ [sb.nodes.length]) := e2
    obtain ⟨l3, nodes3, c1, c2, c3, c4, c5, c6, c7, c8⟩ := clean_spec hok2
    have hcz : ∀ a, crefZero nodes2 a = crefZero (pushed sb learn nblev) a := by
      intro a
      apply crefZero_congr
      cases hp : (pushed sb learn nblev).getD a none with
      | none =>
        have : a ∉ xs := by
          intro c
          obtain ⟨n, hn⟩ := isChain_live hok1.1 a c
          rw [hn] at hp
          exact Option.noConfusion hp
        rw [e7 a this, hp]
      | some n =>
        obtain ⟨n', h1, _, _, h4⟩ := e8 a n hp
        rw [h1]
        simp [h4]
    rw [dropWhile_congr' _ (fun a _ => hcz a)] at c2
    rw [takeWhile_congr' _ (fun a _ => hcz a)] at c5 c6 c7
    refine ⟨{ sb with Lists := sb.Lists.set id l3, nodes := nodes3 }, ?_, rfl, by simp, ?_, ?_,
      ?_, ?_, ?_, fun hn => absurd hc hn, fun _ => ⟨?_, ?_, ?_, ?_⟩⟩
    · unfold push
      rw [if_pos hid]
      dsimp only
      rw [e1']
      dsimp only
      rw [if_pos hc, c1]
    · show nodes3.length = _
      rw [c8, hlen2]
    · intro i hi
      exact (getD_set_lists _ _ _ hid).2 i hi
    · rw [(getD_set_lists _ _ _ hid).1, c3]
      exact e3
    · rw [(getD_set_lists _ _ _ hid).1, c4]
      show l1.nba + 1 = _
      rw [e4]
    · intro a ha1 ha2
      show nodes3.getD a none = _
      have hnot : a ∉ xs ++ [sb.nodes.length] := by
        simp only [List.mem_append, List.mem_singleton, not_or]
        exact ⟨ha1, ha2⟩
      rw [c7 a (fun c => hnot ((List.takeWhile_sublist _).subset c)), e7 a ha1]
      by_cases hlt : a < sb.nodes.length
      · exact hold a hlt
      · rw [List.getD_eq_default _ _ (by simp [pushed]; omega),
          List.getD_eq_default _ _ (by omega)]
    · rw [(getD_set_lists _ _ _ hid).1]
      exact c2
    · rw [(getD_set_lists _ _ _ hid).1, c5]
      show l1.nbs + _ = _
      rw [e5]
    · exact c6
    · intro a n ha hn
      obtain ⟨n', h1, h2, h3, h4⟩ := e8 a n hn
      exact ⟨n', by show nodes3.getD a none = _; rw [c7 a ha]; exact h1, h2, h3, h4⟩
  · refine ⟨{ sb with Lists := sb.Lists.set id { l1 with nba := l1.nba + 1 }, nodes := nodes2 },
      ?_, rfl, by simp, hlen2, ?_, ?_, ?_, ?_, fun _ => ⟨?_, ?_, ?_, ?_⟩, fun h => absurd h hc⟩
    · unfold push
      rw [if_pos hid]
      dsimp only
      rw [e1']
      dsimp only
      rw [if_neg hc]
    · intro i hi
      exact (getD_set_lists _ _ _ hid).2 i hi
    · rw [(getD_set_lists _ _ _ hid).1]
      exact e3
    · rw [(getD_set_lists _ _ _ hid).1]
      show l1.nba + 1 = _
      rw [e4]
    · intro a ha1 ha2
      show nodes2.getD a none = _
      rw [e7 a ha1]
      by_cases hlt : a < sb.nodes.length
      · exact hold a hlt
      · rw [List.getD_eq_default _ _ (by simp [pushed]; omega),
          List.getD_eq_default _ _ (by omega)]
    · rw [(getD_set_lists _ _ _ hid).1]
      exact e2
    · rw [(getD_set_lists _ _ _ hid).1]
      exact e5
    · show nodes2.getD sb.nodes.length none = _
      rw [e7 _ hne]
      exact hnew
    · intro a n hn
      have := lt_of_getD_some hn
      obtain ⟨n', h1, h2, h3, h4⟩ := e8 a n (by rw [hold a this]; exact hn)
      exact ⟨n', h1, h2, h3, h4⟩

/-! ## The loop of `update` over one list -/

theorem decNode_next (n : Elearn) : (decNode n).next = n.next := by
  unfold decNode
  rfl

theorem decNode_learn (n : Elearn) : (decNode n).learn = n.learn := by
  unfold decNode
  rfl

theorem decNode_nblevels (n : Elearn) : (decNode n).nblevels = n.nblevels := by
  unfold decNode
  rfl

theorem decNode_cref (n : Elearn) : (decNode n).cref = (n.cref + 2 ^ 32 - 1) % 2 ^ 32 := by
  unfold decNode
  rfl

theorem decCref_self {nodes : List (Option Elearn)} {a : Nat} :
    (decCref nodes a).getD a none = (nodes.getD a none).map decNode := by
  unfold decCref
  cases h : nodes.getD a none with
  | none => exact h
  | some n =>
    simp only [Option.map_some']
    exact getD_set_self' _ _ _ _ (lt_of_getD_some h)

theorem decCref_other {nodes : List (Option Elearn)} {a b : Nat} (h : a ≠ b) :
    (decCref nodes a).getD b none = nodes.getD b none := by
  unfold decCref
  cases nodes.getD a none with
  | none => rfl
  | some n => exact getD_set_ne' _ _ _ h

theorem decCref_length (nodes : List (Option Elearn)) (a : Nat) :
    (decCref nodes a).length = nodes.length := by
  unfold decCref
  cases nodes.getD a none with
  | none => rfl
  | some n => simp

theorem decCref_next (nodes : List (Option Elearn)) (a b : Nat) :
    ((decCref nodes a).getD b none).map Elearn.next = (nodes.getD b none).map Elearn.next := by
  by_cases h : a = b
  · subst h
    rw [decCref_self]
    cases nodes.getD a none with
    | none => rfl
    | some n =>
      simp only [Option.map_some']
      rw [decNode_next]
  · rw [decCref_other h]

theorem list_set_set {α : Type} : ∀ (l : List α) (i : Nat) (a b : α),
    (l.set i a).set i b = l.set i b
  | [], _, _, _ => rfl
  | _ :: _, 0, _, _ => rfl
  | x :: l, i + 1, a, b => by
    simp only [List.set_cons_succ]
    rw [list_set_set l i a b]

theorem importAll_congr {nodes nodes' : List (Option Elearn)} : ∀ (ys : List Nat)
    (solver : Solver), (∀ b ∈ ys, nodes'.getD b none = nodes.getD b none) →
    importAll nodes' ys solver = importAll nodes ys solver
  | [], _, _ => rfl
  | a :: ys, solver, h => by
    unfold importAll
    simp only [List.foldl_cons]
    rw [h a (List.mem_cons_self _ _)]
    exact importAll_congr ys _ (fun b hb => h b (List.mem_cons_of_mem _ hb))

theorem importAll_cons (nodes : List (Option Elearn)) (a : Nat) (ys : List Nat)
    (solver : Solver) (n : Elearn) (h : nodes.getD a none = some n) :
    importAll nodes (a :: ys) solver = importAll nodes ys (importNode solver n.learn n.nblevels) := by
  unfold importAll
  simp only [List.foldl_cons, h]

theorem importAll_append (nodes : List (Option Elearn)) (xs ys : List Nat) (solver : Solver) :
    importAll nodes (xs ++ ys) solver = importAll nodes ys (importAll nodes xs solver) := by
  unfold importAll
  rw [List.foldl_append]

/-- The loop `while (j)` of `update` on a chain `ys`: every node is imported, the cursor ends
on the last node and the counter of every node but the last is decremented. -/
theorem consumeLoop_spec (id : Nat) : ∀ (ys : List Nat) (j : Option Nat) (l : ListLearn)
    (nodes : List (Option Elearn)) (solver : Solver) (fuel : Nat),
    isChain nodes j ys = true → ys.Nodup → ys.length < fuel →
    ∃ nodes', consumeLoop id fuel j l nodes solver =
        some ({ l with sidx := if ys = [] then l.sidx else l.sidx.set id ys.getLast? }, nodes',
          importAll nodes ys solver) ∧
      (∀ b ∈ ys.dropLast, nodes'.getD b none = (nodes.getD b none).map decNode) ∧
      (∀ b, b ∉ ys.dropLast → nodes'.getD b none = nodes.getD b none) ∧
      nodes'.length = nodes.length
  | [], j, l, nodes, solver, fuel, h, _, _ => by
    rw [isChain_nil] at h
    subst h
    refine ⟨nodes, ?_, by simp, fun _ _ => rfl, rfl⟩
    cases fuel <;> simp [consumeLoop, importAll]
  | a :: ys, j, l, nodes, solver, 0, _, _, hf => by simp at hf
  | a :: ys, j, l, nodes, solver, fuel + 1, h, hnd, hf => by
    rw [isChain_cons] at h
    obtain ⟨h1, n, hn, h2⟩ := h
    subst h1
    have hnd' := List.nodup_cons.1 hnd
    have hnext : n.next = ys.head? := isChain_head h2
    have hne : ∀ b ∈ ys, a ≠ b := fun b hb c => hnd'.1 (c ▸ hb)
    have hch : isChain (if n.next.isSome = true then decCref nodes a else nodes) n.next ys
        = true := by
      refine isChain_congr ys _ ?_ h2
      intro b _
      split
      · exact decCref_next nodes a b
      · rfl
    obtain ⟨nodes', e1, e2, e3, e4⟩ := consumeLoop_spec id ys n.next
      { l with sidx := l.sidx.set id (some a) }
      (if n.next.isSome = true then decCref nodes a else nodes)
      (importNode solver n.learn n.nblevels) fuel hch hnd'.2 (by simp at hf; omega)
    have himp : importAll (if n.next.isSome = true then decCref nodes a else nodes) ys
        (importNode solver n.learn n.nblevels) = importAll nodes (a :: ys) solver := by
      rw [importAll_cons nodes a ys solver n hn]
      apply importAll_congr
      intro b hb
      split
      · exact decCref_other (hne b hb)
      · rfl
    refine ⟨nodes', ?_, ?_, ?_, ?_⟩
    · rw [consumeLoop]
      simp only [hn]
      rw [e1, himp]
      congr 3
      cases ys with
      | nil => simp
      | cons c cs =>
        simp only [List.cons_ne_nil, if_false, reduceCtorEq]
        rw [list_set_set]
        simp [List.getLast?_cons_cons]
    · intro b hb
      cases ys with
      | nil => simp at hb
      | cons c cs =>
        rw [List.dropLast_cons₂] at hb
        have hsome : n.next.isSome = true := by rw [hnext]; rfl
        rw [if_pos hsome] at e2 e3
        rcases List.mem_cons.1 hb with rfl | hb
        · have hnot : b ∉ (c :: cs).dropLast :=
            fun x => hnd'.1 ((List.dropLast_sublist _).subset x)
          rw [e3 b hnot, decCref_self]
        · rw [e2 b hb, decCref_other (hne b ((List.dropLast_sublist _).subset hb))]
    · intro b hb
      cases ys with
      | nil =>
        have hnone : n.next.isSome = false := by rw [hnext]; rfl
        rw [hnone] at e3
        exact e3 b (by simp)
      | cons c cs =>
        rw [List.dropLast_cons₂, List.mem_cons, not_or] at hb
        have hsome : n.next.isSome = true := by rw [hnext]; rfl
        rw [if_pos hsome] at e3
        rw [e3 b hb.2, decCref_other (Ne.symm hb.1)]
    · rw [e4]
      split
      · exact decCref_length _ _
      · rfl

/-- A node of a list without repetition splits the list at its position. -/
theorem split_at_mem : ∀ {xs : List Nat} {a : Nat}, a ∈ xs →
    ∃ pre post, xs = pre ++ a :: post ∧ xs.indexOf a = pre.length ∧ a ∉ pre
  | [], a, h => by simp at h
  | b :: xs, a, h => by
    by_cases hab : b = a
    · subst hab
      exact ⟨[], xs, rfl, by simp, by simp⟩
    · have hm : a ∈ xs := by
        rcases List.mem_cons.1 h with h | h
        · exact absurd h.symm hab
        · exact h
      obtain ⟨pre, post, e1, e2, e3⟩ := split_at_mem hm
      refine ⟨b :: pre, post, by rw [e1]; rfl, ?_, ?_⟩
      · rw [List.indexOf_cons_ne _ hab, e2]; rfl
      · simp only [List.mem_cons, not_or]
        exact ⟨fun c => hab c.symm, e3⟩

theorem isChain_split {nodes : List (Option Elearn)} : ∀ (pre : List Nat) {start : Option Nat}
    {a : Nat} {post : List Nat}, isChain nodes start (pre ++ a :: post) = true →
    ∃ n, nodes.getD a none = some n ∧ isChain nodes n.next post = true
  | [], start, a, post, h => by
    simp only [List.nil_append] at h
    rw [isChain_cons] at h
    obtain ⟨_, n, hn, h2⟩ := h
    exact ⟨n, hn, h2⟩
  | b :: pre, start, a, post, h => by
    simp only [List.cons_append] at h
    rw [isChain_cons] at h
    obtain ⟨_, n, _, h2⟩ := h
    exact isChain_split pre h2

theorem getLast?_append_cons (pre : List Nat) (a : Nat) (post : List Nat) :
    (pre ++ a :: post).getLast? = (a :: post).getLast? :=
  List.getLast?_append_of_ne_nil _ (by simp)

theorem getLast?_cons_ne_nil (a : Nat) {post : List Nat} (h : post ≠ []) :
    (a :: post).getLast? = post.getLast? := by
  cases post with
  | nil => exact absurd rfl h
  | cons b bs => rw [List.getLast?_cons_cons]

theorem set_getD_none {l : List (Option Nat)} {i : Nat} {v : Option Nat}
    (h : l.getD i none = v) (hi : i < l.length) : l.set i v = l := by
  rw [← h]
  exact set_getD_same none l i hi

/-- One round of the loop of `update`: on the list `i`, the thread `id` imports the nodes it
has not consumed, its cursor ends on the last node of the list and the counter of every
node from its old cursor to the last but one is decremented. -/
theorem updateList_spec {sb : SharedBase} {ch : Nat → List Nat} (hex : ExOK sb ch)
    {id i : Nat} (hid : id < sb.threads) (hi : i < sb.threads) (solver : Solver) :
    ∃ nodes', updateList sb id i solver =
        some ({ sb with
                Lists := sb.Lists.set i
                  { sb.Lists.getD i default with
                    sidx := (sb.Lists.getD i default).sidx.set id (ch i).getLast? },
                nodes := nodes' },
              importAll sb.nodes
                (pending (ch i) ((sb.Lists.getD i default).sidx.getD id none)) solver) ∧
      (∀ b ∈ ((ch i).drop (cursorIdx (ch i)
          ((sb.Lists.getD i default).sidx.getD id none))).dropLast,
        nodes'.getD b none = (sb.nodes.getD b none).map decNode) ∧
      (∀ b, b ∉ ((ch i).drop (cursorIdx (ch i)
          ((sb.Lists.getD i default).sidx.getD id none))).dropLast →
        nodes'.getD b none = sb.nodes.getD b none) ∧
      nodes'.length = sb.nodes.length := by
  have hil : i < sb.Lists.length := by rw [hex.lists_len]; exact hi
  have hsl := hex.sidx_len i hi
  obtain ⟨hc1, hc2, hc3⟩ := hex.chain i hi
  cases hcur : (sb.Lists.getD i default).sidx.getD id none with
  | none =>
    obtain ⟨nodes', e1, e2, e3, e4⟩ := consumeLoop_spec id (ch i) (sb.Lists.getD i default).head
      { sb.Lists.getD i default with
        sidx := (sb.Lists.getD i default).sidx.set id (sb.Lists.getD i default).head }
      sb.nodes solver (sb.nodes.length + 1) hc1 hc3
      (Nat.lt_succ_of_le (ListOK.length_le ⟨hc1, hc2, hc3⟩))
    refine ⟨nodes', ?_, ?_, ?_, e4⟩
    · unfold updateList
      rw [if_pos hil]
      dsimp only
      rw [if_pos (by rw [hsl]; exact hid), hcur]
      dsimp only
      rw [e1]
      dsimp only
      congr 3
      cases hx : ch i with
      | nil =>
        have hh : (sb.Lists.getD i default).head = none := by
          have := isChain_head hc1
          rw [hx] at this
          exact this
        simp only [if_true, hh, List.getLast?_nil]
      | cons c cs =>
        simp only [List.cons_ne_nil, if_false, reduceCtorEq]
        rw [list_set_set]
    · simpa [cursorIdx] using e2
    · simpa [cursorIdx] using e3
  | some a =>
    have hmem := hex.cursor i hi id hid a hcur
    obtain ⟨pre, post, hx, hidx, hpre⟩ := split_at_mem hmem
    rw [hx] at hc1 hc3
    obtain ⟨n, hn, hch⟩ := isChain_split pre hc1
    have hnd2 : (a :: post).Nodup := (List.nodup_append.1 hc3).2.1
    have hapost : a ∉ post := (List.nodup_cons.1 hnd2).1
    have hnext : n.next = post.head? := isChain_head hch
    have hdrop1 : (ch i).drop ((ch i).indexOf a + 1) = post := by
      rw [hidx, hx]
      simp
    have hdrop0 : (ch i).drop ((ch i).indexOf a) = a :: post := by
      rw [hidx, hx]
      simp
    have hch' : isChain (if n.next.isSome = true then decCref sb.nodes a else sb.nodes) n.next
        post = true := by
      refine isChain_congr post _ ?_ hch
      intro b _
      split
      · exact decCref_next _ _ _
      · rfl
    have hlen1 : (if n.next.isSome = true then decCref sb.nodes a else sb.nodes).length =
        sb.nodes.length := by
      split
      · exact decCref_length _ _
      · rfl
    have hpl : post.length < (if n.next.isSome = true then decCref sb.nodes a
        else sb.nodes).length + 1 := by
      rw [hlen1]
      have := ListOK.length_le (hex.chain i hi)
      rw [hx] at this
      simp only [List.length_append, List.length_cons] at this
      omega
    obtain ⟨nodes', e1, e2, e3, e4⟩ := consumeLoop_spec id post n.next (sb.Lists.getD i default)
      (if n.next.isSome = true then decCref sb.nodes a else sb.nodes) solver _ hch'
      (List.nodup_cons.1 hnd2).2 hpl
    refine ⟨nodes', ?_, ?_, ?_, by rw [e4, hlen1]⟩
    · unfold updateList
      rw [if_pos hil]
      dsimp only
      rw [if_pos (by rw [hsl]; exact hid), hcur]
      dsimp only
      rw [hn]
      dsimp only
      rw [e1]
      dsimp only
      unfold pending
      dsimp only
      rw [hdrop1]
      congr 2
      · congr 3
        rw [hx, getLast?_append_cons]
        cases hp : post with
        | nil =>
          simp only [if_true, List.getLast?_singleton]
          exact (set_getD_none hcur (by rw [hsl]; exact hid)).symm
        | cons c cs =>
          simp only [List.cons_ne_nil, if_false, reduceCtorEq]
          rw [getLast?_cons_ne_nil a (by simp)]
      · apply importAll_congr
        intro b hb
        split
        · exact decCref_other (fun c => hapost (c ▸ hb))
        · rfl
    · intro b hb
      unfold cursorIdx at hb
      dsimp only at hb
      rw [hdrop0] at hb
      cases hp : post with
      | nil => rw [hp] at hb; simp at hb
      | cons c cs =>
        rw [hp, List.dropLast_cons₂] at hb
        have hsome : n.next.isSome = true := by rw [hnext, hp]; rfl
        rw [if_pos hsome] at e2 e3
        rw [hp] at e2 e3 hapost
        rcases List.mem_cons.1 hb with rfl | hb
        · have hnot : b ∉ (c :: cs).dropLast :=
            fun x => hapost ((List.dropLast_sublist _).subset x)
          rw [e3 b hnot, decCref_self]
        · rw [e2 b hb, decCref_other]
          exact fun x => hapost (x ▸ (List.dropLast_sublist _).subset hb)
    · intro b hb
      unfold cursorIdx at hb
      dsimp only at hb
      rw [hdrop0] at hb
      cases hp : post with
      | nil =>
        have hnone : n.next.isSome = false := by rw [hnext, hp]; rfl
        rw [hnone, hp] at e3
        exact e3 b (by simp)
      | cons c cs =>
        rw [hp, List.dropLast_cons₂, List.mem_cons, not_or] at hb
        have hsome : n.next.isSome = true := by rw [hnext, hp]; rfl
        rw [if_pos hsome, hp] at e3
        rw [e3 b hb.2, decCref_other (Ne.symm hb.1)]

/-! ## The method `update` -/

theorem crefOnly_refl (nodes : List (Option Elearn)) : CrefOnly nodes nodes :=
  ⟨rfl, fun _ => rfl⟩

theorem crefOnly_trans {a b c : List (Option Elearn)} (h1 : CrefOnly a b) (h2 : CrefOnly b c) :
    CrefOnly a c :=
  ⟨h2.1.trans h1.1, fun x => (h2.2 x).trans (h1.2 x)⟩

theorem crefOnly_next {nodes nodes' : List (Option Elearn)} (h : CrefOnly nodes nodes')
    (b : Nat) : (nodes'.getD b none).map Elearn.next = (nodes.getD b none).map Elearn.next := by
  have := h.2 b
  cases h1 : nodes.getD b none <;> cases h2 : nodes'.getD b none <;> rw [h1, h2] at this <;>
    simp at this ⊢
  exact this.2.2

theorem crefOnly_live {nodes nodes' : List (Option Elearn)} (h : CrefOnly nodes nodes')
    {b : Nat} {n : Elearn} (hn : nodes.getD b none = some n) :
    ∃ n', nodes'.getD b none = some n' ∧ n'.learn = n.learn ∧ n'.nblevels = n.nblevels ∧
      n'.next = n.next := by
  have := h.2 b
  rw [hn] at this
  cases h2 : nodes'.getD b none with
  | none => rw [h2] at this; simp at this
  | some n' =>
    rw [h2] at this
    simp only [Option.map_some', Option.some.injEq, Prod.mk.injEq] at this
    exact ⟨n', rfl, this.1, this.2.1, this.2.2⟩

theorem crefOnly_of_dec {nodes nodes' : List (Option Elearn)} {D : List Nat}
    (h1 : ∀ b ∈ D, nodes'.getD b none = (nodes.getD b none).map decNode)
    (h2 : ∀ b, b ∉ D → nodes'.getD b none = nodes.getD b none)
    (h3 : nodes'.length = nodes.length) : CrefOnly nodes nodes' := by
  refine ⟨h3, fun b => ?_⟩
  by_cases hb : b ∈ D
  · rw [h1 b hb]
    cases nodes.getD b none with
    | none => rfl
    | some n =>
      simp only [Option.map_some']
      rw [decNode_learn, decNode_nblevels, decNode_next]
  · rw [h2 b hb]

theorem importAll_crefOnly {nodes nodes' : List (Option Elearn)} (h : CrefOnly nodes nodes') :
    ∀ (ys : List Nat) (solver : Solver), importAll nodes' ys solver = importAll nodes ys solver
  | [], _ => rfl
  | a :: ys, solver => by
    unfold importAll
    simp only [List.foldl_cons]
    have := h.2 a
    cases h1 : nodes.getD a none with
    | none =>
      cases h2 : nodes'.getD a none with
      | none => exact importAll_crefOnly h ys solver
      | some n' => rw [h1, h2] at this; simp at this
    | some n =>
      obtain ⟨n', e1, e2, e3, _⟩ := crefOnly_live h h1
      rw [e1]
      simp only
      rw [e2, e3]
      exact importAll_crefOnly h ys _

theorem importFrom_congr {sb sb' : SharedBase} (ch : Nat → List Nat) (id : Nat)
    (hn : CrefOnly sb.nodes sb'.nodes) : ∀ (n i : Nat) (solver : Solver),
    (∀ j, i ≤ j → sb'.Lists.getD j default = sb.Lists.getD j default) →
    importFrom sb' ch id n i solver = importFrom sb ch id n i solver
  | 0, _, _, _ => rfl
  | n + 1, i, solver, h => by
    unfold importFrom
    split
    · exact importFrom_congr ch id hn n (i + 1) solver (fun j hj => h j (by omega))
    · rw [h i (Nat.le_refl _), importAll_crefOnly hn]
      exact importFrom_congr ch id hn n (i + 1) _ (fun j hj => h j (by omega))

theorem decList_subset (sb : SharedBase) (ch : Nat → List Nat) (id j : Nat) {b : Nat}
    (h : b ∈ decList sb ch id j) : b ∈ ch j := by
  unfold decList at h
  exact List.mem_of_mem_drop ((List.dropLast_sublist _).subset h)

theorem getLast?_mem {xs : List Nat} {a : Nat} (h : xs.getLast? = some a) : a ∈ xs :=
  List.mem_of_getLast?_eq_some h

/-- The exchange stays well formed when a thread moves its cursor of the list `i` to the
last node and counters change. -/
theorem exOK_updateList {sb : SharedBase} {ch : Nat → List Nat} (hex : ExOK sb ch)
    (id : Nat) {i : Nat} (hi : i < sb.threads) {nodes' : List (Option Elearn)}
    (hn : CrefOnly sb.nodes nodes') :
    ExOK { sb with
           Lists := sb.Lists.set i
             { sb.Lists.getD i default with
               sidx := (sb.Lists.getD i default).sidx.set id (ch i).getLast? },
           nodes := nodes' } ch := by
  have hil : i < sb.Lists.length := by rw [hex.lists_len]; exact hi
  have hget := getD_set_lists sb.Lists i
    { sb.Lists.getD i default with
      sidx := (sb.Lists.getD i default).sidx.set id (ch i).getLast? } hil
  refine ⟨?_, ?_, ?_, hex.disjoint, ?_⟩
  · show (sb.Lists.set i _).length = sb.threads
    rw [List.length_set]; exact hex.lists_len
  · intro j hj
    show ((sb.Lists.set i _).getD j default).sidx.length = sb.threads
    by_cases hji : j = i
    · subst hji
      rw [hget.1]
      simp only [List.length_set]
      exact hex.sidx_len j hj
    · rw [hget.2 j hji]
      exact hex.sidx_len j hj
  · intro j hj
    obtain ⟨c1, c2, c3⟩ := hex.chain j hj
    show ListOK nodes' ((sb.Lists.set i _).getD j default) (ch j)
    have hch : ∀ start, isChain sb.nodes start (ch j) = true →
        isChain nodes' start (ch j) = true :=
      fun start h => isChain_congr (ch j) start (fun b _ => crefOnly_next hn b) h
    by_cases hji : j = i
    · subst hji
      rw [hget.1]
      exact ⟨hch _ c1, c2, c3⟩
    · rw [hget.2 j hji]
      exact ⟨hch _ c1, c2, c3⟩
  · intro j hj c hc a ha
    have ha' : ((sb.Lists.set i { sb.Lists.getD i default with
        sidx := (sb.Lists.getD i default).sidx.set id (ch i).getLast? }).getD j default).sidx.getD
        c none = some a := ha
    by_cases hji : j = i
    · subst hji
      rw [hget.1] at ha'
      dsimp only at ha'
      by_cases hcid : id = c
      · subst hcid
        rw [getD_set_self' _ _ _ _ (by rw [hex.sidx_len j hj]; exact hc)] at ha'
        exact getLast?_mem ha'
      · rw [getD_set_ne' _ _ _ hcid] at ha'
        exact hex.cursor j hj c hc a ha'
    · rw [hget.2 j hji] at ha'
      exact hex.cursor j hj c hc a ha'

theorem decList_congr {sb sb' : SharedBase} (ch : Nat → List Nat) (id j : Nat)
    (h : sb'.Lists.getD j default = sb.Lists.getD j default) :
    decList sb' ch id j = decList sb ch id j := by
  unfold decList
  rw [h]

/-- The loop of `update` over the lists `i, ..., i + n - 1`: the solver imports what it has
not consumed, list after list; in every list read the cursor of the thread ends on the
last node and the counters of the nodes it leaves behind are decremented. -/
theorem updateFrom_spec (id : Nat) (ch : Nat → List Nat) : ∀ (n i : Nat) (sb : SharedBase)
    (solver : Solver), ExOK sb ch → id < sb.threads → i + n ≤ sb.threads →
    ∃ sb', updateFrom id n i sb solver = some (sb', importFrom sb ch id n i solver) ∧
      ExOK sb' ch ∧ sb'.threads = sb.threads ∧ CrefOnly sb.nodes sb'.nodes ∧
      (∀ j, (j < i ∨ i + n ≤ j ∨ j = id) →
        sb'.Lists.getD j default = sb.Lists.getD j default) ∧
      (∀ j, i ≤ j → j < i + n → j ≠ id →
        sb'.Lists.getD j default =
          { sb.Lists.getD j default with
            sidx := (sb.Lists.getD j default).sidx.set id (ch j).getLast? }) ∧
      (∀ j, i ≤ j → j < i + n → j ≠ id → ∀ b ∈ decList sb ch id j,
        sb'.nodes.getD b none = (sb.nodes.getD b none).map decNode) ∧
      (∀ b, (∀ j, i ≤ j → j < i + n → j ≠ id → b ∉ decList sb ch id j) →
        sb'.nodes.getD b none = sb.nodes.getD b none)
  | 0, i, sb, solver, hex, _, _ =>
    ⟨sb, rfl, hex, rfl, crefOnly_refl _, fun _ _ => rfl, fun j h1 h2 _ => by omega,
     fun j h1 h2 _ => by omega, fun _ _ => rfl⟩
  | n + 1, i, sb, solver, hex, hid, hin => by
    by_cases hii : id = i
    · subst hii
      obtain ⟨sb', e1, e2, e3, e4, e5, e6, e7, e8⟩ :=
        updateFrom_spec id ch n (id + 1) sb solver hex hid (by omega)
      refine ⟨sb', ?_, e2, e3, e4, ?_, ?_, ?_, ?_⟩
      · rw [updateFrom, importFrom]
        simp only [beq_self_eq_true, if_true]
        exact e1
      · intro j hj
        apply e5
        rcases hj with hj | hj | hj
        · exact Or.inl (by omega)
        · exact Or.inr (Or.inl (by omega))
        · exact Or.inr (Or.inr hj)
      · intro j h1 h2 h3
        exact e6 j (by omega) (by omega) h3
      · intro j h1 h2 h3
        exact e7 j (by omega) (by omega) h3
      · intro b hb
        exact e8 b (fun j h1 h2 h3 => hb j (by omega) (by omega) h3)
    · have hi : i < sb.threads := by omega
      have hil : i < sb.Lists.length := by rw [hex.lists_len]; exact hi
      obtain ⟨nodes1, u1, u2, u3, u4⟩ := updateList_spec hex hid hi solver
      have hcr : CrefOnly sb.nodes nodes1 := crefOnly_of_dec u2 u3 u4
      have hex1 := exOK_updateList hex id hi hcr
      have hget := getD_set_lists sb.Lists i
        { sb.Lists.getD i default with
          sidx := (sb.Lists.getD i default).sidx.set id (ch i).getLast? } hil
      obtain ⟨sb', e1, e2, e3, e4, e5, e6, e7, e8⟩ :=
        updateFrom_spec id ch n (i + 1) _
          (importAll sb.nodes (pending (ch i) ((sb.Lists.getD i default).sidx.getD id none))
            solver) hex1 hid (by show i + 1 + n ≤ sb.threads; omega)
      have hdl : ∀ j, j ≠ i → decList { sb with
          Lists := sb.Lists.set i
            { sb.Lists.getD i default with
              sidx := (sb.Lists.getD i default).sidx.set id (ch i).getLast? },
          nodes := nodes1 } ch id j = decList sb ch id j :=
        fun j hj => decList_congr ch id j (hget.2 j hj)
      have hdisj : ∀ j, j < sb.threads → j ≠ i → ∀ b, b ∈ decList sb ch id i →
          b ∉ decList sb ch id j := by
        intro j hj hji b hb c
        exact hex.disjoint i hi j hj (Ne.symm hji) b (decList_subset _ _ _ _ hb)
          (decList_subset _ _ _ _ c)
      refine ⟨sb', ?_, e2, e3, crefOnly_trans hcr e4, ?_, ?_, ?_, ?_⟩
      · rw [updateFrom, importFrom]
        have hne : (id == i) = false := by simpa using hii
        simp only [hne, Bool.false_eq_true, if_false]
        rw [u1]
        dsimp only
        rw [e1]
        congr 2
        exact importFrom_congr ch id hcr n (i + 1) _ (fun j hj => hget.2 j (by omega))
      · intro j hj
        have hji : j ≠ i := by
          rcases hj with hj | hj | hj
          · omega
          · omega
          · rw [hj]; exact hii
        rw [e5 j (by
          rcases hj with hj | hj | hj
          · exact Or.inl (by omega)
          · exact Or.inr (Or.inl (by omega))
          · exact Or.inr (Or.inr hj))]
        exact hget.2 j hji
      · intro j h1 h2 h3
        by_cases hji : j = i
        · subst hji
          rw [e5 j (Or.inl (by omega))]
          exact hget.1
        · rw [e6 j (by omega) (by omega) h3]
          show ({ (sb.Lists.set i _).getD j default with
            sidx := ((sb.Lists.set i _).getD j default).sidx.set id (ch j).getLast? } :
              ListLearn) = _
          rw [hget.2 j hji]
      · intro j h1 h2 h3 b hb
        by_cases hji : j = i
        · subst hji
          rw [e8 b ?_]
          · exact u2 b hb
          · intro j' g1 g2 g3
            rw [hdl j' (by omega)]
            exact hdisj j' (by omega) (by omega) b hb
        · rw [← hdl j hji] at hb
          rw [e7 j (by omega) (by omega) h3 b hb]
          rw [hdl j hji] at hb
          show (nodes1.getD b none).map decNode = _
          rw [u3 b (fun c => hdisj j (by omega) hji b c hb)]
      · intro b hb
        rw [e8 b ?_]
        · exact u3 b (hb i (Nat.le_refl _) (by omega) (Ne.symm hii))
        · intro j' g1 g2 g3
          rw [hdl j' (by omega)]
          exact hb j' (by omega) (by omega) g3

/-- The method `update` of the thread `id` on a well-formed exchange. -/
theorem update_spec {sb : SharedBase} {ch : Nat → List Nat} (hex : ExOK sb ch) {id : Nat}
    (hid : id < sb.threads) (solver : Solver) :
    ∃ sb', update sb id solver = some (sb', importFrom sb ch id (sb.threads - 1) 1 solver) ∧
      ExOK sb' ch ∧ sb'.threads = sb.threads ∧ CrefOnly sb.nodes sb'.nodes ∧
      (∀ j, (j < 1 ∨ sb.threads ≤ j ∨ j = id) →
        sb'.Lists.getD j default = sb.Lists.getD j default) ∧
      (∀ j, 1 ≤ j → j < sb.threads → j ≠ id →
        sb'.Lists.getD j default =
          { sb.Lists.getD j default with
            sidx := (sb.Lists.getD j default).sidx.set id (ch j).getLast? }) ∧
      (∀ j, 1 ≤ j → j < sb.threads → j ≠ id → ∀ b ∈ decList sb ch id j,
        sb'.nodes.getD b none = (sb.nodes.getD b none).map decNode) ∧
      (∀ b, (∀ j, 1 ≤ j → j < sb.threads → j ≠ id → b ∉ decList sb ch id j) →
        sb'.nodes.getD b none = sb.nodes.getD b none) := by
  have h1 : 1 + (sb.threads - 1) = sb.threads := by omega
  obtain ⟨sb', e1, e2, e3, e4, e5, e6, e7, e8⟩ :=
    updateFrom_spec id ch (sb.threads - 1) 1 sb solver hex hid (by omega)
  rw [h1] at e5 e6 e7 e8
  exact ⟨sb', e1, e2, e3, e4, e5, e6, e7, e8⟩

/-! ## What `update` leaves in the solver -/

theorem modify_lits (ca : ClauseAllocator) (cr : Nat) (f : Clause → Clause)
    (hf : ∀ c, (f c).lits = c.lits) (x : Nat) :
    ((ca.modify cr f).get x).lits = (ca.get x).lits := by
  unfold ClauseAllocator.modify ClauseAllocator.get
  dsimp only
  by_cases hx : cr = x
  · subst hx
    by_cases hl : cr < ca.mem.length
    · rw [getD_set_self' _ _ _ _ hl]
      exact hf _
    · rw [List.set_eq_of_length_le (by omega)]
  · rw [getD_set_ne' _ _ _ hx]

theorem foldl_modify_lits (f : Clause → Clause) (hf : ∀ c, (f c).lits = c.lits) :
    ∀ (ls : List Nat) (ca : ClauseAllocator),
    (ls.foldl (fun ca l => ca.modify l f) ca).mem.length = ca.mem.length ∧
    ∀ x, ((ls.foldl (fun ca l => ca.modify l f) ca).get x).lits = (ca.get x).lits
  | [], _ => ⟨rfl, fun _ => rfl⟩
  | l :: ls, ca => by
    simp only [List.foldl_cons]
    obtain ⟨a, b⟩ := foldl_modify_lits f hf ls (ca.modify l f)
    exact ⟨by rw [a, ca_modify_len], fun x => by rw [b x, modify_lits ca l f hf]⟩

theorem claBumpActivity_lits (s : Solver) (cr : Nat) :
    (claBumpActivity s cr).learnts = s.learnts ∧
    (claBumpActivity s cr).ca.mem.length = s.ca.mem.length ∧
    ∀ x, ((claBumpActivity s cr).ca.get x).lits = (s.ca.get x).lits := by
  unfold claBumpActivity
  dsimp only
  split
  · obtain ⟨a, b⟩ := foldl_modify_lits
      (fun c => { c with activity := c.activity.mul ⟨1, 10 ^ 20⟩ }) (fun _ => rfl) s.learnts
      (s.ca.modify cr (fun c => { c with activity := (s.ca.get cr).activity.add s.cla_inc }))
    refine ⟨rfl, ?_, ?_⟩
    · dsimp only
      rw [a, ca_modify_len]
    · intro x
      dsimp only
      rw [b x]
      exact modify_lits s.ca cr
        (fun c => { c with activity := (s.ca.get cr).activity.add s.cla_inc }) (fun _ => rfl) x
  · exact ⟨rfl, ca_modify_len _ _ _, fun x => modify_lits s.ca cr
        (fun c => { c with activity := (s.ca.get cr).activity.add s.cla_inc }) (fun _ => rfl) x⟩

theorem attachClause_lits (s : Solver) (cr : Nat) :
    (attachClause s cr).learnts = s.learnts ∧ (attachClause s cr).ca = s.ca := by
  unfold attachClause
  dsimp only
  split <;> split <;> exact ⟨rfl, rfl⟩

theorem modify_lbd_lits (ca : ClauseAllocator) (cr k x : Nat) :
    ((ca.modify cr (fun c => { c with lbd := k })).get x).lits = (ca.get x).lits :=
  modify_lits ca cr (fun c => { c with lbd := k }) (fun _ => rfl) x

/-- The lines that store an imported clause append it to the learnt clauses and to the
arena and keep the literals of the clauses stored before. -/
theorem storeImported_spec (s : Solver) (learn : List Nat) (k : Nat) :
    (storeImported s learn k).learnts = s.learnts ++ [s.ca.mem.length] ∧
    (storeImported s learn k).ca.mem.length = s.ca.mem.length + 1 ∧
    (∀ x, x < s.ca.mem.length →
      ((storeImported s learn k).ca.get x).lits = (s.ca.get x).lits) ∧
    ((storeImported s learn k).ca.get s.ca.mem.length).lits = learn := by
  unfold storeImported
  dsimp only
  obtain ⟨b1, b2, b3⟩ := claBumpActivity_lits (attachClause
      { s with ca := (s.ca.alloc learn true).2.modify (s.ca.alloc learn true).1
                 (fun c => { c with lbd := k }),
               learnts := s.learnts ++ [(s.ca.alloc learn true).1] } (s.ca.alloc learn true).1)
      (s.ca.alloc learn true).1
  obtain ⟨a1, a2⟩ := attachClause_lits
      { s with ca := (s.ca.alloc learn true).2.modify (s.ca.alloc learn true).1
                 (fun c => { c with lbd := k }),
               learnts := s.learnts ++ [(s.ca.alloc learn true).1] } (s.ca.alloc learn true).1
  rw [a1] at b1
  rw [a2] at b2 b3
  refine ⟨b1, ?_, ?_, ?_⟩
  · rw [b2]
    dsimp only
    rw [ca_modify_len]
    simp [ClauseAllocator.alloc]
  · intro x hx
    rw [b3 x]
    dsimp only
    rw [modify_lbd_lits]
    unfold ClauseAllocator.get ClauseAllocator.alloc
    dsimp only
    rw [getD_append_left' _ _ _ hx]
  · rw [b3]
    dsimp only
    rw [modify_lbd_lits]
    exact congrArg Clause.lits (get_alloc s.ca learn true)

theorem importNode_unit (s : Solver) (learn : List Nat) (k : Nat) (h : learn.length = 1) :
    (importNode s learn k).learnts = s.learnts ∧ (importNode s learn k).ca = s.ca := by
  unfold importNode
  dsimp only
  have hb : (learn.length == 1) = true := by simpa using h
  rw [if_pos hb]
  split <;> exact ⟨rfl, rfl⟩

theorem to_freeze_fields (s : Solver) (cr : Nat) :
    (to_freeze s cr).2.learnts = s.learnts ∧ (to_freeze s cr).2.ca = s.ca := by
  unfold to_freeze freeze_stats
  exact ⟨rfl, rfl⟩

theorem importNode_stored (s : Solver) (learn : List Nat) (k : Nat) (h : learn.length ≠ 1) :
    (importNode s learn k).learnts = (storeImported s learn k).learnts ∧
    (importNode s learn k).ca = (storeImported s learn k).ca := by
  unfold importNode
  dsimp only
  have hb : ¬ (learn.length == 1) = true := by simpa using h
  rw [if_neg hb]
  unfold claDecayActivity varDecayActivity
  dsimp only
  exact to_freeze_fields (storeImported s learn k) (s.ca.alloc learn true).1

/-- The step of `update` on one node keeps the learnt clauses of the solver, and a clause
that has not exactly one literal is among them afterwards. -/
theorem importNode_learnts (s : Solver) (learn : List Nat) (k : Nat) :
    (∀ L, Imported s L → Imported (importNode s learn k) L) ∧
    (learn.length ≠ 1 → Imported (importNode s learn k) learn) := by
  by_cases h1 : learn.length = 1
  · obtain ⟨e1, e2⟩ := importNode_unit s learn k h1
    refine ⟨?_, fun h => absurd h1 h⟩
    rintro L ⟨cr, hcr, hlt, hl⟩
    exact ⟨cr, by rw [e1]; exact hcr, by rw [e2]; exact hlt, by rw [e2]; exact hl⟩
  · obtain ⟨e1, e2⟩ := importNode_stored s learn k h1
    obtain ⟨c1, c2, c3, c4⟩ := storeImported_spec s learn k
    refine ⟨?_, fun _ => ?_⟩
    · rintro L ⟨cr, hcr, hlt, hl⟩
      refine ⟨cr, ?_, ?_, ?_⟩
      · rw [e1, c1]
        exact List.mem_append_left _ hcr
      · rw [e2, c2]
        omega
      · rw [e2, c3 cr hlt]
        exact hl
    · refine ⟨s.ca.mem.length, ?_, ?_, ?_⟩
      · rw [e1, c1]
        exact List.mem_append_right _ (List.mem_singleton.2 rfl)
      · rw [e2, c2]
        omega
      · rw [e2]
        exact c4

theorem importAll_keeps (nodes : List (Option Elearn)) : ∀ (ys : List Nat) (s : Solver)
    (L : List Nat), Imported s L → Imported (importAll nodes ys s) L
  | [], _, _, h => h
  | a :: ys, s, L, h => by
    unfold importAll
    simp only [List.foldl_cons]
    cases nodes.getD a none with
    | none => exact importAll_keeps nodes ys s L h
    | some n => exact importAll_keeps nodes ys _ L ((importNode_learnts s n.learn n.nblevels).1 L h)

theorem importAll_adds (nodes : List (Option Elearn)) : ∀ (ys : List Nat) (s : Solver)
    (b : Nat) (n : Elearn), b ∈ ys → nodes.getD b none = some n → n.learn.length ≠ 1 →
    Imported (importAll nodes ys s) n.learn
  | [], _, _, _, h, _, _ => by simp at h
  | a :: ys, s, b, n, h, hn, hl => by
    by_cases hab : b = a
    · subst hab
      rw [importAll_cons nodes b ys s n hn]
      exact importAll_keeps nodes ys _ _ ((importNode_learnts s n.learn n.nblevels).2 hl)
    · have hb : b ∈ ys := by
        rcases List.mem_cons.1 h with h | h
        · exact absurd h hab
        · exact h
      unfold importAll
      simp only [List.foldl_cons]
      exact importAll_adds nodes ys _ b n hb hn hl

theorem importFrom_keeps (sb : SharedBase) (ch : Nat → List Nat) (id : Nat) :
    ∀ (n i : Nat) (s : Solver) (L : List Nat), Imported s L →
    Imported (importFrom sb ch id n i s) L
  | 0, _, _, _, h => h
  | n + 1, i, s, L, h => by
    unfold importFrom
    split
    · exact importFrom_keeps sb ch id n (i + 1) s L h
    · exact importFrom_keeps sb ch id n (i + 1) _ L (importAll_keeps _ _ _ _ h)

theorem importFrom_adds (sb : SharedBase) (ch : Nat → List Nat) (id : Nat) :
    ∀ (n i : Nat) (s : Solver) (p b : Nat) (nd : Elearn), i ≤ p → p < i + n → p ≠ id →
    b ∈ pending (ch p) ((sb.Lists.getD p default).sidx.getD id none) →
    sb.nodes.getD b none = some nd → nd.learn.length ≠ 1 →
    Imported (importFrom sb ch id n i s) nd.learn
  | 0, i, _, p, _, _, h1, h2, _, _, _, _ => by omega
  | n + 1, i, s, p, b, nd, h1, h2, h3, hb, hn, hl => by
    unfold importFrom
    by_cases hip : p = i
    · subst hip
      have hne : (id == p) = false := by simpa using (Ne.symm h3)
      simp only [hne, Bool.false_eq_true, if_false]
      exact importFrom_keeps sb ch id n (p + 1) _ _ (importAll_adds _ _ _ b nd hb hn hl)
    · split
      · exact importFrom_adds sb ch id n (i + 1) s p b nd (by omega) (by omega) h3 hb hn hl
      · exact importFrom_adds sb ch id n (i + 1) _ p b nd (by omega) (by omega) h3 hb hn hl

theorem pushedOnce_ok : ExOK pushedOnce pushedOnceChains := by
  refine ⟨by decide, by decide, ?_, ?_, ?_⟩
  · intro i hi
    have hi' : i < 3 := hi
    interval_cases i
    · exact ⟨by decide, by decide, by decide⟩
    · exact ⟨by decide, by decide, by decide⟩
    · exact ⟨by decide, by decide, by decide⟩
  · intro i _ j _ hij a ha hb
    unfold pushedOnceChains at ha hb
    split at ha
    · split at hb
      · omega
      · simp at hb
    · simp at ha
  · intro i hi c hc a ha
    have hi' : i < 3 := hi
    have hc' : c < 3 := hc
    have hnone : ∀ i < 3, ∀ c < 3, (pushedOnce.Lists.getD i default).sidx.getD c none = none := by
      decide
    rw [hnone i hi' c hc'] at ha
    exact Option.noConfusion ha

/-! ## Counters and cursors -/

theorem filter_length_congr {p q : Nat → Bool} : ∀ (l : List Nat),
    (∀ x ∈ l, p x = q x) → (l.filter p).length = (l.filter q).length
  | [], _ => rfl
  | a :: l, h => by
    rw [List.filter_cons, List.filter_cons, h a (List.mem_cons_self _ _)]
    have := filter_length_congr l (fun x hx => h x (List.mem_cons_of_mem _ hx))
    split
    · simp only [List.length_cons, this]
    · exact this

/-- A predicate that becomes true at one element of a list without repetition has one more
element of the list. -/
theorem filter_length_flip {p q : Nat → Bool} {c : Nat} : ∀ (l : List Nat), l.Nodup → c ∈ l →
    p c = false → q c = true → (∀ x, x ≠ c → q x = p x) →
    (l.filter q).length = (l.filter p).length + 1
  | [], _, h, _, _, _ => by simp at h
  | a :: l, hnd, hc, hp, hq, hx => by
    have hnd' := List.nodup_cons.1 hnd
    rw [List.filter_cons, List.filter_cons]
    by_cases hac : a = c
    · subst hac
      rw [hp, hq]
      simp only [if_true, Bool.false_eq_true, if_false, List.length_cons]
      rw [filter_length_congr l (fun x hxl => hx x (fun e => hnd'.1 (e ▸ hxl)))]
    · have hcl : c ∈ l := by
        rcases List.mem_cons.1 hc with h | h
        · exact absurd h.symm hac
        · exact h
      have := filter_length_flip l hnd'.2 hcl hp hq hx
      rw [hx a hac]
      split
      · simp only [List.length_cons, this]
      · exact this

theorem filter_and_full {p q : Nat → Bool} {l : List Nat} {n : Nat}
    (h1 : (l.filter (fun x => p x && q x)).length = n) (h2 : (l.filter p).length ≤ n) :
    ∀ x ∈ l, p x = true → q x = true := by
  have hsub : (l.filter (fun x => p x && q x)).Sublist (l.filter p) := by
    have : l.filter (fun x => p x && q x) = (l.filter p).filter q := by
      rw [List.filter_filter]
      congr 1
      funext x
      exact Bool.and_comm _ _
    rw [this]
    exact List.filter_sublist _
  have heq := hsub.eq_of_length_le (by rw [h1]; exact h2)
  intro x hx hp
  have : x ∈ l.filter (fun x => p x && q x) := by
    rw [heq]
    exact List.mem_filter.2 ⟨hx, hp⟩
  have := (List.mem_filter.1 this).2
  simp only [Bool.and_eq_true] at this
  exact this.2

theorem pastCount_le (S : Nat → Bool) (N : Nat) (sidx : List (Option Nat)) (xs : List Nat)
    (k : Nat) : pastCount S N sidx xs k ≤ ((List.range N).filter S).length := by
  unfold pastCount
  have : (List.range N).filter (fun c => S c && decide (k < cursorIdx xs (sidx.getD c none))) =
      ((List.range N).filter S).filter
        (fun c => decide (k < cursorIdx xs (sidx.getD c none))) := by
    rw [List.filter_filter]
    congr 1
    funext x
    exact Bool.and_comm _ _
  rw [this]
  exact List.length_filter_le _ _

theorem pastCount_congr {S : Nat → Bool} {N : Nat} {sidx sidx' : List (Option Nat)}
    {xs xs' : List Nat} {k k' : Nat}
    (h : ∀ c < N, S c = true →
      (k' < cursorIdx xs' (sidx'.getD c none) ↔ k < cursorIdx xs (sidx.getD c none))) :
    pastCount S N sidx' xs' k' = pastCount S N sidx xs k := by
  unfold pastCount
  apply filter_length_congr
  intro c hc
  have hc' : c < N := List.mem_range.1 hc
  cases hS : S c with
  | false => rfl
  | true =>
    simp only [Bool.true_and]
    exact decide_eq_decide.2 (h c hc' hS)

/-- When the thread `c` of `S` goes past the position `k`, the count at `k` grows by one. -/
theorem pastCount_step {S : Nat → Bool} {N : Nat} {sidx sidx' : List (Option Nat)}
    {xs : List Nat} {k c : Nat} (hc : c < N) (hS : S c = true)
    (hbefore : ¬ k < cursorIdx xs (sidx.getD c none))
    (hafter : k < cursorIdx xs (sidx'.getD c none))
    (hother : ∀ x, x ≠ c → sidx'.getD x none = sidx.getD x none) :
    pastCount S N sidx' xs k = pastCount S N sidx xs k + 1 := by
  unfold pastCount
  apply filter_length_flip (List.range N) (List.nodup_range N) (List.mem_range.2 hc)
  · show (S c && decide (k < cursorIdx xs (sidx.getD c none))) = false
    rw [hS, Bool.true_and]
    exact decide_eq_false hbefore
  · show (S c && decide (k < cursorIdx xs (sidx'.getD c none))) = true
    rw [hS, Bool.true_and]
    exact decide_eq_true hafter
  · intro x hx
    show (S x && decide (k < cursorIdx xs (sidx'.getD x none))) =
      (S x && decide (k < cursorIdx xs (sidx.getD x none)))
    rw [hother x hx]

theorem pastCount_lt_of_not_past {S : Nat → Bool} {N : Nat} {sidx : List (Option Nat)}
    {xs : List Nat} {k c : Nat} (hc : c < N) (hS : S c = true)
    (hbefore : ¬ k < cursorIdx xs (sidx.getD c none)) :
    pastCount S N sidx xs k < ((List.range N).filter S).length := by
  by_contra hge
  have hle := pastCount_le S N sidx xs k
  have heq : pastCount S N sidx xs k = ((List.range N).filter S).length := by omega
  have := filter_and_full (p := S)
    (q := fun c => decide (k < cursorIdx xs (sidx.getD c none))) (l := List.range N) heq
    (Nat.le_refl _) c (List.mem_range.2 hc) hS
  simp only [decide_eq_true_eq] at this
  exact hbefore this

theorem nodup_getD_inj {xs : List Nat} (h : xs.Nodup) {a b : Nat} (ha : a < xs.length)
    (hb : b < xs.length) (e : xs.getD a 0 = xs.getD b 0) : a = b := by
  rw [List.getD_eq_getElem _ _ ha, List.getD_eq_getElem _ _ hb] at e
  exact (List.Nodup.getElem_inj_iff h).1 e

theorem mem_dropLast_iff {l : List Nat} {x : Nat} :
    x ∈ l.dropLast ↔ ∃ j, j + 1 < l.length ∧ l.getD j 0 = x := by
  rw [List.dropLast_eq_take, List.mem_take_iff_getElem]
  constructor
  · rintro ⟨j, hj, rfl⟩
    have hj' : j < l.length - 1 ∧ j < l.length := by omega
    exact ⟨j, by omega, List.getD_eq_getElem _ _ (by omega)⟩
  · rintro ⟨j, hj, rfl⟩
    exact ⟨j, by omega, (List.getD_eq_getElem _ _ (by omega)).symm⟩

theorem getD_drop_add (xs : List Nat) (m j : Nat) : (xs.drop m).getD j 0 = xs.getD (m + j) 0 := by
  simp [List.getD_eq_getElem?_getD, List.getElem?_drop]

/-- The nodes between the position `m` and the last position, in a list without
repetition. -/
theorem mem_drop_dropLast {xs : List Nat} (h : xs.Nodup) {m k : Nat} (hk : k < xs.length) :
    xs.getD k 0 ∈ (xs.drop m).dropLast ↔ m ≤ k ∧ k + 1 < xs.length := by
  rw [mem_dropLast_iff]
  constructor
  · rintro ⟨j, hj, e⟩
    rw [List.length_drop] at hj
    rw [getD_drop_add] at e
    have := nodup_getD_inj h (by omega) hk e
    omega
  · rintro ⟨h1, h2⟩
    refine ⟨k - m, by rw [List.length_drop]; omega, ?_⟩
    rw [getD_drop_add]
    congr 1
    omega

theorem indexOf_getLast {xs : List Nat} (h : xs.Nodup) {a : Nat} (ha : xs.getLast? = some a) :
    xs.indexOf a = xs.length - 1 := by
  have hne : xs ≠ [] := by
    intro e
    rw [e] at ha
    exact Option.noConfusion ha
  have hlen : xs.length - 1 < xs.length := by
    have := List.length_pos.2 hne
    omega
  have hl : xs.getD (xs.length - 1) 0 = a := by
    rw [List.getD_eq_getElem _ _ hlen]
    rw [List.getLast?_eq_getElem?] at ha
    rw [List.getElem?_eq_getElem hlen] at ha
    exact Option.some.inj ha
  have hmem : a ∈ xs := List.mem_of_getLast?_eq_some ha
  have hi : xs.indexOf a < xs.length := List.indexOf_lt_length.2 hmem
  have hg : xs.getD (xs.indexOf a) 0 = a := by
    rw [List.getD_eq_getElem _ _ hi]
    exact List.getElem_indexOf hi
  exact nodup_getD_inj h hi hlen (hg.trans hl.symm)

theorem cursorIdx_getLast {xs : List Nat} (h : xs.Nodup) :
    cursorIdx xs xs.getLast? = xs.length - 1 := by
  unfold cursorIdx
  cases ha : xs.getLast? with
  | none =>
    have : xs = [] := List.getLast?_eq_none_iff.1 ha
    rw [this]
    rfl
  | some a => exact indexOf_getLast h ha

theorem cursorIdx_le {xs : List Nat} {cur : Option Nat} (h : ∀ a, cur = some a → a ∈ xs) :
    cursorIdx xs cur ≤ xs.length - 1 := by
  unfold cursorIdx
  cases cur with
  | none => exact Nat.zero_le _
  | some a =>
    have := List.indexOf_lt_length.2 (h a rfl)
    dsimp only
    omega

theorem decNode_cref_pos {n : Elearn} (h1 : 1 ≤ n.cref) (h2 : n.cref < 2 ^ 32) :
    (decNode n).cref + 1 = n.cref := by
  rw [decNode_cref]
  have : n.cref + 2 ^ 32 - 1 = (n.cref - 1) + 2 ^ 32 := by omega
  rw [this, Nat.add_mod_right, Nat.mod_eq_of_lt (by omega)]
  omega

/-- The counters still agree with the cursors after `update` of the thread `c`, when `c`
is one of the readers of every list it finds nodes in. -/
theorem counted_update {S : Nat → Nat → Bool} {sb sb' : SharedBase} {ch : Nat → List Nat}
    {c : Nat} (hex : ExOK sb ch) (hcnt : Counted S sb ch)
    (hS : ∀ i < sb.threads, ((List.range sb.threads).filter (S i)).length ≤ sb.threads - 2)
    (hN : sb.threads < 2 ^ 32) (hc : c < sb.threads)
    (hvis : ∀ i, 1 ≤ i → i < sb.threads → i ≠ c → S i c = true ∨ ch i = [])
    (ht : sb'.threads = sb.threads)
    (h5 : ∀ j, (j < 1 ∨ sb.threads ≤ j ∨ j = c) →
      sb'.Lists.getD j default = sb.Lists.getD j default)
    (h6 : ∀ j, 1 ≤ j → j < sb.threads → j ≠ c →
      sb'.Lists.getD j default =
        { sb.Lists.getD j default with
          sidx := (sb.Lists.getD j default).sidx.set c (ch j).getLast? })
    (h7 : ∀ j, 1 ≤ j → j < sb.threads → j ≠ c → ∀ b ∈ decList sb ch c j,
      sb'.nodes.getD b none = (sb.nodes.getD b none).map decNode)
    (h8 : ∀ b, (∀ j, 1 ≤ j → j < sb.threads → j ≠ c → b ∉ decList sb ch c j) →
      sb'.nodes.getD b none = sb.nodes.getD b none) :
    Counted S sb' ch := by
  have hother : ∀ i, i < sb.threads → ∀ k, k < (ch i).length →
      (ch i).getD k 0 ∉ decList sb ch c i →
      sb'.nodes.getD ((ch i).getD k 0) none = sb.nodes.getD ((ch i).getD k 0) none := by
    intro i hi k hk hnot
    apply h8
    intro j _ hj2 _ hb
    by_cases hji : j = i
    · subst hji; exact hnot hb
    · exact hex.disjoint j hj2 i hi hji _ (decList_subset _ _ _ _ hb) (getD_mem' _ _ hk)
  refine ⟨?_, ?_⟩
  · intro i hi k hk n' hn'
    rw [ht] at hi ⊢
    have hnd := (hex.chain i hi).2.2
    by_cases hvisit : 1 ≤ i ∧ i ≠ c
    · -- the list `i` has been read
      obtain ⟨hi1, hic⟩ := hvisit
      have hSc : S i c = true := by
        rcases hvis i hi1 hi hic with h | h
        · exact h
        · rw [h] at hk; simp at hk
      have hslen := hex.sidx_len i hi
      rw [h6 i hi1 hi hic]
      dsimp only
      have hnew : ((sb.Lists.getD i default).sidx.set c (ch i).getLast?).getD c none =
          (ch i).getLast? := getD_set_self' _ _ _ _ (by rw [hslen]; exact hc)
      have hoth : ∀ x, x ≠ c →
          ((sb.Lists.getD i default).sidx.set c (ch i).getLast?).getD x none =
          (sb.Lists.getD i default).sidx.getD x none :=
        fun x hx => getD_set_ne' _ _ _ (Ne.symm hx)
      have hidx : cursorIdx (ch i) ((sb.Lists.getD i default).sidx.getD c none) ≤
          (ch i).length - 1 := cursorIdx_le (fun a ha => hex.cursor i hi c hc a ha)
      by_cases hdec : (ch i).getD k 0 ∈ decList sb ch c i
      · have hpos := (mem_drop_dropLast hnd hk).1 hdec
        rw [h7 i hi1 hi hic _ hdec] at hn'
        cases hn : sb.nodes.getD ((ch i).getD k 0) none with
        | none => rw [hn] at hn'; simp at hn'
        | some n =>
          rw [hn] at hn'
          simp only [Option.map_some', Option.some.injEq] at hn'
          subst hn'
          have hcount := hcnt.count i hi k hk n hn
          have hbefore : ¬ k < cursorIdx (ch i) ((sb.Lists.getD i default).sidx.getD c none) := by
            omega
          have hlt := pastCount_lt_of_not_past (S := S i) (N := sb.threads) hc hSc hbefore
          have hSi := hS i hi
          have hstep := @pastCount_step (S i) sb.threads _
            ((sb.Lists.getD i default).sidx.set c (ch i).getLast?) _ _ _ hc hSc hbefore
            (by rw [hnew, cursorIdx_getLast hnd]; omega) hoth
          rw [hstep]
          have := decNode_cref_pos (n := n) (by omega) (by omega)
          omega
      · rw [hother i hi k hk hdec] at hn'
        have hcount := hcnt.count i hi k hk n' hn'
        rw [← hcount]
        congr 1
        apply pastCount_congr
        intro x hx _
        by_cases hxc : x = c
        · subst hxc
          rw [hnew, cursorIdx_getLast hnd]
          have := (mem_drop_dropLast hnd hk).not.1 hdec
          constructor
          · intro h
            by_contra hcon
            exact this ⟨by omega, by omega⟩
          · intro h
            omega
        · rw [hoth x hxc]
    · -- the list `i` has not been read
      have hi01 : i < 1 ∨ i = c := by
        by_cases h0 : i < 1
        · exact Or.inl h0
        · right
          by_contra hne
          exact hvisit ⟨by omega, hne⟩
      have h5i : sb'.Lists.getD i default = sb.Lists.getD i default := by
        apply h5
        rcases hi01 with h | h
        · exact Or.inl h
        · exact Or.inr (Or.inr h)
      rw [h5i]
      have hsame : sb'.nodes.getD ((ch i).getD k 0) none =
          sb.nodes.getD ((ch i).getD k 0) none := by
        apply h8
        intro j hj1 hj2 hjc hb
        have hji : j ≠ i := by
          rcases hi01 with h | h
          · omega
          · rw [h]; exact hjc
        exact hex.disjoint j hj2 i hi hji _ (decList_subset _ _ _ _ hb) (getD_mem' _ _ hk)
      rw [hsame] at hn'
      exact hcnt.count i hi k hk n' hn'
  · intro i hi x hx hSx
    rw [ht] at hi hx
    by_cases hvisit : 1 ≤ i ∧ i ≠ c
    · obtain ⟨hi1, hic⟩ := hvisit
      rw [h6 i hi1 hi hic]
      dsimp only
      by_cases hxc : x = c
      · subst hxc
        rw [getD_set_self' _ _ _ _ (by rw [hex.sidx_len i hi]; exact hx)]
        rcases hvis i hi1 hi hic with h | h
        · rw [h] at hSx
          exact Bool.noConfusion hSx
        · rw [h]
          rfl
      · rw [getD_set_ne' _ _ _ (Ne.symm hxc)]
        exact hcnt.idle i hi x hx hSx
    · have h5i : sb'.Lists.getD i default = sb.Lists.getD i default := by
        apply h5
        by_cases h0 : i < 1
        · exact Or.inl h0
        · right; right
          by_contra hne
          exact hvisit ⟨by omega, hne⟩
      rw [h5i]
      exact hcnt.idle i hi x hx hSx

/-! ## The steps `push` and `clean` on a well-formed exchange -/

/-- The method `push` is the linking of the new node followed, when the reduction of the
learnt clauses is due, by `clean` on the same list. -/
theorem push_eq_append_clean (sb : SharedBase) (learn : List Nat) (nblev id : Nat)
    (solver : Solver) :
    push sb learn nblev id solver =
      match appendNode sb learn nblev id with
      | none => none
      | some sb1 =>
        if solver.conflicts ≥ solver.curRestart * solver.nbclausesbeforereduce then
          cleanList sb1 id
        else some sb1 := by
  unfold push appendNode
  by_cases hid : id < sb.Lists.length
  · rw [if_pos hid, if_pos hid]
    dsimp only
    cases happ : append sb.nodes.length (sb.Lists.getD id default)
        (sb.nodes ++ [some ⟨learn, nblev, none, (sb.threads + 2 ^ 32 - 2) % 2 ^ 32⟩]) with
    | none => rfl
    | some r =>
      obtain ⟨l1, nodes2⟩ := r
      dsimp only
      by_cases hc : solver.conflicts ≥ solver.curRestart * solver.nbclausesbeforereduce
      · rw [if_pos hc, if_pos hc]
        unfold cleanList
        dsimp only
        rw [if_pos (by rw [List.length_set]; exact hid), getD_set_self' _ _ _ _ hid]
        cases clean { l1 with nba := l1.nba + 1 } nodes2 with
        | none => rfl
        | some r2 =>
          obtain ⟨l3, nodes3⟩ := r2
          dsimp only
          rw [list_set_set]
      · rw [if_neg hc, if_neg hc]
  · rw [if_neg hid, if_neg hid]

theorem setChain_self (ch : Nat → List Nat) (p : Nat) (ys : List Nat) :
    setChain ch p ys p = ys := by
  unfold setChain
  rw [if_pos rfl]

theorem setChain_other (ch : Nat → List Nat) {p i : Nat} (ys : List Nat) (h : i ≠ p) :
    setChain ch p ys i = ch i := by
  unfold setChain
  rw [if_neg h]

theorem indexOf_append_left {xs : List Nat} {a : Nat} (h : a ∈ xs) (ys : List Nat) :
    (xs ++ ys).indexOf a = xs.indexOf a :=
  List.indexOf_append_of_mem h

theorem cursorIdx_append {xs : List Nat} {cur : Option Nat} (h : ∀ a, cur = some a → a ∈ xs)
    (ys : List Nat) : cursorIdx (xs ++ ys) cur = cursorIdx xs cur := by
  unfold cursorIdx
  cases cur with
  | none => rfl
  | some a => exact indexOf_append_left (h a rfl) ys

theorem pastCount_zero {S : Nat → Bool} {N : Nat} {sidx : List (Option Nat)} {xs : List Nat}
    {k : Nat} (h : ∀ c < N, S c = true → ¬ k < cursorIdx xs (sidx.getD c none)) :
    pastCount S N sidx xs k = 0 := by
  unfold pastCount
  rw [List.length_eq_zero, List.filter_eq_nil_iff]
  intro c hc
  have hc' := List.mem_range.1 hc
  cases hS : S c with
  | false => simp
  | true =>
    rw [Bool.true_and]
    simpa using h c hc' hS

theorem threads_cref {N : Nat} (h1 : 2 ≤ N) (h2 : N < 2 ^ 32) :
    (N + 2 ^ 32 - 2) % 2 ^ 32 = N - 2 := by
  have : N + 2 ^ 32 - 2 = (N - 2) + 2 ^ 32 := by omega
  rw [this, Nat.add_mod_right, Nat.mod_eq_of_lt (by omega)]

/-- The first lines of `push` keep the exchange well formed and the counters in agreement
with the cursors: the new node has the counter `threads - 2` and no cursor behind it. -/
theorem appendNode_inv {S : Nat → Nat → Bool} {sb : SharedBase} {ch : Nat → List Nat}
    {p : Nat} (learn : List Nat) (nblev : Nat) (hex : ExOK sb ch) (hcnt : Counted S sb ch)
    (hp : p < sb.threads) (hN : 2 ≤ sb.threads) (hN2 : sb.threads < 2 ^ 32) :
    ∃ sb1, appendNode sb learn nblev p = some sb1 ∧ sb1.threads = sb.threads ∧
      ExOK sb1 (setChain ch p (ch p ++ [sb.nodes.length])) ∧
      Counted S sb1 (setChain ch p (ch p ++ [sb.nodes.length])) ∧
      (∀ i, (sb1.Lists.getD i default).sidx = (sb.Lists.getD i default).sidx) ∧
      sb1.nodes.getD sb.nodes.length none = some ⟨learn, nblev, none, sb.threads - 2⟩ ∧
      sb1.nodes.length = sb.nodes.length + 1 ∧
      (∀ a n, sb.nodes.getD a none = some n →
        ∃ n', sb1.nodes.getD a none = some n' ∧ n'.learn = n.learn ∧
          n'.nblevels = n.nblevels ∧ n'.cref = n.cref) ∧
      (∀ a, a ∉ ch p → a < sb.nodes.length →
        sb1.nodes.getD a none = sb.nodes.getD a none) := by
  have hpl : p < sb.Lists.length := by rw [hex.lists_len]; exact hp
  have hok := hex.chain p hp
  have hnew : (pushed sb learn nblev).getD sb.nodes.length none =
      some ⟨learn, nblev, none, (sb.threads + 2 ^ 32 - 2) % 2 ^ 32⟩ :=
    getD_append_length _ _ _
  have hold : ∀ a, a < sb.nodes.length →
      (pushed sb learn nblev).getD a none = sb.nodes.getD a none :=
    fun a ha => getD_append_left' _ _ _ ha
  have hne : sb.nodes.length ∉ ch p := fun c => Nat.lt_irrefl _ (isChain_lt hok.1 c)
  have hok1 : ListOK (pushed sb learn nblev) (sb.Lists.getD p default) (ch p) := by
    refine ⟨isChain_congr (ch p) _ ?_ hok.1, hok.2.1, hok.2.2⟩
    intro a ha
    rw [hold a (isChain_lt hok.1 ha)]
  obtain ⟨l1, nodes2, e1, e2, e3, e4, e5, _, _, e6, e7, e8⟩ := append_spec hok1 hnew rfl hne
  have e1' : append sb.nodes.length (sb.Lists.getD p default)
      (sb.nodes ++ [some ⟨learn, nblev, none, (sb.threads + 2 ^ 32 - 2) % 2 ^ 32⟩]) =
      some (l1, nodes2) := e1
  have hget := getD_set_lists sb.Lists p { l1 with nba := l1.nba + 1 } hpl
  have hforeign : ∀ a, a ∉ ch p → a < sb.nodes.length →
      nodes2.getD a none = sb.nodes.getD a none := by
    intro a ha hlt
    rw [e7 a ha, hold a hlt]
  have hkeep : ∀ a n, sb.nodes.getD a none = some n →
      ∃ n', nodes2.getD a none = some n' ∧ n'.learn = n.learn ∧
        n'.nblevels = n.nblevels ∧ n'.cref = n.cref := by
    intro a n hn
    exact e8 a n (by rw [hold a (lt_of_getD_some hn)]; exact hn)
  have hnode : nodes2.getD sb.nodes.length none =
      some ⟨learn, nblev, none, sb.threads - 2⟩ := by
    rw [e7 _ hne, hnew, threads_cref hN hN2]
  have hsidx : ∀ i, ((sb.Lists.set p { l1 with nba := l1.nba + 1 }).getD i default).sidx =
      (sb.Lists.getD i default).sidx := by
    intro i
    by_cases hip : i = p
    · subst hip
      rw [hget.1]
      exact e3
    · rw [hget.2 i hip]
  have hlt : ∀ i, i < sb.threads → ∀ a ∈ ch i, a < sb.nodes.length :=
    fun i hi a ha => isChain_lt (hex.chain i hi).1 ha
  have hexnew : ExOK { sb with Lists := sb.Lists.set p { l1 with nba := l1.nba + 1 },
                                nodes := nodes2 }
      (setChain ch p (ch p ++ [sb.nodes.length])) := by
    refine ⟨?_, ?_, ?_, ?_, ?_⟩
    · show (sb.Lists.set p _).length = sb.threads
      rw [List.length_set]; exact hex.lists_len
    · intro i hi
      show ((sb.Lists.set p { l1 with nba := l1.nba + 1 }).getD i default).sidx.length = _
      rw [hsidx i]
      exact hex.sidx_len i hi
    · intro i hi
      show ListOK nodes2 ((sb.Lists.set p { l1 with nba := l1.nba + 1 }).getD i default) _
      by_cases hip : i = p
      · subst hip
        rw [hget.1, setChain_self]
        exact e2
      · rw [hget.2 i hip, setChain_other _ _ hip]
        obtain ⟨c1, c2, c3⟩ := hex.chain i hi
        refine ⟨isChain_congr (ch i) _ ?_ c1, c2, c3⟩
        intro a ha
        rw [hforeign a (fun c => hex.disjoint i hi p hp hip a ha c) (hlt i hi a ha)]
    · intro i hi j hj hij a ha hb
      by_cases hip : i = p
      · subst hip
        rw [setChain_self] at ha
        rw [setChain_other _ _ (Ne.symm hij)] at hb
        rcases List.mem_append.1 ha with ha | ha
        · exact hex.disjoint i hi j hj hij a ha hb
        · rw [List.mem_singleton] at ha
          subst ha
          exact Nat.lt_irrefl _ (hlt j hj _ hb)
      · rw [setChain_other _ _ hip] at ha
        by_cases hjp : j = p
        · subst hjp
          rw [setChain_self] at hb
          rcases List.mem_append.1 hb with hb | hb
          · exact hex.disjoint i hi j hj hij a ha hb
          · rw [List.mem_singleton] at hb
            subst hb
            exact Nat.lt_irrefl _ (hlt i hi _ ha)
        · rw [setChain_other _ _ hjp] at hb
          exact hex.disjoint i hi j hj hij a ha hb
    · intro i hi c hc a ha
      have ha' : ((sb.Lists.set p { l1 with nba := l1.nba + 1 }).getD i default).sidx.getD c none
          = some a := ha
      rw [hsidx i] at ha'
      have := hex.cursor i hi c hc a ha'
      by_cases hip : i = p
      · subst hip
        rw [setChain_self]
        exact List.mem_append_left _ this
      · rw [setChain_other _ _ hip]
        exact this
  refine ⟨{ sb with Lists := sb.Lists.set p { l1 with nba := l1.nba + 1 }, nodes := nodes2 },
    ?_, rfl, hexnew, ⟨?_, ?_⟩, hsidx, hnode, by show nodes2.length = _; rw [e6]; simp [pushed],
    hkeep, hforeign⟩
  · unfold appendNode
    rw [if_pos hpl, e1']
  · intro i hi k hk n' hn'
    have hi' : i < sb.threads := hi
    have hn2 : nodes2.getD ((setChain ch p (ch p ++ [sb.nodes.length]) i).getD k 0) none =
        some n' := hn'
    show n'.cref + pastCount (S i) sb.threads
      ((sb.Lists.set p { l1 with nba := l1.nba + 1 }).getD i default).sidx _ k = sb.threads - 2
    rw [hsidx i]
    by_cases hip : i = p
    · subst hip
      rw [setChain_self] at hk hn2 ⊢
      have hcur : ∀ c, c < sb.threads → ∀ a,
          (sb.Lists.getD i default).sidx.getD c none = some a → a ∈ ch i :=
        fun c hc a ha => hex.cursor i hi' c hc a ha
      by_cases hkx : k < (ch i).length
      · rw [getD_append_left' _ _ _ hkx] at hn2
        obtain ⟨n, hn⟩ := isChain_live hok.1 _ (getD_mem' (ch i) 0 hkx)
        obtain ⟨n'', h1, _, _, h4⟩ := hkeep _ n hn
        rw [h1] at hn2
        have hnn : n'' = n' := Option.some.inj hn2
        rw [← hnn, h4, ← hcnt.count i hi' k hkx n hn]
        congr 1
        apply pastCount_congr
        intro c hc _
        rw [cursorIdx_append (hcur c hc)]
      · have hk' : k = (ch i).length := by
          rw [List.length_append, List.length_singleton] at hk
          omega
        subst hk'
        rw [getD_append_length, hnode] at hn2
        have hnn := Option.some.inj hn2
        rw [← hnn]
        rw [pastCount_zero]
        · rfl
        · intro c hc _
          rw [cursorIdx_append (hcur c hc)]
          have := cursorIdx_le (hcur c hc)
          omega
    · rw [setChain_other _ _ hip] at hk hn2 ⊢
      have hmem := getD_mem' (ch i) 0 hk
      rw [hforeign _ (fun c => hex.disjoint i hi' p hp hip _ hmem c) (hlt i hi' _ hmem)] at hn2
      exact hcnt.count i hi' k hk n' hn2
  · intro i hi c hc hS
    show ((sb.Lists.set p { l1 with nba := l1.nba + 1 }).getD i default).sidx.getD c none = none
    rw [hsidx i]
    exact hcnt.idle i hi c hc hS

theorem crefZero_live {nodes : List (Option Elearn)} {a : Nat} (h : crefZero nodes a = true) :
    ∃ n, nodes.getD a none = some n ∧ n.cref = 0 := by
  unfold crefZero at h
  cases hn : nodes.getD a none with
  | none => rw [hn] at h; exact absurd h (by decide)
  | some n =>
    rw [hn] at h
    exact ⟨n, rfl, by simpa using h⟩

theorem getD_indexOf {xs : List Nat} {b : Nat} (h : b ∈ xs) : xs.getD (xs.indexOf b) 0 = b := by
  rw [List.getD_eq_getElem _ _ (List.indexOf_lt_length.2 h)]
  exact List.indexOf_get (List.indexOf_lt_length.2 h)

theorem getD_append_add {T D xs : List Nat} (h : T ++ D = xs) (k : Nat) :
    xs.getD (T.length + k) 0 = D.getD k 0 := by
  subst h
  rw [List.getD_append_right _ _ _ _ (Nat.le_add_right _ _), Nat.add_sub_cancel_left]

theorem indexOf_append_add {T D xs : List Nat} {a : Nat} (h : T ++ D = xs) (ha : a ∉ T) :
    xs.indexOf a = T.length + D.indexOf a := by
  subst h
  exact List.indexOf_append_of_not_mem ha

/-- A node whose counter is 0 lies strictly behind the cursor of every thread that reads
its list. -/
theorem counted_zero_past {S : Nat → Nat → Bool} {sb : SharedBase} {ch : Nat → List Nat}
    {p b : Nat} {n : Elearn} (hcnt : Counted S sb ch)
    (hS : ∀ i < sb.threads, ((List.range sb.threads).filter (S i)).length ≤ sb.threads - 2)
    (hp : p < sb.threads) (hb : b ∈ ch p) (hn : sb.nodes.getD b none = some n)
    (hz : n.cref = 0) :
    ∀ c < sb.threads, S p c = true →
      (ch p).indexOf b < cursorIdx (ch p) ((sb.Lists.getD p default).sidx.getD c none) := by
  have hk := List.indexOf_lt_length.2 hb
  have h := hcnt.count p hp _ hk n (by rw [getD_indexOf hb]; exact hn)
  rw [hz, Nat.zero_add] at h
  intro c hc hSc
  have := filter_and_full h (hS p hp) c (List.mem_range.2 hc) hSc
  simpa using this

/-- The call `clean(&Lists[p])` keeps the exchange well formed and the counters in
agreement with the cursors; it deletes only nodes that every reader of the list has gone
past and that no cursor points to. -/
theorem cleanList_inv {S : Nat → Nat → Bool} {sb : SharedBase} {ch : Nat → List Nat}
    {p : Nat} (hex : ExOK sb ch) (hcnt : Counted S sb ch)
    (hS : ∀ i < sb.threads, ((List.range sb.threads).filter (S i)).length ≤ sb.threads - 2)
    (hp : p < sb.threads) :
    ∃ sb2, cleanList sb p = some sb2 ∧ sb2.threads = sb.threads ∧
      ExOK sb2 (setChain ch p ((ch p).dropWhile (crefZero sb.nodes))) ∧
      Counted S sb2 (setChain ch p ((ch p).dropWhile (crefZero sb.nodes))) ∧
      (∀ i, (sb2.Lists.getD i default).sidx = (sb.Lists.getD i default).sidx) ∧
      (∀ b ∈ (ch p).takeWhile (crefZero sb.nodes),
        sb2.nodes.getD b none = none ∧
        (∀ i < sb.threads, ∀ c < sb.threads,
          (sb.Lists.getD i default).sidx.getD c none ≠ some b) ∧
        (∀ c < sb.threads, S p c = true →
          (ch p).indexOf b <
            cursorIdx (ch p) ((sb.Lists.getD p default).sidx.getD c none))) ∧
      (∀ b, b ∉ (ch p).takeWhile (crefZero sb.nodes) →
        sb2.nodes.getD b none = sb.nodes.getD b none) ∧
      sb2.nodes.length = sb.nodes.length := by
  have hpl : p < sb.Lists.length := by rw [hex.lists_len]; exact hp
  have hok := hex.chain p hp
  obtain ⟨l2, nodes2, e1, e2, e3, _, _, e6, e7, e8⟩ := clean_spec hok
  have hTD := List.takeWhile_append_dropWhile (crefZero sb.nodes) (ch p)
  have hnd : ((ch p).takeWhile (crefZero sb.nodes) ++
      (ch p).dropWhile (crefZero sb.nodes)).Nodup := by rw [hTD]; exact hok.2.2
  have hdisj := (List.nodup_append.1 hnd).2.2
  have hTsub : ∀ b, b ∈ (ch p).takeWhile (crefZero sb.nodes) → b ∈ ch p :=
    fun b hb => (List.takeWhile_sublist _).subset hb
  have hDsub : ∀ b, b ∈ (ch p).dropWhile (crefZero sb.nodes) → b ∈ ch p :=
    fun b hb => (List.dropWhile_sublist _).subset hb
  have hK : ∀ b ∈ (ch p).takeWhile (crefZero sb.nodes), ∀ c < sb.threads, S p c = true →
      (ch p).indexOf b < cursorIdx (ch p) ((sb.Lists.getD p default).sidx.getD c none) := by
    intro b hb
    obtain ⟨n, hn, hz⟩ := crefZero_live (List.mem_takeWhile_imp hb)
    exact counted_zero_past hcnt hS hp (hTsub b hb) hn hz
  have hcurT : ∀ c < sb.threads, ∀ a, (sb.Lists.getD p default).sidx.getD c none = some a →
      a ∉ (ch p).takeWhile (crefZero sb.nodes) := by
    intro c hc a ha hmem
    cases hSc : S p c with
    | false =>
      rw [hcnt.idle p hp c hc hSc] at ha
      exact Option.noConfusion ha
    | true =>
      have := hK a hmem c hc hSc
      rw [ha] at this
      exact Nat.lt_irrefl _ this
  have hcurD : ∀ c < sb.threads, ∀ a, (sb.Lists.getD p default).sidx.getD c none = some a →
      a ∈ (ch p).dropWhile (crefZero sb.nodes) := by
    intro c hc a ha
    have hx := hex.cursor p hp c hc a ha
    rw [← hTD] at hx
    rcases List.mem_append.1 hx with h | h
    · exact absurd h (hcurT c hc a ha)
    · exact h
  have hget := getD_set_lists sb.Lists p l2 hpl
  have hsidx : ∀ i, ((sb.Lists.set p l2).getD i default).sidx =
      (sb.Lists.getD i default).sidx := by
    intro i
    by_cases hip : i = p
    · subst hip
      rw [hget.1]
      exact e3
    · rw [hget.2 i hip]
  have hforeign : ∀ i, i < sb.threads → i ≠ p → ∀ a ∈ ch i,
      nodes2.getD a none = sb.nodes.getD a none := by
    intro i hi hip a ha
    exact e7 a (fun c => hex.disjoint i hi p hp hip a ha (hTsub a c))
  have hexnew : ExOK { sb with Lists := sb.Lists.set p l2, nodes := nodes2 }
      (setChain ch p ((ch p).dropWhile (crefZero sb.nodes))) := by
    refine ⟨?_, ?_, ?_, ?_, ?_⟩
    · show (sb.Lists.set p _).length = sb.threads
      rw [List.length_set]; exact hex.lists_len
    · intro i hi
      show ((sb.Lists.set p l2).getD i default).sidx.length = _
      rw [hsidx i]
      exact hex.sidx_len i hi
    · intro i hi
      show ListOK nodes2 ((sb.Lists.set p l2).getD i default) _
      by_cases hip : i = p
      · subst hip
        rw [hget.1, setChain_self]
        exact e2
      · rw [hget.2 i hip, setChain_other _ _ hip]
        obtain ⟨c1, c2, c3⟩ := hex.chain i hi
        refine ⟨isChain_congr (ch i) _ ?_ c1, c2, c3⟩
        intro a ha
        rw [hforeign i hi hip a ha]
    · intro i hi j hj hij a ha hb
      by_cases hip : i = p
      · subst hip
        rw [setChain_self] at ha
        rw [setChain_other _ _ (Ne.symm hij)] at hb
        exact hex.disjoint i hi j hj hij a (hDsub a ha) hb
      · rw [setChain_other _ _ hip] at ha
        by_cases hjp : j = p
        · subst hjp
          rw [setChain_self] at hb
          exact hex.disjoint i hi j hj hij a ha (hDsub a hb)
        · rw [setChain_other _ _ hjp] at hb
          exact hex.disjoint i hi j hj hij a ha hb
    · intro i hi c hc a ha
      have ha' : ((sb.Lists.set p l2).getD i default).sidx.getD c none = some a := ha
      rw [hsidx i] at ha'
      by_cases hip : i = p
      · subst hip
        rw [setChain_self]
        exact hcurD c hc a ha'
      · rw [setChain_other _ _ hip]
        exact hex.cursor i hi c hc a ha'
  refine ⟨{ sb with Lists := sb.Lists.set p l2, nodes := nodes2 }, ?_, rfl, hexnew, ⟨?_, ?_⟩,
    hsidx, ?_, e7, e8⟩
  · unfold cleanList
    rw [if_pos hpl, e1]
  · intro i hi k hk n' hn'
    have hi' : i < sb.threads := hi
    have hn2 : nodes2.getD
        ((setChain ch p ((ch p).dropWhile (crefZero sb.nodes)) i).getD k 0) none = some n' := hn'
    show n'.cref + pastCount (S i) sb.threads ((sb.Lists.set p l2).getD i default).sidx _ k =
      sb.threads - 2
    rw [hsidx i]
    by_cases hip : i = p
    · subst hip
      rw [setChain_self] at hk hn2 ⊢
      have hmemD := getD_mem' ((ch i).dropWhile (crefZero sb.nodes)) 0 hk
      have hnotT : ((ch i).dropWhile (crefZero sb.nodes)).getD k 0 ∉
          (ch i).takeWhile (crefZero sb.nodes) := fun c => hdisj c hmemD
      rw [e7 _ hnotT] at hn2
      have hidx : ((ch i).dropWhile (crefZero sb.nodes)).getD k 0 =
          (ch i).getD (((ch i).takeWhile (crefZero sb.nodes)).length + k) 0 :=
        (getD_append_add hTD k).symm
      have hlen : ((ch i).takeWhile (crefZero sb.nodes)).length + k < (ch i).length := by
        have := congrArg List.length hTD
        rw [List.length_append] at this
        omega
      rw [hidx] at hn2
      rw [← hcnt.count i hi' _ hlen n' hn2]
      congr 1
      apply pastCount_congr
      intro c hc _
      cases hcur : (sb.Lists.getD i default).sidx.getD c none with
      | none =>
        unfold cursorIdx
        dsimp only
        omega
      | some a =>
        have haD := hcurD c hc a hcur
        have haT := hcurT c hc a hcur
        have hix : (ch i).indexOf a = ((ch i).takeWhile (crefZero sb.nodes)).length +
            ((ch i).dropWhile (crefZero sb.nodes)).indexOf a :=
          indexOf_append_add hTD haT
        unfold cursorIdx
        dsimp only
        rw [hix]
        omega
    · rw [setChain_other _ _ hip] at hk hn2 ⊢
      rw [hforeign i hi' hip _ (getD_mem' (ch i) 0 hk)] at hn2
      exact hcnt.count i hi' k hk n' hn2
  · intro i hi c hc hSc
    show ((sb.Lists.set p l2).getD i default).sidx.getD c none = none
    rw [hsidx i]
    exact hcnt.idle i hi c hc hSc
  · intro b hb
    refine ⟨e6 b hb, ?_, hK b hb⟩
    intro i hi c hc hcur
    by_cases hip : i = p
    · subst hip
      exact hcurT c hc b hcur hb
    · exact hex.disjoint i hi p hp hip b (hex.cursor i hi c hc b hcur) (hTsub b hb)

/-- The links fix the nodes of a list. -/
theorem isChain_unique {nodes : List (Option Elearn)} : ∀ (xs ys : List Nat)
    (start : Option Nat), isChain nodes start xs = true → isChain nodes start ys = true →
    xs = ys
  | [], [], _, _, _ => rfl
  | [], b :: ys, start, h1, h2 => by
    rw [isChain_nil] at h1
    rw [isChain_cons, h1] at h2
    exact Option.noConfusion h2.1
  | a :: xs, [], start, h1, h2 => by
    rw [isChain_nil] at h2
    rw [isChain_cons, h2] at h1
    exact Option.noConfusion h1.1
  | a :: xs, b :: ys, start, h1, h2 => by
    rw [isChain_cons] at h1 h2
    obtain ⟨e1, n, hn, c1⟩ := h1
    obtain ⟨e2, m, hm, c2⟩ := h2
    rw [e1] at e2
    have hab : a = b := Option.some.inj e2
    subst hab
    rw [hn] at hm
    have hnm : n = m := Option.some.inj hm
    subst hnm
    rw [isChain_unique xs ys _ c1 c2]

theorem exOK_unique {sb : SharedBase} {ch ch' : Nat → List Nat} (h : ExOK sb ch)
    (h' : ExOK sb ch') : ∀ i < sb.threads, ch' i = ch i :=
  fun i hi => isChain_unique _ _ _ (h'.chain i hi).1 (h.chain i hi).1

theorem getD_replicate_none (n c : Nat) :
    (List.replicate n (none : Option Nat)).getD c none = none := by
  rw [List.getD_eq_getElem?_getD, List.getElem?_replicate]
  split <;> rfl

theorem new_list (N i : Nat) (hi : i < N) :
    (SharedBase.new N).Lists.getD i default =
      { head := none, tail := none, sidx := List.replicate N none,
        rmfrqc := 0, nba := 0, nbs := 0, nbptr := 0 } := by
  unfold SharedBase.new
  dsimp only
  rw [List.getD_eq_getElem _ _ (by rw [List.length_replicate]; exact hi),
    List.getElem_replicate]

theorem exOK_new (N : Nat) : ExOK (SharedBase.new N) (fun _ => []) := by
  refine ⟨?_, ?_, ?_, ?_, ?_⟩
  · exact List.length_replicate _ _
  · intro i hi
    rw [new_list N i hi]
    exact List.length_replicate _ _
  · intro i hi
    rw [new_list N i hi]
    exact ⟨rfl, rfl, List.nodup_nil⟩
  · intro i _ j _ _ a ha
    exact absurd ha (List.not_mem_nil _)
  · intro i hi c _ a ha
    rw [new_list N i hi] at ha
    dsimp only at ha
    rw [getD_replicate_none] at ha
    exact Option.noConfusion ha

theorem counted_new (S : Nat → Nat → Bool) (N : Nat) :
    Counted S (SharedBase.new N) (fun _ => []) := by
  refine ⟨?_, ?_⟩
  · intro i _ k hk
    exact absurd hk (Nat.not_lt_zero _)
  · intro i hi c _ _
    rw [new_list N i hi]
    exact getD_replicate_none _ _

theorem seenOK_new (N : Nat) : SeenOK (SharedBase.new N) (fun _ => []) (fun _ => []) := by
  intro i c _ _ _ _ _ a _ b hb
  exact absurd hb (List.not_mem_nil _)

/-- A list has at most `threads - 2` readers. -/
theorem readers_le (N : Nat) (hN : 2 ≤ N) :
    ∀ i < N, ((List.range N).filter (reads i)).length ≤ N - 2 := by
  intro i hi
  by_cases hi0 : i = 0
  · subst hi0
    have : (List.range N).filter (reads 0) = [] := by
      rw [List.filter_eq_nil_iff]
      intro c _
      simp [reads]
    rw [this]
    exact Nat.zero_le _
  · have hnd : (0 :: i :: (List.range N).filter (reads i)).Nodup := by
      refine List.nodup_cons.2 ⟨?_, List.nodup_cons.2 ⟨?_, (List.nodup_range N).filter _⟩⟩
      · intro h
        rcases List.mem_cons.1 h with h | h
        · exact hi0 h.symm
        · have := (List.mem_filter.1 h).2
          simp [reads] at this
      · intro h
        have := (List.mem_filter.1 h).2
        simp [reads] at this
    have := nodup_length_le N _ hnd (by
      intro a ha
      rcases List.mem_cons.1 ha with h | h
      · omega
      · rcases List.mem_cons.1 h with h | h
        · omega
        · exact List.mem_range.1 (List.mem_filter.1 h).1)
    simp only [List.length_cons] at this
    omega

theorem mem_readFrom (sb : SharedBase) (ch : Nat → List Nat) (id : Nat) {j b : Nat} :
    ∀ (n i : Nat), i ≤ j → j < i + n → j ≠ id →
    b ∈ pending (ch j) ((sb.Lists.getD j default).sidx.getD id none) →
    b ∈ readFrom sb ch id n i
  | 0, i, h1, h2, _, _ => by omega
  | n + 1, i, h1, h2, h3, hb => by
    unfold readFrom
    by_cases hij : i = j
    · subst hij
      rw [if_neg (by simpa using Ne.symm h3)]
      exact List.mem_append_left _ hb
    · have := mem_readFrom sb ch id n (i + 1) (by omega) (by omega) h3 hb
      split
      · exact this
      · exact List.mem_append_right _ this

theorem readFrom_congr (sb : SharedBase) {ch ch' : Nat → List Nat} (id : Nat) :
    ∀ (n i : Nat), (∀ j, i ≤ j → j < i + n → ch' j = ch j) →
    readFrom sb ch' id n i = readFrom sb ch id n i
  | 0, _, _ => rfl
  | n + 1, i, h => by
    unfold readFrom
    rw [h i (Nat.le_refl _) (by omega),
      readFrom_congr sb id n (i + 1) (fun j h1 h2 => h j (by omega) (by omega))]

/-- The clauses `update` hands to the solver are those of the nodes `readFrom`. -/
theorem importFrom_readFrom (sb : SharedBase) (ch : Nat → List Nat) (id : Nat) :
    ∀ (n i : Nat) (solver : Solver),
    importFrom sb ch id n i solver = importAll sb.nodes (readFrom sb ch id n i) solver
  | 0, _, _ => rfl
  | n + 1, i, solver => by
    unfold importFrom readFrom
    split
    · exact importFrom_readFrom sb ch id n (i + 1) solver
    · rw [importAll_append]
      exact importFrom_readFrom sb ch id n (i + 1) _

theorem mem_drop_of_lt {xs : List Nat} {b : Nat} {k : Nat} (hb : b ∈ xs)
    (h : k ≤ xs.indexOf b) : b ∈ xs.drop k := by
  have hlt := List.indexOf_lt_length.2 hb
  have e : (xs.drop k).getD (xs.indexOf b - k) 0 = b := by
    rw [getD_drop_add, Nat.add_sub_cancel' h]
    exact getD_indexOf hb
  rw [← e]
  exact getD_mem' _ _ (by rw [List.length_drop]; omega)

/-- The record of the consumed nodes stays right when a node is linked behind a list. -/
theorem seenOK_append {sb sb1 : SharedBase} {ch : Nat → List Nat} {seen : Nat → List Nat}
    {p e : Nat} (hex : ExOK sb ch) (hs : SeenOK sb ch seen) (ht : sb1.threads = sb.threads)
    (hsidx : ∀ i, (sb1.Lists.getD i default).sidx = (sb.Lists.getD i default).sidx)
    (he : e ∉ ch p) :
    SeenOK sb1 (setChain ch p (ch p ++ [e])) seen := by
  intro i c hi1 hi hc1 hc hne a ha b hb hle
  rw [ht] at hi hc
  rw [hsidx i] at ha
  by_cases hip : i = p
  · subst hip
    rw [setChain_self] at hb hle
    have hmem := hex.cursor i hi c hc a ha
    rw [indexOf_append_left hmem] at hle
    rcases List.mem_append.1 hb with hb | hb
    · rw [indexOf_append_left hb] at hle
      exact hs i c hi1 hi hc1 hc hne a ha b hb hle
    · rw [List.mem_singleton] at hb
      subst hb
      rw [List.indexOf_append_of_not_mem he] at hle
      have := List.indexOf_lt_length.2 hmem
      omega
  · rw [setChain_other _ _ hip] at hb hle
    exact hs i c hi1 hi hc1 hc hne a ha b hb hle

/-- The record of the consumed nodes stays right when leading nodes no cursor points to
are unlinked. -/
theorem seenOK_drop {sb sb2 : SharedBase} {ch : Nat → List Nat} {seen : Nat → List Nat}
    {p : Nat} {T D : List Nat} (hs : SeenOK sb ch seen) (ht : sb2.threads = sb.threads)
    (hsidx : ∀ i, (sb2.Lists.getD i default).sidx = (sb.Lists.getD i default).sidx)
    (hTD : T ++ D = ch p) (hnd : (ch p).Nodup)
    (hcur : ∀ c < sb.threads, ∀ a, (sb.Lists.getD p default).sidx.getD c none = some a →
      a ∉ T) :
    SeenOK sb2 (setChain ch p D) seen := by
  intro i c hi1 hi hc1 hc hne a ha b hb hle
  rw [ht] at hi hc
  rw [hsidx i] at ha
  by_cases hip : i = p
  · subst hip
    rw [setChain_self] at hb hle
    have haT := hcur c hc a ha
    have hbT : b ∉ T := by
      rw [← hTD] at hnd
      exact fun h => (List.nodup_append.1 hnd).2.2 h hb
    have hbx : b ∈ ch i := by rw [← hTD]; exact List.mem_append_right _ hb
    apply hs i c hi1 hi hc1 hc hne a ha b hbx
    rw [indexOf_append_add hTD haT, indexOf_append_add hTD hbT]
    omega
  · rw [setChain_other _ _ hip] at hb hle
    exact hs i c hi1 hi hc1 hc hne a ha b hb hle

/-- After `update` of the worker `c` the record of `c` holds the nodes it has been handed. -/
theorem seenOK_update {sb sb' : SharedBase} {ch : Nat → List Nat} {seen : Nat → List Nat}
    {c : Nat} (hs : SeenOK sb ch seen) (hc : c < sb.threads)
    (ht : sb'.threads = sb.threads)
    (h5 : ∀ j, (j < 1 ∨ sb.threads ≤ j ∨ j = c) →
      sb'.Lists.getD j default = sb.Lists.getD j default)
    (h6 : ∀ j, 1 ≤ j → j < sb.threads → j ≠ c →
      sb'.Lists.getD j default =
        { sb.Lists.getD j default with
          sidx := (sb.Lists.getD j default).sidx.set c (ch j).getLast? }) :
    SeenOK sb' ch (setChain seen c (seen c ++ readNodes sb ch c)) := by
  intro i c' hi1 hi hc1 hc' hne a ha b hb hle
  rw [ht] at hi hc'
  by_cases hcc : c' = c
  · subst hcc
    rw [setChain_self]
    rw [h6 i hi1 hi (Ne.symm hne)] at ha
    have hread : b ∈ pending (ch i) ((sb.Lists.getD i default).sidx.getD c' none) →
        b ∈ seen c' ++ readNodes sb ch c' := by
      intro h
      apply List.mem_append_right
      exact mem_readFrom sb ch c' (sb.threads - 1) 1 hi1 (by omega) (Ne.symm hne) h
    cases hold : (sb.Lists.getD i default).sidx.getD c' none with
    | none =>
      apply hread
      rw [hold]
      exact hb
    | some a0 =>
      by_cases hlt : (ch i).indexOf b ≤ (ch i).indexOf a0
      · exact List.mem_append_left _ (hs i c' hi1 hi hc1 hc' hne a0 hold b hb hlt)
      · apply hread
        rw [hold]
        exact mem_drop_of_lt hb (by omega)
  · rw [setChain_other _ _ hcc]
    have hsame : (sb'.Lists.getD i default).sidx.getD c' none =
        (sb.Lists.getD i default).sidx.getD c' none := by
      by_cases hic : i = c
      · rw [h5 i (Or.inr (Or.inr hic))]
      · rw [h6 i hi1 hi hic]
        exact getD_set_ne' _ _ _ (Ne.symm hcc)
    rw [hsame] at ha
    exact hs i c' hi1 hi hc1 hc' hne a ha b hb hle

/-- A worker whose cursor has gone past a node has consumed the node. -/
theorem past_seen {sb : SharedBase} {ch : Nat → List Nat} {seen : Nat → List Nat}
    {p c b : Nat} (hs : SeenOK sb ch seen) (hp1 : 1 ≤ p) (hp : p < sb.threads) (hc1 : 1 ≤ c)
    (hc : c < sb.threads) (hne : c ≠ p) (hb : b ∈ ch p)
    (h : (ch p).indexOf b < cursorIdx (ch p) ((sb.Lists.getD p default).sidx.getD c none)) :
    b ∈ seen c ∧ ∃ a, (sb.Lists.getD p default).sidx.getD c none = some a ∧
      (ch p).indexOf b < (ch p).indexOf a := by
  cases hcur : (sb.Lists.getD p default).sidx.getD c none with
  | none =>
    rw [hcur] at h
    exact absurd h (Nat.not_lt_zero _)
  | some a =>
    rw [hcur] at h
    exact ⟨hs p c hp1 hp hc1 hc hne a hcur b hb (Nat.le_of_lt h), a, rfl, h⟩

theorem reads_worker {p c : Nat} (hp1 : 1 ≤ p) (hc1 : 1 ≤ c) (hne : c ≠ p) :
    reads p c = true := by
  simp [reads, hp1, hc1, hne]

/-- The step `clean` of a worker: the invariants stay, and every node it deletes has been
consumed by the other workers and is the target of no cursor. -/
theorem clean_step {sb : SharedBase} {ch : Nat → List Nat} {seen : Nat → List Nat} {p : Nat}
    (hN : 2 ≤ sb.threads) (hex : ExOK sb ch) (hcnt : Counted reads sb ch)
    (hs : SeenOK sb ch seen) (hp1 : 1 ≤ p) (hp : p < sb.threads) :
    ∃ sb2, cleanList sb p = some sb2 ∧ sb2.threads = sb.threads ∧
      (∃ ch2, ExOK sb2 ch2 ∧ Counted reads sb2 ch2 ∧ SeenOK sb2 ch2 seen) ∧
      sb2.nodes.length = sb.nodes.length ∧
      ∀ b, sb2.nodes.getD b none = none → sb.nodes.getD b none = none ∨
        (b ∈ ch p ∧ (∀ c, 1 ≤ c → c < sb.threads → c ≠ p → b ∈ seen c) ∧
          ∀ i < sb.threads, ∀ c < sb.threads,
            (sb2.Lists.getD i default).sidx.getD c none ≠ some b) := by
  obtain ⟨sb2, e1, e2, e3, e4, e5, e6, e7, e8⟩ :=
    cleanList_inv hex hcnt (readers_le sb.threads hN) hp
  refine ⟨sb2, e1, e2, ⟨_, e3, e4, ?_⟩, e8, ?_⟩
  · exact seenOK_drop hs e2 e5 (List.takeWhile_append_dropWhile _ _) (hex.chain p hp).2.2
      (fun c hc a ha hmem => (e6 a hmem).2.1 p hp c hc ha)
  · intro b hb
    by_cases hmem : b ∈ (ch p).takeWhile (crefZero sb.nodes)
    · right
      have hbx : b ∈ ch p := (List.takeWhile_sublist _).subset hmem
      obtain ⟨_, f2, f3⟩ := e6 b hmem
      refine ⟨hbx, ?_, ?_⟩
      · intro c hc1 hc hne
        exact (past_seen hs hp1 hp hc1 hc hne hbx (f3 c hc (reads_worker hp1 hc1 hne))).1
      · intro i hi c hc
        rw [e5 i]
        exact f2 i hi c hc
    · left
      rw [← e7 b hmem]
      exact hb

/-- The step `push` of a worker: the invariants stay, and every node it deletes has been
consumed by the other workers and is the target of no cursor. -/
theorem push_step {sb : SharedBase} {ch : Nat → List Nat} {seen : Nat → List Nat} {p : Nat}
    (learn : List Nat) (nblev : Nat) (solver : Solver)
    (hN : 2 ≤ sb.threads) (hN2 : sb.threads < 2 ^ 32) (hex : ExOK sb ch)
    (hcnt : Counted reads sb ch) (hs : SeenOK sb ch seen) (hp1 : 1 ≤ p)
    (hp : p < sb.threads) :
    ∃ sb2, push sb learn nblev p solver = some sb2 ∧ sb2.threads = sb.threads ∧
      (∃ ch2, ExOK sb2 ch2 ∧ Counted reads sb2 ch2 ∧ SeenOK sb2 ch2 seen) ∧
      ∀ b, b < sb2.nodes.length → sb2.nodes.getD b none = none →
        (b < sb.nodes.length ∧ sb.nodes.getD b none = none) ∨
        ((b ∈ ch p ∨ b = sb.nodes.length) ∧
          (∀ c, 1 ≤ c → c < sb.threads → c ≠ p → b ∈ seen c) ∧
          ∀ i < sb.threads, ∀ c < sb.threads,
            (sb2.Lists.getD i default).sidx.getD c none ≠ some b) := by
  obtain ⟨sb1, a1, a2, a3, a4, a5, a6, a7, a8, _⟩ := appendNode_inv learn nblev hex hcnt hp hN hN2
  have hne : sb.nodes.length ∉ ch p :=
    fun c => Nat.lt_irrefl _ (isChain_lt (hex.chain p hp).1 c)
  have hs1 : SeenOK sb1 (setChain ch p (ch p ++ [sb.nodes.length])) seen :=
    seenOK_append hex hs a2 a5 hne
  have hdead : ∀ b, b < sb1.nodes.length → sb1.nodes.getD b none = none →
      b < sb.nodes.length ∧ sb.nodes.getD b none = none := by
    intro b hb hnone
    have hbe : b ≠ sb.nodes.length := by
      intro h
      rw [h, a6] at hnone
      exact Option.noConfusion hnone
    refine ⟨by omega, ?_⟩
    cases hn : sb.nodes.getD b none with
    | none => rfl
    | some n =>
      obtain ⟨n', h1, _⟩ := a8 b n hn
      rw [h1] at hnone
      exact Option.noConfusion hnone
  rw [push_eq_append_clean, a1]
  dsimp only
  by_cases hdue : solver.conflicts ≥ solver.curRestart * solver.nbclausesbeforereduce
  · rw [if_pos hdue]
    obtain ⟨sb2, c1, c2, c3, c4, c5⟩ :=
      clean_step (by rw [a2]; exact hN) a3 a4 hs1 hp1 (by rw [a2]; exact hp)
    refine ⟨sb2, c1, c2.trans a2, c3, ?_⟩
    intro b hb hnone
    rw [c4] at hb
    rcases c5 b hnone with h | ⟨h1, h2, h3⟩
    · exact Or.inl (hdead b hb h)
    · right
      rw [a2] at h2 h3
      refine ⟨?_, h2, h3⟩
      rw [setChain_self] at h1
      rcases List.mem_append.1 h1 with h | h
      · exact Or.inl h
      · exact Or.inr (List.mem_singleton.1 h)
  · rw [if_neg hdue]
    exact ⟨sb1, rfl, a2, ⟨_, a3, a4, hs1⟩, fun b hb hnone => Or.inl (hdead b hb hnone)⟩

/-- The step `update` of a worker keeps the invariants. -/
theorem update_step {sb sb1 : SharedBase} {ch ch0 : Nat → List Nat} {seen : Nat → List Nat}
    {c : Nat} (solver : Solver) (hN : 2 ≤ sb.threads) (hN2 : sb.threads < 2 ^ 32)
    (hex : ExOK sb ch) (hcnt : Counted reads sb ch) (hs : SeenOK sb ch seen) (hc1 : 1 ≤ c)
    (hc : c < sb.threads) (hex0 : ExOK sb ch0)
    (hupd : (update sb c solver).map Prod.fst = some sb1) :
    sb1.threads = sb.threads ∧ ExOK sb1 ch ∧ Counted reads sb1 ch ∧
      SeenOK sb1 ch (setChain seen c (seen c ++ readNodes sb ch0 c)) := by
  obtain ⟨sb', e1, e2, e3, e4, e5, e6, e7, e8⟩ := update_spec hex hc solver
  rw [e1] at hupd
  have hsb : sb' = sb1 := Option.some.inj hupd
  subst hsb
  have hread : readNodes sb ch0 c = readNodes sb ch c := by
    unfold readNodes
    exact readFrom_congr sb c _ _ (fun j h1 h2 => exOK_unique hex hex0 j (by omega))
  rw [hread]
  refine ⟨e3, e2, ?_, seenOK_update hs hc e3 e5 e6⟩
  exact counted_update hex hcnt (readers_le sb.threads hN) hN2 hc
    (fun i hi1 _ hic => Or.inl (reads_worker hi1 hc1 (Ne.symm hic))) e3 e5 e6 e7 e8

/-- In every state the workers reach, the lists are well formed, the counters agree with
the cursors and the record of the consumed nodes covers the cursors. -/
theorem reach_inv {N : Nat} (hN : 2 ≤ N) (hN2 : N < 2 ^ 32) {sb : SharedBase}
    {seen : Nat → List Nat} (h : Reach N sb seen) :
    sb.threads = N ∧ ∃ ch, ExOK sb ch ∧ Counted reads sb ch ∧ SeenOK sb ch seen := by
  induction h with
  | init => exact ⟨rfl, _, exOK_new N, counted_new reads N, seenOK_new N⟩
  | push p learn nblev solver _ hp1 hp hpush ih =>
    obtain ⟨ht, ch, hex, hcnt, hs⟩ := ih
    obtain ⟨sb2, e1, e2, e3, _⟩ := push_step learn nblev solver (by rw [ht]; exact hN)
      (by rw [ht]; exact hN2) hex hcnt hs hp1 (by rw [ht]; exact hp)
    rw [e1] at hpush
    have := Option.some.inj hpush
    subst this
    exact ⟨e2.trans ht, e3⟩
  | clean p _ hp1 hp hclean ih =>
    obtain ⟨ht, ch, hex, hcnt, hs⟩ := ih
    obtain ⟨sb2, e1, e2, e3, _⟩ := clean_step (by rw [ht]; exact hN) hex hcnt hs hp1
      (by rw [ht]; exact hp)
    rw [e1] at hclean
    have := Option.some.inj hclean
    subst this
    exact ⟨e2.trans ht, e3⟩
  | update c solver ch0 _ hc1 hc hex0 hupd ih =>
    obtain ⟨ht, ch, hex, hcnt, hs⟩ := ih
    obtain ⟨e1, e2, e3, e4⟩ := update_step solver (by rw [ht]; exact hN)
      (by rw [ht]; exact hN2) hex hcnt hs hc1 (by rw [ht]; exact hc) hex0 hupd
    exact ⟨e1.trans ht, ch, e2, e3, e4⟩

theorem pushedTwice_ok : ExOK pushedTwice pushedTwiceChains := by
  refine ⟨by decide, by decide, ?_, ?_, ?_⟩
  · intro i hi
    have hi' : i < 3 := hi
    have : i = 0 ∨ i = 1 ∨ i = 2 := by omega
    rcases this with h | h | h <;> subst h <;> exact ⟨by decide, by decide, by decide⟩
  · intro i _ j _ hij a ha hb
    unfold pushedTwiceChains at ha hb
    split at ha
    · split at hb
      · omega
      · exact absurd hb (List.not_mem_nil _)
    · exact absurd ha (List.not_mem_nil _)
  · intro i hi c hc a ha
    have hi' : i < 3 := hi
    have hc' : c < 3 := hc
    have h1 : i = 0 ∨ i = 1 ∨ i = 2 := by omega
    have h2 : c = 0 ∨ c = 1 ∨ c = 2 := by omega
    have hnone : (pushedTwice.Lists.getD i default).sidx.getD c none = none := by
      rcases h1 with h | h | h <;> subst h <;> rcases h2 with h | h | h <;> subst h <;> decide
    rw [hnone] at ha
    exact Option.noConfusion ha

theorem readTwice_reach : Reach 3 readTwice readTwiceSeen := by
  have h1 : Reach 3 pushedOnce (fun _ => []) :=
    Reach.push 1 [0, 2] 2 searchingSolver Reach.init (by decide) (by decide) (by rfl)
  have h2 : Reach 3 pushedTwice (fun _ => []) :=
    Reach.push 1 [1, 3] 2 searchingSolver h1 (by decide) (by decide) (by rfl)
  have h3 := Reach.update 2 Solver.twoVars pushedTwiceChains h2 (by decide) (by decide)
    pushedTwice_ok (by rfl : (update pushedTwice 2 Solver.twoVars).map Prod.fst = some readTwice)
  have e : setChain (fun _ => []) 2 ([] ++ readNodes pushedTwice pushedTwiceChains 2) =
      readTwiceSeen := by
    funext c
    unfold setChain readTwiceSeen
    split
    · decide
    · rfl
  rw [e] at h3
  exact h3

theorem range'_split : ∀ (T D : List Nat) (d m : Nat), T ++ D = List.range' d m →
    T = List.range' d T.length ∧ D = List.range' (d + T.length) (m - T.length)
  | [], D, d, m, h => ⟨rfl, by simpa using h⟩
  | a :: T, D, d, 0, h => by simp at h
  | a :: T, D, d, m + 1, h => by
    rw [List.range'_succ, List.cons_append] at h
    have h1 := (List.cons.inj h).1
    have h2 := (List.cons.inj h).2
    obtain ⟨e1, e2⟩ := range'_split T D (d + 1) m h2
    subst h1
    constructor
    · rw [List.length_cons, List.range'_succ, ← e1]
    · rw [List.length_cons, Nat.add_sub_add_right]
      have : a + (T.length + 1) = a + 1 + T.length := by omega
      rw [this]
      exact e2

theorem indexOf_range' : ∀ (m d x : Nat), d ≤ x → x < d + m →
    (List.range' d m).indexOf x = x - d
  | 0, d, x, h1, h2 => by omega
  | m + 1, d, x, h1, h2 => by
    rw [List.range'_succ]
    by_cases hx : x = d
    · subst hx
      rw [List.indexOf_cons_self, Nat.sub_self]
    · rw [List.indexOf_cons_ne _ (Ne.symm hx), indexOf_range' m (d + 1) x (by omega) (by omega)]
      omega

theorem getLast?_range' (d m : Nat) :
    (List.range' d (m + 1)).getLast? = some (d + m) := by
  rw [List.range'_concat, List.getLast?_append]
  simp

theorem sole_le_one (N p c i : Nat) :
    ((List.range N).filter (soleReader p c i)).length ≤ 1 := by
  have hnd : ((List.range N).filter (soleReader p c i)).Nodup :=
    (List.nodup_range N).filter _
  have hall : ∀ x ∈ (List.range N).filter (soleReader p c i), x = c := by
    intro x hx
    have := (List.mem_filter.1 hx).2
    simp [soleReader] at this
    exact this.2
  generalize (List.range N).filter (soleReader p c i) = F at hnd hall
  match F, hnd, hall with
  | [], _, _ => exact Nat.zero_le _
  | [_], _, _ => exact Nat.le_refl _
  | a :: b :: _, hnd, hall =>
    have ha := hall a (List.mem_cons_self _ _)
    have hb := hall b (List.mem_cons_of_mem _ (List.mem_cons_self _ _))
    rw [List.nodup_cons] at hnd
    exact absurd (List.mem_cons.2 (Or.inl (ha.trans hb.symm))) hnd.1

theorem soleReader_le (N p c : Nat) (hN : 3 ≤ N) :
    ∀ i < N, ((List.range N).filter (soleReader p c i)).length ≤ N - 2 := by
  intro i _
  have := sole_le_one N p c i
  omega

theorem pastCount_sole {N p c : Nat} (sidx : List (Option Nat)) (xs : List Nat) (i : Nat)
    (hc : c < N) :
    pastCount (soleReader p c p) N sidx xs i =
      if i < cursorIdx xs (sidx.getD c none) then 1 else 0 := by
  have hS : soleReader p c p c = true := by simp [soleReader]
  by_cases h : i < cursorIdx xs (sidx.getD c none)
  · rw [if_pos h]
    have h1 := (pastCount_le (soleReader p c p) N sidx xs i).trans (sole_le_one N p c p)
    have h2 : 0 < pastCount (soleReader p c p) N sidx xs i := by
      unfold pastCount
      apply List.length_pos_of_mem (a := c)
      rw [List.mem_filter]
      refine ⟨List.mem_range.2 hc, ?_⟩
      rw [hS, Bool.true_and]
      exact decide_eq_true h
    omega
  · rw [if_neg h]
    apply pastCount_zero
    intro x _ hx
    have : x = c := by
      simp [soleReader] at hx
      exact hx
    subst this
    exact h

/-- When only the list `p` holds nodes, `update` reads the nodes of `p` its cursor has
not reached. -/
theorem readFrom_single (sb : SharedBase) (ch : Nat → List Nat) {p c : Nat} (hpc : c ≠ p)
    (hoth : ∀ i, i ≠ p → ch i = []) : ∀ (n i : Nat),
    readFrom sb ch c n i =
      if i ≤ p ∧ p < i + n then pending (ch p) ((sb.Lists.getD p default).sidx.getD c none)
      else []
  | 0, i => by
    rw [if_neg (by omega)]
    rfl
  | n + 1, i => by
    unfold readFrom
    rw [readFrom_single sb ch hpc hoth n (i + 1)]
    by_cases hip : i = p
    · subst hip
      rw [if_neg (by simpa using hpc), if_neg (by omega), if_pos (by omega), List.append_nil]
    · have hpe : pending (ch i) ((sb.Lists.getD i default).sidx.getD c none) = [] := by
        rw [hoth i hip]
        unfold pending
        split <;> simp
      rw [hpe, List.nil_append, ite_self]
      by_cases hin : i + 1 ≤ p ∧ p < i + 1 + n
      · rw [if_pos hin, if_pos (by omega)]
      · rw [if_neg hin, if_neg (by omega)]

theorem importClauses_cons (cl : List Nat × Nat) (cls : List (List Nat × Nat))
    (solver : Solver) :
    importClauses (cl :: cls) solver = importClauses cls (importNode solver cl.1 cl.2) := rfl

/-- Importing the nodes `k, k + 1, ...` is importing the clauses pushed from the `k`-th
on. -/
theorem importAll_range' (nodes : List (Option Elearn)) (pushed : List (List Nat × Nat)) :
    ∀ (m k : Nat) (solver : Solver), k + m = pushed.length →
    (∀ j, k ≤ j → j < pushed.length →
      ∃ n, nodes.getD j none = some n ∧ (n.learn, n.nblevels) = pushed.getD j ([], 0)) →
    importAll nodes (List.range' k m) solver = importClauses (pushed.drop k) solver
  | 0, k, solver, hk, _ => by
    rw [List.drop_of_length_le (by omega)]
    rfl
  | m + 1, k, solver, hk, h => by
    obtain ⟨n, hn, hcl⟩ := h k (Nat.le_refl _) (by omega)
    have hlt : k < pushed.length := by omega
    rw [List.range'_succ, importAll_cons _ _ _ _ n hn, List.drop_eq_getElem_cons hlt,
      importClauses_cons]
    rw [List.getD_eq_getElem _ _ hlt] at hcl
    rw [← hcl]
    exact importAll_range' nodes pushed m (k + 1) _ (by omega)
      (fun j h1 h2 => h j (by omega) h2)

theorem fed_new (N p c : Nat) (hp : p < N) :
    FedOK N p c (SharedBase.new N) [] 0 (fun _ => []) 0 := by
  refine ⟨rfl, exOK_new N, counted_new _ N, fun _ _ => rfl, rfl, Nat.le_refl _, Nat.le_refl _,
    rfl, ?_, ?_, ?_⟩
  · intro j hj
    exact absurd hj (Nat.not_lt_zero _)
  · intro j n hn
    exact Option.noConfusion hn
  · rw [new_list N p hp]
    exact getD_replicate_none _ _

/-- The first lines of `push` of the thread `p`. -/
theorem fed_append {N p c : Nat} {sb : SharedBase} {pushed : List (List Nat × Nat)}
    {k : Nat} {ch : Nat → List Nat} {d : Nat} (learn : List Nat) (nblev : Nat)
    (h : FedOK N p c sb pushed k ch d) (hN : 2 ≤ N) (hN2 : N < 2 ^ 32) (hp : p < N) :
    ∃ sb1, appendNode sb learn nblev p = some sb1 ∧
      FedOK N p c sb1 (pushed ++ [(learn, nblev)]) k
        (setChain ch p (ch p ++ [sb.nodes.length])) d := by
  have ht := h.threads
  obtain ⟨sb1, a1, a2, a3, a4, a5, a6, a7, a8, a9⟩ :=
    appendNode_inv learn nblev h.ex h.cnt (by rw [ht]; exact hp) (by rw [ht]; exact hN)
      (by rw [ht]; exact hN2)
  have hlow := h.low
  have hupto := h.upto
  have hdl : d ≤ pushed.length := by omega
  refine ⟨sb1, a1, ⟨a2.trans ht, a3, a4, ?_, ?_, hlow, ?_, ?_, ?_, ?_, ?_⟩⟩
  · intro i hi
    rw [setChain_other _ _ hi]
    exact h.others i hi
  · rw [setChain_self, h.own, h.len, List.length_append, List.length_singleton]
    have e : pushed.length + 1 - d = (pushed.length - d) + 1 := by omega
    rw [e, List.range'_concat]
    congr 2
    omega
  · rw [List.length_append]
    omega
  · rw [a7, h.len, List.length_append, List.length_singleton]
  · intro j hj
    have hjl : j < sb.nodes.length := by rw [h.len]; omega
    have hnot : j ∉ ch p := by
      rw [h.own, List.mem_range'_1]
      omega
    rw [a9 j hnot hjl]
    exact h.gone j hj
  · intro j n' hn'
    have hjl : j < sb.nodes.length + 1 := by rw [← a7]; exact lt_of_getD_some hn'
    by_cases hje : j = sb.nodes.length
    · subst hje
      rw [a6] at hn'
      have := Option.some.inj hn'
      subst this
      rw [h.len, getD_append_length]
    · have hjl' : j < sb.nodes.length := by omega
      rw [getD_append_left' _ _ _ (by rw [← h.len]; exact hjl')]
      cases hn : sb.nodes.getD j none with
      | some n =>
        obtain ⟨n'', h1, h2, h3, _⟩ := a8 j n hn
        rw [h1] at hn'
        have := Option.some.inj hn'
        subst this
        rw [h2, h3]
        exact h.clause j n hn
      | none =>
        have hnot : j ∉ ch p := by
          intro hmem
          obtain ⟨n, hlive⟩ := isChain_live (h.ex.chain p (by rw [ht]; exact hp)).1 j hmem
          rw [hn] at hlive
          exact Option.noConfusion hlive
        rw [a9 j hnot hjl', hn] at hn'
        exact Option.noConfusion hn'
  · rw [a5 p]
    exact h.cursor

/-- The call `clean` at the end of `push` of the thread `p`. -/
theorem fed_clean {N p c : Nat} {sb : SharedBase} {pushed : List (List Nat × Nat)}
    {k : Nat} {ch : Nat → List Nat} {d : Nat}
    (h : FedOK N p c sb pushed k ch d) (hN : 3 ≤ N) (hp : p < N) (hc : c < N) :
    ∃ sb2 ch2 d2, cleanList sb p = some sb2 ∧ FedOK N p c sb2 pushed k ch2 d2 := by
  have ht := h.threads
  have hp' : p < sb.threads := by rw [ht]; exact hp
  have hc' : c < sb.threads := by rw [ht]; exact hc
  obtain ⟨sb2, e1, e2, e3, e4, e5, e6, e7, e8⟩ :=
    cleanList_inv h.ex h.cnt (by rw [ht]; exact soleReader_le N p c hN) hp'
  have hTD := List.takeWhile_append_dropWhile (crefZero sb.nodes) (ch p)
  rw [h.own] at hTD
  obtain ⟨hT, hD⟩ := range'_split _ _ _ _ hTD
  rw [← h.own] at hT hD
  have hlow := h.low
  have hupto := h.upto
  have hS : soleReader p c p c = true := by simp [soleReader]
  have hcur2 : (sb2.Lists.getD p default).sidx.getD c none =
      if k = 0 then none else some (k - 1) := by
    rw [e5 p]
    exact h.cursor
  have hlow2 : d + ((ch p).takeWhile (crefZero sb.nodes)).length ≤ k - 1 := by
    by_cases hk : k = 0
    · have hnil : (ch p).takeWhile (crefZero sb.nodes) = [] := by
        cases hT' : (ch p).takeWhile (crefZero sb.nodes) with
        | nil => rfl
        | cons b T =>
          have hb : b ∈ (ch p).takeWhile (crefZero sb.nodes) := by
            rw [hT']
            exact List.mem_cons_self _ _
          have := (e6 b hb).2.2 c hc' hS
          rw [h.cursor, if_pos hk] at this
          exact absurd this (Nat.not_lt_zero _)
      rw [hnil]
      simp only [List.length_nil]
      omega
    · rw [if_neg hk] at hcur2
      have := e3.cursor p (by rw [e2]; exact hp') c (by rw [e2]; exact hc') _ hcur2
      rw [setChain_self, hD, List.mem_range'_1] at this
      exact this.1
  refine ⟨sb2, _, d + ((ch p).takeWhile (crefZero sb.nodes)).length, e1,
    ⟨e2.trans ht, e3, e4, ?_, ?_, hlow2, hupto, e8.trans h.len, ?_, ?_, hcur2⟩⟩
  · intro i hi
    rw [setChain_other _ _ hi]
    exact h.others i hi
  · rw [setChain_self, hD]
    congr 1
    omega
  · intro j hj
    by_cases hjd : j < d
    · rw [e7 j ?_]
      · exact h.gone j hjd
      · intro hmem
        rw [hT, List.mem_range'_1] at hmem
        omega
    · apply (e6 j ?_).1
      rw [hT, List.mem_range'_1]
      omega
  · intro j n hn
    have hnot : j ∉ (ch p).takeWhile (crefZero sb.nodes) := by
      intro hmem
      rw [(e6 j hmem).1] at hn
      exact Option.noConfusion hn
    rw [e7 j hnot] at hn
    exact h.clause j n hn

/-- The call `push` of the thread `p`. -/
theorem fed_push {N p c : Nat} {sb : SharedBase} {pushed : List (List Nat × Nat)}
    {k : Nat} {ch : Nat → List Nat} {d : Nat} (learn : List Nat) (nblev : Nat)
    (solver : Solver) (h : FedOK N p c sb pushed k ch d) (hN : 3 ≤ N) (hN2 : N < 2 ^ 32)
    (hp : p < N) (hc : c < N) :
    ∃ sb2 ch2 d2, push sb learn nblev p solver = some sb2 ∧
      FedOK N p c sb2 (pushed ++ [(learn, nblev)]) k ch2 d2 := by
  obtain ⟨sb1, a1, a2⟩ := fed_append learn nblev h (by omega) hN2 hp
  rw [push_eq_append_clean, a1]
  dsimp only
  by_cases hdue : solver.conflicts ≥ solver.curRestart * solver.nbclausesbeforereduce
  · rw [if_pos hdue]
    exact fed_clean a2 hN hp hc
  · rw [if_neg hdue]
    exact ⟨sb1, _, _, rfl, a2⟩

/-- The call `update` of the thread `c`: it hands to its solver the clauses pushed since
its last call, in the order of the calls of `push`. -/
theorem fed_update {N p c : Nat} {sb : SharedBase} {pushed : List (List Nat × Nat)}
    {k : Nat} {ch : Nat → List Nat} {d : Nat} (solver : Solver)
    (h : FedOK N p c sb pushed k ch d) (hN : 3 ≤ N) (hN2 : N < 2 ^ 32) (hp1 : 1 ≤ p)
    (hp : p < N) (hc : c < N) (hpc : c ≠ p) :
    ∃ sb1, update sb c solver = some (sb1, importClauses (pushed.drop k) solver) ∧
      FedOK N p c sb1 pushed pushed.length ch d := by
  have ht := h.threads
  have hp' : p < sb.threads := by rw [ht]; exact hp
  have hc' : c < sb.threads := by rw [ht]; exact hc
  have hlow := h.low
  have hupto := h.upto
  obtain ⟨sb1, e1, e2, e3, e4, e5, e6, e7, e8⟩ := update_spec h.ex hc' solver
  have hcnt := counted_update h.ex h.cnt (by rw [ht]; exact soleReader_le N p c hN)
    (by rw [ht]; exact hN2) hc'
    (fun i _ _ _ => by
      by_cases hip : i = p
      · left
        subst hip
        simp [soleReader]
      · right
        exact h.others i hip) e3 e5 e6 e7 e8
  have hpend : pending (ch p) ((sb.Lists.getD p default).sidx.getD c none) =
      List.range' k (pushed.length - k) := by
    rw [h.cursor]
    by_cases hk : k = 0
    · rw [if_pos hk]
      subst hk
      have hd : d = 0 := by omega
      subst hd
      unfold pending
      exact h.own
    · rw [if_neg hk]
      unfold pending
      dsimp only
      rw [h.own, indexOf_range' _ _ _ hlow (by omega)]
      have hsplit := range'_split _ _ d (pushed.length - d)
        (List.take_append_drop (k - 1 - d + 1) (List.range' d (pushed.length - d)))
      have hlen : ((List.range' d (pushed.length - d)).take (k - 1 - d + 1)).length =
          k - d := by
        rw [List.length_take, List.length_range']
        omega
      rw [hsplit.2, hlen]
      congr 1 <;> omega
  have himp : importFrom sb ch c (sb.threads - 1) 1 solver =
      importClauses (pushed.drop k) solver := by
    rw [importFrom_readFrom, readFrom_single sb ch hpc h.others, if_pos (by omega), hpend]
    apply importAll_range' sb.nodes pushed _ _ solver (by omega)
    intro j hj1 hj2
    have hmem : j ∈ ch p := by
      rw [h.own, List.mem_range'_1]
      omega
    obtain ⟨n, hn⟩ := isChain_live (h.ex.chain p hp').1 j hmem
    exact ⟨n, hn, h.clause j n hn⟩
  rw [himp] at e1
  refine ⟨sb1, e1, ⟨e3.trans ht, e2, hcnt, h.others, h.own, by omega, Nat.le_refl _,
    e4.1.trans h.len, ?_, ?_, ?_⟩⟩
  · intro j hj
    have := e4.2 j
    rw [h.gone j hj] at this
    cases hn : sb1.nodes.getD j none with
    | none => rfl
    | some n => rw [hn] at this; exact Option.noConfusion this
  · intro j n hn
    have := e4.2 j
    rw [hn] at this
    cases hn0 : sb.nodes.getD j none with
    | none => rw [hn0] at this; exact Option.noConfusion this
    | some n0 =>
      rw [hn0] at this
      have heq : (n.learn, n.nblevels, n.next) = (n0.learn, n0.nblevels, n0.next) :=
        Option.some.inj this
      rw [← h.clause j n0 hn0]
      simp only [Prod.mk.injEq] at heq
      rw [heq.1, heq.2.1]
  · rw [e6 p hp1 hp' (Ne.symm hpc)]
    dsimp only
    rw [getD_set_self' _ _ _ _ (by rw [h.ex.sidx_len p hp']; exact hc'), h.own]
    by_cases hl : pushed.length = 0
    · rw [if_pos hl, hl, Nat.zero_sub]
      rfl
    · rw [if_neg hl]
      have e : pushed.length - d = (pushed.length - d - 1) + 1 := by omega
      rw [e, getLast?_range']
      congr 1
      omega

/-- In every state the two threads reach, the exchange is as `FedOK` describes. -/
theorem feeds_inv {N p c : Nat} (hN : 3 ≤ N) (hN2 : N < 2 ^ 32) (hp1 : 1 ≤ p) (hp : p < N)
    (hc : c < N) (hpc : c ≠ p) {sb : SharedBase} {pushed : List (List Nat × Nat)} {k : Nat}
    (h : Feeds N p c sb pushed k) : ∃ ch d, FedOK N p c sb pushed k ch d := by
  induction h with
  | init => exact ⟨_, _, fed_new N p c hp⟩
  | push learn nblev solver _ hpush ih =>
    obtain ⟨ch, d, hf⟩ := ih
    obtain ⟨sb2, ch2, d2, e1, e2⟩ := fed_push learn nblev solver hf hN hN2 hp hc
    rw [e1] at hpush
    have := Option.some.inj hpush
    subst this
    exact ⟨ch2, d2, e2⟩
  | update solver _ hupd ih =>
    obtain ⟨ch, d, hf⟩ := ih
    obtain ⟨sb2, e1, e2⟩ := fed_update solver hf hN hN2 hp1 hp hc hpc
    rw [e1] at hupd
    have := Option.some.inj hupd
    subst this
    exact ⟨ch, d, e2⟩

/-- The counter of a node that is not deleted: `threads - 2`, less one when the cursor of
the reader has gone past the node. -/
theorem fed_cref {N p c : Nat} {sb : SharedBase} {pushed : List (List Nat × Nat)}
    {k : Nat} {ch : Nat → List Nat} {d : Nat} (h : FedOK N p c sb pushed k ch d)
    (hp : p < N) (hc : c < N) {j : Nat} {n : Elearn} (hn : sb.nodes.getD j none = some n) :
    n.cref + (if j + 1 < k then 1 else 0) = N - 2 := by
  have ht := h.threads
  have hlow := h.low
  have hupto := h.upto
  have hjl : j < pushed.length := by rw [← h.len]; exact lt_of_getD_some hn
  have hdj : d ≤ j := by
    by_contra hlt
    rw [h.gone j (by omega)] at hn
    exact Option.noConfusion hn
  have hidx : (ch p).getD (j - d) 0 = j := by
    rw [h.own, List.getD_eq_getElem _ _ (by rw [List.length_range']; omega),
      List.getElem_range'_1]
    omega
  have := h.cnt.count p (by rw [ht]; exact hp) (j - d)
    (by rw [h.own, List.length_range']; omega) n (by rw [hidx]; exact hn)
  rw [pastCount_sole _ _ _ (by rw [ht]; exact hc), ht, h.cursor] at this
  rw [← this]
  congr 1
  by_cases hk : k = 0
  · rw [if_pos hk, if_neg (by omega)]
    rw [if_neg]
    exact Nat.not_lt_zero _
  · rw [if_neg hk]
    unfold cursorIdx
    dsimp only
    rw [h.own, indexOf_range' _ _ _ hlow (by omega)]
    by_cases hjk : j + 1 < k
    · rw [if_pos hjk, if_pos (by omega)]
    · rw [if_neg hjk, if_neg (by omega)]

theorem pushedTwice_feeds : Feeds 3 1 2 pushedTwice [([0, 2], 2), ([1, 3], 2)] 0 := by
  have h1 : Feeds 3 1 2 pushedOnce [([0, 2], 2)] 0 :=
    Feeds.push [0, 2] 2 searchingSolver Feeds.init (by rfl)
  exact Feeds.push [1, 3] 2 searchingSolver h1 (by rfl)

theorem importNode_frozen (s : Solver) (learn : List Nat) (k : Nat) (h : learn.length ≠ 1) :
    (importNode s learn k).frozen_clauses =
      (storeImported s learn k).frozen_clauses ++
        [mkFreeze 0 (Solver.to_freeze (storeImported s learn k) s.ca.mem.length).1] ∧
    (importNode s learn k).watches = (storeImported s learn k).watches ∧
    (importNode s learn k).watchesBin = (storeImported s learn k).watchesBin := by
  unfold importNode
  dsimp only
  have hb : ¬ (learn.length == 1) = true := by simpa using h
  rw [if_neg hb]
  unfold claDecayActivity varDecayActivity
  dsimp only
  obtain ⟨w1, w2, w3, _, _⟩ :=
    to_freeze_watches (storeImported s learn k) (s.ca.alloc learn true).1
  exact ⟨by rw [w3]; rfl, w1, w2⟩

/-- The body of the loop of `update`, for a node whose clause `learn` has two literals or
more, with the variables of its first two literals known to the solver: the clause is
allocated at the end of the arena as a learnt clause with the `nblevels` of the node as its
LBD, its handle is pushed on `learnts`, the clause is attached, and the entry appended to
`frozen_clauses` is `mkFreeze(0, to_freeze(cr))`, whose counter is 0 and whose flag is
`true`, since `to_freeze` answers `true` for every clause. -/
theorem importNode_spec (solver : Solver) (learn : List Nat) (k : Nat)
    (h2 : 2 ≤ learn.length)
    (h0 : neg (learn.getD 0 0) < solver.watches.occs.length ∧
          neg (learn.getD 0 0) < solver.watchesBin.occs.length)
    (h1 : neg (learn.getD 1 0) < solver.watches.occs.length ∧
          neg (learn.getD 1 0) < solver.watchesBin.occs.length) :
    (importNode solver learn k).learnts = solver.learnts ++ [solver.ca.mem.length] ∧
    ((importNode solver learn k).ca.get solver.ca.mem.length).lits = learn ∧
    ((importNode solver learn k).ca.get solver.ca.mem.length).learnt = true ∧
    ((importNode solver learn k).ca.get solver.ca.mem.length).lbd = k ∧
    Solver.attached (importNode solver learn k) solver.ca.mem.length ∧
    (importNode solver learn k).frozen_clauses =
      solver.frozen_clauses ++
        [mkFreeze 0 (Solver.to_freeze (storeImported solver learn k) solver.ca.mem.length).1] ∧
    mkFreeze 0 (Solver.to_freeze (storeImported solver learn k) solver.ca.mem.length).1 =
      ⟨0, true⟩ := by
  have hne : learn.length ≠ 1 := by omega
  obtain ⟨e1, e2⟩ := importNode_stored solver learn k hne
  obtain ⟨f1, f2, f3⟩ := importNode_frozen solver learn k hne
  obtain ⟨a1, a2, a3, a4, a5, a6⟩ := Solver.store_spec solver
    { solver with ca := (solver.ca.alloc learn true).2.modify (solver.ca.alloc learn true).1
                    (fun c => { c with lbd := k }),
                  learnts := solver.learnts ++ [(solver.ca.alloc learn true).1] }
    learn k rfl rfl rfl h0 h1
  have hs : storeImported solver learn k =
      Solver.claBumpActivity (Solver.attachClause
        { solver with ca := (solver.ca.alloc learn true).2.modify (solver.ca.alloc learn true).1
                        (fun c => { c with lbd := k }),
                      learnts := solver.learnts ++ [(solver.ca.alloc learn true).1] }
        solver.ca.mem.length) solver.ca.mem.length := rfl
  rw [← hs] at a1 a2 a3 a4 a5 a6
  refine ⟨e1.trans a2, ?_, ?_, ?_, ?_, ?_, ?_⟩
  · rw [e2]; exact a4
  · rw [e2]; exact a5
  · rw [e2]; exact a6
  · exact Solver.attached_congr a1 (by rw [e2]) f2 f3
  · rw [f1, a3]
  · rw [Solver.to_freeze_true]
    rfl

theorem readTwice_listOK :
    ListOK readTwice.nodes (readTwice.Lists.getD 1 default) [0, 1] :=
  ⟨by decide, by decide, by decide⟩

theorem crefZero_false_live {nodes : List (Option Elearn)} {a : Nat} {n : Elearn}
    (hn : nodes.getD a none = some n) (h : crefZero nodes a = false) : n.cref ≠ 0 := by
  unfold crefZero at h
  rw [hn] at h
  simpa using h

theorem head_dropWhile_false {p : Nat → Bool} : ∀ {xs : List Nat} {a : Nat},
    (xs.dropWhile p).head? = some a → p a = false
  | [], _, h => by simp at h
  | x :: xs, a, h => by
    rw [List.dropWhile_cons] at h
    by_cases hx : p x = true
    · rw [if_pos hx] at h
      exact head_dropWhile_false h
    · rw [if_neg hx] at h
      have : x = a := by simpa using h
      rw [← this]
      simpa using hx

end SharedBase

namespace Solver

/-! ## The claims -/

/-- C2 (fails on the code, with `ccmin-mode` 1): the clauses of `basicMinClauses` are satisfied by
`x1, ¬x2, x3, x4`, and `solve_` with an empty assumption list returns `l_False` on them and
clears `ok`; with the deep minimisation (`ccmin-mode` 2) the same input yields `l_True`. -/
theorem C2_basic_minimisation_reports_unsat :
    satisfiesAll [true, false, true, true] basicMinClauses = true ∧
    ((problem { Options.defaults with ccmin_mode := 1 } [true, true, true, false]
        basicMinClauses).bind (fun s => solve 0 20 s [])).map (fun r => (r.1, r.2.ok))
      = some (l_False, false) ∧
    ((problem { Options.defaults with ccmin_mode := 2 } [true, true, true, false]
        basicMinClauses).bind (fun s => solve 0 20 s [])).map (fun r => (r.1, r.2.model))
      = some (l_True, [l_True, l_False, l_True, l_True]) := by
  decide

/-- C3: in a state with `ok = false`, `addClause_` returns false and leaves the state as it
is, and `solve_`, for every assumption list, returns `l_False` with `model` and `conflict`
empty and `ok` still false. -/
theorem C3_root_unsat_is_sticky (s : Solver) (h : s.ok = false) (ps assumps : List Nat)
    (j0 : Int) (fuel : Nat) :
    addClause_ s ps = some (false, s) ∧
    (∃ t, solve_ j0 fuel s = some (l_False, t) ∧ t.ok = false ∧ t.model = [] ∧ t.conflict = []) ∧
    (∃ t, solve j0 fuel s assumps = some (l_False, t) ∧ t.ok = false ∧ t.model = [] ∧
      t.conflict = []) := by
  have h1 : solve_ j0 fuel s = some (l_False, { s with model := [], conflict := [] }) := by
    unfold solve_
    simp only [h, Bool.not_false, if_true]
  have h2 : solve j0 fuel s assumps =
      some (l_False, { s with assumptions := assumps, model := [], conflict := [] }) := by
    unfold solve solve_
    simp only [h, Bool.not_false, if_true]
  exact ⟨by simp [addClause_, h], ⟨_, h1, h, rfl, rfl⟩, ⟨_, h2, h, rfl, rfl⟩⟩

theorem C3_witness :
    unsatState.ok = false ∧ addClause_ unsatState [0] = some (false, unsatState) ∧
    (∃ t, solve 0 5 unsatState [0] = some (l_False, t) ∧ t.ok = false ∧ t.model = [] ∧
      t.conflict = []) :=
  ⟨by decide, (C3_root_unsat_is_sticky unsatState (by decide) [0] [0] 0 5).1,
    (C3_root_unsat_is_sticky unsatState (by decide) [0] [0] 0 5).2.2⟩

/-- C4: at level 0 with `ok = true`, an input over existing variables (their watch lists
exist), without true literal and without complementary pair, that has two distinct
non-false literals makes `addClause_` return true after storing
exactly one clause: the arena and `clauses` grow by the new handle, the clause is original
and attached, and its literals are the non-false input literals in strictly increasing
order. Trail, assignment and `ok` are unchanged. -/
theorem C4_clause_is_stored (s : Solver) (ps : List Nat) (_hlvl : s.decisionLevel = 0)
    (hok : s.ok = true) (hT : ∀ x ∈ ps, s.value x ≠ l_True) (hC : ∀ x ∈ ps, neg x ∉ ps)
    (h2 : ∃ a ∈ ps, ∃ b ∈ ps, a ≠ b ∧ s.value a ≠ l_False ∧ s.value b ≠ l_False)
    (hW : ∀ x ∈ ps, neg x < s.watches.occs.length ∧ neg x < s.watchesBin.occs.length) :
    ∃ t, addClause_ s ps = some (true, t) ∧
      t.clauses = s.clauses ++ [s.ca.mem.length] ∧
      t.ca.mem.length = s.ca.mem.length + 1 ∧
      (∀ cr, cr < s.ca.mem.length → t.ca.get cr = s.ca.get cr) ∧
      attached t s.ca.mem.length ∧
      (t.ca.get s.ca.mem.length).learnt = false ∧
      (t.ca.get s.ca.mem.length).lits.Sorted (fun a b => a < b) ∧
      (∀ x, x ∈ (t.ca.get s.ca.mem.length).lits ↔ x ∈ ps ∧ s.value x ≠ l_False) ∧
      t.trail = s.trail ∧ t.assigns = s.assigns ∧ t.ok = true := by
  obtain ⟨qs, hs, hm, hlen, hadd⟩ := addClause_store s ps hok hT hC h2
  have hget : ({ s with ca := (s.ca.alloc qs false).2,
                        clauses := s.clauses ++ [s.ca.mem.length] } : Solver).ca.get
      s.ca.mem.length =
      { lits := qs, learnt := false, lbd := 0, activity := ⟨0, 1⟩, mark := 0, canBeDel := true,
        reloced := false, relocation := 0 } := get_alloc s.ca qs false
  have h0 : qs.getD 0 0 ∈ ps := ((hm _).1 (by
    rw [List.getD_eq_getElem _ _ (by omega)]; exact List.getElem_mem _)).1
  have h1 : qs.getD 1 0 ∈ ps := ((hm _).1 (by
    rw [List.getD_eq_getElem _ _ (by omega)]; exact List.getElem_mem _)).1
  obtain ⟨ha, hca, hcl, htr, has, hok'⟩ := attachClause_attached
    { s with ca := (s.ca.alloc qs false).2, clauses := s.clauses ++ [s.ca.mem.length] }
    s.ca.mem.length (by rw [hget]; exact hW _ h0) (by rw [hget]; exact hW _ h1)
  refine ⟨_, hadd, hcl, ?_, ?_, ha, ?_, ?_, ?_, htr, has, hok'.trans hok⟩
  · rw [hca]; simp [ClauseAllocator.alloc]
  · intro cr hcr
    rw [hca]
    simp [ClauseAllocator.alloc, ClauseAllocator.get, List.getD_eq_getElem?_getD,
      List.getElem?_append_left hcr]
  · rw [hca, hget]
  · rw [hca, hget]; exact hs
  · rw [hca, hget]; exact hm

theorem C4_witness :
    ∃ t, addClause_ twoVars [2, 0, 2] = some (true, t) ∧ t.clauses = [0] ∧
      attached t 0 ∧ (t.ca.get 0).lits.Sorted (fun a b => a < b) ∧
      (∀ x, x ∈ (t.ca.get 0).lits ↔ x ∈ [2, 0, 2] ∧ twoVars.value x ≠ l_False) := by
  obtain ⟨t, h1, h2, _, _, h5, _, h7, h8, _⟩ := C4_clause_is_stored twoVars [2, 0, 2] (by decide)
    (by decide) (by decide) (by decide) ⟨2, by decide, 0, by decide, by decide, by decide, by decide⟩
    (by decide)
  exact ⟨t, h1, h2, h5, h7, h8⟩

/-- C5 as stated fails: in the state reached by `addClause_([x1])`, `addClause_([¬x1])`, where
`ok` is false, the input `[x1, ¬x1]` holds a literal and its negation and `addClause_`
returns false. -/
theorem C5_counterexample :
    (0 ∈ [0, 1] ∧ neg 0 ∈ [0, 1]) ∧ (addClause_ unsatState [0, 1]).map Prod.fst = some false := by
  decide

/-- C5 (amended): in a state with `ok = true`, an input that holds a literal and its negation,
or a literal that is true, makes `addClause_` return true and leave the whole state, hence
clauses, watch indices, trail, assignment and `ok`, as it is. -/
theorem C5_tautology_or_satisfied_is_dropped (s : Solver) (ps : List Nat) (hok : s.ok = true)
    (h : (∃ l ∈ ps, neg l ∈ ps) ∨ (∃ l ∈ ps, s.value l = l_True)) :
    addClause_ s ps = some (true, s) :=
  addClause_tautology s ps hok h

theorem C5_witness :
    oneVar.ok = true ∧ addClause_ oneVar [0, 1, 0] = some (true, oneVar) ∧
    unitState.value 0 = l_True ∧ addClause_ unitState [0] = some (true, unitState) :=
  ⟨by decide,
   C5_tautology_or_satisfied_is_dropped oneVar [0, 1, 0] (by decide)
     (Or.inl ⟨0, by decide, by decide⟩),
   by decide,
   C5_tautology_or_satisfied_is_dropped unitState [0] (by decide)
     (Or.inr ⟨0, by decide, by decide⟩)⟩

/-- C6: when every literal of the input is false (the empty input included), `addClause_`
returns false and leaves `ok = false`; and when `addClause_([l])` has returned true for an
unassigned literal `l` of an existing variable in a state with `ok = true`, the call
`addClause_([~l])` returns false and leaves `ok = false`. -/
theorem C6_all_false_clears_ok (s : Solver) (ps : List Nat) (h : ∀ x ∈ ps, s.value x = l_False) :
    (∃ t, addClause_ s ps = some (false, t) ∧ t.ok = false) ∧
    (∀ (u u1 : Solver) (l : Nat), u.ok = true → var l < u.assigns.length → u.value l = l_Undef →
      addClause_ u [l] = some (true, u1) →
      ∃ u2, addClause_ u1 [neg l] = some (false, u2) ∧ u2.ok = false) :=
  ⟨addClause_all_false s ps h,
   fun u u1 l hok hvar hv hadd => (addClause_unit_then_neg u l u1 hok hvar hv hadd).2⟩

theorem C6_witness :
    (∃ t, addClause_ unitState [1, 1] = some (false, t) ∧ t.ok = false) ∧
    (∃ t, addClause_ oneVar [] = some (false, t) ∧ t.ok = false) ∧
    (addClause_ oneVar [0] = some (true, unitState) ∧
      ∃ u2, addClause_ unitState [neg 0] = some (false, u2) ∧ u2.ok = false) :=
  ⟨(C6_all_false_clears_ok unitState [1, 1] (by decide)).1,
   (C6_all_false_clears_ok oneVar [] (by decide)).1,
   rfl,
   (C6_all_false_clears_ok oneVar [] (by decide)).2 oneVar unitState 0 (by decide) (by decide)
     (by decide) rfl⟩

/-- C7: at level 0 with `ok = true`, in a state whose watchers, clauses and trail name
existing variables and clauses, when the input holds the unassigned literal `l` and
otherwise only false literals, `addClause_` enqueues `l` at level 0 without reason and runs
`propagate`, which comes back; the value returned and `ok` are both
`propagate() == CRef_Undef`, no clause is stored, and when that value is true `l` is true
at level 0. -/
theorem C7_unit_is_enqueued (s : Solver) (ps : List Nat) (l : Nat) (hok : s.ok = true)
    (hlvl : s.decisionLevel = 0) (hr : RangeInv s) (hvar : var l < s.assigns.length)
    (hvd : var l < s.vardata.length) (hl : l ∈ ps) (hlU : s.value l = l_Undef)
    (hF : ∀ x ∈ ps, x ≠ l → s.value x = l_False) :
    (uncheckedEnqueue s l none).trail = s.trail ++ [l] ∧
    (uncheckedEnqueue s l none).value l = l_True ∧
    (uncheckedEnqueue s l none).level (var l) = 0 ∧
    (uncheckedEnqueue s l none).reason (var l) = none ∧
    ∃ confl t, propagate (uncheckedEnqueue s l none) = some (confl, t) ∧
      addClause_ s ps = some (confl == none, { t with ok := (confl == none) }) ∧
      t.clauses = s.clauses ∧ t.ca.mem.length = s.ca.mem.length ∧
      (confl = none → t.value l = l_True ∧ t.level (var l) = 0 ∧ t.reason (var l) = none) := by
  have hval : (uncheckedEnqueue s l none).value l = l_True := by
    show ((uncheckedEnqueue s l none).assigns.getD (var l) l_Undef).xor (sign l) = l_True
    rw [value_enqueue s l none hvar]; exact ofBool_xor _
  have hvd' : (uncheckedEnqueue s l none).vardata.getD (var l) default = mkVarData none 0 := by
    simp [uncheckedEnqueue, List.getD_eq_getElem?_getD, List.getElem?_set_self hvd, hlvl]
  have hlev : (uncheckedEnqueue s l none).level (var l) = 0 := by
    unfold level; rw [hvd']; rfl
  have hrea : (uncheckedEnqueue s l none).reason (var l) = none := by
    unfold reason; rw [hvd']; rfl
  refine ⟨rfl, hval, hlev, hrea, ?_⟩
  obtain ⟨⟨confl, t⟩, hp⟩ := propagate_some _ (enqueue_rangeInv s l hr hvar hlU)
  have hfr := propagate_frame _ _ hp
  have hk := hfr.keep (var l) (by rw [value_enqueue s l none hvar]; exact ofBool_ne_undef _)
  refine ⟨confl, t, hp, ?_, hfr.clauses_eq, hfr.mem_len, ?_⟩
  · rw [addClause_unit s ps l hok hl hlU hF, hp]
  · intro _
    refine ⟨?_, ?_, ?_⟩
    · show (t.assigns.getD (var l) l_Undef).xor (sign l) = l_True
      rw [hk.1]; exact hval
    · unfold level; rw [hk.2]; exact hlev
    · unfold reason; rw [hk.2]; exact hrea

theorem C7_witness :
    ∃ confl t, propagate (uncheckedEnqueue oneVar 0 none) = some (confl, t) ∧
      addClause_ oneVar [0, 0] = some (confl == none, { t with ok := (confl == none) }) ∧
      t.clauses = oneVar.clauses := by
  obtain ⟨_, _, _, _, confl, t, h1, h2, h3, _⟩ := C7_unit_is_enqueued oneVar [0, 0] 0 (by decide)
    (by decide) ⟨by decide, by decide, by decide, by decide⟩ (by decide) (by decide) (by decide)
    (by decide) (by decide)
  exact ⟨confl, t, h1, h2, h3⟩

/-- C8: on a freshly constructed solver (0 variables, 0 clauses, no assumptions), with any
options whose `firstReduceDB` is above 0 (the default is 4000), `solve_` returns `l_True`
with an empty model and `ok` still true, as soon as one round of `search` is allowed. -/
theorem C8_fresh_solver_is_sat (o : Options) (h : 0 < o.firstReduceDB) (j0 : Int) (fuel : Nat)
    (hf : 0 < fuel) :
    (Solver.new o).nVars = 0 ∧ (Solver.new o).clauses = [] ∧ (Solver.new o).assumptions = [] ∧
    ∃ t, solve_ j0 fuel (Solver.new o) = some (l_True, t) ∧ t.model = [] ∧ t.ok = true := by
  obtain ⟨t, h1, h2, h3, _⟩ := solve_fresh o h j0 fuel hf
  exact ⟨rfl, rfl, rfl, t, h1, h2, h3⟩

theorem C8_witness :
    ∃ t, solve_ 0 1 (Solver.new Options.defaults) = some (l_True, t) ∧ t.model = [] ∧
      t.ok = true :=
  (C8_fresh_solver_is_sat Options.defaults (by decide) 0 1 (by decide)).2.2.2

/-- C9: let `search` reach its loop over the assumptions in a state `s` (trail consistent,
`seen` clear, every reason-free literal above the first fence an assumption) whose next
assumption `a` is false. Then the round ends with `l_False` and the state of
`analyzeFinal(~a)`, so does `search` for a round without conflict or restart; `conflict`
starts with `~a`, each other element is the negation of a reason-free trail literal of
level above 0, which is an assumption and takes part in the derivation of `~a`; `ok` is
unchanged, also by the end of `solve_`. On `(x1 ∨ x2)` with assumptions `¬x1, ¬x2`, `solve`
returns `l_False` with `conflict = [x2, x1]` and `ok = true`. -/
theorem C9_false_assumption_gives_final_conflict (j0 : Int) (b : Bool) (s : Solver)
    (hwf : TrailWF s) (hseen : ∀ x ∈ s.seen, x = false)
    (hdec : ∀ t ∈ s.trail.drop (s.trail_lim.getD 0 0), s.reason (var t) = none →
      t ∈ s.assumptions)
    (hlt : s.decisionLevel < s.assumptions.length)
    (ha : s.value (s.assumptions.getD s.decisionLevel 0) = l_False) :
    searchDecide b s =
      SearchStep.ret l_False (analyzeFinal s (neg (s.assumptions.getD s.decisionLevel 0))) ∧
    (∀ (fuel : Nat) (s0 s1 s2 : Solver), propagate s0 = some (none, s1) →
      restartTest s1 = false →
      (if s1.decisionLevel == 0 then simplify s1 else some (true, s1)) = some (true, s2) →
      reduceStep j0 s2 = some s →
      searchLoop j0 (fuel + 1) b s0 =
        some (l_False, analyzeFinal s (neg (s.assumptions.getD s.decisionLevel 0)))) ∧
    (analyzeFinal s (neg (s.assumptions.getD s.decisionLevel 0))).ok = s.ok ∧
    (solveFinish l_False (analyzeFinal s (neg (s.assumptions.getD s.decisionLevel 0)))).ok = s.ok ∧
    (∃ ds, (analyzeFinal s (neg (s.assumptions.getD s.decisionLevel 0))).conflict =
        neg (s.assumptions.getD s.decisionLevel 0) :: ds ∧
      ∀ q ∈ ds, ∃ t ∈ s.trail, q = neg t ∧ s.reason (var t) = none ∧ 0 < s.level (var t) ∧
        t ∈ s.assumptions ∧
        DerivedFrom s (var (neg (s.assumptions.getD s.decisionLevel 0))) (var t)) ∧
    (solve 0 10 orProblem [1, 3]).map (fun r => (r.1, r.2.conflict, r.2.ok))
      = some (l_False, [2, 0], true) := by
  have hround : searchDecide b s =
      SearchStep.ret l_False (analyzeFinal s (neg (s.assumptions.getD s.decisionLevel 0))) := by
    unfold searchDecide
    rw [assumeLoop_false s hlt ha]
  obtain ⟨h1, _, _, _, _, ds, h6, h7⟩ :=
    analyzeFinal_derived s (neg (s.assumptions.getD s.decisionLevel 0)) (seen_clear hseen)
  refine ⟨hround, ?_, h1, ?_, ⟨ds, h6, ?_⟩, by decide⟩
  · intro fuel s0 s1 s2 hp hr hs hd
    exact searchLoop_of_round j0 fuel b s0 s1 s2 s hp hr hs hd _ hround
  · rw [(solveFinish_conflict _ (by rw [h6]; simp)).1, h1]
  · intro q hq
    obtain ⟨hpos, t, ht, hq1, hq2, hq3⟩ := h7 q hq
    obtain ⟨hmem, hlev⟩ := level_pos_of_above_fence s hwf hpos t ht
    exact ⟨t, hmem, hq1, hq2, hlev, hdec t ht hq2, hq3⟩

theorem C9_witness :
    orAtAssumptions.assumptions.getD orAtAssumptions.decisionLevel 0 = 3 ∧
    searchDecide false orAtAssumptions = SearchStep.ret l_False (analyzeFinal orAtAssumptions 2) ∧
    (analyzeFinal orAtAssumptions 2).conflict = [2, 0] :=
  ⟨by decide,
   (C9_false_assumption_gives_final_conflict 0 false orAtAssumptions orAtAssumptions_wf
     (by decide) (by decide) (by decide) (by decide)).1,
   by decide⟩

/-- C10: for a state whose trail, `trail_lim` and `assigns` are consistent and a level
`d ≤ decisionLevel()`, after `cancelUntil(d)` the decision level and the size of
`trail_lim` are `d`, the recorded levels are untouched, every variable whose recorded level
is above `d` is unassigned, and every variable assigned at a level `≤ d` keeps its value. -/
theorem C10_cancelUntil_levels (s : Solver) (hwf : TrailWF s) (d : Nat)
    (hd : d ≤ s.decisionLevel) :
    (cancelUntil s d).decisionLevel = d ∧ (cancelUntil s d).trail_lim.length = d ∧
    (cancelUntil s d).vardata = s.vardata ∧
    (∀ x, d < (cancelUntil s d).level x → (cancelUntil s d).valueVar x = l_Undef) ∧
    (∀ x, s.valueVar x ≠ l_Undef → s.level x ≤ d →
      (cancelUntil s d).valueVar x = s.valueVar x) :=
  cancelUntil_spec s hwf d hd

theorem C10_witness :
    orAtAssumptions.decisionLevel = 1 ∧ orAtAssumptions.valueVar 1 = l_True ∧
    orAtAssumptions.level 1 = 1 ∧ (cancelUntil orAtAssumptions 0).decisionLevel = 0 ∧
    (cancelUntil orAtAssumptions 0).valueVar 1 = l_Undef :=
  ⟨by decide, by decide, by decide,
   (C10_cancelUntil_levels orAtAssumptions orAtAssumptions_wf 0 (by decide)).1,
   (C10_cancelUntil_levels orAtAssumptions orAtAssumptions_wf 0 (by decide)).2.2.2.1 1
     (by decide)⟩

/-- C11: in every reachable solver state `qhead ≤ trail.size()`, and when `propagate`
returns `CRef_Undef` from such a state, `qhead = trail.size()` in the state it leaves.  The
reachable states are closed under `uncheckedEnqueue`, `propagate` and `cancelUntil`. -/
theorem C11_qhead_within_trail (s : Solver) (h : Reachable s) :
    s.qhead ≤ s.trail.length ∧
    (∀ r, propagate s = some r → r.1 = none → r.2.qhead = r.2.trail.length) ∧
    (∀ p frm, (uncheckedEnqueue s p frm).qhead ≤ (uncheckedEnqueue s p frm).trail.length) ∧
    (∀ r, propagate s = some r → r.2.qhead ≤ r.2.trail.length) ∧
    (∀ lvl, (cancelUntil s lvl).qhead ≤ (cancelUntil s lvl).trail.length) :=
  ⟨(reachable_queueOK h).1,
   fun r hr hn => (propagate_qhead s r hr (reachable_queueOK h).1).2 hn,
   fun p frm => (reachable_queueOK (Reachable.enqueue p frm h)).1,
   fun _ hr => (reachable_queueOK (Reachable.propagate h hr)).1,
   fun lvl => (reachable_queueOK (Reachable.cancel lvl h)).1⟩

theorem C11_witness :
    Reachable (uncheckedEnqueue oneVar 0 none) ∧
    (propagate (uncheckedEnqueue oneVar 0 none)).map (fun r => (r.1, r.2.qhead)) =
      some (none, 1) ∧
    ((uncheckedEnqueue oneVar 0 none).qhead ≤ (uncheckedEnqueue oneVar 0 none).trail.length ∧
    (∀ r, propagate (uncheckedEnqueue oneVar 0 none) = some r → r.1 = none →
      r.2.qhead = r.2.trail.length) ∧
    (∀ p frm, (uncheckedEnqueue (uncheckedEnqueue oneVar 0 none) p frm).qhead ≤
      (uncheckedEnqueue (uncheckedEnqueue oneVar 0 none) p frm).trail.length) ∧
    (∀ r, propagate (uncheckedEnqueue oneVar 0 none) = some r → r.2.qhead ≤ r.2.trail.length) ∧
    (∀ lvl, (cancelUntil (uncheckedEnqueue oneVar 0 none) lvl).qhead ≤
      (cancelUntil (uncheckedEnqueue oneVar 0 none) lvl).trail.length)) :=
  ⟨Reachable.enqueue 0 none (Reachable.newVar true true (Reachable.init Options.defaults)),
   by decide,
   C11_qhead_within_trail (uncheckedEnqueue oneVar 0 none)
     (Reachable.enqueue 0 none (Reachable.newVar true true (Reachable.init Options.defaults)))⟩

/-- C12: the run that contradicts the claim.  On `(¬x1 ∨ x2)`, `(¬x1 ∨ ¬x2)` with `x1` decided
and enqueued, `propagate` enqueues `x2` from the first binary watcher and returns the second
clause as the conflict from inside the loop over the binary watchers: `qhead` is 1 and the
trail holds 2 literals, so the queue is not empty. -/
theorem C12_binary_conflict_leaves_queue :
    binConflictState.qhead = 0 ∧ binConflictState.trail = [0] ∧
    (propagate binConflictState).map (fun r => (r.1, r.2.qhead, r.2.trail)) =
      some (some 1, 1, [0, 2]) := by
  decide

end Solver

namespace SharedBase

open Glucose.Solver

/-- C17 as stated fails: with two threads, the thread 1 pushes a clause while the reduction
of its learnt clauses is due; the new node has the counter 0 and `clean`, called by `push`,
deletes it at once, so the list does not hold the old nodes followed by the new one. -/
theorem C17_counterexample :
    ListOK (SharedBase.new 2).nodes ((SharedBase.new 2).Lists.getD 1 default) [] ∧
    ∃ sb', push (SharedBase.new 2) [0, 2] 2 1 reducingSolver = some sb' ∧
      (sb'.Lists.getD 1 default).head = none ∧ sb'.nodes = [none] ∧
      (sb'.Lists.getD 1 default).nba = 1 ∧
      ¬ ListOK sb'.nodes (sb'.Lists.getD 1 default) ([] ++ [0]) := by
  refine ⟨⟨by decide, by decide, by decide⟩, _, rfl, by decide, by decide, by decide, ?_⟩
  intro h
  exact absurd h.1 (by decide)

/-- C17, amended: for a thread `id` of `N ≥ 2` whose list holds the nodes `xs`, `push`
makes one node with the literals, the lbd and `cref = N - 2` and links it behind `xs`;
`nba` grows by one; when `conflicts ≥ curRestart * nbclausesbeforereduce`, `clean` then
deletes the leading nodes whose counter is 0; the other lists and all cursors do not
change. -/
theorem C17_push_appends_then_cleans (sb : SharedBase) (learn : List Nat) (nblev id : Nat)
    (solver : Solver) (xs : List Nat) (hN : 2 ≤ sb.threads) (hN2 : sb.threads < 2 ^ 32)
    (hid : id < sb.Lists.length) (hok : ListOK sb.nodes (sb.Lists.getD id default) xs) :
    ∃ sb', push sb learn nblev id solver = some sb' ∧
      PushPost sb learn nblev id solver xs sb' := by
  have hcref : (sb.threads + 2 ^ 32 - 2) % 2 ^ 32 = sb.threads - 2 := by
    have : sb.threads + 2 ^ 32 - 2 = (sb.threads - 2) + 2 ^ 32 := by omega
    rw [this, Nat.add_mod_right, Nat.mod_eq_of_lt (by omega)]
  obtain ⟨sb', h1, h2, h3, _, h5, h6, h7, h8, h9, h10⟩ :=
    push_spec sb learn nblev id solver xs hid hok
  refine ⟨sb', h1, h2, h3, h5, ?_, h7, h8, ?_, ?_⟩
  · intro i
    by_cases hi : i = id
    · rw [hi]; exact h6
    · rw [h5 i hi]
  · intro hc
    obtain ⟨a, b, c, d⟩ := h9 hc
    rw [hcref] at c
    exact ⟨a, b, c, d⟩
  · intro hc
    obtain ⟨a, b, c, d⟩ := h10 hc
    refine ⟨?_, a, b, c, d⟩
    rw [← hcref]
    exact getD_append_length _ _ _

theorem C17_witness :
    ListOK (SharedBase.new 3).nodes ((SharedBase.new 3).Lists.getD 1 default) [] ∧
    ∃ sb', push (SharedBase.new 3) [0, 2] 2 1 searchingSolver = some sb' ∧
      PushPost (SharedBase.new 3) [0, 2] 2 1 searchingSolver [] sb' :=
  ⟨⟨by decide, by decide, by decide⟩,
   C17_push_appends_then_cleans (SharedBase.new 3) [0, 2] 2 1 searchingSolver []
     (by decide) (by decide) (by decide) ⟨by decide, by decide, by decide⟩⟩

/-- C20 as stated fails for the producer 0: with two threads, the thread 0 pushes the clause
`(x1 ∨ x2)`, which the thread 1 has not consumed; the loop of `update` starts at the list 1,
so `update` of the thread 1 reads no list and its learnt clauses stay empty. -/
theorem C20_counterexample :
    ∃ sb1, push (SharedBase.new 2) [0, 2] 2 0 searchingSolver = some sb1 ∧
      ListOK sb1.nodes (sb1.Lists.getD 0 default) [0] ∧
      sb1.nodes.getD 0 none = some ⟨[0, 2], 2, none, 0⟩ ∧
      (sb1.Lists.getD 0 default).sidx.getD 1 none = none ∧
      ∃ sb2 solver', update sb1 1 Solver.twoVars = some (sb2, solver') ∧
        solver'.learnts = [] ∧ ¬ Imported solver' [0, 2] := by
  refine ⟨_, rfl, ⟨by decide, by decide, by decide⟩, by decide, by decide, _, _, rfl,
    by decide, ?_⟩
  rintro ⟨cr, hcr, _⟩
  have : (Solver.twoVars).learnts = [] := by decide
  exact absurd hcr (by simp [update, updateFrom, this])

/-- C20, amended: for threads `p ≠ c` of a well-formed exchange with `1 ≤ p`, a node of the
list of `p` that `c` has not consumed and whose clause has two literals at least is among
the learnt clauses of `c` after `c` calls `update`. -/
theorem C20_update_imports_pushed (sb : SharedBase) (ch : Nat → List Nat) (c p b : Nat)
    (nd : Elearn) (solver : Solver) (hex : ExOK sb ch) (hc : c < sb.threads) (hp1 : 1 ≤ p)
    (hp : p < sb.threads) (hpc : p ≠ c)
    (hb : b ∈ pending (ch p) ((sb.Lists.getD p default).sidx.getD c none))
    (hn : sb.nodes.getD b none = some nd) (hl : 2 ≤ nd.learn.length) :
    ∃ sb' solver', update sb c solver = some (sb', solver') ∧ Imported solver' nd.learn := by
  obtain ⟨sb', e1, _⟩ := update_spec hex hc solver
  refine ⟨sb', _, e1, ?_⟩
  exact importFrom_adds sb ch c (sb.threads - 1) 1 solver p b nd hp1 (by omega) hpc hb hn
    (by omega)

theorem C20_witness :
    ExOK pushedOnce pushedOnceChains ∧
    0 ∈ pending (pushedOnceChains 1) ((pushedOnce.Lists.getD 1 default).sidx.getD 2 none) ∧
    pushedOnce.nodes.getD 0 none = some ⟨[0, 2], 2, none, 1⟩ ∧
    ∃ sb' solver', update pushedOnce 2 Solver.twoVars = some (sb', solver') ∧
      Imported solver' [0, 2] :=
  ⟨pushedOnce_ok, by decide, by decide,
   C20_update_imports_pushed pushedOnce pushedOnceChains 2 1 0 ⟨[0, 2], 2, none, 1⟩
     Solver.twoVars pushedOnce_ok (by decide) (by decide) (by decide) (by decide) (by decide)
     (by decide) (by decide)⟩

/-- C18, as stated, fails when the thread 0 counts as a worker: with two threads, the
clause the thread 1 pushes gets a node whose counter is 0 at once, although the thread 0
has consumed nothing and its cursor in the list 1 is null; `clean` of the list 1 then
deletes the node. -/
theorem C18_counterexample :
    Reach 2 loneProducer (fun _ => []) ∧
    push (SharedBase.new 2) [0, 2] 2 1 searchingSolver = some loneProducer ∧
    (loneProducer.Lists.getD 1 default).head = some 0 ∧
    loneProducer.nodes.getD 0 none = some ⟨[0, 2], 2, none, 0⟩ ∧
    (loneProducer.Lists.getD 1 default).sidx.getD 0 none = none ∧
    (cleanList loneProducer 1).map (fun s => s.nodes) = some [none] :=
  ⟨Reach.push 1 [0, 2] 2 searchingSolver Reach.init (by decide) (by decide) (by rfl),
   by rfl, by decide, by decide, by decide, by decide⟩

/-- C18, amended to the workers `1 .. N - 1`: in every state of the exchange of `N ≥ 2`
threads that these workers reach by `push`, `clean` and `update`, the lists are well
formed, holding the nodes `ch`, and a node of the list of the worker `p` whose counter is
0 has been consumed by every other worker `c`, whose cursor points to a later node of the
list.  Hence `clean`, called by itself or at the end of `push`, returns, and every node it
deletes has been consumed by every other worker and is the target of no cursor. -/
theorem C18_zero_counter_consumed (N : Nat) (sb : SharedBase) (seen : Nat → List Nat)
    (h : Reach N sb seen) (hN : 2 ≤ N) (hN2 : N < 2 ^ 32) :
    ∃ ch, ExOK sb ch ∧
      (∀ p b n, 1 ≤ p → p < N → b ∈ ch p → sb.nodes.getD b none = some n → n.cref = 0 →
        ∀ c, 1 ≤ c → c < N → c ≠ p →
          b ∈ seen c ∧ ∃ a, (sb.Lists.getD p default).sidx.getD c none = some a ∧
            (ch p).indexOf b < (ch p).indexOf a) ∧
      (∀ p, 1 ≤ p → p < N → ∃ sb2, cleanList sb p = some sb2 ∧
        ∀ b, sb2.nodes.getD b none = none → sb.nodes.getD b none = none ∨
          (b ∈ ch p ∧ (∀ c, 1 ≤ c → c < N → c ≠ p → b ∈ seen c) ∧
            ∀ i < N, ∀ c < N, (sb2.Lists.getD i default).sidx.getD c none ≠ some b)) ∧
      (∀ p learn nblev solver, 1 ≤ p → p < N →
        ∃ sb2, push sb learn nblev p solver = some sb2 ∧
          ∀ b, b < sb2.nodes.length → sb2.nodes.getD b none = none →
            (b < sb.nodes.length ∧ sb.nodes.getD b none = none) ∨
            ((b ∈ ch p ∨ b = sb.nodes.length) ∧
              (∀ c, 1 ≤ c → c < N → c ≠ p → b ∈ seen c) ∧
              ∀ i < N, ∀ c < N, (sb2.Lists.getD i default).sidx.getD c none ≠ some b)) := by
  obtain ⟨ht, ch, hex, hcnt, hs⟩ := reach_inv hN hN2 h
  subst ht
  refine ⟨ch, hex, ?_, ?_, ?_⟩
  · intro p b n hp1 hp hb hn hz c hc1 hc hne
    exact past_seen hs hp1 hp hc1 hc hne hb
      (counted_zero_past hcnt (readers_le sb.threads hN) hp hb hn hz c hc
        (reads_worker hp1 hc1 hne))
  · intro p hp1 hp
    obtain ⟨sb2, e1, _, _, _, e5⟩ := clean_step hN hex hcnt hs hp1 hp
    exact ⟨sb2, e1, e5⟩
  · intro p learn nblev solver hp1 hp
    obtain ⟨sb2, e1, _, _, e4⟩ := push_step learn nblev solver hN hN2 hex hcnt hs hp1 hp
    exact ⟨sb2, e1, e4⟩

/-- C18 at work: three threads, the worker 1 has pushed two clauses and the worker 2 has
called `update`; the counter of the first node is 0 and the worker 2 has consumed it. -/
theorem C18_witness :
    Reach 3 readTwice readTwiceSeen ∧
    readTwice.nodes.getD 0 none = some ⟨[0, 2], 2, some 1, 0⟩ ∧
    ∃ ch, ExOK readTwice ch ∧
      (∀ p b n, 1 ≤ p → p < 3 → b ∈ ch p → readTwice.nodes.getD b none = some n →
        n.cref = 0 →
        ∀ c, 1 ≤ c → c < 3 → c ≠ p →
          b ∈ readTwiceSeen c ∧
            ∃ a, (readTwice.Lists.getD p default).sidx.getD c none = some a ∧
              (ch p).indexOf b < (ch p).indexOf a) ∧
      (∀ p, 1 ≤ p → p < 3 → ∃ sb2, cleanList readTwice p = some sb2 ∧
        ∀ b, sb2.nodes.getD b none = none → readTwice.nodes.getD b none = none ∨
          (b ∈ ch p ∧ (∀ c, 1 ≤ c → c < 3 → c ≠ p → b ∈ readTwiceSeen c) ∧
            ∀ i < 3, ∀ c < 3, (sb2.Lists.getD i default).sidx.getD c none ≠ some b)) ∧
      (∀ p learn nblev solver, 1 ≤ p → p < 3 →
        ∃ sb2, push readTwice learn nblev p solver = some sb2 ∧
          ∀ b, b < sb2.nodes.length → sb2.nodes.getD b none = none →
            (b < readTwice.nodes.length ∧ readTwice.nodes.getD b none = none) ∨
            ((b ∈ ch p ∨ b = readTwice.nodes.length) ∧
              (∀ c, 1 ≤ c → c < 3 → c ≠ p → b ∈ readTwiceSeen c) ∧
              ∀ i < 3, ∀ c < 3, (sb2.Lists.getD i default).sidx.getD c none ≠ some b)) :=
  ⟨readTwice_reach, by decide,
   C18_zero_counter_consumed 3 readTwice readTwiceSeen readTwice_reach (by decide)
     (by decide)⟩

/-- C19, as stated, fails with two threads: the thread 1 pushes the clause `(x1 ∨ x2)`
when the reduction of its learnt clauses is due, the counter of the new node is 0 and
`clean` deletes the node at once; `update` of the thread 0 then imports nothing, although
one clause has been pushed. -/
theorem C19_counterexample :
    Feeds 2 1 0 drainedProducer [([0, 2], 2)] 0 ∧
    drainedProducer.nodes = [none] ∧
    (update drainedProducer 0 Solver.twoVars).map (fun r => r.2.learnts) = some [] ∧
    (importClauses [([0, 2], 2)] Solver.twoVars).learnts.length = 1 :=
  ⟨Feeds.push [0, 2] 2 reducingSolver Feeds.init (by rfl), by decide, by decide, by decide⟩

/-- C19, amended to `N ≥ 3` threads: when only the thread `p` pushes, into a list
`1 ≤ p < N` that `update` visits, and only the thread `c ≠ p` calls `update`, then with the
clauses `pushed` so far, `k` of them before the last `update` of `c`, the next `update` of
`c` returns and hands to the solver exactly the clauses pushed since, `pushed.drop k`, in
the order of publication; every node that is not deleted holds the clause of its push, and
its counter is `N - 2`, less one exactly when the cursor of `c` has gone past it. -/
theorem C19_fifo_exactly_once (N p c : Nat) (sb : SharedBase)
    (pushed : List (List Nat × Nat)) (k : Nat) (h : Feeds N p c sb pushed k) (hN : 3 ≤ N)
    (hN2 : N < 2 ^ 32) (hp1 : 1 ≤ p) (hp : p < N) (hc : c < N) (hpc : c ≠ p) :
    k ≤ pushed.length ∧
    (∀ solver, ∃ sb1, update sb c solver =
      some (sb1, importClauses (pushed.drop k) solver) ∧ Feeds N p c sb1 pushed pushed.length) ∧
    (∀ j n, sb.nodes.getD j none = some n →
      (n.learn, n.nblevels) = pushed.getD j ([], 0) ∧
      n.cref + (if j + 1 < k then 1 else 0) = N - 2) := by
  obtain ⟨ch, d, hf⟩ := feeds_inv hN hN2 hp1 hp hc hpc h
  refine ⟨hf.upto, ?_, ?_⟩
  · intro solver
    obtain ⟨sb1, e1, _⟩ := fed_update solver hf hN hN2 hp1 hp hc hpc
    exact ⟨sb1, e1, Feeds.update solver h (by rw [e1]; rfl)⟩
  · intro j n hn
    exact ⟨hf.clause j n hn, fed_cref hf hp hc hn⟩

/-- C19 at work: three threads, the thread 1 has pushed `(x1 ∨ x2)` and `(¬x1 ∨ ¬x2)`;
the first `update` of the thread 2 imports the two clauses in this order. -/
theorem C19_witness :
    Feeds 3 1 2 pushedTwice [([0, 2], 2), ([1, 3], 2)] 0 ∧
    0 ≤ [([0, 2], 2), ([1, 3], 2)].length ∧
    (∀ solver, ∃ sb1, update pushedTwice 2 solver =
      some (sb1, importClauses ([([0, 2], 2), ([1, 3], 2)].drop 0) solver) ∧
      Feeds 3 1 2 sb1 [([0, 2], 2), ([1, 3], 2)] [([0, 2], 2), ([1, 3], 2)].length) ∧
    (∀ j n, pushedTwice.nodes.getD j none = some n →
      (n.learn, n.nblevels) = [([0, 2], 2), ([1, 3], 2)].getD j ([], 0) ∧
      n.cref + (if j + 1 < 0 then 1 else 0) = 3 - 2) :=
  ⟨pushedTwice_feeds,
   C19_fifo_exactly_once 3 1 2 pushedTwice [([0, 2], 2), ([1, 3], 2)] 0 pushedTwice_feeds
     (by decide) (by decide) (by decide) (by decide) (by decide) (by decide)⟩

end SharedBase

namespace Solver

/-- C16: when no entry of `permDiff` carries a stamp newer than `MYFLAG`, `MYFLAG` does not
wrap around during the call and every level indexes `permDiff`, the `lbd` that `analyze`
returns is the number of distinct decision levels among the literals of the `out_learnt`
it returns, so `1 ≤ lbd ≤ out_learnt.size()`; and the conflict branch of `search`, above
level 0, calls `analyze` in `conflictState` and records the `out_learnt` returned by this
call, when it has two literals or more, as the new last entry of `learnts`, with these
literals and with the `lbd` returned as its LBD, which is the number of distinct levels of
its literals and lies between 1 and its size; a unit `out_learnt` adds nothing to
`learnts`. -/
theorem C16_lbd_counts_levels (s : Solver) (confl : Nat) (hfresh : StampsFresh s)
    (hwrap : s.MYFLAG + 3 < 2 ^ 32) (hlev : ∀ x, s.level x < s.permDiff.length) :
    (∀ out bt lbd s', analyze s confl = some (out, bt, lbd, s') →
      lbd = ((out.map (fun q => s.level (var q))).dedup).length ∧ 1 ≤ lbd ∧
        lbd ≤ out.length) ∧
    (∀ blocked step, s.decisionLevel ≠ 0 → searchConflict blocked s confl = some step →
      ∃ b t out bt lbd s',
        analyze (conflictState blocked s) confl = some (out, bt, lbd, s') ∧
        step = SearchStep.next b t ∧
        lbd = ((out.map (fun q => s.level (var q))).dedup).length ∧
        (out.length = 1 → t.learnts = s'.learnts) ∧
        (out.length ≠ 1 → t.learnts = s'.learnts ++ [s'.ca.mem.length] ∧
          (t.ca.get s'.ca.mem.length).lits = out ∧
          (t.ca.get s'.ca.mem.length).lbd = lbd ∧
          1 ≤ (t.ca.get s'.ca.mem.length).lbd ∧
          (t.ca.get s'.ca.mem.length).lbd ≤ (t.ca.get s'.ca.mem.length).size)) := by
  have hbound : ∀ out : List Nat, 1 ≤ out.length →
      1 ≤ ((out.map (fun q => s.level (var q))).dedup).length ∧
      ((out.map (fun q => s.level (var q))).dedup).length ≤ out.length := by
    intro out ho
    refine ⟨dedup_length_pos ?_, ?_⟩
    · intro h
      rw [List.map_eq_nil_iff] at h
      rw [h] at ho
      exact absurd ho (by decide)
    · have := (List.dedup_sublist (out.map (fun q => s.level (var q)))).length_le
      rw [List.length_map] at this
      exact this
  constructor
  · intro out bt lbd s' h
    obtain ⟨h1, h2, _⟩ := analyze_lbd s confl out bt lbd s' h hfresh hwrap hlev
    rw [h1]
    exact ⟨rfl, hbound out h2⟩
  · intro blocked step hdl h
    obtain ⟨b, t, out, bt, lbd, s', e0, e1, e2, e3, e4, e5⟩ :=
      searchConflict_lbd blocked s confl step h hdl hfresh hwrap hlev
    refine ⟨b, t, out, bt, lbd, s', e0, e1, e3, e4, ?_⟩
    intro hne
    obtain ⟨c1, c2, c3⟩ := e5 hne
    refine ⟨c1, c2, c3, ?_, ?_⟩
    · rw [c3, e3]
      exact (hbound out e2).1
    · rw [c3, e3]
      unfold Clause.size
      rw [c2]
      exact (hbound out e2).2

/-- C16 at work: three variables, `x1` decided at level 1 and `x2` at level 2, the clause
`(¬x1 ∨ ¬x2 ∨ ¬x3)` in conflict; `analyze` returns `(¬x2 ∨ ¬x1)` with the LBD 2, and the
conflict branch of `search` records it as the learnt clause at the handle 2. -/
theorem C16_witness :
    StampsFresh twoLevelConflict ∧ twoLevelConflict.MYFLAG + 3 < 2 ^ 32 ∧
    (∀ x, twoLevelConflict.level x < twoLevelConflict.permDiff.length) ∧
    (analyze twoLevelConflict 1).map (fun r => (r.1, r.2.1, r.2.2.1)) = some ([3, 1], 1, 2) ∧
    (analyze (conflictState false twoLevelConflict) 1).map
      (fun r => (r.1, r.2.1, r.2.2.1, r.2.2.2.learnts, r.2.2.2.ca.mem.length)) =
      some ([3, 1], 1, 2, [], 2) ∧
    ((∀ out bt lbd s', analyze twoLevelConflict 1 = some (out, bt, lbd, s') →
      lbd = ((out.map (fun q => twoLevelConflict.level (var q))).dedup).length ∧ 1 ≤ lbd ∧
        lbd ≤ out.length) ∧
    (∀ blocked step, twoLevelConflict.decisionLevel ≠ 0 →
      searchConflict blocked twoLevelConflict 1 = some step →
      ∃ b t out bt lbd s',
        analyze (conflictState blocked twoLevelConflict) 1 = some (out, bt, lbd, s') ∧
        step = SearchStep.next b t ∧
        lbd = ((out.map (fun q => twoLevelConflict.level (var q))).dedup).length ∧
        (out.length = 1 → t.learnts = s'.learnts) ∧
        (out.length ≠ 1 → t.learnts = s'.learnts ++ [s'.ca.mem.length] ∧
          (t.ca.get s'.ca.mem.length).lits = out ∧
          (t.ca.get s'.ca.mem.length).lbd = lbd ∧
          1 ≤ (t.ca.get s'.ca.mem.length).lbd ∧
          (t.ca.get s'.ca.mem.length).lbd ≤ (t.ca.get s'.ca.mem.length).size))) :=
  ⟨twoLevelConflict_fresh, by decide, twoLevelConflict_levels, by decide, by decide,
   C16_lbd_counts_levels twoLevelConflict 1 twoLevelConflict_fresh (by decide)
     twoLevelConflict_levels⟩

/-- C13: from a state that is well formed for `propagate` and in which the two-watched-literal
invariant holds for all attached clauses (a watched literal that is false and has left the
queue is accompanied by a true literal of no higher level), `propagate` comes back, and
when it returns `CRef_Undef` no attached clause is falsified and none is unit under the
resulting assignment. -/
theorem C13_no_unit_after_propagate (s : Solver) (A : List Nat) (h : PropEntry s A)
    (h2 : ∀ cr ∈ A, WatchedInv s cr) :
    ∃ r, propagate s = some r ∧
      (r.1 = none → ∀ cr ∈ A, ¬ falsified r.2 cr ∧ ¬ isUnit r.2 cr) := by
  obtain ⟨r, hr, _, hb, hc, _⟩ := propagate_entry h h2
  refine ⟨r, hr, ?_⟩
  intro hn cr hcr
  obtain ⟨htw, hq⟩ := hc hn
  obtain ⟨c1, c2, _, _, _⟩ := hb.clauses cr hcr
  have hgood := (hb.arena _ (get_mem r.2.ca cr c1)).2
  have hnd : (r.2.ca.get cr).lits.Nodup := by
    rcases hgood with h0 | hg
    · have c2b : 2 ≤ (r.2.ca.get cr).lits.length := c2
      have h0b : (r.2.ca.get cr).lits = [] := h0
      rw [h0b] at c2b
      simp at c2b
    · exact hg.2.1
  exact watched_not_unit (s := r.2)
    ⟨hb.wf.lim_sorted, hb.wf.lim_le, hb.wf.nodup, hb.wf.assigned, hb.wf.level_ok⟩ hb.trail hq c2 hnd
    (htw cr hcr)

/-- C13 at `unitLearntState` with the LBD 3 (four variables, the clause `(¬x1 ∨ x2)` and the
learnt clause `(¬x1 ∨ ¬x2 ∨ ¬x3 ∨ x4)`, both attached, the decision `x3` waiting in the
queue): the state is well formed and under the watched-literal invariant. -/
theorem C13_witness :
    PropEntry (unitLearntState Options.defaults 3) [0, 1] ∧
    (∀ cr ∈ ([0, 1] : List Nat), WatchedInv (unitLearntState Options.defaults 3) cr) ∧
    ∃ r, propagate (unitLearntState Options.defaults 3) = some r ∧
      (r.1 = none → ∀ cr ∈ ([0, 1] : List Nat), ¬ falsified r.2 cr ∧ ¬ isUnit r.2 cr) :=
  have hP : PropEntry (unitLearntState Options.defaults 3) [0, 1] :=
    ⟨by decide, by decide, by decide, by decide, by decide, by decide, by decide, by decide,
      by decide⟩
  ⟨hP, by decide, C13_no_unit_after_propagate _ _ hP (by decide)⟩

/-- C14: `attachClause` establishes the watch invariant for the clause it attaches (a clause
of two literals at least, the first two different, that no list watches yet), and from a
state that is well formed for `propagate`, in which the invariant holds for every attached
clause, `propagate` comes back with a state in which it holds again for every attached
clause, whether a conflict is reported or not. -/
theorem C14_watch_invariant (s : Solver) (A : List Nat) :
    (∀ cr, Attachable s cr → WatchedOnce (attachClause s cr) cr) ∧
    (PropEntry s A → (∀ cr ∈ A, WatchedInv s cr) →
      (∀ cr ∈ A, WatchedOnce s cr) ∧
      ∃ r, propagate s = some r ∧ ∀ cr ∈ A, WatchedOnce r.2 cr) := by
  refine ⟨fun cr h => attachClause_once s cr h, ?_⟩
  intro h h2
  refine ⟨fun cr hcr => watchedOnce_of h.sizes h.watch h.binOnce (h.attached cr hcr).2.2.2.1
    (h.attached cr hcr).2.2.2.2, ?_⟩
  obtain ⟨r, hr, _, hb, _, e⟩ := propagate_entry h h2
  refine ⟨r, hr, ?_⟩
  have hlen : r.2.assigns.length = s.assigns.length := (propagate_frame s r hr).assigns_len
  have hbin : ∀ p < 2 * r.2.assigns.length, ((r.2.watchesBin.get p).map Watcher.cref).Nodup := by
    intro p hp
    exact filter_or_same_nodup (e p) (h.binOnce p (by rw [← hlen]; exact hp))
  intro cr hcr
  have hc := hb.clauses cr hcr
  have hs : SizesOK r.2 := hb.sizes
  have hw : WatchOK r.2 := hb.watch
  have h0 : hasWatch r.2 cr 0 := hc.2.2.2.1
  have h1 : hasWatch r.2 cr 1 := hc.2.2.2.2
  exact watchedOnce_of hs hw hbin h0 h1

/-- C14 at the stored clause of `storedOnly`, which `attachClause` attaches, and at
`unitLearntState` with the LBD 3, where `propagate` exchanges literals of the learnt clause
and moves one of its watchers. -/
theorem C14_witness :
    Attachable storedOnly 0 ∧ WatchedOnce (attachClause storedOnly 0) 0 ∧
    PropEntry (unitLearntState Options.defaults 3) [0, 1] ∧
    (∀ cr ∈ ([0, 1] : List Nat), WatchedInv (unitLearntState Options.defaults 3) cr) ∧
    (∀ cr ∈ ([0, 1] : List Nat), WatchedOnce (unitLearntState Options.defaults 3) cr) ∧
    ∃ r, propagate (unitLearntState Options.defaults 3) = some r ∧
      ∀ cr ∈ ([0, 1] : List Nat), WatchedOnce r.2 cr :=
  have hA : Attachable storedOnly 0 :=
    ⟨by decide, by decide, by decide, by decide, by decide, by decide⟩
  have hP : PropEntry (unitLearntState Options.defaults 3) [0, 1] :=
    ⟨by decide, by decide, by decide, by decide, by decide, by decide, by decide, by decide,
      by decide⟩
  have hW : ∀ cr ∈ ([0, 1] : List Nat), WatchedInv (unitLearntState Options.defaults 3) cr := by
    decide
  ⟨hA, (C14_watch_invariant storedOnly []).1 0 hA, hP, hW,
    (C14_watch_invariant (unitLearntState Options.defaults 3) [0, 1]).2 hP hW⟩

end Solver

namespace SharedBase

open Glucose.Solver

/-- C21 fails on the code: the thread 2 of `pushedTwice` calls `update` with a solver of two
variables and imports `(x1 ∨ x2)` and `(¬x1 ∨ ¬x2)`; both are stored as learnt clauses
with the LBD 2 of their nodes and attached, their two watchers standing in `watchesBin`,
and yet the entry appended to `frozen_clauses` for each is `mkFreeze(0, to_freeze(cr))`
with the flag `true`: the entry says frozen where the claim says `false`. -/
theorem C21_import_flagged_frozen_while_attached :
    (update pushedTwice 2 Solver.twoVars).map (fun r => (r.2.learnts, r.2.frozen_clauses)) =
      some ([0, 1], [⟨0, true⟩, ⟨0, true⟩]) ∧
    (update pushedTwice 2 Solver.twoVars).map
      (fun r => r.2.learnts.map (fun cr => ((r.2.ca.get cr).lits, (r.2.ca.get cr).learnt,
        (r.2.ca.get cr).lbd))) = some [([0, 2], true, 2), ([1, 3], true, 2)] ∧
    (update pushedTwice 2 Solver.twoVars).map
      (fun r => r.2.learnts.map (fun cr => (r.2.ca.get cr).mark)) = some [0, 0] ∧
    (update pushedTwice 2 Solver.twoVars).map
      (fun r => (List.range 4).map (fun p => r.2.watchesBin.get p)) =
      some [[⟨1, 3⟩], [⟨0, 2⟩], [⟨1, 1⟩], [⟨0, 0⟩]] ∧
    (Solver.psm_calc (storeImported Solver.twoVars [0, 2] 2) 0,
      (Solver.to_freeze (storeImported Solver.twoVars [0, 2] 2) 0).1) = (0, true) := by
  decide

end SharedBase

namespace Solver

/-- C22 (fails on the code): the conflict branch of `search` on `twoLevelConflict` records
the learnt clause `(¬x2 ∨ ¬x1)` at the handle 2, pushes for it an entry of
`frozen_clauses` with the flag `to_freeze(cr) = true`, and attaches the clause all the
same.  `freeze_analyse` then finds `before = after = true` and changes neither the flag
nor the watch lists: the entry has `freeze = true`, and the two watchers of the clause are
still in `watchesBin`, in the lists of `x2` and `x1`. -/
theorem C22_frozen_entry_still_watched :
    (searchConflict false twoLevelConflict 1).map
      (fun step => match step with
        | SearchStep.next _ t => (t.learnts, t.frozen_clauses, (t.ca.get 2).lits)
        | SearchStep.ret _ t => (t.learnts, t.frozen_clauses, [])) =
      some ([2], [⟨0, true⟩], [3, 1]) ∧
    (searchConflict false twoLevelConflict 1).map
      (fun step => match step with
        | SearchStep.next _ t => (t.watchesBin.get 2, t.watchesBin.get 0)
        | SearchStep.ret _ _ => ([], [])) =
      some ([⟨2, 1⟩], [⟨2, 3⟩]) ∧
    (learntRecorded.learnts, learntRecorded.frozen_clauses) = ([2], [⟨0, true⟩]) ∧
    (freeze_analyse 0 learntRecorded).map
      (fun t => (t.learnts, t.frozen_clauses, (t.ca.get 2).lits, (t.ca.get 2).mark)) =
      some ([2], [⟨1, true⟩], [3, 1], 0) ∧
    (freeze_analyse 0 learntRecorded).map
      (fun t => (t.watchesBin.get 2, t.watchesBin.get 0, t.watchesBin.dirty.getD 2 false,
        t.watchesBin.dirty.getD 0 false)) =
      some ([⟨2, 1⟩], [⟨2, 3⟩], false, false) := by
  decide

/-- C23 (fails on the code): two runs in which `learnts` and `frozen_clauses` part.
In `satisfiedLearnt` both vectors have one entry; `simplify` removes the satisfied learnt
clause through `removeSatisfied(learnts)`, which shrinks `learnts` only: afterwards
`learnts` is empty and `frozen_clauses` has one entry.  In `twoImports` both vectors have
two entries; the third `freeze_analyse` in a row removes the first clause and ends with
`learnts.shrink(i - j)` only: afterwards `learnts` has one entry and `frozen_clauses`
two. -/
theorem C23_frozen_clauses_not_shrunk :
    (satisfiedLearnt.learnts, satisfiedLearnt.frozen_clauses) = ([0], [⟨0, true⟩]) ∧
    (simplify satisfiedLearnt).map (fun r => (r.1, r.2.learnts, r.2.frozen_clauses)) =
      some (true, [], [⟨0, true⟩]) ∧
    (twoImports.learnts, twoImports.frozen_clauses) = ([0, 1], [⟨0, true⟩, ⟨0, true⟩]) ∧
    ((freeze_analyse 0 twoImports).bind (freeze_analyse 0)).map
      (fun t => (t.learnts, t.frozen_clauses)) = some ([0, 1], [⟨2, true⟩, ⟨2, true⟩]) ∧
    (((freeze_analyse 0 twoImports).bind (freeze_analyse 0)).bind (freeze_analyse 0)).map
      (fun t => (t.learnts, t.learnts.map (fun cr => (t.ca.get cr).lits), t.frozen_clauses)) =
      some ([0], [[1, 3]], [⟨3, true⟩, ⟨3, true⟩]) := by
  decide

/-- C29, as stated, fails on two points.  First run: the learnt clause
`(¬x1 ∨ ¬x2 ∨ ¬x3 ∨ x4)` with the LBD 3 becomes unit in `propagate`, its literals lie on
the two levels 1 and 2, and the LBD stays 3 although 2 is strictly smaller.  Second run:
with `lbLBDFrozenClause = 2` and the LBD 4, the LBD becomes 2, which is not above the
threshold, and `can_be_del` stays true. -/
theorem C29_counterexample :
    ((unitLearntState Options.defaults 3).ca.get 1).learnt = true ∧
    ((unitLearntState Options.defaults 3).ca.get 1).lbd = 3 ∧
    (propagate (unitLearntState Options.defaults 3)).map
      (fun r => (r.1, (r.2.ca.get 1).lits, (r.2.ca.get 1).lbd, (r.2.ca.get 1).canBeDel)) =
      some (none, [6, 5, 1, 3], 3, true) ∧
    (propagate (unitLearntState Options.defaults 3)).map
      (fun r => ((r.2.ca.get 1).lits.map (fun q => r.2.level (var q)), r.2.reason 3)) =
      some ([2, 2, 1, 1], some 1) ∧
    ((unitLearntState { Options.defaults with lbLBDFrozenClause := 2 } 4).ca.get 1).lbd = 4 ∧
    ((unitLearntState { Options.defaults with lbLBDFrozenClause := 2 } 4).ca.get 1).canBeDel
      = true ∧
    (propagate (unitLearntState { Options.defaults with lbLBDFrozenClause := 2 } 4)).map
      (fun r => (r.1, (r.2.ca.get 1).lits, (r.2.ca.get 1).lbd, (r.2.ca.get 1).canBeDel)) =
      some (none, [6, 5, 1, 3], 2, true) := by
  decide

/-- C29, amended: the block of `propagate` for a clause that has just become unit leaves
the state alone unless the clause is learnt with an LBD above 2; for such a clause, with
fresh stamps, no wrap of `MYFLAG` and every level an index of `permDiff`, and `n` the
number of distinct levels of its literals: when `n + 1` is below the old LBD, the LBD
becomes `n` and `can_be_del` becomes false exactly when the old LBD is at most
`lbLBDFrozenClause`; otherwise the clause store is unchanged.  No other clause changes. -/
theorem C29_dynamic_lbd (s : Solver) (cr : Nat) (hcr : cr < s.ca.mem.length)
    (hfresh : StampsFresh s) (hwrap : s.MYFLAG + 1 < 2 ^ 32)
    (hlev : ∀ x, s.level x < s.permDiff.length) :
    (¬ ((s.ca.get cr).learnt = true ∧ 2 < (s.ca.get cr).lbd) → dynamicLBD s cr = s) ∧
    ((s.ca.get cr).learnt = true → 2 < (s.ca.get cr).lbd →
      (((s.ca.get cr).lits.map (fun q => s.level (var q))).dedup.length + 1 <
          (s.ca.get cr).lbd →
        (dynamicLBD s cr).ca.get cr =
          { s.ca.get cr with
            lbd := ((s.ca.get cr).lits.map (fun q => s.level (var q))).dedup.length,
            canBeDel := if (s.ca.get cr).lbd ≤ s.lbLBDFrozenClause then false
                        else (s.ca.get cr).canBeDel }) ∧
      (¬ ((s.ca.get cr).lits.map (fun q => s.level (var q))).dedup.length + 1 <
          (s.ca.get cr).lbd → (dynamicLBD s cr).ca = s.ca)) ∧
    (∀ x, x ≠ cr → (dynamicLBD s cr).ca.get x = s.ca.get x) := by
  have hn := computeLBD_levels s (s.ca.get cr).lits hfresh hwrap hlev
  have hca := (computeLBD_core s (s.ca.get cr).lits).ca_eq
  have hth := computeLBD_threshold s (s.ca.get cr).lits
  refine ⟨?_, ?_, ?_⟩
  · intro h
    unfold dynamicLBD
    dsimp only
    rw [if_neg]
    simpa using h
  · intro hl hlbd
    have hcond : ((s.ca.get cr).learnt && decide ((s.ca.get cr).lbd > 2)) = true := by
      simp [hl, hlbd]
    constructor
    · intro hlt
      unfold dynamicLBD
      dsimp only
      rw [if_pos hcond, if_pos (by rw [hn]; exact hlt)]
      dsimp only
      rw [hca, modify_get_self _ _ _ hcr, hn, hth]
    · intro hlt
      unfold dynamicLBD
      dsimp only
      rw [if_pos hcond, if_neg (by rw [hn]; exact hlt)]
      exact hca
  · intro x hx
    unfold dynamicLBD
    dsimp only
    split
    · split
      · dsimp only
        rw [modify_get_other _ _ _ _ hx, hca]
      · rw [hca]
    · rfl

/-- C29 at work: in `unitLearntState`, with the LBD 5 for the learnt clause, the literals
of the clause have three distinct levels, and the block brings the LBD down to 3 and
clears `can_be_del`. -/
theorem C29_witness :
    1 < (unitLearntState Options.defaults 5).ca.mem.length ∧
    StampsFresh (unitLearntState Options.defaults 5) ∧
    (unitLearntState Options.defaults 5).MYFLAG + 1 < 2 ^ 32 ∧
    (∀ x, (unitLearntState Options.defaults 5).level x <
      (unitLearntState Options.defaults 5).permDiff.length) ∧
    (((dynamicLBD (unitLearntState Options.defaults 5) 1).ca.get 1).lbd,
      ((dynamicLBD (unitLearntState Options.defaults 5) 1).ca.get 1).canBeDel) = (3, false) ∧
    ((¬ (((unitLearntState Options.defaults 5).ca.get 1).learnt = true ∧
        2 < ((unitLearntState Options.defaults 5).ca.get 1).lbd) →
      dynamicLBD (unitLearntState Options.defaults 5) 1 = unitLearntState Options.defaults 5) ∧
    (((unitLearntState Options.defaults 5).ca.get 1).learnt = true →
      2 < ((unitLearntState Options.defaults 5).ca.get 1).lbd →
      ((((unitLearntState Options.defaults 5).ca.get 1).lits.map
          (fun q => (unitLearntState Options.defaults 5).level (var q))).dedup.length + 1 <
          ((unitLearntState Options.defaults 5).ca.get 1).lbd →
        (dynamicLBD (unitLearntState Options.defaults 5) 1).ca.get 1 =
          { (unitLearntState Options.defaults 5).ca.get 1 with
            lbd := (((unitLearntState Options.defaults 5).ca.get 1).lits.map
              (fun q => (unitLearntState Options.defaults 5).level (var q))).dedup.length,
            canBeDel :=
              if ((unitLearntState Options.defaults 5).ca.get 1).lbd ≤
                  (unitLearntState Options.defaults 5).lbLBDFrozenClause then false
              else ((unitLearntState Options.defaults 5).ca.get 1).canBeDel }) ∧
      (¬ (((unitLearntState Options.defaults 5).ca.get 1).lits.map
          (fun q => (unitLearntState Options.defaults 5).level (var q))).dedup.length + 1 <
          ((unitLearntState Options.defaults 5).ca.get 1).lbd →
        (dynamicLBD (unitLearntState Options.defaults 5) 1).ca =
          (unitLearntState Options.defaults 5).ca)) ∧
    (∀ x, x ≠ 1 → (dynamicLBD (unitLearntState Options.defaults 5) 1).ca.get x =
      (unitLearntState Options.defaults 5).ca.get x)) :=
  ⟨by decide, unitLearnt_fresh, by decide, unitLearnt_levels, by decide,
   C29_dynamic_lbd (unitLearntState Options.defaults 5) 1 (by decide) unitLearnt_fresh
     (by decide) unitLearnt_levels⟩

/-- C24, as stated, fails: in `impliedAtZero` the clause 0 is locked, being the reason of
`x1` on the trail; `simplify` calls `removeSatisfied(clauses)`, which removes it, and
`removeClause` clears the reason of `x1`: afterwards `clauses` is empty, the clause is
marked as removed, and `x1` is still true, without a reason. -/
theorem C24_counterexample :
    (impliedAtZero.clauses, impliedAtZero.trail, locked impliedAtZero 0,
      impliedAtZero.reason 0) = ([0], [3, 5, 0], true, some 0) ∧
    ((removeSatisfiedClauses impliedAtZero).clauses,
      ((removeSatisfiedClauses impliedAtZero).ca.get 0).mark,
      (removeSatisfiedClauses impliedAtZero).reason 0) = ([], 1, none) ∧
    (simplify impliedAtZero).map
      (fun r => (r.1, r.2.clauses, r.2.trail, r.2.reason 0, r.2.value 0)) =
      some (true, [], [3, 5, 0], none, l_True) := by
  decide

/-- C24, amended: the loop of `freeze_analyse`, from any state and any position, leaves the
assignment and the reasons as they are, and every clause that is locked at the entry is
still locked at the end, with its literals and its mark unchanged and with every watcher
it had in `watches` and `watchesBin` still there; whereas `removeClause`, called for a
locked clause as `removeSatisfied` does, marks the clause as removed all the same, after
clearing the reason of the variable of its first literal. -/
theorem C24_freeze_keeps_locked (s : Solver) :
    (∀ n i j r, freezeLoop n i j s = some r →
      r.2.assigns = s.assigns ∧ r.2.vardata = s.vardata ∧
      (∀ cr, locked s cr = true →
        locked r.2 cr = true ∧ (r.2.ca.get cr).lits = (s.ca.get cr).lits ∧
        (r.2.ca.get cr).mark = (s.ca.get cr).mark) ∧
      (∀ l w, w ∈ s.watches.get l → w ∈ r.2.watches.get l) ∧
      (∀ l w, w ∈ s.watchesBin.get l → w ∈ r.2.watchesBin.get l)) ∧
    (∀ cr, cr < s.ca.mem.length → var ((s.ca.get cr).lit 0) < s.vardata.length →
      locked s cr = true →
      ((removeClause s cr).ca.get cr).mark = 1 ∧
      (removeClause s cr).reason (var ((s.ca.get cr).lit 0)) = none) := by
  constructor
  · intro n i j r h
    have g := freezeLoop_keep n i j s r h
    refine ⟨g.assigns_eq, g.vardata_eq, ?_, g.watches_mono, g.bin_mono⟩
    intro cr hl
    exact ⟨(keepFrame_locked g cr).trans hl, g.lits_eq cr, g.mark_eq cr hl⟩
  · intro cr hcr hv hl
    exact removeClause_locked s cr hcr hv hl

/-- C24 at work: in `lockedLearnt` the learnt clause at the handle 1 is locked, has the
LBD 3 and `can_be_del`, and its entry has the counter 2; the round of the loop of
`freeze_analyse` brings the counter to 3 and keeps the clause, which it removes once the
trail is cancelled and the clause is no longer locked. -/
theorem C24_witness :
    (lockedLearnt.learnts, lockedLearnt.frozen_clauses, locked lockedLearnt 1,
      (lockedLearnt.ca.get 1).lbd, (lockedLearnt.ca.get 1).canBeDel) =
      ([1], [⟨2, true⟩], true, 3, true) ∧
    (freezeLoop 1 0 0 lockedLearnt).map
      (fun r => (r.2.learnts, r.2.frozen_clauses, (r.2.ca.get 1).mark)) =
      some ([1], [⟨3, true⟩], 0) ∧
    (freezeLoop 1 0 0 (cancelUntil lockedLearnt 0)).map
      (fun r => (locked (cancelUntil lockedLearnt 0) 1, (r.2.ca.get 1).mark)) =
      some (false, 1) ∧
    ((∀ n i j r, freezeLoop n i j lockedLearnt = some r →
      r.2.assigns = lockedLearnt.assigns ∧ r.2.vardata = lockedLearnt.vardata ∧
      (∀ cr, locked lockedLearnt cr = true →
        locked r.2 cr = true ∧ (r.2.ca.get cr).lits = (lockedLearnt.ca.get cr).lits ∧
        (r.2.ca.get cr).mark = (lockedLearnt.ca.get cr).mark) ∧
      (∀ l w, w ∈ lockedLearnt.watches.get l → w ∈ r.2.watches.get l) ∧
      (∀ l w, w ∈ lockedLearnt.watchesBin.get l → w ∈ r.2.watchesBin.get l)) ∧
    (∀ cr, cr < lockedLearnt.ca.mem.length →
      var ((lockedLearnt.ca.get cr).lit 0) < lockedLearnt.vardata.length →
      locked lockedLearnt cr = true →
      ((removeClause lockedLearnt cr).ca.get cr).mark = 1 ∧
      (removeClause lockedLearnt cr).reason (var ((lockedLearnt.ca.get cr).lit 0)) = none)) :=
  ⟨by decide, by decide, by decide, C24_freeze_keeps_locked lockedLearnt⟩

/-- C25, as stated, fails: in `gcDue` the handle 1 is held by two watchers, in the watch
lists of `¬x1` and `¬x2`; its clause `(x1 ∨ x2 ∨ x3)` has been removed by
`removeSatisfied`, which leaves the watchers in their lists.  `garbageCollect` starts with
the cleaning of the watch lists: afterwards the two lists are empty, and no clause of the
new arena has the literals of the handle 1. -/
theorem C25_counterexample :
    (gcDue.learnts, gcDue.ca.mem.map (fun c => (c.lits, c.mark))) =
      ([2], [([1, 6], 0), ([0, 2, 4], 1), ([3, 5], 0)]) ∧
    (gcDue.watches.get 1, gcDue.watches.get 3) = ([⟨1, 2⟩], [⟨1, 0⟩]) ∧
    ((garbageCollect gcDue).watches.get 1, (garbageCollect gcDue).watches.get 3) = ([], []) ∧
    (garbageCollect gcDue).ca.mem.map (fun c => c.lits) = [[1, 6], [3, 5]] := by
  decide

/-- C25, amended: for a state whose clauses carry no forwarding mark and, when not learnt,
the LBD 0, whose trail names each variable once, whose handles lie in the arena and in
which a trail literal that has a reason is a true literal of that clause:
`garbageCollect` replaces every handle `h` by `gcMap h`, in `learnts`, in `clauses`, in
every watcher that the cleaning of the watch lists leaves (it leaves every watcher whose
clause is not marked as removed), and in the reason of every trail variable; and for
every handle `h` held in one of these places, the handle `gcMap h` refers in the new arena
to a clause with the literals of `h` in the same order, the same learnt flag and the same
LBD. -/
theorem C25_gc_forwards_handles (s : Solver) (hfresh : ∀ c ∈ s.ca.mem, c.reloced = false)
    (hlbd : ∀ c ∈ s.ca.mem, c.learnt = false → c.lbd = 0)
    (hnd : (s.trail.map var).Nodup)
    (hw : ∀ ws ∈ (cleanWatches s).watches.occs, ∀ w ∈ ws, w.cref < s.ca.mem.length)
    (hb : ∀ ws ∈ (cleanWatches s).watchesBin.occs, ∀ w ∈ ws, w.cref < s.ca.mem.length)
    (hl : ∀ x ∈ s.learnts, x < s.ca.mem.length) (hc : ∀ x ∈ s.clauses, x < s.ca.mem.length)
    (hr : ∀ t ∈ s.trail, ∀ r ∈ s.reason (var t), r < s.ca.mem.length)
    (hreas : ∀ t ∈ s.trail, ∀ r ∈ s.reason (var t),
      t ∈ (s.ca.get r).lits ∧ s.value t = l_True) :
    (garbageCollect s).learnts = s.learnts.map (gcMap s) ∧
    (garbageCollect s).clauses = s.clauses.map (gcMap s) ∧
    (∀ idx, idx < 2 * s.nVars →
      (garbageCollect s).watches.get idx =
        ((cleanWatches s).watches.get idx).map (fun w => { w with cref := gcMap s w.cref }) ∧
      (garbageCollect s).watchesBin.get idx =
        ((cleanWatches s).watchesBin.get idx).map
          (fun w => { w with cref := gcMap s w.cref })) ∧
    (∀ idx w, (s.ca.get w.cref).mark ≠ 1 →
      (w ∈ s.watches.get idx → w ∈ (cleanWatches s).watches.get idx) ∧
      (w ∈ s.watchesBin.get idx → w ∈ (cleanWatches s).watchesBin.get idx)) ∧
    (∀ t ∈ s.trail, ∀ r, s.reason (var t) = some r →
      (garbageCollect s).reason (var t) = some (gcMap s r)) ∧
    (∀ h, (h ∈ s.learnts ∨ h ∈ s.clauses ∨ watchedAfterClean s h ∨
        (∃ t ∈ s.trail, s.reason (var t) = some h)) →
      ((garbageCollect s).ca.get (gcMap s h)).lits = (s.ca.get h).lits ∧
      ((garbageCollect s).ca.get (gcMap s h)).learnt = (s.ca.get h).learnt ∧
      ((garbageCollect s).ca.get (gcMap s h)).lbd = (s.ca.get h).lbd) := by
  obtain ⟨g1, g2, g3, g4, g5, g6⟩ := gc_fields s
  obtain ⟨F, a1, a2, a3, a4, a5⟩ := relocAll_spec s hfresh hnd hw hb hl hc
    (fun t ht r h => hr t ht r h)
  have hlbd' : ∀ x, (s.ca.get x).learnt = false → (s.ca.get x).lbd = 0 :=
    get_of_mem_all s.ca (fun c => c.learnt = false → c.lbd = 0) (fun _ => rfl) hlbd
  have hlock : ∀ t ∈ s.trail, ∀ r, s.reason (var t) = some r → locked s r = true := by
    intro t ht r h
    obtain ⟨m1, m2⟩ := hreas t ht r (Option.mem_def.2 h)
    exact locked_of_mem m1 m2 h
  refine ⟨g1.trans a1, g2.trans a2, ?_, ?_, ?_, ?_⟩
  · intro idx hidx
    rw [g4, g5]
    exact a3 idx hidx
  · intro idx w hm
    exact ⟨fun h => cleanAll_keep s.watches s.ca idx w h hm,
      fun h => cleanAll_keep s.watchesBin s.ca idx w h hm⟩
  · intro t ht r h
    have := a4 t ht r h (Or.inl (hlock t ht r h))
    unfold reason at this ⊢
    rw [g6]
    exact this
  · intro h hh
    have hh2 : h ∈ s.learnts ∨ h ∈ s.clauses ∨ watchedAfterClean s h ∨
        (locked s h = true ∧ ∃ t ∈ s.trail, s.reason (var t) = some h) := by
      rcases hh with e | e | e | ⟨t, ht, e⟩
      · exact Or.inl e
      · exact Or.inr (Or.inl e)
      · exact Or.inr (Or.inr (Or.inl e))
      · exact Or.inr (Or.inr (Or.inr ⟨hlock t ht h e, t, ht, e⟩))
    have hre := a5 h hh2
    obtain ⟨c1, c2, c3⟩ := F.fwd h hre
    rw [g3, gcMap_eq]
    refine ⟨c1, c2, ?_⟩
    rw [c3]
    by_cases hle : (s.ca.get h).learnt = true
    · rw [if_pos hle]
    · rw [if_neg hle]
      exact (hlbd' h (by simpa using hle)).symm

/-- C25 at work: in `gcDue` the arena holds the clauses 0 and 2 and, between them, the
removed clause 1; `garbageCollect` moves the clause 2 to the handle 1, in `learnts` and in
its two watchers; the clause 0, the reason of `x4`, which stands at its position 1, keeps
the handle 0, in `clauses`, in its watchers and as the reason of `x4`. -/
theorem C25_witness :
    (gcDue.clauses, gcDue.learnts, gcDue.trail, gcDue.reason (var 6)) =
      ([0], [2], [0, 6], some 0) ∧
    gcDue.ca.mem.map (fun c => (c.lits, c.mark)) =
      [([1, 6], 0), ([0, 2, 4], 1), ([3, 5], 0)] ∧
    ((garbageCollect gcDue).clauses, (garbageCollect gcDue).learnts,
      (garbageCollect gcDue).reason (var 6)) = ([0], [1], some 0) ∧
    (garbageCollect gcDue).ca.mem.map (fun c => (c.lits, c.learnt, c.lbd)) =
      [([1, 6], false, 0), ([3, 5], true, 2)] ∧
    ((garbageCollect gcDue).learnts = gcDue.learnts.map (gcMap gcDue) ∧
    (garbageCollect gcDue).clauses = gcDue.clauses.map (gcMap gcDue) ∧
    (∀ idx, idx < 2 * gcDue.nVars →
      (garbageCollect gcDue).watches.get idx =
        ((cleanWatches gcDue).watches.get idx).map
          (fun w => { w with cref := gcMap gcDue w.cref }) ∧
      (garbageCollect gcDue).watchesBin.get idx =
        ((cleanWatches gcDue).watchesBin.get idx).map
          (fun w => { w with cref := gcMap gcDue w.cref })) ∧
    (∀ idx w, (gcDue.ca.get w.cref).mark ≠ 1 →
      (w ∈ gcDue.watches.get idx → w ∈ (cleanWatches gcDue).watches.get idx) ∧
      (w ∈ gcDue.watchesBin.get idx → w ∈ (cleanWatches gcDue).watchesBin.get idx)) ∧
    (∀ t ∈ gcDue.trail, ∀ r, gcDue.reason (var t) = some r →
      (garbageCollect gcDue).reason (var t) = some (gcMap gcDue r)) ∧
    (∀ h, (h ∈ gcDue.learnts ∨ h ∈ gcDue.clauses ∨ watchedAfterClean gcDue h ∨
        (∃ t ∈ gcDue.trail, gcDue.reason (var t) = some h)) →
      ((garbageCollect gcDue).ca.get (gcMap gcDue h)).lits = (gcDue.ca.get h).lits ∧
      ((garbageCollect gcDue).ca.get (gcMap gcDue h)).learnt = (gcDue.ca.get h).learnt ∧
      ((garbageCollect gcDue).ca.get (gcMap gcDue h)).lbd = (gcDue.ca.get h).lbd)) :=
  ⟨by decide, by decide, by decide, by decide,
   C25_gc_forwards_handles gcDue (by decide) (by decide) (by decide) (by decide) (by decide)
     (by decide) (by decide) (by decide) (by decide)⟩

/-- C26, as stated, fails: with the assumptions `x1, x1, x1` the first round of `search`
opens level 1 and enqueues `x1`; in the second round the next two assumptions are already
true and each opens a decision level without a trail entry.  `search` returns with
`trail = [x1]` and `trail_lim = [0, 1, 1]`: the decision level is 3 and equals
`trail_lim.size()`, but the entries of `trail_lim` are not strictly increasing. -/
theorem C26_counterexample :
    (search 0 2 tripleAssumed).map
      (fun r => (r.1, r.2.trail, r.2.trail_lim, r.2.decisionLevel,
        decide (r.2.trail_lim.Sorted (fun a b => a < b)))) =
      some (l_True, [0], [0, 1, 1], 3, false) := by
  decide

/-- C26, amended: from a state of a run, every state that a round of `search` hands to the
next round, and every state that `search` returns, has `trail_lim.size()` equal to the
decision level, the entries of `trail_lim` in non-decreasing order, and each of them at
most `trail.size()`. -/
theorem C26_trail_lim_nondecreasing (s : Solver) (h : Reachable s) :
    (∀ j0 blocked step t, searchRound j0 blocked s = some step →
      ((∃ b, step = SearchStep.next b t) ∨ ∃ st, step = SearchStep.ret st t) →
      t.trail_lim.length = t.decisionLevel ∧ t.trail_lim.Sorted (fun a b => a ≤ b) ∧
        ∀ x ∈ t.trail_lim, x ≤ t.trail.length) ∧
    (∀ j0 fuel st t, search j0 fuel s = some (st, t) →
      t.trail_lim.length = t.decisionLevel ∧ t.trail_lim.Sorted (fun a b => a ≤ b) ∧
        ∀ x ∈ t.trail_lim, x ≤ t.trail.length) := by
  constructor
  · intro j0 blocked step t hs ht
    have g := searchRound_reach j0 blocked s step h hs
    have hr : Reachable t := by
      rcases ht with ⟨b, e⟩ | ⟨st, e⟩
      · exact g.2 _ _ e
      · exact g.1 _ _ e
    exact ⟨rfl, (reachable_queueOK hr).2⟩
  · intro j0 fuel st t hs
    have hr : Reachable t := search_reach j0 fuel s (st, t) h hs
    exact ⟨rfl, (reachable_queueOK hr).2⟩

/-- C26 at work: `tripleAssumed` is a state of a run, and the state that `search` returns
from it has the fences `[0, 1, 1]`, in non-decreasing order. -/
theorem C26_witness :
    Reachable tripleAssumed ∧
    (search 0 2 tripleAssumed).map (fun r => (r.2.trail_lim, r.2.decisionLevel)) =
      some ([0, 1, 1], 3) ∧
    ((∀ j0 blocked step t, searchRound j0 blocked tripleAssumed = some step →
      ((∃ b, step = SearchStep.next b t) ∨ ∃ st, step = SearchStep.ret st t) →
      t.trail_lim.length = t.decisionLevel ∧ t.trail_lim.Sorted (fun a b => a ≤ b) ∧
        ∀ x ∈ t.trail_lim, x ≤ t.trail.length) ∧
    (∀ j0 fuel st t, search j0 fuel tripleAssumed = some (st, t) →
      t.trail_lim.length = t.decisionLevel ∧ t.trail_lim.Sorted (fun a b => a ≤ b) ∧
        ∀ x ∈ t.trail_lim, x ≤ t.trail.length)) :=
  ⟨Reachable.other (Reachable.newVar true true (Reachable.init Options.defaults)) rfl rfl rfl,
   by decide,
   C26_trail_lim_nondecreasing tripleAssumed
     (Reachable.other (Reachable.newVar true true (Reachable.init Options.defaults))
       rfl rfl rfl)⟩

end Solver

namespace SharedBase

open Glucose.Solver

/-- C27: on a list that holds the nodes `xs`, `clean` returns and removes exactly the
longest prefix of nodes whose counter is 0: the list then holds the remaining suffix in
the same order, `head` is null or a node whose counter is not 0, `tail` is null exactly
when the list became empty and is unchanged otherwise, `nbs` has grown by the number of
the removed nodes, every removed node had the counter 0 and is deleted, and every other
node is untouched. -/
theorem C27_clean_removes_zero_prefix (nodes : List (Option Elearn)) (l : ListLearn)
    (xs : List Nat) (hok : ListOK nodes l xs) :
    ∃ l' nodes', clean l nodes = some (l', nodes') ∧
      xs = xs.takeWhile (crefZero nodes) ++ xs.dropWhile (crefZero nodes) ∧
      ListOK nodes' l' (xs.dropWhile (crefZero nodes)) ∧
      (∀ a, l'.head = some a → ∃ n, nodes'.getD a none = some n ∧ n.cref ≠ 0) ∧
      (l'.tail = none ↔ xs.dropWhile (crefZero nodes) = []) ∧
      (xs.dropWhile (crefZero nodes) ≠ [] → l'.tail = l.tail) ∧
      l'.nbs = l.nbs + (xs.takeWhile (crefZero nodes)).length ∧
      (∀ a ∈ xs.takeWhile (crefZero nodes),
        (∃ n, nodes.getD a none = some n ∧ n.cref = 0) ∧ nodes'.getD a none = none) ∧
      (∀ a, a ∉ xs.takeWhile (crefZero nodes) → nodes'.getD a none = nodes.getD a none) ∧
      l'.sidx = l.sidx ∧ l'.nba = l.nba := by
  obtain ⟨l', nodes', e1, e2, e3, e4, e5, e6, e7, _⟩ := clean_spec hok
  refine ⟨l', nodes', e1, (List.takeWhile_append_dropWhile _ _).symm, e2, ?_, ?_, ?_, e5, ?_,
    e7, e3, e4⟩
  · intro a ha
    have hh := isChain_head e2.1
    rw [ha] at hh
    have hmem : a ∈ xs.dropWhile (crefZero nodes) := List.mem_of_mem_head? hh.symm
    obtain ⟨n, hn⟩ := isChain_live e2.1 a hmem
    refine ⟨n, hn, ?_⟩
    have hf := head_dropWhile_false hh.symm
    have hnot : a ∉ xs.takeWhile (crefZero nodes) :=
      fun c => by
        have := List.mem_takeWhile_imp c
        rw [hf] at this
        exact absurd this (by decide)
    rw [e7 a hnot] at hn
    exact crefZero_false_live hn hf
  · rw [e2.2.1]
    exact List.getLast?_eq_none_iff
  · intro hne
    rw [e2.2.1, hok.2.1]
    exact getLast?_dropWhile hne
  · intro a ha
    exact ⟨crefZero_live (List.mem_takeWhile_imp ha), e6 a ha⟩

/-- C27 at work: the list of the worker 1 in `readTwice` holds the nodes 0 and 1, with the
counters 0 and 1; `clean` deletes the node 0 and leaves the node 1. -/
theorem C27_witness :
    ListOK readTwice.nodes (readTwice.Lists.getD 1 default) [0, 1] ∧
    (clean (readTwice.Lists.getD 1 default) readTwice.nodes).map
      (fun r => (r.1.head, r.1.tail, r.1.nbs, r.2)) =
      some (some 1, some 1, 1, [none, some ⟨[1, 3], 2, none, 1⟩]) ∧
    ∃ l' nodes', clean (readTwice.Lists.getD 1 default) readTwice.nodes = some (l', nodes') ∧
      [0, 1] = [0, 1].takeWhile (crefZero readTwice.nodes) ++
        [0, 1].dropWhile (crefZero readTwice.nodes) ∧
      ListOK nodes' l' ([0, 1].dropWhile (crefZero readTwice.nodes)) ∧
      (∀ a, l'.head = some a → ∃ n, nodes'.getD a none = some n ∧ n.cref ≠ 0) ∧
      (l'.tail = none ↔ [0, 1].dropWhile (crefZero readTwice.nodes) = []) ∧
      ([0, 1].dropWhile (crefZero readTwice.nodes) ≠ [] →
        l'.tail = (readTwice.Lists.getD 1 default).tail) ∧
      l'.nbs = (readTwice.Lists.getD 1 default).nbs +
        ([0, 1].takeWhile (crefZero readTwice.nodes)).length ∧
      (∀ a ∈ [0, 1].takeWhile (crefZero readTwice.nodes),
        (∃ n, readTwice.nodes.getD a none = some n ∧ n.cref = 0) ∧
          nodes'.getD a none = none) ∧
      (∀ a, a ∉ [0, 1].takeWhile (crefZero readTwice.nodes) →
        nodes'.getD a none = readTwice.nodes.getD a none) ∧
      l'.sidx = (readTwice.Lists.getD 1 default).sidx ∧
      l'.nba = (readTwice.Lists.getD 1 default).nba :=
  ⟨readTwice_listOK, by decide,
   C27_clean_removes_zero_prefix readTwice.nodes (readTwice.Lists.getD 1 default) [0, 1]
     readTwice_listOK⟩

end SharedBase

namespace Solver

/-- C28: with `n > 0` the value of `nbclausesbeforereduce` before the reduction step of
`search`: when `conflicts < curRestart * n` the step leaves the state as it is; when
`conflicts ≥ curRestart * n` the step sets `curRestart = conflicts / n + 1`, runs
`reduceDB` and adds `incReduceDB` to `nbclausesbeforereduce`; it comes to its end when
`frozen_clauses` is at least as long as `learnts` and the local `j` of `freeze_analyse`
starts at 0; and at its end `nbReduceDB` has grown by one, `conflicts` is unchanged,
`curRestart = conflicts / n + 1`, `nbclausesbeforereduce = n + incReduceDB`, and
`conflicts < curRestart * nbclausesbeforereduce`: the step is not due again. -/
theorem C28_reduction_schedule (s : Solver) (hn : 0 < s.nbclausesbeforereduce) :
    (s.conflicts < s.curRestart * s.nbclausesbeforereduce → ∀ j0, reduceStep j0 s = some s) ∧
    (s.curRestart * s.nbclausesbeforereduce ≤ s.conflicts →
      (∀ j0, reduceStep j0 s =
        (reduceDB j0 { s with curRestart := s.conflicts / s.nbclausesbeforereduce + 1 }).map
          (fun s1 =>
            { s1 with nbclausesbeforereduce := s1.nbclausesbeforereduce + s1.incReduceDB })) ∧
      (s.learnts.length ≤ s.frozen_clauses.length → ∃ t, reduceStep 0 s = some t) ∧
      ∀ j0 t, reduceStep j0 s = some t →
        t.nbReduceDB = s.nbReduceDB + 1 ∧ t.conflicts = s.conflicts ∧
        t.curRestart = s.conflicts / s.nbclausesbeforereduce + 1 ∧
        t.nbclausesbeforereduce = s.nbclausesbeforereduce + s.incReduceDB ∧
        t.conflicts < t.curRestart * t.nbclausesbeforereduce) := by
  constructor
  · intro hlt j0
    unfold reduceStep
    rw [if_neg (by omega)]
  · intro hc
    refine ⟨fun j0 => reduceStep_eq j0 s hc hn, ?_, ?_⟩
    · intro hlen
      rw [reduceStep_eq 0 s hc hn]
      unfold reduceDB
      obtain ⟨t, ht⟩ := freeze_analyse_some
        { s with curRestart := s.conflicts / s.nbclausesbeforereduce + 1,
                 nbReduceDB := s.nbReduceDB + 1, avg_act := ⟨0, 1⟩, avg_psm := 0 } hlen
      exact ⟨_, by rw [ht]; rfl⟩
    · intro j0 t h
      rw [reduceStep_eq j0 s hc hn] at h
      unfold reduceDB at h
      rw [Option.map_eq_some'] at h
      obtain ⟨s1, h1, e⟩ := h
      have g := freeze_analyse_run j0 _ s1 h1
      have e1 : s1.nbReduceDB = s.nbReduceDB + 1 := g.nbReduceDB_eq
      have e2 : s1.conflicts = s.conflicts := g.conflicts_eq
      have e3 : s1.curRestart = s.conflicts / s.nbclausesbeforereduce + 1 := g.curRestart_eq
      have e4 : s1.nbclausesbeforereduce = s.nbclausesbeforereduce := g.before_eq
      have e5 : s1.incReduceDB = s.incReduceDB := g.inc_eq
      subst e
      refine ⟨e1, e2, e3, ?_, ?_⟩
      · show s1.nbclausesbeforereduce + s1.incReduceDB = _
        rw [e4, e5]
      · show s1.conflicts < s1.curRestart * (s1.nbclausesbeforereduce + s1.incReduceDB)
        rw [e2, e3, e4, e5]
        exact div_succ_mul_gt _ _ _ hn

/-- C28 at work: in `reduceDue` one learnt clause is held, `conflicts = 5`,
`curRestart = 1` and `nbclausesbeforereduce = 2`; the step runs and leaves
`curRestart = 5 / 2 + 1 = 3` and `nbclausesbeforereduce = 2 + 300`. -/
theorem C28_witness :
    0 < reduceDue.nbclausesbeforereduce ∧ reduceDue.learnts.length = 1 ∧
    (reduceStep 0 reduceDue).map
      (fun t => (t.conflicts, t.curRestart, t.nbclausesbeforereduce, t.nbReduceDB)) =
      some (5, 3, 302, 1) ∧
    ((reduceDue.conflicts < reduceDue.curRestart * reduceDue.nbclausesbeforereduce →
      ∀ j0, reduceStep j0 reduceDue = some reduceDue) ∧
    (reduceDue.curRestart * reduceDue.nbclausesbeforereduce ≤ reduceDue.conflicts →
      (∀ j0, reduceStep j0 reduceDue =
        (reduceDB j0 { reduceDue with
            curRestart := reduceDue.conflicts / reduceDue.nbclausesbeforereduce + 1 }).map
          (fun s1 =>
            { s1 with nbclausesbeforereduce := s1.nbclausesbeforereduce + s1.incReduceDB })) ∧
      (reduceDue.learnts.length ≤ reduceDue.frozen_clauses.length →
        ∃ t, reduceStep 0 reduceDue = some t) ∧
      ∀ j0 t, reduceStep j0 reduceDue = some t →
        t.nbReduceDB = reduceDue.nbReduceDB + 1 ∧ t.conflicts = reduceDue.conflicts ∧
        t.curRestart = reduceDue.conflicts / reduceDue.nbclausesbeforereduce + 1 ∧
        t.nbclausesbeforereduce = reduceDue.nbclausesbeforereduce + reduceDue.incReduceDB ∧
        t.conflicts < t.curRestart * t.nbclausesbeforereduce)) :=
  ⟨by decide, by decide, by decide, C28_reduction_schedule reduceDue (by decide)⟩

/-- C30 (fails on the code): in `basicMinConflict 1` the reason of `x2` is the binary
clause `(x1 ∨ x2)`, stored with the implied literal `x2` at position 1; its other literal
`x1` is false at level 1 and is not a literal of the learnt clause, so `¬x2` is not
redundant.  Without minimisation `analyze` returns `(¬x4 ∨ ¬x2)`, and so does the deep
minimisation; the basic minimisation (`ccmin_mode = 1`) drops `¬x2` and returns the unit
clause `(¬x4)`. -/
theorem C30_basic_minimisation_skips_binary_reason :
    (propagate (basicMinDecided 1)).map Prod.fst = some (some 2) ∧
    (basicMinConflict 1).trail = [1, 2, 6, 4] ∧
    (basicMinConflict 1).reason (var 3) = some 0 ∧
    ((basicMinConflict 1).ca.get 0).lits = [0, 2] ∧
    (basicMinConflict 1).value 0 = l_False ∧ (basicMinConflict 1).level (var 0) = 1 ∧
    (analyze (basicMinConflict 0) 2).map (fun r => (r.1, r.2.1, r.2.2.1)) =
      some ([7, 3], 1, 2) ∧
    (analyze (basicMinConflict 1) 2).map (fun r => (r.1, r.2.1, r.2.2.1)) =
      some ([7], 0, 1) ∧
    (analyze (basicMinConflict 2) 2).map (fun r => (r.1, r.2.1, r.2.2.1)) =
      some ([7, 3], 1, 2) := by
  decide

/-- C31 fails on the code, whose local `j` has no value before the loop.  In `agedImports`
the learnt clause 0, `(x1 ∨ x2 ∨ x3)` with the LBD 3, is removed by the next
`freeze_analyse` (counter 3, `can_be_del`, not locked) and the clause 1, `(¬x1 ∨ ¬x2)` with
the LBD 2, is kept.  When `j` holds 0 at the entry, `learnts` is left with the kept clause
alone; when `j` holds 1, the kept clause is written at position 1, nothing is cut off, and
`learnts` still holds the removed clause, marked, besides the kept one. -/
theorem C31_uninitialised_index_keeps_removed :
    (agedImports.learnts, agedImports.frozen_clauses) = ([0, 1], [⟨2, true⟩, ⟨2, true⟩]) ∧
    agedImports.ca.mem.map (fun c => (c.lits, c.lbd)) = [([0, 2, 4], 3), ([1, 3], 2)] ∧
    agedImports.ca.mem.map (fun c => (c.canBeDel, c.mark)) = [(true, 0), (true, 0)] ∧
    (locked agedImports 0, locked agedImports 1) = (false, false) ∧
    (freezeLoop 2 0 0 agedImports).map (fun r => (r.1, r.2.learnts)) = some (1, [1, 1]) ∧
    (freezeLoop 2 0 0 agedImports).map (fun r => r.2.ca.mem.map (fun c => (c.lits, c.mark))) =
      some [([0, 2, 4], 1), ([1, 3], 0)] ∧
    (freeze_analyse 0 agedImports).map
      (fun t => (t.learnts, t.learnts.map (fun cr => ((t.ca.get cr).lits, (t.ca.get cr).mark)))) =
      some ([0], [([1, 3], 0)]) ∧
    (freezeLoop 2 0 1 agedImports).map (fun r => (r.1, r.2.learnts)) = some (2, [0, 1]) ∧
    (freezeLoop 2 0 1 agedImports).map (fun r => r.2.ca.mem.map (fun c => (c.lits, c.mark))) =
      some [([0, 2, 4], 1), ([1, 3], 0)] ∧
    (freeze_analyse 1 agedImports).map
      (fun t => (t.learnts, t.learnts.map (fun cr => ((t.ca.get cr).lits, (t.ca.get cr).mark)))) =
      some ([1, 0], [([0, 2, 4], 1), ([1, 3], 0)]) := by
  decide

/-- C34 fails on the code for a binary clause: in `binaryImplied` the clause 0, `(x1 ∨ x2)`,
is the reason of `x2`, which stands at position 1 of the clause, and is locked;
`removeClause(0)` clears the reason of the variable of `c[0]`, which is `x1` and has none,
marks the clause and counts its words as wasted, and `x2` is still assigned with the
handle 0 as its reason. -/
theorem C34_binary_reason_left_dangling :
    (binaryImplied.trail, binaryImplied.value 2, binaryImplied.reason (var 2),
      binaryImplied.reason (var 0)) = ([1, 2], l_True, some 0, none) ∧
    ((binaryImplied.ca.get 0).lits, (binaryImplied.ca.get 0).mark, binaryImplied.ca.wasted_,
      locked binaryImplied 0) = ([0, 2], 0, 0, true) ∧
    ((removeClause binaryImplied 0).trail, (removeClause binaryImplied 0).value 2,
      (removeClause binaryImplied 0).reason (var 2),
      (removeClause binaryImplied 0).reason (var 0)) = ([1, 2], l_True, some 0, none) ∧
    (((removeClause binaryImplied 0).ca.get 0).mark,
      (removeClause binaryImplied 0).ca.wasted_) = (1, 3) := by
  decide

/-- C35: `psm_calc` returns minus the number of literals of the clause whose variable has a
saved polarity equal to `toInt` of its assignment, a value between minus the size of the
clause and 0, and `to_freeze` returns `true`, for every clause and every state. -/
theorem C35_psm_never_positive (s : Solver) (cr : Nat) :
    psm_calc s cr = -(((s.ca.get cr).lits.filter (psmAgree s)).length : Int) ∧
    -((s.ca.get cr).size : Int) ≤ psm_calc s cr ∧ psm_calc s cr ≤ 0 ∧
    (to_freeze s cr).1 = true := by
  have h : psm_calc s cr = -(((s.ca.get cr).lits.filter (psmAgree s)).length : Int) := by
    unfold psm_calc
    rw [psm_fold_count]
    omega
  have hl : ((s.ca.get cr).lits.filter (psmAgree s)).length ≤ (s.ca.get cr).size :=
    List.length_filter_le _ _
  refine ⟨h, ?_, psm_calc_nonpos s cr, to_freeze_true s cr⟩
  rw [h]
  omega

/-- C36 fails on the code.  With `firstReduceDB = 1` and the clauses `(x1 ∨ x2)`,
`(x1 ∨ ¬x2)`, the first conflict of `search` yields the unit clause `(x1)`, which is not
stored; the third round finds no conflict, `simplify` succeeds, and the test of the
database reduction holds (`conflicts = 1`, `curRestart = 1`, `nbclausesbeforereduce = 1`)
with `learnts` empty; `reduceDB` is then run (`nbReduceDB = 1` at the end).  With
`firstReduceDB = 0` the first round reaches the test with `nbclausesbeforereduce = 0` and
`learnts` empty: the division `conflicts / nbclausesbeforereduce` has the divisor 0. -/
theorem C36_reduce_with_no_learnt :
    (unitLearntRun.trail, unitLearntRun.decisionLevel, unitLearntRun.conflicts,
      unitLearntRun.learnts) = ([0], 0, 1, []) ∧
    (propagate unitLearntRun).map Prod.fst = some none ∧
    (simplify (((propagate unitLearntRun).map Prod.snd).getD unitLearntRun)).map Prod.fst =
      some true ∧
    ((reduceTest unitLearntRun).conflicts, (reduceTest unitLearntRun).curRestart,
      (reduceTest unitLearntRun).nbclausesbeforereduce, (reduceTest unitLearntRun).learnts) =
      (1, 1, 1, []) ∧
    (solve 0 5 unitLearntProblem []).map (fun r => (r.1, r.2.nbReduceDB, r.2.learnts)) =
      some (l_True, 1, []) ∧
    ((reduceTest (searchEntry zeroFirstReduce [])).conflicts,
      (reduceTest (searchEntry zeroFirstReduce [])).curRestart,
      (reduceTest (searchEntry zeroFirstReduce [])).nbclausesbeforereduce,
      (reduceTest (searchEntry zeroFirstReduce [])).learnts) = (0, 1, 0, []) ∧
    (reduceStep 0 (reduceTest (searchEntry zeroFirstReduce []))).isSome = false ∧
    (solve 0 5 zeroFirstReduce []).isSome = false := by
  decide

/-- C37 fails on the code.  With three variables, the clauses `(¬x2 ∨ x3)`, `(¬x2 ∨ ¬x3)` and
the assumptions `x1, x1, x2`, the second `x1` opens a dummy decision level, so that `x2` is
assumed at level 3 while `permDiff` has the size `nVars() = 3`; `propagate` reports a
conflict, `analyze` learns `(¬x2)`, and its LBD loops use the level 3 of `¬x2` as an index
of `permDiff`. -/
theorem C37_level_index_out_of_bounds :
    (dummyLevelRun.trail, dummyLevelRun.trail_lim, dummyLevelRun.decisionLevel) =
      ([0, 2], [0, 1, 1], 3) ∧
    (propagate dummyLevelRun).map Prod.fst = some (some 1) ∧
    (dummyLevelConflict.trail, dummyLevelConflict.nVars, dummyLevelConflict.permDiff.length) =
      ([0, 2, 4], 3, 3) ∧
    (analyze (analyzeEntry dummyLevelConflict) 1).map (fun r => (r.1, r.2.1)) = some ([3], 0) ∧
    lbdIndices (analyzeEntry dummyLevelConflict) [3] = [3] ∧
    (analyzeEntry dummyLevelConflict).permDiff.length = 3 := by
  decide

/-- C32: the binary minimisation of `analyze`, on a clause `out` that is small enough and
has a small enough LBD to let it run, whose literals behind the first have different
variables, all of them indices of `permDiff`, in a state with fresh stamps: it comes to its
end, `out[0]` stays at position 0, the literals kept behind it are, up to their order, the
literals `out[i]`, `i ≥ 1`, whose variable is not the variable of a true blocker of the
binary watch list of `~out[0]`, and the size decreases by the number of the others. -/
theorem C32_binary_minimisation (s : Solver) (out : List Nat) (hfresh : StampsFresh s)
    (hwrap : s.MYFLAG + 2 < 2 ^ 32) (hne : 1 ≤ out.length)
    (hnd : ((out.drop 1).map var).Nodup)
    (hrange : ∀ q ∈ out.drop 1, var q < s.permDiff.length)
    (hsize : out.length ≤ s.lbSizeMinimizingClause)
    (hlbd : (computeLBD s out).1 ≤ s.lbLBDMinimizingClause) :
    ∃ r, binaryMinimize s (neg (out.getD 0 0)) out = some r ∧
      r.1.getD 0 0 = out.getD 0 0 ∧
      (r.1.drop 1).Perm
        ((out.drop 1).filter (fun q => !binRemovable s (neg (out.getD 0 0)) q)) ∧
      r.1.length + ((out.drop 1).filter (binRemovable s (neg (out.getD 0 0)))).length =
        out.length :=
  binaryMinimize_spec s (neg (out.getD 0 0)) out hfresh hwrap hne hnd hrange hsize hlbd

/-- C32 at `binMinState` and the clause `(¬x2 ∨ ¬x1)`: the binary clause `(¬x2 ∨ x1)` stands
in the binary watch list of `x2` with the true blocker `x1`, and `¬x1` is removed. -/
theorem C32_witness :
    (StampsFresh binMinState ∧ binMinState.MYFLAG + 2 < 2 ^ 32 ∧
      (([3, 1] : List Nat).drop 1).filter (binRemovable binMinState (neg 3)) = [1]) ∧
    ∃ r, binaryMinimize binMinState (neg (([3, 1] : List Nat).getD 0 0)) [3, 1] = some r ∧
      r.1.getD 0 0 = ([3, 1] : List Nat).getD 0 0 ∧
      (r.1.drop 1).Perm ((([3, 1] : List Nat).drop 1).filter
        (fun q => !binRemovable binMinState (neg (([3, 1] : List Nat).getD 0 0)) q)) ∧
      r.1.length + ((([3, 1] : List Nat).drop 1).filter
        (binRemovable binMinState (neg (([3, 1] : List Nat).getD 0 0)))).length =
        ([3, 1] : List Nat).length :=
  have hf : StampsFresh binMinState := by
    intro l
    by_cases h : l < binMinState.permDiff.length
    · have h3 : l < 3 := h
      interval_cases l <;> decide
    · rw [List.getD_eq_default _ _ (by omega)]
      exact Nat.zero_le _
  ⟨⟨hf, by decide, by decide⟩,
    C32_binary_minimisation binMinState [3, 1] hf (by decide) (by decide) (by decide)
      (by decide) (by decide) (by decide)⟩

/-- C33: from a state with no mark in `seen`, with a well-formed trail whose reasons are as
`propagate` leaves them, for a clause `confl` that is falsified and holds a literal of the
current decision level, above level 0, with fresh stamps, `analyze` comes back, for every
value of `ccmin_mode`, and no variable is marked in `seen` afterwards; and whenever
`litRedundant` returns `false`, from any state, `seen` and `analyze_toclear` are what they
were at its call. -/
theorem C33_analyze_clears_seen (s : Solver) (confl : Nat) (hst : AStat s)
    (hclear : SeenClear s) (hconf : ConflictAt s confl) (hD : 0 < s.decisionLevel)
    (hfresh : StampsFresh s) (hwrap : s.MYFLAG + 2 < 2 ^ 32)
    (hperm : s.assigns.length ≤ s.permDiff.length) :
    (∀ m : Nat, ∃ r, analyze { s with ccmin_mode := m } confl = some r ∧
      SeenClear r.2.2.2) ∧
    (∀ (t : Solver) (p al : Nat) (r : Solver), litRedundant t p al = some (false, r) →
      r.seen = t.seen ∧ r.analyze_toclear = t.analyze_toclear) := by
  constructor
  · intro m
    have hs : ASame s { s with ccmin_mode := m } :=
      ⟨rfl, rfl, rfl, rfl, rfl, rfl, fun _ => ⟨List.Perm.refl _, fun _ => rfl⟩⟩
    exact analyze_stages { s with ccmin_mode := m } confl (aStat_same hst hs) hclear hconf hD
      hfresh hwrap hperm _ rfl
  · intro t p al r h
    exact (litRedundant_restore t p al false r h).1 rfl

/-- C33 at work: in `twoLevelConflict` the clause 1 is in conflict at level 2; `analyze`
returns `(¬x2 ∨ ¬x1)` and leaves no mark in `seen`, with `ccmin_mode` 2, 1 and 0.  In
`impliedChain`, `litRedundant(¬x3)` marks `x2`, pushes `¬x2` on `analyze_toclear`, meets
the decision `x1` and returns `false`, with `seen` and `analyze_toclear` as at the call. -/
theorem C33_witness :
    (twoLevelConflict.seen, twoLevelConflict.ccmin_mode) = ([false, false, false], 2) ∧
    (AStat twoLevelConflict ∧ SeenClear twoLevelConflict ∧ ConflictAt twoLevelConflict 1 ∧
      0 < twoLevelConflict.decisionLevel ∧ StampsFresh twoLevelConflict ∧
      twoLevelConflict.MYFLAG + 2 < 2 ^ 32 ∧
      twoLevelConflict.assigns.length ≤ twoLevelConflict.permDiff.length) ∧
    (analyze twoLevelConflict 1).map (fun r => (r.1, r.2.2.2.seen)) =
      some ([3, 1], [false, false, false]) ∧
    (analyze { twoLevelConflict with ccmin_mode := 1 } 1).map (fun r => (r.1, r.2.2.2.seen)) =
      some ([3, 1], [false, false, false]) ∧
    (analyze { twoLevelConflict with ccmin_mode := 0 } 1).map (fun r => (r.1, r.2.2.2.seen)) =
      some ([3, 1], [false, false, false]) ∧
    ((litRedundantInner (2 ^ 32 - 1) [3, 1] { impliedChain with analyze_stack := [] }).1,
      (litRedundantInner (2 ^ 32 - 1) [3, 1]
        { impliedChain with analyze_stack := [] }).2.seen,
      (litRedundantInner (2 ^ 32 - 1) [3, 1]
        { impliedChain with analyze_stack := [] }).2.analyze_toclear) =
      (false, [false, true, false], [3]) ∧
    (impliedChain.seen, impliedChain.analyze_toclear) = ([false, false, false], []) ∧
    (litRedundant impliedChain 5 (2 ^ 32 - 1)).map
      (fun r => (r.1, r.2.seen, r.2.analyze_toclear)) = some (false, [false, false, false], []) ∧
    ((∀ m : Nat, ∃ r, analyze { twoLevelConflict with ccmin_mode := m } 1 = some r ∧
      SeenClear r.2.2.2) ∧
    (∀ (t : Solver) (p al : Nat) (r : Solver), litRedundant t p al = some (false, r) →
      r.seen = t.seen ∧ r.analyze_toclear = t.analyze_toclear)) :=
  ⟨by decide,
   ⟨⟨by decide, by decide, by decide, by decide, by decide⟩, by decide, by decide, by decide,
     twoLevelConflict_fresh, by decide, by decide⟩,
   by decide, by decide, by decide, by decide, by decide, by decide,
   C33_analyze_clears_seen twoLevelConflict 1
     ⟨by decide, by decide, by decide, by decide, by decide⟩ (by decide) (by decide)
     (by decide) twoLevelConflict_fresh (by decide) (by decide)⟩

/-- C15: when `propagate`, called in a well-formed state under the watched-literal invariant,
reports the conflict `confl` at a decision level above 0, in a state where no variable is
marked in `seen`, a literal without reason above level 0 is the first of its level, no stamp
of `permDiff` is above `MYFLAG`, `MYFLAG + 2` does not wrap and `permDiff` has an entry for
every variable, `analyze` returns a clause `out` and a level `bt` such that: the complement of
`out[0]` stands on the trail at the current decision level and every other literal of `out`
is of a lower level; every literal of `out` is false; `bt` is 0 when `out` has one literal;
otherwise `out[1]` is of the highest level among `out[1..]`, and `bt` is that level, below
the current one.  Assignment, levels and trail are those of the call. -/
theorem C15_analyze_asserting (s : Solver) (A : List Nat) (confl : Nat) (t : Solver)
    (h : PropEntry s A) (h2 : ∀ cr ∈ A, WatchedInv s cr)
    (hp : propagate s = some (some confl, t)) (hD : 0 < t.decisionLevel)
    (hfirst : DecisionFirst t) (hclear : SeenClear t) (hfresh : StampsFresh t)
    (hwrap : t.MYFLAG + 2 < 2 ^ 32) (hperm : t.assigns.length ≤ t.permDiff.length) :
    ∃ out bt lbd u, analyze t confl = some (out, bt, lbd, u) ∧
      (u.assigns = t.assigns ∧ u.vardata = t.vardata ∧ u.trail = t.trail ∧
        u.trail_lim = t.trail_lim) ∧
      1 ≤ out.length ∧
      neg (out.getD 0 0) ∈ u.trail ∧ u.level (var (out.getD 0 0)) = u.decisionLevel ∧
      (∀ i, 1 ≤ i → i < out.length → u.level (var (out.getD i 0)) < u.decisionLevel) ∧
      (∀ l ∈ out, u.value l = l_False) ∧
      (out.length = 1 → bt = 0) ∧
      (out.length ≠ 1 →
        (∀ i, 1 ≤ i → i < out.length →
          u.level (var (out.getD i 0)) ≤ u.level (var (out.getD 1 0))) ∧
        bt = u.level (var (out.getD 1 0)) ∧ bt < u.decisionLevel) := by
  obtain ⟨hwf, hto, hsl, hri, hconf⟩ := propagate_conflict h h2 hp
  have hst : AStat t := ⟨hwf, hto, hsl, hri, hfirst⟩
  obtain ⟨r, hr, _⟩ := analyze_stages t confl hst hclear hconf hD hfresh hwrap hperm _ rfl
  obtain ⟨p1, p2, p3, p4, p5, p6, p7, p8⟩ :=
    analyze_post t confl hst hclear hconf hD hfresh hwrap hperm r hr
  have hrun := analyze_run t confl r hr
  obtain ⟨out, bt, lbd, u⟩ := r
  have q1 : u.assigns = t.assigns := p1
  have q2 : u.vardata = t.vardata := p2
  have q3 : 1 ≤ out.length := p3
  have q4 : neg (out.getD 0 0) ∈ t.trail := p4
  have q5 : t.decisionLevel ≤ t.level (var (out.getD 0 0)) := p5
  have q6 : ∀ q ∈ out.drop 1, neg q ∈ t.trail ∧ t.level (var q) < t.decisionLevel := p6
  have q7 : out.length = 1 → bt = 0 := p7
  have q8 : out.length ≠ 1 →
      (∀ i, 1 ≤ i → i < out.length →
        t.level (var (out.getD i 0)) ≤ t.level (var (out.getD 1 0))) ∧
      bt = t.level (var (out.getD 1 0)) := p8
  have ht : u.trail = t.trail := hrun.trail_eq
  have hl : u.trail_lim = t.trail_lim := hrun.trail_lim_eq
  have hlev : u.level = t.level := funext (level_congr q2)
  have hdl : u.decisionLevel = t.decisionLevel := by
    unfold decisionLevel
    rw [hl]
  have hval : ∀ l, u.value l = t.value l := by
    intro l
    unfold value
    rw [q1]
  have hlow : ∀ i, 1 ≤ i → i < out.length → t.level (var (out.getD i 0)) < t.decisionLevel := by
    intro i i1 i2
    exact (q6 _ ((mem_drop_one_iff out _).2 ⟨i, i1, i2, rfl⟩)).2
  have hfalse : ∀ l, neg l ∈ t.trail → t.value l = l_False := by
    intro l hl2
    exact value_neg_true.1 (hto.1 _ hl2).2
  refine ⟨out, bt, lbd, u, hr, ⟨q1, q2, ht, hl⟩, q3, ?_, ?_, ?_, ?_, q7, ?_⟩
  · rw [ht]
    exact q4
  · rw [hlev, hdl]
    have hle := level_le_decisionLevel hwf q4
    rw [var_neg] at hle
    exact Nat.le_antisymm hle q5
  · intro i i1 i2
    rw [hlev, hdl]
    exact hlow i i1 i2
  · intro l hlm
    rw [hval]
    apply hfalse
    cases out with
    | nil => exact absurd hlm (List.not_mem_nil _)
    | cons x rest =>
      rcases List.mem_cons.1 hlm with e | e
      · rw [e]
        exact q4
      · exact (q6 l e).1
  · intro hne
    obtain ⟨g1, g2⟩ := q8 hne
    rw [hlev, hdl]
    refine ⟨g1, g2, ?_⟩
    rw [g2]
    exact hlow 1 (Nat.le_refl _) (by omega)

/-- C15 at work: `propagate` reports the clause 1 of `twoLevelState` in conflict at level 2,
in the state `twoLevelConflict`; `analyze` returns `(¬x2 ∨ ¬x1)` and the backtrack level 1:
`x2` is the decision of level 2, `x1` that of level 1. -/
theorem C15_witness :
    (PropEntry twoLevelState [0, 1] ∧ (∀ cr ∈ ([0, 1] : List Nat), WatchedInv twoLevelState cr) ∧
      (propagate twoLevelState).map Prod.fst = some (some 1) ∧
      0 < twoLevelConflict.decisionLevel ∧ DecisionFirst twoLevelConflict ∧
      SeenClear twoLevelConflict ∧ twoLevelConflict.MYFLAG + 2 < 2 ^ 32 ∧
      twoLevelConflict.assigns.length ≤ twoLevelConflict.permDiff.length) ∧
    (analyze twoLevelConflict 1).map (fun r => (r.1, r.2.1)) = some ([3, 1], 1) ∧
    (twoLevelConflict.trail, twoLevelConflict.decisionLevel,
      twoLevelConflict.level 0, twoLevelConflict.level 1) = ([0, 2, 4], 2, 1, 2) ∧
    ∃ out bt lbd u, analyze twoLevelConflict 1 = some (out, bt, lbd, u) ∧
      (u.assigns = twoLevelConflict.assigns ∧ u.vardata = twoLevelConflict.vardata ∧
        u.trail = twoLevelConflict.trail ∧ u.trail_lim = twoLevelConflict.trail_lim) ∧
      1 ≤ out.length ∧
      neg (out.getD 0 0) ∈ u.trail ∧ u.level (var (out.getD 0 0)) = u.decisionLevel ∧
      (∀ i, 1 ≤ i → i < out.length → u.level (var (out.getD i 0)) < u.decisionLevel) ∧
      (∀ l ∈ out, u.value l = l_False) ∧
      (out.length = 1 → bt = 0) ∧
      (out.length ≠ 1 →
        (∀ i, 1 ≤ i → i < out.length →
          u.level (var (out.getD i 0)) ≤ u.level (var (out.getD 1 0))) ∧
        bt = u.level (var (out.getD 1 0)) ∧ bt < u.decisionLevel) :=
  have hP : PropEntry twoLevelState [0, 1] :=
    ⟨by decide, by decide, by decide, by decide, by decide, by decide, by decide, by decide,
      by decide⟩
  ⟨⟨hP, by decide, by decide, by decide, by decide, by decide, by decide, by decide⟩,
    by decide, by decide,
    C15_analyze_asserting twoLevelState [0, 1] 1 twoLevelConflict hP (by decide) (by rfl)
      (by decide) (by decide) (by decide) twoLevelConflict_fresh (by decide) (by decide)⟩

end Solver

end Glucose
